import Mathlib

/-! # Verification development for the DPLL(T) core (`src/src/smt_core.c`)

Shallow embedding of the Boolean core of the solver: literals, three-valued
assignment, clause store, watched lists, binary vectors, assignment stack,
propagation, conflict analysis and learned-clause installation.

Conventions of the embedding
* `literal_t`, `bvar_t` are `Int` (the C type is `int32_t`; the end markers are
  negative).  Arrays indexed by literal or variable are total functions
  `Int → _`; a write is `upd`.
* A `clause_t *` is a handle (`Nat`) into `smt_core_t.clauses`.  The literal
  array `cl->cl` is the list `cl` followed by its end marker.
* The intrusive watch lists are lists of links `(clause handle, index)`.
* `stack.lit[0 .. top-1]` is the list `stack.lit`; `top` is its length.
* The lemma queue is the list `lemmas` of the queued literal arrays.
* The variable heap `s->heap` is the separate record `var_heap_t`: the
  functions of the core that also touch the heap have a companion on the heap
  (`create_boolean_variable_heap`, `backtrack_heap`), and
  `select_unassigned_literal` takes the core and the heap.  Activities of type
  `double` are elements of a linearly ordered ring.
* Clause activities, statistics and the atom table are not part of this
  embedding; calls that only touch them are dropped.
* Loops whose termination depends on the data take a fuel argument and return
  an `Option`; `none` stands for a run that does not return.
* Calls into the theory solver are recorded in `th_calls`.
-/

namespace SmtCore

/-! ## Literals and values -/

/-- Array write: `a[i] = v`. -/
def upd {α : Type} (a : Int → α) (i : Int) (v : α) : Int → α :=
  fun j => if j = i then v else a j

/-- Write into the clause memory: `*c = v`. -/
def updN {α : Type} (a : Nat → α) (i : Nat) (v : α) : Nat → α :=
  fun j => if j = i then v else a j

/-- Modelled from the spec: `null_literal` of smt_core.h (not under src/); the
literal vectors are terminated by -1. -/
def null_literal : Int := -1

/-- End marker of a problem clause. -/
def end_clause : Int := -1

/-- End marker of a learned clause. -/
def end_learned : Int := -2

/-- Modelled from the spec: the predefined literals of variable 0. -/
def true_literal : Int := 0

/-- Modelled from the spec: the predefined literals of variable 0. -/
def false_literal : Int := 1

/-- Modelled from the spec: the constant variable. -/
def const_bvar : Int := 0

/-- Modelled from the spec: `pos_lit(x)` is `2·x` (smt_core.h is not under src/). -/
def pos_lit (x : Int) : Int := 2 * x

/-- Modelled from the spec: `neg_lit(x)` is `2·x + 1`. -/
def neg_lit (x : Int) : Int := 2 * x + 1

/-- Modelled from the spec: `var_of(l)` is `l >> 1`. -/
def var_of (l : Int) : Int := l / 2

/-- Modelled from the spec: `not(l)` is `l ^ 1`, negation toggles the low bit. -/
def not_lit (l : Int) : Int := if l % 2 = 0 then l + 1 else l - 1

/-- Modelled from the spec: `is_pos(l)` is `!(l & 1)`. -/
def is_pos (l : Int) : Bool := l % 2 = 0

/-- Three-valued assignment `bval_t`. -/
inductive bval_t
  | VAL_FALSE
  | VAL_UNDEF
  | VAL_TRUE
  deriving DecidableEq, Repr

open bval_t

/-- Modelled from the spec: the numeric encoding of `bval_t` (smt_core.h is not
under src/): False = 0, Undef = 1, True = 2. -/
def bval_t.code : bval_t → Nat
  | VAL_FALSE => 0
  | VAL_UNDEF => 1
  | VAL_TRUE => 2

/-- Largest `uint32_t`. -/
def UINT32_MAX : Nat := 4294967295

/-! ## Clauses, antecedents, links -/

/-- Clause object: `cl` holds the literals, `learned` selects the end marker. -/
structure clause_t where
  cl : List Int
  learned : Bool
  deriving DecidableEq, Repr

/-- End marker stored after the last literal. -/
def clause_t.end_marker (c : clause_t) : Int :=
  if c.learned then end_learned else end_clause

/-- Read of `cl->cl[k]`; index `length` holds the end marker. -/
def clause_t.get (c : clause_t) (k : Nat) : Int :=
  c.cl.getD k c.end_marker

/-- The whole array `cl->cl`, end marker included. -/
def clause_t.array (c : clause_t) : List Int :=
  c.cl ++ [c.end_marker]

/-- Allocation of a problem clause from `len` literals. -/
def new_clause (lit : List Int) : clause_t :=
  { cl := lit, learned := false }

/-- Allocation of a learned clause from `len` literals. -/
def new_learned_clause (lit : List Int) : clause_t :=
  { cl := lit, learned := true }

def get_first_watch (c : clause_t) : Int := c.get 0

def get_second_watch (c : clause_t) : Int := c.get 1

/-- Watched literal of index `1 - i` (`i ^ 1`). -/
def get_other_watch (c : clause_t) (i : Nat) : Int := c.get (1 - i)

/-- Flip the sign of both watched slots. -/
def mark_for_removal (c : clause_t) : clause_t :=
  { c with cl := (c.cl.set 0 (- c.get 0)).set 1 (- c.get 1) }

def is_clause_to_be_removed (c : clause_t) : Bool :=
  decide (c.get 0 < 0) || decide (c.get 1 < 0)

def restore_removed_clause (c : clause_t) : clause_t :=
  { c with cl := (c.cl.set 0 (- c.get 0)).set 1 (- c.get 1) }

/-- Antecedent of an assignment: tagged pointer with four variants. -/
inductive antecedent_t
  | clause0 (c : Nat)
  | clause1 (c : Nat)
  | literal (l : Int)
  | generic (e : Nat)
  deriving DecidableEq, Repr

def mk_literal_antecedent (l : Int) : antecedent_t := antecedent_t.literal l

def mk_clause0_antecedent (c : Nat) : antecedent_t := antecedent_t.clause0 c

def mk_clause1_antecedent (c : Nat) : antecedent_t := antecedent_t.clause1 c

def mk_clause_antecedent (c : Nat) (i : Nat) : antecedent_t :=
  if i = 0 then antecedent_t.clause0 c else antecedent_t.clause1 c

def mk_generic_antecedent (e : Nat) : antecedent_t := antecedent_t.generic e

/-- Link of a watch list: clause handle and index of the watched slot. -/
abbrev link_t := Nat × Nat

/-! ## Solver state -/

/-- Assignment stack. -/
structure prop_stack_t where
  lit : List Int
  level_index : Nat → Nat
  prop_ptr : Nat
  theory_ptr : Nat

def prop_stack_t.top (s : prop_stack_t) : Nat := s.lit.length

/-- Record saved by `smt_push`. -/
structure trail_t where
  nvars : Nat
  nunits : Nat
  nbins : Nat
  nclauses : Nat
  prop_ptr : Nat
  theory_ptr : Nat
  deriving DecidableEq, Repr

structure checkpoint_t where
  dlevel : Nat
  nvars : Nat
  deriving DecidableEq, Repr

inductive smt_status_t
  | STATUS_IDLE
  | STATUS_SEARCHING
  | STATUS_UNKNOWN
  | STATUS_SAT
  | STATUS_UNSAT
  | STATUS_INTERRUPTED
  deriving DecidableEq, Repr

/-- Calls made to the theory solver through `th_ctrl` / `th_smt`. -/
inductive th_call_t
  | increase_decision_level
  | backtrack (level : Nat)
  | push
  | pop
  | expand_explanation (l : Int) (e : Nat)
  | start_search
  | assert_atom (a : Nat) (l : Int)
  | propagate
  | delete_atom (a : Nat)
  | end_atom_deletion
  | start_internalization
  deriving DecidableEq, Repr

/-- The core.  `USE_END_WATCH` is the compile-time flag of smt_core.h (not under
src/), kept as a constant field; `expand` is the theory solver's
`expand_explanation`; `remove_duplicates` is `ivector_remove_duplicates` of
int_vectors.c (not under src/), left uninterpreted; `lemmas` is the content of
the lemma queue, one literal list per lemma, in the order of the blocks. -/
structure smt_core_t where
  USE_END_WATCH : Bool
  push_pop_enabled : Bool
  clean_interrupt_enabled : Bool
  expand : Int → Nat → List Int
  remove_duplicates : List Int → List Int
  th_calls : List th_call_t
  status : smt_status_t
  nvars : Nat
  nlits : Nat
  nb_clauses : Nat
  nb_prob_clauses : Nat
  nb_bin_clauses : Nat
  nb_unit_clauses : Nat
  decision_level : Nat
  base_level : Nat
  th_cache_enabled : Bool
  th_cache_cl_size : Nat
  th_conflict_size : Nat
  inconsistent : Bool
  theory_conflict : Bool
  conflict_buffer : List Int
  conflict : List Int
  false_clause : Option Nat
  buffer : List Int
  buffer2 : List Int
  explanation : List Int
  clauses : Nat → clause_t
  nclauses_alloc : Nat
  problem_clauses : List Nat
  learned_clauses : List Nat
  binary_clauses : List Int
  antecedent : Int → antecedent_t
  level : Int → Nat
  mark : Int → Bool
  polarity : Int → Bool
  value : Int → bval_t
  bin : Int → Option (List Int)
  watch : Int → List link_t
  stack : prop_stack_t
  trail_stack : List trail_t
  checkpoints : List checkpoint_t
  cp_flag : Bool
  simplify_bottom : Nat
  aux_literals : Nat
  aux_clauses : Nat
  lemmas : List (List Int)

/-! ## Initialisation and variable allocation -/

def init_stack (s : prop_stack_t) : prop_stack_t :=
  { lit := [], level_index := fun k => if k = 0 then 0 else s.level_index k,
    prop_ptr := 0, theory_ptr := 0 }

/-- Modes of `init_smt_core`. -/
inductive smt_mode_t
  | SMT_MODE_BASIC
  | SMT_MODE_PUSHPOP
  | SMT_MODE_INTERACTIVE
  deriving DecidableEq, Repr

/-- `init_smt_core`: `s` stands for the uninitialised memory the fields are
written into.  `push_pop_enabled` and `clean_interrupt_enabled` are the two bits
of `option_flag`. -/
def init_smt_core (s : smt_core_t) (mode : smt_mode_t) : smt_core_t :=
  { s with
    push_pop_enabled := decide (mode ≠ smt_mode_t.SMT_MODE_BASIC)
    clean_interrupt_enabled :=
      decide (mode ≠ smt_mode_t.SMT_MODE_BASIC ∧ mode ≠ smt_mode_t.SMT_MODE_PUSHPOP)
    th_calls := []
    status := smt_status_t.STATUS_IDLE
    nvars := 1
    nlits := 2
    nb_clauses := 0
    nb_prob_clauses := 0
    nb_bin_clauses := 0
    nb_unit_clauses := 0
    decision_level := 0
    base_level := 0
    th_cache_enabled := false
    th_cache_cl_size := 0
    inconsistent := false
    theory_conflict := false
    conflict := []
    false_clause := none
    buffer := []
    buffer2 := []
    explanation := []
    nclauses_alloc := 0
    problem_clauses := []
    learned_clauses := []
    binary_clauses := []
    level := upd (upd s.level (-1) UINT32_MAX) const_bvar 0
    value := upd (upd (upd (upd s.value (-2) VAL_UNDEF) (-1) VAL_UNDEF)
               true_literal VAL_TRUE) false_literal VAL_FALSE
    mark := upd s.mark const_bvar true
    bin := upd (upd s.bin true_literal none) false_literal none
    watch := upd (upd s.watch true_literal []) false_literal []
    stack := init_stack s.stack
    trail_stack := []
    checkpoints := []
    cp_flag := false
    simplify_bottom := 0
    aux_clauses := 0
    lemmas := [] }

def init_variable (s : smt_core_t) (x : Int) : smt_core_t :=
  let l0 := pos_lit x
  let l1 := neg_lit x
  { s with
    mark := upd s.mark x false
    polarity := upd s.polarity x false
    level := upd s.level x UINT32_MAX
    antecedent := upd s.antecedent x (mk_literal_antecedent null_literal)
    value := upd (upd s.value l0 VAL_UNDEF) l1 VAL_UNDEF
    bin := upd (upd s.bin l0 none) l1 none
    watch := upd (upd s.watch l0 []) l1 [] }

/-- The new variable is `s.nvars`; the state after the call is returned. -/
def create_boolean_variable (s : smt_core_t) : smt_core_t :=
  let s1 := init_variable s s.nvars
  { s1 with nvars := s1.nvars + 1, nlits := s1.nlits + 2 }

/-! ## Assignments -/

def push_literal (s : prop_stack_t) (l : Int) : prop_stack_t :=
  { s with lit := s.lit ++ [l] }

def assign_literal (s : smt_core_t) (l : Int) : smt_core_t :=
  let v := var_of l
  { s with
    value := upd (upd s.value l VAL_TRUE) (not_lit l) VAL_FALSE
    stack := push_literal s.stack l
    level := upd s.level v s.base_level
    antecedent := upd s.antecedent v (mk_literal_antecedent null_literal)
    mark := upd s.mark v true }

def decide_literal (s : smt_core_t) (l : Int) : smt_core_t :=
  let k := s.decision_level + 1
  let v := var_of l
  { s with
    decision_level := k
    stack := push_literal
      { s.stack with level_index := fun j => if j = k then s.stack.top else s.stack.level_index j } l
    value := upd (upd s.value l VAL_TRUE) (not_lit l) VAL_FALSE
    level := upd s.level v k
    antecedent := upd s.antecedent v (mk_literal_antecedent null_literal)
    th_calls := s.th_calls ++ [th_call_t.increase_decision_level] }

def implied_literal (s : smt_core_t) (l : Int) (a : antecedent_t) : smt_core_t :=
  let v := var_of l
  { s with
    value := upd (upd s.value l VAL_TRUE) (not_lit l) VAL_FALSE
    stack := push_literal s.stack l
    level := upd s.level v s.decision_level
    antecedent := upd s.antecedent v a
    mark := if s.decision_level = s.base_level then upd s.mark v true else s.mark
    nb_unit_clauses :=
      if s.decision_level = s.base_level then s.nb_unit_clauses + 1 else s.nb_unit_clauses }

def propagate_literal (s : smt_core_t) (l : Int) (expl : Nat) : smt_core_t :=
  let v := var_of l
  { s with
    value := upd (upd s.value l VAL_TRUE) (not_lit l) VAL_FALSE
    stack := push_literal s.stack l
    level := upd s.level v s.decision_level
    antecedent := upd s.antecedent v (mk_generic_antecedent expl)
    mark := if s.decision_level = s.base_level then upd s.mark v true else s.mark
    nb_unit_clauses :=
      if s.decision_level = s.base_level then s.nb_unit_clauses + 1 else s.nb_unit_clauses }

/-! ## Backtracking -/

/-- Body of the `while (i > k)` loop of `backtrack` for the literal `l = u[i]`. -/
def backtrack_undo (s : smt_core_t) (l : Int) : smt_core_t :=
  { s with
    value := upd (upd s.value l VAL_UNDEF) (not_lit l) VAL_UNDEF
    polarity := upd s.polarity (var_of l) (is_pos l) }

def top_checkpoint_dlevel (cp : List checkpoint_t) : Option Nat :=
  cp.head?.map (fun c => c.dlevel)

def backtrack (s : smt_core_t) (back_level : Nat) : smt_core_t :=
  let k := s.stack.level_index (back_level + 1)
  let s1 := (s.stack.lit.drop k).reverse.foldl backtrack_undo s
  let kept := s.stack.lit.take k
  { s1 with
    stack := { s1.stack with lit := kept, prop_ptr := kept.length, theory_ptr := kept.length }
    decision_level := back_level
    cp_flag := match s1.checkpoints.head? with
      | some c => decide (c.dlevel ≥ back_level)
      | none => false }

def backtrack_to_level (s : smt_core_t) (back_level : Nat) : smt_core_t :=
  if back_level < s.decision_level then
    let s1 := backtrack s back_level
    { s1 with th_calls := s1.th_calls ++ [th_call_t.backtrack back_level] }
  else s

def backtrack_to_base_level (s : smt_core_t) : smt_core_t :=
  backtrack_to_level s s.base_level

/-! ## Push and pop -/

/-- Insertion of a link into `watch[l]`: at the end of the list when
`USE_END_WATCH` is set, at the head otherwise. -/
def watch_add (s : smt_core_t) (l : Int) (lnk : link_t) : smt_core_t :=
  { s with watch := upd s.watch l (if s.USE_END_WATCH then s.watch l ++ [lnk] else lnk :: s.watch l) }

def remove_all_learned_clauses (s : smt_core_t) : smt_core_t :=
  { s with
    clauses :=
      s.learned_clauses.foldl (fun m c => updN m c (mark_for_removal (m c))) s.clauses }

def remove_problem_clauses (s : smt_core_t) (n : Nat) : smt_core_t :=
  { s with
    clauses :=
      (s.problem_clauses.drop n).foldl
        (fun m c => if is_clause_to_be_removed (m c) then m else updN m c (mark_for_removal (m c)))
        s.clauses }

def reset_watch_lists (s : smt_core_t) : smt_core_t :=
  { s with watch := fun l => if 0 ≤ l ∧ l < s.nlits then [] else s.watch l }

/-- Body of the last loop of `restore_clauses` for `cl = v[i]`. -/
def restore_clauses_step (s : smt_core_t) (c : Nat) : smt_core_t :=
  let s1 : smt_core_t :=
    if is_clause_to_be_removed (s.clauses c) then
      { s with clauses := updN s.clauses c (restore_removed_clause (s.clauses c)) }
    else s
  let s2 := watch_add s1 ((s1.clauses c).get 0) (c, 0)
  watch_add s2 ((s2.clauses c).get 1) (c, 1)

def restore_clauses (s : smt_core_t) (n : Nat) : smt_core_t :=
  let s1 := reset_watch_lists (remove_problem_clauses (remove_all_learned_clauses s) n)
  let s2 : smt_core_t :=
    { s1 with learned_clauses := [], problem_clauses := s1.problem_clauses.take n }
  let s3 := s2.problem_clauses.foldl restore_clauses_step s2
  { s3 with nb_clauses := n, nb_prob_clauses := n }

def literal_vector_pop (v : Option (List Int)) : Option (List Int) :=
  v.map List.dropLast

/-- Loop of `restore_binary_clauses` over the removed entries, last first. -/
def restore_binary_loop (bin : Int → Option (List Int)) : List Int → (Int → Option (List Int))
  | l0 :: l1 :: rest =>
      let b1 := upd bin l0 (literal_vector_pop (bin l0))
      restore_binary_loop (upd b1 l1 (literal_vector_pop (b1 l1))) rest
  | _ => bin

def restore_binary_clauses (s : smt_core_t) (n : Nat) : smt_core_t :=
  { s with
    nb_bin_clauses := s.nb_bin_clauses - (s.binary_clauses.length - n) / 2
    bin := restore_binary_loop s.bin (s.binary_clauses.drop n).reverse
    binary_clauses := s.binary_clauses.take n }

def restore_variables (s : smt_core_t) (n : Nat) : smt_core_t :=
  { s with
    bin := fun l => if 2 * (n : Int) ≤ l ∧ l < 2 * (s.nvars : Int) then none else s.bin l
    watch := fun l => if 2 * (n : Int) ≤ l ∧ l < 2 * (s.nvars : Int) then [] else s.watch l
    nvars := n
    nlits := 2 * n }

def clear_base_level_marks (s : smt_core_t) : smt_core_t :=
  { s with
    mark :=
      (s.stack.lit.drop (s.stack.level_index s.base_level)).foldl
        (fun m l => upd m (var_of l) false) s.mark }

/-- Second half of `smt_pop`, after the top record of the trail stack is read. -/
def smt_pop_restore (s3 : smt_core_t) (top : trail_t) (rest : List trail_t) : smt_core_t :=
  let s4 := restore_binary_clauses (restore_clauses s3 top.nclauses) top.nbins
  let s5 := backtrack { s4 with base_level := s4.base_level - 1 } (s4.base_level - 1)
  let s6 := restore_variables { s5 with nb_unit_clauses := top.nunits } top.nvars
  { s6 with
    stack := { s6.stack with prop_ptr := top.prop_ptr, theory_ptr := top.theory_ptr }
    trail_stack := rest
    status := smt_status_t.STATUS_IDLE }

/-- `smt_pop`; with an empty trail stack the C code reads outside the
stack, the model then returns the state unchanged. -/
def smt_pop (s : smt_core_t) : smt_core_t :=
  let s1 := backtrack_to_base_level s
  let s3 := clear_base_level_marks { s1 with th_calls := s1.th_calls ++ [th_call_t.pop] }
  match s3.trail_stack with
  | [] => s
  | top :: rest => smt_pop_restore s3 top rest

def smt_clear (s : smt_core_t) : smt_core_t :=
  if s.clean_interrupt_enabled then smt_pop s
  else { backtrack_to_base_level s with status := smt_status_t.STATUS_IDLE }

def trail_stack_save (s : smt_core_t) : smt_core_t :=
  { s with
    trail_stack :=
      { nvars := s.nvars, nunits := s.nb_unit_clauses, nbins := s.binary_clauses.length,
        nclauses := s.problem_clauses.length, prop_ptr := s.stack.prop_ptr,
        theory_ptr := s.stack.theory_ptr } :: s.trail_stack }

def smt_push (s : smt_core_t) : smt_core_t :=
  let s1 :=
    if s.status = smt_status_t.STATUS_UNKNOWN ∨ s.status = smt_status_t.STATUS_SAT
    then smt_clear s else s
  let s2 := trail_stack_save s1
  let k := s2.base_level + 1
  { s2 with
    th_calls := s2.th_calls ++ [th_call_t.push]
    base_level := k
    decision_level := k
    stack := { s2.stack with
      level_index := fun j => if j = k then s2.stack.top else s2.stack.level_index j } }

/-! ## Dynamic atoms -/

/-- Loop of `purge_all_dynamic_atoms` over `u[0 .. k-1]`: returns the value
array and the literals kept. -/
def purge_loop (base_nvars : Nat) (value : Int → bval_t) : List Int → (Int → bval_t) × List Int
  | [] => (value, [])
  | l :: u =>
      if var_of l ≥ (base_nvars : Int) then
        purge_loop base_nvars (upd (upd value l VAL_UNDEF) (not_lit l) VAL_UNDEF) u
      else
        let r := purge_loop base_nvars value u
        (r.1, l :: r.2)

def purge_all_dynamic_atoms (s : smt_core_t) : smt_core_t :=
  match s.checkpoints.getLast? with
  | none => s
  | some cp =>
    let r := purge_loop cp.nvars s.value s.stack.lit
    { s with
      value := r.1
      stack := { s.stack with lit := r.2, prop_ptr := r.2.length, theory_ptr := r.2.length }
      nb_unit_clauses := r.2.length }

/-- States reachable from `init_smt_core` by the operations that write the
value array (`smt_push` is included so that `smt_pop` has a saved state);
literal arguments are valid literals. -/
inductive ReachableValue : smt_core_t → Prop
  | init (m : smt_core_t) (mode : smt_mode_t) : ReachableValue (init_smt_core m mode)
  | create (s : smt_core_t) : ReachableValue s → ReachableValue (create_boolean_variable s)
  | assign (s : smt_core_t) (l : Int) : ReachableValue s → 0 ≤ l → l < s.nlits →
      ReachableValue (assign_literal s l)
  | decide (s : smt_core_t) (l : Int) : ReachableValue s → 0 ≤ l → l < s.nlits →
      ReachableValue (decide_literal s l)
  | implied (s : smt_core_t) (l : Int) (a : antecedent_t) : ReachableValue s → 0 ≤ l →
      l < s.nlits → ReachableValue (implied_literal s l a)
  | propagate (s : smt_core_t) (l : Int) (e : Nat) : ReachableValue s → 0 ≤ l →
      l < s.nlits → ReachableValue (propagate_literal s l e)
  | backtrack (s : smt_core_t) (k : Nat) : ReachableValue s → ReachableValue (backtrack s k)
  | push (s : smt_core_t) : ReachableValue s → ReachableValue (smt_push s)
  | pop (s : smt_core_t) : ReachableValue s → ReachableValue (smt_pop s)
  | purge (s : smt_core_t) : ReachableValue s → ReachableValue (purge_all_dynamic_atoms s)

/-- Negation swaps True and False and fixes Undef on the literals below `n`. -/
def ValSym (v : Int → bval_t) (n : Nat) : Prop :=
  ∀ l : Int, 0 ≤ l → l < n → (v (not_lit l)).code = 2 - (v l).code

/-- The saved variable counts never exceed the current count. -/
def TrailStackOk : Nat → List trail_t → Prop
  | _, [] => True
  | n, t :: rest => t.nvars ≤ n ∧ TrailStackOk t.nvars rest

/-- Invariant carried along `ReachableValue`. -/
structure ValueInv (s : smt_core_t) : Prop where
  nlits_eq : s.nlits = 2 * s.nvars
  sym : ValSym s.value s.nlits
  end1 : s.value (-1) = VAL_UNDEF
  end2 : s.value (-2) = VAL_UNDEF
  trail_nonneg : ∀ l ∈ s.stack.lit, 0 ≤ l
  saved : TrailStackOk s.nvars s.trail_stack

/-- Fields of the assignment that the clause-store functions leave alone. -/
def SameAssignment (s t : smt_core_t) : Prop :=
  t.nvars = s.nvars ∧ t.nlits = s.nlits ∧ t.value = s.value ∧ t.stack = s.stack ∧
  t.trail_stack = s.trail_stack ∧ t.checkpoints = s.checkpoints ∧
  t.decision_level = s.decision_level ∧ t.base_level = s.base_level


/-- An empty memory image, used to run the functions on concrete inputs. -/
def blank_core : smt_core_t :=
  { USE_END_WATCH := false, push_pop_enabled := false, clean_interrupt_enabled := false,
    expand := fun _ _ => [], remove_duplicates := fun v => v.dedup, th_calls := [], status := smt_status_t.STATUS_IDLE,
    nvars := 0, nlits := 0, nb_clauses := 0, nb_prob_clauses := 0, nb_bin_clauses := 0,
    nb_unit_clauses := 0, decision_level := 0, base_level := 0, th_cache_enabled := false,
    th_cache_cl_size := 0, th_conflict_size := 0, inconsistent := false,
    theory_conflict := false, conflict_buffer := [], conflict := [], false_clause := none,
    buffer := [], buffer2 := [], explanation := [],
    clauses := fun _ => { cl := [], learned := false }, nclauses_alloc := 0,
    problem_clauses := [], learned_clauses := [], binary_clauses := [],
    antecedent := fun _ => antecedent_t.literal (-1), level := fun _ => 0,
    mark := fun _ => false, polarity := fun _ => false, value := fun _ => bval_t.VAL_TRUE,
    bin := fun _ => none, watch := fun _ => [],
    stack := { lit := [], level_index := fun _ => 0, prop_ptr := 0, theory_ptr := 0 },
    trail_stack := [], checkpoints := [], cp_flag := false, simplify_bottom := 0,
    aux_literals := 0, aux_clauses := 0, lemmas := [] }

/-- A core with two variables besides the constant. -/
def core3 : smt_core_t :=
  create_boolean_variable
    (create_boolean_variable (init_smt_core blank_core smt_mode_t.SMT_MODE_PUSHPOP))

/-- A core with three variables besides the constant. -/
def core4 : smt_core_t := create_boolean_variable core3

/-! ## Conflicts -/

/-- Write of `a[0..]` at the start of a fixed array. -/
def write_prefix (buf : List Int) (a : List Int) : List Int :=
  a ++ buf.drop a.length

def record_binary_conflict (s : smt_core_t) (l0 l1 : Int) : smt_core_t :=
  { s with
    inconsistent := true
    conflict_buffer := write_prefix s.conflict_buffer [l0, l1, end_clause]
    conflict := write_prefix s.conflict_buffer [l0, l1, end_clause] }

/-- `s->conflict = cl->cl`: the conflict is the literal array of the clause. -/
def record_clause_conflict (s : smt_core_t) (c : Nat) : smt_core_t :=
  { s with
    inconsistent := true
    false_clause := some c
    conflict := (s.clauses c).array }

/-- The array `a` ends with `null_literal`. -/
def record_theory_conflict (s : smt_core_t) (a : List Int) : smt_core_t :=
  { s with
    inconsistent := true
    theory_conflict := true
    false_clause := none
    conflict := a }

def record_empty_theory_conflict (s : smt_core_t) : smt_core_t :=
  let s1 : smt_core_t :=
    { s with conflict_buffer := write_prefix s.conflict_buffer [null_literal] }
  record_theory_conflict s1 s1.conflict_buffer

/-! ## Boolean propagation -/

/-- Propagation via the binary vector `v` of `l0`; `v` is the array, terminator
included.  The inner `do ... while (v1 == VAL_TRUE)` and the outer `for (;;)`
are one recursion on the read position.  A read past the end of the array is
outside the C semantics; the model stops there. -/
def propagation_via_bin_vector (s : smt_core_t) (l0 : Int) : List Int → Bool × smt_core_t
  | [] => (true, s)
  | l1 :: v =>
    if s.value l1 = VAL_TRUE then propagation_via_bin_vector s l0 v
    else if l1 < 0 then (true, s)
    else if s.value l1 = VAL_UNDEF then
      propagation_via_bin_vector (implied_literal s l1 (mk_literal_antecedent l0)) l0 v
    else (false, record_binary_conflict s l0 l1)

/-- The loop `do { k++; l = b[k]; } while (val[l] == VAL_FALSE)` over the part of
the array that starts at index `k`: returns the final `k` and `l`.  A read past
the end marker is outside the C semantics; the model returns the terminator. -/
def scan_false (val : Int → bval_t) : List Int → Nat → Nat × Int
  | [], k => (k, null_literal)
  | l :: b, k => if val l = VAL_FALSE then scan_false val b (k + 1) else (k, l)

/-- The writes `b[k] = b[i]; b[i] = l`. -/
def swap_watch (c : clause_t) (i k : Nat) (l : Int) : clause_t :=
  { c with cl := (c.cl.set k (c.get i)).set i l }

/-- Loop of `propagation_via_watched_list`: `links` is the rest of the list that
starts at `link`, `kept` holds (last first) the links already stored back
through `list`. -/
def propagation_via_watched_list_loop (l0 : Int) :
    List link_t → smt_core_t → List link_t → Bool × smt_core_t
  | [], s, kept => (true, { s with watch := upd s.watch l0 kept.reverse })
  | (c, i) :: rest, s, kept =>
    let l1 := get_other_watch (s.clauses c) i
    if s.value l1 = VAL_TRUE then
      propagation_via_watched_list_loop l0 rest s ((c, i) :: kept)
    else
      let r := scan_false s.value ((s.clauses c).array.drop 2) 2
      if r.2 ≥ 0 then
        let s1 : smt_core_t :=
          { s with clauses := updN s.clauses c (swap_watch (s.clauses c) i r.1 r.2) }
        propagation_via_watched_list_loop l0 rest (watch_add s1 r.2 (c, i)) kept
      else if s.value l1 = VAL_UNDEF then
        propagation_via_watched_list_loop l0 rest
          (implied_literal s l1 (mk_clause_antecedent c (1 - i))) ((c, i) :: kept)
      else
        let s1 := record_clause_conflict s c
        (false, { s1 with watch := upd s1.watch l0 (kept.reverse ++ (c, i) :: rest) })

def propagation_via_watched_list (s : smt_core_t) (l0 : Int) : Bool × smt_core_t :=
  propagation_via_watched_list_loop l0 (s.watch l0) s []

/-- Body of the `for` loop of `boolean_propagation` for `l = not(queue[i])`. -/
def boolean_propagation_step (s : smt_core_t) (l : Int) : Bool × smt_core_t :=
  match s.bin l with
  | none => propagation_via_watched_list s l
  | some v =>
    let r := propagation_via_bin_vector s l (v ++ [null_literal])
    if r.1 then propagation_via_watched_list r.2 l else (false, r.2)

/-- The `for (i = prop_ptr; i < top; i++)` loop; `fuel` bounds the number of
iterations. -/
def boolean_propagation_loop : Nat → Nat → smt_core_t → Option (Bool × smt_core_t)
  | 0, _, _ => none
  | fuel + 1, i, s =>
    if i < s.stack.top then
      let r := boolean_propagation_step s (not_lit (s.stack.lit.getD i 0))
      if r.1 then boolean_propagation_loop fuel (i + 1) r.2 else some (false, r.2)
    else some (true, { s with stack := { s.stack with prop_ptr := i } })

def boolean_propagation (fuel : Nat) (s : smt_core_t) : Option (Bool × smt_core_t) :=
  boolean_propagation_loop fuel s.stack.prop_ptr s

/-- Walk of `bin[l0]` in the words of the specification: every companion is
True (skip), Undef (set True with antecedent the literal `l0`) or False
(binary conflict `{l0, m}`). -/
def bin_walk_spec (s : smt_core_t) (l0 : Int) : List Int → Bool × smt_core_t
  | [] => (true, s)
  | m :: ms =>
    match s.value m with
    | VAL_TRUE => bin_walk_spec s l0 ms
    | VAL_UNDEF => bin_walk_spec (implied_literal s m (mk_literal_antecedent l0)) l0 ms
    | VAL_FALSE => (false, record_binary_conflict s l0 m)

/-! ## Binary clauses -/

/-- Append `l` to a literal vector; a null vector is allocated first. -/
def add_literal_to_vector (v : Option (List Int)) (l : Int) : Option (List Int) :=
  match v with
  | none => some [l]
  | some d => some (d ++ [l])

def direct_binary_clause (s : smt_core_t) (l1 l2 : Int) : smt_core_t :=
  let b1 := upd s.bin l1 (add_literal_to_vector (s.bin l1) l2)
  { s with
    bin := upd b1 l2 (add_literal_to_vector (b1 l2) l1)
    nb_bin_clauses := s.nb_bin_clauses + 1
    binary_clauses :=
      if s.base_level > 0 then s.binary_clauses ++ [l1, l2] else s.binary_clauses }

/-! ## Problem clauses -/

/-- Allocation in the clause memory: the new clause gets a fresh handle. -/
def alloc_clause (s : smt_core_t) (c : clause_t) : smt_core_t :=
  { s with clauses := updN s.clauses s.nclauses_alloc c, nclauses_alloc := s.nclauses_alloc + 1 }

/-- `new_problem_clause`: the clause is the handle `s.nclauses_alloc`. -/
def new_problem_clause (s : smt_core_t) (a : List Int) : smt_core_t :=
  let cl := s.nclauses_alloc
  let s1 := alloc_clause s (new_clause a)
  let s2 : smt_core_t := { s1 with problem_clauses := s1.problem_clauses ++ [cl] }
  let s3 := watch_add s2 (a.getD 0 0) (cl, 0)
  let s4 := watch_add s3 (a.getD 1 0) (cl, 1)
  { s4 with nb_prob_clauses := s4.nb_prob_clauses + 1, nb_clauses := s4.nb_clauses + 1 }

/-! ## Invariants of the assignment and of the clause store -/

/-- Literal of a variable other than the constant: `2 ≤ l < nlits` (the
literals 0 and 1 of the constant are assigned by `init_smt_core` and are never
on the assignment stack). -/
def valid_lit (s : smt_core_t) (l : Int) : Prop := 2 ≤ l ∧ l < s.nlits

instance (s : smt_core_t) (l : Int) : Decidable (valid_lit s l) := by
  unfold valid_lit; infer_instance

instance (v : Int → bval_t) (n : Nat) : Decidable (ValSym v n) := by
  unfold ValSym; infer_instance

/-- Well-formed assignment: the value array is symmetric, the end markers
are Undef, and the assignment stack holds exactly the true literals of the
variables other than the constant, once. -/
structure AssignInv (s : smt_core_t) : Prop where
  nlits_eq : s.nlits = 2 * s.nvars
  sym : ValSym s.value s.nlits
  end1 : s.value (-1) = VAL_UNDEF
  end2 : s.value (-2) = VAL_UNDEF
  trail_valid : ∀ l ∈ s.stack.lit, valid_lit s l
  trail_true : ∀ l : Int, 2 ≤ l → l < s.nlits → (s.value l = VAL_TRUE ↔ l ∈ s.stack.lit)
  trail_nodup : s.stack.lit.Nodup

/-- Clause handles held by the two clause vectors. -/
def stored (s : smt_core_t) : List Nat := s.problem_clauses ++ s.learned_clauses

/-- Clause of the store that is not marked for removal. -/
def active (s : smt_core_t) (c : Nat) : Prop :=
  c ∈ stored s ∧ is_clause_to_be_removed (s.clauses c) = false

instance (s : smt_core_t) (c : Nat) : Decidable (active s c) := by
  unfold active; infer_instance

/-- Every unmarked stored clause has at least two literals, all valid and
pairwise distinct. -/
structure ClauseInv (s : smt_core_t) : Prop where
  len : ∀ c ∈ stored s, is_clause_to_be_removed (s.clauses c) = false →
    2 ≤ (s.clauses c).cl.length
  valid : ∀ c ∈ stored s, is_clause_to_be_removed (s.clauses c) = false →
    ∀ k, k < (s.clauses c).cl.length → valid_lit s ((s.clauses c).get k)
  distinct : ∀ c ∈ stored s, is_clause_to_be_removed (s.clauses c) = false →
    ∀ k, k < (s.clauses c).cl.length → ∀ j, j < k → (s.clauses c).get j ≠ (s.clauses c).get k

/-- Watched-literal index for the lists `w`: each list has no repetition and
holds links `(c, j)` of unmarked stored clauses with `c[j] = l`, and every
unmarked stored clause is on the lists of its two watched literals. -/
structure WatchInvW (s : smt_core_t) (w : Int → List link_t) : Prop where
  nodup : ∀ l : Int, 0 ≤ l → l < s.nlits → (w l).Nodup
  sound : ∀ l : Int, 0 ≤ l → l < s.nlits → ∀ lnk ∈ w l,
    active s lnk.1 ∧ lnk.2 < 2 ∧ (s.clauses lnk.1).get lnk.2 = l
  complete : ∀ c ∈ stored s, is_clause_to_be_removed (s.clauses c) = false →
    ∀ j, j < 2 → (c, j) ∈ w ((s.clauses c).get j)

/-- Watched-literal index invariant of the core. -/
def WatchInv (s : smt_core_t) : Prop := WatchInvW s s.watch

/-- The binary vectors of valid literals hold valid literals. -/
def BinInv (s : smt_core_t) : Prop :=
  ∀ l : Int, 0 ≤ l → l < s.nlits → ∀ m ∈ (s.bin l).getD [], valid_lit s m

/-- `x` occurs in the assignment stack `tr` strictly before `l`. -/
def before (tr : List Int) (x l : Int) : Prop := x ∈ tr.takeWhile (fun y => decide (y ≠ l))

instance (tr : List Int) (x l : Int) : Decidable (before tr x l) := by
  unfold before; infer_instance

/-- Decision levels along the assignment stack: they never exceed the
decision level, they are nondecreasing, and `level_index[k]` is the number of
assigned literals of level below `k`. -/
structure LevelInv (s : smt_core_t) : Prop where
  base_le : s.base_level ≤ s.decision_level
  le_dl : ∀ l ∈ s.stack.lit, s.level (var_of l) ≤ s.decision_level
  sorted : s.stack.lit.Pairwise (fun a b => s.level (var_of a) ≤ s.level (var_of b))
  index_le : ∀ k, k ≤ s.decision_level → s.stack.level_index k ≤ s.stack.top
  index : ∀ k, k ≤ s.decision_level →
    s.stack.lit.take (s.stack.level_index k)
      = s.stack.lit.filter (fun l => decide (s.level (var_of l) < k))

/-- The antecedent `a` explains the literal `l` given the literals `tr` assigned
before it: every other literal of the antecedent clause (or the antecedent
literal) is false and its negation is in `tr`; the literals of a theory
explanation are true and in `tr`. -/
def ante_ok (s : smt_core_t) (tr : List Int) (l : Int) : antecedent_t → Prop
  | antecedent_t.literal m =>
      m = null_literal ∨ (valid_lit s m ∧ s.value m = VAL_FALSE ∧ not_lit m ∈ tr)
  | antecedent_t.clause0 c =>
      active s c ∧ (s.clauses c).get 0 = l ∧
      ∀ k, k < (s.clauses c).cl.length → k ≠ 0 →
        s.value ((s.clauses c).get k) = VAL_FALSE ∧ not_lit ((s.clauses c).get k) ∈ tr
  | antecedent_t.clause1 c =>
      active s c ∧ (s.clauses c).get 1 = l ∧
      ∀ k, k < (s.clauses c).cl.length → k ≠ 1 →
        s.value ((s.clauses c).get k) = VAL_FALSE ∧ not_lit ((s.clauses c).get k) ∈ tr
  | antecedent_t.generic e =>
      ∀ m ∈ s.expand l e, valid_lit s m ∧ s.value m = VAL_TRUE ∧ m ∈ tr

instance (s : smt_core_t) (tr : List Int) (l : Int) (a : antecedent_t) :
    Decidable (ante_ok s tr l a) := by
  cases a <;> unfold ante_ok <;> infer_instance

/-- Antecedent causality: the antecedent of every assigned literal explains it
from literals that precede it in the assignment stack. -/
def AnteInv (s : smt_core_t) : Prop :=
  ∀ l ∈ s.stack.lit,
    ante_ok s (s.stack.lit.takeWhile (fun y => decide (y ≠ l))) l (s.antecedent (var_of l))

/-- The marked variables are the variables assigned at a level at most
`base_level`. -/
def MarkInv (s : smt_core_t) : Prop :=
  ∀ x : Int, 0 ≤ x → x < s.nvars →
    (s.mark x = true ↔ (s.value (pos_lit x) ≠ VAL_UNDEF ∧ s.level x ≤ s.base_level))

/-- All assigned literals among the first `i` of the stack have been propagated
through the clauses: a false watched literal whose negation is among them has a
true companion watch. -/
def Propagated (s : smt_core_t) (i : Nat) : Prop :=
  ∀ c ∈ stored s, is_clause_to_be_removed (s.clauses c) = false → ∀ j, j < 2 →
    s.value ((s.clauses c).get j) = VAL_FALSE →
    not_lit ((s.clauses c).get j) ∈ s.stack.lit.take i →
    s.value ((s.clauses c).get (1 - j)) = VAL_TRUE

/-- Invariant of the core during Boolean propagation. -/
structure CoreInv (s : smt_core_t) : Prop where
  assign : AssignInv s
  clause : ClauseInv s
  watch : WatchInv s
  bin : BinInv s
  level : LevelInv s
  ante : AnteInv s
  mark : MarkInv s

/-- The invariants of `CoreInv` that do not mention the watch lists. -/
structure BaseInv (s : smt_core_t) : Prop where
  assign : AssignInv s
  clause : ClauseInv s
  bin : BinInv s
  level : LevelInv s
  ante : AnteInv s
  mark : MarkInv s

/-- Clause an antecedent points to. -/
def antecedent_t.clause? : antecedent_t → Option Nat
  | antecedent_t.clause0 c => some c
  | antecedent_t.clause1 c => some c
  | _ => none

/-- State of the walk of `watch[l0]`: `cur` is the list as it will be linked
(the links stored back so far, then the rest), `rest` the links still to visit;
every clause watching `l0` that is not in `rest` has a true companion watch. -/
structure WalkInv (s : smt_core_t) (l0 : Int) (i : Nat) (cur rest : List link_t) : Prop where
  base : BaseInv s
  watch : WatchInvW s (upd s.watch l0 cur)
  prop : Propagated s i
  done : ∀ c ∈ stored s, is_clause_to_be_removed (s.clauses c) = false → ∀ j, j < 2 →
    (s.clauses c).get j = l0 → (c, j) ∉ rest → s.value ((s.clauses c).get (1 - j)) = VAL_TRUE

/-- Literals of a conflict array, up to its (negative) terminator. -/
def conflict_literals (a : List Int) : List Int := a.takeWhile (fun l => decide (0 ≤ l))

/-- Terminator of a conflict array. -/
def conflict_end (a : List Int) : Option Int := (a.dropWhile (fun l => decide (0 ≤ l))).head?

/-- The recorded conflict is a terminated array of false literals. -/
def FalseConflict (s : smt_core_t) : Prop :=
  (∃ e, conflict_end s.conflict = some e) ∧
  ∀ l ∈ conflict_literals s.conflict, valid_lit s l ∧ s.value l = VAL_FALSE

instance (s : smt_core_t) : Decidable (FalseConflict s) := by
  unfold FalseConflict
  have : Decidable (∃ e, conflict_end s.conflict = some e) := by
    cases h : conflict_end s.conflict with
    | none => exact isFalse (fun ⟨e, he⟩ => by cases he)
    | some e => exact isTrue ⟨e, rfl⟩
  infer_instance

/-- Every stored clause handle has been allocated. -/
def AllocInv (s : smt_core_t) : Prop := ∀ c ∈ stored s, c < s.nclauses_alloc

instance (s : smt_core_t) : Decidable (AllocInv s) := by
  unfold AllocInv; infer_instance

/-! ## Relations between states -/

/-- `t` keeps the clause store of `s` and the value of every literal assigned in `s`. -/
structure Extends (s t : smt_core_t) : Prop where
  nlits : t.nlits = s.nlits
  nvars : t.nvars = s.nvars
  clauses : t.clauses = s.clauses
  problem : t.problem_clauses = s.problem_clauses
  learned : t.learned_clauses = s.learned_clauses
  expand : t.expand = s.expand
  value : ∀ x, s.value x ≠ VAL_UNDEF → t.value x = s.value x

/-- `t` is reached from `s` by propagation: same variables, clause vectors,
binary vectors and levels; the stack grows at its end and assigned literals keep
their value. -/
structure Grows (s t : smt_core_t) : Prop where
  nlits : t.nlits = s.nlits
  nvars : t.nvars = s.nvars
  problem : t.problem_clauses = s.problem_clauses
  learned : t.learned_clauses = s.learned_clauses
  expand : t.expand = s.expand
  bin : t.bin = s.bin
  dl : t.decision_level = s.decision_level
  bl : t.base_level = s.base_level
  trail : ∃ new, t.stack.lit = s.stack.lit ++ new
  value : ∀ x, s.value x ≠ VAL_UNDEF → t.value x = s.value x
  tc : t.theory_conflict = s.theory_conflict
  alloc : t.nclauses_alloc = s.nclauses_alloc

/-! ## Unassignment of a list of literals -/

/-- Value array after the literals `ds` have been unassigned, in that order
(the writes of the loop of `backtrack`). -/
def undo_value (v : Int → bval_t) (ds : List Int) : Int → bval_t :=
  ds.foldl (fun v l => upd (upd v l VAL_UNDEF) (not_lit l) VAL_UNDEF) v

/-- Polarity array after the literals `ds` have been unassigned. -/
def undo_polarity (p : Int → Bool) (ds : List Int) : Int → Bool :=
  ds.foldl (fun p l => upd p (var_of l) (is_pos l)) p

/-! ## Learned clauses -/

def d_level (s : smt_core_t) (l : Int) : Nat := s.level (var_of l)

/-- The loop `for (i=2; i<n; i++)` of `add_learned_clause` over `a[i ..]`:
`jk` is the pair `(j, k)`. -/
def second_level_loop (level : Int → Nat) : List Int → Nat → Nat × Nat → Nat × Nat
  | [], _, jk => jk
  | x :: rest, i, jk =>
    if level (var_of x) > jk.2 then second_level_loop level rest (i + 1) (i, level (var_of x))
    else second_level_loop level rest (i + 1) jk

/-- The pair `(j, k)` at the end of the loop of `add_learned_clause`: `k` is the
highest level among `a[1 ..]` and `j` the first index where it is found. -/
def second_level (s : smt_core_t) (a : List Int) : Nat × Nat :=
  second_level_loop s.level (a.drop 2) 2 (1, s.level (var_of (a.getD 1 0)))

/-- The array `a` after the swap of `a[1]` and `a[j]`. -/
def swap_second (a : List Int) (j : Nat) : List Int :=
  (a.set j (a.getD 1 0)).set 1 (a.getD j 0)

/-- Array left in `a` by `add_learned_clause` (it is reordered in place when
`n ≥ 3`). -/
def learned_clause_order (s : smt_core_t) (a : List Int) : List Int :=
  if a.length ≤ 2 then a
  else swap_second a (second_level s a).1

/-- The clause `a` is allocated as a learned clause, appended to the vector of
learned clauses and linked into the watch lists of `a[0]` and `a[1]`. -/
def link_learned_clause (s : smt_core_t) (a : List Int) : smt_core_t :=
  let cl := s.nclauses_alloc
  let s1 := alloc_clause s (new_learned_clause a)
  let s2 : smt_core_t := { s1 with learned_clauses := s1.learned_clauses ++ [cl] }
  let s3 := watch_add s2 (a.getD 0 0) (cl, 0)
  let s4 := watch_add s3 (a.getD 1 0) (cl, 1)
  { s4 with nb_clauses := s4.nb_clauses + 1 }

/-- `add_learned_clause(s, n, a)` with `n = a.length`; `n` must be at least 1. -/
def add_learned_clause (s : smt_core_t) (a : List Int) : smt_core_t :=
  let l0 := a.getD 0 0
  if a.length = 1 then
    let s1 := backtrack_to_base_level s
    if s1.value l0 = VAL_FALSE then
      { s1 with
        inconsistent := true
        conflict_buffer := write_prefix s1.conflict_buffer [l0, end_clause]
        conflict := write_prefix s1.conflict_buffer [l0, end_clause] }
    else
      let s2 := assign_literal s1 l0
      { s2 with nb_unit_clauses := s2.nb_unit_clauses + 1 }
  else if a.length = 2 then
    let l1 := a.getD 1 0
    let k := s.level (var_of l1)
    let s1 := direct_binary_clause s l0 l1
    let s2 := backtrack_to_level s1 k
    implied_literal s2 l0 (mk_literal_antecedent l1)
  else
    let jk := second_level s a
    let a2 := swap_second a jk.1
    let s5 := link_learned_clause s a2
    let s6 := backtrack_to_level s5 jk.2
    implied_literal s6 l0 (mk_clause0_antecedent s.nclauses_alloc)

/-- Preconditions of `add_learned_clause`: the literals are valid, false and
pairwise distinct, `a[0]` has a level above the level of the others, and the
others are not below the base level. -/
structure LearnedPre (s : smt_core_t) (a : List Int) : Prop where
  len : 1 ≤ a.length
  valid : ∀ l ∈ a, valid_lit s l
  is_false : ∀ l ∈ a, s.value l = VAL_FALSE
  nodup : a.Nodup
  top : ∀ i, i < a.length → 1 ≤ i → d_level s (a.getD i 0) < d_level s (a.getD 0 0)
  base : ∀ i, i < a.length → 1 ≤ i → s.base_level ≤ d_level s (a.getD i 0)

/-! ## Search states -/

/-- States reachable from `s0` by decisions, Boolean propagation, installation of
learned clauses and backtracking, each operation under the precondition the
source asserts for it. -/
inductive SearchReachable (s0 : smt_core_t) : smt_core_t → Prop
  | start : SearchReachable s0 s0
  | decide {s : smt_core_t} (l : Int) : SearchReachable s0 s → valid_lit s l →
      s.value l = VAL_UNDEF → SearchReachable s0 (decide_literal s l)
  | propagate {s : smt_core_t} (fuel : Nat) (b : Bool) (t : smt_core_t) :
      SearchReachable s0 s → boolean_propagation fuel s = some (b, t) → SearchReachable s0 t
  | learn {s : smt_core_t} (a : List Int) : SearchReachable s0 s → LearnedPre s a →
      SearchReachable s0 (add_learned_clause s a)
  | backtrack {s : smt_core_t} (k : Nat) : SearchReachable s0 s → s.base_level ≤ k →
      k < s.decision_level → SearchReachable s0 (backtrack s k)

/-- Literals of the antecedent `a` of the implied literal `l`, besides `l`
itself: the antecedent literal, or the other literals of the antecedent
clause. -/
def antecedent_literals (s : smt_core_t) (l : Int) : antecedent_t → List Int
  | antecedent_t.literal m => if m = null_literal then [] else [m]
  | antecedent_t.clause0 c => (s.clauses c).cl.filter (fun m => decide (m ≠ l))
  | antecedent_t.clause1 c => (s.clauses c).cl.filter (fun m => decide (m ≠ l))
  | antecedent_t.generic _ => []

/-- Antecedent causality in the words of the specification: every literal of the
antecedent of an assigned literal `l` is true and occurs in the assignment stack
strictly before `l`. -/
def antecedents_true_before (s : smt_core_t) : Prop :=
  ∀ l ∈ s.stack.lit, ∀ m ∈ antecedent_literals s l (s.antecedent (var_of l)),
    s.value m = VAL_TRUE ∧ before s.stack.lit m l

/-- Antecedent causality as the code has it: every literal of the antecedent of
an assigned literal `l` is false, and its negation is true and occurs in the
assignment stack strictly before `l`. -/
def antecedents_false_before (s : smt_core_t) : Prop :=
  ∀ l ∈ s.stack.lit, ∀ m ∈ antecedent_literals s l (s.antecedent (var_of l)),
    s.value m = VAL_FALSE ∧ s.value (not_lit m) = VAL_TRUE ∧ before s.stack.lit (not_lit m) l

instance (s : smt_core_t) : Decidable (antecedents_true_before s) := by
  unfold antecedents_true_before; infer_instance

instance (s : smt_core_t) : Decidable (antecedents_false_before s) := by
  unfold antecedents_false_before; infer_instance

/-! ## Conflict analysis -/

/-- The loop of `get_conflict_level` over the literals of `a`: the pair is
`(k, i)`. -/
def get_conflict_level_loop (s : smt_core_t) : List Int → Nat × Nat → Nat × Nat
  | [], ki => ki
  | l :: rest, ki =>
    if l < 0 then ki
    else get_conflict_level_loop s rest (if d_level s l > ki.1 then d_level s l else ki.1, ki.2 + 1)

/-- `get_conflict_level(s, a)`: the level, and the core with `th_conflict_size`
set. -/
def get_conflict_level (s : smt_core_t) (a : List Int) : Nat × smt_core_t :=
  let ki := get_conflict_level_loop s a (s.base_level, 0)
  (ki.1, { s with th_conflict_size := ki.2 })

/-- Search of `try_cache_theory_clause` for the first index `≥ i` of a literal
of level `d` (`none` when there is none). -/
def find_level (s : smt_core_t) (d : Nat) : List Int → Nat → Option Nat
  | [], _ => none
  | l :: rest, i => if d_level s l = d then some i else find_level s d rest (i + 1)

/-- `try_cache_theory_clause(s, n, a)` with `n = a.length`. -/
def try_cache_theory_clause (s : smt_core_t) (a : List Int) : Bool × smt_core_t :=
  let d := s.decision_level
  if a.length = 2 then
    if d_level s (a.getD 0 0) = d ∧ d_level s (a.getD 1 0) = d then
      (true, direct_binary_clause s (a.getD 0 0) (a.getD 1 0))
    else (false, s)
  else if a.length > 2 then
    match find_level s d a 0 with
    | none => (false, s)
    | some j =>
      match find_level s d (a.drop (j + 1)) (j + 1) with
      | none => (false, s)
      | some i =>
        let l0 := a.getD j 0
        let l1 := a.getD i 0
        let a1 := (a.set j (a.getD 0 0)).set 0 l0
        let a2 := (a1.set i (a1.getD 1 0)).set 1 l1
        (true, link_learned_clause s a2)
  else (false, s)

/-- `try_cache_theory_conflict(s, n, a)`: `a` holds the `n` literals. -/
def try_cache_theory_conflict (s : smt_core_t) (a : List Int) : smt_core_t :=
  if a.length < 2 ∨ a.length > s.th_cache_cl_size then s
  else
    let v := a.filter (fun l => decide (d_level s l > s.base_level))
    let s1 : smt_core_t := { s with buffer2 := s.remove_duplicates (s.buffer2 ++ v) }
    let r := try_cache_theory_clause s1 s1.buffer2
    { r.2 with buffer2 := [] }

/-- `try_cache_theory_implication(s, n, a, l0)`: `a` holds the `n` literals. -/
def try_cache_theory_implication (s : smt_core_t) (a : List Int) (l0 : Int) : smt_core_t :=
  if a.length = 0 ∨ a.length ≥ s.th_cache_cl_size then s
  else
    let v := (a.filter (fun l => decide (d_level s l > s.base_level))).map not_lit
    let s1 : smt_core_t := { s with buffer2 := s.remove_duplicates (s.buffer2 ++ l0 :: v) }
    let r := try_cache_theory_clause s1 s1.buffer2
    { r.2 with buffer2 := [] }

/-- `explain_antecedent(s, l, a)` for the generic antecedent `e`. -/
def explain_antecedent (s : smt_core_t) (l : Int) (e : Nat) : smt_core_t :=
  { s with
    explanation := s.expand l e
    th_calls := s.th_calls ++ [th_call_t.expand_explanation l e] }

/-- `signature(s, b, n)`: the bits `1 << (d_level(b[i]) & 31)`. -/
def signature (s : smt_core_t) (b : List Int) : Nat :=
  b.foldl (fun u l => u ||| (1 <<< (d_level s l % 32))) 0

def check_level (s : smt_core_t) (l : Int) (sgn : Nat) : Bool :=
  decide (sgn &&& (1 <<< (d_level s l % 32)) ≠ 0)

/-- The statements `set_lit_mark(s, l1); ivector_push(b, l1)` of
`analyze_antecedents`. -/
def mark_and_push (s : smt_core_t) (l1 : Int) : smt_core_t :=
  { s with mark := upd s.mark (var_of l1) true, buffer2 := s.buffer2 ++ [l1] }

/-- The loops of `analyze_antecedents` that test `check_level`. -/
def analyze_loop (sgn : Nat) : List Int → smt_core_t → Bool × smt_core_t
  | [], s => (true, s)
  | l1 :: rest, s =>
    if s.mark (var_of l1) = false then
      if check_level s l1 sgn then analyze_loop sgn rest (mark_and_push s l1)
      else (false, s)
    else analyze_loop sgn rest s

/-- Literals of a clause array from slot 2 up to the end marker. -/
def clause_tail (c : clause_t) : List Int :=
  (c.array.drop 2).takeWhile (fun l => decide (0 ≤ l))

def analyze_antecedents (s : smt_core_t) (l : Int) (sgn : Nat) : Bool × smt_core_t :=
  match s.antecedent (var_of l) with
  | antecedent_t.literal l1 =>
    if l1 = null_literal then (false, s)
    else (true, if s.mark (var_of l1) = false then mark_and_push s l1 else s)
  | antecedent_t.clause0 c =>
    let l1 := (s.clauses c).get 1
    let s1 := if s.mark (var_of l1) = false then mark_and_push s l1 else s
    analyze_loop sgn (clause_tail (s.clauses c)) s1
  | antecedent_t.clause1 c =>
    let l1 := (s.clauses c).get 0
    let s1 := if s.mark (var_of l1) = false then mark_and_push s l1 else s
    analyze_loop sgn (clause_tail (s.clauses c)) s1
  | antecedent_t.generic e =>
    let s1 := explain_antecedent s (not_lit l) e
    analyze_loop sgn (s1.explanation.map not_lit) s1

/-- The `while` loop of `subsumed`; `fuel` bounds the number of iterations. -/
def subsumed_loop (sgn : Nat) : Nat → smt_core_t → Int → Nat → Option (Bool × smt_core_t)
  | 0, _, _, _ => none
  | fuel + 1, s, l, i =>
    let r := analyze_antecedents s l sgn
    if r.1 then
      if i < r.2.buffer2.length then subsumed_loop sgn fuel r.2 (r.2.buffer2.getD i 0) (i + 1)
      else some (true, r.2)
    else some (false, r.2)

/-- Clear the marks of the literals of `v`. -/
def clear_marks (m : Int → Bool) (v : List Int) : Int → Bool :=
  v.foldl (fun m l => upd m (var_of l) false) m

def subsumed (fuel : Nat) (s : smt_core_t) (l : Int) (sgn : Nat) : Option (Bool × smt_core_t) :=
  let n := s.buffer2.length
  match subsumed_loop sgn fuel s l n with
  | none => none
  | some (true, t) => some (true, t)
  | some (false, t) =>
    some (false, { t with mark := clear_marks t.mark (t.buffer2.drop n), buffer2 := t.buffer2.take n })

/-- The first loop of `simplify_learned_clause` over `b[i ..]`; `kept` is
`b[0 .. j-1]`. -/
def simplify_loop (fuel : Nat) (sgn : Nat) :
    List Int → smt_core_t → List Int → Option (smt_core_t × List Int)
  | [], s, kept => some (s, kept)
  | l :: rest, s, kept =>
    match subsumed fuel s l sgn with
    | none => none
    | some (true, t) => simplify_loop fuel sgn rest { t with buffer2 := t.buffer2 ++ [l] } kept
    | some (false, t) => simplify_loop fuel sgn rest t (kept ++ [l])

def simplify_learned_clause (fuel : Nat) (s : smt_core_t) : Option smt_core_t :=
  match simplify_loop fuel (signature s (s.buffer.drop 1)) (s.buffer.drop 1) s (s.buffer.take 1) with
  | none => none
  | some (t, kept) =>
    some { t with
      buffer := kept
      mark := clear_marks (clear_marks t.mark kept) t.buffer2
      buffer2 := [] }

/-- The macro `process_literal(l)`; the second component is `unresolved`. -/
def process_literal (conflict_level : Nat) (su : smt_core_t × Nat) (l : Int) : smt_core_t × Nat :=
  let x := var_of l
  if su.1.mark x = false then
    let s1 : smt_core_t := { su.1 with mark := upd su.1.mark x true }
    if s1.level x < conflict_level then ({ s1 with buffer := s1.buffer ++ [l] }, su.2)
    else (s1, su.2 + 1)
  else su

/-- Walk of `resolve_conflict` down the assignment stack; the list holds
`stack[j-1], stack[j-2], ..., stack[0]`, and the result is `none` when `j` runs
below 0. -/
def resolve_walk (conflict_level : Nat) : List Int → smt_core_t → Nat → Option smt_core_t
  | [], _, _ => none
  | b :: rest, s, unresolved =>
    if s.mark (var_of b) = true then
      if unresolved = 1 then some { s with buffer := s.buffer.set 0 (not_lit b) }
      else
        let s1 : smt_core_t := { s with mark := upd s.mark (var_of b) false }
        let u1 := unresolved - 1
        match s1.antecedent (var_of b) with
        | antecedent_t.clause0 c =>
          let r := ((s1.clauses c).get 1 :: clause_tail (s1.clauses c)).foldl
            (process_literal conflict_level) (s1, u1)
          resolve_walk conflict_level rest r.1 r.2
        | antecedent_t.clause1 c =>
          let r := ((s1.clauses c).get 0 :: clause_tail (s1.clauses c)).foldl
            (process_literal conflict_level) (s1, u1)
          resolve_walk conflict_level rest r.1 r.2
        | antecedent_t.literal l =>
          let r := process_literal conflict_level (s1, u1) l
          resolve_walk conflict_level rest r.1 r.2
        | antecedent_t.generic e =>
          let s2 := explain_antecedent s1 b e
          let r := (s2.explanation.map not_lit).foldl (process_literal conflict_level) (s2, u1)
          let s3 := if r.1.th_cache_enabled then
            try_cache_theory_implication r.1 r.1.explanation b else r.1
          resolve_walk conflict_level rest s3 r.2
    else resolve_walk conflict_level rest s unresolved

/-- First part of `resolve_conflict`: the conflict level, after the backtracking
and the caching done for a theory conflict. -/
def resolve_conflict_level (s : smt_core_t) : Nat × smt_core_t :=
  if s.theory_conflict then
    let r := get_conflict_level s s.conflict
    let s2 := backtrack_to_level r.2 r.1
    (r.1, if s2.th_cache_enabled then
        try_cache_theory_conflict s2 (conflict_literals s.conflict) else s2)
  else (s.decision_level, s)

/-- The clause built by `resolve_conflict` in `s->buffer` by resolution from a
conflict of level `k`, before `simplify_learned_clause` is called. -/
def build_learned_clause (k : Nat) (s : smt_core_t) (c : List Int) : Option smt_core_t :=
  let s1 : smt_core_t := { s with buffer := [null_literal] }
  let r := (conflict_literals c).foldl (process_literal k) (s1, 0)
  resolve_walk k r.1.stack.lit.reverse r.1 r.2

/-- State of `resolve_conflict` when it calls `add_learned_clause` (`none` if it
does not get there); `fuel` bounds the iterations of each call of `subsumed`. -/
def analyze_conflict (fuel : Nat) (k : Nat) (s : smt_core_t) (c : List Int) : Option smt_core_t :=
  match build_learned_clause k s c with
  | none => none
  | some s3 =>
    match simplify_learned_clause fuel s3 with
    | none => none
    | some s4 => some { s4 with inconsistent := false, theory_conflict := false }

def resolve_conflict (fuel : Nat) (s : smt_core_t) : Option smt_core_t :=
  let r := resolve_conflict_level s
  if r.1 = r.2.base_level then some r.2
  else
    match analyze_conflict fuel r.1 r.2 s.conflict with
    | none => none
    | some s5 => some (add_learned_clause s5 s5.buffer)

/-- The branch `if (s->inconsistent)` of the loop of `smt_process`. -/
def smt_process_conflict (fuel : Nat) (s : smt_core_t) : Option smt_core_t :=
  match resolve_conflict fuel s with
  | none => none
  | some t => some (if t.inconsistent then { t with status := smt_status_t.STATUS_UNSAT } else t)

/-! ## Invariants of conflict analysis -/

/-- A literal assigned above the base level with a null antecedent is a decision:
no literal of its level precedes it in the assignment stack. -/
def NullFirst (s : smt_core_t) : Prop :=
  ∀ l ∈ s.stack.lit, s.antecedent (var_of l) = antecedent_t.literal null_literal →
    s.base_level < s.level (var_of l) →
    ∀ m ∈ s.stack.lit.takeWhile (fun y => decide (y ≠ l)),
      s.level (var_of m) < s.level (var_of l)

instance (s : smt_core_t) : Decidable (NullFirst s) := by
  unfold NullFirst; infer_instance

/-- Every stored clause that is not marked for removal has at least two
literals. -/
def ClauseLen (s : smt_core_t) : Prop :=
  ∀ c ∈ stored s, is_clause_to_be_removed (s.clauses c) = false → 2 ≤ (s.clauses c).cl.length

instance (s : smt_core_t) : Decidable (ClauseLen s) := by
  unfold ClauseLen; infer_instance

/-- What conflict analysis relies on: well-formed assignment and levels,
antecedent causality, marks on the variables assigned at the base level only,
decisions first in their level, and an empty `buffer2`. -/
structure AnalysisInv (s : smt_core_t) : Prop where
  assign : AssignInv s
  level : LevelInv s
  ante : AnteInv s
  mark : MarkInv s
  alloc : AllocInv s
  len : ClauseLen s
  first : NullFirst s
  buffer2 : s.buffer2 = []

/-- The conflict `c` is a Boolean conflict of level `k` in `s`: `k` is the
decision level, above the base level, the literals of `c` are false, and one of
them has level `k`. -/
structure ConflictAt (s : smt_core_t) (k : Nat) (c : List Int) : Prop where
  dl : s.decision_level = k
  above : s.base_level < k
  is_false : ∀ l ∈ conflict_literals c, valid_lit s l ∧ s.value l = VAL_FALSE
  top : ∃ l ∈ conflict_literals c, d_level s l = k

/-- State of the walk of `resolve_conflict`: `s0` is the state when the walk
starts, `rest` the part of the assignment stack still to visit (top first), `u`
the counter `unresolved`. -/
structure ResolveInv (s0 : smt_core_t) (k : Nat) (rest : List Int) (s : smt_core_t) (u : Nat) :
    Prop where
  value : s.value = s0.value
  level : s.level = s0.level
  lit : s.stack.lit = s0.stack.lit
  antecedent : s.antecedent = s0.antecedent
  base : s.base_level = s0.base_level
  dl : s.decision_level = s0.decision_level
  nlits : s.nlits = s0.nlits
  nvars : s.nvars = s0.nvars
  li : s.stack.level_index = s0.stack.level_index
  expand : s.expand = s0.expand
  ante : AnteInv s
  alloc : AllocInv s
  len : ClauseLen s
  buffer2 : s.buffer2 = []
  head : s.buffer.head? = some null_literal
  buf : ∀ l ∈ s.buffer.tail, valid_lit s0 l ∧ s0.value l = VAL_FALSE ∧
    s0.level (var_of l) < k ∧ s0.mark (var_of l) = false
  buf_nodup : (s.buffer.tail.map var_of).Nodup
  mark_old : ∀ x, s0.mark x = true → s.mark x = true
  mark_buf : ∀ l ∈ s.buffer.tail, s.mark (var_of l) = true
  mark_src : ∀ x, s.mark x = true → s0.mark x = true ∨ x ∈ s.buffer.tail.map var_of ∨
    ∃ l ∈ rest, var_of l = x ∧ s0.level x = k
  count : u = (rest.filter (fun l => s.mark (var_of l) && decide (s0.level (var_of l) = k))).length

/-- What the caching of a theory clause may change between `s` and `t`: clauses
are added, the assignment, the marks and the buffers are left as they are. -/
structure CacheRel (s t : smt_core_t) : Prop where
  value : t.value = s.value
  level : t.level = s.level
  stack : t.stack = s.stack
  antecedent : t.antecedent = s.antecedent
  base : t.base_level = s.base_level
  dl : t.decision_level = s.decision_level
  nlits : t.nlits = s.nlits
  nvars : t.nvars = s.nvars
  expand : t.expand = s.expand
  mark : t.mark = s.mark
  buffer : t.buffer = s.buffer
  explanation : t.explanation = s.explanation
  inconsistent : t.inconsistent = s.inconsistent
  theory_conflict : t.theory_conflict = s.theory_conflict
  conflict : t.conflict = s.conflict
  th_cache : t.th_cache_enabled = s.th_cache_enabled
  th_calls : t.th_calls = s.th_calls
  keep : ∀ c, active s c → active t c ∧ t.clauses c = s.clauses c
  alloc : AllocInv s → AllocInv t
  len : ClauseLen s → ClauseLen t

/-- State `t` of `resolve_conflict` once the clause is built in `buffer`, from
the state `s` in which the conflict of level `k` was found. -/
structure Built (s : smt_core_t) (k : Nat) (t : smt_core_t) : Prop where
  value : t.value = s.value
  level : t.level = s.level
  lit : t.stack.lit = s.stack.lit
  antecedent : t.antecedent = s.antecedent
  base : t.base_level = s.base_level
  dl : t.decision_level = s.decision_level
  nlits : t.nlits = s.nlits
  nvars : t.nvars = s.nvars
  li : t.stack.level_index = s.stack.level_index
  expand : t.expand = s.expand
  ante : AnteInv t
  alloc : AllocInv t
  len : ClauseLen t
  buffer2 : t.buffer2 = []
  nonempty : 1 ≤ t.buffer.length
  buf : ∀ l ∈ t.buffer, valid_lit s l ∧ s.value l = VAL_FALSE ∧ s.mark (var_of l) = false
  top : d_level s (t.buffer.getD 0 0) = k
  low : ∀ l ∈ t.buffer.tail, d_level s l < k
  nodup : (t.buffer.map var_of).Nodup
  marks : ∀ x, t.mark x = true ↔ (s.mark x = true ∨ x ∈ t.buffer.map var_of)

/-! ## Invariants of clause minimization -/

/-- The false literals of the antecedent of `not(l)`, in the order in which
`analyze_antecedents` reads them. -/
def antecedent_falses (s : smt_core_t) (l : Int) : List Int :=
  match s.antecedent (var_of l) with
  | antecedent_t.literal l1 => if l1 = null_literal then [] else [l1]
  | antecedent_t.clause0 c => (s.clauses c).get 1 :: clause_tail (s.clauses c)
  | antecedent_t.clause1 c => (s.clauses c).get 0 :: clause_tail (s.clauses c)
  | antecedent_t.generic e => (s.expand (not_lit l) e).map not_lit

/-- The antecedent of `not(l)` is not null. -/
def has_antecedent (s : smt_core_t) (l : Int) : Prop :=
  s.antecedent (var_of l) ≠ antecedent_t.literal null_literal

instance (s : smt_core_t) (l : Int) : Decidable (has_antecedent s l) := by
  unfold has_antecedent; infer_instance

/-- Redundancy in the words of the specification: `q` is a literal of the
learned clause `L`, or `not(q)` has a non-null antecedent all of whose literals
are redundant. -/
inductive Covered (s : smt_core_t) (L : List Int) : Int → Prop
  | in_clause {q : Int} : q ∈ L → Covered s L q
  | expand {q : Int} : has_antecedent s q →
      (∀ p ∈ antecedent_falses s q, Covered s L p) → Covered s L q

/-- Redundancy as the code decides it: a literal assigned at the base level is
also accepted (its variable is permanently marked). -/
inductive Absorbed (s : smt_core_t) (L : List Int) : Int → Prop
  | in_clause {q : Int} : q ∈ L → Absorbed s L q
  | base {q : Int} : d_level s q ≤ s.base_level → Absorbed s L q
  | expand {q : Int} : has_antecedent s q →
      (∀ p ∈ antecedent_falses s q, Absorbed s L p) → Absorbed s L q

/-- Number of variables below `n` that `m` leaves unmarked. -/
def count_unmarked (n : Nat) (m : Int → Bool) : Nat :=
  ((List.range n).filter (fun x : Nat => ! m (Int.ofNat x))).length

/-- The state `s` with other marks, `buffer2`, explanation vector and record of
the calls to the theory solver. -/
def with_marks (s : smt_core_t) (m : Int → Bool) (b2 ex : List Int) (tc : List th_call_t) :
    smt_core_t :=
  { s with mark := m, buffer2 := b2, explanation := ex, th_calls := tc }

/-! ## Valuations -/

/-- Truth value of the literal `l` under the valuation `v` of the variables. -/
def eval_lit (v : Int → Bool) (l : Int) : Bool :=
  if is_pos l then v (var_of l) else ! v (var_of l)

/-- The clause that implied `not(l)`: the literal `not(l)` and the false
literals of its antecedent. -/
def antecedent_clause (s : smt_core_t) (l : Int) : List Int :=
  not_lit l :: antecedent_falses s l

/-! ## The watched-literal index -/

/-- `cleanup_watch_list(s, l0)`: the links of `watch[l0]` whose clause is marked
for removal are unlinked, the other links keep their order. -/
def cleanup_watch_list (s : smt_core_t) (l0 : Int) : smt_core_t :=
  { s with
    watch := upd s.watch l0
      ((s.watch l0).filter (fun lnk => ! is_clause_to_be_removed (s.clauses lnk.1))) }

def cleanup_watch_lists (s : smt_core_t) : smt_core_t :=
  (List.range s.nlits).foldl (fun t i => cleanup_watch_list t (Int.ofNat i)) s

/-- Number of occurrences of `x` in the list `w`. -/
def occ {α : Type} [DecidableEq α] (w : List α) (x : α) : Nat :=
  (w.filter (fun y => decide (y = x))).length

/-- Watched-literal index in the words of the specification: an unmarked stored
clause `c` occurs in `watch[l]` exactly once with tag `i` if `c[i] = l` for `i`
in `{0, 1}`, and does not occur in `watch[l]` otherwise. -/
def WatchIndex (s : smt_core_t) : Prop :=
  ∀ l : Int, 0 ≤ l → l < s.nlits → ∀ c ∈ stored s,
    is_clause_to_be_removed (s.clauses c) = false →
    (∀ i, i < 2 → occ (s.watch l) (c, i) = if (s.clauses c).get i = l then 1 else 0) ∧
    (∀ lnk ∈ s.watch l, lnk.1 = c → lnk.2 < 2)

instance (s : smt_core_t) : Decidable (WatchIndex s) := by
  unfold WatchIndex; infer_instance

/-- Every link of a watch list refers to a clause of the clause vectors, marked
or not. -/
def LinksStored (s : smt_core_t) : Prop :=
  ∀ l : Int, 0 ≤ l → l < s.nlits → ∀ lnk ∈ s.watch l, lnk.1 ∈ stored s

instance (s : smt_core_t) : Decidable (LinksStored s) := by
  unfold LinksStored; infer_instance

/-- Every link of a watch list refers to an unmarked clause of the clause
vectors. -/
def LinksActive (s : smt_core_t) : Prop :=
  ∀ l : Int, 0 ≤ l → l < s.nlits → ∀ lnk ∈ s.watch l, active s lnk.1

instance (s : smt_core_t) : Decidable (LinksActive s) := by
  unfold LinksActive; infer_instance

/-- A problem clause `{¬x1, ¬x2, x3}` and a learned clause `{x1, x2, ¬x3}` on
`core4`, after `remove_all_learned_clauses`: the learned clause is marked for
removal and still linked on the watch lists of its two watched literals. -/
def sample_marked : smt_core_t :=
  remove_all_learned_clauses (link_learned_clause (new_problem_clause core4 [3, 5, 6]) [2, 4, 7])

/-! ## The binary-clause index -/

/-- `cleanup_binary_clause_vector(s, v)` for `v = s->bin[l1]`: the do-while loop
copies, in place, the entries of `v` whose value is Undef, the end marker being
read and copied like a literal; the new size is the number of entries copied
minus one.  The C code assumes `v` non-null. -/
def cleanup_binary_clause_vector (s : smt_core_t) (l1 : Int) : smt_core_t :=
  match s.bin l1 with
  | none => s
  | some v =>
    let kept := (v ++ [null_literal]).filter (fun l => decide (s.value l = VAL_UNDEF))
    { s with
      bin := upd s.bin l1 (some kept.dropLast)
      aux_literals := s.aux_literals + ((v.length + 1) - kept.length) }

/-- Body of the loop of `simplify_binary_vectors` for `l0 = s->stack.lit[i]`.
The vector `v0 = bin[l0]` is read while the vectors `bin[l1]` of its unassigned
literals are cleaned. -/
def simplify_binary_step (s : smt_core_t) (l0 : Int) : smt_core_t :=
  let s1 : smt_core_t :=
    match s.bin l0 with
    | none => s
    | some v0 =>
      let t := v0.foldl
        (fun t l1 => if t.value l1 = VAL_UNDEF then cleanup_binary_clause_vector t l1 else t) s
      { t with bin := upd t.bin l0 none, aux_literals := t.aux_literals + v0.length }
  match s1.bin (not_lit l0) with
  | none => s1
  | some v0 =>
    { s1 with aux_literals := s1.aux_literals + v0.length, bin := upd s1.bin (not_lit l0) none }

def simplify_binary_vectors (s : smt_core_t) : smt_core_t :=
  let s0 : smt_core_t := { s with aux_literals := 0 }
  let s1 := (s0.stack.lit.drop s0.simplify_bottom).foldl simplify_binary_step s0
  { s1 with nb_bin_clauses := s1.nb_bin_clauses - s1.aux_literals / 2, aux_literals := 0 }

/-- `cleanup_garbage_in_binary_clause_vector(s, v)` for `v = s->bin[l]`: the
entries below `max = pos_lit(nvars)` are kept, the end marker among them. -/
def cleanup_garbage_in_binary_clause_vector (s : smt_core_t) (l : Int) : smt_core_t :=
  match s.bin l with
  | none => s
  | some v =>
    let kept := (v ++ [null_literal]).filter (fun m => decide (m < pos_lit s.nvars))
    { s with
      bin := upd s.bin l (some kept.dropLast)
      aux_literals := s.aux_literals + ((v.length + 1) - kept.length) }

/-- First loop of `remove_garbage_bin_clauses`: the pairs of `binary_clauses`
with both literals below `max`, in order. -/
def compact_pairs (max : Int) : List Int → List Int
  | a :: b :: rest =>
    if a < max ∧ b < max then a :: b :: compact_pairs max rest else compact_pairs max rest
  | _ => []

/-- Body of the second loop of `remove_garbage_bin_clauses` for the removed
literal `l0`. -/
def remove_garbage_bin_step (s : smt_core_t) (l0 : Int) : smt_core_t :=
  match s.bin l0 with
  | none => s
  | some v0 =>
    let t := v0.foldl
      (fun t l => if l < pos_lit t.nvars ∧ (t.bin l).isSome then
        cleanup_garbage_in_binary_clause_vector t l else t) s
    { t with
      bin := upd t.bin l0 none
      aux_literals := t.aux_literals + v0.length
      watch := upd t.watch l0 [] }

/-- `remove_garbage_bin_clauses(s, old_nvars)`.  The first loop moves the pairs
kept to the front of `binary_clauses.data`; the size of the vector is not
changed, so the entries after them are still part of the vector. -/
def remove_garbage_bin_clauses (s : smt_core_t) (old_nvars : Nat) : smt_core_t :=
  let max := pos_lit s.nvars
  let kept := compact_pairs max s.binary_clauses
  let s1 : smt_core_t :=
    { s with
      binary_clauses := kept ++ s.binary_clauses.drop kept.length
      aux_literals := 0 }
  let dead := (List.range (pos_lit old_nvars - max).toNat).map (fun i => max + (i : Int))
  let s2 := dead.foldl remove_garbage_bin_step s1
  { s2 with
    aux_literals := s2.aux_literals / 2
    nb_bin_clauses := s2.nb_bin_clauses - s2.aux_literals / 2 }

/-- `delete_variables(s, n)` without the removal of the atoms and of the heap
entries: if the variables `n .. nvars-1` are unassigned they are removed. -/
def delete_variables (s : smt_core_t) (n : Nat) : Bool × smt_core_t :=
  if (List.range (s.nvars - n)).all (fun i => decide (s.value (pos_lit ((n + i : Nat) : Int)) = VAL_UNDEF))
  then (true, { s with nvars := n, nlits := 2 * n })
  else (false, s)

/-- The binary-clause index is symmetric: `m` occurs in `bin[l]` as many times as
`l` in `bin[m]`. -/
def BinSym (s : smt_core_t) : Prop :=
  ∀ l m : Int, occ ((s.bin l).getD []) m = occ ((s.bin m).getD []) l

/-! ## Clauses added during the search -/

/-- `prefer(v1, k1, v2, k2)`: `(v1, k1) < (v2, k2)` in the preference order;
`v1 > v2` compares the codes of the values. -/
def prefer (v1 : bval_t) (k1 : Nat) (v2 : bval_t) (k2 : Nat) : Bool :=
  if v1 = v2 then
    (decide (v1 = VAL_TRUE) && decide (k1 < k2)) || (decide (v1 = VAL_FALSE) && decide (k1 > k2))
  else decide (v1.code > v2.code)

/-- Local variables of `add_simplified_clause` while it selects the watched
literals: the array `a` and the values and levels of `a[0]` and `a[1]`. -/
structure watch_sel where
  a : List Int
  v0 : bval_t
  k0 : Nat
  v1 : bval_t
  k1 : Nat

/-- The statements of `add_simplified_clause` that read `a[0]` and `a[1]` and
swap them if `a[1]` is preferred. -/
def find_watched_init (s : smt_core_t) (a : List Int) : watch_sel :=
  let l0 := a.getD 0 0
  let v0 := s.value l0
  let k0 := s.level (var_of l0)
  let l := a.getD 1 0
  let v1 := s.value l
  let k1 := s.level (var_of l)
  if prefer v1 k1 v0 k0 then
    { a := (a.set 1 (a.getD 0 0)).set 0 l, v0 := v1, k0 := k1, v1 := v0, k1 := k0 }
  else { a := a, v0 := v0, k0 := k0, v1 := v1, k1 := k1 }

/-- Body of the loop `for (i=2; i<n; i++)` of `add_simplified_clause`. -/
def find_watched_step (s : smt_core_t) (w : watch_sel) (i : Nat) : watch_sel :=
  let l := w.a.getD i 0
  let v := s.value l
  let k := s.level (var_of l)
  if prefer v k w.v0 w.k0 then
    { a := ((w.a.set i (w.a.getD 1 0)).set 1 (w.a.getD 0 0)).set 0 l,
      v1 := w.v0, k1 := w.k0, v0 := v, k0 := k }
  else if prefer v k w.v1 w.k1 then
    { w with a := (w.a.set i (w.a.getD 1 0)).set 1 l, v1 := v, k1 := k }
  else w

/-- The loop `for (i=2; i<n; i++)`: `m` iterations from index `i`. -/
def find_watched_loop (s : smt_core_t) : Nat → Nat → watch_sel → watch_sel
  | 0, _, w => w
  | m + 1, i, w => find_watched_loop s m (i + 1) (find_watched_step s w i)

/-- The statements of `add_simplified_clause` after the call of
`new_problem_clause`, which returned the clause `cl` in the state `s1`: unit
propagation or conflict for the new clause. -/
def add_simplified_clause_tail (s1 : smt_core_t) (cl : Nat) (w : watch_sel) : smt_core_t :=
  let k0 := if w.v0 = VAL_UNDEF then UINT32_MAX else w.k0
  let k1 := if w.v1 = VAL_UNDEF then UINT32_MAX else w.k1
  if w.v0 = VAL_FALSE ∧ k0 < k1 then
    let s2 : smt_core_t :=
      if k0 < s1.decision_level then { backtrack_to_level s1 k0 with inconsistent := false }
      else s1
    implied_literal s2 (w.a.getD 1 0) (mk_clause1_antecedent cl)
  else if w.v1 = VAL_FALSE ∧ k1 < k0 then
    let s2 : smt_core_t :=
      if k1 < s1.decision_level then { backtrack_to_level s1 k1 with inconsistent := false }
      else s1
    implied_literal s2 (w.a.getD 0 0) (mk_clause0_antecedent cl)
  else if w.v0 = VAL_FALSE ∧ w.v1 = VAL_FALSE then
    record_clause_conflict (backtrack_to_level s1 k0) cl
  else s1

/-- `add_simplified_clause(s, n, a)` with `n = a.length`; the new clause has
the handle `s.nclauses_alloc`. -/
def add_simplified_clause (s : smt_core_t) (a : List Int) : smt_core_t :=
  if s.base_level = s.decision_level then new_problem_clause s a
  else
    let w := find_watched_loop s (a.length - 2) 2 (find_watched_init s a)
    add_simplified_clause_tail (new_problem_clause s w.a) s.nclauses_alloc w

/-- The literal `l` is preferred to `m` as a watched literal in the assignment
of `s`. -/
def prefer_lit (s : smt_core_t) (l m : Int) : Bool :=
  prefer (s.value l) (s.level (var_of l)) (s.value m) (s.level (var_of m))

/-- Invariant of the selection of the watched literals: `w.a` is a rearrangement
of the clause, `(v0, k0)` and `(v1, k1)` describe `a[0]` and `a[1]`, and no
literal among `a[1 .. i-1]` is preferred to `a[0]`, none among `a[2 .. i-1]` to
`a[1]`. -/
structure SelInv (s : smt_core_t) (a0 : List Int) (w : watch_sel) (i : Nat) : Prop where
  len : w.a.length = a0.length
  occ : ∀ x, occ w.a x = occ a0 x
  v0 : w.v0 = s.value (w.a.getD 0 0)
  k0 : w.k0 = s.level (var_of (w.a.getD 0 0))
  v1 : w.v1 = s.value (w.a.getD 1 0)
  k1 : w.k1 = s.level (var_of (w.a.getD 1 0))
  first : prefer_lit s (w.a.getD 1 0) (w.a.getD 0 0) = false
  rest : ∀ j, 2 ≤ j → j < i →
    prefer_lit s (w.a.getD j 0) (w.a.getD 0 0) = false ∧
    prefer_lit s (w.a.getD j 0) (w.a.getD 1 0) = false

/-! ## Simplification of a clause before its addition -/

/-- Modelled from the spec: `int_array_sort(a, n)` sorts `a[0 .. n-1]` in
increasing order. -/
def int_array_sort (a : List Int) : List Int := a.insertionSort (fun x y => x ≤ y)

/-- Modelled from the spec: `literal_base_value(s, l)` is the value of `l` if
its variable is assigned at a level at most `base_level`, and Undef otherwise
(the test made by `add_unit_clause` on `value[l]` and `level[var_of(l)]`). -/
def literal_base_value (s : smt_core_t) (l : Int) : bval_t :=
  if s.level (var_of l) ≤ s.base_level then s.value l else VAL_UNDEF

/-- First loop of `preprocess_clause` over `a[i ..]`: `l` is the last literal
kept and `out` is `a[0 .. j-1]`; `none` stands for `return false`. -/
def remove_duplicates_loop : Int → List Int → List Int → Option (List Int)
  | _, [], out => some out
  | l, l_aux :: rest, out =>
    if l_aux ≠ l then
      if l_aux = not_lit l then none
      else remove_duplicates_loop l_aux rest (out ++ [l_aux])
    else remove_duplicates_loop l rest out

/-- Second loop of `preprocess_clause` over `a[i ..]`: `out` is `a[0 .. j-1]`;
`none` stands for `return false`. -/
def remove_false_loop (s : smt_core_t) : List Int → List Int → Option (List Int)
  | [], out => some out
  | l :: rest, out =>
    match literal_base_value s l with
    | VAL_FALSE => remove_false_loop s rest out
    | VAL_UNDEF => remove_false_loop s rest (out ++ [l])
    | VAL_TRUE => none

/-- `preprocess_clause(s, &n, a)`: `none` stands for the result false, and
`some b` for the result true with `b` the array `a[0 .. n-1]` on return. -/
def preprocess_clause (s : smt_core_t) (a : List Int) : Option (List Int) :=
  if a.length = 0 then some a
  else
    match int_array_sort a with
    | [] => some []
    | l :: rest =>
      match remove_duplicates_loop l rest [l] with
      | none => none
      | some b => remove_false_loop s b []

/-! ## Addition of clauses: lemma queue or immediate installation -/

/-- `on_the_fly`: the clause is added during the search. -/
def on_the_fly (s : smt_core_t) : Bool := decide (s.status ≠ smt_status_t.STATUS_IDLE)

/-- `push_lemma`: the literals `a[0 .. n-1]` are copied at the end of the
lemma queue. -/
def push_lemma (s : smt_core_t) (a : List Int) : smt_core_t :=
  { s with lemmas := s.lemmas ++ [a] }

def record_empty_conflict (s : smt_core_t) : smt_core_t :=
  { s with
    inconsistent := true
    conflict_buffer := write_prefix s.conflict_buffer [end_clause]
    conflict := write_prefix s.conflict_buffer [end_clause] }

def add_empty_clause (s : smt_core_t) : smt_core_t :=
  if on_the_fly s then push_lemma s [] else record_empty_conflict s

def add_unit_clause (s : smt_core_t) (l : Int) : smt_core_t :=
  if on_the_fly s ∧ s.decision_level > s.base_level then push_lemma s [l]
  else if s.value l = VAL_TRUE ∧ s.level (var_of l) ≤ s.base_level then s
  else if s.value l = VAL_FALSE then
    { s with
      inconsistent := true
      conflict := write_prefix s.conflict_buffer [l, end_clause]
      conflict_buffer := write_prefix s.conflict_buffer [l, end_clause] }
  else
    let s1 := assign_literal s l
    { s1 with nb_unit_clauses := s1.nb_unit_clauses + 1 }

def add_simplified_unit_clause (s : smt_core_t) (l : Int) : smt_core_t :=
  let s1 : smt_core_t :=
    if s.inconsistent ∧ s.decision_level > s.base_level then { s with inconsistent := false }
    else s
  let s2 := assign_literal (backtrack_to_base_level s1) l
  { s2 with nb_unit_clauses := s2.nb_unit_clauses + 1 }

/-- The part of `add_clause_unsafe` and `add_clause` after the test of
`on_the_fly`: the clause is simplified and installed. -/
def add_preprocessed_clause (s : smt_core_t) (a : List Int) : smt_core_t :=
  match preprocess_clause s a with
  | some b =>
    if b.length > 2 then new_problem_clause s b
    else if b.length = 2 then direct_binary_clause s (b.getD 0 0) (b.getD 1 0)
    else if b.length = 1 then add_simplified_unit_clause s (b.getD 0 0)
    else record_empty_conflict s
  | none => s

def add_clause_unsafe (s : smt_core_t) (a : List Int) : smt_core_t :=
  if on_the_fly s then push_lemma s a else add_preprocessed_clause s a

/-- `add_clause`: the clause is copied into `buffer2`, which is reset at the
end. -/
def add_clause (s : smt_core_t) (a : List Int) : smt_core_t :=
  if on_the_fly s then push_lemma s a
  else { add_preprocessed_clause { s with buffer2 := a } a with buffer2 := [] }

def add_binary_clause (s : smt_core_t) (l1 l2 : Int) : smt_core_t :=
  add_clause_unsafe s [l1, l2]

def add_ternary_clause (s : smt_core_t) (l1 l2 l3 : Int) : smt_core_t :=
  add_clause_unsafe s [l1, l2, l3]

/-- `start_search`: `conflict = NULL` is the empty list. -/
def start_search (s : smt_core_t) : smt_core_t :=
  let s1 := if s.clean_interrupt_enabled then smt_push s else s
  { s1 with
    status := smt_status_t.STATUS_SEARCHING
    inconsistent := false
    theory_conflict := false
    conflict := []
    false_clause := none
    simplify_bottom := 0
    th_calls := s1.th_calls ++ [th_call_t.start_search] }

/-- Effect of the immediate installation of the unit clause `{l}` in `s`, with
result `t`: the lemma queue is unchanged; nothing changes if `l` is True at the
base level; the clause `{l}` is recorded as the conflict if `l` is False; `l`
is pushed on the trail and assigned True at the base level if it is Undef. -/
def unit_installed (s : smt_core_t) (l : Int) (t : smt_core_t) : Prop :=
  t.lemmas = s.lemmas ∧
  (s.value l = VAL_TRUE → s.level (var_of l) ≤ s.base_level → t = s) ∧
  (s.value l = VAL_FALSE → t.inconsistent = true ∧ t.conflict.take 2 = [l, end_clause]) ∧
  (s.value l = VAL_UNDEF →
    t.value l = VAL_TRUE ∧ t.stack.lit = s.stack.lit ++ [l] ∧
    t.level (var_of l) = s.base_level ∧ t.nb_unit_clauses = s.nb_unit_clauses + 1)

/-- Effect of the immediate installation of the clause `a` in `s`, with result
`t`: the lemma queue is unchanged; if `preprocess_clause` returns false the
trail, the assignment, the clause vectors, the binary vectors and the conflict
flag are unchanged; if it returns the simplified clause `b`, then `b` is stored
as a new problem clause watched on `b[0]` and `b[1]` (three literals or more),
or each of `b[0]`, `b[1]` is in the binary vector of the other (two literals),
or `b[0]` is on the trail and True (one literal), or the empty clause is
recorded as the conflict (no literal). -/
def clause_installed (s : smt_core_t) (a : List Int) (t : smt_core_t) : Prop :=
  t.lemmas = s.lemmas ∧
  (preprocess_clause s a = none →
    t.stack = s.stack ∧ t.value = s.value ∧ t.clauses = s.clauses ∧
    t.problem_clauses = s.problem_clauses ∧ t.learned_clauses = s.learned_clauses ∧
    t.bin = s.bin ∧ t.binary_clauses = s.binary_clauses ∧
    t.inconsistent = s.inconsistent ∧ t.conflict = s.conflict) ∧
  ∀ b, preprocess_clause s a = some b →
    (3 ≤ b.length →
      t.problem_clauses = s.problem_clauses ++ [s.nclauses_alloc] ∧
      (t.clauses s.nclauses_alloc).cl = b ∧
      (s.nclauses_alloc, 0) ∈ t.watch (b.getD 0 0) ∧
      (s.nclauses_alloc, 1) ∈ t.watch (b.getD 1 0)) ∧
    (b.length = 2 →
      b.getD 1 0 ∈ (t.bin (b.getD 0 0)).getD [] ∧ b.getD 0 0 ∈ (t.bin (b.getD 1 0)).getD []) ∧
    (b.length = 1 → t.value (b.getD 0 0) = VAL_TRUE ∧ b.getD 0 0 ∈ t.stack.lit) ∧
    (b.length = 0 → t.inconsistent = true ∧ t.conflict.head? = some end_clause)

/-! ## The variable heap -/

/-- Modelled from the spec: `null_bvar` is `-1` (sat_solver4.h gives the same
value). -/
def null_bvar : Int := -1

/-- The variable heap `var_heap_t`.  The type `double` of the activities is a
linearly ordered ring `α` with exact arithmetic; `activity (-1)` is the cell
`activity[-1]`.  Positions in `heap` stay below `size`, which
`extend_smt_core` keeps below `MAX_VARIABLES`, so that the 32-bit arithmetic on
positions does not wrap. -/
structure var_heap_t (α : Type) where
  size : Nat
  activity : Int → α
  heap : Nat → Int
  heap_index : Int → Int
  heap_last : Nat
  act_increment : α
  inv_act_decay : α

/-- `init_heap`: `h` stands for the memory returned by `safe_malloc`; `dmax`
is `DBL_MAX`, `inc` is `INIT_VAR_ACTIVITY_INCREMENT` and `decay` is
`1/VAR_DECAY_FACTOR`, constants that are not under src/. -/
def init_heap {α : Type} [LinearOrderedRing α] (h : var_heap_t α) (n : Nat)
    (dmax inc decay : α) : var_heap_t α :=
  { size := n
    activity := fun x =>
      if x = -1 then dmax else if 0 ≤ x ∧ x < n then 0 else h.activity x
    heap_index := fun x => if 0 ≤ x ∧ x < n then -1 else h.heap_index x
    heap := fun i => if i = 0 then -1 else h.heap i
    heap_last := 0
    act_increment := inc
    inv_act_decay := decay }

def extend_heap {α : Type} [LinearOrderedRing α] (h : var_heap_t α) (n : Nat) : var_heap_t α :=
  { h with
    size := n
    heap_index := fun x => if (h.size : Int) ≤ x ∧ x < n then -1 else h.heap_index x
    activity := fun x => if (h.size : Int) ≤ x ∧ x < n then 0 else h.activity x }

/-- `heap_cmp` with `BREAK_TIES` set. -/
def heap_cmp {α : Type} [LinearOrder α] (x y : Int) (ax ay : α) : Bool :=
  decide (ax > ay ∨ (ax = ay ∧ x < y))

def heap_precedes {α : Type} [LinearOrder α] (act : Int → α) (x y : Int) : Bool :=
  heap_cmp x y (act x) (act y)

/-- The two writes `h[i] = x; index[x] = i`. -/
def heap_put {α : Type} (h : var_heap_t α) (i : Nat) (x : Int) : var_heap_t α :=
  { h with heap := updN h.heap i x, heap_index := upd h.heap_index x i }

/-- The loop of `update_up`: the result is the heap and the final position `i`.
The loop diverges if it reaches position 0 with `x` before `h[0]`; `none` is
returned when the fuel runs out. -/
def update_up_loop {α : Type} [LinearOrder α] (x : Int) (ax : α) :
    Nat → var_heap_t α → Nat → Option (var_heap_t α × Nat)
  | 0, _, _ => none
  | fuel + 1, h, i =>
    let j := i / 2
    let y := h.heap j
    if heap_cmp x y ax (h.activity y) then update_up_loop x ax fuel (heap_put h i y) j
    else some (h, i)

/-- `update_up(heap, x, i)`; the loop halves `i` at each round, so `i + 1`
rounds are enough unless it diverges. -/
def update_up {α : Type} [LinearOrder α] (h : var_heap_t α) (x : Int) (i : Nat) :
    Option (var_heap_t α) :=
  match update_up_loop x (h.activity x) (i + 1) h i with
  | none => none
  | some (h1, i1) => some (heap_put h1 i1 x)

/-- The value of `heap_last` after `heap_last --` on 32 bits. -/
def heap_last_decr (last : Nat) : Nat := if last = 0 then UINT32_MAX else last - 1

/-- The loop of `update_down` and the final steps after it: `z` is the last
element, `az` its activity; `none` is returned when the fuel runs out. -/
def update_down_loop {α : Type} [LinearOrder α] (z : Int) (az : α) (last : Nat) :
    Nat → var_heap_t α → Nat → Nat → Option (var_heap_t α)
  | 0, _, _, _ => none
  | fuel + 1, h, i, j =>
    if j + 1 < last then
      let x := h.heap j
      let y := h.heap (j + 1)
      let jx : Nat × Int := if heap_precedes h.activity y x then (j + 1, y) else (j, x)
      if heap_cmp z jx.2 az (h.activity jx.2) then some (heap_put h i z)
      else update_down_loop z az last fuel (heap_put h i jx.2) jx.1 (2 * jx.1)
    else if j < last then
      let x := h.heap j
      if heap_cmp z x az (h.activity x) then some (heap_put h i z)
      else some (heap_put (heap_put h i x) j z)
    else some (heap_put h i z)

/-- `update_down(heap, i)`; `j` grows at each round when it is not 0, so
`last + 1` rounds are enough unless the loop diverges. -/
def update_down {α : Type} [LinearOrder α] (h : var_heap_t α) (i : Nat) :
    Option (var_heap_t α) :=
  let last := h.heap_last
  let h1 := { h with heap_last := heap_last_decr last }
  if last = i then some h1
  else
    update_down_loop (h.heap last) (h.activity (h.heap last)) last (last + 1) h1 i (2 * i)

def heap_insert {α : Type} [LinearOrder α] (h : var_heap_t α) (x : Int) :
    Option (var_heap_t α) :=
  if h.heap_index x < 0 then
    update_up { h with heap_last := h.heap_last + 1 } x (h.heap_last + 1)
  else some h

def heap_remove {α : Type} [LinearOrder α] (h : var_heap_t α) (x : Int) :
    Option (var_heap_t α) :=
  let i := h.heap_index x
  if i < 0 then some h
  else
    let h1 := { h with heap_index := upd h.heap_index x (-1) }
    let j : Nat := h1.heap_last
    let y := h1.heap j
    if i = Int.ofNat j then some { h1 with heap_last := heap_last_decr j }
    else if heap_precedes h1.activity x y then update_down h1 i.toNat
    else
      update_up { h1 with heap := updN h1.heap i.toNat y, heap_last := heap_last_decr j }
        y i.toNat

/-- `heap_get_top`: the result is the variable returned and the heap. -/
def heap_get_top {α : Type} [LinearOrder α] (h : var_heap_t α) :
    Option (Int × var_heap_t α) :=
  if h.heap_last = 0 then some (null_bvar, h)
  else
    let top := h.heap 1
    match update_down { h with heap_index := upd h.heap_index top (-1) } 1 with
    | none => none
    | some h1 => some (top, h1)

/-- `rescale_var_activities`; `tinv` is `INV_VAR_ACTIVITY_THRESHOLD`. -/
def rescale_var_activities {α : Type} [LinearOrderedRing α] (tinv : α) (h : var_heap_t α)
    (n : Nat) : var_heap_t α :=
  { h with
    act_increment := h.act_increment * tinv
    activity := fun x => if 0 ≤ x ∧ x < n then h.activity x * tinv else h.activity x }

/-- `increase_bvar_activity`; `t` is `VAR_ACTIVITY_THRESHOLD`, `tinv` is
`INV_VAR_ACTIVITY_THRESHOLD` and `nvars` is `s->nvars`. -/
def increase_bvar_activity {α : Type} [LinearOrderedRing α] (t tinv : α) (nvars : Nat)
    (h : var_heap_t α) (x : Int) : Option (var_heap_t α) :=
  let a := h.activity x + h.act_increment
  let h1 := { h with activity := upd h.activity x a }
  let h2 := if a > t then rescale_var_activities tinv h1 nvars else h1
  let i := h2.heap_index x
  if i ≥ 0 then update_up h2 x i.toNat else some h2

/-- Variable `y` is at a position `1 .. heap_last` of the heap array. -/
def InHeap {α : Type} (h : var_heap_t α) (y : Int) : Prop :=
  ∃ p, 1 ≤ p ∧ p ≤ h.heap_last ∧ h.heap p = y

/-- Invariants of the heap: `heap[0]` is the marker `-1`, whose activity is not
below the activity of a variable; `heap_index[heap[p]] = p` for the positions
`1 ≤ p ≤ heap_last`, which hold variables below `size`; `heap_index[x] = -1`
for a variable that is at none of these positions; no element strictly
precedes its parent. -/
structure HeapOk {α : Type} [LinearOrder α] (h : var_heap_t α) : Prop where
  zero : h.heap 0 = -1
  sent : ∀ x : Int, 0 ≤ x → x < h.size → h.activity x ≤ h.activity (-1)
  pos : ∀ p, 1 ≤ p → p ≤ h.heap_last →
    0 ≤ h.heap p ∧ h.heap p < h.size ∧ h.heap_index (h.heap p) = p
  idx : ∀ x : Int, 0 ≤ x → x < h.size →
    h.heap_index x = -1 ∨ ∃ p, 1 ≤ p ∧ p ≤ h.heap_last ∧ h.heap_index x = p ∧ h.heap p = x
  ord : ∀ p, 2 ≤ p → p ≤ h.heap_last →
    heap_precedes h.activity (h.heap p) (h.heap (p / 2)) = false

/-- Heap with a hole at position `i`, where the variable `v` is to be put: the
invariants hold at the other positions, `v` is at none of them, and the
children of the hole do not precede its parent. -/
structure HeapHole {α : Type} [LinearOrder α] (h : var_heap_t α) (i : Nat) (v : Int) :
    Prop where
  zero : h.heap 0 = -1
  sent : ∀ x : Int, 0 ≤ x → x < h.size → h.activity x ≤ h.activity (-1)
  vr : 0 ≤ v ∧ v < h.size
  ir : 1 ≤ i ∧ i ≤ h.heap_last
  pos : ∀ p, 1 ≤ p → p ≤ h.heap_last → p ≠ i →
    0 ≤ h.heap p ∧ h.heap p < h.size ∧ h.heap_index (h.heap p) = p ∧ h.heap p ≠ v
  idx : ∀ x : Int, 0 ≤ x → x < h.size → x ≠ v →
    h.heap_index x = -1 ∨
      ∃ p, 1 ≤ p ∧ p ≤ h.heap_last ∧ p ≠ i ∧ h.heap_index x = p ∧ h.heap p = x
  ord : ∀ p, 2 ≤ p → p ≤ h.heap_last → p ≠ i → p / 2 ≠ i →
    heap_precedes h.activity (h.heap p) (h.heap (p / 2)) = false
  gp : ∀ c, 2 ≤ c → c ≤ h.heap_last → c / 2 = i → 2 ≤ i →
    heap_precedes h.activity (h.heap c) (h.heap (i / 2)) = false

/-- Variable `y` is at a position of the heap array other than the hole. -/
def InHole {α : Type} (h : var_heap_t α) (i : Nat) (y : Int) : Prop :=
  ∃ p, 1 ≤ p ∧ p ≤ h.heap_last ∧ p ≠ i ∧ h.heap p = y

/-- Heap in which the element at position `i` has been removed from the index
(`heap_index` is `-1` for it) and is still in the array. -/
structure HeapGone {α : Type} [LinearOrder α] (h : var_heap_t α) (i : Nat) : Prop where
  zero : h.heap 0 = -1
  sent : ∀ x : Int, 0 ≤ x → x < h.size → h.activity x ≤ h.activity (-1)
  ir : 1 ≤ i ∧ i ≤ h.heap_last
  pos : ∀ p, 1 ≤ p → p ≤ h.heap_last →
    0 ≤ h.heap p ∧ h.heap p < h.size ∧
      (p ≠ i → h.heap_index (h.heap p) = p ∧ h.heap p ≠ h.heap i)
  idx : ∀ x : Int, 0 ≤ x → x < h.size →
    h.heap_index x = -1 ∨
      ∃ p, 1 ≤ p ∧ p ≤ h.heap_last ∧ p ≠ i ∧ h.heap_index x = p ∧ h.heap p = x
  ord : ∀ p, 2 ≤ p → p ≤ h.heap_last →
    heap_precedes h.activity (h.heap p) (h.heap (p / 2)) = false

/-- States of the heap reachable from `init_heap` by `heap_insert`,
`heap_remove`, `heap_get_top` and `increase_bvar_activity` without rescaling
(the increased activity is not above the threshold `t`), for variables below
`size`. -/
inductive HeapReach {α : Type} [LinearOrderedRing α] (t tinv dmax inc decay : α)
    (h0 : var_heap_t α) (n : Nat) : var_heap_t α → Prop
  | init : HeapReach t tinv dmax inc decay h0 n (init_heap h0 n dmax inc decay)
  | insert {h h1 : var_heap_t α} (x : Int) :
      HeapReach t tinv dmax inc decay h0 n h → 0 ≤ x → x < h.size →
      heap_insert h x = some h1 → HeapReach t tinv dmax inc decay h0 n h1
  | remove {h h1 : var_heap_t α} (x : Int) :
      HeapReach t tinv dmax inc decay h0 n h → 0 ≤ x → x < h.size →
      heap_remove h x = some h1 → HeapReach t tinv dmax inc decay h0 n h1
  | get_top {h h1 : var_heap_t α} (x : Int) :
      HeapReach t tinv dmax inc decay h0 n h →
      heap_get_top h = some (x, h1) → HeapReach t tinv dmax inc decay h0 n h1
  | increase {h h1 : var_heap_t α} (x : Int) (nvars : Nat) :
      HeapReach t tinv dmax inc decay h0 n h → 0 ≤ x → x < h.size →
      ¬ (h.activity x + h.act_increment > t) →
      increase_bvar_activity t tinv nvars h x = some h1 →
      HeapReach t tinv dmax inc decay h0 n h1

/-- The loop `do x = heap_get_top(heap) while (v[pos_lit(x)] != VAL_UNDEF)`
of `select_unassigned_literal`; `none` is returned when the fuel runs out. -/
def select_loop {α : Type} [LinearOrder α] (value : Int → bval_t) :
    Nat → var_heap_t α → Option (Int × var_heap_t α)
  | 0, _ => none
  | fuel + 1, h =>
    match heap_get_top h with
    | none => none
    | some (x, h1) =>
      if value (pos_lit x) ≠ VAL_UNDEF then select_loop value fuel h1 else some (x, h1)

/-- `select_unassigned_literal`: the result is the literal and the heap;
`scaled_random` is the field of the core, `rnd` is the value of
`random_uint32() & VAR_RANDOM_MASK` and `rx` the value of
`random_uint(s->nvars)`.  Every round of the loop on a non-empty heap removes
an element, so `heap_last + 1` rounds are enough unless the loop diverges. -/
def select_unassigned_literal {α : Type} [LinearOrder α] (s : smt_core_t) (h : var_heap_t α)
    (scaled_random rnd : Nat) (rx : Int) : Option (Int × var_heap_t α) :=
  if rnd < scaled_random ∧ s.value (pos_lit rx) = VAL_UNDEF then
    some (if s.polarity rx then pos_lit rx else neg_lit rx, h)
  else
    match select_loop s.value (h.heap_last + 1) h with
    | none => none
    | some (x, h1) =>
      if x < 0 then some (null_literal, h1)
      else some (if s.polarity x then pos_lit x else neg_lit x, h1)

/-- The heap part of `create_boolean_variable`: `extend_smt_core` calls
`extend_heap` with the new `vsize` when `nvars ≥ vsize`, and `init_variable`
calls `heap_insert` for the new variable `nvars`.  The field `size` of the
heap is equal to `vsize`, which `init_smt_core` and `extend_smt_core` give to
`init_heap` and `extend_heap`. -/
def create_boolean_variable_heap {α : Type} [LinearOrderedRing α] (s : smt_core_t)
    (h : var_heap_t α) : Option (var_heap_t α) :=
  let i := s.nvars
  let h1 := if i ≥ h.size then extend_heap h (h.size + 1 + (h.size + 1) / 2) else h
  heap_insert h1 i

/-- The calls `heap_insert(&s->heap, var_of(l))` of the loop of `backtrack`,
for the literals `l` taken from the top of the stack. -/
def heap_insert_all {α : Type} [LinearOrder α] : List Int → var_heap_t α → Option (var_heap_t α)
  | [], h => some h
  | l :: ls, h =>
    match heap_insert h (var_of l) with
    | none => none
    | some h1 => heap_insert_all ls h1

/-- The heap part of `backtrack`. -/
def backtrack_heap {α : Type} [LinearOrder α] (s : smt_core_t) (h : var_heap_t α)
    (back_level : Nat) : Option (var_heap_t α) :=
  heap_insert_all (s.stack.lit.drop (s.stack.level_index (back_level + 1))).reverse h

/-- States of the core and of its heap reachable during the search: creation
of a variable, decision on an unassigned literal, selection of a literal with
`scaled_random = 0` (followed by the decision on it when it is not
`null_literal`), assignment of an implied literal, and backtracking. -/
inductive SearchHeapReach {α : Type} [LinearOrderedRing α] (s0 : smt_core_t) (mode : smt_mode_t)
    (h0 : var_heap_t α) (n : Nat) (dmax inc decay : α) : smt_core_t → var_heap_t α → Prop
  | init : SearchHeapReach s0 mode h0 n dmax inc decay
      (init_smt_core s0 mode) (init_heap h0 n dmax inc decay)
  | create {s : smt_core_t} {h h1 : var_heap_t α} :
      SearchHeapReach s0 mode h0 n dmax inc decay s h →
      create_boolean_variable_heap s h = some h1 →
      SearchHeapReach s0 mode h0 n dmax inc decay (create_boolean_variable s) h1
  | decide {s : smt_core_t} {h : var_heap_t α} (l : Int) :
      SearchHeapReach s0 mode h0 n dmax inc decay s h →
      valid_lit s l → s.value l = VAL_UNDEF →
      SearchHeapReach s0 mode h0 n dmax inc decay (decide_literal s l) h
  | select {s : smt_core_t} {h h1 : var_heap_t α} (rnd : Nat) (rx l : Int) :
      SearchHeapReach s0 mode h0 n dmax inc decay s h →
      select_unassigned_literal s h 0 rnd rx = some (l, h1) → l ≠ null_literal →
      SearchHeapReach s0 mode h0 n dmax inc decay (decide_literal s l) h1
  | select_null {s : smt_core_t} {h h1 : var_heap_t α} (rnd : Nat) (rx : Int) :
      SearchHeapReach s0 mode h0 n dmax inc decay s h →
      select_unassigned_literal s h 0 rnd rx = some (null_literal, h1) →
      SearchHeapReach s0 mode h0 n dmax inc decay s h1
  | implied {s : smt_core_t} {h : var_heap_t α} (l : Int) (a : antecedent_t) :
      SearchHeapReach s0 mode h0 n dmax inc decay s h →
      valid_lit s l → s.value l = VAL_UNDEF →
      SearchHeapReach s0 mode h0 n dmax inc decay (implied_literal s l a) h
  | backtrack {s : smt_core_t} {h h1 : var_heap_t α} (k : Nat) :
      SearchHeapReach s0 mode h0 n dmax inc decay s h →
      backtrack_heap s h k = some h1 →
      SearchHeapReach s0 mode h0 n dmax inc decay (backtrack s k) h1

/-- Invariants of the core and its heap during the search: the heap satisfies
its invariants and holds variables of `[1, nvars)`, among them every
unassigned variable. -/
structure SearchHeapInv {α : Type} [LinearOrderedRing α] (s : smt_core_t) (h : var_heap_t α) :
    Prop where
  ok : HeapOk h
  top : 0 ≤ h.activity (-1)
  size : s.nvars ≤ h.size
  nlits_eq : s.nlits = 2 * s.nvars
  nvars_pos : 1 ≤ s.nvars
  end2 : s.value (-2) = VAL_UNDEF
  trail_valid : ∀ l ∈ s.stack.lit, valid_lit s l
  elems : ∀ x, InHeap h x → 1 ≤ x ∧ x < s.nvars
  unassigned : ∀ x : Int, 1 ≤ x → x < s.nvars → s.value (pos_lit x) = VAL_UNDEF → InHeap h x

/-! ## Atom table and deletion of variables -/

/-- Atom table: `has_atom` is the bit vector, `atom[x]` is the atom attached to
`x`, given as a number, `0` for `NULL`. -/
structure atom_table_t where
  has_atom : Int → Bool
  atom : Int → Nat
  size : Nat
  natoms : Nat

/-- `init_atom_table`: the two arrays are `NULL`. -/
def init_atom_table : atom_table_t :=
  { has_atom := fun _ => false, atom := fun _ => 0, size := 0, natoms := 0 }

/-- `resize_atom_table`: `n` is rounded up to a multiple of 8. -/
def resize_atom_table (tbl : atom_table_t) (n : Nat) : atom_table_t :=
  let n1 := (n + 7) / 8 * 8
  let k := tbl.size
  if n1 > k then
    { tbl with
      has_atom := fun x => if (k : Int) ≤ x ∧ x < (n1 : Int) then false else tbl.has_atom x
      size := n1 }
  else tbl

def add_atom (tbl : atom_table_t) (v : Int) (atm : Nat) : atom_table_t :=
  { tbl with
    has_atom := upd tbl.has_atom v true
    atom := upd tbl.atom v atm
    natoms := tbl.natoms + 1 }

def remove_atom (tbl : atom_table_t) (v : Int) : atom_table_t :=
  { tbl with
    has_atom := upd tbl.has_atom v false
    atom := upd tbl.atom v 0
    natoms := tbl.natoms - 1 }

/-- `attach_atom_to_bvar`; `vsize` is the field `s->vsize` of the core, the
size of the variable-indexed arrays. -/
def attach_atom_to_bvar (vsize : Nat) (tbl : atom_table_t) (x : Int) (atom : Nat) :
    atom_table_t :=
  add_atom (if (tbl.size : Int) ≤ x then resize_atom_table tbl vsize else tbl) x atom

def bvar_has_atom (tbl : atom_table_t) (x : Int) : Bool :=
  decide (x < (tbl.size : Int)) && tbl.has_atom x

/-- Body of the second loop of `delete_variables` for the variable `x`. -/
def delete_variables_step {α : Type} [LinearOrder α]
    (st : Option (smt_core_t × atom_table_t × var_heap_t α)) (x : Int) :
    Option (smt_core_t × atom_table_t × var_heap_t α) :=
  match st with
  | none => none
  | some (s, tbl, h) =>
    match heap_remove h x with
    | none => none
    | some h1 =>
      if tbl.has_atom x then
        some ({ s with th_calls := s.th_calls ++ [th_call_t.delete_atom (tbl.atom x)] },
          remove_atom tbl x, h1)
      else some (s, tbl, h1)

/-- The variables `n, ..., m - 1`. -/
def bvar_range (n m : Nat) : List Int :=
  (List.range (m - n)).map (fun i => ((n + i : Nat) : Int))

/-- `delete_variables(s, n)` on the core, the atom table and the heap. -/
def delete_variables_atoms {α : Type} [LinearOrder α] (s : smt_core_t) (tbl : atom_table_t)
    (h : var_heap_t α) (n : Nat) : Option (Bool × smt_core_t × atom_table_t × var_heap_t α) :=
  if (bvar_range n s.nvars).all (fun x => decide (s.value (pos_lit x) = VAL_UNDEF)) then
    let m := if tbl.size < s.nvars then tbl.size else s.nvars
    match (bvar_range n m).foldl delete_variables_step (some (s, tbl, h)) with
    | none => none
    | some (s1, tbl1, h1) => some (true, { s1 with nvars := n, nlits := 2 * n }, tbl1, h1)
  else some (false, s, tbl, h)

/-- The heap part of `restore_variables(s, n)`: `heap_remove` for the variables
`n, ..., nvars - 1`. -/
def restore_variables_heap {α : Type} [LinearOrder α] (s : smt_core_t) (h : var_heap_t α)
    (n : Nat) : Option (var_heap_t α) :=
  (bvar_range n s.nvars).foldl (fun o x => o.bind (fun h1 => heap_remove h1 x)) (some h)

def smt_checkpoint (s : smt_core_t) : smt_core_t :=
  { s with
    checkpoints := { dlevel := s.decision_level, nvars := s.nvars } :: s.checkpoints
    cp_flag := false }

/-- `mark_clause_to_remove`: the loop reads the literals up to the first
negative one.  The counter is a `uint32_t`. -/
def mark_clause_to_remove (s : smt_core_t) (c : Nat) (max : Int) : smt_core_t :=
  let pre := (s.clauses c).array.takeWhile (fun l => decide (l ≥ 0))
  if pre.any (fun l => decide (l ≥ max)) then
    { s with clauses := updN s.clauses c (mark_for_removal (s.clauses c)) }
  else { s with aux_literals := (s.aux_literals + pre.length + (2 ^ 32 - 1)) % 2 ^ 32 }

/-- `remove_garbage_clauses`, without the statistics. -/
def remove_garbage_clauses (s : smt_core_t) : smt_core_t :=
  let max := pos_lit s.nvars
  let s1 := s.problem_clauses.foldl (fun t c => mark_clause_to_remove t c max)
    { s with aux_literals := 0 }
  let s2 := s1.learned_clauses.foldl (fun t c => mark_clause_to_remove t c max)
    { s1 with aux_literals := 0 }
  let s3 := cleanup_watch_lists s2
  let keptp := s3.problem_clauses.filter (fun c => ! is_clause_to_be_removed (s3.clauses c))
  let keptl := s3.learned_clauses.filter (fun c => ! is_clause_to_be_removed (s3.clauses c))
  { s3 with
    problem_clauses := keptp
    learned_clauses := keptl
    nb_clauses := s3.nb_clauses - (s3.problem_clauses.length - keptp.length)
      - (s3.learned_clauses.length - keptl.length) }

/-- Loop of `delete_irrelevant_variables` over the checkpoint stack `cp`, top
first; the first component of the result is `dflag`. -/
def delete_segments {α : Type} [LinearOrder α] (s : smt_core_t) (tbl : atom_table_t)
    (h : var_heap_t α) (dflag : Bool) :
    List checkpoint_t → Option (Bool × smt_core_t × atom_table_t × var_heap_t α)
  | [] => some (dflag, { s with checkpoints := [] }, tbl, h)
  | p :: cp =>
    if p.dlevel < s.decision_level then some (dflag, { s with checkpoints := p :: cp }, tbl, h)
    else
      match delete_variables_atoms s tbl h p.nvars with
      | none => none
      | some (true, s1, tbl1, h1) => delete_segments s1 tbl1 h1 true cp
      | some (false, s1, tbl1, h1) =>
        some (dflag, { s1 with checkpoints := p :: cp }, tbl1, h1)

def delete_irrelevant_variables {α : Type} [LinearOrder α] (s : smt_core_t)
    (tbl : atom_table_t) (h : var_heap_t α) :
    Option (smt_core_t × atom_table_t × var_heap_t α) :=
  let old_nvars := s.nvars
  match delete_segments s tbl h false s.checkpoints with
  | none => none
  | some (dflag, s1, tbl1, h1) =>
    if dflag then
      let s2 : smt_core_t :=
        { s1 with th_calls := s1.th_calls ++ [th_call_t.end_atom_deletion] }
      some (remove_garbage_bin_clauses (remove_garbage_clauses s2) old_nvars, tbl1, h1)
    else some (s1, tbl1, h1)

/-! ## Simplification of the clause database -/

/-- `clause_is_locked`: the clause `c` is the antecedent of one of its two
watched literals. -/
def clause_is_locked (s : smt_core_t) (c : Nat) : Bool :=
  let l0 := get_first_watch (s.clauses c)
  let l1 := get_second_watch (s.clauses c)
  (decide (s.value l0 ≠ VAL_UNDEF) && decide (s.antecedent (var_of l0) = mk_clause0_antecedent c))
    || (decide (s.value l1 ≠ VAL_UNDEF)
      && decide (s.antecedent (var_of l1) = mk_clause1_antecedent c))

/-- Entries of `cl->cl` read by a loop `do ... while (l >= 0)`: the entries up
to the first negative one, which is read too. -/
def clause_scan : List Int → List Int
  | [] => []
  | l :: rest => if l ≥ 0 then l :: clause_scan rest else [l]

/-- `simplify_clause`: `pre` are the entries read before a true literal is
found, `w` the entries written at the front of `cl->cl`, which are the ones of
value Undef, the end marker among them.  If a true literal is found the clause
is marked for removal; otherwise the literals of the clause are the entries
before the end marker written. -/
def simplify_clause (s : smt_core_t) (c : Nat) : smt_core_t :=
  let cl := s.clauses c
  let read := clause_scan cl.array
  let pre := read.takeWhile (fun l => decide (s.value l ≠ VAL_TRUE))
  let w := pre.filter (fun l => decide (s.value l = VAL_UNDEF))
  let arr := w ++ cl.array.drop w.length
  if pre.length < read.length then
    { s with clauses := updN s.clauses c (mark_for_removal { cl with cl := arr.dropLast }) }
  else
    { s with
      clauses := updN s.clauses c { cl with cl := arr.takeWhile (fun l => decide (l ≥ 0)) }
      aux_literals := (s.aux_literals + w.length + (2 ^ 32 - 1)) % 2 ^ 32
      aux_clauses := s.aux_clauses + 1 }

/-- `mark_true_clause`. -/
def mark_true_clause (s : smt_core_t) (c : Nat) : smt_core_t :=
  let cl := s.clauses c
  let read := clause_scan cl.array
  if read.any (fun l => decide (s.value l = VAL_TRUE)) then
    { s with clauses := updN s.clauses c (mark_for_removal cl) }
  else
    { s with
      aux_literals := (s.aux_literals + read.length + (2 ^ 32 - 1)) % 2 ^ 32
      aux_clauses := s.aux_clauses + 1 }

/-- Body of the loops of `simplify_clause_set` over the problem clauses. -/
def simplify_problem_step (s : smt_core_t) (c : Nat) : smt_core_t :=
  if ! is_clause_to_be_removed (s.clauses c) && ! clause_is_locked s c then
    (if s.base_level = 0 then simplify_clause s c else mark_true_clause s c)
  else s

/-- Body of the loops of `simplify_clause_set` over the learned clauses. -/
def simplify_learned_step (s : smt_core_t) (c : Nat) : smt_core_t :=
  if ! clause_is_locked s c then
    (if s.base_level = 0 then simplify_clause s c else mark_true_clause s c)
  else s

/-- The handles of `v` whose clause is not marked for removal. -/
def unmarked_clauses (s : smt_core_t) (v : List Nat) : List Nat :=
  v.filter (fun c => ! is_clause_to_be_removed (s.clauses c))

/-- `simplify_clause_set`, without the statistics. -/
def simplify_clause_set (s : smt_core_t) : smt_core_t :=
  let s1 := s.problem_clauses.foldl simplify_problem_step
    { s with aux_literals := 0, aux_clauses := 0 }
  let s2 : smt_core_t :=
    { s1 with
      nb_prob_clauses := s1.aux_clauses
      aux_literals := 0
      aux_clauses := if s1.base_level = 0 then 0 else s1.aux_clauses }
  let s3 := s2.learned_clauses.foldl simplify_learned_step s2
  let s4 := cleanup_watch_lists s3
  let s5 : smt_core_t :=
    if s4.base_level = 0 then
      { s4 with
        problem_clauses := unmarked_clauses s4 s4.problem_clauses
        nb_clauses := s4.nb_clauses
          - (s4.problem_clauses.length - (unmarked_clauses s4 s4.problem_clauses).length) }
    else s4
  { s5 with
    learned_clauses := unmarked_clauses s5 s5.learned_clauses
    nb_clauses := s5.nb_clauses
      - (s5.learned_clauses.length - (unmarked_clauses s5 s5.learned_clauses).length) }

/-- `simplify_clause_database`, without the statistics. -/
def simplify_clause_database (s : smt_core_t) : smt_core_t :=
  let s1 := simplify_clause_set s
  let s2 := if s1.base_level = 0 then simplify_binary_vectors s1 else s1
  { s2 with simplify_bottom := s2.stack.top }

/-- The clause written by `simplify_clause` in place of `cl`. -/
def simplify_clause_result (value : Int → bval_t) (cl : clause_t) : clause_t :=
  let read := clause_scan cl.array
  let pre := read.takeWhile (fun l => decide (value l ≠ VAL_TRUE))
  let w := pre.filter (fun l => decide (value l = VAL_UNDEF))
  let arr := w ++ cl.array.drop w.length
  if pre.length < read.length then mark_for_removal { cl with cl := arr.dropLast }
  else { cl with cl := arr.takeWhile (fun l => decide (l ≥ 0)) }

/-- The clause written by `mark_true_clause` in place of `cl`. -/
def mark_true_result (value : Int → bval_t) (cl : clause_t) : clause_t :=
  if (clause_scan cl.array).any (fun l => decide (value l = VAL_TRUE)) then mark_for_removal cl
  else cl

/-- The test `clause_is_locked` on the clause `cl` of handle `c`. -/
def locked_by (value : Int → bval_t) (antecedent : Int → antecedent_t) (c : Nat)
    (cl : clause_t) : Bool :=
  (decide (value (get_first_watch cl) ≠ VAL_UNDEF)
      && decide (antecedent (var_of (get_first_watch cl)) = mk_clause0_antecedent c))
    || (decide (value (get_second_watch cl) ≠ VAL_UNDEF)
      && decide (antecedent (var_of (get_second_watch cl)) = mk_clause1_antecedent c))

/-- The clause written by a step of `simplify_clause_set` in place of `cl`;
`g` tells whether the step tests `is_clause_to_be_removed`. -/
def clause_step_result (g : Bool) (value : Int → bval_t) (antecedent : Int → antecedent_t)
    (base_level : Nat) (c : Nat) (cl : clause_t) : clause_t :=
  if (! g || ! is_clause_to_be_removed cl) && ! locked_by value antecedent c cl then
    (if base_level = 0 then simplify_clause_result value cl else mark_true_result value cl)
  else cl

/-- The state `t` is `s` but for the clause memory and the two counters. -/
def SameButClauses (s t : smt_core_t) : Prop :=
  t = { s with clauses := t.clauses, aux_literals := t.aux_literals, aux_clauses := t.aux_clauses }

/-- The state `t` is `s` but for the binary vectors and two counters. -/
def SameButBin (s t : smt_core_t) : Prop :=
  t = { s with bin := t.bin, aux_literals := t.aux_literals, nb_bin_clauses := t.nb_bin_clauses }

/-! ## Reordering of the learned clauses -/

/-- Exchange of `a[i]` and `a[j]`. -/
def swap_entries (a : Nat → Nat) (i j : Nat) : Nat → Nat :=
  updN (updN a i (a j)) j (a i)

/-- `do { j --; } while (get_activity(a[j]) < pivot)` started with `j`: the
result is the final `j`, or `none` if the loop runs below index 0. -/
def scan_down {α : Type} [LinearOrder α] (act : Nat → α) (a : Nat → Nat) (pivot : α) :
    Nat → Option Nat
  | 0 => none
  | j + 1 => if act (a j) < pivot then scan_down act a pivot j else some j

/-- `do { i ++; } while (i <= j && get_activity(a[i]) > pivot)` started with
`i`; the fuel `j - i` is enough. -/
def scan_up_to {α : Type} [LinearOrder α] (act : Nat → α) (a : Nat → Nat) (pivot : α)
    (j : Nat) : Nat → Nat → Nat
  | 0, i => i + 1
  | fuel + 1, i =>
    if i + 1 ≤ j ∧ act (a (i + 1)) > pivot then scan_up_to act a pivot j fuel (i + 1)
    else i + 1

/-- `do { i ++; } while (get_activity(a[i]) > pivot)` started with `i`, in a
vector of `n` clauses: `none` if the loop reads `a[n]`. -/
def scan_up {α : Type} [LinearOrder α] (act : Nat → α) (a : Nat → Nat) (pivot : α)
    (n : Nat) : Nat → Nat → Option Nat
  | 0, _ => none
  | fuel + 1, i =>
    if i + 1 < n then
      (if act (a (i + 1)) > pivot then scan_up act a pivot n fuel (i + 1) else some (i + 1))
    else none

/-- The loop `while (i < j)` of `quick_split`; the result is the array and the
final `j`. -/
def split_loop {α : Type} [LinearOrder α] (act : Nat → α) (pivot : α) (n : Nat) :
    Nat → (Nat → Nat) → Nat → Nat → Option ((Nat → Nat) × Nat)
  | 0, a, i, j => if i < j then none else some (a, j)
  | fuel + 1, a, i, j =>
    if i < j then
      match scan_down act (swap_entries a i j) pivot j with
      | none => none
      | some j1 =>
        match scan_up act (swap_entries a i j) pivot n (n - i) i with
        | none => none
        | some i1 => split_loop act pivot n fuel (swap_entries a i j) i1 j1
    else some (a, j)

/-- One pass of the outer loop of `quick_split` on `a[low .. high-1]`: the
result is the array and the position `j` of the pivot. -/
def split_pass {α : Type} [LinearOrder α] (act : Nat → α) (n : Nat) (a : Nat → Nat)
    (low high : Nat) : Option ((Nat → Nat) × Nat) :=
  let pivot := act (a low)
  match scan_down act a pivot high with
  | none => none
  | some j0 =>
    let i0 := scan_up_to act a pivot j0 (j0 - low) low
    match split_loop act pivot n (j0 - i0) a i0 j0 with
    | none => none
    | some (a1, j) => some (swap_entries a1 low j, j)

/-- The loop `do ... while (j != half)` of `quick_split`. -/
def quick_split_loop {α : Type} [LinearOrder α] (act : Nat → α) (n half : Nat) :
    Nat → (Nat → Nat) → Nat → Nat → Option (Nat → Nat)
  | 0, _, _, _ => none
  | fuel + 1, a, low, high =>
    match split_pass act n a low high with
    | none => none
    | some (a2, j) =>
      if j = half then some a2
      else if j < half then quick_split_loop act n half fuel a2 (j + 1) high
      else quick_split_loop act n half fuel a2 low j

/-- `quick_split(a, low, high)` on a vector of `n` clauses; `act` gives the
activity of a clause. -/
def quick_split {α : Type} [LinearOrder α] (act : Nat → α) (n : Nat) (a : Nat → Nat)
    (low high : Nat) : Option (Nat → Nat) :=
  if high ≤ low + 1 then some a
  else quick_split_loop act n ((low + high) / 2) (high - low) a low high

/-- `reorder_clause_vector(v)`. -/
def reorder_clause_vector {α : Type} [LinearOrder α] (act : Nat → α) (v : List Nat) :
    Option (List Nat) :=
  (quick_split act v.length (fun i => v.getD i 0) 0 v.length).map
    (fun a => (List.range v.length).map a)

/-- The array `b` is the array `a` with entries of `[low, high)` permuted. -/
def MovedWithin (low high : Nat) (a b : Nat → Nat) : Prop :=
  ∃ σ : Equiv.Perm Nat, (∀ k, ¬ (low ≤ k ∧ k < high) → σ k = k) ∧ ∀ k, b k = a (σ k)

/-- State of the loop `while (i < j)` of `quick_split` with the pivot `p`. -/
structure SplitInv {α : Type} [LinearOrder α] (act : Nat → α) (a : Nat → Nat)
    (low high n i j : Nat) (p : α) : Prop where
  hlow : low < i
  hij : i ≤ j + 1
  hj : j < high
  hlj : low ≤ j
  hn : high ≤ n
  piv : act (a low) = p
  left : ∀ k, low < k → k < i → p ≤ act (a k)
  right : ∀ k, j < k → k < high → act (a k) ≤ p
  atj : p ≤ act (a j)
  ati : i ≤ j → act (a i) ≤ p

/-- State of the outer loop of `quick_split` on `a[lo .. n-1]`: the entries
before `low` are at least as active as all the entries after them, the entries
from `high` on are at most as active as all the entries before them. -/
structure OuterInv {α : Type} [LinearOrder α] (act : Nat → α) (a : Nat → Nat)
    (lo n half low high : Nat) : Prop where
  h1 : lo ≤ low
  h2 : low ≤ half
  h3 : half < high
  h4 : high ≤ n
  left : ∀ k m, lo ≤ k → k < low → low ≤ m → m < n → act (a m) ≤ act (a k)
  right : ∀ k m, high ≤ k → k < n → lo ≤ m → m < high → act (a k) ≤ act (a m)

/-! ## Deletion of learned clauses -/

/-- `delete_learned_clauses`, without the statistics. -/
def delete_learned_clauses (s : smt_core_t) : smt_core_t :=
  let s1 := cleanup_watch_lists s
  let kept := unmarked_clauses s1 s1.learned_clauses
  { s1 with
    learned_clauses := kept
    nb_clauses := s1.nb_clauses - (s1.learned_clauses.length - kept.length) }

/-- Body of the first loop of `reduce_clause_database` for `c = v[i]`. -/
def reduce_mark_low {α : Type} [LinearOrder α] (act : Nat → α) (act_threshold : α)
    (s : smt_core_t) (c : Nat) : smt_core_t :=
  if decide (act c ≤ act_threshold) && ! clause_is_locked s c then
    { s with clauses := updN s.clauses c (mark_for_removal (s.clauses c)) }
  else s

/-- Body of the second loop of `reduce_clause_database` for `c = v[i]`. -/
def reduce_mark_high (s : smt_core_t) (c : Nat) : smt_core_t :=
  if ! clause_is_locked s c then
    { s with clauses := updN s.clauses c (mark_for_removal (s.clauses c)) }
  else s

/-- `reduce_clause_database`, without the statistics; `act` gives the activity
of a clause and `cla_inc` is the field `s->cla_inc`.  The type `α` stands for
`float`. -/
def reduce_clause_database {α : Type} [LinearOrder α] [Div α] [NatCast α] (act : Nat → α)
    (cla_inc : α) (s : smt_core_t) : Option smt_core_t :=
  let n := s.learned_clauses.length
  if n = 0 then some s
  else
    match reorder_clause_vector act s.learned_clauses with
    | none => none
    | some v =>
      let s1 : smt_core_t := { s with learned_clauses := v }
      let act_threshold := cla_inc / (n : α)
      let s2 := (v.take (n / 2)).foldl (reduce_mark_low act act_threshold) s1
      let s3 := (v.drop (n / 2)).foldl reduce_mark_high s2
      some (delete_learned_clauses s3)

/-- The clause written by a marking step of `reduce_clause_database` in place
of `cl`; `g` is the test on the activity. -/
def reduce_step_result (g : Nat → Bool) (value : Int → bval_t)
    (antecedent : Int → antecedent_t) (c : Nat) (cl : clause_t) : clause_t :=
  if g c && ! locked_by value antecedent c cl then mark_for_removal cl else cl

/-! ## Union-find structure of the context -/

/-- The partition `partition_t` of context.h; `τ` is the type of the type
labels, and the pointer to the type table is left out. -/
structure partition_t (τ : Type) where
  nelems : Nat
  size : Nat
  parent : Int → Int
  type : Int → τ
  rank : Int → Nat

def DEF_PARTITION_SIZE : Nat := 100

/-- `resize_partition(p, t)`, without the test of `MAX_PARTITION_SIZE`;
`NULL_TERM` is a constant of terms.h, which is not under src/. -/
def resize_partition {τ : Type} (NULL_TERM : Int) (p : partition_t τ) (t : Int) :
    partition_t τ :=
  let n := p.size
  let n1 :=
    if (n : Int) ≤ t then
      let n2 := if n = 0 then DEF_PARTITION_SIZE else n + n / 2
      if (n2 : Int) ≤ t then (t + 1).toNat else n2
    else n
  { p with
    size := n1
    parent := fun i => if (p.nelems : Int) ≤ i ∧ i ≤ t then NULL_TERM else p.parent i
    nelems := if (p.nelems : Int) ≤ t then (t + 1).toNat else p.nelems }

def partition_add {τ : Type} (NULL_TERM : Int) (p : partition_t τ) (t : Int) (tau : τ)
    (rnk : Nat) : partition_t τ :=
  let p1 := if t ≥ (p.nelems : Int) then resize_partition NULL_TERM p t else p
  { p1 with
    parent := upd p1.parent t t
    type := upd p1.type t tau
    rank := upd p1.rank t rnk }

def partition_add_term {τ : Type} (NULL_TERM : Int) (p : partition_t τ) (t : Int) (tau : τ) :
    partition_t τ :=
  partition_add NULL_TERM p t tau 0

def partition_add_root {τ : Type} (NULL_TERM : Int) (p : partition_t τ) (t : Int) (tau : τ) :
    partition_t τ :=
  partition_add NULL_TERM p t tau 255

/-- The loop `for (;;) { r = parent[y]; if (r == y) break; y = r; }` of
`partition_find`. -/
def find_root_loop (parent : Int → Int) : Nat → Int → Option Int
  | 0, _ => none
  | fuel + 1, y => if parent y = y then some y else find_root_loop parent fuel (parent y)

/-- The path-compression loop of `partition_find`. -/
def compress_loop (r : Int) : Nat → (Int → Int) → Int → Option (Int → Int)
  | 0, _, _ => none
  | fuel + 1, parent, t =>
    if parent t ≠ r then compress_loop r fuel (upd parent t r) (parent t)
    else some (upd parent t r)

/-- `partition_find(p, t)`: the result is the term returned and the partition
after the path compression. -/
def partition_find {τ : Type} (NULL_TERM : Int) (fuel : Nat) (p : partition_t τ) (t : Int) :
    Option (Int × partition_t τ) :=
  if t ≥ (p.nelems : Int) then some (NULL_TERM, p)
  else
    let y := p.parent t
    if y < 0 ∨ y = t then some (y, p)
    else
      match find_root_loop p.parent fuel y with
      | none => none
      | some r =>
        match compress_loop r fuel p.parent t with
        | none => none
        | some parent1 => some (r, { p with parent := parent1 })

def term_is_root {τ : Type} (p : partition_t τ) (t : Int) : Bool :=
  decide (t < (p.nelems : Int)) && decide (p.parent t = t)

def root_is_frozen {τ : Type} (p : partition_t τ) (t : Int) : Bool :=
  decide (p.rank t = 255)

def freeze_class {τ : Type} (p : partition_t τ) (t : Int) : partition_t τ :=
  { p with rank := upd p.rank t 255 }

/-- `mergeable_classes(p, x, y)`; `is_subtype` is the function of types.h. -/
def mergeable_classes {τ : Type} (is_subtype : τ → τ → Bool) (p : partition_t τ) (x y : Int) :
    Bool :=
  if p.rank x = 255 then
    decide (p.rank y ≠ 255) && is_subtype (p.type x) (p.type y)
  else if p.rank y = 255 then
    decide (p.rank x ≠ 255) && is_subtype (p.type y) (p.type x)
  else true

/-- `partition_merge(p, x, y)`; `inf_type` is the function of types.h, and the
rank is a `uint8_t`. -/
def partition_merge {τ : Type} (inf_type : τ → τ → τ) (p : partition_t τ) (x y : Int) :
    partition_t τ :=
  let r_x := p.rank x
  let r_y := p.rank y
  if r_x < r_y then
    { p with
      parent := upd p.parent x y
      type := upd p.type y (inf_type (p.type x) (p.type y)) }
  else
    { p with
      parent := upd p.parent y x
      type := upd p.type x (inf_type (p.type x) (p.type y))
      rank := if r_x = r_y then upd p.rank x ((r_x + 1) % 256) else p.rank }

/-- The term `t` has been added to the partition. -/
def Added {τ : Type} (NULL_TERM : Int) (p : partition_t τ) (t : Int) : Prop :=
  0 ≤ t ∧ t < (p.nelems : Int) ∧ p.parent t ≠ NULL_TERM

/-- The root `r` of the class of `t`: the end of the path of parents. -/
inductive RootOf (parent : Int → Int) : Int → Int → Prop
  | base {r : Int} : parent r = r → RootOf parent r r
  | step {t r : Int} : parent t ≠ t → RootOf parent (parent t) r → RootOf parent t r

/-- Well-formed partition: `NULL_TERM` is negative, the parent of a term of the
partition is in the partition, the parent array is acyclic, which the height
`d` expresses, and the ranks are in the range of `uint8_t`. -/
structure PartOk {τ : Type} (NULL_TERM : Int) (p : partition_t τ) (d : Int → Nat) : Prop where
  null : NULL_TERM < 0
  closed : ∀ t : Int, 0 ≤ t → t < (p.nelems : Int) → p.parent t ≠ NULL_TERM →
    0 ≤ p.parent t ∧ p.parent t < (p.nelems : Int) ∧ p.parent (p.parent t) ≠ NULL_TERM
  acyclic : ∀ t : Int, 0 ≤ t → t < (p.nelems : Int) → p.parent t ≠ NULL_TERM →
    p.parent t ≠ t → d (p.parent t) < d t
  rank_le : ∀ t : Int, 0 ≤ t → t < (p.nelems : Int) → p.parent t ≠ NULL_TERM →
    p.rank t ≤ 255

/-- Every term of rank 255 in the partition is the root of its class. -/
def FrozenRoots {τ : Type} (NULL_TERM : Int) (p : partition_t τ) : Prop :=
  ∀ t : Int, 0 ≤ t → t < (p.nelems : Int) → p.parent t ≠ NULL_TERM →
    p.rank t = 255 → p.parent t = t

/-- Root of the class made by `partition_merge(p, x, y)`. -/
def merge_root {τ : Type} (p : partition_t τ) (x y : Int) : Int :=
  if p.rank x < p.rank y then y else x

/-! ## Propagation to the theory solver -/

/-- The core with its atom table and the state of the theory solver, of type
`θ`. -/
structure smt_state_t (θ : Type) where
  core : smt_core_t
  atoms : atom_table_t
  solver : θ

/-- The callbacks `th_smt.assert_atom` and `th_ctrl.propagate` of the theory
solver: each one returns its result and the state it leaves. -/
structure th_solver_t (θ : Type) where
  assert_atom : smt_state_t θ → Nat → Int → Bool × smt_state_t θ
  propagate : smt_state_t θ → Bool × smt_state_t θ

/-- The call is recorded in the trace of the theory calls. -/
def record_th_call {θ : Type} (st : smt_state_t θ) (c : th_call_t) : smt_state_t θ :=
  { st with core := { st.core with th_calls := st.core.th_calls ++ [c] } }

/-- The loop of `theory_propagation`; `tbl` holds `n`, `has_atom` and `atom`,
which are read before the loop.  The result is the code, the final `i` and the
state. -/
def theory_propagation_loop {θ : Type} (th : th_solver_t θ) (tbl : atom_table_t) :
    Nat → Nat → smt_state_t θ → Option (Bool × Nat × smt_state_t θ)
  | 0, _, _ => none
  | fuel + 1, i, st =>
    if i < st.core.stack.top then
      let l := st.core.stack.lit.getD i 0
      let x := var_of l
      if x < (tbl.size : Int) ∧ tbl.has_atom x = true then
        let r := th.assert_atom (record_th_call st (th_call_t.assert_atom (tbl.atom x) l))
          (tbl.atom x) l
        if r.1 then theory_propagation_loop th tbl fuel (i + 1) r.2 else some (false, i, r.2)
      else theory_propagation_loop th tbl fuel (i + 1) st
    else some (true, i, st)

def theory_propagation {θ : Type} (th : th_solver_t θ) (fuel : Nat) (st : smt_state_t θ) :
    Option (Bool × smt_state_t θ) :=
  match theory_propagation_loop th st.atoms fuel st.core.stack.theory_ptr st with
  | none => none
  | some (false, _, st1) => some (false, st1)
  | some (true, i, st1) =>
    let st2 : smt_state_t θ :=
      { st1 with core := { st1.core with stack := { st1.core.stack with theory_ptr := i } } }
    some (th.propagate (record_th_call st2 th_call_t.propagate))

/-- The loop `do ... while (code && n < s->stack.top)` of `smt_propagation`;
`rounds` bounds the number of iterations. -/
def smt_propagation_loop {θ : Type} (th : th_solver_t θ) (fuel : Nat) :
    Nat → smt_state_t θ → Option (Bool × smt_state_t θ)
  | 0, _ => none
  | rounds + 1, st =>
    match boolean_propagation fuel st.core with
    | none => none
    | some (false, c) => some (false, { st with core := c })
    | some (true, c) =>
      match theory_propagation th fuel { st with core := c } with
      | none => none
      | some (code, st1) =>
        if code && decide (c.stack.top < st1.core.stack.top) then
          smt_propagation_loop th fuel rounds st1
        else some (code, st1)

def smt_propagation {θ : Type} (th : th_solver_t θ) (fuel rounds : Nat) (st : smt_state_t θ) :
    Option (Bool × smt_state_t θ) :=
  if st.atoms.natoms = 0 then
    (boolean_propagation fuel st.core).map (fun r => (r.1, { st with core := r.2 }))
  else smt_propagation_loop th fuel rounds st

/-- The calls of `assert_atom` for the literals `lits`, in order: one call for
each literal whose variable has an atom in `tbl`. -/
def atom_asserts (tbl : atom_table_t) (lits : List Int) : List th_call_t :=
  (lits.filter (fun l => decide (var_of l < (tbl.size : Int)) && tbl.has_atom (var_of l))).map
    (fun l => th_call_t.assert_atom (tbl.atom (var_of l)) l)

/-- What the callbacks may do in a run without conflict and without
backtracking: `assert_atom`, when it returns true, leaves the assignment stack,
`prop_ptr` and the trace as they are; `propagate`, when it returns true, leaves
the trace as it is and `prop_ptr` at most at the top of the stack. -/
structure QuietTheory {θ : Type} (th : th_solver_t θ) : Prop where
  assert_lit : ∀ st a l, (th.assert_atom st a l).1 = true →
    (th.assert_atom st a l).2.core.stack.lit = st.core.stack.lit
  assert_ptr : ∀ st a l, (th.assert_atom st a l).1 = true →
    (th.assert_atom st a l).2.core.stack.prop_ptr = st.core.stack.prop_ptr
  assert_calls : ∀ st a l, (th.assert_atom st a l).1 = true →
    (th.assert_atom st a l).2.core.th_calls = st.core.th_calls
  propagate_calls : ∀ st, (th.propagate st).1 = true →
    (th.propagate st).2.core.th_calls = st.core.th_calls
  propagate_ptr : ∀ st, (th.propagate st).1 = true →
    st.core.stack.prop_ptr ≤ st.core.stack.top →
    (th.propagate st).2.core.stack.prop_ptr ≤ (th.propagate st).2.core.stack.top

/-- The rounds of a run of `smt_propagation` from `st` to `st1` that returns
true.  In each round `boolean_propagation` returns true in a state `c` with
`prop_ptr = top`; `assert_atom` is then called for the literals of `c` from
`theory_ptr` on that have an atom, and `propagate` is called in a state `st2`
with the stack of `c` and `prop_ptr = top`.  The last round adds no literal to
the stack, every other round adds one or more. -/
inductive Rounds {θ : Type} (th : th_solver_t θ) (fuel : Nat) :
    smt_state_t θ → smt_state_t θ → Prop
  | last {st st2 st1 : smt_state_t θ} {c : smt_core_t} :
      boolean_propagation fuel st.core = some (true, c) →
      c.stack.prop_ptr = c.stack.top →
      st2.core.stack.lit = c.stack.lit →
      st2.core.stack.prop_ptr = st2.core.stack.top →
      st2.core.th_calls = st.core.th_calls
        ++ atom_asserts st.atoms (c.stack.lit.drop c.stack.theory_ptr)
        ++ [th_call_t.propagate] →
      th.propagate st2 = (true, st1) →
      st1.core.th_calls = st2.core.th_calls →
      ¬ (c.stack.top < st1.core.stack.top) →
      Rounds th fuel st st1
  | next {st st2 st1 st3 : smt_state_t θ} {c : smt_core_t} :
      boolean_propagation fuel st.core = some (true, c) →
      c.stack.prop_ptr = c.stack.top →
      st2.core.stack.lit = c.stack.lit →
      st2.core.stack.prop_ptr = st2.core.stack.top →
      st2.core.th_calls = st.core.th_calls
        ++ atom_asserts st.atoms (c.stack.lit.drop c.stack.theory_ptr)
        ++ [th_call_t.propagate] →
      th.propagate st2 = (true, st1) →
      st1.core.th_calls = st2.core.th_calls →
      c.stack.top < st1.core.stack.top →
      Rounds th fuel st1 st3 →
      Rounds th fuel st st3

/-- Frame of Boolean propagation: the trace and `theory_ptr` are kept, the
stack does not shrink. -/
structure PropFrame (s t : smt_core_t) : Prop where
  th_calls : t.th_calls = s.th_calls
  theory_ptr : t.stack.theory_ptr = s.stack.theory_ptr
  top_le : s.stack.top ≤ t.stack.top

/-! ## Removal of the substitution cycles -/

/-- Modelled from the spec: the colour of a term in the internalization table
(white, grey, black), or `assigned` when the term has an internal code. -/
inductive term_color_t
  | white
  | grey
  | black
  | assigned
  deriving DecidableEq, Repr

/-- Kinds of terms as `visit` distinguishes them: `leaf` for the constants and
variables that have no subterm, `uninterpreted` for `UNINTERPRETED_TERM`, and
`composite` for the kinds whose subterms are visited. -/
inductive visit_kind_t
  | leaf
  | uninterpreted
  | composite
  deriving DecidableEq, Repr

/-- The term table, which is not under src/: the kind of a term and the
subterms that `visit_ite`, `visit_eq`, `visit_app`, `visit_array` and the like
visit, in order. -/
structure term_table_t where
  kind : Int → visit_kind_t
  children : Int → List Int

/-- The part of the context that the removal of cycles reads and writes: the
partition, the colours, the map `pseudo_subst` (`none` when the map has no
record for the term) and the vector `top_eqs`. -/
structure subst_ctx_t (τ : Type) where
  partition : partition_t τ
  color : Int → term_color_t
  pseudo_subst : Int → Option Int
  top_eqs : List Int

/-- `find_term_root`; `pf` is the fuel of `partition_find`. -/
def find_term_root {τ : Type} (NULL_TERM : Int) (pf : Nat) (c : subst_ctx_t τ) (t : Int) :
    Option (Int × subst_ctx_t τ) :=
  match partition_find NULL_TERM pf c.partition t with
  | none => none
  | some (r, p1) => some (if r < 0 then t else r, { c with partition := p1 })

def subst_candidate {τ : Type} (NULL_TERM : Int) (c : subst_ctx_t τ) (t : Int) : Int :=
  match c.pseudo_subst t with
  | none => NULL_TERM
  | some v => v

def remove_subst_candidate {τ : Type} (NULL_TERM : Int) (c : subst_ctx_t τ) (t : Int) :
    subst_ctx_t τ :=
  { c with pseudo_subst := upd c.pseudo_subst t (some NULL_TERM) }

/-- Modelled from the spec: `mark_term_grey`, `mark_term_black` and
`clr_term_color` write the colour of `t`. -/
def set_term_color {τ : Type} (c : subst_ctx_t τ) (t : Int) (x : term_color_t) :
    subst_ctx_t τ :=
  { c with color := upd c.color t x }

/-- `visit_array`, over the function `v` that visits a term. -/
def visit_array {τ : Type} (v : subst_ctx_t τ → Int → Option (Bool × subst_ctx_t τ)) :
    subst_ctx_t τ → List Int → Option (Bool × subst_ctx_t τ)
  | c, [] => some (false, c)
  | c, t :: ts =>
    match v c t with
    | none => none
    | some (true, c1) => some (true, c1)
    | some (false, c1) => visit_array v c1 ts

/-- The `switch` of `visit` for a white term `t`, already marked grey in `c`;
`v` visits a term. -/
def visit_kind {τ : Type} (NULL_TERM : Int) (pf : Nat) (tt : term_table_t)
    (v : subst_ctx_t τ → Int → Option (Bool × subst_ctx_t τ)) (c : subst_ctx_t τ) (t : Int) :
    Option (Bool × subst_ctx_t τ) :=
  match tt.kind t with
  | visit_kind_t.leaf => some (false, c)
  | visit_kind_t.uninterpreted =>
    match find_term_root NULL_TERM pf c t with
    | none => none
    | some (r, c2) =>
      if r ≠ t then v c2 r
      else if subst_candidate NULL_TERM c2 t ≠ NULL_TERM then
        match v c2 (subst_candidate NULL_TERM c2 t) with
        | none => none
        | some (true, c3) => some (false, remove_subst_candidate NULL_TERM c3 t)
        | some (false, c3) => some (false, c3)
      else some (false, c2)
  | visit_kind_t.composite => visit_array v c (tt.children t)

/-- `visit(ctx, t)`; `fuel` bounds the depth of the recursion. -/
def visit {τ : Type} (NULL_TERM : Int) (pf : Nat) (tt : term_table_t) :
    Nat → subst_ctx_t τ → Int → Option (Bool × subst_ctx_t τ)
  | 0, _, _ => none
  | fuel + 1, c, t =>
    match c.color t with
    | term_color_t.white =>
      match visit_kind NULL_TERM pf tt (visit NULL_TERM pf tt fuel)
          (set_term_color c t term_color_t.grey) t with
      | none => none
      | some (true, c1) => some (true, set_term_color c1 t term_color_t.white)
      | some (false, c1) => some (false, set_term_color c1 t term_color_t.black)
    | term_color_t.grey => some (true, c)
    | _ => some (false, c)

/-- `is_unassigned_var`: the codes of the three colours are negative. -/
def is_unassigned_var {τ : Type} (tt : term_table_t) (c : subst_ctx_t τ) (t : Int) : Bool :=
  decide (tt.kind t = visit_kind_t.uninterpreted) && decide (c.color t ≠ term_color_t.assigned)

/-- `check_subst_cycle(ctx, x, y, e)`. -/
def check_subst_cycle {τ : Type} (NULL_TERM : Int) (pf fuel : Nat) (tt : term_table_t)
    (c : subst_ctx_t τ) (x y e : Int) : Option (subst_ctx_t τ) :=
  let x1 := if is_unassigned_var tt c y then y else x
  let r1 :=
    if c.color x1 = term_color_t.white then
      (visit NULL_TERM pf tt fuel c x1).map (fun r => r.2)
    else some c
  match r1 with
  | none => none
  | some c1 =>
    match find_term_root NULL_TERM pf c1 x1 with
    | none => none
    | some (r, c2) =>
      if c2.pseudo_subst r = some NULL_TERM then some { c2 with top_eqs := c2.top_eqs ++ [e] }
      else some c2

/-- `remove_subst_cycles`: `eqs` gives, for each equality `e` of `subst_eqs`,
its two sides `x` and `y` as the triple `(x, y, e)`. -/
def remove_subst_cycles {τ : Type} (NULL_TERM : Int) (pf fuel : Nat) (tt : term_table_t) :
    subst_ctx_t τ → List (Int × Int × Int) → Option (subst_ctx_t τ)
  | c, [] => some c
  | c, (x, y, e) :: rest =>
    match check_subst_cycle NULL_TERM pf fuel tt c x y e with
    | none => none
    | some c1 => remove_subst_cycles NULL_TERM pf fuel tt c1 rest

/-- The root that `find_term_root` gives for `t`: the root of its class, or
`t` itself when `t` is not in the partition. -/
def TermRoot {τ : Type} (NULL_TERM : Int) (c : subst_ctx_t τ) (t r : Int) : Prop :=
  (Added NULL_TERM c.partition t ∧ RootOf c.partition.parent t r) ∨
  (¬ Added NULL_TERM c.partition t ∧ r = t)

/-- Child edges and partition edges of the dependency graph: from a composite
term to a subterm, from a variable that is not a root to the root of its class.
A term that has an internal code is a leaf. -/
def StaticEdge {τ : Type} (NULL_TERM : Int) (tt : term_table_t) (c : subst_ctx_t τ)
    (t u : Int) : Prop :=
  c.color t ≠ term_color_t.assigned ∧
  ((tt.kind t = visit_kind_t.composite ∧ u ∈ tt.children t) ∨
   (tt.kind t = visit_kind_t.uninterpreted ∧ TermRoot NULL_TERM c t u ∧ u ≠ t))

/-- Substitution edges: from a root variable to its substitution candidate. -/
def SubstEdge {τ : Type} (NULL_TERM : Int) (tt : term_table_t) (c : subst_ctx_t τ)
    (t u : Int) : Prop :=
  c.color t ≠ term_color_t.assigned ∧ tt.kind t = visit_kind_t.uninterpreted ∧
  TermRoot NULL_TERM c t t ∧ subst_candidate NULL_TERM c t = u ∧ u ≠ NULL_TERM

/-- Edges of the dependency graph. -/
def DepEdge {τ : Type} (NULL_TERM : Int) (tt : term_table_t) (c : subst_ctx_t τ)
    (t u : Int) : Prop :=
  StaticEdge NULL_TERM tt c t u ∨ SubstEdge NULL_TERM tt c t u

/-- Edge whose source is grey. -/
def GreyEdge {τ : Type} (NULL_TERM : Int) (tt : term_table_t) (c : subst_ctx_t τ)
    (t u : Int) : Prop :=
  DepEdge NULL_TERM tt c t u ∧ c.color t = term_color_t.grey

/-- Every grey term has a path of edges from grey terms to `t`: the grey terms
are the terms being visited when `t` is visited. -/
def GreyPath {τ : Type} (NULL_TERM : Int) (tt : term_table_t) (c : subst_ctx_t τ)
    (t : Int) : Prop :=
  ∀ v, c.color v = term_color_t.grey → Relation.ReflTransGen (GreyEdge NULL_TERM tt c) v t

/-- The black terms are done: walking the edges from a black term terminates,
and the successors of a black term are black or have an internal code. -/
def BlackOk {τ : Type} (NULL_TERM : Int) (tt : term_table_t) (c : subst_ctx_t τ) : Prop :=
  ∀ t, c.color t = term_color_t.black →
    Acc (fun a b => DepEdge NULL_TERM tt c b a) t ∧
    ∀ u, DepEdge NULL_TERM tt c t u →
      c.color u = term_color_t.black ∨ c.color u = term_color_t.assigned

/-- A substitution that `c1` lacks was on a cycle of the graph of some state
`cm` whose edges are edges of `c`, with the substitution still there. -/
def RetractedOnCycle {τ : Type} (NULL_TERM : Int) (tt : term_table_t)
    (c c1 : subst_ctx_t τ) : Prop :=
  ∀ x, c1.pseudo_subst x ≠ c.pseudo_subst x →
    ∃ cm : subst_ctx_t τ, (∀ a b, DepEdge NULL_TERM tt cm a b → DepEdge NULL_TERM tt c a b) ∧
      Relation.TransGen (DepEdge NULL_TERM tt cm) x x ∧ cm.pseudo_subst x = c.pseudo_subst x

/-- What a call of `visit` leaves: the colours other than white are kept, a
white term stays white or becomes black; the candidates of the terms that were
not white are kept, the other candidates are kept or removed; the roots are
kept and the partition is well formed. -/
structure VisitFrame {τ : Type} (NULL_TERM : Int) (d : Int → Nat) (c c1 : subst_ctx_t τ) :
    Prop where
  keep : ∀ u, c.color u ≠ term_color_t.white → c1.color u = c.color u
  whites : ∀ u, c.color u = term_color_t.white →
    c1.color u = term_color_t.white ∨ c1.color u = term_color_t.black
  subst_keep : ∀ x, c.color x ≠ term_color_t.white → c1.pseudo_subst x = c.pseudo_subst x
  subst_removed : ∀ x, c1.pseudo_subst x = c.pseudo_subst x ∨
    c1.pseudo_subst x = some NULL_TERM
  roots : ∀ t r, TermRoot NULL_TERM c1 t r ↔ TermRoot NULL_TERM c t r
  partok : PartOk NULL_TERM c1.partition d

/-- The child edges and the partition edges make a DAG, `h` being a height. -/
def StaticDag {τ : Type} (NULL_TERM : Int) (tt : term_table_t) (h : Int → Nat)
    (c : subst_ctx_t τ) : Prop :=
  ∀ a b, StaticEdge NULL_TERM tt c a b → h b < h a

/-- Result of a call `visit(ctx, t)` from `c` that returns `b` and leaves
`c1`. -/
def VisitSpec {τ : Type} (NULL_TERM : Int) (d : Int → Nat) (tt : term_table_t)
    (h : Int → Nat) (c : subst_ctx_t τ) (t : Int) (b : Bool) (c1 : subst_ctx_t τ) : Prop :=
  VisitFrame NULL_TERM d c c1 ∧
  (b = false → c1.color t = term_color_t.black ∨ c1.color t = term_color_t.assigned) ∧
  (b = true → c1.color t = c.color t) ∧
  (GreyPath NULL_TERM tt c t → BlackOk NULL_TERM tt c → StaticDag NULL_TERM tt h c →
    BlackOk NULL_TERM tt c1 ∧ RetractedOnCycle NULL_TERM tt c c1 ∧
    (b = true → ∃ v, c.color v = term_color_t.grey ∧
      Relation.ReflTransGen (StaticEdge NULL_TERM tt c1) t v))

/-- Number of white terms among the terms `0 .. N-1`. -/
def white_count {τ : Type} (N : Nat) (c : subst_ctx_t τ) : Nat :=
  (List.range N).countP (fun i : Nat => decide (c.color (Int.ofNat i) = term_color_t.white))

/-- The white terms are among the terms `0 .. N-1`. -/
def WhiteBound {τ : Type} (N : Nat) (c : subst_ctx_t τ) : Prop :=
  ∀ t, c.color t = term_color_t.white → 0 ≤ t ∧ t < (N : Int)

/-- State from which `visit` returns with fuel `fuel`. -/
def Small {τ : Type} (NULL_TERM : Int) (d : Int → Nat) (N fuel : Nat) (c : subst_ctx_t τ) :
    Prop :=
  PartOk NULL_TERM c.partition d ∧ WhiteBound N c ∧ white_count N c < fuel

/-- The variable that `check_subst_cycle(ctx, x, y, e)` explores: `y` if it is
an unassigned variable, `x` otherwise. -/
def cycle_start {τ : Type} (tt : term_table_t) (c : subst_ctx_t τ) (x y : Int) : Int :=
  if is_unassigned_var tt c y then y else x

/-- No term is grey: no call of `visit` is in progress. -/
def NoGrey {τ : Type} (c : subst_ctx_t τ) : Prop := ∀ u, c.color u ≠ term_color_t.grey

/-! ## Naive bit counting (src/tests/test_bit_tricks.c) -/

/-- Loop of `naive_ctz` (test_bit_tricks.c): `while ((x & m) == 0) { i++; m <<= 1; }`
on 32-bit unsigned `m` and `i`. -/
def naive_ctz_loop (x : Nat) : Nat → Nat → Nat → Option Nat
  | 0, _, _ => none
  | fuel + 1, m, i =>
    if x &&& m = 0 then naive_ctz_loop x fuel ((m <<< 1) % 2 ^ 32) ((i + 1) % 2 ^ 32)
    else some i

/-- Function `naive_ctz`: `m = 0x1; i = 0;` then the loop. -/
def naive_ctz (fuel x : Nat) : Option Nat := naive_ctz_loop x fuel 1 0

/-- Loop of `naive_popcount32`/`naive_popcount64` on unsigned integers of `w` bits:
`while (x != 0) { x &= (x - 1); c++; }`; the counter `c` is a `uint32_t`. -/
def naive_popcount_loop (w : Nat) : Nat → Nat → Nat → Option Nat
  | 0, _, _ => none
  | fuel + 1, x, c =>
    if x ≠ 0 then
      naive_popcount_loop w fuel (x &&& ((x + 2 ^ w - 1) % 2 ^ w)) ((c + 1) % 2 ^ 32)
    else some c

/-- Function `naive_popcount32`. -/
def naive_popcount32 (fuel x : Nat) : Option Nat := naive_popcount_loop 32 fuel x 0

/-- Function `naive_popcount64`. -/
def naive_popcount64 (fuel x : Nat) : Option Nat := naive_popcount_loop 64 fuel x 0

/-- Modelled from the spec: the number of 1 bits among the `w` low bits of `x`
(what `popcount32`, `popcount64` of bit_tricks.h return). -/
def bit_count (w x : Nat) : Nat := ((List.range w).filter (fun i => x.testBit i)).length

/-- Index `i` is the lowest set bit of `x`. -/
def LowestSetBit (x i : Nat) : Prop := x.testBit i = true ∧ ∀ j, j < i → x.testBit j = false

/-! ## Random selection of a variable -/

/-- Modelled from the spec: `all_variables_assigned` (smt_core.h) holds when every
variable of the core has a value. -/
def all_variables_assigned (s : smt_core_t) : Bool :=
  (List.range s.nvars).all (fun x => decide (s.value (pos_lit (Int.ofNat x)) ≠ VAL_UNDEF))

/-- Loop `while (gcd32(d, n) != 1) d--;` of `select_random_bvar` on the 32-bit
unsigned `d`.  Modelled from the spec: `gcd32` is the greatest common divisor. -/
def select_random_bvar_incr (n : Nat) : Nat → Nat → Option Nat
  | 0, _ => none
  | fuel + 1, d =>
    if Nat.gcd d n ≠ 1 then select_random_bvar_incr n fuel ((d + 2 ^ 32 - 1) % 2 ^ 32)
    else some d

/-- Loop `do { y += d; if (y > n) y -= n; } while (v[pos_lit(y)] != VAL_UNDEF)` of
`select_random_bvar`.  The second component lists the variables `y` whose cell
`v[pos_lit(y)]` is read.  (`nvars` is below `MAX_VARIABLES`, so the 32-bit
additions do not wrap; the assertion `x != y` is not part of the model.) -/
def select_random_bvar_loop (s : smt_core_t) (d : Nat) : Nat → Int → List Int →
    Option (Int × List Int)
  | 0, _, _ => none
  | fuel + 1, y, reads =>
    let y1 := y + (d : Int)
    let y2 := if y1 > (s.nvars : Int) then y1 - (s.nvars : Int) else y1
    if s.value (pos_lit y2) ≠ VAL_UNDEF then select_random_bvar_loop s d fuel y2 (reads ++ [y2])
    else some (y2, reads ++ [y2])

/-- Function `select_random_bvar`; `r1` and `r2` are the results of the calls
`random_uint(n)` and `random_uint(n - 1)`.  Returns the variable selected and
the list of the variables `y` whose cell `v[pos_lit(y)]` was read. -/
def select_random_bvar (s : smt_core_t) (r1 r2 fuel : Nat) : Option (Int × List Int) :=
  let x : Int := (r1 : Int)
  if s.value (pos_lit x) = VAL_UNDEF then some (x, [x])
  else if all_variables_assigned s then some (null_bvar, [x])
  else
    match select_random_bvar_incr s.nvars fuel (1 + r2) with
    | none => none
    | some d => select_random_bvar_loop s d fuel x [x]

/-! ## Hash tables of non-negative integers (int_hash_tables.c) -/

/-- Marker `NULL_VALUE` of an empty record (`int_htbl_find_obj` returns it as -1). -/
def NULL_VALUE : Int := -1

/-- Marker `DELETED_VALUE` of an erased record. -/
def DELETED_VALUE : Int := -2

/-- Record `int_hrec_t`: a hash code and a non-negative index, or a marker. -/
structure int_hrec_t where
  key : Nat
  value : Int
  deriving DecidableEq, Repr

/-- Table `int_htbl_t`; `records` is an array of `size` records. -/
structure int_htbl_t where
  records : Nat → int_hrec_t
  size : Nat
  nelems : Nat
  ndeleted : Nat
  resize_threshold : Nat
  cleanup_threshold : Nat

/-- Object `int_hobj_t`: `hash` is the result of `o->hash(o)`, `eq v` the result
of `o->eq(o, v)` and `build` the result of `o->build(o)`. -/
structure int_hobj_t where
  hash : Nat
  eq : Int → Bool
  build : Int

/-- Constants of int_hash_tables.h: the default size, the size limit, and the
thresholds `(uint32_t)(n * RESIZE_RATIO)` and `(uint32_t)(n * CLEANUP_RATIO)`
as functions of the size `n`. -/
structure int_htbl_consts where
  INT_HTBL_DEFAULT_SIZE : Nat
  MAX_HTBL_SIZE : Nat
  resize : Nat → Nat
  cleanup : Nat → Nat

/-- A freshly allocated array with all values set to `NULL_VALUE`. -/
def null_records : Nat → int_hrec_t := fun _ => { key := 0, value := NULL_VALUE }

/-- Function `init_int_htbl`; `none` when `out_of_memory` is called. -/
def init_int_htbl (C : int_htbl_consts) (n : Nat) : Option int_htbl_t :=
  let n1 := if n = 0 then C.INT_HTBL_DEFAULT_SIZE else n
  if C.MAX_HTBL_SIZE ≤ n1 then none
  else some
    { records := null_records, size := n1, nelems := 0, ndeleted := 0,
      resize_threshold := C.resize n1, cleanup_threshold := C.cleanup n1 }

/-- Step `j ++; j &= mask;` on the 32-bit unsigned `j`. -/
def next_slot (mask j : Nat) : Nat := ((j + 1) % 2 ^ 32) &&& mask

/-- Value of `size - 1` on 32-bit unsigned integers. -/
def mask_of (size : Nat) : Nat := (size + 2 ^ 32 - 1) % 2 ^ 32

/-- Function `int_htbl_copy_record`, started at slot `j`. -/
def int_htbl_copy_record (k : Nat) (v : Int) (mask : Nat) :
    Nat → (Nat → int_hrec_t) → Nat → Option (Nat → int_hrec_t)
  | 0, _, _ => none
  | fuel + 1, t, j =>
    if (t j).value = NULL_VALUE then some (updN t j { key := k, value := v })
    else int_htbl_copy_record k v mask fuel t (next_slot mask j)

/-- Loop `for (j=0; j<n; j++)` of `int_htbl_cleanup` and `int_htbl_extend` that
copies the records of non-negative value into `tmp`. -/
def int_htbl_copy_loop (old : Nat → int_hrec_t) (mask fuel : Nat) :
    List Nat → (Nat → int_hrec_t) → Option (Nat → int_hrec_t)
  | [], tmp => some tmp
  | j :: js, tmp =>
    if 0 ≤ (old j).value then
      match int_htbl_copy_record (old j).key (old j).value mask fuel tmp
          ((old j).key &&& mask) with
      | none => none
      | some tmp1 => int_htbl_copy_loop old mask fuel js tmp1
    else int_htbl_copy_loop old mask fuel js tmp

/-- Function `int_htbl_cleanup`. -/
def int_htbl_cleanup (fuel : Nat) (t : int_htbl_t) : Option int_htbl_t :=
  match int_htbl_copy_loop t.records (mask_of t.size) fuel (List.range t.size) null_records with
  | none => none
  | some tmp => some { t with records := tmp, ndeleted := 0 }

/-- Function `int_htbl_extend`; `none` when `out_of_memory` is called. -/
def int_htbl_extend (C : int_htbl_consts) (fuel : Nat) (t : int_htbl_t) : Option int_htbl_t :=
  let n2 := (t.size <<< 1) % 2 ^ 32
  if n2 = 0 ∨ C.MAX_HTBL_SIZE ≤ n2 then none
  else
    match int_htbl_copy_loop t.records (mask_of n2) fuel (List.range t.size) null_records with
    | none => none
    | some tmp =>
      some { t with records := tmp, ndeleted := 0, size := n2,
                    resize_threshold := C.resize n2, cleanup_threshold := C.cleanup n2 }

/-- Search loop of `int_htbl_erase_record`: the slot where `r->value == v`, or
`none` inside when the loop meets `NULL_VALUE` first. -/
def int_htbl_erase_loop (t : int_htbl_t) (v : Int) (mask : Nat) : Nat → Nat → Option (Option Nat)
  | 0, _ => none
  | fuel + 1, j =>
    if (t.records j).value = v then some (some j)
    else if (t.records j).value = NULL_VALUE then some none
    else int_htbl_erase_loop t v mask fuel (next_slot mask j)

/-- Function `int_htbl_erase_record`. -/
def int_htbl_erase_record (fuel : Nat) (t : int_htbl_t) (k : Nat) (v : Int) : Option int_htbl_t :=
  let mask := mask_of t.size
  match int_htbl_erase_loop t v mask fuel (k &&& mask) with
  | none => none
  | some none => some t
  | some (some j) =>
    let t1 : int_htbl_t :=
      { t with nelems := (t.nelems + 2 ^ 32 - 1) % 2 ^ 32
               ndeleted := (t.ndeleted + 1) % 2 ^ 32
               records := updN t.records j { key := (t.records j).key, value := DELETED_VALUE } }
    if t1.ndeleted > t1.cleanup_threshold then int_htbl_cleanup fuel t1 else some t1

/-- Loop of `int_htbl_find_obj`. -/
def int_htbl_find_loop (t : int_htbl_t) (o : int_hobj_t) (mask k : Nat) : Nat → Nat → Option Int
  | 0, _ => none
  | fuel + 1, j =>
    if (0 ≤ (t.records j).value ∧ (t.records j).key = k ∧ o.eq (t.records j).value = true)
        ∨ (t.records j).value = NULL_VALUE then
      some (t.records j).value
    else int_htbl_find_loop t o mask k fuel (next_slot mask j)

/-- Function `int_htbl_find_obj`. -/
def int_htbl_find_obj (fuel : Nat) (t : int_htbl_t) (o : int_hobj_t) : Option Int :=
  int_htbl_find_loop t o (mask_of t.size) o.hash fuel (o.hash &&& mask_of t.size)

/-- Function `int_htbl_store_new_obj` for the record of index `r`. -/
def int_htbl_store_new_obj (C : int_htbl_consts) (fuel : Nat) (t : int_htbl_t) (r k : Nat)
    (o : int_hobj_t) : Option (Int × int_htbl_t) :=
  if 0 ≤ o.build then
    let t1 : int_htbl_t :=
      { t with nelems := (t.nelems + 1) % 2 ^ 32
               records := updN t.records r { key := k, value := o.build } }
    if (t1.nelems + t1.ndeleted) % 2 ^ 32 > t1.resize_threshold then
      (int_htbl_extend C fuel t1).map (fun t2 => (o.build, t2))
    else some (o.build, t1)
  else some (o.build, t)

/-- Second loop of `int_htbl_get_obj`, after a deleted record `aux` was met.  The
last component of the result counts the calls of `build`. -/
def int_htbl_get_loop2 (C : int_htbl_consts) (fuel0 : Nat) (t : int_htbl_t) (o : int_hobj_t)
    (mask k aux : Nat) : Nat → Nat → Option (Int × int_htbl_t × Nat)
  | 0, _ => none
  | fuel + 1, j =>
    let j1 := next_slot mask j
    if (t.records j1).value = NULL_VALUE then
      (int_htbl_store_new_obj C fuel0 { t with ndeleted := (t.ndeleted + 2 ^ 32 - 1) % 2 ^ 32 }
        aux k o).map (fun p => (p.1, p.2, 1))
    else if 0 ≤ (t.records j1).value ∧ (t.records j1).key = k
        ∧ o.eq (t.records j1).value = true then
      some ((t.records j1).value, t, 0)
    else int_htbl_get_loop2 C fuel0 t o mask k aux fuel j1

/-- First loop of `int_htbl_get_obj`. -/
def int_htbl_get_loop1 (C : int_htbl_consts) (fuel0 : Nat) (t : int_htbl_t) (o : int_hobj_t)
    (mask k : Nat) : Nat → Nat → Option (Int × int_htbl_t × Nat)
  | 0, _ => none
  | fuel + 1, j =>
    if (t.records j).value = NULL_VALUE then
      (int_htbl_store_new_obj C fuel0 t j k o).map (fun p => (p.1, p.2, 1))
    else if (t.records j).value = DELETED_VALUE then
      int_htbl_get_loop2 C fuel0 t o mask k j fuel0 j
    else if (t.records j).key = k ∧ o.eq (t.records j).value = true then
      some ((t.records j).value, t, 0)
    else int_htbl_get_loop1 C fuel0 t o mask k fuel (next_slot mask j)

/-- Function `int_htbl_get_obj`: the index returned, the table after the call
and the number of calls of `build`. -/
def int_htbl_get_obj (C : int_htbl_consts) (fuel : Nat) (t : int_htbl_t) (o : int_hobj_t) :
    Option (Int × int_htbl_t × Nat) :=
  int_htbl_get_loop1 C fuel t o (mask_of t.size) o.hash fuel (o.hash &&& mask_of t.size)

/-- Number of slots of the record array that hold `DELETED_VALUE`. -/
def deleted_count (t : int_htbl_t) : Nat :=
  (List.range t.size).countP (fun j => decide ((t.records j).value = DELETED_VALUE))

/-- Number of slots of the record array that hold a non-negative value. -/
def live_count (t : int_htbl_t) : Nat :=
  (List.range t.size).countP (fun j => decide (0 ≤ (t.records j).value))

/-- Slot where a probing loop started at slot `j` stops: the first slot, in
the order `j`, `next_slot mask j`, ..., that satisfies `stop`. -/
def probe_loop (stop : Nat → Bool) (mask : Nat) : Nat → Nat → Option Nat
  | 0, _ => none
  | fuel + 1, j => if stop j then some j else probe_loop stop mask fuel (next_slot mask j)

/-- Every live record of the array is reached from the slot of its key
through slots that are not empty. -/
def Chain (rec : Nat → int_hrec_t) (size : Nat) : Prop :=
  ∀ j, j < size → 0 ≤ (rec j).value →
    ∃ d, ((rec j).key + d) % size = j ∧
      ∀ i, i < d → (rec (((rec j).key + i) % size)).value ≠ NULL_VALUE

/-- The part of the well-formedness of a table that does not depend on the
thresholds: the size is a power of two that fits 32 bits, every value is
non-negative or a marker, the counters count the live and the deleted records,
the live values are pairwise distinct, and every live record is reached from
the slot of its key. -/
structure HtblBase (t : int_htbl_t) : Prop where
  size_pow : ∃ p, p ≤ 31 ∧ t.size = 2 ^ p
  vals : ∀ j, j < t.size → 0 ≤ (t.records j).value ∨ (t.records j).value = NULL_VALUE ∨
    (t.records j).value = DELETED_VALUE
  nelems_eq : t.nelems = live_count t
  ndeleted_eq : t.ndeleted = deleted_count t
  distinct : ∀ i j, i < t.size → j < t.size → 0 ≤ (t.records i).value →
    (t.records i).value = (t.records j).value → i = j
  chain : Chain t.records t.size

/-- Well-formed table: `HtblBase`, the table is not full, and the resize
threshold is below the size. -/
structure HtblInv (t : int_htbl_t) : Prop where
  base : HtblBase t
  room : t.nelems + t.ndeleted < t.size
  resize_lt : t.resize_threshold < t.size

/-- The table holds a live record of key `k` and value `v`. -/
def Live (t : int_htbl_t) (k : Nat) (v : Int) : Prop :=
  ∃ j, j < t.size ∧ 0 ≤ v ∧ (t.records j).key = k ∧ (t.records j).value = v

/-- The record of value `v` is found by every object of hash code `k` that is
equal to `v` and to no other live index of its hash code. -/
def Findable (fuel : Nat) (t : int_htbl_t) (k : Nat) (v : Int) : Prop :=
  ∀ o : int_hobj_t, o.hash = k → o.eq v = true →
    (∀ v1, Live t k v1 → o.eq v1 = true → v1 = v) → int_htbl_find_obj fuel t o = some v

/-- Exit test of the loop of `int_htbl_find_obj` at slot `j`. -/
def find_stop (t : int_htbl_t) (o : int_hobj_t) (k j : Nat) : Bool :=
  decide ((0 ≤ (t.records j).value ∧ (t.records j).key = k ∧ o.eq (t.records j).value = true)
    ∨ (t.records j).value = NULL_VALUE)

/-- Exit test of the first loop of `int_htbl_get_obj` at slot `j`. -/
def get_stop (t : int_htbl_t) (o : int_hobj_t) (k j : Nat) : Bool :=
  decide ((t.records j).value = NULL_VALUE ∨ (t.records j).value = DELETED_VALUE ∨
    ((t.records j).key = k ∧ o.eq (t.records j).value = true))

/-- Number of live records among the first `n` slots of an array. -/
def live_in (rec : Nat → int_hrec_t) (n : Nat) : Nat :=
  (List.range n).countP (fun j => decide (0 ≤ (rec j).value))

/-! ## Substitution in a product of bit-vector variables (src/src/context.c) -/

/-- Factor `varexp_t` of a product `varprod_t`: a variable and its exponent. -/
structure varexp_t where
  var : Int
  exp : Nat
  deriving DecidableEq, Repr

/-- Modelled from the spec: an operation on a `bvarith_buffer_t`, either
`bvarith_buffer_mul_expr(b, q)` or `bvarith_buffer_mul_var(b, y)`; a buffer is
represented by the operations applied to it so far. -/
inductive bvbuffer_op_t (Q : Type)
  | mul_expr (q : Q)
  | mul_var (y : Int)
  deriving DecidableEq, Repr

/-- Loop of `context_acceptable_bvprod_subst` with its exit test `i<n && j<3`;
`subst_bvvar x` is the result of `context_subst_bvvar(ctx, x)` and `nterms q`
is `q->nterms`. -/
def context_acceptable_bvprod_subst_loop {Q : Type} (subst_bvvar : Int → Option Q)
    (nterms : Q → Nat) : List varexp_t → Nat → Bool → Nat × Bool
  | [], j, some_subst => (j, some_subst)
  | p :: ps, j, some_subst =>
    if j < 3 then
      if p.exp = 1 then
        match subst_bvvar p.var with
        | some q =>
          if nterms q ≤ 2 then
            context_acceptable_bvprod_subst_loop subst_bvvar nterms ps
              ((j * nterms q) % 2 ^ 32) true
          else context_acceptable_bvprod_subst_loop subst_bvvar nterms ps j some_subst
        | none => context_acceptable_bvprod_subst_loop subst_bvvar nterms ps j some_subst
      else context_acceptable_bvprod_subst_loop subst_bvvar nterms ps j some_subst
    else (j, some_subst)

/-- Function `context_acceptable_bvprod_subst`. -/
def context_acceptable_bvprod_subst {Q : Type} (subst_bvvar : Int → Option Q)
    (nterms : Q → Nat) (d : List varexp_t) : Bool :=
  let r := context_acceptable_bvprod_subst_loop subst_bvvar nterms d 1 false
  r.2 && decide (r.1 < 3)

/-- Loop of `context_apply_bvprod_subst` over the factors of `d`.  The local
variable `x` is written only in the branch `exp == 1`; `product_varexps x e` is
the result of `bv_var_manager_product_varexps(ctx->bv_manager, 1, &x, &e)`. -/
def context_apply_bvprod_subst_loop {Q : Type} (subst_bvvar : Int → Option Q)
    (nterms : Q → Nat) (product_varexps : Int → Nat → Int) :
    List varexp_t → Int → List (bvbuffer_op_t Q) → List (bvbuffer_op_t Q)
  | [], _, b => b
  | p :: ps, x, b =>
    if p.exp = 1 then
      match subst_bvvar p.var with
      | some q =>
        if nterms q ≤ 2 then
          context_apply_bvprod_subst_loop subst_bvvar nterms product_varexps ps p.var
            (b ++ [bvbuffer_op_t.mul_expr q])
        else
          context_apply_bvprod_subst_loop subst_bvvar nterms product_varexps ps p.var
            (b ++ [bvbuffer_op_t.mul_var p.var])
      | none =>
        context_apply_bvprod_subst_loop subst_bvvar nterms product_varexps ps p.var
          (b ++ [bvbuffer_op_t.mul_var p.var])
    else
      context_apply_bvprod_subst_loop subst_bvvar nterms product_varexps ps x
        (b ++ [bvbuffer_op_t.mul_var (product_varexps x p.exp)])

/-- Function `context_apply_bvprod_subst`; `x0` is the indeterminate initial
content of the local variable `x`. -/
def context_apply_bvprod_subst {Q : Type} (subst_bvvar : Int → Option Q)
    (nterms : Q → Nat) (product_varexps : Int → Nat → Int) (x0 : Int) (d : List varexp_t)
    (b : List (bvbuffer_op_t Q)) : List (bvbuffer_op_t Q) :=
  context_apply_bvprod_subst_loop subst_bvvar nterms product_varexps d x0 b

/-- Modelled from the spec: the product of factors the claim describes: `q_i`
when `d_i = 1` and `x_i` has a substitution of at most two terms, the variable
for `x_i^d_i` otherwise. -/
def bvprod_subst_factors {Q : Type} (subst_bvvar : Int → Option Q)
    (nterms : Q → Nat) (product_varexps : Int → Nat → Int) (d : List varexp_t) :
    List (bvbuffer_op_t Q) :=
  d.map (fun p =>
    if p.exp = 1 then
      match subst_bvvar p.var with
      | some q => if nterms q ≤ 2 then bvbuffer_op_t.mul_expr q else bvbuffer_op_t.mul_var p.var
      | none => bvbuffer_op_t.mul_var p.var
    else bvbuffer_op_t.mul_var (product_varexps p.var p.exp))

/-- Modelled from the spec: value of a buffer that starts from the value `b0`,
for a valuation `val` of the variables and `qval` of the expressions. -/
def bvbuffer_value {Q : Type} (val : Int → Int) (qval : Q → Int) (b0 : Int)
    (b : List (bvbuffer_op_t Q)) : Int :=
  b.foldl (fun acc op =>
    match op with
    | bvbuffer_op_t.mul_expr q => acc * qval q
    | bvbuffer_op_t.mul_var y => acc * val y) b0

/-! ## Bounds of the accesses of quick_split -/

/-- Loop `do { j --; } while (get_activity(a[j]) < pivot)` in the array
`a[lo .. hi-1]`: `none` when the loop reads outside of the array. -/
def scan_down_in {α : Type} [LinearOrder α] (act : Nat → α) (a : Nat → Nat) (pivot : α)
    (lo hi : Nat) : Nat → Option Nat
  | 0 => none
  | j + 1 =>
    if lo ≤ j ∧ j < hi then
      (if act (a j) < pivot then scan_down_in act a pivot lo hi j else some j)
    else none

/-- Loop `do { i ++; } while (i <= j && get_activity(a[i]) > pivot)` in the
array `a[lo .. hi-1]`: `none` when the loop reads outside of the array. -/
def scan_up_to_in {α : Type} [LinearOrder α] (act : Nat → α) (a : Nat → Nat) (pivot : α)
    (lo hi j : Nat) : Nat → Nat → Option Nat
  | 0, i => some (i + 1)
  | fuel + 1, i =>
    if i + 1 ≤ j then
      (if lo ≤ i + 1 ∧ i + 1 < hi then
        (if act (a (i + 1)) > pivot then scan_up_to_in act a pivot lo hi j fuel (i + 1)
         else some (i + 1))
       else none)
    else some (i + 1)

/-- Loop `do { i ++; } while (get_activity(a[i]) > pivot)` in the array
`a[lo .. hi-1]`: `none` when the loop reads outside of the array. -/
def scan_up_in {α : Type} [LinearOrder α] (act : Nat → α) (a : Nat → Nat) (pivot : α)
    (lo hi : Nat) : Nat → Nat → Option Nat
  | 0, _ => none
  | fuel + 1, i =>
    if lo ≤ i + 1 ∧ i + 1 < hi then
      (if act (a (i + 1)) > pivot then scan_up_in act a pivot lo hi fuel (i + 1)
       else some (i + 1))
    else none

/-- Exchange of `a[i]` and `a[j]` in the array `a[lo .. hi-1]`: `none` when an
index is outside of the array. -/
def swap_entries_in (lo hi : Nat) (a : Nat → Nat) (i j : Nat) : Option (Nat → Nat) :=
  if lo ≤ i ∧ i < hi ∧ lo ≤ j ∧ j < hi then some (swap_entries a i j) else none

/-- The loop `while (i < j)` of `quick_split` in the array `a[lo .. hi-1]`. -/
def split_loop_in {α : Type} [LinearOrder α] (act : Nat → α) (pivot : α) (lo hi : Nat) :
    Nat → (Nat → Nat) → Nat → Nat → Option ((Nat → Nat) × Nat)
  | 0, a, i, j => if i < j then none else some (a, j)
  | fuel + 1, a, i, j =>
    if i < j then
      match swap_entries_in lo hi a i j with
      | none => none
      | some a1 =>
        match scan_down_in act a1 pivot lo hi j with
        | none => none
        | some j1 =>
          match scan_up_in act a1 pivot lo hi (hi - i) i with
          | none => none
          | some i1 => split_loop_in act pivot lo hi fuel a1 i1 j1
    else some (a, j)

/-- One pass of the outer loop of `quick_split` in the array `a[lo .. hi-1]`. -/
def split_pass_in {α : Type} [LinearOrder α] (act : Nat → α) (lo hi : Nat) (a : Nat → Nat)
    (low high : Nat) : Option ((Nat → Nat) × Nat) :=
  if lo ≤ low ∧ low < hi then
    match scan_down_in act a (act (a low)) lo hi high with
    | none => none
    | some j0 =>
      match scan_up_to_in act a (act (a low)) lo hi j0 (j0 - low) low with
      | none => none
      | some i0 =>
        match split_loop_in act (act (a low)) lo hi (j0 - i0) a i0 j0 with
        | none => none
        | some (a1, j) => (swap_entries_in lo hi a1 low j).map (fun a2 => (a2, j))
  else none

/-- The loop `do ... while (j != half)` of `quick_split` in the array
`a[lo .. hi-1]`. -/
def quick_split_loop_in {α : Type} [LinearOrder α] (act : Nat → α) (lo hi half : Nat) :
    Nat → (Nat → Nat) → Nat → Nat → Option (Nat → Nat)
  | 0, _, _, _ => none
  | fuel + 1, a, low, high =>
    match split_pass_in act lo hi a low high with
    | none => none
    | some (a2, j) =>
      if j = half then some a2
      else if j < half then quick_split_loop_in act lo hi half fuel a2 (j + 1) high
      else quick_split_loop_in act lo hi half fuel a2 low j

/-- The call `quick_split(a, low, high)` where every access to `a` is checked
against the bounds of `a[lo .. hi-1]`: `none` when an access is outside. -/
def quick_split_in {α : Type} [LinearOrder α] (act : Nat → α) (lo hi : Nat) (a : Nat → Nat)
    (low high : Nat) : Option (Nat → Nat) :=
  if high ≤ low + 1 then some a
  else quick_split_loop_in act lo hi ((low + high) / 2) (high - low) a low high

/-! ## Propagation at the base level and the main loop -/

/-- Function `add_simplified_binary_clause`. -/
def add_simplified_binary_clause (s : smt_core_t) (l0 l1 : Int) : smt_core_t :=
  let s1 := direct_binary_clause s l0 l1
  if s1.base_level = s1.decision_level then s1
  else
    let v0 := s1.value l0
    let v1 := s1.value l1
    let k0 := if v0 ≠ VAL_UNDEF then s1.level (var_of l0) else UINT32_MAX
    let k1 := if v1 ≠ VAL_UNDEF then s1.level (var_of l1) else UINT32_MAX
    if v0 = VAL_FALSE ∧ k0 < k1 then
      let s2 : smt_core_t :=
        if k0 < s1.decision_level then { backtrack_to_level s1 k0 with inconsistent := false }
        else s1
      implied_literal s2 l1 (mk_literal_antecedent l0)
    else if v1 = VAL_FALSE ∧ k1 < k0 then
      let s2 : smt_core_t :=
        if k1 < s1.decision_level then { backtrack_to_level s1 k1 with inconsistent := false }
        else s1
      implied_literal s2 l0 (mk_literal_antecedent l1)
    else if v0 = VAL_FALSE ∧ v1 = VAL_FALSE then
      record_binary_conflict (backtrack_to_level s1 k0) l0 l1
    else s1

/-- Function `add_lemma` for the lemma `a`. -/
def add_lemma (s : smt_core_t) (a : List Int) : smt_core_t :=
  match preprocess_clause s a with
  | some b =>
    if b.length > 2 then add_simplified_clause s b
    else if b.length = 2 then add_simplified_binary_clause s (b.getD 0 0) (b.getD 1 0)
    else if b.length = 1 then add_simplified_unit_clause s (b.getD 0 0)
    else record_empty_conflict (backtrack_to_base_level s)
  | none => s

/-- Function `add_all_lemmas`: the queued lemmas are added in order and the
queue is emptied (no lemma is queued during the loop in this embedding). -/
def add_all_lemmas (s : smt_core_t) : smt_core_t :=
  { s.lemmas.foldl add_lemma s with lemmas := [] }

/-- End of `base_propagate` when a conflict was found. -/
def base_unsat {θ : Type} (st : smt_state_t θ) : smt_state_t θ :=
  { st with core := { st.core with status := smt_status_t.STATUS_UNSAT } }

/-- Function `base_propagate`. -/
def base_propagate {θ : Type} (th : th_solver_t θ) (fuel rounds : Nat) (st : smt_state_t θ) :
    Option (Bool × smt_state_t θ) :=
  if st.core.inconsistent then some (false, base_unsat st)
  else
    match theory_propagation th fuel st with
    | none => none
    | some (false, st1) => some (false, base_unsat st1)
    | some (true, st1) =>
      match smt_propagation th fuel rounds st1 with
      | none => none
      | some (false, st2) => some (false, base_unsat st2)
      | some (true, st2) => some (true, st2)

/-- The loop `while (s->status == STATUS_SEARCHING)` of `smt_process`; `n`
bounds the number of iterations.  The decay of the activity increments is not
part of the embedding. -/
def smt_process_loop {θ α : Type} [LinearOrder α] (th : th_solver_t θ) (fuel rounds : Nat) :
    Nat → smt_state_t θ → var_heap_t α → Option (smt_state_t θ × var_heap_t α)
  | 0, _, _ => none
  | n + 1, st, h =>
    if st.core.status = smt_status_t.STATUS_SEARCHING then
      if st.core.inconsistent then
        match smt_process_conflict fuel st.core with
        | none => none
        | some c => smt_process_loop th fuel rounds n { st with core := c } h
      else if st.core.cp_flag then
        match delete_irrelevant_variables st.core st.atoms h with
        | none => none
        | some (c, tbl, h1) =>
          smt_process_loop th fuel rounds n
            { st with core := { c with cp_flag := false }, atoms := tbl } h1
      else if st.core.lemmas ≠ [] then
        smt_process_loop th fuel rounds n { st with core := add_all_lemmas st.core } h
      else
        match smt_propagation th fuel rounds st with
        | none => none
        | some (code, st1) =>
          if code = true ∧ st1.core.lemmas = [] then some (st1, h)
          else smt_process_loop th fuel rounds n st1 h
    else some (st, h)

/-- Function `smt_process`; `props_due` is the result of the test
`s->stats.propagations >= s->simplify_props + s->simplify_threshold` on the
statistics, which are not part of the embedding. -/
def smt_process {θ α : Type} [LinearOrder α] (th : th_solver_t θ) (props_due : Bool)
    (fuel rounds n : Nat) (st : smt_state_t θ) (h : var_heap_t α) :
    Option (smt_state_t θ × var_heap_t α) :=
  match smt_process_loop th fuel rounds n st h with
  | none => none
  | some (st1, h1) =>
    if st1.core.status = smt_status_t.STATUS_SEARCHING ∧
        st1.core.decision_level = st1.core.base_level ∧
        st1.core.stack.top > st1.core.simplify_bottom ∧ props_due = true then
      some ({ st1 with core := simplify_clause_database st1.core }, h1)
    else some (st1, h1)

/-- What is observed of a core in the Horn-chain scenario: status, conflict
flag, conflict, the buffer of the learned clause, the learned clauses, the
trail, and the decision and base levels. -/
def horn_view (s : smt_core_t) :
    smt_status_t × Bool × List Int × List Int × List Nat × List Int × Nat × Nat :=
  (s.status, s.inconsistent, s.conflict, s.buffer, s.learned_clauses, s.stack.lit,
    s.decision_level, s.base_level)

/-! ## Substitution from an arithmetic equality (src/src/context.c) -/

/-- Monomial `monomial_t`: a variable and a rational coefficient.  A
polynomial is the list of its monomials, without the end marker. -/
structure monomial_t where
  var : Int
  coeff : ℚ
  deriving DecidableEq

/-- Modelled from the spec: `q_is_integer` holds for the rationals of
denominator 1. -/
def q_is_integer (r : ℚ) : Bool := decide (r.den = 1)

/-- Modelled from the spec: `q_divides(a, c)` holds when `c` is an integer
multiple of `a`. -/
def q_divides (a c : ℚ) : Bool := q_is_integer (c / a)

/-- Modelled from the spec: `polynomial_is_int(p, m)` holds when `p` is an
integral polynomial: every coefficient is an integer and every variable other
than `const_idx` is an integer variable. -/
def polynomial_is_int (const_idx : Int) (var_is_int : Int → Bool) (p : List monomial_t) : Bool :=
  p.all (fun m => q_is_integer m.coeff && (decide (m.var = const_idx) || var_is_int m.var))

/-- Loop of `integralpoly_after_div`. -/
def integralpoly_loop (a : ℚ) : List monomial_t → Bool
  | [] => true
  | m :: ms => if q_divides a m.coeff = false then false else integralpoly_loop a ms

/-- Function `integralpoly_after_div`. -/
def integralpoly_after_div (p : List monomial_t) (a : ℚ) : Bool :=
  if a = 1 ∨ a = -1 then true else integralpoly_loop a p

/-- First loop of `build_poly_substitution`: the coefficient of `x`, `none` for
the pointer `NULL`. -/
def poly_coeff_loop (x : Int) : List monomial_t → Option ℚ → Option ℚ
  | [], a => a
  | m :: ms, a => if m.var = x then poly_coeff_loop x ms (some m.coeff) else poly_coeff_loop x ms a

/-- Second loop of `build_poly_substitution`: the monomials written so far are
`q`. -/
def poly_subst_loop (x : Int) (a : ℚ) : List monomial_t → List monomial_t → List monomial_t
  | [], q => q
  | m :: ms, q =>
    if m.var ≠ x then poly_subst_loop x a ms (q ++ [{ var := m.var, coeff := -m.coeff / a }])
    else poly_subst_loop x a ms q

/-- Function `build_poly_substitution`: the polynomial left in the array of
monomials of the context; `none` when `x` does not occur in `p`. -/
def build_poly_substitution (p : List monomial_t) (x : Int) : Option (List monomial_t) :=
  match poly_coeff_loop x p none with
  | none => none
  | some a => some (poly_subst_loop x a p [])

/-- Function `is_elimination_candidate`. -/
def is_elimination_candidate {τ : Type} (NULL_TERM : Int) (pf : Nat) (tt : term_table_t)
    (c : subst_ctx_t τ) (t : Int) : Option (Bool × subst_ctx_t τ) :=
  match find_term_root NULL_TERM pf c t with
  | none => none
  | some (r, c1) =>
    some (is_unassigned_var tt c1 r && decide (subst_candidate NULL_TERM c1 r = NULL_TERM), c1)

/-- Loop of `try_poly_substitution` over the monomials of `p`;
`var_is_primitive`, `term_of_var` are the functions of the variable manager
and `is_real_term` the test on the type of a term. -/
def try_poly_substitution_loop {τ : Type} (NULL_TERM : Int) (pf : Nat) (tt : term_table_t)
    (var_is_primitive : Int → Bool) (term_of_var : Int → Int) (is_real_term : Int → Bool)
    (all_int : Bool) (p : List monomial_t) :
    List monomial_t → subst_ctx_t τ → Option (Int × subst_ctx_t τ)
  | [], c => some (NULL_TERM, c)
  | m :: ms, c =>
    if var_is_primitive m.var then
      match is_elimination_candidate NULL_TERM pf tt c (term_of_var m.var) with
      | none => none
      | some (b, c1) =>
        if b = true then
          if is_real_term (term_of_var m.var) = true ∨
              (all_int = true ∧ integralpoly_after_div p m.coeff = true) then
            some (term_of_var m.var, c1)
          else
            try_poly_substitution_loop NULL_TERM pf tt var_is_primitive term_of_var is_real_term
              all_int p ms c1
        else
          try_poly_substitution_loop NULL_TERM pf tt var_is_primitive term_of_var is_real_term
            all_int p ms c1
    else
      try_poly_substitution_loop NULL_TERM pf tt var_is_primitive term_of_var is_real_term
        all_int p ms c

/-- Function `try_poly_substitution`. -/
def try_poly_substitution {τ : Type} (NULL_TERM : Int) (pf : Nat) (tt : term_table_t)
    (var_is_primitive : Int → Bool) (term_of_var : Int → Int) (is_real_term : Int → Bool)
    (const_idx : Int) (var_is_int : Int → Bool) (p : List monomial_t) (c : subst_ctx_t τ) :
    Option (Int × subst_ctx_t τ) :=
  try_poly_substitution_loop NULL_TERM pf tt var_is_primitive term_of_var is_real_term
    (polynomial_is_int const_idx var_is_int p) p p c

/-- Value of the polynomial `p` for the values `v` of the variables. -/
def poly_eval (v : Int → ℚ) (p : List monomial_t) : ℚ :=
  (p.map (fun m => m.coeff * v m.var)).sum

/-- The polynomial `-(p - a*x)/a` in the words of the specification: the
monomials `(-c_y / a) * y` for the variables `y` of `p` other than `x`. -/
def poly_subst_spec (p : List monomial_t) (x : Int) (a : ℚ) : List monomial_t :=
  (p.filter (fun m => decide (m.var ≠ x))).map (fun m => { var := m.var, coeff := -m.coeff / a })

/-! ## Flattening of the assertions (src/src/context.c) -/

/-- The kinds of terms that `flatten_assertions` distinguishes; `OTHER_TERM`
stands for every kind that falls into the `default` case. -/
inductive term_kind_t
  | UNUSED_TERM
  | CONSTANT_TERM
  | UNINTERPRETED_TERM
  | VARIABLE
  | NOT_TERM
  | OR_TERM
  | ITE_TERM
  | EQ_TERM
  | BV_EQ_ATOM
  | ARITH_BINEQ_ATOM
  | ARITH_EQ_ATOM
  | APP_TERM
  | SELECT_TERM
  | DISTINCT_TERM
  | FORALL_TERM
  | ARITH_GE_ATOM
  | BV_GE_ATOM
  | BV_SGE_ATOM
  | TUPLE_TERM
  | UPDATE_TERM
  | ARITH_TERM
  | BV_LOGIC_TERM
  | BV_ARITH_TERM
  | BV_CONST_TERM
  | BV_APPLY_TERM
  | OTHER_TERM
  deriving DecidableEq, Repr

/-- Modelled from the spec: what flattening reads in the term table, which is
not under src/: the kind and the type of a term, its descriptor (the argument
of a negation, the arguments of a disjunction, condition and branches of a
conditional, the two sides of an equality), the terms `true_term` and
`false_term`, the test `polynomial_is_constant` on the descriptor of an
arithmetic term, and the subterms that `visit` explores. -/
structure flat_terms_t (τ : Type) where
  kind : Int → term_kind_t
  desc : Int → List Int
  type : Int → τ
  true_term : Int
  false_term : Int
  constant_poly : Int → Bool
  subterms : Int → List Int

/-- The term table as `visit` reads it. -/
def visit_table {τ : Type} (ft : flat_terms_t τ) : term_table_t :=
  { kind := fun t =>
      match ft.kind t with
      | term_kind_t.UNINTERPRETED_TERM => visit_kind_t.uninterpreted
      | term_kind_t.CONSTANT_TERM => visit_kind_t.leaf
      | term_kind_t.VARIABLE => visit_kind_t.leaf
      | term_kind_t.BV_CONST_TERM => visit_kind_t.leaf
      | _ => visit_kind_t.composite
    children := ft.subterms }

/-- Record `tree_record_t` of the tree stack. -/
structure tree_record_t where
  term : Int
  kind : term_kind_t
  counter : Nat
  desc : List Int
  deriving DecidableEq, Repr

/-- Modelled from the spec: `tree_stack_push_term` pushes a record for `t` with
its kind and descriptor and the counter 0; the top of the stack is the head of
the list. -/
def tree_stack_push_term {τ : Type} (ft : flat_terms_t τ) (stack : List tree_record_t)
    (t : Int) : List tree_record_t :=
  { term := t, kind := ft.kind t, counter := 0, desc := ft.desc t } :: stack

def CTX_NO_ERROR : Int := 0

def TRIVIALLY_UNSAT : Int := 1

def INTERNAL_ERROR : Int := -1

def TYPE_ERROR : Int := -2

def FREE_VARIABLE_IN_FORMULA : Int := -3

/-- The part of the context that flattening reads and writes.  The code
`trans.internal[t]` is given by the colour of `t` in `sub` (white for `nil`,
`assigned` for a code that is not negative) together with `bcode t`, which is
`some b` when that code is `bool2code(b)`.  The vector `top_eqs` is in `sub`. -/
structure flat_ctx_t (τ : Type) where
  sub : subst_ctx_t τ
  bcode : Int → Option Bool
  top_atoms : List Int
  top_formulas : List Int
  subst_eqs : List Int
  base_level : Nat
  var_elim_enabled : Bool

/-- Test `code_of_term(&ctx->trans, t) == bool2code(b)`. -/
def term_code_is {τ : Type} (c : flat_ctx_t τ) (t : Int) (b : Bool) : Bool :=
  decide (c.sub.color t = term_color_t.assigned) && decide (c.bcode t = some b)

/-- Modelled from the spec: `map_term_to_bool` sets the code of `t` to
`bool2code(b)`. -/
def map_term_to_bool {τ : Type} (c : flat_ctx_t τ) (t : Int) (b : Bool) : flat_ctx_t τ :=
  { c with sub := set_term_color c.sub t term_color_t.assigned, bcode := upd c.bcode t (some b) }

/-- The partition of the context is replaced. -/
def set_partition {τ : Type} (c : flat_ctx_t τ) (p : partition_t τ) : flat_ctx_t τ :=
  { c with sub := { c.sub with partition := p } }

/-- `ivector_push(&ctx->top_eqs, e)`. -/
def push_top_eq {τ : Type} (c : flat_ctx_t τ) (e : Int) : flat_ctx_t τ :=
  { c with sub := { c.sub with top_eqs := c.sub.top_eqs ++ [e] } }

/-- Function `boolean_class_map_is_consistent`. -/
def boolean_class_map_is_consistent {τ : Type} (ft : flat_terms_t τ) (c : flat_ctx_t τ)
    (t : Int) (value : Bool) : Bool :=
  if c.sub.color t = term_color_t.assigned then term_code_is c t value
  else if ft.kind t = term_kind_t.CONSTANT_TERM then
    (value && decide (t = ft.true_term)) || (!value && decide (t = ft.false_term))
  else true

/-- Function `map_class_to_bool`. -/
def map_class_to_bool {τ : Type} (c : flat_ctx_t τ) (t : Int) (value : Bool) : flat_ctx_t τ :=
  if root_is_frozen c.sub.partition t = false then
    let c1 := set_partition c (freeze_class c.sub.partition t)
    if c1.sub.color t ≠ term_color_t.assigned then map_term_to_bool c1 t value else c1
  else c

/-- Function `get_term_root`; `pf` is the fuel of `partition_find`. -/
def get_term_root {τ : Type} (NULL_TERM : Int) (pf : Nat) (ft : flat_terms_t τ)
    (c : flat_ctx_t τ) (t : Int) : Option (Int × flat_ctx_t τ) :=
  match partition_find NULL_TERM pf c.sub.partition t with
  | none => none
  | some (r, p1) =>
    if r < 0 then some (t, set_partition c (partition_add_term NULL_TERM p1 t (ft.type t)))
    else some (r, set_partition c p1)

/-- Function `make_term_root`. -/
def make_term_root {τ : Type} (NULL_TERM : Int) (ft : flat_terms_t τ) (c : flat_ctx_t τ)
    (t : Int) : flat_ctx_t τ :=
  if term_is_root c.sub.partition t then c
  else set_partition c (partition_add_root NULL_TERM c.sub.partition t (ft.type t))

/-- Function `is_constant_term`. -/
def is_constant_term {τ : Type} (ft : flat_terms_t τ) (t : Int) : Bool :=
  decide (ft.kind t = term_kind_t.CONSTANT_TERM) || decide (ft.kind t = term_kind_t.BV_CONST_TERM)
    || (decide (ft.kind t = term_kind_t.ARITH_TERM) && ft.constant_poly t)

/-- Function `compatible_subst_candidate`; `is_subtype` is the function of
types.h. -/
def compatible_subst_candidate {τ : Type} (is_subtype : τ → τ → Bool) (ft : flat_terms_t τ)
    (c : flat_ctx_t τ) (t x : Int) : Bool :=
  is_subtype (ft.type t) (c.sub.partition.type x)

/-- The branch of `process_toplevel_eq_main` for a variable `x` of root `x1`
and a term `y` that is not an unassigned variable, for the equality `e`;
`merge` tells whether the call is `partition_merge(p, x, y)` or
`partition_merge(p, y, x)`. -/
def process_var_term_eq {τ : Type} (NULL_TERM : Int) (is_subtype : τ → τ → Bool)
    (inf_type : τ → τ → τ) (ft : flat_terms_t τ) (c : flat_ctx_t τ) (x1 y e : Int)
    (var_first : Bool) : flat_ctx_t τ :=
  if root_is_frozen c.sub.partition x1 then push_top_eq c e
  else if is_constant_term ft y then
    if compatible_subst_candidate is_subtype ft c y x1 then
      let c1 := make_term_root NULL_TERM ft c y
      if var_first then set_partition c1 (partition_merge inf_type c1.sub.partition x1 y)
      else set_partition c1 (partition_merge inf_type c1.sub.partition y x1)
    else push_top_eq c e
  else { c with subst_eqs := c.subst_eqs ++ [e] }

/-- Function `process_toplevel_eq_main`. -/
def process_toplevel_eq_main {τ : Type} (NULL_TERM : Int) (pf : Nat)
    (is_subtype : τ → τ → Bool) (inf_type : τ → τ → τ) (ft : flat_terms_t τ)
    (c : flat_ctx_t τ) (x y e : Int) : Option (flat_ctx_t τ) :=
  let ux := is_unassigned_var (visit_table ft) c.sub x
  let uy := is_unassigned_var (visit_table ft) c.sub y
  if ux = true ∧ uy = true then
    match get_term_root NULL_TERM pf ft c x with
    | none => none
    | some (x1, c1) =>
      match get_term_root NULL_TERM pf ft c1 y with
      | none => none
      | some (y1, c2) =>
        if x1 = y1 then some c2
        else if mergeable_classes is_subtype c2.sub.partition x1 y1 then
          some (set_partition c2 (partition_merge inf_type c2.sub.partition x1 y1))
        else some (push_top_eq c2 e)
  else if ux = true then
    match get_term_root NULL_TERM pf ft c x with
    | none => none
    | some (x1, c1) => some (process_var_term_eq NULL_TERM is_subtype inf_type ft c1 x1 y e true)
  else if uy = true then
    match get_term_root NULL_TERM pf ft c y with
    | none => none
    | some (y1, c1) => some (process_var_term_eq NULL_TERM is_subtype inf_type ft c1 y1 x e false)
  else some (push_top_eq c e)

/-- Functions `process_toplevel_eq`, `process_toplevel_bveq` and
`process_toplevel_aritheq`, which differ only by the descriptor they read. -/
def process_toplevel_eq {τ : Type} (NULL_TERM : Int) (pf : Nat)
    (is_subtype : τ → τ → Bool) (inf_type : τ → τ → τ) (ft : flat_terms_t τ)
    (c : flat_ctx_t τ) (e : Int) : Option (flat_ctx_t τ) :=
  if c.base_level = 0 ∧ c.var_elim_enabled = true then
    process_toplevel_eq_main NULL_TERM pf is_subtype inf_type ft c
      ((ft.desc e).getD 0 0) ((ft.desc e).getD 1 0) e
  else some (push_top_eq c e)

/-- Result of one iteration of the loop of `flatten_assertions`: the loop goes
on with a context, a stack and a polarity, or jumps to `abort` with a code. -/
inductive flat_step_t (τ : Type)
  | next (c : flat_ctx_t τ) (stack : List tree_record_t) (polarity : Bool)
  | abort (code : Int) (c : flat_ctx_t τ)

/-- The `switch (top->kind)` of `flatten_assertions` for the top record `top`
above the stack `rest`. -/
def flatten_switch {τ : Type} (NULL_TERM : Int) (pf : Nat) (is_subtype : τ → τ → Bool)
    (inf_type : τ → τ → τ) (ft : flat_terms_t τ) (c : flat_ctx_t τ) (top : tree_record_t)
    (rest : List tree_record_t) (polarity : Bool) : Option (flat_step_t τ) :=
  let t := top.term
  match top.kind with
  | term_kind_t.UNUSED_TERM => some (flat_step_t.abort INTERNAL_ERROR c)
  | term_kind_t.CONSTANT_TERM =>
    if (polarity = true ∧ t = ft.false_term) ∨ (polarity = false ∧ t = ft.true_term) then
      some (flat_step_t.abort TRIVIALLY_UNSAT c)
    else some (flat_step_t.next (map_term_to_bool c t polarity) rest polarity)
  | term_kind_t.UNINTERPRETED_TERM =>
    match partition_find NULL_TERM pf c.sub.partition t with
    | none => none
    | some (r, p1) =>
      if 0 ≤ r then
        if boolean_class_map_is_consistent ft (set_partition c p1) r polarity then
          some (flat_step_t.next (map_class_to_bool (set_partition c p1) r polarity) rest polarity)
        else some (flat_step_t.abort TRIVIALLY_UNSAT (set_partition c p1))
      else some (flat_step_t.next (map_term_to_bool (set_partition c p1) t polarity) rest polarity)
  | term_kind_t.VARIABLE => some (flat_step_t.abort FREE_VARIABLE_IN_FORMULA c)
  | term_kind_t.NOT_TERM =>
    if top.counter = 0 then
      some (flat_step_t.next c
        (tree_stack_push_term ft ({ top with counter := top.counter + 1 } :: rest)
          (top.desc.getD 0 0)) (!polarity))
    else some (flat_step_t.next (map_term_to_bool c t (!polarity)) rest (!polarity))
  | term_kind_t.OR_TERM =>
    if top.counter = 0 ∧ polarity = true then
      some (flat_step_t.next
        (map_term_to_bool { c with top_formulas := c.top_formulas ++ [t] } t true) rest polarity)
    else if top.counter < top.desc.length then
      some (flat_step_t.next c
        (tree_stack_push_term ft ({ top with counter := top.counter + 1 } :: rest)
          (top.desc.getD top.counter 0)) polarity)
    else some (flat_step_t.next (map_term_to_bool c t false) rest polarity)
  | term_kind_t.ITE_TERM =>
    if top.counter = 0 then
      if c.sub.color (top.desc.getD 0 0) ≠ term_color_t.white then
        if term_code_is c (top.desc.getD 0 0) true then
          some (flat_step_t.next c
            (tree_stack_push_term ft ({ top with counter := top.counter + 1 } :: rest)
              (top.desc.getD 1 0)) polarity)
        else
          some (flat_step_t.next c
            (tree_stack_push_term ft ({ top with counter := top.counter + 1 } :: rest)
              (top.desc.getD 2 0)) polarity)
      else
        some (flat_step_t.next
          (map_term_to_bool { c with top_formulas := c.top_formulas ++ [t] } t polarity)
          rest polarity)
    else some (flat_step_t.next (map_term_to_bool c t polarity) rest polarity)
  | term_kind_t.EQ_TERM | term_kind_t.BV_EQ_ATOM | term_kind_t.ARITH_BINEQ_ATOM =>
    if polarity = true then
      match process_toplevel_eq NULL_TERM pf is_subtype inf_type ft c t with
      | none => none
      | some c1 => some (flat_step_t.next (map_term_to_bool c1 t polarity) rest polarity)
    else
      some (flat_step_t.next
        (map_term_to_bool { c with top_atoms := c.top_atoms ++ [t] } t polarity) rest polarity)
  | term_kind_t.ARITH_EQ_ATOM =>
    if polarity = true then
      some (flat_step_t.next (map_term_to_bool (push_top_eq c t) t polarity) rest polarity)
    else
      some (flat_step_t.next
        (map_term_to_bool { c with top_atoms := c.top_atoms ++ [t] } t polarity) rest polarity)
  | term_kind_t.APP_TERM | term_kind_t.SELECT_TERM | term_kind_t.DISTINCT_TERM
  | term_kind_t.FORALL_TERM | term_kind_t.ARITH_GE_ATOM | term_kind_t.BV_GE_ATOM
  | term_kind_t.BV_SGE_ATOM =>
    some (flat_step_t.next
      (map_term_to_bool { c with top_atoms := c.top_atoms ++ [t] } t polarity) rest polarity)
  | term_kind_t.TUPLE_TERM | term_kind_t.UPDATE_TERM | term_kind_t.ARITH_TERM
  | term_kind_t.BV_LOGIC_TERM | term_kind_t.BV_ARITH_TERM | term_kind_t.BV_CONST_TERM
  | term_kind_t.BV_APPLY_TERM => some (flat_step_t.abort TYPE_ERROR c)
  | term_kind_t.OTHER_TERM => some (flat_step_t.abort INTERNAL_ERROR c)

/-- One iteration of the loop of `flatten_assertions` with the top record `top`
above the stack `rest`: the test of a term already visited, then the `switch`. -/
def flatten_step {τ : Type} (NULL_TERM : Int) (pf : Nat) (is_subtype : τ → τ → Bool)
    (inf_type : τ → τ → τ) (ft : flat_terms_t τ) (c : flat_ctx_t τ) (top : tree_record_t)
    (rest : List tree_record_t) (polarity : Bool) : Option (flat_step_t τ) :=
  if top.counter = 0 ∧ c.sub.color top.term ≠ term_color_t.white then
    if term_code_is c top.term polarity then some (flat_step_t.next c rest polarity)
    else some (flat_step_t.abort TRIVIALLY_UNSAT c)
  else flatten_switch NULL_TERM pf is_subtype inf_type ft c top rest polarity

/-- The loop `while (tree_stack_nonempty(stack))` of `flatten_assertions`: the
result is the code at `abort`, or `CTX_NO_ERROR` at the end of the loop, with
the context. -/
def flatten_loop {τ : Type} (NULL_TERM : Int) (pf : Nat) (is_subtype : τ → τ → Bool)
    (inf_type : τ → τ → τ) (ft : flat_terms_t τ) :
    Nat → flat_ctx_t τ → List tree_record_t → Bool → Option (flat_step_t τ)
  | 0, _, _, _ => none
  | _ + 1, c, [], polarity => some (flat_step_t.next c [] polarity)
  | fuel + 1, c, top :: rest, polarity =>
    match flatten_step NULL_TERM pf is_subtype inf_type ft c top rest polarity with
    | none => none
    | some (flat_step_t.abort code c1) => some (flat_step_t.abort code c1)
    | some (flat_step_t.next c1 stack1 polarity1) =>
      flatten_loop NULL_TERM pf is_subtype inf_type ft fuel c1 stack1 polarity1

/-- Function `process_subst_eq_main`: the result and the context. -/
def process_subst_eq_main {τ : Type} (NULL_TERM : Int) (pf : Nat) (is_subtype : τ → τ → Bool)
    (ft : flat_terms_t τ) (c : flat_ctx_t τ) (x y : Int) : Option (Bool × flat_ctx_t τ) :=
  let x0 := if is_unassigned_var (visit_table ft) c.sub y then y else x
  let y0 := if is_unassigned_var (visit_table ft) c.sub y then x else y
  if is_unassigned_var (visit_table ft) c.sub x0 then
    match get_term_root NULL_TERM pf ft c x0 with
    | none => none
    | some (x1, c1) =>
      if root_is_frozen c1.sub.partition x1 = false ∧
          compatible_subst_candidate is_subtype ft c1 y0 x1 = true then
        match c1.sub.pseudo_subst x1 with
        | some v =>
          if v < 0 then
            some (true, { c1 with sub := { c1.sub with
              pseudo_subst := upd c1.sub.pseudo_subst x1 (some y0) } })
          else some (false, c1)
        | none =>
          some (true, { c1 with sub := { c1.sub with
            pseudo_subst := upd c1.sub.pseudo_subst x1 (some y0) } })
      else some (false, c1)
  else some (false, c)

/-- The two sides of the equality `e` as `process_subst_eqs` and
`remove_subst_cycles` read them, `none` in the `default` case. -/
def eq_sides {τ : Type} (ft : flat_terms_t τ) (e : Int) : Option (Int × Int) :=
  match ft.kind e with
  | term_kind_t.EQ_TERM => some ((ft.desc e).getD 0 0, (ft.desc e).getD 1 0)
  | term_kind_t.BV_EQ_ATOM => some ((ft.desc e).getD 0 0, (ft.desc e).getD 1 0)
  | term_kind_t.ARITH_BINEQ_ATOM => some ((ft.desc e).getD 0 0, (ft.desc e).getD 1 0)
  | _ => none

/-- Loop of `process_subst_eqs` over the equalities of `subst_eqs` still to
read: `kept` are the equalities copied to the front of the vector. -/
def process_subst_eqs_loop {τ : Type} (NULL_TERM : Int) (pf : Nat) (is_subtype : τ → τ → Bool)
    (ft : flat_terms_t τ) : List Int → flat_ctx_t τ → List Int → Option (flat_ctx_t τ)
  | [], c, kept => some { c with subst_eqs := kept }
  | e :: es, c, kept =>
    match eq_sides ft e with
    | none => process_subst_eqs_loop NULL_TERM pf is_subtype ft es c kept
    | some (x, y) =>
      match process_subst_eq_main NULL_TERM pf is_subtype ft c x y with
      | none => none
      | some (true, c1) => process_subst_eqs_loop NULL_TERM pf is_subtype ft es c1 (kept ++ [e])
      | some (false, c1) =>
        process_subst_eqs_loop NULL_TERM pf is_subtype ft es (push_top_eq c1 e) kept

/-- Function `process_subst_eqs`. -/
def process_subst_eqs {τ : Type} (NULL_TERM : Int) (pf : Nat) (is_subtype : τ → τ → Bool)
    (ft : flat_terms_t τ) (c : flat_ctx_t τ) : Option (flat_ctx_t τ) :=
  process_subst_eqs_loop NULL_TERM pf is_subtype ft c.subst_eqs c []

/-- The equalities of `subst_eqs` with their two sides, as the loop of
`remove_subst_cycles` reads them. -/
def subst_eq_triples {τ : Type} (ft : flat_terms_t τ) (eqs : List Int) :
    List (Int × Int × Int) :=
  eqs.filterMap (fun e => (eq_sides ft e).map (fun p => (p.1, p.2, e)))

/-- Function `flatten_assertions` for the stack `stack`: the code returned and
the context; `fuel` bounds the iterations of the loop and the depth of
`visit`. -/
def flatten_assertions {τ : Type} (NULL_TERM : Int) (pf : Nat) (is_subtype : τ → τ → Bool)
    (inf_type : τ → τ → τ) (ft : flat_terms_t τ) (fuel : Nat) (c : flat_ctx_t τ)
    (stack : List tree_record_t) : Option (Int × flat_ctx_t τ) :=
  let c0 : flat_ctx_t τ :=
    { c with sub := { c.sub with top_eqs := [] }, top_atoms := [], top_formulas := [],
             subst_eqs := [] }
  match flatten_loop NULL_TERM pf is_subtype inf_type ft fuel c0 stack true with
  | none => none
  | some (flat_step_t.abort code c1) => some (code, c1)
  | some (flat_step_t.next c1 _ _) =>
    match process_subst_eqs NULL_TERM pf is_subtype ft c1 with
    | none => none
    | some c2 =>
      match remove_subst_cycles NULL_TERM pf fuel (visit_table ft) c2.sub
          (subst_eq_triples ft c2.subst_eqs) with
      | none => none
      | some s3 => some (CTX_NO_ERROR, { c2 with sub := s3 })

/-- The equalities: kinds `EQ_TERM`, `BV_EQ_ATOM`, `ARITH_BINEQ_ATOM` and
`ARITH_EQ_ATOM`. -/
def is_eq_kind (k : term_kind_t) : Bool :=
  decide (k = term_kind_t.EQ_TERM) || decide (k = term_kind_t.BV_EQ_ATOM) ||
  decide (k = term_kind_t.ARITH_BINEQ_ATOM) || decide (k = term_kind_t.ARITH_EQ_ATOM)

/-- The atoms that are not equalities: kinds `APP_TERM`, `SELECT_TERM`,
`DISTINCT_TERM`, `FORALL_TERM`, `ARITH_GE_ATOM`, `BV_GE_ATOM`, `BV_SGE_ATOM`. -/
def is_atom_kind (k : term_kind_t) : Bool :=
  decide (k = term_kind_t.APP_TERM) || decide (k = term_kind_t.SELECT_TERM) ||
  decide (k = term_kind_t.DISTINCT_TERM) || decide (k = term_kind_t.FORALL_TERM) ||
  decide (k = term_kind_t.ARITH_GE_ATOM) || decide (k = term_kind_t.BV_GE_ATOM) ||
  decide (k = term_kind_t.BV_SGE_ATOM)

/-- The polarity in force above the stack: every negation whose argument is
being explored (a `NOT_TERM` record with a counter that is not 0) flips it. -/
def stack_polarity : List tree_record_t → Bool
  | [] => true
  | r :: rest =>
    if r.kind = term_kind_t.NOT_TERM ∧ r.counter ≠ 0 then !(stack_polarity rest)
    else stack_polarity rest

/-- The context at the start of the loop of `flatten_assertions`: the four
vectors are reset. -/
def flat_reset {τ : Type} (c : flat_ctx_t τ) : flat_ctx_t τ :=
  { c with sub := { c.sub with top_eqs := [] }, top_atoms := [], top_formulas := [],
           subst_eqs := [] }

/-- The loop of `flatten_assertions` goes in `n` iterations from the context
`c`, stack `s` and polarity `p` to `c1`, `s1`, `p1`. -/
inductive FlatRun {τ : Type} (NULL_TERM : Int) (pf : Nat) (is_subtype : τ → τ → Bool)
    (inf_type : τ → τ → τ) (ft : flat_terms_t τ) :
    Nat → flat_ctx_t τ → List tree_record_t → Bool →
      flat_ctx_t τ → List tree_record_t → Bool → Prop
  | refl (c : flat_ctx_t τ) (s : List tree_record_t) (p : Bool) :
      FlatRun NULL_TERM pf is_subtype inf_type ft 0 c s p c s p
  | step {n : Nat} {c c1 c2 : flat_ctx_t τ} {top : tree_record_t}
      {rest s1 s2 : List tree_record_t} {p p1 p2 : Bool} :
      flatten_step NULL_TERM pf is_subtype inf_type ft c top rest p =
        some (flat_step_t.next c1 s1 p1) →
      FlatRun NULL_TERM pf is_subtype inf_type ft n c1 s1 p1 c2 s2 p2 →
      FlatRun NULL_TERM pf is_subtype inf_type ft (n + 1) c (top :: rest) p c2 s2 p2

/-- Invariant of the loop of `flatten_assertions`: the variable `polarity` is
the polarity in force above the stack, and a disjunction whose arguments are
being explored was reached with polarity false. -/
def FlatInv (stack : List tree_record_t) (polarity : Bool) : Prop :=
  polarity = stack_polarity stack ∧
  ∀ r below, (r :: below) <:+ stack → r.kind = term_kind_t.OR_TERM → r.counter ≠ 0 →
    stack_polarity below = false

/-- The context `c1` differs from `c` at most by the partition, the
substitution candidates and the vectors of equalities. -/
def FlatFrame {τ : Type} (c c1 : flat_ctx_t τ) : Prop :=
  c1.sub.color = c.sub.color ∧ c1.bcode = c.bcode ∧ c1.top_atoms = c.top_atoms ∧
  c1.top_formulas = c.top_formulas

/-! ## Assertion of formulas: return codes and the status of the core -/

/-- The architectures `context_arch_t` of context.h. -/
inductive context_arch_t
  | CTX_ARCH_NOSOLVERS
  | CTX_ARCH_EG
  | CTX_ARCH_SPLX
  | CTX_ARCH_IFW
  | CTX_ARCH_RFW
  | CTX_ARCH_BV
  | CTX_ARCH_EGFUN
  | CTX_ARCH_EGSPLX
  | CTX_ARCH_EGBV
  | CTX_ARCH_EGFUNSPLX
  | CTX_ARCH_EGFUNBV
  | CTX_ARCH_EGFUNSPLXBV
  | CTX_ARCH_AUTO_IDL
  | CTX_ARCH_AUTO_RDL
  deriving DecidableEq, Repr

def FORMULA_NOT_IDL : Int := -10

def FORMULA_NOT_RDL : Int := -11

/-- The part of the context that `assert_formulas` reads and writes: the
architecture, the option of equality abstraction, the mode of the core, the
state of flattening, and the core with its atom table and theory solver. -/
structure context_t (τ θ : Type) where
  arch : context_arch_t
  eq_abstraction_enabled : Bool
  mode : smt_mode_t
  flat : flat_ctx_t τ
  smt : smt_state_t θ

/-- Result of a call that can leave by `longjmp(ctx->env, code)`. -/
inductive jump_t (α : Type)
  | done (a : α)
  | jump (code : Int) (a : α)

/-- Result of a loop inside a function: the loop ends, or the function returns
`code`. -/
inductive exit_t (α : Type)
  | done (a : α)
  | ret (code : Int) (a : α)

/-- The functions of the context whose bodies work on the egraph, the theory
solvers and the term constructors, which are not under src/: the classes that
`eq_learner_process` finds for a formula, the constructor `eq_term`, the four
calls of `analyze_diff_logic_vector`, the choice between Simplex and
Floyd-Warshall made from the profile by `create_auto_idl_solver` and
`create_auto_rdl_solver`, the solver they create, and the internalization
functions `assert_toplevel_atom` and `assert_toplevel_formula`. -/
structure context_ops (τ θ : Type) where
  eq_learner_process : context_t τ θ → Int → List (Int × List Int)
  eq_term : Int → Int → Int
  analyze_diff_logic_vectors : context_t τ θ → Bool → jump_t (context_t τ θ)
  auto_simplex : context_t τ θ → Bool
  new_solver : context_t τ θ → θ
  assert_toplevel_atom : context_t τ θ → Int → jump_t (context_t τ θ)
  assert_toplevel_formula : context_t τ θ → Int → jump_t (context_t τ θ)

/-- Value of `setjmp` on a return from `longjmp(env, code)`. -/
def setjmp_value (code : Int) : Int := if code = 0 then 1 else code

/-- Function `internalization_start` of the core. -/
def internalization_start {θ : Type} (st : smt_state_t θ) : smt_state_t θ :=
  { st with core :=
    { st.core with
      inconsistent := false
      theory_conflict := false
      conflict := []
      false_clause := none
      th_calls := st.core.th_calls ++ [th_call_t.start_internalization] } }

/-- Function `add_aux_eq`. -/
def add_aux_eq {τ θ : Type} (ops : context_ops τ θ) (ctx : context_t τ θ) (x y : Int) :
    Int × context_t τ θ :=
  let eq := if x > y then ops.eq_term y x else ops.eq_term x y
  if ctx.flat.sub.color eq = term_color_t.assigned then
    if term_code_is ctx.flat eq false then (TRIVIALLY_UNSAT, ctx) else (CTX_NO_ERROR, ctx)
  else (CTX_NO_ERROR, { ctx with flat := push_top_eq (map_term_to_bool ctx.flat eq true) eq })

/-- Inner loop of `add_implied_equalities` for the class of `x`. -/
def add_class_equalities {τ θ : Type} (ops : context_ops τ θ) (x : Int) :
    List Int → context_t τ θ → Int × context_t τ θ
  | [], ctx => (CTX_NO_ERROR, ctx)
  | y :: ys, ctx =>
    let r := add_aux_eq ops ctx x y
    if r.1 ≠ CTX_NO_ERROR then r else add_class_equalities ops x ys r.2

/-- Function `add_implied_equalities` for the classes `p`. -/
def add_implied_equalities {τ θ : Type} (ops : context_ops τ θ) :
    List (Int × List Int) → context_t τ θ → Int × context_t τ θ
  | [], ctx => (CTX_NO_ERROR, ctx)
  | (x, ys) :: rest, ctx =>
    let r := add_class_equalities ops x ys ctx
    if r.1 ≠ CTX_NO_ERROR then r else add_implied_equalities ops rest r.2

/-- Loop of `analyze_uf` over the formulas of `top_formulas`. -/
def analyze_uf_loop {τ θ : Type} (ops : context_ops τ θ) :
    List Int → Int → context_t τ θ → Int × context_t τ θ
  | [], k, ctx => (k, ctx)
  | t :: ts, k, ctx =>
    let p := ops.eq_learner_process ctx t
    if p.length > 0 then
      let r := add_implied_equalities ops p ctx
      if r.1 ≠ CTX_NO_ERROR then r else analyze_uf_loop ops ts r.1 r.2
    else analyze_uf_loop ops ts k ctx

/-- Function `analyze_uf`. -/
def analyze_uf {τ θ : Type} (ops : context_ops τ θ) (ctx : context_t τ θ) :
    Int × context_t τ θ :=
  analyze_uf_loop ops ctx.flat.top_formulas CTX_NO_ERROR ctx

/-- Function `analyze_diff_logic`. -/
def analyze_diff_logic {τ θ : Type} (ops : context_ops τ θ) (ctx : context_t τ θ)
    (idl : Bool) : Int × context_t τ θ :=
  match ops.analyze_diff_logic_vectors ctx idl with
  | jump_t.done ctx1 => (CTX_NO_ERROR, ctx1)
  | jump_t.jump _ ctx1 => (if idl then FORMULA_NOT_IDL else FORMULA_NOT_RDL, ctx1)

/-- The solver created by `create_simplex_solver`, `create_idl_solver` or
`create_rdl_solver` is attached and the core is initialized. -/
def attach_solver {τ θ : Type} (ops : context_ops τ θ) (ctx : context_t τ θ)
    (arch : context_arch_t) : context_t τ θ :=
  { ctx with
    arch := arch
    smt := { ctx.smt with core := init_smt_core ctx.smt.core ctx.mode,
                          solver := ops.new_solver ctx } }

/-- Function `create_auto_idl_solver`. -/
def create_auto_idl_solver {τ θ : Type} (ops : context_ops τ θ) (ctx : context_t τ θ) :
    context_t τ θ :=
  if ops.auto_simplex ctx then attach_solver ops ctx context_arch_t.CTX_ARCH_SPLX
  else attach_solver ops ctx context_arch_t.CTX_ARCH_IFW

/-- Function `create_auto_rdl_solver`. -/
def create_auto_rdl_solver {τ θ : Type} (ops : context_ops τ θ) (ctx : context_t τ θ) :
    context_t τ θ :=
  if ops.auto_simplex ctx then attach_solver ops ctx context_arch_t.CTX_ARCH_SPLX
  else attach_solver ops ctx context_arch_t.CTX_ARCH_RFW

/-- The loops of `internalize` over `top_eqs` and `top_atoms`:
`assert_toplevel_atom` then `base_propagate` for each term. -/
def assert_atoms_loop {τ θ : Type} (ops : context_ops τ θ) (th : th_solver_t θ)
    (fuel rounds : Nat) : List Int → context_t τ θ → Option (exit_t (context_t τ θ))
  | [], ctx => some (exit_t.done ctx)
  | t :: ts, ctx =>
    match ops.assert_toplevel_atom ctx t with
    | jump_t.jump code ctx1 => some (exit_t.ret (setjmp_value code) ctx1)
    | jump_t.done ctx1 =>
      match base_propagate th fuel rounds ctx1.smt with
      | none => none
      | some (false, st) => some (exit_t.ret TRIVIALLY_UNSAT { ctx1 with smt := st })
      | some (true, st) => assert_atoms_loop ops th fuel rounds ts { ctx1 with smt := st }

/-- The loop of `internalize` over `top_formulas`. -/
def assert_formulas_loop {τ θ : Type} (ops : context_ops τ θ) :
    List Int → context_t τ θ → exit_t (context_t τ θ)
  | [], ctx => exit_t.done ctx
  | t :: ts, ctx =>
    match ops.assert_toplevel_formula ctx t with
    | jump_t.jump code ctx1 => exit_t.ret (setjmp_value code) ctx1
    | jump_t.done ctx1 => assert_formulas_loop ops ts ctx1

/-- Function `internalize`: the code returned and the context. -/
def internalize {τ θ : Type} (ops : context_ops τ θ) (th : th_solver_t θ)
    (fuel rounds : Nat) (ctx : context_t τ θ) : Option (Int × context_t τ θ) :=
  let ctx0 : context_t τ θ := { ctx with smt := internalization_start ctx.smt }
  match assert_atoms_loop ops th fuel rounds ctx0.flat.sub.top_eqs ctx0 with
  | none => none
  | some (exit_t.ret code ctx1) => some (code, ctx1)
  | some (exit_t.done ctx1) =>
    match assert_atoms_loop ops th fuel rounds ctx1.flat.top_atoms ctx1 with
    | none => none
    | some (exit_t.ret code ctx2) => some (code, ctx2)
    | some (exit_t.done ctx2) =>
      match assert_formulas_loop ops ctx2.flat.top_formulas ctx2 with
      | exit_t.ret code ctx3 => some (code, ctx3)
      | exit_t.done ctx3 =>
        match base_propagate th fuel rounds ctx3.smt with
        | none => none
        | some (false, st) => some (TRIVIALLY_UNSAT, { ctx3 with smt := st })
        | some (true, st) => some (CTX_NO_ERROR, { ctx3 with smt := st })

/-- The `switch (ctx->arch)` of `context_process_formulas`: the code of the
analysis and the context, in which the solver of an automatic architecture is
created when the code is `CTX_NO_ERROR`. -/
def context_analyze {τ θ : Type} (ops : context_ops τ θ) (ctx : context_t τ θ) :
    Int × context_t τ θ :=
  match ctx.arch with
  | context_arch_t.CTX_ARCH_EG =>
    if ctx.eq_abstraction_enabled then analyze_uf ops ctx else (CTX_NO_ERROR, ctx)
  | context_arch_t.CTX_ARCH_AUTO_IDL =>
    let r := analyze_diff_logic ops ctx true
    if r.1 ≠ CTX_NO_ERROR then r else (CTX_NO_ERROR, create_auto_idl_solver ops r.2)
  | context_arch_t.CTX_ARCH_IFW => analyze_diff_logic ops ctx true
  | context_arch_t.CTX_ARCH_AUTO_RDL =>
    let r := analyze_diff_logic ops ctx false
    if r.1 ≠ CTX_NO_ERROR then r else (CTX_NO_ERROR, create_auto_rdl_solver ops r.2)
  | context_arch_t.CTX_ARCH_RFW => analyze_diff_logic ops ctx false
  | _ => (CTX_NO_ERROR, ctx)

/-- Function `context_process_formulas` for the formulas `f`. -/
def context_process_formulas {τ θ : Type} (NULL_TERM : Int) (pf : Nat)
    (is_subtype : τ → τ → Bool) (inf_type : τ → τ → τ) (ft : flat_terms_t τ)
    (ops : context_ops τ θ) (th : th_solver_t θ) (fuel rounds : Nat) (ctx : context_t τ θ)
    (f : List Int) : Option (Int × context_t τ θ) :=
  match flatten_assertions NULL_TERM pf is_subtype inf_type ft fuel ctx.flat
      (f.foldl (tree_stack_push_term ft) []) with
  | none => none
  | some (code, fl) =>
    if code ≠ CTX_NO_ERROR then some (code, { ctx with flat := fl })
    else
      let r := context_analyze ops { ctx with flat := fl }
      if r.1 ≠ CTX_NO_ERROR then some r
      else internalize ops th fuel rounds r.2

/-- Function `assert_formulas`: the code returned and the context. -/
def assert_formulas {τ θ : Type} (NULL_TERM : Int) (pf : Nat)
    (is_subtype : τ → τ → Bool) (inf_type : τ → τ → τ) (ft : flat_terms_t τ)
    (ops : context_ops τ θ) (th : th_solver_t θ) (fuel rounds : Nat) (ctx : context_t τ θ)
    (f : List Int) : Option (Int × context_t τ θ) :=
  match context_process_formulas NULL_TERM pf is_subtype inf_type ft ops th fuel rounds ctx f with
  | none => none
  | some (code, ctx1) =>
    if code = TRIVIALLY_UNSAT ∧ ctx1.arch ≠ context_arch_t.CTX_ARCH_AUTO_IDL ∧
        ctx1.arch ≠ context_arch_t.CTX_ARCH_AUTO_RDL ∧
        ctx1.smt.core.status ≠ smt_status_t.STATUS_UNSAT then
      some (code, { ctx1 with smt := { ctx1.smt with core :=
        { add_empty_clause ctx1.smt.core with status := smt_status_t.STATUS_UNSAT } } })
    else some (code, ctx1)

/-- What the theorem on `assert_formulas` asks of the theory solver: its
callbacks leave the status of the core as it is. -/
def StatusKept {θ : Type} (th : th_solver_t θ) : Prop :=
  (∀ st a l, (th.assert_atom st a l).2.core.status = st.core.status) ∧
  (∀ st, (th.propagate st).2.core.status = st.core.status)

/-- What the theorem on `assert_formulas` asks of a function that can leave by
`longjmp`: when it returns it leaves the status of the core as it is; it jumps
with a negative code, or with `TRIVIALLY_UNSAT` after a call of
`base_propagate` that failed, which leaves the status Unsat. -/
def JumpOk {τ θ : Type} (ctx : context_t τ θ) (r : jump_t (context_t τ θ)) : Prop :=
  match r with
  | jump_t.done ctx1 => ctx1.smt.core.status = ctx.smt.core.status
  | jump_t.jump code ctx1 =>
    code < 0 ∨ (code = TRIVIALLY_UNSAT ∧ ctx1.smt.core.status = smt_status_t.STATUS_UNSAT)

/-- The internalization functions and the analysis of difference logic satisfy
`JumpOk`. -/
def OpsOk {τ θ : Type} (ops : context_ops τ θ) : Prop :=
  (∀ ctx t, JumpOk ctx (ops.assert_toplevel_atom ctx t)) ∧
  (∀ ctx t, JumpOk ctx (ops.assert_toplevel_formula ctx t)) ∧
  (∀ ctx idl ctx1, ops.analyze_diff_logic_vectors ctx idl = jump_t.done ctx1 →
    ctx1.smt.core.status = ctx.smt.core.status)

/-- What a loop of `internalize` started with the status `s` leaves: the same
status when it ends, and on a return a negative code or `TRIVIALLY_UNSAT` with
the status Unsat. -/
def ExitOk {τ θ : Type} (s : smt_status_t) (r : exit_t (context_t τ θ)) : Prop :=
  match r with
  | exit_t.done ctx1 => ctx1.smt.core.status = s
  | exit_t.ret code ctx1 =>
    code < 0 ∨ (code = TRIVIALLY_UNSAT ∧ ctx1.smt.core.status = smt_status_t.STATUS_UNSAT)

/-! ## The round trip of smt_push and smt_pop -/

/-- The clause as the last loop of `restore_clauses` leaves it: the marks of a
clause marked for removal are flipped back. -/
def restored_clause (c : clause_t) : clause_t :=
  if is_clause_to_be_removed c then restore_removed_clause c else c

/-- The entries that the binary clauses `pairs` add to the vector
`binary_clauses`. -/
def flat_pairs : List (Int × Int) → List Int
  | [] => []
  | (a, b) :: r => a :: b :: flat_pairs r

/-- The entries that the binary clauses `pairs`, added in this order, append
to `bin[l]`. -/
def bin_ext : List (Int × Int) → Int → List Int
  | [], _ => []
  | (a, b) :: r, l => (if l = a then [b] else []) ++ (if l = b then [a] else []) ++ bin_ext r l

/-- The literal `l` is one of the `nlits` literals of the core. -/
def lit_ok (s : smt_core_t) (l : Int) : Prop := 0 ≤ l ∧ l < s.nlits

/-- Well-formedness of a core at its base level, as far as the round trip of
`smt_push` and `smt_pop` needs it: there is no decision level above the base
level; the literals of the trail, of the binary vectors and of the clauses
that occur in a watch list are literals of the core; a link of a watch list
points to a watched slot of a clause with at least two literals; a literal is
Undef together with its negation and an assigned literal has a level at most
the base level; the handles of the clause vectors are allocated and pairwise
distinct. -/
structure PushInv (s : smt_core_t) : Prop where
  nlits_eq : s.nlits = 2 * s.nvars
  level_eq : s.decision_level = s.base_level
  end1 : s.value (-1) = VAL_UNDEF
  end2 : s.value (-2) = VAL_UNDEF
  trail : ∀ q ∈ s.stack.lit, lit_ok s q
  pair : ∀ l, lit_ok s l → s.value l = VAL_UNDEF → s.value (not_lit l) = VAL_UNDEF
  levels : ∀ l, lit_ok s l → s.value l ≠ VAL_UNDEF → s.level (var_of l) ≤ s.base_level
  links : ∀ l, lit_ok s l → ∀ lnk ∈ s.watch l, lnk.2 < 2 ∧ 2 ≤ (s.clauses lnk.1).cl.length ∧
    ∀ x ∈ (s.clauses lnk.1).cl, lit_ok s x
  bins : ∀ l, lit_ok s l → ∀ v, s.bin l = some v → ∀ m ∈ v, lit_ok s m
  handles : ∀ c ∈ s.problem_clauses ++ s.learned_clauses, c < s.nclauses_alloc
  nodup : (s.problem_clauses ++ s.learned_clauses).Nodup

/-- The state `t` extends `s` at the same base level: the trail stack and the
level indices are the same; the trail of `t` is the trail of `s` followed by
literals that are Undef in `s`, and the other literals of `s` keep their
value; the binary clauses and the problem clauses of `t` are those of `s`
followed by new ones; the problem clauses of `s` have the same literals, up
to their order and to the marks for removal. -/
structure Ext (s t : smt_core_t) : Prop where
  base : t.base_level = s.base_level
  trail_stack : t.trail_stack = s.trail_stack
  level_index : t.stack.level_index = s.stack.level_index
  nlits : s.nlits ≤ t.nlits
  stack : ∃ new, t.stack.lit = s.stack.lit ++ new ∧
    (∀ l ∈ new, lit_ok s l → s.value l = VAL_UNDEF ∧ s.value (not_lit l) = VAL_UNDEF) ∧
    (∀ l, lit_ok s l → l ∉ new → not_lit l ∉ new → t.value l = s.value l)
  binary : ∃ ext : List (Int × Int), t.binary_clauses = s.binary_clauses ++ flat_pairs ext ∧
    t.nb_bin_clauses = s.nb_bin_clauses + ext.length ∧
    ∀ l, lit_ok s l → (t.bin l).getD [] = (s.bin l).getD [] ++ bin_ext ext l
  problem : ∃ extra, t.problem_clauses = s.problem_clauses ++ extra
  alloc : s.nclauses_alloc ≤ t.nclauses_alloc
  clauses : ∀ c ∈ s.problem_clauses,
    (restored_clause (t.clauses c)).cl.Perm (restored_clause (s.clauses c)).cl

/-- One operation at the base level between `smt_push` and `smt_pop`: the
creation of a variable, the addition of a clause whose literals are literals
of the core, Boolean propagation, a literal or a conflict reported by the
theory solver, the status Unsat set by `base_propagate`, and the
simplification of the clause database. -/
inductive LevelStep : smt_core_t → smt_core_t → Prop
  | new_var (s : smt_core_t) : LevelStep s (create_boolean_variable s)
  | add_clause (s : smt_core_t) (a : List Int) (h : ∀ l ∈ a, lit_ok s l) :
      LevelStep s (add_clause s a)
  | propagate (s : smt_core_t) (fuel : Nat) (r : Bool × smt_core_t)
      (h : boolean_propagation fuel s = some r) : LevelStep s r.2
  | theory_literal (s : smt_core_t) (l : Int) (e : Nat) (hl : lit_ok s l)
      (hu : s.value l = VAL_UNDEF) : LevelStep s (propagate_literal s l e)
  | theory_conflict (s : smt_core_t) (a : List Int) : LevelStep s (record_theory_conflict s a)
  | unsat (s : smt_core_t) : LevelStep s { s with status := smt_status_t.STATUS_UNSAT }
  | simplify (s : smt_core_t) : LevelStep s (simplify_clause_database s)

/-- A sequence of operations at the base level. -/
inductive LevelRun : smt_core_t → smt_core_t → Prop
  | refl (s : smt_core_t) : LevelRun s s
  | step {s t u : smt_core_t} (h1 : LevelRun s t) (h2 : LevelStep t u) : LevelRun s u

/-- The link `lnk` points to a watched slot of a clause of at least two
literals, all of them literals of the core. -/
def link_ok (s : smt_core_t) (lnk : link_t) : Prop :=
  lnk.2 < 2 ∧ 2 ≤ (s.clauses lnk.1).cl.length ∧ ∀ x ∈ (s.clauses lnk.1).cl, lit_ok s x

/-- The record that `smt_push` saves on the trail stack. -/
def saved_record (s : smt_core_t) : trail_t :=
  { nvars := s.nvars, nunits := s.nb_unit_clauses, nbins := s.binary_clauses.length,
    nclauses := s.problem_clauses.length, prop_ptr := s.stack.prop_ptr,
    theory_ptr := s.stack.theory_ptr }

/-- The state `u` agrees with the state `s0` on what `smt_pop` restores:
the counters, the vector of problem clauses and the literals of each of its
clauses, the binary vectors, the trail, the assignment, the two propagation
pointers, the levels and the trail stack; `u` has no learned clause, its watch
lists hold one link for each watched literal of each problem clause and
nothing else, and its status is Idle. -/
structure RoundTrip (s0 u : smt_core_t) : Prop where
  nvars : u.nvars = s0.nvars
  nlits : u.nlits = s0.nlits
  nb_unit_clauses : u.nb_unit_clauses = s0.nb_unit_clauses
  nb_bin_clauses : u.nb_bin_clauses = s0.nb_bin_clauses
  problem_clauses : u.problem_clauses = s0.problem_clauses
  nb_prob_clauses : u.nb_prob_clauses = s0.nb_prob_clauses
  literals : ∀ c ∈ s0.problem_clauses, (u.clauses c).cl.Perm (s0.clauses c).cl
  bin : ∀ l, lit_ok s0 l → (u.bin l).getD [] = (s0.bin l).getD []
  trail : u.stack.lit = s0.stack.lit
  value : ∀ l, lit_ok s0 l → u.value l = s0.value l
  prop_ptr : u.stack.prop_ptr = s0.stack.prop_ptr
  theory_ptr : u.stack.theory_ptr = s0.stack.theory_ptr
  base_level : u.base_level = s0.base_level
  decision_level : u.decision_level = s0.decision_level
  trail_stack : u.trail_stack = s0.trail_stack
  learned : u.learned_clauses = []
  watch : ∀ l, lit_ok s0 l → (u.watch l).Nodup ∧
    ∀ lnk : link_t, lnk ∈ u.watch l ↔
      (lnk.1 ∈ u.problem_clauses ∧ lnk.2 < 2 ∧ (u.clauses lnk.1).get lnk.2 = l)
  status : u.status = smt_status_t.STATUS_IDLE

/-! ## Concrete states -/

/-- Variables 1, 2, 3 with the binary clause `{¬x1, x2}`, after the decision
`x1`. -/
def sample_bin : smt_core_t :=
  decide_literal (direct_binary_clause core4 3 4) 2

/-- Variables 1, 2, 3 with the clause `{¬x1, ¬x2, x3}`, after the decision `x1`. -/
def sample_clause : smt_core_t :=
  decide_literal (new_problem_clause core4 [3, 5, 6]) 2

/-- Variables 1, 2, 3 with the clause `{¬x1, ¬x2, x3}`, after the decisions `x1`
and `x2`, before any propagation. -/
def sample_two : smt_core_t :=
  decide_literal (decide_literal (new_problem_clause core4 [3, 5, 6]) 2) 4

/-- Three decisions on `core4`: the literals 3, 5 and 7 are false at the levels
1, 2 and 3. -/
def sample_three : smt_core_t :=
  decide_literal (decide_literal (decide_literal core4 2) 4) 6

/-- The state `sample_bin` after Boolean propagation. -/
def sample_bin_propagated : smt_core_t :=
  ((boolean_propagation 9 sample_bin).getD (false, sample_bin)).2

/-- Boolean propagation with enough fuel for the sample states. -/
def propagate_or (s : smt_core_t) : smt_core_t :=
  ((boolean_propagation 9 s).getD (false, s)).2

/-- Variables 1, 2, 3 with the binary clause `{¬x2, x3}` and the clause
`{¬x1, ¬x2, ¬x3}`: after the decisions `x1` and `x2`, propagation assigns `x3`
and finds the clause false. -/
def sample_conflict : smt_core_t :=
  propagate_or (decide_literal (propagate_or
    (decide_literal (new_problem_clause (direct_binary_clause core4 5 6) [3, 5, 7]) 2)) 4)

/-- The state `sample_three` in which the theory has reported the conflict
`{¬x1, ¬x2}`, whose literals have the levels 1 and 2. -/
def sample_theory : smt_core_t :=
  record_theory_conflict sample_three [3, 5, null_literal]

/-- The core `core4` with one more variable: variables 0 to 4. -/
def core5 : smt_core_t := create_boolean_variable core4

/-- Variables 1 to 4 with the clause `{x3, ¬x2, ¬x1}`: `x1` is assigned at the
base level, `x2` is decided and propagation assigns `x3`, `x4` is decided, and
the theory reports the conflict `{¬x4, ¬x3, ¬x2}`. -/
def sample_minimize : smt_core_t :=
  record_theory_conflict
    (decide_literal (propagate_or (decide_literal
      (assign_literal (new_problem_clause core5 [6, 5, 3]) 2) 4)) 8)
    [9, 7, 5, null_literal]

/-! ## Sample states: The binary-clause index -/

/-- Variables 1 to 4.  The binary clauses `{x1, x3}` and `{x2, x3}` are added at
base level 0; after `smt_push` the clauses `{x1, x4}` and `{x1, x2}` are added. -/
def sample_bins : smt_core_t :=
  direct_binary_clause (direct_binary_clause
    (smt_push (direct_binary_clause (direct_binary_clause core5 2 6) 4 6)) 2 8) 2 4

/-- The state `sample_bins` after the variable `x4` is deleted and the binary
clauses that contain it are removed. -/
def sample_bins_collected : smt_core_t :=
  remove_garbage_bin_clauses (delete_variables sample_bins 4).2 5

/-! ## Sample states: Clauses added during the search -/

/-- Three decisions on `core5`: `x1`, `x2`, `x3` are true at the levels 1, 2, 3
and `x4` is not assigned. -/
def sample_levels : smt_core_t :=
  decide_literal (decide_literal (decide_literal core5 2) 4) 6

/-- Variables 1 to 4 with the binary clause `{¬x1, x2}`: `x3` is decided at
level 1, `x1` at level 2 where propagation assigns `x2`, and `x4` at level 3. -/
def sample_false : smt_core_t :=
  decide_literal (propagate_or
    (decide_literal (decide_literal (direct_binary_clause core5 3 4) 6) 2)) 8

/-! ## Sample states: Addition of clauses: lemma queue or immediate installation -/

/-- A core in which `start_search` has been called: the status is Searching and
`decision_level = base_level = 0`. -/
def sample_searching : smt_core_t := start_search core5

/-! ## Sample states: The variable heap -/

/-- Memory before `init_heap`. -/
def sample_heap_blank : var_heap_t Int := ⟨0, fun _ => 0, fun _ => 0, fun _ => 0, 0, 0, 0⟩

/-- Heap of size 8 with integer activities: `DBL_MAX` is 1000, the increment
is 1. -/
def sample_heap0 : var_heap_t Int := init_heap sample_heap_blank 8 1000 1 2

/-- The heap `sample_heap0` after `heap_insert` of 3. -/
def sample_heap1 : var_heap_t Int := (heap_insert sample_heap0 3).getD sample_heap0

/-- The heap `sample_heap1` after `heap_insert` of 5. -/
def sample_heap2 : var_heap_t Int := (heap_insert sample_heap1 5).getD sample_heap0

/-- The heap `sample_heap2` after `increase_bvar_activity` of 5, with the
threshold 100. -/
def sample_heap3 : var_heap_t Int :=
  (increase_bvar_activity 100 1 8 sample_heap2 5).getD sample_heap0

/-- Heap given by `init_heap` for `vsize = 4`, with integer activities. -/
def sample_order0 : var_heap_t Int := init_heap sample_heap_blank 4 1000 1 2

/-- Heap after the creation of the variable 1. -/
def sample_order1 : var_heap_t Int :=
  (create_boolean_variable_heap (init_smt_core blank_core smt_mode_t.SMT_MODE_PUSHPOP)
    sample_order0).getD sample_heap_blank

/-- Heap after the creation of the variable 2. -/
def sample_order2 : var_heap_t Int :=
  (create_boolean_variable_heap
    (create_boolean_variable (init_smt_core blank_core smt_mode_t.SMT_MODE_PUSHPOP))
    sample_order1).getD sample_heap_blank

/-- Heap after the creation of the variable 3. -/
def sample_order3 : var_heap_t Int :=
  (create_boolean_variable_heap core3 sample_order2).getD sample_heap_blank

/-- Heap after the creation of the variable 4: the heap of `core5`. -/
def sample_order4 : var_heap_t Int :=
  (create_boolean_variable_heap core4 sample_order3).getD sample_heap_blank

/-- Heap of `core5` after a call of `select_unassigned_literal`, which returns
the literal 3 of the variable 1. -/
def sample_order5 : var_heap_t Int :=
  ((select_unassigned_literal core5 sample_order4 0 0 0).getD (0, sample_heap_blank)).2

/-- The core `core5` after the decision on the literal 3 returned by the
selection, and the assignment of the literal 4 as an implied literal. -/
def sample_implied : smt_core_t :=
  implied_literal (decide_literal core5 3) 4 (mk_literal_antecedent 3)

/-! ## Sample states: Backtracking and the heap -/

/-- Heap of `core4` after a selection, which returns the literal 3. -/
def sample_pop1 : var_heap_t Int :=
  ((select_unassigned_literal core4 sample_order3 0 0 0).getD (0, sample_heap_blank)).2

/-- The core `core4` after the decision on the literal 3 returned by the
selection, and the decisions on the literals 4 and 6. -/
def sample_selected : smt_core_t :=
  decide_literal (decide_literal (decide_literal core4 3) 4) 6

/-! ## Sample states: Atom table and deletion of variables -/

/-- Search started on the variables 1 and 2, a checkpoint at decision level 0,
then the variables 3 and 4 are created.  No atom was attached: the atom table
is the one of `init_atom_table`, and the heap is `sample_order4`. -/
def sample_checkpoint : smt_core_t :=
  create_boolean_variable (create_boolean_variable (smt_checkpoint (start_search core3)))

/-- Variables 1 to 3, `smt_push`, search started, a checkpoint, then the
variable 4 is created and the binary clauses `{x1, x2}` and `{x1, x4}` are
added. -/
def sample_garbage : smt_core_t :=
  direct_binary_clause (direct_binary_clause
    (create_boolean_variable (smt_checkpoint (start_search (smt_push core4)))) 2 4) 2 8

/-! ## Sample states: Simplification of the clause database -/

/-- Variables 1 to 3 with the clause `{x1, x2, x3}`, then the unit clauses
`{¬x1}` and `{¬x2}`; propagation assigns `x3` with the clause as antecedent. -/
def sample_locked : smt_core_t :=
  propagate_or (add_unit_clause (add_unit_clause (add_clause core4 [2, 4, 6]) 3) 5)

/-- Variables 1 to 4 with the clauses `{x1, x2, x3}` and `{¬x1, x2, x4}` and
`{x2, x3, x4}`, then the unit clauses `{¬x2}` and `{x3}`, and propagation. -/
def sample_simplify : smt_core_t :=
  propagate_or (add_unit_clause (add_unit_clause
    (add_clause (add_clause (add_clause core5 [2, 4, 6]) [3, 4, 8]) [4, 6, 8]) 5) 6)

/-! ## Sample states: Reordering of the learned clauses -/

/-- Activities 1 and 2 of the clauses 0 and 1. -/
def sample_activity (c : Nat) : Int := if c = 0 then 1 else 2

/-! ## Sample states: Deletion of learned clauses -/

/-- Three learned clauses `{x1, x2, x3}`, `{¬x1, x3, x4}` and `{x2, ¬x3, ¬x4}`
on the variables 1 to 4; after the decisions `x1` and `¬x3` propagation assigns
`x4` with the second clause as antecedent. -/
def sample_reduce : smt_core_t :=
  propagate_or (decide_literal (decide_literal
    (link_learned_clause (link_learned_clause (link_learned_clause core5 [2, 4, 6]) [3, 6, 8])
      [4, 7, 9]) 2) 7)

/-- Activities 5, 0 and 1 of the clauses 0, 1 and 2. -/
def sample_clause_activity (c : Nat) : Int := if c = 0 then 5 else if c = 1 then 0 else 1

/-! ## Sample states: Union-find structure of the context -/

/-- Value of `NULL_TERM` for the sample partitions. -/
def sample_null : Int := -2147483648

/-- Memory of a partition before any addition. -/
def sample_partition_blank : partition_t Nat :=
  { nelems := 0, size := 0, parent := fun _ => 0, type := fun _ => 0, rank := fun _ => 0 }

/-- Partition with the frozen root 0 and the terms 1 to 4, after the merges
of 2 with 3, of 1 with 4 and of 1 with 2: the parent of 3 is 2, the parent of
2 and 4 is 1.  The types are numbers, `min` is the type `inf_type`. -/
def sample_partition : partition_t Nat :=
  partition_merge min
    (partition_merge min
      (partition_merge min
        (partition_add_term sample_null
          (partition_add_term sample_null
            (partition_add_term sample_null
              (partition_add_term sample_null
                (partition_add_root sample_null sample_partition_blank 0 5) 1 7) 2 7) 3 7) 4 7)
        2 3) 1 4) 1 2

/-- Height of the terms of `sample_partition`. -/
def sample_height (t : Int) : Nat := if t = 3 then 2 else if t = 2 ∨ t = 4 then 1 else 0

/-- Subtype test of the sample partitions. -/
def sample_subtype (a b : Nat) : Bool := decide (a ≤ b)

/-! ## Sample states: Propagation to the theory solver -/

/-- Theory solver of the sample: `assert_atom` counts the atoms asserted;
`propagate` assigns the literal 6 when the literal 2 is true and 6 is not
assigned. -/
def sample_theory_solver : th_solver_t Nat :=
  { assert_atom := fun st _ _ => (true, { st with solver := st.solver + 1 })
    propagate := fun st =>
      if st.core.value 2 = VAL_TRUE ∧ st.core.value 6 = VAL_UNDEF then
        (true, { st with core := propagate_literal st.core 6 0 })
      else (true, st) }

/-- Variables 1 to 3 with the atoms 11 and 13 attached to the variables 1 and
3, after the decision on the literal 2. -/
def sample_smt : smt_state_t Nat :=
  { core := decide_literal core4 2
    atoms := attach_atom_to_bvar 4 (attach_atom_to_bvar 4 init_atom_table 1 11) 3 13
    solver := 0 }

/-! ## Sample states: Removal of the substitution cycles -/

/-- Term table of the sample: the variables 0, 1 and 4, the composite terms
2 = f(1) and 3 = g(0); the other terms are leaves. -/
def sample_term_table : term_table_t :=
  { kind := fun t =>
      if t = 0 ∨ t = 1 ∨ t = 4 then visit_kind_t.uninterpreted
      else if t = 2 ∨ t = 3 then visit_kind_t.composite
      else visit_kind_t.leaf,
    children := fun t => if t = 2 then [1] else if t = 3 then [0] else [] }

/-- Partition of the sample: the class of the variables 0 and 4, of root 0. -/
def sample_subst_partition : partition_t Nat :=
  { nelems := 5, size := 8,
    parent := fun t => if t = 0 ∨ t = 4 then 0 else sample_null,
    type := fun _ => 0,
    rank := fun t => if t = 0 then 1 else 0 }

/-- State of the sample before the removal of the cycles: the candidates
0 := 2 and 1 := 3, which make the cycle 0, f(1), 1, g(0); the terms 0 to 4 are
white and the others have an internal code. -/
def sample_subst_ctx : subst_ctx_t Nat :=
  { partition := sample_subst_partition,
    color := fun t => if 0 ≤ t ∧ t < 5 then term_color_t.white else term_color_t.assigned,
    pseudo_subst := fun t => if t = 0 then some 2 else if t = 1 then some 3 else none,
    top_eqs := [] }

/-- The equalities of the sample: 100 is `4 = f(1)` and 101 is `1 = g(0)`. -/
def sample_subst_eqs : List (Int × Int × Int) := [(4, 2, 100), (1, 3, 101)]

/-- Height of the terms of the sample along the child and partition edges. -/
def sample_term_height (t : Int) : Nat := if t = 2 ∨ t = 3 ∨ t = 4 then 1 else 0

/-- Height of the terms of the sample in the partition. -/
def sample_class_height (t : Int) : Nat := if t = 4 then 1 else 0

/-! ## Sample states: Random selection of a variable -/

/-- A core with the constant and the variables 1 and 2, reached by creating and
popping a third variable and then deciding the positive literal of variable 2. -/
def sample_random_core : smt_core_t :=
  decide_literal (smt_pop (create_boolean_variable (smt_push core3))) 4

/-! ## Sample states: Hash tables of non-negative integers (int_hash_tables.c) -/

/-- Constants with default size 64, size limit `2^29` and ratios 0.6 and 0.2. -/
def sample_htbl_consts : int_htbl_consts :=
  { INT_HTBL_DEFAULT_SIZE := 64, MAX_HTBL_SIZE := 2 ^ 29,
    resize := fun n => 6 * n / 10, cleanup := fun n => 2 * n / 10 }

/-- An object of hash code 5 whose `build` returns 7, equal to index 7 only. -/
def sample_hobj : int_hobj_t := { hash := 5, eq := fun v => decide (v = 7), build := 7 }

/-- An object of hash code 5, equal to no index, whose `build` fails. -/
def sample_failing_hobj : int_hobj_t := { hash := 5, eq := fun _ => false, build := -1 }

/-- The empty table of 64 records (so that the `Option` layers can be dropped). -/
def sample_htbl0 : int_htbl_t :=
  (init_int_htbl sample_htbl_consts 0).getD
    { records := null_records, size := 0, nelems := 0, ndeleted := 0, resize_threshold := 0,
      cleanup_threshold := 0 }

/-- Table reached from the empty table of 64 records by `int_htbl_get_obj` on
`sample_hobj` followed by `int_htbl_erase_record(5, 7)`. -/
def sample_htbl : int_htbl_t :=
  (((int_htbl_get_obj sample_htbl_consts 64 sample_htbl0 sample_hobj).map (fun p => p.2.1)).bind
    (fun t => int_htbl_erase_record 64 t 5 7)).getD sample_htbl0

/-- Table reached from the empty table of 64 records by `int_htbl_get_obj` on
`sample_hobj`: the record of key 5 and value 7 is in slot 5. -/
def sample_htbl1 : int_htbl_t :=
  ((int_htbl_get_obj sample_htbl_consts 128 sample_htbl0 sample_hobj).map
    (fun p => p.2.1)).getD sample_htbl0

/-! ## Sample states: Substitution in a product of bit-vector variables (src/src/context.c) -/

/-- The product `x_1 * x_2^2`. -/
def sample_varprod : List varexp_t := [{ var := 1, exp := 1 }, { var := 2, exp := 2 }]

/-- Substitution where `x_1` is mapped to the expression 7 and no other
variable has one; an expression is identified by a number. -/
def sample_bvsubst : Int → Option Nat := fun x => if x = 1 then some 7 else none

/-- Every sample expression has one term. -/
def sample_nterms : Nat → Nat := fun _ => 1

/-- Sample variable manager: the variable for `x^e` is `100 * x + e`. -/
def sample_product_varexps : Int → Nat → Int := fun x e => 100 * x + (e : Int)

/-- Sample valuation: `x_1 = 2`, `x_2 = 3`, and the variable `100 * x + e` has
the value of `x^e`. -/
def sample_bvval : Int → Int := fun y =>
  if y = 1 then 2 else if y = 2 then 3 else
  if y = 102 then 4 else if y = 202 then 9 else 0

/-- Sample value of the expressions: the expression 7 has value 5. -/
def sample_bvqval : Nat → Int := fun _ => 5

/-! ## Sample states: Bounds of the accesses of quick_split -/

/-- Activities of four clauses: 3, 1, 4, 2. -/
def sample_activity4 (c : Nat) : Int :=
  if c = 0 then 3 else if c = 1 then 1 else if c = 2 then 4 else 2

/-! ## Sample states: Propagation at the base level and the main loop -/

/-- A theory solver that accepts every atom and propagates nothing. -/
def sample_idle_theory : th_solver_t Unit :=
  { assert_atom := fun st _ _ => (true, st), propagate := fun st => (true, st) }

/-- The Horn chain on the variables 1, 2, 3: the clauses `{not x1, x2}`,
`{not x2, x3}`, `{x1}`, `{not x3}` added with `add_clause` to an idle core. -/
def sample_horn_core : smt_core_t :=
  add_clause (add_clause (add_clause (add_clause core4 [3, 4]) [5, 6]) [2]) [7]

/-- The core with the Horn chain, without atoms. -/
def sample_horn : smt_state_t Unit :=
  { core := sample_horn_core, atoms := init_atom_table, solver := () }

/-- The core with the Horn chain after `start_search`. -/
def sample_horn_search : smt_state_t Unit :=
  { sample_horn with core := start_search sample_horn_core }

/-- State of the first conflict of the Horn chain in `smt_process`: the result
of the first call of `smt_propagation`. -/
def sample_horn_conflict : smt_core_t :=
  ((smt_propagation sample_idle_theory 20 5 sample_horn_search).map (fun r => r.2.core)).getD
    sample_horn_core

/-- The Horn chain on a core with the clean-interrupt option, where
`start_search` pushes a base level. -/
def sample_horn_clean : smt_state_t Unit :=
  { core :=
      add_clause (add_clause (add_clause (add_clause
        { core4 with clean_interrupt_enabled := true } [3, 4]) [5, 6]) [2]) [7]
    atoms := init_atom_table, solver := () }

/-! ## Sample states: Substitution from an arithmetic equality (src/src/context.c) -/

/-- The polynomial `2*x1 + 4*x4 + 6` (the constant is the variable 0). -/
def sample_poly : List monomial_t :=
  [{ var := 0, coeff := 6 }, { var := 1, coeff := 2 }, { var := 4, coeff := 4 }]

/-- The sample context without substitution candidates. -/
def sample_poly_ctx : subst_ctx_t Nat := { sample_subst_ctx with pseudo_subst := fun _ => none }

/-! ## Sample states: Flattening of the assertions (src/src/context.c) -/

/-- Sample terms: 20 is `(not 21)`, 21 is `(or 22 23)`, 22 is an application
and 23 an uninterpreted Boolean term. -/
def sample_flat_terms : flat_terms_t Nat :=
  { kind := fun t =>
      if t = 20 then term_kind_t.NOT_TERM else if t = 21 then term_kind_t.OR_TERM
      else if t = 22 then term_kind_t.APP_TERM
      else if t = 23 then term_kind_t.UNINTERPRETED_TERM else term_kind_t.OTHER_TERM
    desc := fun t => if t = 20 then [21] else if t = 21 then [22, 23] else []
    type := fun _ => 0
    true_term := 1
    false_term := 2
    constant_poly := fun _ => false
    subterms := fun t => if t = 20 then [21] else if t = 21 then [22, 23] else [] }

/-- Sample context: the partition of the sample, no term has a code. -/
def sample_flat_ctx : flat_ctx_t Nat :=
  { sub := { partition := sample_subst_partition, color := fun _ => term_color_t.white,
             pseudo_subst := fun _ => none, top_eqs := [] }
    bcode := fun _ => none, top_atoms := [], top_formulas := [], subst_eqs := [],
    base_level := 0, var_elim_enabled := true }

/-- The stack with the assertion 20. -/
def sample_flat_stack : List tree_record_t := tree_stack_push_term sample_flat_terms [] 20

/-- The stack after two iterations: the record of the term 22 above the
records of 21 and 20, whose counters are 1. -/
def sample_flat_rest : List tree_record_t :=
  [{ term := 21, kind := term_kind_t.OR_TERM, counter := 1, desc := [22, 23] },
   { term := 20, kind := term_kind_t.NOT_TERM, counter := 1, desc := [21] }]

/-! ## Sample states: Assertion of formulas: return codes and the status of the core -/

/-- The terms of the sample where 1 and 2 are the Boolean constants. -/
def sample_assert_terms : flat_terms_t Nat :=
  { sample_flat_terms with
    kind := fun t => if t = 1 ∨ t = 2 then term_kind_t.CONSTANT_TERM
      else sample_flat_terms.kind t }

/-- Sample operations: no class is learned, difference logic accepts the
formulas, and the internalization functions return without a jump. -/
def sample_context_ops : context_ops Nat Unit :=
  { eq_learner_process := fun _ _ => []
    eq_term := fun x y => 100 + x + y
    analyze_diff_logic_vectors := fun ctx _ => jump_t.done ctx
    auto_simplex := fun _ => false
    new_solver := fun _ => ()
    assert_toplevel_atom := fun ctx _ => jump_t.done ctx
    assert_toplevel_formula := fun ctx _ => jump_t.done ctx }

/-- Sample context of architecture `arch` on an idle core with four
variables. -/
def sample_context (arch : context_arch_t) : context_t Nat Unit :=
  { arch := arch, eq_abstraction_enabled := false, mode := smt_mode_t.SMT_MODE_BASIC,
    flat := sample_flat_ctx,
    smt := { core := core4, atoms := init_atom_table, solver := () } }

/-- The context that `assert_formulas` of the constant false leaves on the
sample context of architecture `CTX_ARCH_EG`. -/
def sample_assert_result : context_t Nat Unit :=
  ((assert_formulas sample_null 2 sample_subtype min sample_assert_terms sample_context_ops
      sample_idle_theory 20 5 (sample_context context_arch_t.CTX_ARCH_EG) [2]).map
    (fun r => r.2)).getD (sample_context context_arch_t.CTX_ARCH_EG)

/-! ## Sample states: The round trip of smt_push and smt_pop -/

/-- A core at base level 1 with the problem clause `{2, 4, 6}`. -/
def sample_push0 : smt_core_t := add_clause (smt_push core4) [2, 4, 6]

/-- After a second `smt_push`: the binary clause `{3, 5}` and the unit clause
`{2}` are added. -/
def sample_push1 : smt_core_t := add_clause (add_clause (smt_push sample_push0) [3, 5]) [2]

/-- Then Boolean propagation runs: the literal 5 is implied. -/
def sample_push2 : smt_core_t :=
  match boolean_propagation 10 sample_push1 with
  | some r => r.2
  | none => sample_push1

/-- Then the clause database is simplified: the clause `{2, 4, 6}` is true at
the base level and is marked for removal. -/
def sample_push3 : smt_core_t := simplify_clause_database sample_push2

/-! # Theorems -/

open bval_t

/-! ### Literal arithmetic -/

theorem not_lit_not_lit (l : Int) : not_lit (not_lit l) = l := by
  unfold not_lit; split <;> split <;> omega

theorem not_lit_ne (l : Int) : not_lit l ≠ l := by
  unfold not_lit; split <;> omega

theorem not_lit_nonneg {l : Int} (h : 0 ≤ l) : 0 ≤ not_lit l := by
  unfold not_lit; split <;> omega

theorem not_lit_nonneg_iff (l : Int) : 0 ≤ not_lit l ↔ 0 ≤ l := by
  unfold not_lit; split <;> omega

theorem not_lit_lt_two_mul {l : Int} (n : Int) (h : l < 2 * n) : not_lit l < 2 * n := by
  unfold not_lit; split <;> omega

theorem var_of_not_lit (l : Int) : var_of (not_lit l) = var_of l := by
  unfold var_of not_lit; split <;> omega

theorem not_lit_inj {a b : Int} (h : not_lit a = not_lit b) : a = b := by
  have := congrArg not_lit h
  simpa [not_lit_not_lit] using this

theorem not_lit_eq_iff (a b : Int) : not_lit a = b ↔ a = not_lit b := by
  constructor
  · intro h; rw [← h, not_lit_not_lit]
  · intro h; rw [h, not_lit_not_lit]

@[simp] theorem upd_same {α : Type} (a : Int → α) (i : Int) (v : α) : upd a i v i = v := by
  simp [upd]

theorem upd_ne {α : Type} (a : Int → α) {i j : Int} (v : α) (h : j ≠ i) : upd a i v j = a j := by
  simp [upd, h]

theorem upd_apply {α : Type} (a : Int → α) (i j : Int) (v : α) :
    upd a i v j = if j = i then v else a j := rfl

/-! ### Writes of the value array -/

theorem ValSym.assign {v : Int → bval_t} {n : Nat} (h : ValSym v n) (l : Int) :
    ValSym (upd (upd v l VAL_TRUE) (not_lit l) VAL_FALSE) n := by
  intro j hj0 hjn
  have hne := not_lit_ne l
  by_cases h1 : j = l
  · subst h1
    simp [upd_apply, hne.symm, bval_t.code]
  · by_cases h2 : j = not_lit l
    · subst h2
      simp [upd_apply, not_lit_not_lit, hne.symm, bval_t.code]
    · have h3 : not_lit j ≠ not_lit l := fun e => h1 (not_lit_inj e)
      have h4 : not_lit j ≠ l := fun e => h2 ((not_lit_eq_iff _ _).1 e)
      simp [upd_apply, h1, h2, h3, h4, h j hj0 hjn]

theorem ValSym.unassign {v : Int → bval_t} {n : Nat} (h : ValSym v n) (l : Int) :
    ValSym (upd (upd v l VAL_UNDEF) (not_lit l) VAL_UNDEF) n := by
  intro j hj0 hjn
  have hne := not_lit_ne l
  by_cases h1 : j = l
  · subst h1
    simp [upd_apply, hne.symm, bval_t.code]
  · by_cases h2 : j = not_lit l
    · subst h2
      simp [upd_apply, not_lit_not_lit, hne.symm, bval_t.code]
    · have h3 : not_lit j ≠ not_lit l := fun e => h1 (not_lit_inj e)
      have h4 : not_lit j ≠ l := fun e => h2 ((not_lit_eq_iff _ _).1 e)
      simp [upd_apply, h1, h2, h3, h4, h j hj0 hjn]

theorem ValSym.mono {v : Int → bval_t} {n m : Nat} (h : ValSym v n) (hm : m ≤ n) : ValSym v m :=
  fun l h0 hl => h l h0 (by omega)

theorem write_end_marker {v : Int → bval_t} {l : Int} (x : bval_t) (y : bval_t) (h0 : 0 ≤ l)
    (e : Int) (he : e < 0) : upd (upd v l x) (not_lit l) y e = v e := by
  have := not_lit_nonneg h0
  rw [upd_ne _ _ (by omega), upd_ne _ _ (by omega)]

theorem valueInv_of_eq {s t : smt_core_t} (h : ValueInv s) (h1 : t.nvars = s.nvars)
    (h2 : t.nlits = s.nlits) (h3 : t.value = s.value) (h4 : t.stack.lit = s.stack.lit)
    (h5 : t.trail_stack = s.trail_stack) : ValueInv t := by
  constructor
  · rw [h1, h2]; exact h.nlits_eq
  · rw [h2, h3]; exact h.sym
  · rw [h3]; exact h.end1
  · rw [h3]; exact h.end2
  · rw [h4]; exact h.trail_nonneg
  · rw [h1, h5]; exact h.saved

/-- A state whose value array is symmetric on a list of nonnegative trail literals
stays so when they are unassigned. -/
theorem foldl_backtrack_undo (ls : List Int) (s : smt_core_t) (hl : ∀ l ∈ ls, 0 ≤ l)
    (hs : ValSym s.value s.nlits) (h1 : s.value (-1) = VAL_UNDEF) (h2 : s.value (-2) = VAL_UNDEF) :
    let t := ls.foldl backtrack_undo s
    t.nvars = s.nvars ∧ t.nlits = s.nlits ∧ t.stack = s.stack ∧ t.trail_stack = s.trail_stack ∧
    t.checkpoints = s.checkpoints ∧
    ValSym t.value t.nlits ∧ t.value (-1) = VAL_UNDEF ∧ t.value (-2) = VAL_UNDEF := by
  induction ls generalizing s with
  | nil => exact ⟨rfl, rfl, rfl, rfl, rfl, hs, h1, h2⟩
  | cons l ls ih =>
    have hl0 : 0 ≤ l := hl l (List.mem_cons_self _ _)
    have := ih (backtrack_undo s l) (fun x hx => hl x (List.mem_cons_of_mem _ hx))
      (ValSym.unassign hs l)
      (by show upd (upd s.value l VAL_UNDEF) (not_lit l) VAL_UNDEF (-1) = _
          rw [write_end_marker _ _ hl0 _ (by omega)]; exact h1)
      (by show upd (upd s.value l VAL_UNDEF) (not_lit l) VAL_UNDEF (-2) = _
          rw [write_end_marker _ _ hl0 _ (by omega)]; exact h2)
    simpa [List.foldl_cons, backtrack_undo] using this

theorem valueInv_init (m : smt_core_t) (mode : smt_mode_t) : ValueInv (init_smt_core m mode) := by
  constructor
  · rfl
  · intro l h0 hl
    have hl2 : l < 2 := by simpa [init_smt_core] using hl
    have : l = 0 ∨ l = 1 := by omega
    rcases this with rfl | rfl <;>
      simp [init_smt_core, upd_apply, not_lit, true_literal, false_literal, bval_t.code]
  · simp [init_smt_core, upd_apply, true_literal, false_literal]
  · simp [init_smt_core, upd_apply, true_literal, false_literal]
  · intro l hl; simp [init_smt_core, init_stack] at hl
  · simp [init_smt_core, TrailStackOk]

theorem valueInv_create {s : smt_core_t} (h : ValueInv s) :
    ValueInv (create_boolean_variable s) := by
  have hneg : neg_lit (s.nvars : Int) = not_lit (pos_lit s.nvars) := by
    unfold neg_lit not_lit pos_lit; split <;> omega
  have hpos : (0 : Int) ≤ pos_lit (s.nvars : Int) := by unfold pos_lit; omega
  constructor
  · show s.nlits + 2 = 2 * (s.nvars + 1)
    rw [h.nlits_eq]; ring
  · show ValSym (upd (upd s.value (pos_lit s.nvars) VAL_UNDEF) (neg_lit s.nvars) VAL_UNDEF)
      (s.nlits + 2)
    rw [hneg]
    intro l h0 hl
    by_cases hlt : l < s.nlits
    · exact ValSym.unassign h.sym _ l h0 hlt
    · have hn := h.nlits_eq
      have : l = pos_lit s.nvars ∨ l = not_lit (pos_lit s.nvars) := by
        unfold not_lit pos_lit
        push_cast at hl
        split <;> omega
      have hne := not_lit_ne (pos_lit (s.nvars : Int))
      rcases this with e | e <;> rw [e] <;>
        simp [upd_apply, not_lit_not_lit, hne, hne.symm, bval_t.code]
  · show upd (upd s.value (pos_lit s.nvars) VAL_UNDEF) (neg_lit s.nvars) VAL_UNDEF (-1) = _
    rw [hneg, write_end_marker _ _ hpos _ (by omega)]; exact h.end1
  · show upd (upd s.value (pos_lit s.nvars) VAL_UNDEF) (neg_lit s.nvars) VAL_UNDEF (-2) = _
    rw [hneg, write_end_marker _ _ hpos _ (by omega)]; exact h.end2
  · exact h.trail_nonneg
  · show TrailStackOk (s.nvars + 1) s.trail_stack
    have := h.saved
    cases hts : s.trail_stack with
    | nil => simp [TrailStackOk]
    | cons t rest =>
      rw [hts] at this
      exact ⟨Nat.le_succ_of_le this.1, this.2⟩

/-- Common part of the four assignment functions. -/
theorem valueInv_write_true {s t : smt_core_t} (h : ValueInv s) (l : Int) (h0 : 0 ≤ l)
    (h1 : t.nvars = s.nvars) (h2 : t.nlits = s.nlits)
    (h3 : t.value = upd (upd s.value l VAL_TRUE) (not_lit l) VAL_FALSE)
    (h4 : t.stack.lit = s.stack.lit ++ [l]) (h5 : t.trail_stack = s.trail_stack) :
    ValueInv t := by
  constructor
  · rw [h1, h2]; exact h.nlits_eq
  · rw [h2, h3]; exact ValSym.assign h.sym l
  · rw [h3, write_end_marker _ _ h0 _ (by omega)]; exact h.end1
  · rw [h3, write_end_marker _ _ h0 _ (by omega)]; exact h.end2
  · rw [h4]; intro x hx
    rcases List.mem_append.1 hx with hx | hx
    · exact h.trail_nonneg x hx
    · simp at hx; omega
  · rw [h1, h5]; exact h.saved

theorem valueInv_backtrack {s : smt_core_t} (h : ValueInv s) (k : Nat) :
    ValueInv (backtrack s k) := by
  have hsub : ∀ l ∈ (s.stack.lit.drop (s.stack.level_index (k + 1))).reverse, 0 ≤ l := by
    intro l hl
    exact h.trail_nonneg l (List.mem_of_mem_drop (List.mem_reverse.1 hl))
  obtain ⟨e1, e2, e3, e4, -, e6, e7, e8⟩ := foldl_backtrack_undo _ s hsub h.sym h.end1 h.end2
  constructor
  · show (List.foldl backtrack_undo s _).nlits = 2 * (List.foldl backtrack_undo s _).nvars
    rw [e1, e2]; exact h.nlits_eq
  · exact e6
  · exact e7
  · exact e8
  · intro l hl
    exact h.trail_nonneg l (List.mem_of_mem_take hl)
  · show TrailStackOk (List.foldl backtrack_undo s _).nvars (List.foldl backtrack_undo s _).trail_stack
    rw [e1, e4]; exact h.saved

theorem valueInv_backtrack_to_level {s : smt_core_t} (h : ValueInv s) (k : Nat) :
    ValueInv (backtrack_to_level s k) := by
  unfold backtrack_to_level
  split
  · exact valueInv_of_eq (valueInv_backtrack h k) rfl rfl rfl rfl rfl
  · exact h

theorem SameAssignment.sa_refl (s : smt_core_t) : SameAssignment s s :=
  ⟨rfl, rfl, rfl, rfl, rfl, rfl, rfl, rfl⟩

theorem SameAssignment.sa_trans {s t u : smt_core_t} (h1 : SameAssignment s t)
    (h2 : SameAssignment t u) : SameAssignment s u := by
  obtain ⟨a1, a2, a3, a4, a5, a6, a7, a8⟩ := h1
  obtain ⟨b1, b2, b3, b4, b5, b6, b7, b8⟩ := h2
  exact ⟨b1.trans a1, b2.trans a2, b3.trans a3, b4.trans a4, b5.trans a5, b6.trans a6,
    b7.trans a7, b8.trans a8⟩

theorem valueInv_same {s t : smt_core_t} (h : ValueInv s) (e : SameAssignment s t) :
    ValueInv t := by
  obtain ⟨a1, a2, a3, a4, a5, -, -, -⟩ := e
  exact valueInv_of_eq h a1 a2 a3 (by rw [a4]) a5

theorem sameAssignment_restore_clauses_step (s : smt_core_t) (c : Nat) :
    SameAssignment s (restore_clauses_step s c) := by
  unfold restore_clauses_step watch_add
  split <;> exact ⟨rfl, rfl, rfl, rfl, rfl, rfl, rfl, rfl⟩

theorem sameAssignment_foldl_restore (cs : List Nat) (s : smt_core_t) :
    SameAssignment s (cs.foldl restore_clauses_step s) := by
  induction cs generalizing s with
  | nil => exact SameAssignment.sa_refl s
  | cons c cs ih =>
    exact (sameAssignment_restore_clauses_step s c).sa_trans (ih _)

theorem sameAssignment_restore_clauses (s : smt_core_t) (n : Nat) :
    SameAssignment s (restore_clauses s n) := by
  unfold restore_clauses
  have h := sameAssignment_foldl_restore
    (List.take n (reset_watch_lists (remove_problem_clauses (remove_all_learned_clauses s) n)).problem_clauses)
    { reset_watch_lists (remove_problem_clauses (remove_all_learned_clauses s) n) with
      learned_clauses := [],
      problem_clauses :=
        List.take n (reset_watch_lists (remove_problem_clauses (remove_all_learned_clauses s) n)).problem_clauses }
  obtain ⟨a1, a2, a3, a4, a5, a6, a7, a8⟩ := h
  exact ⟨a1, a2, a3, a4, a5, a6, a7, a8⟩

theorem sameAssignment_restore_binary_clauses (s : smt_core_t) (n : Nat) :
    SameAssignment s (restore_binary_clauses s n) :=
  ⟨rfl, rfl, rfl, rfl, rfl, rfl, rfl, rfl⟩

theorem valueInv_pop_restore {s3 : smt_core_t} (h3 : ValueInv s3) (top : trail_t)
    (rest : List trail_t) (hts : s3.trail_stack = top :: rest) :
    ValueInv (smt_pop_restore s3 top rest) := by
  unfold smt_pop_restore
  dsimp only
  have e4 : SameAssignment s3
      (restore_binary_clauses (restore_clauses s3 top.nclauses) top.nbins) :=
    (sameAssignment_restore_clauses s3 _).sa_trans (sameAssignment_restore_binary_clauses _ _)
  have h4 := valueInv_same h3 e4
  generalize restore_binary_clauses (restore_clauses s3 top.nclauses) top.nbins = s4 at e4 h4 ⊢
  have h4b : ValueInv { s4 with base_level := s4.base_level - 1 } :=
    valueInv_of_eq h4 rfl rfl rfl rfl rfl
  have h5 := valueInv_backtrack h4b (s4.base_level - 1)
  have ets : (backtrack { s4 with base_level := s4.base_level - 1 }
      (s4.base_level - 1)).trail_stack = top :: rest := by
    have hsub : ∀ l ∈ (s4.stack.lit.drop (s4.stack.level_index (s4.base_level - 1 + 1))).reverse,
        0 ≤ l := by
      intro l hl
      exact h4.trail_nonneg l (List.mem_of_mem_drop (List.mem_reverse.1 hl))
    obtain ⟨-, -, -, e, -, -, -, -⟩ := foldl_backtrack_undo _
      { s4 with base_level := s4.base_level - 1 } hsub h4.sym h4.end1 h4.end2
    have e5 := e4.2.2.2.2.1
    show (List.foldl backtrack_undo _ _).trail_stack = _
    rw [e]; show s4.trail_stack = _
    rw [e5, hts]
  generalize backtrack { s4 with base_level := s4.base_level - 1 }
      (s4.base_level - 1) = s5 at h5 ets ⊢
  have hsaved := h5.saved
  rw [ets] at hsaved
  constructor
  · rfl
  · show ValSym s5.value (2 * top.nvars)
    refine ValSym.mono h5.sym ?_
    rw [h5.nlits_eq]; exact Nat.mul_le_mul_left 2 hsaved.1
  · exact h5.end1
  · exact h5.end2
  · exact h5.trail_nonneg
  · exact hsaved.2

theorem valueInv_pop {s : smt_core_t} (h : ValueInv s) : ValueInv (smt_pop s) := by
  unfold smt_pop
  dsimp only
  have h1 : ValueInv (backtrack_to_base_level s) := valueInv_backtrack_to_level h _
  have h3 : ValueInv (clear_base_level_marks
      { backtrack_to_base_level s with
        th_calls := (backtrack_to_base_level s).th_calls ++ [th_call_t.pop] }) :=
    valueInv_of_eq h1 rfl rfl rfl rfl rfl
  split
  · exact h
  · rename_i top rest hts
    exact valueInv_pop_restore h3 top rest hts

theorem valueInv_push {s : smt_core_t} (h : ValueInv s) : ValueInv (smt_push s) := by
  unfold smt_push
  have h1 : ValueInv (if s.status = smt_status_t.STATUS_UNKNOWN ∨ s.status = smt_status_t.STATUS_SAT
      then smt_clear s else s) := by
    split
    · unfold smt_clear
      split
      · exact valueInv_pop h
      · exact valueInv_of_eq (valueInv_backtrack_to_level h _) rfl rfl rfl rfl rfl
    · exact h
  generalize (if s.status = smt_status_t.STATUS_UNKNOWN ∨ s.status = smt_status_t.STATUS_SAT
      then smt_clear s else s) = s1 at h1 ⊢
  constructor
  · exact h1.nlits_eq
  · exact h1.sym
  · exact h1.end1
  · exact h1.end2
  · exact h1.trail_nonneg
  · exact ⟨Nat.le_refl _, h1.saved⟩

theorem purge_loop_spec (n : Nat) (k : Nat) (u : List Int) (v : Int → bval_t)
    (hu : ∀ l ∈ u, 0 ≤ l) (hs : ValSym v k) (h1 : v (-1) = VAL_UNDEF) (h2 : v (-2) = VAL_UNDEF) :
    ValSym (purge_loop n v u).1 k ∧ (purge_loop n v u).1 (-1) = VAL_UNDEF ∧
    (purge_loop n v u).1 (-2) = VAL_UNDEF ∧ ∀ l ∈ (purge_loop n v u).2, l ∈ u := by
  induction u generalizing v with
  | nil => exact ⟨hs, h1, h2, fun l hl => hl⟩
  | cons l u ih =>
    have hl0 : 0 ≤ l := hu l (List.mem_cons_self _ _)
    have hu2 : ∀ x ∈ u, 0 ≤ x := fun x hx => hu x (List.mem_cons_of_mem _ hx)
    unfold purge_loop
    split
    · obtain ⟨a, b, c, d⟩ := ih (upd (upd v l VAL_UNDEF) (not_lit l) VAL_UNDEF) hu2
        (ValSym.unassign hs l)
        (by rw [write_end_marker _ _ hl0 _ (by omega)]; exact h1)
        (by rw [write_end_marker _ _ hl0 _ (by omega)]; exact h2)
      exact ⟨a, b, c, fun x hx => List.mem_cons_of_mem _ (d x hx)⟩
    · obtain ⟨a, b, c, d⟩ := ih v hu2 hs h1 h2
      refine ⟨a, b, c, fun x hx => ?_⟩
      rcases List.mem_cons.1 hx with e | e
      · rw [e]; exact List.mem_cons_self _ _
      · exact List.mem_cons_of_mem _ (d x e)

theorem valueInv_purge {s : smt_core_t} (h : ValueInv s) :
    ValueInv (purge_all_dynamic_atoms s) := by
  unfold purge_all_dynamic_atoms
  split
  · exact h
  · rename_i cp _
    obtain ⟨a, b, c, d⟩ := purge_loop_spec cp.nvars s.nlits s.stack.lit s.value
      h.trail_nonneg h.sym h.end1 h.end2
    exact ⟨h.nlits_eq, a, b, c, fun l hl => h.trail_nonneg l (d l hl), h.saved⟩

theorem valueInv_of_reachable {s : smt_core_t} (h : ReachableValue s) : ValueInv s := by
  induction h with
  | init m mode => exact valueInv_init m mode
  | create s _ ih => exact valueInv_create ih
  | assign s l _ h0 _ ih => exact valueInv_write_true ih l h0 rfl rfl rfl rfl rfl
  | decide s l _ h0 _ ih => exact valueInv_write_true ih l h0 rfl rfl rfl rfl rfl
  | implied s l a _ h0 _ ih => exact valueInv_write_true ih l h0 rfl rfl rfl rfl rfl
  | propagate s l e _ h0 _ ih => exact valueInv_write_true ih l h0 rfl rfl rfl rfl rfl
  | backtrack s k _ ih => exact valueInv_backtrack ih k
  | push s _ ih => exact valueInv_push ih
  | pop s _ ih => exact valueInv_pop ih
  | purge s _ ih => exact valueInv_purge ih

/-- C10: in every reachable state negation swaps True and False and fixes Undef
(`value[not(l)] = 2 - value[l]` under the encoding False = 0, Undef = 1, True = 2)
for every literal `0 ≤ l < nlits`, and both end markers are Undef. -/
theorem value_negation_invariant (s : smt_core_t) (h : ReachableValue s) :
    (∀ l : Int, 0 ≤ l → l < s.nlits → (s.value (not_lit l)).code = 2 - (s.value l).code) ∧
    s.value (-1) = VAL_UNDEF ∧ s.value (-2) = VAL_UNDEF :=
  have hv := valueInv_of_reachable h
  ⟨hv.sym, hv.end1, hv.end2⟩


theorem value_negation_invariant_witness :
    ReachableValue (backtrack (decide_literal (smt_push core3) 3) 1) ∧
    ((∀ l : Int, 0 ≤ l → l < (backtrack (decide_literal (smt_push core3) 3) 1).nlits →
      ((backtrack (decide_literal (smt_push core3) 3) 1).value (not_lit l)).code =
        2 - ((backtrack (decide_literal (smt_push core3) 3) 1).value l).code) ∧
    (backtrack (decide_literal (smt_push core3) 3) 1).value (-1) = VAL_UNDEF ∧
    (backtrack (decide_literal (smt_push core3) 3) 1).value (-2) = VAL_UNDEF) :=
  have hr : ReachableValue (backtrack (decide_literal (smt_push core3) 3) 1) :=
    ReachableValue.backtrack _ 1
      (ReachableValue.decide _ 3
        (ReachableValue.push _
          (ReachableValue.create _ (ReachableValue.create _ (ReachableValue.init _ _))))
        (by decide) (by decide))
  ⟨hr, value_negation_invariant _ hr⟩

/-! ### Values under negation -/

theorem code_injective {a b : bval_t} (h : a.code = b.code) : a = b := by
  cases a <;> cases b <;> simp [bval_t.code] at h <;> rfl

theorem valSym_false_iff {v : Int → bval_t} {n : Nat} (h : ValSym v n) {l : Int} (h0 : 0 ≤ l)
    (hl : l < n) : v (not_lit l) = VAL_FALSE ↔ v l = VAL_TRUE := by
  have := h l h0 hl
  cases h1 : v l <;> cases h2 : v (not_lit l) <;> simp [h1, h2, bval_t.code] at this ⊢

theorem valSym_true_iff {v : Int → bval_t} {n : Nat} (h : ValSym v n) {l : Int} (h0 : 0 ≤ l)
    (hl : l < n) : v (not_lit l) = VAL_TRUE ↔ v l = VAL_FALSE := by
  have := h l h0 hl
  cases h1 : v l <;> cases h2 : v (not_lit l) <;> simp [h1, h2, bval_t.code] at this ⊢

theorem valSym_undef_iff {v : Int → bval_t} {n : Nat} (h : ValSym v n) {l : Int} (h0 : 0 ≤ l)
    (hl : l < n) : v (not_lit l) = VAL_UNDEF ↔ v l = VAL_UNDEF := by
  have := h l h0 hl
  cases h1 : v l <;> cases h2 : v (not_lit l) <;> simp [h1, h2, bval_t.code] at this ⊢

theorem valid_nonneg {s : smt_core_t} {l : Int} (h : valid_lit s l) : 0 ≤ l :=
  Int.le_trans (by decide) h.1

theorem not_lit_ge_two {l : Int} (h : 2 ≤ l) : 2 ≤ not_lit l := by
  unfold not_lit; split <;> omega

theorem valid_lit_not {s : smt_core_t} (hn : s.nlits = 2 * s.nvars) {l : Int}
    (h : valid_lit s l) : valid_lit s (not_lit l) := by
  refine ⟨not_lit_ge_two h.1, ?_⟩
  have h2 := h.2
  rw [hn] at h2 ⊢
  push_cast at h2 ⊢
  exact not_lit_lt_two_mul _ h2

/-! ### `implied_literal` on a well-formed assignment -/

theorem implied_literal_value_end (s : smt_core_t) (m : Int) (a : antecedent_t) (hm : 0 ≤ m)
    (e : Int) (he : e < 0) : (implied_literal s m a).value e = s.value e :=
  write_end_marker _ _ hm e he

theorem implied_literal_value (s : smt_core_t) (l : Int) (a : antecedent_t) :
    (implied_literal s l a).value = upd (upd s.value l VAL_TRUE) (not_lit l) VAL_FALSE := rfl

theorem implied_literal_lit (s : smt_core_t) (l : Int) (a : antecedent_t) :
    (implied_literal s l a).stack.lit = s.stack.lit ++ [l] := rfl

theorem implied_literal_value_self (s : smt_core_t) (l : Int) (a : antecedent_t) :
    (implied_literal s l a).value l = VAL_TRUE := by
  rw [implied_literal_value, upd_ne _ _ (not_lit_ne l).symm, upd_same]

theorem implied_literal_value_not (s : smt_core_t) (l : Int) (a : antecedent_t) :
    (implied_literal s l a).value (not_lit l) = VAL_FALSE := by
  rw [implied_literal_value, upd_same]

theorem implied_literal_value_other (s : smt_core_t) (l : Int) (a : antecedent_t) {x : Int}
    (h1 : x ≠ l) (h2 : x ≠ not_lit l) : (implied_literal s l a).value x = s.value x := by
  rw [implied_literal_value, upd_ne _ _ h2, upd_ne _ _ h1]

/-- Assigned literals keep their value when an unassigned literal is implied. -/
theorem implied_literal_value_assigned {s : smt_core_t} (h : AssignInv s) {l : Int}
    (hl : valid_lit s l) (hu : s.value l = VAL_UNDEF) (a : antecedent_t) {x : Int}
    (hx : s.value x ≠ VAL_UNDEF) : (implied_literal s l a).value x = s.value x := by
  apply implied_literal_value_other
  · rintro rfl; exact hx hu
  · rintro rfl; exact hx ((valSym_undef_iff h.sym (valid_nonneg hl) hl.2).2 hu)

theorem assignInv_implied {s : smt_core_t} (h : AssignInv s) {l : Int} (hl : valid_lit s l)
    (hu : s.value l = VAL_UNDEF) (a : antecedent_t) : AssignInv (implied_literal s l a) := by
  have hnl : s.value (not_lit l) = VAL_UNDEF := (valSym_undef_iff h.sym (valid_nonneg hl) hl.2).2 hu
  have hnotin : l ∉ s.stack.lit := fun hin => by
    have := (h.trail_true l hl.1 hl.2).2 hin
    rw [hu] at this; exact absurd this (by decide)
  constructor
  · exact h.nlits_eq
  · exact ValSym.assign h.sym l
  · rw [implied_literal_value_end _ _ _ (valid_nonneg hl) _ (by decide)]; exact h.end1
  · rw [implied_literal_value_end _ _ _ (valid_nonneg hl) _ (by decide)]; exact h.end2
  · intro x hx
    rw [implied_literal_lit] at hx
    rcases List.mem_append.1 hx with hx | hx
    · exact h.trail_valid x hx
    · simp at hx; subst hx; exact hl
  · intro x hx0 hxn
    have hx2 : valid_lit s x := ⟨hx0, hxn⟩
    rw [implied_literal_lit, List.mem_append, List.mem_singleton]
    by_cases e1 : x = l
    · subst e1
      simp [implied_literal_value_self]
    · by_cases e2 : x = not_lit l
      · subst e2
        rw [implied_literal_value_not]
        constructor
        · intro hh; exact absurd hh (by decide)
        · rintro (hin | he)
          · have := (h.trail_true _ hx2.1 hx2.2).2 hin
            rw [hnl] at this; exact absurd this (by decide)
          · exact absurd he e1
      · rw [implied_literal_value_other _ _ _ e1 e2, h.trail_true x hx2.1 hx2.2]
        simp [e1]
  · rw [implied_literal_lit]
    exact List.Nodup.append h.trail_nodup (List.nodup_singleton l)
      (by intro x hx hx2; rw [List.mem_singleton] at hx2; subst hx2; exact hnotin hx)

/-! ### Binary-vector propagation (C3) -/

theorem bin_vector_refines (ms : List Int) (s : smt_core_t) (l0 : Int)
    (hend : s.value null_literal = VAL_UNDEF) (hms : ∀ m ∈ ms, 0 ≤ m) :
    propagation_via_bin_vector s l0 (ms ++ [null_literal]) = bin_walk_spec s l0 ms := by
  induction ms generalizing s with
  | nil =>
    simp [propagation_via_bin_vector, bin_walk_spec, hend, null_literal]
  | cons m ms ih =>
    have hm : 0 ≤ m := hms m (List.mem_cons_self _ _)
    have hms2 : ∀ x ∈ ms, 0 ≤ x := fun x hx => hms x (List.mem_cons_of_mem _ hx)
    have hnot : ¬ m < 0 := by omega
    rw [List.cons_append, propagation_via_bin_vector, bin_walk_spec]
    cases hv : s.value m with
    | VAL_TRUE => simpa using ih s hend hms2
    | VAL_UNDEF =>
      simp only [hnot, if_false, reduceCtorEq, if_true]
      exact ih _ (by rw [implied_literal_value_end _ _ _ hm _ (by decide)]; exact hend) hms2
    | VAL_FALSE => simp [hnot]

/-! ### More literal arithmetic -/

theorem var_of_eq_iff (x y : Int) : var_of x = var_of y ↔ x = y ∨ x = not_lit y := by
  unfold var_of not_lit; split <;> omega

theorem pos_lit_var_of (l : Int) : pos_lit (var_of l) = l ∨ pos_lit (var_of l) = not_lit l := by
  unfold var_of not_lit pos_lit; split <;> omega

theorem var_of_pos_lit (x : Int) : var_of (pos_lit x) = x := by
  unfold var_of pos_lit; omega

theorem valid_lit_pos_lit {s : smt_core_t} (hn : s.nlits = 2 * s.nvars) {x : Int} (h0 : 1 ≤ x)
    (h1 : x < s.nvars) : valid_lit s (pos_lit x) := by
  unfold valid_lit pos_lit; rw [hn]; push_cast; omega

/-! ### The assignment stack -/

theorem takeWhile_append_of_false {α : Type} (p : α → Bool) {tr : List α} {x : α} (ys : List α)
    (h : x ∈ tr) (hx : p x = false) : (tr ++ ys).takeWhile p = tr.takeWhile p := by
  induction tr with
  | nil => cases h
  | cons a tr ih =>
    rw [List.cons_append, List.takeWhile_cons, List.takeWhile_cons]
    by_cases hp : p a = true
    · rcases List.mem_cons.1 h with e | e
      · rw [e, hp] at hx; cases hx
      · rw [hp, ih e]
    · simp [hp]

theorem takeWhile_append_last {α : Type} (p : α → Bool) {tr : List α} {z : α}
    (h : ∀ x ∈ tr, p x = true) (hz : p z = false) : (tr ++ [z]).takeWhile p = tr := by
  induction tr with
  | nil => rw [List.nil_append, List.takeWhile_cons, hz]; rfl
  | cons a tr ih =>
    rw [List.cons_append, List.takeWhile_cons, h a (List.mem_cons_self _ _),
      ih (fun x hx => h x (List.mem_cons_of_mem _ hx))]
    rfl

theorem takeWhile_append_of_mem {tr : List Int} {x : Int} (ys : List Int) (h : x ∈ tr) :
    (tr ++ ys).takeWhile (fun y => decide (y ≠ x)) = tr.takeWhile (fun y => decide (y ≠ x)) :=
  takeWhile_append_of_false _ ys h (by simp)

theorem takeWhile_append_new {tr : List Int} {x : Int} (h : x ∉ tr) :
    (tr ++ [x]).takeWhile (fun y => decide (y ≠ x)) = tr :=
  takeWhile_append_last _ (fun y hy => by
    have : y ≠ x := fun e => h (e ▸ hy)
    simp [this]) (by simp)

theorem mem_of_mem_takeWhile {tr : List Int} {p : Int → Bool} {x : Int}
    (h : x ∈ tr.takeWhile p) : x ∈ tr :=
  (List.takeWhile_sublist p).subset h

/-- An assigned literal is on the stack or its negation is. -/
theorem assigned_on_trail {s : smt_core_t} (h : AssignInv s) {l : Int} (hl : valid_lit s l)
    (hv : s.value l = VAL_FALSE) : not_lit l ∈ s.stack.lit := by
  have hn := valid_lit_not h.nlits_eq hl
  exact (h.trail_true _ hn.1 hn.2).1 ((valSym_true_iff h.sym (valid_nonneg hl) hl.2).2 hv)

theorem trail_value_true {s : smt_core_t} (h : AssignInv s) {l : Int} (hl : l ∈ s.stack.lit) :
    s.value l = VAL_TRUE :=
  (h.trail_true l (h.trail_valid l hl).1 (h.trail_valid l hl).2).2 hl

theorem trail_value_not {s : smt_core_t} (h : AssignInv s) {l : Int} (hl : l ∈ s.stack.lit) :
    s.value (not_lit l) = VAL_FALSE :=
  (valSym_false_iff h.sym (valid_nonneg (h.trail_valid l hl)) (h.trail_valid l hl).2).2 (trail_value_true h hl)

/-- The variable of an unassigned literal differs from the variables of the stack. -/
theorem var_ne_of_undef {s : smt_core_t} (h : AssignInv s) {l x : Int} (hl : valid_lit s l)
    (hu : s.value l = VAL_UNDEF) (hx : x ∈ s.stack.lit) : var_of x ≠ var_of l := by
  intro e
  have hxv := trail_value_true h hx
  rcases (var_of_eq_iff x l).1 e with e | e
  · rw [e, hu] at hxv; exact absurd hxv (by decide)
  · rw [e, (valSym_undef_iff h.sym (valid_nonneg hl) hl.2).2 hu] at hxv; exact absurd hxv (by decide)

/-! ### Monotone change of the assignment -/

theorem Extends.ext_stored {s t : smt_core_t} (h : Extends s t) : stored t = stored s := by
  unfold SmtCore.stored; rw [h.problem, h.learned]

theorem Extends.ext_active {s t : smt_core_t} (h : Extends s t) {c : Nat} (hc : active s c) :
    active t c := by
  unfold SmtCore.active at hc ⊢
  rw [h.ext_stored, h.clauses]; exact hc

theorem Extends.ext_valid {s t : smt_core_t} (h : Extends s t) {l : Int} (hl : valid_lit s l) :
    valid_lit t l := by
  unfold valid_lit at hl ⊢; rw [h.nlits]; exact hl

theorem Extends.ext_value_false {s t : smt_core_t} (h : Extends s t) {x : Int}
    (hx : s.value x = VAL_FALSE) : t.value x = VAL_FALSE := by
  rw [h.value x (by rw [hx]; decide), hx]

theorem Extends.ext_value_true {s t : smt_core_t} (h : Extends s t) {x : Int}
    (hx : s.value x = VAL_TRUE) : t.value x = VAL_TRUE := by
  rw [h.value x (by rw [hx]; decide), hx]

theorem ante_ok_mono {s t : smt_core_t} (h : Extends s t) {tr tr2 : List Int} (htr : tr ⊆ tr2)
    {l : Int} {a : antecedent_t} (ha : ante_ok s tr l a) : ante_ok t tr2 l a := by
  cases a with
  | literal m =>
    unfold ante_ok at ha ⊢
    rcases ha with ha | ⟨h1, h2, h3⟩
    · exact Or.inl ha
    · exact Or.inr ⟨h.ext_valid h1, h.ext_value_false h2, htr h3⟩
  | clause0 c =>
    unfold ante_ok at ha ⊢
    obtain ⟨h1, h2, h3⟩ := ha
    rw [h.clauses]
    exact ⟨h.ext_active h1, h2, fun k hk hk0 => ⟨h.ext_value_false (h3 k hk hk0).1, htr (h3 k hk hk0).2⟩⟩
  | clause1 c =>
    unfold ante_ok at ha ⊢
    obtain ⟨h1, h2, h3⟩ := ha
    rw [h.clauses]
    exact ⟨h.ext_active h1, h2, fun k hk hk0 => ⟨h.ext_value_false (h3 k hk hk0).1, htr (h3 k hk hk0).2⟩⟩
  | generic e =>
    unfold ante_ok at ha ⊢
    rw [h.expand]
    exact fun m hm => ⟨h.ext_valid (ha m hm).1, h.ext_value_true (ha m hm).2.1, htr (ha m hm).2.2⟩

theorem extends_implied {s : smt_core_t} (h : AssignInv s) {l : Int} (hl : valid_lit s l)
    (hu : s.value l = VAL_UNDEF) (a : antecedent_t) : Extends s (implied_literal s l a) :=
  ⟨rfl, rfl, rfl, rfl, rfl, rfl, fun _ hx => implied_literal_value_assigned h hl hu a hx⟩

/-! ### `implied_literal` preserves the invariants -/

theorem clauseInv_implied {s : smt_core_t} (h : ClauseInv s) (l : Int) (a : antecedent_t) :
    ClauseInv (implied_literal s l a) :=
  ⟨h.len, h.valid, h.distinct⟩

theorem watchInvW_implied {s : smt_core_t} {w : Int → List link_t} (h : WatchInvW s w) (l : Int)
    (a : antecedent_t) : WatchInvW (implied_literal s l a) w :=
  ⟨h.nodup, h.sound, h.complete⟩

theorem binInv_implied {s : smt_core_t} (h : BinInv s) (l : Int) (a : antecedent_t) :
    BinInv (implied_literal s l a) := h

theorem implied_literal_level (s : smt_core_t) (l : Int) (a : antecedent_t) :
    (implied_literal s l a).level = upd s.level (var_of l) s.decision_level := rfl

theorem levelInv_implied {s : smt_core_t} (hA : AssignInv s) (h : LevelInv s) {l : Int}
    (hl : valid_lit s l) (hu : s.value l = VAL_UNDEF) (a : antecedent_t) :
    LevelInv (implied_literal s l a) := by
  have hne : ∀ x ∈ s.stack.lit, var_of x ≠ var_of l := fun x hx => var_ne_of_undef hA hl hu hx
  have hlev : ∀ x ∈ s.stack.lit, (implied_literal s l a).level (var_of x) = s.level (var_of x) :=
    fun x hx => by rw [implied_literal_level, upd_ne _ _ (hne x hx)]
  have hlevl : (implied_literal s l a).level (var_of l) = s.decision_level := by
    rw [implied_literal_level, upd_same]
  constructor
  · exact h.base_le
  · intro x hx
    rw [implied_literal_lit] at hx
    rcases List.mem_append.1 hx with hx | hx
    · rw [hlev x hx]; exact h.le_dl x hx
    · rw [List.mem_singleton] at hx; subst hx; rw [hlevl]; exact Nat.le_refl _
  · rw [implied_literal_lit, List.pairwise_append]
    refine ⟨?_, List.pairwise_singleton _ _, ?_⟩
    · refine h.sorted.imp_of_mem ?_
      intro x y hx hy hxy
      rw [hlev x hx, hlev y hy]; exact hxy
    · intro x hx y hy
      rw [List.mem_singleton] at hy; subst hy
      rw [hlev x hx, hlevl]; exact h.le_dl x hx
  · intro k hk
    have := h.index_le k hk
    show s.stack.level_index k ≤ (s.stack.lit ++ [l]).length
    rw [List.length_append]
    exact Nat.le_trans this (Nat.le_add_right _ _)
  · intro k hk
    have hle := h.index_le k hk
    show List.take (s.stack.level_index k) (s.stack.lit ++ [l]) = _
    rw [List.take_append_of_le_length hle, h.index k hk, implied_literal_lit,
      List.filter_append]
    have e1 : List.filter (fun x => decide ((implied_literal s l a).level (var_of x) < k)) [l]
        = [] := by
      rw [List.filter_cons, hlevl]
      have hk2 : k ≤ s.decision_level := hk
      have : ¬ s.decision_level < k := by omega
      simp [this]
    rw [e1, List.append_nil]
    apply List.filter_congr
    intro x hx
    rw [hlev x hx]

theorem anteInv_implied {s : smt_core_t} (hA : AssignInv s) (h : AnteInv s) {l : Int}
    (hl : valid_lit s l) (hu : s.value l = VAL_UNDEF) {a : antecedent_t}
    (ha : ante_ok s s.stack.lit l a) : AnteInv (implied_literal s l a) := by
  have hext := extends_implied hA hl hu a
  have hnotin : l ∉ s.stack.lit := fun hin => by
    have := trail_value_true hA hin
    rw [hu] at this; exact absurd this (by decide)
  intro x hx
  rw [implied_literal_lit] at hx ⊢
  rcases List.mem_append.1 hx with hx | hx
  · rw [takeWhile_append_of_mem _ hx]
    have e : (implied_literal s l a).antecedent (var_of x) = s.antecedent (var_of x) :=
      upd_ne _ _ (var_ne_of_undef hA hl hu hx)
    rw [e]
    exact ante_ok_mono hext (fun _ hy => hy) (h x hx)
  · rw [List.mem_singleton] at hx; subst hx
    rw [takeWhile_append_new hnotin]
    have e : (implied_literal s x a).antecedent (var_of x) = a := upd_same _ _ _
    rw [e]
    exact ante_ok_mono hext (fun _ hy => hy) ha

theorem markInv_implied {s : smt_core_t} (hA : AssignInv s) (hL : LevelInv s) (h : MarkInv s)
    {l : Int} (hl : valid_lit s l) (hu : s.value l = VAL_UNDEF) (a : antecedent_t) :
    MarkInv (implied_literal s l a) := by
  intro x hx0 hxn
  have hxn2 : x < s.nvars := hxn
  have hold := h x hx0 hxn2
  by_cases e : x = var_of l
  · have hposu : s.value (pos_lit x) = VAL_UNDEF := by
      rcases pos_lit_var_of l with e2 | e2
      · rw [e, e2]; exact hu
      · rw [e, e2]; exact (valSym_undef_iff hA.sym (valid_nonneg hl) hl.2).2 hu
    have hpos : (implied_literal s l a).value (pos_lit x) ≠ VAL_UNDEF := by
      rcases pos_lit_var_of l with e2 | e2
      · rw [e, e2, implied_literal_value_self]; decide
      · rw [e, e2, implied_literal_value_not]; decide
    have hlev : (implied_literal s l a).level x = s.decision_level := by
      rw [implied_literal_level, e, upd_same]
    have hmf : s.mark x = false := by
      cases hm : s.mark x with
      | false => rfl
      | true => exact absurd hposu (hold.1 hm).1
    have hb := hL.base_le
    show (if s.decision_level = s.base_level then upd s.mark (var_of l) true else s.mark) x = true ↔ _
    rw [hlev]
    show _ ↔ (_ ∧ s.decision_level ≤ s.base_level)
    by_cases hd : s.decision_level = s.base_level
    · rw [if_pos hd, e, upd_same]
      exact ⟨fun _ => ⟨by rw [← e]; exact hpos, Nat.le_of_eq hd⟩, fun _ => rfl⟩
    · rw [if_neg hd, hmf]
      constructor
      · intro hh; exact absurd hh (by decide)
      · intro hh; exact absurd (Nat.le_antisymm hh.2 hb) hd
  · have hv : (implied_literal s l a).value (pos_lit x) = s.value (pos_lit x) := by
      apply implied_literal_value_other
      · intro e2; apply e; rw [← e2, var_of_pos_lit]
      · intro e2; apply e; rw [← var_of_not_lit l, ← e2, var_of_pos_lit]
    have hlev : (implied_literal s l a).level x = s.level x := upd_ne _ _ e
    have hm : (implied_literal s l a).mark x = s.mark x := by
      show (if s.decision_level = s.base_level then upd s.mark (var_of l) true else s.mark) x = _
      split
      · exact upd_ne _ _ e
      · rfl
    rw [hv, hlev, hm]; exact hold

theorem propagated_implied {s : smt_core_t} (hA : AssignInv s) (hC : ClauseInv s) {i : Nat}
    (h : Propagated s i) (hi : i ≤ s.stack.top) {l : Int} (hl : valid_lit s l)
    (hu : s.value l = VAL_UNDEF) (a : antecedent_t) : Propagated (implied_literal s l a) i := by
  have hext := extends_implied hA hl hu a
  intro c hc hr j hj hf hin
  have hc2 : c ∈ stored s := hc
  have hr2 : is_clause_to_be_removed (s.clauses c) = false := hr
  rw [implied_literal_lit, List.take_append_of_le_length hi] at hin
  have hjlen : j < (s.clauses c).cl.length := Nat.lt_of_lt_of_le hj (hC.len c hc2 hr2)
  have hval := hC.valid c hc2 hr2 j hjlen
  have hmem : not_lit ((s.clauses c).get j) ∈ s.stack.lit := List.mem_of_mem_take hin
  have hf2 : s.value ((s.clauses c).get j) = VAL_FALSE := by
    have := trail_value_not hA hmem
    rwa [not_lit_not_lit] at this
  exact hext.ext_value_true (h c hc2 hr2 j hj hf2 hin)

theorem coreInv_implied {s : smt_core_t} (h : CoreInv s) {l : Int} (hl : valid_lit s l)
    (hu : s.value l = VAL_UNDEF) {a : antecedent_t} (ha : ante_ok s s.stack.lit l a) :
    CoreInv (implied_literal s l a) :=
  ⟨assignInv_implied h.assign hl hu a, clauseInv_implied h.clause l a,
   watchInvW_implied h.watch l a, binInv_implied h.bin l a,
   levelInv_implied h.assign h.level hl hu a, anteInv_implied h.assign h.ante hl hu ha,
   markInv_implied h.assign h.level h.mark hl hu a⟩

/-! ### Frame lemmas -/

theorem Grows.refl (s : smt_core_t) : Grows s s :=
  ⟨rfl, rfl, rfl, rfl, rfl, rfl, rfl, rfl, ⟨[], (List.append_nil _).symm⟩, fun _ _ => rfl, rfl, rfl⟩

theorem Grows.trans {s t u : smt_core_t} (h1 : Grows s t) (h2 : Grows t u) : Grows s u := by
  obtain ⟨n1, e1⟩ := h1.trail
  obtain ⟨n2, e2⟩ := h2.trail
  refine ⟨h2.nlits.trans h1.nlits, h2.nvars.trans h1.nvars, h2.problem.trans h1.problem,
    h2.learned.trans h1.learned, h2.expand.trans h1.expand, h2.bin.trans h1.bin,
    h2.dl.trans h1.dl, h2.bl.trans h1.bl, ⟨n1 ++ n2, ?_⟩, ?_, h2.tc.trans h1.tc,
    h2.alloc.trans h1.alloc⟩
  · rw [e2, e1, List.append_assoc]
  · intro x hx
    have := h1.value x hx
    rw [h2.value x (by rw [this]; exact hx), this]

theorem Grows.valid {s t : smt_core_t} (h : Grows s t) {l : Int} (hl : valid_lit s l) :
    valid_lit t l := by
  unfold valid_lit at hl ⊢; rw [h.nlits]; exact hl

theorem Grows.top_le {s t : smt_core_t} (h : Grows s t) : s.stack.top ≤ t.stack.top := by
  obtain ⟨n, e⟩ := h.trail
  unfold prop_stack_t.top
  rw [e, List.length_append]; exact Nat.le_add_right _ _

theorem Grows.take {s t : smt_core_t} (h : Grows s t) {i : Nat} (hi : i ≤ s.stack.top) :
    t.stack.lit.take i = s.stack.lit.take i := by
  obtain ⟨n, e⟩ := h.trail
  rw [e, List.take_append_of_le_length hi]

theorem Grows.getD {s t : smt_core_t} (h : Grows s t) {i : Nat} (hi : i < s.stack.top) :
    t.stack.lit.getD i 0 = s.stack.lit.getD i 0 := by
  obtain ⟨n, e⟩ := h.trail
  rw [e, List.getD_eq_getElem?_getD, List.getD_eq_getElem?_getD, List.getElem?_append_left hi]

theorem Grows.value_false {s t : smt_core_t} (h : Grows s t) {x : Int}
    (hx : s.value x = VAL_FALSE) : t.value x = VAL_FALSE := by
  rw [h.value x (by rw [hx]; decide), hx]

theorem Grows.value_true {s t : smt_core_t} (h : Grows s t) {x : Int}
    (hx : s.value x = VAL_TRUE) : t.value x = VAL_TRUE := by
  rw [h.value x (by rw [hx]; decide), hx]

theorem grows_implied {s : smt_core_t} (h : AssignInv s) {l : Int} (hl : valid_lit s l)
    (hu : s.value l = VAL_UNDEF) (a : antecedent_t) : Grows s (implied_literal s l a) :=
  ⟨rfl, rfl, rfl, rfl, rfl, rfl, rfl, rfl, ⟨[l], rfl⟩,
    fun _ hx => implied_literal_value_assigned h hl hu a hx, rfl, rfl⟩

/-- The invariants only read the fields listed here. -/
theorem coreInv_of_frame {s t : smt_core_t} (h : CoreInv s) (e1 : t.nlits = s.nlits)
    (e2 : t.nvars = s.nvars) (e3 : t.value = s.value) (e4 : t.stack.lit = s.stack.lit)
    (e4b : t.stack.level_index = s.stack.level_index)
    (e5 : t.clauses = s.clauses) (e6 : t.problem_clauses = s.problem_clauses)
    (e7 : t.learned_clauses = s.learned_clauses) (e8 : t.watch = s.watch) (e9 : t.bin = s.bin)
    (e10 : t.level = s.level) (e11 : t.antecedent = s.antecedent) (e12 : t.mark = s.mark)
    (e13 : t.expand = s.expand) (e14 : t.decision_level = s.decision_level)
    (e15 : t.base_level = s.base_level) : CoreInv t := by
  have est : stored t = stored s := by unfold stored; rw [e6, e7]
  have hext : Extends s t := ⟨e1, e2, e5, e6, e7, e13, fun x _ => by rw [e3]⟩
  constructor
  · constructor
    · rw [e1, e2]; exact h.assign.nlits_eq
    · rw [e1, e3]; exact h.assign.sym
    · rw [e3]; exact h.assign.end1
    · rw [e3]; exact h.assign.end2
    · rw [e4]; intro l hl; exact hext.ext_valid (h.assign.trail_valid l hl)
    · rw [e1, e3, e4]; exact h.assign.trail_true
    · rw [e4]; exact h.assign.trail_nodup
  · constructor
    · rw [est, e5]; exact h.clause.len
    · rw [est, e5]; intro c hc hr k hk; exact hext.ext_valid (h.clause.valid c hc hr k hk)
    · rw [est, e5]; exact h.clause.distinct
  · unfold WatchInv
    constructor
    · rw [e1, e8]; exact h.watch.nodup
    · rw [e1, e8, e5]; intro l h0 hl lnk hlnk
      obtain ⟨a, b, c⟩ := h.watch.sound l h0 hl lnk hlnk
      exact ⟨hext.ext_active a, b, c⟩
    · rw [est, e5, e8]; exact h.watch.complete
  · unfold BinInv
    rw [e1, e9]; intro l h0 hl m hm; exact hext.ext_valid (h.bin l h0 hl m hm)
  · constructor
    · rw [e14, e15]; exact h.level.base_le
    · rw [e4, e10, e14]; exact h.level.le_dl
    · rw [e4, e10]; exact h.level.sorted
    · unfold prop_stack_t.top; rw [e4, e4b, e14]; exact h.level.index_le
    · rw [e4, e4b, e10, e14]; exact h.level.index
  · unfold AnteInv
    rw [e4, e11]
    intro l hl
    exact ante_ok_mono hext (fun _ hy => hy) (h.ante l hl)
  · unfold MarkInv
    rw [e2, e3, e10, e12, e15]; exact h.mark

theorem propagated_of_frame {s t : smt_core_t} {i : Nat} (h : Propagated s i)
    (e3 : t.value = s.value) (e4 : t.stack.lit = s.stack.lit)
    (e5 : t.clauses = s.clauses) (e6 : t.problem_clauses = s.problem_clauses)
    (e7 : t.learned_clauses = s.learned_clauses) : Propagated t i := by
  have est : stored t = stored s := by unfold stored; rw [e6, e7]
  unfold Propagated
  rw [est, e3, e4, e5]; exact h

/-! ### Walk of a binary vector -/

theorem coreInv_record_binary_conflict {s : smt_core_t} (h : CoreInv s) (l0 l1 : Int) :
    CoreInv (record_binary_conflict s l0 l1) :=
  coreInv_of_frame h rfl rfl rfl rfl rfl rfl rfl rfl rfl rfl rfl rfl rfl rfl rfl rfl

/-- Result of the walk of `bin[l0]` on a state that satisfies the invariants. -/
theorem bin_walk_inv (ms : List Int) (s : smt_core_t) (l0 : Int) (i : Nat) (h : CoreInv s)
    (hl0 : valid_lit s l0) (hf : s.value l0 = VAL_FALSE) (hms : ∀ m ∈ ms, valid_lit s m)
    (hP : Propagated s i) (hi : i ≤ s.stack.top) :
    CoreInv (bin_walk_spec s l0 ms).2 ∧ Grows s (bin_walk_spec s l0 ms).2 ∧
    Propagated (bin_walk_spec s l0 ms).2 i ∧
    (bin_walk_spec s l0 ms).2.clauses = s.clauses ∧
    (bin_walk_spec s l0 ms).2.watch = s.watch ∧
    (bin_walk_spec s l0 ms).2.stack.prop_ptr = s.stack.prop_ptr ∧
    ((bin_walk_spec s l0 ms).1 = true →
      ∀ m ∈ ms, (bin_walk_spec s l0 ms).2.value m = VAL_TRUE) ∧
    ((bin_walk_spec s l0 ms).1 = false →
      (bin_walk_spec s l0 ms).2.inconsistent = true ∧
      ∃ m ∈ ms, (bin_walk_spec s l0 ms).2.value m = VAL_FALSE ∧
        (bin_walk_spec s l0 ms).2.conflict.take 3 = [l0, m, end_clause]) := by
  induction ms generalizing s with
  | nil =>
    refine ⟨h, Grows.refl s, hP, rfl, rfl, rfl, ?_, ?_⟩
    · intro _ m hm; cases hm
    · intro hh; cases hh
  | cons m ms ih =>
    have hm : valid_lit s m := hms m (List.mem_cons_self _ _)
    have hms2 : ∀ x ∈ ms, valid_lit s x := fun x hx => hms x (List.mem_cons_of_mem _ hx)
    unfold bin_walk_spec
    cases hv : s.value m with
    | VAL_TRUE =>
      simp only []
      obtain ⟨a1, a2, a3, a4, a5, a6, a7, a8⟩ := ih s h hl0 hf hms2 hP hi
      refine ⟨a1, a2, a3, a4, a5, a6, ?_, ?_⟩
      · intro hr x hx
        rcases List.mem_cons.1 hx with e | e
        · rw [e]; exact a2.value_true hv
        · exact a7 hr x e
      · intro hr
        obtain ⟨b1, x, hx, b2, b3⟩ := a8 hr
        exact ⟨b1, x, List.mem_cons_of_mem _ hx, b2, b3⟩
    | VAL_UNDEF =>
      simp only []
      have hg := grows_implied h.assign hm hv (mk_literal_antecedent l0)
      have hante : ante_ok s s.stack.lit m (mk_literal_antecedent l0) :=
        Or.inr ⟨hl0, hf, assigned_on_trail h.assign hl0 hf⟩
      have h2 := coreInv_implied h hm hv hante
      have hP2 := propagated_implied h.assign h.clause hP hi hm hv (mk_literal_antecedent l0)
      obtain ⟨a1, a2, a3, a4, a5, a6, a7, a8⟩ :=
        ih (implied_literal s m (mk_literal_antecedent l0)) h2 (hg.valid hl0) (hg.value_false hf)
          (fun x hx => hg.valid (hms2 x hx)) hP2 (Nat.le_trans hi hg.top_le)
      refine ⟨a1, hg.trans a2, a3, a4, a5, a6, ?_, ?_⟩
      · intro hr x hx
        rcases List.mem_cons.1 hx with e | e
        · rw [e]; exact a2.value_true (implied_literal_value_self _ _ _)
        · exact a7 hr x e
      · intro hr
        obtain ⟨b1, x, hx, b2, b3⟩ := a8 hr
        exact ⟨b1, x, List.mem_cons_of_mem _ hx, b2, b3⟩
    | VAL_FALSE =>
      simp only []
      refine ⟨coreInv_record_binary_conflict h l0 m, ?_, ?_, rfl, rfl, rfl, ?_, ?_⟩
      · exact ⟨rfl, rfl, rfl, rfl, rfl, rfl, rfl, rfl, ⟨[], (List.append_nil _).symm⟩,
          fun _ _ => rfl, rfl, rfl⟩
      · exact propagated_of_frame hP rfl rfl rfl rfl rfl
      · intro hh; cases hh
      · intro _
        exact ⟨rfl, m, List.mem_cons_self _ _, hv, rfl⟩

theorem coreInv_sample_bin : CoreInv sample_bin := by
  refine ⟨⟨by decide, by decide, by decide, by decide, by decide, by decide, by decide⟩,
    ⟨by decide, by decide, by decide⟩, ⟨by decide, by decide, by decide⟩, ?_,
    ⟨by decide, by decide, by decide, by decide, by decide⟩, ?_, ?_⟩
  · unfold BinInv; decide
  · unfold AnteInv; decide
  · unfold MarkInv; decide

theorem scan_false_found (val : Int → bval_t) (pre : List Int) (l : Int) (post : List Int)
    (k : Nat) (hpre : ∀ x ∈ pre, val x = VAL_FALSE) (hl : val l ≠ VAL_FALSE) :
    scan_false val (pre ++ l :: post) k = (k + pre.length, l) := by
  induction pre generalizing k with
  | nil => simp [scan_false, hl]
  | cons a pre ih =>
    have ha : val a = VAL_FALSE := hpre a (List.mem_cons_self _ _)
    rw [List.cons_append, scan_false, if_pos ha,
      ih (k + 1) (fun x hx => hpre x (List.mem_cons_of_mem _ hx))]
    simp only [List.length_cons, Prod.mk.injEq, and_true]
    omega

theorem clause_get_lt (c : clause_t) {k : Nat} (h : k < c.cl.length) :
    c.get k = c.cl[k] := by
  unfold clause_t.get
  rw [List.getD_eq_getElem?_getD, List.getElem?_eq_getElem h]; rfl

theorem clause_get_ge (c : clause_t) {k : Nat} (h : c.cl.length ≤ k) :
    c.get k = c.end_marker := by
  unfold clause_t.get
  rw [List.getD_eq_getElem?_getD, List.getElem?_eq_none h]; rfl

theorem end_marker_cases (c : clause_t) : c.end_marker = -1 ∨ c.end_marker = -2 := by
  unfold clause_t.end_marker end_learned end_clause
  split <;> simp

theorem end_marker_neg (c : clause_t) : c.end_marker < 0 := by
  rcases end_marker_cases c with h | h <;> rw [h] <;> decide

/-- The part of the array `cl->cl` from index 2 on, split at index `k`. -/
theorem array_drop_split (c : clause_t) {k : Nat} (h2 : 2 ≤ k) (hk : k ≤ c.cl.length) :
    c.array.drop 2 = (c.cl.drop 2).take (k - 2) ++ c.get k :: c.array.drop (k + 1) := by
  unfold clause_t.array
  have e : c.get k = (c.cl ++ [c.end_marker]).getD k 0 := by
    rw [List.getD_eq_getElem?_getD]
    rcases Nat.lt_or_ge k c.cl.length with h | h
    · rw [List.getElem?_append_left h, clause_get_lt c h, List.getElem?_eq_getElem h]; rfl
    · have : k = c.cl.length := Nat.le_antisymm hk h
      rw [clause_get_ge c h, this, List.getElem?_append_right (Nat.le_refl _)]
      simp
  have hlen : k < (c.cl ++ [c.end_marker]).length := by
    rw [List.length_append]; simp; omega
  rw [e, List.getD_eq_getElem?_getD, List.getElem?_eq_getElem hlen]
  simp only [Option.getD_some]
  have h1 : List.drop 2 (c.cl ++ [c.end_marker])
      = List.take (k - 2) (List.drop 2 (c.cl ++ [c.end_marker]))
        ++ List.drop (k - 2) (List.drop 2 (c.cl ++ [c.end_marker])) :=
    (List.take_append_drop _ _).symm
  rw [List.drop_drop] at h1
  have h3 : 2 + (k - 2) = k := by omega
  rw [h3, List.drop_eq_getElem_cons hlen] at h1
  have h4 : List.take (k - 2) (List.drop 2 (c.cl ++ [c.end_marker]))
      = List.take (k - 2) (List.drop 2 c.cl) := by
    rw [List.drop_append_of_le_length (by omega), List.take_append_of_le_length]
    rw [List.length_drop]; omega
  rw [h4] at h1
  exact h1

theorem mem_take_drop_two (c : clause_t) {k : Nat} {x : Int}
    (hx : x ∈ (c.cl.drop 2).take (k - 2)) : ∃ j, 2 ≤ j ∧ j < k ∧ j < c.cl.length ∧ x = c.get j := by
  obtain ⟨n, hn, e⟩ := List.mem_iff_getElem.1 hx
  rw [List.length_take, List.length_drop] at hn
  refine ⟨n + 2, by omega, by omega, by omega, ?_⟩
  rw [clause_get_lt c (by omega), ← e, List.getElem_take, List.getElem_drop]
  congr 1; omega

/-- The scan stops at the first index `k ≥ 2` whose literal is not false. -/
theorem scan_false_clause_found (val : Int → bval_t) (c : clause_t) (k : Nat) (h2 : 2 ≤ k)
    (hk : k ≤ c.cl.length) (hv : val (c.get k) ≠ VAL_FALSE)
    (hbefore : ∀ j, 2 ≤ j → j < k → val (c.get j) = VAL_FALSE) :
    scan_false val (c.array.drop 2) 2 = (k, c.get k) := by
  rw [array_drop_split c h2 hk, scan_false_found val _ _ _ 2 ?_ hv]
  · rw [List.length_take, List.length_drop]
    congr 1; omega
  · intro x hx
    obtain ⟨j, hj2, hjk, -, e⟩ := mem_take_drop_two c hx
    rw [e]; exact hbefore j hj2 hjk

/-- When every literal from index 2 on is false the scan stops on the end
marker, whose value is Undef. -/
theorem scan_false_clause_end (val : Int → bval_t) (c : clause_t) (h2 : 2 ≤ c.cl.length)
    (h1 : val (-1) = VAL_UNDEF) (hm2 : val (-2) = VAL_UNDEF)
    (hall : ∀ j, 2 ≤ j → j < c.cl.length → val (c.get j) = VAL_FALSE) :
    scan_false val (c.array.drop 2) 2 = (c.cl.length, c.end_marker) := by
  have hv : val (c.get c.cl.length) ≠ VAL_FALSE := by
    rw [clause_get_ge c (Nat.le_refl _)]
    rcases end_marker_cases c with h | h <;> rw [h]
    · rw [h1]; decide
    · rw [hm2]; decide
  have := scan_false_clause_found val c c.cl.length h2 (Nat.le_refl _) hv hall
  rw [this, clause_get_ge c (Nat.le_refl _)]

/-! ### One clause of a watched list (C2) -/

theorem swap_watch_length (c : clause_t) (i k : Nat) (l : Int) :
    (swap_watch c i k l).cl.length = c.cl.length := by
  unfold swap_watch; simp

theorem swap_watch_end_marker (c : clause_t) (i k : Nat) (l : Int) :
    (swap_watch c i k l).end_marker = c.end_marker := rfl

theorem swap_watch_get (c : clause_t) {i k : Nat} (l : Int) (hi : i < c.cl.length)
    (hk : k < c.cl.length) (j : Nat) :
    (swap_watch c i k l).get j = if j = i then l else if j = k then c.get i else c.get j := by
  rcases Nat.lt_or_ge j c.cl.length with hj | hj
  · rw [clause_get_lt _ (by rw [swap_watch_length]; exact hj)]
    unfold swap_watch
    simp only [List.getElem_set]
    by_cases e1 : j = i
    · simp [e1]
    · by_cases e2 : j = k
      · have e3 : k ≠ i := fun e => e1 (e2.trans e)
        simp [e2, e3, Ne.symm e3]
      · rw [if_neg (Ne.symm e1), if_neg (Ne.symm e2), if_neg e1, if_neg e2, clause_get_lt c hj]
  · rw [clause_get_ge _ (by rw [swap_watch_length]; exact hj), swap_watch_end_marker,
      if_neg (by omega), if_neg (by omega), clause_get_ge c hj]

/-- The branches of one iteration of the loop of `propagation_via_watched_list`. -/
theorem watched_loop_cases (s : smt_core_t) (l0 : Int) (c i : Nat)
    (rest kept : List link_t) (h1 : s.value (-1) = VAL_UNDEF) (h2 : s.value (-2) = VAL_UNDEF)
    (hlen : 2 ≤ (s.clauses c).cl.length)
    (hnn : ∀ k, k < (s.clauses c).cl.length → 0 ≤ (s.clauses c).get k) :
    (s.value (get_other_watch (s.clauses c) i) = VAL_TRUE →
      propagation_via_watched_list_loop l0 ((c, i) :: rest) s kept
        = propagation_via_watched_list_loop l0 rest s ((c, i) :: kept)) ∧
    (∀ k, 2 ≤ k → k < (s.clauses c).cl.length →
      s.value (get_other_watch (s.clauses c) i) ≠ VAL_TRUE →
      s.value ((s.clauses c).get k) ≠ VAL_FALSE →
      (∀ j, 2 ≤ j → j < k → s.value ((s.clauses c).get j) = VAL_FALSE) →
      propagation_via_watched_list_loop l0 ((c, i) :: rest) s kept
        = propagation_via_watched_list_loop l0 rest
            (watch_add
              { s with
                clauses := updN s.clauses c (swap_watch (s.clauses c) i k ((s.clauses c).get k)) }
              ((s.clauses c).get k) (c, i)) kept) ∧
    ((∀ j, 2 ≤ j → j < (s.clauses c).cl.length → s.value ((s.clauses c).get j) = VAL_FALSE) →
      s.value (get_other_watch (s.clauses c) i) = VAL_UNDEF →
      propagation_via_watched_list_loop l0 ((c, i) :: rest) s kept
        = propagation_via_watched_list_loop l0 rest
            (implied_literal s (get_other_watch (s.clauses c) i) (mk_clause_antecedent c (1 - i)))
            ((c, i) :: kept)) ∧
    ((∀ j, 2 ≤ j → j < (s.clauses c).cl.length → s.value ((s.clauses c).get j) = VAL_FALSE) →
      s.value (get_other_watch (s.clauses c) i) = VAL_FALSE →
      propagation_via_watched_list_loop l0 ((c, i) :: rest) s kept
        = (false,
            { record_clause_conflict s c with
              watch := upd s.watch l0 (kept.reverse ++ (c, i) :: rest) })) ∧
    propagation_via_watched_list_loop l0 [] s kept
      = (true, { s with watch := upd s.watch l0 kept.reverse }) := by
  refine ⟨?_, ?_, ?_, ?_, rfl⟩
  · intro hv
    rw [propagation_via_watched_list_loop]
    simp only [hv, if_true]
  · intro k hk2 hk hv1 hvk hbefore
    have hscan := scan_false_clause_found s.value (s.clauses c) k hk2 (Nat.le_of_lt hk) hvk hbefore
    rw [propagation_via_watched_list_loop]
    simp only [hv1, if_false, hscan]
    rw [if_pos (hnn k hk)]
  · intro hall hv1
    have hscan := scan_false_clause_end s.value (s.clauses c) hlen h1 h2 hall
    have hneg : ¬ (s.clauses c).end_marker ≥ 0 := by
      have := end_marker_neg (s.clauses c); omega
    rw [propagation_via_watched_list_loop]
    simp only [hv1, hscan, hneg, if_false, if_true, reduceCtorEq]
  · intro hall hv1
    have hscan := scan_false_clause_end s.value (s.clauses c) hlen h1 h2 hall
    have hneg : ¬ (s.clauses c).end_marker ≥ 0 := by
      have := end_marker_neg (s.clauses c); omega
    rw [propagation_via_watched_list_loop]
    simp only [hv1, hscan, hneg, if_false, reduceCtorEq]
    rfl

/-- C2: one iteration of the loop of `propagation_via_watched_list` on the link
`(c, i)` of `watch[l0]`.  If the other watched literal `c[1-i]` is True the
clause stays on `watch[l0]`.  Otherwise (a) if some `c[k]`, `k ≥ 2`, is not
False, `c[i]` is swapped with the first such `c[k]` and the link moves to the
watch list of that literal; (b) else if `c[1-i]` is Undef it is assigned True
with antecedent `c` tagged `1-i` and the clause stays on `watch[l0]`; (c) else
`c` is recorded as the conflict clause, the loop stops and returns false.  At
the end of the list `watch[l0]` holds the links that stayed, in order. -/
theorem propagation_via_watched_list_step (s : smt_core_t) (l0 : Int) (c i : Nat)
    (rest kept : List link_t) (h1 : s.value (-1) = VAL_UNDEF) (h2 : s.value (-2) = VAL_UNDEF)
    (hlen : 2 ≤ (s.clauses c).cl.length)
    (hnn : ∀ k, k < (s.clauses c).cl.length → 0 ≤ (s.clauses c).get k) :
    (s.value (get_other_watch (s.clauses c) i) = VAL_TRUE →
      propagation_via_watched_list_loop l0 ((c, i) :: rest) s kept
        = propagation_via_watched_list_loop l0 rest s ((c, i) :: kept)) ∧
    (∀ k, 2 ≤ k → k < (s.clauses c).cl.length →
      s.value (get_other_watch (s.clauses c) i) ≠ VAL_TRUE →
      s.value ((s.clauses c).get k) ≠ VAL_FALSE →
      (∀ j, 2 ≤ j → j < k → s.value ((s.clauses c).get j) = VAL_FALSE) →
      propagation_via_watched_list_loop l0 ((c, i) :: rest) s kept
        = propagation_via_watched_list_loop l0 rest
            (watch_add
              { s with
                clauses := updN s.clauses c (swap_watch (s.clauses c) i k ((s.clauses c).get k)) }
              ((s.clauses c).get k) (c, i)) kept) ∧
    ((∀ j, 2 ≤ j → j < (s.clauses c).cl.length → s.value ((s.clauses c).get j) = VAL_FALSE) →
      s.value (get_other_watch (s.clauses c) i) = VAL_UNDEF →
      propagation_via_watched_list_loop l0 ((c, i) :: rest) s kept
        = propagation_via_watched_list_loop l0 rest
            (implied_literal s (get_other_watch (s.clauses c) i) (mk_clause_antecedent c (1 - i)))
            ((c, i) :: kept)) ∧
    ((∀ j, 2 ≤ j → j < (s.clauses c).cl.length → s.value ((s.clauses c).get j) = VAL_FALSE) →
      s.value (get_other_watch (s.clauses c) i) = VAL_FALSE →
      propagation_via_watched_list_loop l0 ((c, i) :: rest) s kept
        = (false,
            { record_clause_conflict s c with
              watch := upd s.watch l0 (kept.reverse ++ (c, i) :: rest) })) ∧
    propagation_via_watched_list_loop l0 [] s kept
      = (true, { s with watch := upd s.watch l0 kept.reverse }) :=
  watched_loop_cases s l0 c i rest kept h1 h2 hlen hnn

theorem propagation_via_watched_list_step_witness :
    (propagation_via_watched_list_loop 3 [(0, 0)] sample_clause []).1 = true ∧
    (propagation_via_watched_list_loop 3 [(0, 0)] sample_clause []).2.watch 6 = [(0, 0)] := by
  have h := (propagation_via_watched_list_step sample_clause 3 0 0 [] [] (by decide) (by decide)
    (by decide) (by decide)).2.1 2 (by decide) (by decide) (by decide) (by decide) (by decide)
  rw [h]
  exact ⟨by decide, by decide⟩

theorem CoreInv.base {s : smt_core_t} (h : CoreInv s) : BaseInv s :=
  ⟨h.assign, h.clause, h.bin, h.level, h.ante, h.mark⟩

theorem coreInv_of_base {s : smt_core_t} (h : BaseInv s) (hw : WatchInv s) : CoreInv s :=
  ⟨h.assign, h.clause, hw, h.bin, h.level, h.ante, h.mark⟩

/-! ### The scan, from its result -/

theorem scan_false_spec (val : Int → bval_t) (b : List Int) (k0 : Nat) :
    (scan_false val b k0).1 ≥ k0 ∧
    (∀ j, j < (scan_false val b k0).1 - k0 → j < b.length → val (b.getD j 0) = VAL_FALSE) ∧
    (((scan_false val b k0).1 - k0 < b.length ∧
        (scan_false val b k0).2 = b.getD ((scan_false val b k0).1 - k0) 0 ∧
        val (scan_false val b k0).2 ≠ VAL_FALSE) ∨
     ((scan_false val b k0).1 - k0 = b.length ∧ (scan_false val b k0).2 = null_literal)) := by
  induction b generalizing k0 with
  | nil =>
    refine ⟨Nat.le_refl _, fun j _ hj => by simp at hj, Or.inr ⟨by simp [scan_false], rfl⟩⟩
  | cons a b ih =>
    unfold scan_false
    by_cases ha : val a = VAL_FALSE
    · rw [if_pos ha]
      obtain ⟨h1, h2, h3⟩ := ih (k0 + 1)
      refine ⟨by omega, ?_, ?_⟩
      · intro j hj hjl
        cases j with
        | zero => simpa using ha
        | succ j =>
          have := h2 j (by omega) (by simpa using hjl)
          simpa using this
      · rcases h3 with ⟨c1, c2, c3⟩ | ⟨c1, c2⟩
        · left
          have e : (scan_false val b (k0 + 1)).1 - k0 = ((scan_false val b (k0 + 1)).1 - (k0 + 1)) + 1 := by
            omega
          refine ⟨by simp; omega, ?_, c3⟩
          rw [c2, e]; simp
        · right
          exact ⟨by simp; omega, c2⟩
    · rw [if_neg ha]
      refine ⟨Nat.le_refl _, fun j hj _ => by simp at hj, Or.inl ⟨by simp, by simp, ha⟩⟩

theorem array_drop_getD (c : clause_t) (j : Nat) : (c.array.drop 2).getD j 0 = c.get (j + 2) ∨
    c.cl.length < j + 2 := by
  rcases Nat.lt_or_ge c.cl.length (j + 2) with h | h
  · exact Or.inr h
  · left
    unfold clause_t.array
    rw [List.getD_eq_getElem?_getD, List.getElem?_drop]
    rcases Nat.lt_or_ge (j + 2) c.cl.length with h2 | h2
    · rw [List.getElem?_append_left (by omega), clause_get_lt c h2,
        List.getElem?_eq_getElem (by omega)]
      simp [Nat.add_comm]
    · have e : 2 + j = c.cl.length := by omega
      rw [e, List.getElem?_append_right (Nat.le_refl _), clause_get_ge c h2]
      simp

theorem array_drop_length (c : clause_t) (_ : 2 ≤ c.cl.length) :
    (c.array.drop 2).length = c.cl.length - 1 := by
  unfold clause_t.array
  rw [List.length_drop, List.length_append]; simp

/-- The two outcomes of the scan of a clause whose literals are nonnegative. -/
theorem scan_false_clause_cases (val : Int → bval_t) (c : clause_t) (h2 : 2 ≤ c.cl.length)
    (hnn : ∀ k, k < c.cl.length → 0 ≤ c.get k) (h1 : val (-1) = VAL_UNDEF)
    (hm2 : val (-2) = VAL_UNDEF) :
    (0 ≤ (scan_false val (c.array.drop 2) 2).2 ∧ 2 ≤ (scan_false val (c.array.drop 2) 2).1 ∧
      (scan_false val (c.array.drop 2) 2).1 < c.cl.length ∧
      (scan_false val (c.array.drop 2) 2).2 = c.get (scan_false val (c.array.drop 2) 2).1 ∧
      val (scan_false val (c.array.drop 2) 2).2 ≠ VAL_FALSE ∧
      ∀ j, 2 ≤ j → j < (scan_false val (c.array.drop 2) 2).1 → val (c.get j) = VAL_FALSE) ∨
    ((scan_false val (c.array.drop 2) 2).2 < 0 ∧
      ∀ j, 2 ≤ j → j < c.cl.length → val (c.get j) = VAL_FALSE) := by
  by_cases hex : ∀ j, 2 ≤ j → j < c.cl.length → val (c.get j) = VAL_FALSE
  · right
    rw [scan_false_clause_end val c h2 h1 hm2 hex]
    exact ⟨end_marker_neg c, hex⟩
  · left
    obtain ⟨g1, g2, g3⟩ := scan_false_spec val (c.array.drop 2) 2
    generalize scan_false val (c.array.drop 2) 2 = r at g1 g2 g3 ⊢
    have hlen := array_drop_length c h2
    have hbefore : ∀ j, 2 ≤ j → j < r.1 → j < c.cl.length → val (c.get j) = VAL_FALSE := by
      intro j hj hjr hjl
      have := g2 (j - 2) (by omega) (by omega)
      rcases array_drop_getD c (j - 2) with e | e
      · rw [e] at this
        have e2 : j - 2 + 2 = j := by omega
        rwa [e2] at this
      · omega
    have hr : r.1 < c.cl.length := by
      by_contra hge
      exact hex (fun j hj hjl => hbefore j hj (by omega) hjl)
    rcases g3 with ⟨c1, c2, c3⟩ | ⟨c1, c2⟩
    · have e : r.2 = c.get r.1 := by
        rcases array_drop_getD c (r.1 - 2) with e | e
        · rw [c2, e]; congr 1; omega
        · omega
      refine ⟨?_, g1, hr, e, c3, fun j hj hjr => hbefore j hj hjr (by omega)⟩
      rw [e]; exact hnn _ hr
    · omega

/-! ### Frame lemmas for the invariants without the watch lists -/

theorem baseInv_of_frame {s t : smt_core_t} (h : BaseInv s) (e1 : t.nlits = s.nlits)
    (e2 : t.nvars = s.nvars) (e3 : t.value = s.value) (e4 : t.stack.lit = s.stack.lit)
    (e4b : t.stack.level_index = s.stack.level_index)
    (e5 : t.clauses = s.clauses) (e6 : t.problem_clauses = s.problem_clauses)
    (e7 : t.learned_clauses = s.learned_clauses) (e9 : t.bin = s.bin)
    (e10 : t.level = s.level) (e11 : t.antecedent = s.antecedent) (e12 : t.mark = s.mark)
    (e13 : t.expand = s.expand) (e14 : t.decision_level = s.decision_level)
    (e15 : t.base_level = s.base_level) : BaseInv t := by
  have est : stored t = stored s := by unfold stored; rw [e6, e7]
  have hext : Extends s t := ⟨e1, e2, e5, e6, e7, e13, fun x _ => by rw [e3]⟩
  constructor
  · constructor
    · rw [e1, e2]; exact h.assign.nlits_eq
    · rw [e1, e3]; exact h.assign.sym
    · rw [e3]; exact h.assign.end1
    · rw [e3]; exact h.assign.end2
    · rw [e4]; intro l hl; exact hext.ext_valid (h.assign.trail_valid l hl)
    · rw [e1, e3, e4]; exact h.assign.trail_true
    · rw [e4]; exact h.assign.trail_nodup
  · constructor
    · rw [est, e5]; exact h.clause.len
    · rw [est, e5]; intro c hc hr k hk; exact hext.ext_valid (h.clause.valid c hc hr k hk)
    · rw [est, e5]; exact h.clause.distinct
  · unfold BinInv
    rw [e1, e9]; intro l h0 hl m hm; exact hext.ext_valid (h.bin l h0 hl m hm)
  · constructor
    · rw [e14, e15]; exact h.level.base_le
    · rw [e4, e10, e14]; exact h.level.le_dl
    · rw [e4, e10]; exact h.level.sorted
    · unfold prop_stack_t.top; rw [e4, e4b, e14]; exact h.level.index_le
    · rw [e4, e4b, e10, e14]; exact h.level.index
  · unfold AnteInv
    rw [e4, e11]
    intro l hl
    exact ante_ok_mono hext (fun _ hy => hy) (h.ante l hl)
  · unfold MarkInv
    rw [e2, e3, e10, e12, e15]; exact h.mark

theorem watchInvW_of_frame {s t : smt_core_t} {w : Int → List link_t} (h : WatchInvW s w)
    (e1 : t.nlits = s.nlits) (e5 : t.clauses = s.clauses)
    (e6 : t.problem_clauses = s.problem_clauses) (e7 : t.learned_clauses = s.learned_clauses) :
    WatchInvW t w := by
  have est : stored t = stored s := by unfold stored; rw [e6, e7]
  constructor
  · rw [e1]; exact h.nodup
  · rw [e1, e5]; intro l h0 hl lnk hlnk
    obtain ⟨a, b, c⟩ := h.sound l h0 hl lnk hlnk
    refine ⟨?_, b, c⟩
    unfold active at a ⊢
    rw [est, e5]; exact a
  · rw [est, e5]; exact h.complete

theorem baseInv_implied {s : smt_core_t} (h : BaseInv s) {l : Int} (hl : valid_lit s l)
    (hu : s.value l = VAL_UNDEF) {a : antecedent_t} (ha : ante_ok s s.stack.lit l a) :
    BaseInv (implied_literal s l a) :=
  ⟨assignInv_implied h.assign hl hu a, clauseInv_implied h.clause l a,
   binInv_implied h.bin l a,
   levelInv_implied h.assign h.level hl hu a, anteInv_implied h.assign h.ante hl hu ha,
   markInv_implied h.assign h.level h.mark hl hu a⟩

/-! ### Clauses under the invariants -/

theorem clause_get_inj {s : smt_core_t} (h : ClauseInv s) {c : Nat} (hc : active s c) {a b : Nat}
    (ha : a < (s.clauses c).cl.length) (hb : b < (s.clauses c).cl.length)
    (e : (s.clauses c).get a = (s.clauses c).get b) : a = b := by
  rcases Nat.lt_trichotomy a b with hlt | heq | hgt
  · exact absurd e (h.distinct c hc.1 hc.2 b hb a hlt)
  · exact heq
  · exact absurd e.symm (h.distinct c hc.1 hc.2 a ha b hgt)

theorem not_removed_of_nonneg {c : clause_t} (h0 : 0 ≤ c.get 0) (h1 : 0 ≤ c.get 1) :
    is_clause_to_be_removed c = false := by
  unfold is_clause_to_be_removed
  simp [h0, h1]

/-- A clause that explains a stack literal has a true watched literal next to a
false one. -/
theorem ante_clause_other_true {s : smt_core_t} (hA : AssignInv s) {tr : List Int} {x : Int}
    (hx : x ∈ s.stack.lit) {a : antecedent_t} (ha : ante_ok s tr x a) {c : Nat}
    (hc : a.clause? = some c) {i : Nat} (hi : i < 2)
    (hf : s.value ((s.clauses c).get i) = VAL_FALSE) :
    s.value ((s.clauses c).get (1 - i)) = VAL_TRUE := by
  have hxt := trail_value_true hA hx
  cases a with
  | literal m => cases hc
  | generic e => cases hc
  | clause0 c2 =>
    have e : c2 = c := by simpa [antecedent_t.clause?] using hc
    subst e
    unfold ante_ok at ha
    have hi2 : i = 0 ∨ i = 1 := by omega
    rcases hi2 with rfl | rfl
    · rw [ha.2.1, hxt] at hf; cases hf
    · show s.value ((s.clauses c2).get 0) = VAL_TRUE
      rw [ha.2.1]; exact hxt
  | clause1 c2 =>
    have e : c2 = c := by simpa [antecedent_t.clause?] using hc
    subst e
    unfold ante_ok at ha
    have hi2 : i = 0 ∨ i = 1 := by omega
    rcases hi2 with rfl | rfl
    · show s.value ((s.clauses c2).get 1) = VAL_TRUE
      rw [ha.2.1]; exact hxt
    · rw [ha.2.1, hxt] at hf; cases hf

theorem ante_ok_congr {s t : smt_core_t} {tr : List Int} {x : Int} {a : antecedent_t}
    (ha : ante_ok s tr x a) (e1 : t.nlits = s.nlits) (e3 : t.value = s.value)
    (e13 : t.expand = s.expand) (est : stored t = stored s)
    (hcl : ∀ c, a.clause? = some c → t.clauses c = s.clauses c) : ante_ok t tr x a := by
  have hvalid : ∀ m, valid_lit s m → valid_lit t m := fun m hm => by
    unfold valid_lit at hm ⊢; rw [e1]; exact hm
  cases a with
  | literal m =>
    unfold ante_ok at ha ⊢
    rcases ha with ha | ⟨h1, h2, h3⟩
    · exact Or.inl ha
    · exact Or.inr ⟨hvalid m h1, by rw [e3]; exact h2, h3⟩
  | clause0 c =>
    unfold ante_ok at ha ⊢
    obtain ⟨h1, h2, h3⟩ := ha
    have ec := hcl c rfl
    refine ⟨⟨by rw [est]; exact h1.1, by rw [ec]; exact h1.2⟩, by rw [ec]; exact h2, ?_⟩
    rw [ec, e3]; exact h3
  | clause1 c =>
    unfold ante_ok at ha ⊢
    obtain ⟨h1, h2, h3⟩ := ha
    have ec := hcl c rfl
    refine ⟨⟨by rw [est]; exact h1.1, by rw [ec]; exact h1.2⟩, by rw [ec]; exact h2, ?_⟩
    rw [ec, e3]; exact h3
  | generic e =>
    unfold ante_ok at ha ⊢
    rw [e13, e3]
    exact fun m hm => ⟨hvalid m (ha m hm).1, (ha m hm).2.1, (ha m hm).2.2⟩

/-! ### Frame lemmas, one invariant at a time -/

theorem assignInv_of_frame {s t : smt_core_t} (h : AssignInv s) (e1 : t.nlits = s.nlits)
    (e2 : t.nvars = s.nvars) (e3 : t.value = s.value) (e4 : t.stack.lit = s.stack.lit) :
    AssignInv t := by
  constructor
  · rw [e1, e2]; exact h.nlits_eq
  · rw [e1, e3]; exact h.sym
  · rw [e3]; exact h.end1
  · rw [e3]; exact h.end2
  · rw [e4]; intro l hl
    have := h.trail_valid l hl
    unfold valid_lit at this ⊢; rw [e1]; exact this
  · rw [e1, e3, e4]; exact h.trail_true
  · rw [e4]; exact h.trail_nodup

theorem levelInv_of_frame {s t : smt_core_t} (h : LevelInv s) (e4 : t.stack.lit = s.stack.lit)
    (e5 : t.stack.level_index = s.stack.level_index)
    (e10 : t.level = s.level) (e14 : t.decision_level = s.decision_level)
    (e15 : t.base_level = s.base_level) : LevelInv t := by
  constructor
  · rw [e14, e15]; exact h.base_le
  · rw [e4, e10, e14]; exact h.le_dl
  · rw [e4, e10]; exact h.sorted
  · unfold prop_stack_t.top; rw [e4, e5, e14]; exact h.index_le
  · rw [e4, e5, e10, e14]; exact h.index

theorem markInv_of_frame {s t : smt_core_t} (h : MarkInv s) (e2 : t.nvars = s.nvars)
    (e3 : t.value = s.value) (e10 : t.level = s.level) (e12 : t.mark = s.mark)
    (e15 : t.base_level = s.base_level) : MarkInv t := by
  unfold MarkInv
  rw [e2, e3, e10, e12, e15]; exact h

theorem binInv_of_frame {s t : smt_core_t} (h : BinInv s) (e1 : t.nlits = s.nlits)
    (e9 : t.bin = s.bin) : BinInv t := by
  unfold BinInv
  rw [e1, e9]; intro l h0 hl m hm
  have := h l h0 hl m hm
  unfold valid_lit at this ⊢; rw [e1]; exact this

theorem mem_watch_add {b : Bool} {w : List link_t} {a x : link_t} :
    x ∈ (if b then w ++ [a] else a :: w) ↔ x = a ∨ x ∈ w := by
  cases b <;> simp [or_comm]

theorem nodup_watch_add {b : Bool} {w : List link_t} {a : link_t} (hw : w.Nodup) (ha : a ∉ w) :
    (if b then w ++ [a] else a :: w).Nodup := by
  cases b
  · simpa using ⟨ha, hw⟩
  · simp only [if_true]
    exact List.Nodup.append hw (List.nodup_singleton a)
      (by intro x hx hx2; rw [List.mem_singleton] at hx2; subst hx2; exact ha hx)

/-! ### The walk of a watched list: moving a link -/

/-- State after the writes `b[k] = b[i]; b[i] = l` and the insertion of the
link into `watch[l]`. -/
theorem walkInv_move {s : smt_core_t} {l0 : Int} {i0 c i k : Nat} {kept rest : List link_t}
    (hW : WalkInv s l0 i0 (kept.reverse ++ (c, i) :: rest) ((c, i) :: rest))
    (hl0 : valid_lit s l0) (hf : s.value l0 = VAL_FALSE)
    (hv1 : s.value (get_other_watch (s.clauses c) i) ≠ VAL_TRUE)
    (hk2 : 2 ≤ k) (hk : k < (s.clauses c).cl.length)
    (hvk : s.value ((s.clauses c).get k) ≠ VAL_FALSE) :
    WalkInv
      (watch_add
        { s with clauses := updN s.clauses c (swap_watch (s.clauses c) i k ((s.clauses c).get k)) }
        ((s.clauses c).get k) (c, i))
      l0 i0 (kept.reverse ++ rest) rest := by
  -- facts on the link being visited
  have hcur : (c, i) ∈ upd s.watch l0 (kept.reverse ++ (c, i) :: rest) l0 := by
    rw [upd_same]; simp
  obtain ⟨hact, hi2, hgi⟩ := hW.watch.sound l0 (valid_nonneg hl0) hl0.2 (c, i) hcur
  have hact : active s c := hact
  have hi2 : i < 2 := hi2
  have hgi : (s.clauses c).get i = l0 := hgi
  have hlen := hW.base.clause.len c hact.1 hact.2
  have hil : i < (s.clauses c).cl.length := by omega
  have hlval := hW.base.clause.valid c hact.1 hact.2 k hk
  have hlne : (s.clauses c).get k ≠ l0 := fun e => hvk (by rw [e]; exact hf)
  have hnd : (kept.reverse ++ (c, i) :: rest).Nodup := by
    have := hW.watch.nodup l0 (valid_nonneg hl0) hl0.2
    rwa [upd_same] at this
  have hnotin : (c, i) ∉ kept.reverse ++ rest := by
    intro hin
    have h1 := List.nodup_append.1 hnd
    rcases List.mem_append.1 hin with h | h
    · exact h1.2.2 h (List.mem_cons_self _ _) 
    · exact (List.nodup_cons.1 h1.2.1).1 h
  have hoi : (s.clauses c).get (1 - i) ≠ l0 := by
    intro e
    have := clause_get_inj hW.base.clause hact (a := 1 - i) (b := i) (by omega) hil (e.trans hgi.symm)
    omega
  generalize hl : (s.clauses c).get k = l at hlval hlne hvk ⊢
  -- the new state
  generalize hs2 : watch_add
      { s with clauses := updN s.clauses c (swap_watch (s.clauses c) i k l) } l (c, i) = s2
  have e_nlits : s2.nlits = s.nlits := by rw [← hs2]; rfl
  have e_nvars : s2.nvars = s.nvars := by rw [← hs2]; rfl
  have e_value : s2.value = s.value := by rw [← hs2]; rfl
  have e_stack : s2.stack = s.stack := by rw [← hs2]; rfl
  have e_prob : s2.problem_clauses = s.problem_clauses := by rw [← hs2]; rfl
  have e_learned : s2.learned_clauses = s.learned_clauses := by rw [← hs2]; rfl
  have e_bin : s2.bin = s.bin := by rw [← hs2]; rfl
  have e_level : s2.level = s.level := by rw [← hs2]; rfl
  have e_ante : s2.antecedent = s.antecedent := by rw [← hs2]; rfl
  have e_mark : s2.mark = s.mark := by rw [← hs2]; rfl
  have e_expand : s2.expand = s.expand := by rw [← hs2]; rfl
  have e_dl : s2.decision_level = s.decision_level := by rw [← hs2]; rfl
  have e_bl : s2.base_level = s.base_level := by rw [← hs2]; rfl
  have e_cl : s2.clauses = updN s.clauses c (swap_watch (s.clauses c) i k l) := by
    rw [← hs2]; rfl
  have e_watch : s2.watch = upd s.watch l
      (if s.USE_END_WATCH then s.watch l ++ [(c, i)] else (c, i) :: s.watch l) := by
    rw [← hs2]; rfl
  have est : stored s2 = stored s := by unfold stored; rw [e_prob, e_learned]
  have hother : ∀ c2, c2 ≠ c → s2.clauses c2 = s.clauses c2 := fun c2 h => by
    rw [e_cl]; unfold updN; rw [if_neg h]
  have hself : s2.clauses c = swap_watch (s.clauses c) i k l := by
    rw [e_cl]; unfold updN; rw [if_pos rfl]
  have hlen2 : (s2.clauses c).cl.length = (s.clauses c).cl.length := by
    rw [hself, swap_watch_length]
  have hget : ∀ j, (s2.clauses c).get j
      = if j = i then l else if j = k then l0 else (s.clauses c).get j := fun j => by
    rw [hself, swap_watch_get _ _ hil hk, hgi]
  have hget_i : (s2.clauses c).get i = l := by rw [hget, if_pos rfl]
  have hget_o : (s2.clauses c).get (1 - i) = (s.clauses c).get (1 - i) := by
    rw [hget, if_neg (by omega), if_neg (by omega)]
  have hrem : ∀ c2, is_clause_to_be_removed (s2.clauses c2) = is_clause_to_be_removed (s.clauses c2) := by
    intro c2
    by_cases e : c2 = c
    · subst e
      rw [hact.2]
      apply not_removed_of_nonneg
      · rw [hget]
        have h0 := valid_nonneg (hW.base.clause.valid c2 hact.1 hact.2 0 (by omega))
        have hl0' := valid_nonneg hl0
        have hlv := valid_nonneg hlval
        split
        · exact hlv
        · split
          · exact hl0'
          · exact h0
      · rw [hget]
        have h0 := valid_nonneg (hW.base.clause.valid c2 hact.1 hact.2 1 (by omega))
        have hl0' := valid_nonneg hl0
        have hlv := valid_nonneg hlval
        split
        · exact hlv
        · split
          · exact hl0'
          · exact h0
    · rw [hother c2 e]
  have hactive : ∀ c2, active s c2 → active s2 c2 := fun c2 h => by
    unfold active at h ⊢; rw [est, hrem]; exact h
  -- watched slots of the other links are unchanged
  have hslot : ∀ c2 j, j < 2 → (c2, j) ≠ (c, i) → active s c2 →
      (s2.clauses c2).get j = (s.clauses c2).get j := by
    intro c2 j hj hne _
    by_cases e : c2 = c
    · subst e
      have hji : j ≠ i := fun e2 => hne (by rw [e2])
      rw [hget, if_neg hji, if_neg (by omega)]
    · rw [hother c2 e]
  refine ⟨⟨?_, ?_, ?_, ?_, ?_, ?_⟩, ?_, ?_, ?_⟩
  · exact assignInv_of_frame hW.base.assign e_nlits e_nvars e_value (by rw [e_stack])
  · -- ClauseInv
    constructor
    · intro c2 hc2 hr2
      rw [est] at hc2; rw [hrem] at hr2
      by_cases e : c2 = c
      · subst e; rw [hlen2]; exact hlen
      · rw [hother c2 e]; exact hW.base.clause.len c2 hc2 hr2
    · intro c2 hc2 hr2 j hj
      rw [est] at hc2; rw [hrem] at hr2
      have hv : ∀ m, valid_lit s m → valid_lit s2 m := fun m hm => by
        unfold valid_lit at hm ⊢; rw [e_nlits]; exact hm
      by_cases e : c2 = c
      · subst e
        rw [hlen2] at hj
        rw [hget]
        split
        · exact hv _ hlval
        · split
          · exact hv _ hl0
          · exact hv _ (hW.base.clause.valid c2 hc2 hr2 j hj)
      · rw [hother c2 e] at hj ⊢; exact hv _ (hW.base.clause.valid c2 hc2 hr2 j hj)
    · intro c2 hc2 hr2 b hb a hab
      rw [est] at hc2; rw [hrem] at hr2
      by_cases e : c2 = c
      · subst e
        rw [hlen2] at hb
        have hσ : ∀ j, (s2.clauses c2).get j
            = (s.clauses c2).get (if j = i then k else if j = k then i else j) := by
          intro j; rw [hget]
          split
          · exact hl.symm
          · split
            · exact hgi.symm
            · rfl
        rw [hσ, hσ]
        intro heq
        have ha : (if a = i then k else if a = k then i else a) < (s.clauses c2).cl.length := by
          split_ifs <;> omega
        have hb2 : (if b = i then k else if b = k then i else b) < (s.clauses c2).cl.length := by
          split_ifs <;> omega
        have := clause_get_inj hW.base.clause hact ha hb2 heq
        split_ifs at this <;> omega
      · rw [hother c2 e] at hb ⊢; exact hW.base.clause.distinct c2 hc2 hr2 b hb a hab
  · exact binInv_of_frame hW.base.bin e_nlits e_bin
  · exact levelInv_of_frame hW.base.level (by rw [e_stack]) (by rw [e_stack]) e_level e_dl e_bl
  · -- AnteInv
    unfold AnteInv
    rw [e_stack, e_ante]
    intro x hx
    refine ante_ok_congr (hW.base.ante x hx) e_nlits e_value e_expand est ?_
    intro c2 hc2
    by_cases e : c2 = c
    · subst e
      have := ante_clause_other_true hW.base.assign hx (hW.base.ante x hx) hc2 hi2
        (by rw [hgi]; exact hf)
      exact absurd this hv1
    · exact hother c2 e
  · exact markInv_of_frame hW.base.mark e_nvars e_value e_level e_mark e_bl
  · -- watch lists
    have hw_l0 : upd s2.watch l0 (kept.reverse ++ rest) l0 = kept.reverse ++ rest := upd_same _ _ _
    have hw_l : upd s2.watch l0 (kept.reverse ++ rest) l
        = (if s.USE_END_WATCH then s.watch l ++ [(c, i)] else (c, i) :: s.watch l) := by
      rw [upd_ne _ _ hlne, e_watch, upd_same]
    have hw_x : ∀ x, x ≠ l0 → x ≠ l → upd s2.watch l0 (kept.reverse ++ rest) x = s.watch x := by
      intro x h1 h2
      rw [upd_ne _ _ h1, e_watch, upd_ne _ _ h2]
    have hold_x : ∀ x, x ≠ l0 → upd s.watch l0 (kept.reverse ++ (c, i) :: rest) x = s.watch x :=
      fun x h1 => upd_ne _ _ h1
    have hold_l0 : upd s.watch l0 (kept.reverse ++ (c, i) :: rest) l0
        = kept.reverse ++ (c, i) :: rest := upd_same _ _ _
    have hci_l : (c, i) ∉ s.watch l := by
      intro hin
      have := (hW.watch.sound l (valid_nonneg hlval) hlval.2 (c, i)
        (by rw [hold_x l hlne]; exact hin)).2.2
      exact hlne (this.symm.trans hgi)
    constructor
    · intro x hx0 hxn
      rw [e_nlits] at hxn
      by_cases h1 : x = l0
      · rw [h1, hw_l0]
        have h1 := List.nodup_append.1 hnd
        refine List.nodup_append.2 ⟨h1.1, (List.nodup_cons.1 h1.2.1).2, ?_⟩
        intro y hy hy2
        exact h1.2.2 hy (List.mem_cons_of_mem _ hy2)
      · by_cases h2 : x = l
        · have := hW.watch.nodup x hx0 hxn
          rw [h2, hold_x l hlne] at this
          rw [h2, hw_l]
          exact nodup_watch_add this hci_l
        · rw [hw_x x h1 h2]
          have := hW.watch.nodup x hx0 hxn
          rwa [hold_x x h1] at this
    · intro x hx0 hxn lnk hlnk
      rw [e_nlits] at hxn
      by_cases h1 : x = l0
      · rw [h1, hw_l0] at hlnk
        have hin : lnk ∈ kept.reverse ++ (c, i) :: rest := by
          rcases List.mem_append.1 hlnk with h | h
          · exact List.mem_append_left _ h
          · exact List.mem_append_right _ (List.mem_cons_of_mem _ h)
        obtain ⟨a1, a2, a3⟩ := hW.watch.sound l0 (valid_nonneg hl0) hl0.2 lnk
          (by rw [hold_l0]; exact hin)
        refine ⟨hactive _ a1, a2, ?_⟩
        have hne : (lnk.1, lnk.2) ≠ (c, i) := fun e => hnotin (by rw [← e]; exact hlnk)
        rw [hslot lnk.1 lnk.2 a2 hne a1, h1]; exact a3
      · by_cases h2 : x = l
        · rw [h2, hw_l, mem_watch_add] at hlnk
          rcases hlnk with e | hin
          · rw [e, h2]; exact ⟨hactive c hact, hi2, hget_i⟩
          · obtain ⟨a1, a2, a3⟩ := hW.watch.sound l (valid_nonneg hlval) hlval.2 lnk
              (by rw [hold_x l hlne]; exact hin)
            refine ⟨hactive _ a1, a2, ?_⟩
            have hne : (lnk.1, lnk.2) ≠ (c, i) := fun e => hci_l (by rw [← e]; exact hin)
            rw [hslot lnk.1 lnk.2 a2 hne a1, h2]; exact a3
        · rw [hw_x x h1 h2] at hlnk
          obtain ⟨a1, a2, a3⟩ := hW.watch.sound x hx0 hxn lnk (by rw [hold_x x h1]; exact hlnk)
          refine ⟨hactive _ a1, a2, ?_⟩
          have hne : (lnk.1, lnk.2) ≠ (c, i) := by
            intro e
            have e1 : lnk.1 = c := congrArg Prod.fst e
            have e2 : lnk.2 = i := congrArg Prod.snd e
            rw [e1, e2, hgi] at a3
            exact h1 a3.symm
          rw [hslot lnk.1 lnk.2 a2 hne a1]; exact a3
    · intro c2 hc2 hr2 j hj
      rw [est] at hc2; rw [hrem] at hr2
      by_cases e : (c2, j) = (c, i)
      · have e1 : c2 = c := congrArg Prod.fst e
        have e2 : j = i := congrArg Prod.snd e
        subst e1; subst e2
        rw [hget_i, hw_l, mem_watch_add]; exact Or.inl rfl
      · rw [hslot c2 j hj e ⟨hc2, hr2⟩]
        have hold := hW.watch.complete c2 hc2 hr2 j hj
        by_cases h1 : (s.clauses c2).get j = l0
        · rw [h1, hold_l0] at hold
          rw [h1, hw_l0]
          rcases List.mem_append.1 hold with h | h
          · exact List.mem_append_left _ h
          · rcases List.mem_cons.1 h with h | h
            · exact absurd h e
            · exact List.mem_append_right _ h
        · rw [hold_x _ h1] at hold
          by_cases h2 : (s.clauses c2).get j = l
          · rw [h2] at hold ⊢
            rw [hw_l, mem_watch_add]; exact Or.inr hold
          · rw [hw_x _ h1 h2]; exact hold
  · -- Propagated
    intro c2 hc2 hr2 j hj hfj hin
    rw [est] at hc2; rw [hrem] at hr2
    rw [e_value] at hfj ⊢; rw [e_stack] at hin
    by_cases e : c2 = c
    · subst e
      by_cases e2 : j = i
      · subst e2; rw [hget_i] at hfj; exact absurd hfj hvk
      · have ej : j = 1 - i := by omega
        subst ej
        rw [hget_o] at hfj hin
        have := hW.prop c2 hc2 hr2 (1 - i) hj hfj hin
        have e3 : 1 - (1 - i) = i := by omega
        rw [e3, hgi, hf] at this; cases this
    · rw [hother c2 e] at hfj hin ⊢
      exact hW.prop c2 hc2 hr2 j hj hfj hin
  · -- done
    intro c2 hc2 hr2 j hj hgj hnr
    rw [est] at hc2; rw [hrem] at hr2
    rw [e_value]
    by_cases e : c2 = c
    · subst e
      by_cases e2 : j = i
      · subst e2; rw [hget_i] at hgj; exact absurd hgj hlne
      · have ej : j = 1 - i := by omega
        subst ej
        rw [hget_o] at hgj; exact absurd hgj hoi
    · have hne : (c2, j) ≠ (c, i) := fun e2 => e (congrArg Prod.fst e2)
      rw [hother c2 e] at hgj ⊢
      refine hW.done c2 hc2 hr2 j hj hgj ?_
      intro hin
      rcases List.mem_cons.1 hin with h | h
      · exact hne h
      · exact hnr h

/-! ### The walk of a watched list: the other branches -/

theorem walkInv_keep {s : smt_core_t} {l0 : Int} {i0 c i : Nat} {kept rest : List link_t}
    (hW : WalkInv s l0 i0 (kept.reverse ++ (c, i) :: rest) ((c, i) :: rest))
    (hv : s.value (get_other_watch (s.clauses c) i) = VAL_TRUE) :
    WalkInv s l0 i0 (((c, i) :: kept).reverse ++ rest) rest := by
  have ecur : ((c, i) :: kept).reverse ++ rest = kept.reverse ++ (c, i) :: rest := by simp
  rw [ecur]
  refine ⟨hW.base, hW.watch, hW.prop, ?_⟩
  intro c2 hc2 hr2 j hj hgj hnr
  by_cases e : (c2, j) = (c, i)
  · have e1 : c2 = c := congrArg Prod.fst e
    have e2 : j = i := congrArg Prod.snd e
    rw [e1, e2]; exact hv
  · refine hW.done c2 hc2 hr2 j hj hgj ?_
    intro hin
    rcases List.mem_cons.1 hin with h | h
    · exact e h
    · exact hnr h

/-- Facts on the link `(c, i)` at the head of the rest of `watch[l0]`. -/
theorem walk_head_facts {s : smt_core_t} {l0 : Int} {i0 c i : Nat} {kept rest : List link_t}
    (hW : WalkInv s l0 i0 (kept.reverse ++ (c, i) :: rest) ((c, i) :: rest))
    (hl0 : valid_lit s l0) :
    active s c ∧ i < 2 ∧ (s.clauses c).get i = l0 ∧ 2 ≤ (s.clauses c).cl.length ∧
    (∀ k, k < (s.clauses c).cl.length → valid_lit s ((s.clauses c).get k)) := by
  have hcur : (c, i) ∈ upd s.watch l0 (kept.reverse ++ (c, i) :: rest) l0 := by
    rw [upd_same]; simp
  obtain ⟨hact, hi2, hgi⟩ := hW.watch.sound l0 (valid_nonneg hl0) hl0.2 (c, i) hcur
  have hact : active s c := hact
  exact ⟨hact, hi2, hgi, hW.base.clause.len c hact.1 hact.2,
    hW.base.clause.valid c hact.1 hact.2⟩

theorem walkInv_implied {s : smt_core_t} {l0 : Int} {i0 c i : Nat} {kept rest : List link_t}
    (hW : WalkInv s l0 i0 (kept.reverse ++ (c, i) :: rest) ((c, i) :: rest))
    (hl0 : valid_lit s l0) (hf : s.value l0 = VAL_FALSE) (hi0 : i0 ≤ s.stack.top)
    (hu : s.value (get_other_watch (s.clauses c) i) = VAL_UNDEF)
    (hall : ∀ j, 2 ≤ j → j < (s.clauses c).cl.length → s.value ((s.clauses c).get j) = VAL_FALSE) :
    WalkInv (implied_literal s (get_other_watch (s.clauses c) i) (mk_clause_antecedent c (1 - i)))
      l0 i0 (((c, i) :: kept).reverse ++ rest) rest ∧
    valid_lit s (get_other_watch (s.clauses c) i) := by
  obtain ⟨hact, hi2, hgi, hlen, hval⟩ := walk_head_facts hW hl0
  have ecur : ((c, i) :: kept).reverse ++ rest = kept.reverse ++ (c, i) :: rest := by simp
  rw [ecur]
  have hl1 : valid_lit s (get_other_watch (s.clauses c) i) := hval (1 - i) (by omega)
  have hfalse : ∀ k, k < (s.clauses c).cl.length → k ≠ 1 - i →
      s.value ((s.clauses c).get k) = VAL_FALSE ∧ not_lit ((s.clauses c).get k) ∈ s.stack.lit := by
    intro k hk hne
    have hv : s.value ((s.clauses c).get k) = VAL_FALSE := by
      by_cases e : k = i
      · rw [e, hgi]; exact hf
      · exact hall k (by omega) hk
    exact ⟨hv, assigned_on_trail hW.base.assign (hval k hk) hv⟩
  have hante : ante_ok s s.stack.lit (get_other_watch (s.clauses c) i)
      (mk_clause_antecedent c (1 - i)) := by
    unfold mk_clause_antecedent
    have hi3 : i = 0 ∨ i = 1 := by omega
    rcases hi3 with rfl | rfl
    · exact ⟨hact, rfl, hfalse⟩
    · exact ⟨hact, rfl, hfalse⟩
  have hg := grows_implied hW.base.assign hl1 hu (mk_clause_antecedent c (1 - i))
  refine ⟨⟨baseInv_implied hW.base hl1 hu hante, watchInvW_implied hW.watch _ _,
    propagated_implied hW.base.assign hW.base.clause hW.prop hi0 hl1 hu _, ?_⟩, hl1⟩
  intro c2 hc2 hr2 j hj hgj hnr
  have hc2s : c2 ∈ stored s := hc2
  have hr2s : is_clause_to_be_removed (s.clauses c2) = false := hr2
  have hgjs : (s.clauses c2).get j = l0 := hgj
  show (implied_literal s _ _).value ((s.clauses c2).get (1 - j)) = VAL_TRUE
  by_cases e : (c2, j) = (c, i)
  · have e1 : c2 = c := congrArg Prod.fst e
    have e2 : j = i := congrArg Prod.snd e
    rw [e1, e2]; exact implied_literal_value_self _ _ _
  · refine hg.value_true (hW.done c2 hc2s hr2s j hj hgjs ?_)
    intro hin
    rcases List.mem_cons.1 hin with h | h
    · exact e h
    · exact hnr h

theorem walk_conflict {s : smt_core_t} {l0 : Int} {i0 c i : Nat} {kept rest : List link_t}
    (hW : WalkInv s l0 i0 (kept.reverse ++ (c, i) :: rest) ((c, i) :: rest))
    (hl0 : valid_lit s l0) (hf : s.value l0 = VAL_FALSE)
    (hv1 : s.value (get_other_watch (s.clauses c) i) = VAL_FALSE)
    (hall : ∀ j, 2 ≤ j → j < (s.clauses c).cl.length → s.value ((s.clauses c).get j) = VAL_FALSE) :
    CoreInv { record_clause_conflict s c with
              watch := upd s.watch l0 (kept.reverse ++ (c, i) :: rest) } ∧
    active s c ∧
    ∀ k, k < (s.clauses c).cl.length → s.value ((s.clauses c).get k) = VAL_FALSE := by
  obtain ⟨hact, hi2, hgi, hlen, hval⟩ := walk_head_facts hW hl0
  refine ⟨coreInv_of_base
    (baseInv_of_frame hW.base rfl rfl rfl rfl rfl rfl rfl rfl rfl rfl rfl rfl rfl rfl rfl)
    (watchInvW_of_frame hW.watch rfl rfl rfl rfl), hact, ?_⟩
  intro k hk
  by_cases e : k = i
  · rw [e, hgi]; exact hf
  · by_cases e2 : k = 1 - i
    · rw [e2]; exact hv1
    · exact hall k (by omega) hk

theorem walk_end {s : smt_core_t} {l0 : Int} {i0 : Nat} {kept : List link_t}
    (hW : WalkInv s l0 i0 (kept.reverse ++ []) []) :
    CoreInv { s with watch := upd s.watch l0 kept.reverse } := by
  rw [List.append_nil] at hW
  exact coreInv_of_base
    (baseInv_of_frame hW.base rfl rfl rfl rfl rfl rfl rfl rfl rfl rfl rfl rfl rfl rfl rfl)
    (watchInvW_of_frame hW.watch rfl rfl rfl rfl)

/-- Result of the walk of `watch[l0]` from a state that satisfies the
invariants: they hold again, and either every clause watching `l0` has a true
companion watch, or a clause with all its literals false is the conflict. -/
theorem watched_walk_inv (l0 : Int) (i0 : Nat) (rest : List link_t) :
    ∀ (s : smt_core_t) (kept : List link_t),
    WalkInv s l0 i0 (kept.reverse ++ rest) rest → valid_lit s l0 → s.value l0 = VAL_FALSE →
    i0 ≤ s.stack.top →
    CoreInv (propagation_via_watched_list_loop l0 rest s kept).2 ∧
    Grows s (propagation_via_watched_list_loop l0 rest s kept).2 ∧
    Propagated (propagation_via_watched_list_loop l0 rest s kept).2 i0 ∧
    (propagation_via_watched_list_loop l0 rest s kept).2.stack.prop_ptr = s.stack.prop_ptr ∧
    ((propagation_via_watched_list_loop l0 rest s kept).1 = true →
      ∀ c ∈ stored (propagation_via_watched_list_loop l0 rest s kept).2,
        is_clause_to_be_removed
          ((propagation_via_watched_list_loop l0 rest s kept).2.clauses c) = false →
        ∀ j, j < 2 →
        ((propagation_via_watched_list_loop l0 rest s kept).2.clauses c).get j = l0 →
        (propagation_via_watched_list_loop l0 rest s kept).2.value
          (((propagation_via_watched_list_loop l0 rest s kept).2.clauses c).get (1 - j))
          = VAL_TRUE) ∧
    ((propagation_via_watched_list_loop l0 rest s kept).1 = false →
      (propagation_via_watched_list_loop l0 rest s kept).2.inconsistent = true ∧
      (propagation_via_watched_list_loop l0 rest s kept).2.theory_conflict = s.theory_conflict ∧
      ∃ c, active (propagation_via_watched_list_loop l0 rest s kept).2 c ∧
        (propagation_via_watched_list_loop l0 rest s kept).2.false_clause = some c ∧
        (propagation_via_watched_list_loop l0 rest s kept).2.conflict
          = ((propagation_via_watched_list_loop l0 rest s kept).2.clauses c).array ∧
        ∀ k, k < ((propagation_via_watched_list_loop l0 rest s kept).2.clauses c).cl.length →
          (propagation_via_watched_list_loop l0 rest s kept).2.value
            (((propagation_via_watched_list_loop l0 rest s kept).2.clauses c).get k)
            = VAL_FALSE) := by
  induction rest with
  | nil =>
    intro s kept hW _ _ _
    have hres : propagation_via_watched_list_loop l0 [] s kept
        = (true, { s with watch := upd s.watch l0 kept.reverse }) := rfl
    rw [hres]
    refine ⟨walk_end hW, ?_, ?_, rfl, ?_, ?_⟩
    · exact ⟨rfl, rfl, rfl, rfl, rfl, rfl, rfl, rfl, ⟨[], (List.append_nil _).symm⟩,
        fun _ _ => rfl, rfl, rfl⟩
    · exact hW.prop
    · intro _ c hc hr j hj hgj
      exact hW.done c hc hr j hj hgj (List.not_mem_nil _)
    · intro hh; cases hh
  | cons lnk rest ih =>
    intro s kept hW hl0 hf hi0
    obtain ⟨c, i⟩ := lnk
    obtain ⟨hact, hi2, hgi, hlen, hval⟩ := walk_head_facts hW hl0
    have hnn : ∀ k, k < (s.clauses c).cl.length → 0 ≤ (s.clauses c).get k :=
      fun k hk => valid_nonneg (hval k hk)
    obtain ⟨b1, b2, b3, b4, -⟩ := watched_loop_cases s l0 c i rest kept hW.base.assign.end1
      hW.base.assign.end2 hlen hnn
    by_cases hv : s.value (get_other_watch (s.clauses c) i) = VAL_TRUE
    · rw [b1 hv]
      exact ih s ((c, i) :: kept) (walkInv_keep hW hv) hl0 hf hi0
    · rcases scan_false_clause_cases s.value (s.clauses c) hlen hnn hW.base.assign.end1
        hW.base.assign.end2 with ⟨-, c2, c3, c4, c5, c6⟩ | ⟨-, hall⟩
      · -- a new watched literal is found
        generalize (scan_false s.value ((s.clauses c).array.drop 2) 2).1 = k at c2 c3 c4 c5 c6
        rw [c4] at c5
        rw [b2 k c2 c3 hv c5 c6]
        have hW2 := walkInv_move hW hl0 hf hv c2 c3 c5
        have hg : Grows s (watch_add
            { s with
              clauses := updN s.clauses c (swap_watch (s.clauses c) i k ((s.clauses c).get k)) }
            ((s.clauses c).get k) (c, i)) :=
          ⟨rfl, rfl, rfl, rfl, rfl, rfl, rfl, rfl, ⟨[], (List.append_nil _).symm⟩,
            fun _ _ => rfl, rfl, rfl⟩
        obtain ⟨a1, a2, a3, a4, a5, a6⟩ := ih _ kept hW2 (hg.valid hl0) hf hi0
        exact ⟨a1, hg.trans a2, a3, a4, a5, a6⟩
      · cases hv1 : s.value (get_other_watch (s.clauses c) i) with
        | VAL_TRUE => exact absurd hv1 hv
        | VAL_UNDEF =>
          rw [b3 hall hv1]
          obtain ⟨hW2, hl1⟩ := walkInv_implied hW hl0 hf hi0 hv1 hall
          have hg := grows_implied hW.base.assign hl1 hv1 (mk_clause_antecedent c (1 - i))
          obtain ⟨a1, a2, a3, a4, a5, a6⟩ := ih _ ((c, i) :: kept) hW2 (hg.valid hl0)
            (hg.value_false hf) (Nat.le_trans hi0 hg.top_le)
          exact ⟨a1, hg.trans a2, a3, a4, a5, a6⟩
        | VAL_FALSE =>
          rw [b4 hall hv1]
          obtain ⟨d1, d2, d3⟩ := walk_conflict hW hl0 hf hv1 hall
          refine ⟨d1, ?_, ?_, rfl, ?_, ?_⟩
          · exact ⟨rfl, rfl, rfl, rfl, rfl, rfl, rfl, rfl, ⟨[], (List.append_nil _).symm⟩,
              fun _ _ => rfl, rfl, rfl⟩
          · exact hW.prop
          · intro hh; cases hh
          · intro _
            exact ⟨rfl, rfl, c, hact, rfl, rfl, d3⟩

/-- Start of the walk: the invariants of the core give the invariant of the
walk over the whole list. -/
theorem walkInv_start {s : smt_core_t} (h : CoreInv s) (l0 : Int) {i0 : Nat}
    (hP : Propagated s i0) : WalkInv s l0 i0 ([].reverse ++ s.watch l0) (s.watch l0) := by
  have e : upd s.watch l0 ([].reverse ++ s.watch l0) = s.watch := by
    funext x
    unfold upd
    split
    · rename_i hx; rw [hx]; rfl
    · rfl
  refine ⟨h.base, ?_, hP, ?_⟩
  · rw [e]; exact h.watch
  · intro c hc hr j hj hgj hnin
    have := h.watch.complete c hc hr j hj
    rw [hgj] at this
    exact absurd this hnin

/-! ### Conflicts recorded by Boolean propagation -/

theorem conflict_literals_append_neg (a : List Int) (e : Int) (rest : List Int)
    (ha : ∀ l ∈ a, 0 ≤ l) (he : e < 0) :
    conflict_literals (a ++ e :: rest) = a ∧ conflict_end (a ++ e :: rest) = some e := by
  unfold conflict_literals conflict_end
  induction a with
  | nil =>
    have : ¬ 0 ≤ e := by omega
    simp [List.takeWhile, List.dropWhile, this]
  | cons x a ih =>
    have hx : 0 ≤ x := ha x (List.mem_cons_self _ _)
    obtain ⟨h1, h2⟩ := ih (fun l hl => ha l (List.mem_cons_of_mem _ hl))
    constructor
    · rw [List.cons_append, List.takeWhile_cons]
      simp only [hx, decide_True, if_true]
      rw [h1]
    · rw [List.cons_append, List.dropWhile_cons]
      simp only [hx, decide_True, if_true]
      exact h2

theorem falseConflict_clause {s : smt_core_t} {c : Nat} (hC : ClauseInv s) (hc : active s c)
    (hconf : s.conflict = (s.clauses c).array)
    (hf : ∀ k, k < (s.clauses c).cl.length → s.value ((s.clauses c).get k) = VAL_FALSE) :
    FalseConflict s ∧ conflict_literals s.conflict = (s.clauses c).cl ∧
    conflict_end s.conflict = some (s.clauses c).end_marker := by
  have hmem : ∀ l ∈ (s.clauses c).cl, valid_lit s l ∧ s.value l = VAL_FALSE := by
    intro l hl
    obtain ⟨k, hk, e⟩ := List.mem_iff_getElem.1 hl
    rw [← e, ← clause_get_lt _ hk]
    exact ⟨hC.valid c hc.1 hc.2 k hk, hf k hk⟩
  obtain ⟨h1, h2⟩ := conflict_literals_append_neg (s.clauses c).cl (s.clauses c).end_marker []
    (fun l hl => valid_nonneg (hmem l hl).1) (end_marker_neg _)
  unfold FalseConflict
  rw [hconf]
  unfold clause_t.array
  rw [h1, h2]
  exact ⟨⟨⟨_, rfl⟩, hmem⟩, rfl, rfl⟩

theorem falseConflict_binary {s : smt_core_t} {l0 m : Int} (hl0 : valid_lit s l0)
    (hm : valid_lit s m) (hf0 : s.value l0 = VAL_FALSE) (hfm : s.value m = VAL_FALSE)
    (hconf : s.conflict.take 3 = [l0, m, end_clause]) :
    FalseConflict s ∧ conflict_literals s.conflict = [l0, m] ∧
    conflict_end s.conflict = some end_clause := by
  have e : s.conflict = [l0, m] ++ end_clause :: s.conflict.drop 3 := by
    have := List.take_append_drop 3 s.conflict
    rw [hconf] at this
    exact this.symm
  have hnn : ∀ l ∈ [l0, m], 0 ≤ l := by
    intro l hl
    simp at hl
    rcases hl with rfl | rfl
    · exact valid_nonneg hl0
    · exact valid_nonneg hm
  obtain ⟨h1, h2⟩ := conflict_literals_append_neg [l0, m] end_clause (s.conflict.drop 3) hnn
    (by decide)
  unfold FalseConflict
  rw [e, h1, h2]
  refine ⟨⟨⟨_, rfl⟩, ?_⟩, rfl, rfl⟩
  intro l hl
  simp at hl
  rcases hl with rfl | rfl
  · exact ⟨hl0, hf0⟩
  · exact ⟨hm, hfm⟩

/-! ### One literal of the propagation queue -/

theorem getD_mem {l : List Int} {i : Nat} (h : i < l.length) : l.getD i 0 ∈ l := by
  rw [List.getD_eq_getElem?_getD, List.getElem?_eq_getElem h]
  exact List.getElem_mem _

theorem take_succ_getD {l : List Int} {i : Nat} (h : i < l.length) :
    l.take (i + 1) = l.take i ++ [l.getD i 0] := by
  rw [List.take_succ, List.getD_eq_getElem?_getD, List.getElem?_eq_getElem h]
  rfl

theorem boolean_propagation_step_inv {s : smt_core_t} {i : Nat} {q : Int} (h : CoreInv s)
    (hmem : q ∈ s.stack.lit) (hP : Propagated s i) (hi : i ≤ s.stack.top) :
    CoreInv (boolean_propagation_step s (not_lit q)).2 ∧
    Grows s (boolean_propagation_step s (not_lit q)).2 ∧
    (boolean_propagation_step s (not_lit q)).2.stack.prop_ptr = s.stack.prop_ptr ∧
    Propagated (boolean_propagation_step s (not_lit q)).2 i ∧
    ((boolean_propagation_step s (not_lit q)).1 = true → i < s.stack.top →
      s.stack.lit.getD i 0 = q →
      Propagated (boolean_propagation_step s (not_lit q)).2 (i + 1)) ∧
    ((boolean_propagation_step s (not_lit q)).1 = false →
      (boolean_propagation_step s (not_lit q)).2.inconsistent = true ∧
      FalseConflict (boolean_propagation_step s (not_lit q)).2) := by
  have hlv := h.assign.trail_valid _ hmem
  have hl0 : valid_lit s (not_lit q) := valid_lit_not h.assign.nlits_eq hlv
  have hf : s.value (not_lit q) = VAL_FALSE := trail_value_not h.assign hmem
  -- what the watched-list walk gives from a state reached by the binary walk
  have hwalk : ∀ s1 : smt_core_t, CoreInv s1 → Grows s s1 → Propagated s1 i →
      s1.stack.prop_ptr = s.stack.prop_ptr →
      CoreInv (propagation_via_watched_list s1 (not_lit q)).2 ∧
      Grows s (propagation_via_watched_list s1 (not_lit q)).2 ∧
      (propagation_via_watched_list s1 (not_lit q)).2.stack.prop_ptr = s.stack.prop_ptr ∧
      Propagated (propagation_via_watched_list s1 (not_lit q)).2 i ∧
      ((propagation_via_watched_list s1 (not_lit q)).1 = true → i < s.stack.top →
        s.stack.lit.getD i 0 = q →
        Propagated (propagation_via_watched_list s1 (not_lit q)).2 (i + 1)) ∧
      ((propagation_via_watched_list s1 (not_lit q)).1 = false →
        (propagation_via_watched_list s1 (not_lit q)).2.inconsistent = true ∧
        FalseConflict (propagation_via_watched_list s1 (not_lit q)).2) := by
    intro s1 h1 hg hP1 hpp
    unfold propagation_via_watched_list
    obtain ⟨a1, a2, a3, a4, a5, a6⟩ := watched_walk_inv (not_lit q) i (s1.watch (not_lit q)) s1 []
      (walkInv_start h1 (not_lit q) hP1) (hg.valid hl0) (hg.value_false hf)
      (Nat.le_trans hi hg.top_le)
    generalize propagation_via_watched_list_loop (not_lit q) (s1.watch (not_lit q)) s1 [] = r
      at a1 a2 a3 a4 a5 a6 ⊢
    have hg2 := hg.trans a2
    refine ⟨a1, hg2, a4.trans hpp, a3, ?_, ?_⟩
    · intro hr hlt hq c hc hrm j hj hfj hin
      have hlen : i < r.2.stack.lit.length := Nat.lt_of_lt_of_le hlt hg2.top_le
      have hget : r.2.stack.lit.getD i 0 = q := by rw [hg2.getD hlt]; exact hq
      rw [take_succ_getD hlen, hget, List.mem_append, List.mem_singleton] at hin
      rcases hin with hin | hin
      · exact a3 c hc hrm j hj hfj hin
      · have : (r.2.clauses c).get j = not_lit q := by rw [← hin, not_lit_not_lit]
        exact a5 hr c hc hrm j hj this
    · intro hr
      obtain ⟨b1, -, c, b3, -, b5, b6⟩ := a6 hr
      exact ⟨b1, (falseConflict_clause a1.clause b3 b5 b6).1⟩
  unfold boolean_propagation_step
  cases hb : s.bin (not_lit q) with
  | none =>
    simp only []
    exact hwalk s h (Grows.refl s) hP rfl
  | some v =>
    simp only []
    have hv : ∀ m ∈ v, valid_lit s m := by
      intro m hm
      have := h.bin (not_lit q) (valid_nonneg hl0) hl0.2 m
      rw [hb] at this
      exact this hm
    have href := bin_vector_refines v s (not_lit q) h.assign.end1
      (fun m hm => valid_nonneg (hv m hm))
    rw [href]
    obtain ⟨a1, a2, a3, a4, a5, a6, a7, a8⟩ := bin_walk_inv v s (not_lit q) i h hl0 hf hv hP hi
    cases hr : (bin_walk_spec s (not_lit q) v).1 with
    | true =>
      simp only [if_true]
      exact hwalk _ a1 a2 a3 a6
    | false =>
      simp only [Bool.false_eq_true, if_false]
      refine ⟨a1, a2, a6, a3, ?_, ?_⟩
      · intro hh; cases hh
      · intro _
        obtain ⟨b1, m, hm, b2, b3⟩ := a8 hr
        exact ⟨b1, (falseConflict_binary (a2.valid hl0) (a2.valid (hv m hm))
          (a2.value_false hf) b2 b3).1⟩

/-! ### The propagation loop -/

theorem trail_length_le {s : smt_core_t} (h : AssignInv s) : s.stack.top ≤ s.nlits := by
  have hnd : (s.stack.lit.map Int.toNat).Nodup := by
    refine List.Nodup.map_on ?_ h.trail_nodup
    intro x hx y hy e
    have hx0 := valid_nonneg (h.trail_valid x hx)
    have hy0 := valid_nonneg (h.trail_valid y hy)
    omega
  have hsub : s.stack.lit.map Int.toNat ⊆ List.range s.nlits := by
    intro n hn
    obtain ⟨x, hx, e⟩ := List.mem_map.1 hn
    have hv := h.trail_valid x hx
    have hx0 := valid_nonneg hv
    have hx1 := hv.2
    rw [List.mem_range]; omega
  have := (List.subperm_of_subset hnd hsub).length_le
  rw [List.length_map, List.length_range] at this
  exact this

/-- Trivial start of the propagated prefix. -/
theorem propagated_zero (s : smt_core_t) : Propagated s 0 := by
  intro c _ _ j _ _ hin
  simp at hin

theorem boolean_propagation_loop_inv (fuel : Nat) :
    ∀ (i : Nat) (s : smt_core_t), CoreInv s →
    ∀ r, boolean_propagation_loop fuel i s = some r →
    CoreInv r.2 ∧ Grows s r.2 ∧
    (r.1 = true → r.2.stack.prop_ptr = i ⊔ r.2.stack.top ∧
      (i ≤ s.stack.top → Propagated s i → Propagated r.2 r.2.stack.top)) ∧
    (r.1 = false → r.2.stack.prop_ptr = s.stack.prop_ptr ∧ r.2.inconsistent = true ∧
      FalseConflict r.2) := by
  induction fuel with
  | zero => intro i s _ r hr; cases hr
  | succ fuel ih =>
    intro i s h r hr
    unfold boolean_propagation_loop at hr
    by_cases hlt : i < s.stack.top
    · rw [if_pos hlt] at hr
      have hmem : s.stack.lit.getD i 0 ∈ s.stack.lit := getD_mem hlt
      obtain ⟨a1, a2, a3, -, -, a5⟩ := boolean_propagation_step_inv h hmem (propagated_zero s)
        (Nat.zero_le _)
      have hstep := fun hP => (boolean_propagation_step_inv h hmem hP (Nat.le_of_lt hlt)).2.2.2.2.1
      generalize boolean_propagation_step s (not_lit (s.stack.lit.getD i 0)) = r1
        at a1 a2 a3 a5 hstep hr
      cases hb : r1.1 with
      | true =>
        simp only [hb, if_true] at hr
        obtain ⟨b1, b2, b3, b4⟩ := ih (i + 1) r1.2 a1 r hr
        refine ⟨b1, a2.trans b2, ?_, fun hf => ⟨(b4 hf).1.trans a3, (b4 hf).2⟩⟩
        intro hrt
        obtain ⟨c1, c2⟩ := b3 hrt
        have hle : i + 1 ≤ r1.2.stack.top := Nat.le_trans hlt a2.top_le
        have hle2 : r1.2.stack.top ≤ r.2.stack.top := b2.top_le
        refine ⟨?_, fun _ hP => c2 hle (hstep hP hb hlt rfl)⟩
        rw [c1]
        rw [Nat.max_eq_right (Nat.le_trans hle hle2),
          Nat.max_eq_right (Nat.le_trans (Nat.le_succ i) (Nat.le_trans hle hle2))]
      | false =>
        simp only [hb, Bool.false_eq_true, if_false, Option.some.injEq] at hr
        subst hr
        exact ⟨a1, a2, fun hh => (by cases hh), fun _ => ⟨a3, a5 hb⟩⟩
    · rw [if_neg hlt] at hr
      simp only [Option.some.injEq] at hr
      subst hr
      refine ⟨coreInv_of_frame h rfl rfl rfl rfl rfl rfl rfl rfl rfl rfl rfl rfl rfl rfl rfl rfl, ?_, ?_, ?_⟩
      · exact ⟨rfl, rfl, rfl, rfl, rfl, rfl, rfl, rfl, ⟨[], (List.append_nil _).symm⟩,
          fun _ _ => rfl, rfl, rfl⟩
      · intro _
        refine ⟨?_, ?_⟩
        · show i = i ⊔ s.stack.top
          rw [Nat.max_eq_left (Nat.le_of_not_lt hlt)]
        · intro hi hP
          have e : i = s.stack.top := Nat.le_antisymm hi (Nat.le_of_not_lt hlt)
          rw [e] at hP
          exact propagated_of_frame hP rfl rfl rfl rfl rfl
      · intro hh; cases hh

theorem boolean_propagation_loop_terminates (fuel : Nat) :
    ∀ (i : Nat) (s : smt_core_t), CoreInv s → i ≤ s.stack.top →
    s.nlits + 1 ≤ fuel + i → ∃ r, boolean_propagation_loop fuel i s = some r := by
  induction fuel with
  | zero =>
    intro i s h hi hb
    have := trail_length_le h.assign
    omega
  | succ fuel ih =>
    intro i s h hi hb
    unfold boolean_propagation_loop
    by_cases hlt : i < s.stack.top
    · rw [if_pos hlt]
      obtain ⟨a1, a2, -, -, -, -⟩ := boolean_propagation_step_inv h
        (getD_mem hlt) (propagated_zero s) (Nat.zero_le _)
      generalize boolean_propagation_step s (not_lit (s.stack.lit.getD i 0)) = r1
        at a1 a2
      cases hr : r1.1 with
      | true =>
        simp only [hr, if_true]
        exact ih (i + 1) r1.2 a1 (Nat.le_trans hlt a2.top_le)
          (by rw [a2.nlits]; omega)
      | false =>
        simp only [hr, Bool.false_eq_true, if_false]
        exact ⟨_, rfl⟩
    · rw [if_neg hlt]; exact ⟨_, rfl⟩

theorem coreInv_sample_two : CoreInv sample_two := by
  refine ⟨⟨by decide, by decide, by decide, by decide, by decide, by decide, by decide⟩,
    ⟨by decide, by decide, by decide⟩, ⟨by decide, by decide, by decide⟩, ?_,
    ⟨by decide, by decide, by decide, by decide, by decide⟩, ?_, ?_⟩
  · unfold BinInv; decide
  · unfold AnteInv; decide
  · unfold MarkInv; decide

theorem foldl_backtrack_undo_eq (ds : List Int) (s : smt_core_t) :
    ds.foldl backtrack_undo s
      = { s with value := undo_value s.value ds, polarity := undo_polarity s.polarity ds } := by
  induction ds generalizing s with
  | nil => rfl
  | cons d ds ih => rw [List.foldl_cons, ih]; rfl

theorem undo_value_apply (v : Int → bval_t) (ds : List Int) (x : Int) :
    undo_value v ds x = if (∃ d ∈ ds, x = d ∨ x = not_lit d) then VAL_UNDEF else v x := by
  induction ds generalizing v with
  | nil => simp [undo_value]
  | cons e ds ih =>
    have hstep : undo_value v (e :: ds) = undo_value (upd (upd v e VAL_UNDEF) (not_lit e) VAL_UNDEF) ds := rfl
    rw [hstep, ih]
    by_cases h1 : ∃ d ∈ ds, x = d ∨ x = not_lit d
    · have h2 : ∃ d ∈ e :: ds, x = d ∨ x = not_lit d := by
        obtain ⟨d, hd, hx⟩ := h1
        exact ⟨d, List.mem_cons_of_mem _ hd, hx⟩
      rw [if_pos h1, if_pos h2]
    · rw [if_neg h1]
      by_cases h3 : x = e ∨ x = not_lit e
      · have h2 : ∃ d ∈ e :: ds, x = d ∨ x = not_lit d := ⟨e, List.mem_cons_self _ _, h3⟩
        rw [if_pos h2]
        rcases h3 with h3 | h3
        · rw [h3, upd_apply, upd_same]; split <;> rfl
        · rw [h3, upd_same]
      · have h2 : ¬ ∃ d ∈ e :: ds, x = d ∨ x = not_lit d := by
          rintro ⟨d, hd, hx⟩
          rcases List.mem_cons.1 hd with hd | hd
          · exact h3 (hd ▸ hx)
          · exact h1 ⟨d, hd, hx⟩
        rw [if_neg h2]
        have h4 : x ≠ e := fun e => h3 (Or.inl e)
        have h5 : x ≠ not_lit e := fun e => h3 (Or.inr e)
        rw [upd_ne _ _ h5, upd_ne _ _ h4]

theorem undo_value_of_mem (v : Int → bval_t) {ds : List Int} {x d : Int} (hd : d ∈ ds)
    (hx : x = d ∨ x = not_lit d) : undo_value v ds x = VAL_UNDEF := by
  rw [undo_value_apply, if_pos ⟨d, hd, hx⟩]

theorem undo_value_of_not (v : Int → bval_t) {ds : List Int} {x : Int}
    (hx : ∀ d ∈ ds, x ≠ d ∧ x ≠ not_lit d) : undo_value v ds x = v x := by
  rw [undo_value_apply, if_neg]
  rintro ⟨d, hd, h | h⟩
  · exact (hx d hd).1 h
  · exact (hx d hd).2 h

/-- Closed form of `backtrack`. -/
theorem backtrack_eq (s : smt_core_t) (k : Nat) :
    backtrack s k =
      { s with
        value := undo_value s.value (s.stack.lit.drop (s.stack.level_index (k + 1))).reverse
        polarity := undo_polarity s.polarity (s.stack.lit.drop (s.stack.level_index (k + 1))).reverse
        stack := { s.stack with
          lit := s.stack.lit.take (s.stack.level_index (k + 1))
          prop_ptr := (s.stack.lit.take (s.stack.level_index (k + 1))).length
          theory_ptr := (s.stack.lit.take (s.stack.level_index (k + 1))).length }
        decision_level := k
        cp_flag := match s.checkpoints.head? with
          | some c => decide (c.dlevel ≥ k)
          | none => false } := by
  unfold backtrack
  simp only [foldl_backtrack_undo_eq]

/-- Split of a list whose prefix is a filter: the rest fails the test. -/
theorem drop_of_take_eq_filter {α : Type} (p : α → Bool) (l : List α) (n : Nat)
    (h : l.take n = l.filter p) : ∀ x ∈ l.drop n, p x = false := by
  have h1 : l.filter p = (l.take n).filter p ++ (l.drop n).filter p := by
    rw [← List.filter_append, List.take_append_drop]
  have h2 : (l.take n).filter p = l.take n := by
    rw [h, List.filter_filter]; simp
  rw [h2, ← h] at h1
  have h3 : (l.drop n).filter p = [] := by
    have := congrArg List.length h1
    rw [List.length_append] at this
    exact List.eq_nil_of_length_eq_zero (by omega)
  intro x hx
  by_contra hp
  have : x ∈ (l.drop n).filter p := List.mem_filter.2 ⟨hx, by simpa using hp⟩
  rw [h3] at this; cases this

theorem backtrack_dropped {s : smt_core_t} (h : LevelInv s) {k : Nat} (hk : k < s.decision_level) :
    ∀ x ∈ s.stack.lit.drop (s.stack.level_index (k + 1)), k < s.level (var_of x) := by
  intro x hx
  have := drop_of_take_eq_filter _ _ _ (h.index (k + 1) hk) x hx
  simp at this
  omega

theorem backtrack_kept {s : smt_core_t} (h : LevelInv s) {k : Nat} (hk : k < s.decision_level) :
    ∀ x ∈ s.stack.lit.take (s.stack.level_index (k + 1)), s.level (var_of x) ≤ k := by
  intro x hx
  rw [h.index (k + 1) hk] at hx
  have := (List.mem_filter.1 hx).2
  simp at this
  omega

/-- Values after `backtrack`: the literals of level above `back_level` are
unassigned, the others keep their value. -/
theorem backtrack_value_undone {s : smt_core_t} {k : Nat} {x d : Int}
    (hd : d ∈ s.stack.lit.drop (s.stack.level_index (k + 1))) (hx : x = d ∨ x = not_lit d) :
    (backtrack s k).value x = VAL_UNDEF := by
  rw [backtrack_eq]
  exact undo_value_of_mem _ (List.mem_reverse.2 hd) hx

theorem backtrack_value_other {s : smt_core_t} {k : Nat} {x : Int}
    (hx : ∀ d ∈ s.stack.lit.drop (s.stack.level_index (k + 1)), x ≠ d ∧ x ≠ not_lit d) :
    (backtrack s k).value x = s.value x := by
  rw [backtrack_eq]
  exact undo_value_of_not _ (fun d hd => hx d (List.mem_reverse.1 hd))

theorem backtrack_value_level {s : smt_core_t} (h : LevelInv s) {k : Nat}
    (hk : k < s.decision_level) {x : Int} (hx : s.level (var_of x) ≤ k) :
    (backtrack s k).value x = s.value x := by
  apply backtrack_value_other
  intro d hd
  have := backtrack_dropped h hk d hd
  constructor
  · intro e; rw [e] at hx; omega
  · intro e; rw [e, var_of_not_lit] at hx; omega

theorem backtrack_value_kept {s : smt_core_t} (hA : AssignInv s) {k : Nat} {x : Int}
    (hx : x ∈ s.stack.lit.take (s.stack.level_index (k + 1)) ∨
      not_lit x ∈ s.stack.lit.take (s.stack.level_index (k + 1))) :
    (backtrack s k).value x = s.value x := by
  apply backtrack_value_other
  intro d hd
  have hnd : (s.stack.lit.take (s.stack.level_index (k + 1))
      ++ s.stack.lit.drop (s.stack.level_index (k + 1))).Nodup := by
    rw [List.take_append_drop]; exact hA.trail_nodup
  have hdis := (List.nodup_append.1 hnd).2.2
  have hdl : d ∈ s.stack.lit := List.mem_of_mem_drop hd
  have hdv := hA.trail_valid d hdl
  rcases hx with hx | hx
  · have hxl : x ∈ s.stack.lit := List.mem_of_mem_take hx
    constructor
    · intro e; exact hdis hx (e ▸ hd)
    · intro e
      have h1 := trail_value_true hA hxl
      have h2 := trail_value_not hA hdl
      rw [← e, h1] at h2; cases h2
  · have hxl : not_lit x ∈ s.stack.lit := List.mem_of_mem_take hx
    constructor
    · intro e
      have h1 := trail_value_true hA hdl
      have h2 := trail_value_not hA hxl
      rw [not_lit_not_lit] at h2
      rw [← e, h2] at h1; cases h1
    · intro e
      apply hdis hx
      rw [e, not_lit_not_lit]; exact hd

theorem assignInv_backtrack {s : smt_core_t} (hA : AssignInv s) (k : Nat) :
    AssignInv (backtrack s k) := by
  have hlit : (backtrack s k).stack.lit = s.stack.lit.take (s.stack.level_index (k + 1)) := by
    rw [backtrack_eq]
  have hnl : (backtrack s k).nlits = s.nlits := by rw [backtrack_eq]
  have hnv : (backtrack s k).nvars = s.nvars := by rw [backtrack_eq]
  have hfold := foldl_backtrack_undo (s.stack.lit.drop (s.stack.level_index (k + 1))).reverse s
    (fun l hl => valid_nonneg (hA.trail_valid l (List.mem_of_mem_drop (List.mem_reverse.1 hl))))
    hA.sym hA.end1 hA.end2
  obtain ⟨-, f2, -, -, -, f6, f7, f8⟩ := hfold
  constructor
  · rw [hnl, hnv]; exact hA.nlits_eq
  · exact f6
  · exact f7
  · exact f8
  · rw [hlit]; intro l hl
    have := hA.trail_valid l (List.mem_of_mem_take hl)
    unfold valid_lit at this ⊢; rw [hnl]; exact this
  · rw [hlit, hnl]; intro l h2 hl
    by_cases hd : ∃ d ∈ s.stack.lit.drop (s.stack.level_index (k + 1)), l = d ∨ l = not_lit d
    · obtain ⟨d, hd, hx⟩ := hd
      rw [backtrack_value_undone hd hx]
      constructor
      · intro e; cases e
      · intro hm
        exfalso
        have hv := backtrack_value_kept hA (k := k) (Or.inl hm)
        rw [backtrack_value_undone hd hx] at hv
        rw [trail_value_true hA (List.mem_of_mem_take hm)] at hv
        cases hv
    · have hd2 : ∀ d ∈ s.stack.lit.drop (s.stack.level_index (k + 1)), l ≠ d ∧ l ≠ not_lit d :=
        fun d hd1 => ⟨fun e => hd ⟨d, hd1, Or.inl e⟩, fun e => hd ⟨d, hd1, Or.inr e⟩⟩
      rw [backtrack_value_other hd2, hA.trail_true l h2 hl]
      constructor
      · intro hm
        rw [← List.take_append_drop (s.stack.level_index (k + 1)) s.stack.lit] at hm
        rcases List.mem_append.1 hm with hm | hm
        · exact hm
        · exact absurd rfl (hd2 l hm).1
      · exact List.mem_of_mem_take
  · rw [hlit]; exact hA.trail_nodup.sublist (List.take_sublist _ _)

theorem filter_filter_lt {s : smt_core_t} (tr : List Int) {j k : Nat} (hj : j ≤ k) :
    (tr.filter (fun l => decide (s.level (var_of l) < k))).filter
        (fun l => decide (s.level (var_of l) < j))
      = tr.filter (fun l => decide (s.level (var_of l) < j)) := by
  rw [List.filter_filter]
  apply List.filter_congr
  intro x _
  by_cases hx : s.level (var_of x) < j
  · have : s.level (var_of x) < k := by omega
    simp [hx, this]
  · simp [hx]

theorem level_index_mono {s : smt_core_t} (h : LevelInv s) {j k : Nat} (hj : j ≤ k)
    (hk : k ≤ s.decision_level) : s.stack.level_index j ≤ s.stack.level_index k := by
  have h1 := congrArg List.length (h.index j (Nat.le_trans hj hk))
  have h2 := congrArg List.length (h.index k hk)
  have h3 := h.index_le j (Nat.le_trans hj hk)
  have h4 := h.index_le k hk
  unfold prop_stack_t.top at h3 h4
  rw [List.length_take, Nat.min_eq_left h3] at h1
  rw [List.length_take, Nat.min_eq_left h4] at h2
  rw [h1, h2, ← filter_filter_lt s.stack.lit hj]
  exact List.length_filter_le _ _

theorem levelInv_backtrack {s : smt_core_t} (hL : LevelInv s) {k : Nat}
    (hb : s.base_level ≤ k) (hk : k < s.decision_level) : LevelInv (backtrack s k) := by
  have hlit : (backtrack s k).stack.lit = s.stack.lit.take (s.stack.level_index (k + 1)) := by
    rw [backtrack_eq]
  have hli : (backtrack s k).stack.level_index = s.stack.level_index := by rw [backtrack_eq]
  have hlev : (backtrack s k).level = s.level := by rw [backtrack_eq]
  have hdl : (backtrack s k).decision_level = k := by rw [backtrack_eq]
  have hbl : (backtrack s k).base_level = s.base_level := by rw [backtrack_eq]
  constructor
  · rw [hdl, hbl]; exact hb
  · rw [hlit, hlev, hdl]; exact backtrack_kept hL hk
  · rw [hlit, hlev]; exact hL.sorted.sublist (List.take_sublist _ _)
  · unfold prop_stack_t.top
    rw [hlit, hli, hdl]
    intro j hj
    have h4 := hL.index_le (k + 1) hk
    unfold prop_stack_t.top at h4
    rw [List.length_take, Nat.min_eq_left h4]
    exact level_index_mono hL (by omega) hk
  · rw [hlit, hli, hlev, hdl]
    intro j hj
    have hm : s.stack.level_index j ≤ s.stack.level_index (k + 1) :=
      level_index_mono hL (by omega) hk
    rw [List.take_take, Nat.min_eq_left hm, hL.index j (by omega), hL.index (k + 1) hk,
      filter_filter_lt s.stack.lit (by omega : j ≤ k + 1)]

theorem clauseInv_of_frame {s t : smt_core_t} (h : ClauseInv s) (e1 : t.nlits = s.nlits)
    (e5 : t.clauses = s.clauses) (e6 : t.problem_clauses = s.problem_clauses)
    (e7 : t.learned_clauses = s.learned_clauses) : ClauseInv t := by
  have est : stored t = stored s := by unfold stored; rw [e6, e7]
  constructor
  · rw [est, e5]; exact h.len
  · rw [est, e5]; intro c hc hr k hk
    have := h.valid c hc hr k hk
    unfold valid_lit at this ⊢; rw [e1]; exact this
  · rw [est, e5]; exact h.distinct

/-- The antecedent relation only reads the values of the literals of `tr` and
of their negations. -/
theorem ante_ok_agree {s t : smt_core_t} {tr : List Int} {x : Int} {a : antecedent_t}
    (ha : ante_ok s tr x a) (e1 : t.nlits = s.nlits) (e5 : t.clauses = s.clauses)
    (e13 : t.expand = s.expand) (est : stored t = stored s)
    (hv : ∀ m, m ∈ tr ∨ not_lit m ∈ tr → t.value m = s.value m) : ante_ok t tr x a := by
  have hvalid : ∀ m, valid_lit s m → valid_lit t m := fun m hm => by
    unfold valid_lit at hm ⊢; rw [e1]; exact hm
  have hact : ∀ c, active s c → active t c := fun c hc => by
    unfold active at hc ⊢; rw [est, e5]; exact hc
  cases a with
  | literal m =>
    unfold ante_ok at ha ⊢
    rcases ha with ha | ⟨h1, h2, h3⟩
    · exact Or.inl ha
    · exact Or.inr ⟨hvalid m h1, by rw [hv m (Or.inr h3)]; exact h2, h3⟩
  | clause0 c =>
    unfold ante_ok at ha ⊢
    obtain ⟨h1, h2, h3⟩ := ha
    rw [e5]
    exact ⟨hact c h1, h2, fun k hk hk0 =>
      ⟨by rw [hv _ (Or.inr (h3 k hk hk0).2)]; exact (h3 k hk hk0).1, (h3 k hk hk0).2⟩⟩
  | clause1 c =>
    unfold ante_ok at ha ⊢
    obtain ⟨h1, h2, h3⟩ := ha
    rw [e5]
    exact ⟨hact c h1, h2, fun k hk hk0 =>
      ⟨by rw [hv _ (Or.inr (h3 k hk hk0).2)]; exact (h3 k hk hk0).1, (h3 k hk hk0).2⟩⟩
  | generic e =>
    unfold ante_ok at ha ⊢
    rw [e13]
    intro m hm
    obtain ⟨h1, h2, h3⟩ := ha m hm
    exact ⟨hvalid m h1, by rw [hv m (Or.inl h3)]; exact h2, h3⟩

theorem anteInv_backtrack {s : smt_core_t} (hA : AssignInv s) (h : AnteInv s) (k : Nat) :
    AnteInv (backtrack s k) := by
  have hlit : (backtrack s k).stack.lit = s.stack.lit.take (s.stack.level_index (k + 1)) := by
    rw [backtrack_eq]
  have hante : (backtrack s k).antecedent = s.antecedent := by rw [backtrack_eq]
  unfold AnteInv
  rw [hlit, hante]
  intro l hl
  have h0 := h l (List.mem_of_mem_take hl)
  have hsplit := takeWhile_append_of_mem (s.stack.lit.drop (s.stack.level_index (k + 1))) hl
  rw [List.take_append_drop] at hsplit
  rw [hsplit] at h0
  refine ante_ok_agree h0 (by rw [backtrack_eq]) (by rw [backtrack_eq]) (by rw [backtrack_eq])
    (by rw [backtrack_eq]; rfl) ?_
  intro m hm
  apply backtrack_value_kept hA
  rcases hm with hm | hm
  · exact Or.inl (mem_of_mem_takeWhile hm)
  · exact Or.inr (mem_of_mem_takeWhile hm)

theorem markInv_backtrack {s : smt_core_t} (hL : LevelInv s) (h : MarkInv s)
    {k : Nat} (hb : s.base_level ≤ k) (hk : k < s.decision_level) : MarkInv (backtrack s k) := by
  have hnv : (backtrack s k).nvars = s.nvars := by rw [backtrack_eq]
  have hlev : (backtrack s k).level = s.level := by rw [backtrack_eq]
  have hbl : (backtrack s k).base_level = s.base_level := by rw [backtrack_eq]
  have hmk : (backtrack s k).mark = s.mark := by rw [backtrack_eq]
  unfold MarkInv
  rw [hnv, hlev, hbl, hmk]
  intro x h0 hx
  rw [h x h0 hx]
  by_cases hlv : s.level x ≤ k
  · rw [backtrack_value_level hL hk (by rw [var_of_pos_lit]; exact hlv)]
  · constructor
    · intro h1; omega
    · intro h1; omega

theorem coreInv_backtrack {s : smt_core_t} (h : CoreInv s) {k : Nat}
    (hb : s.base_level ≤ k) (hk : k < s.decision_level) : CoreInv (backtrack s k) :=
  ⟨assignInv_backtrack h.assign k,
   clauseInv_of_frame h.clause (by rw [backtrack_eq]) (by rw [backtrack_eq]) (by rw [backtrack_eq])
     (by rw [backtrack_eq]),
   by
     have := watchInvW_of_frame (t := backtrack s k) h.watch (by rw [backtrack_eq])
       (by rw [backtrack_eq]) (by rw [backtrack_eq]) (by rw [backtrack_eq])
     have e : (backtrack s k).watch = s.watch := by rw [backtrack_eq]
     unfold WatchInv; rw [e]; exact this,
   binInv_of_frame h.bin (by rw [backtrack_eq]) (by rw [backtrack_eq]),
   levelInv_backtrack h.level hb hk,
   anteInv_backtrack h.assign h.ante k,
   markInv_backtrack h.level h.mark hb hk⟩

/-! ## Decisions -/

/-- State of `decide_literal` after the decision level has been increased, before
the literal is assigned. -/
theorem decide_literal_eq {s : smt_core_t} (hb : s.base_level ≤ s.decision_level) (l : Int) :
    decide_literal s l =
      implied_literal
        { s with
          decision_level := s.decision_level + 1
          stack := { s.stack with
            level_index := fun j =>
              if j = s.decision_level + 1 then s.stack.top else s.stack.level_index j }
          th_calls := s.th_calls ++ [th_call_t.increase_decision_level] }
        l (mk_literal_antecedent null_literal) := by
  have hne : ¬ s.decision_level + 1 = s.base_level := by omega
  unfold decide_literal implied_literal
  simp [hne, push_literal]

theorem coreInv_open_level {s : smt_core_t} (h : CoreInv s) :
    CoreInv { s with
      decision_level := s.decision_level + 1
      stack := { s.stack with
        level_index := fun j =>
          if j = s.decision_level + 1 then s.stack.top else s.stack.level_index j }
      th_calls := s.th_calls ++ [th_call_t.increase_decision_level] } := by
  refine ⟨assignInv_of_frame h.assign rfl rfl rfl rfl, clauseInv_of_frame h.clause rfl rfl rfl rfl,
    watchInvW_of_frame h.watch rfl rfl rfl rfl, binInv_of_frame h.bin rfl rfl, ?_, ?_,
    markInv_of_frame h.mark rfl rfl rfl rfl rfl⟩
  · constructor
    · exact Nat.le_succ_of_le h.level.base_le
    · intro x hx; exact Nat.le_succ_of_le (h.level.le_dl x hx)
    · exact h.level.sorted
    · intro k hk
      show (if k = s.decision_level + 1 then s.stack.top else s.stack.level_index k) ≤ s.stack.top
      split
      · exact Nat.le_refl _
      · exact h.level.index_le k (by
          have hk2 : k ≤ s.decision_level + 1 := hk
          omega)
    · intro k hk
      show List.take (if k = s.decision_level + 1 then s.stack.top else s.stack.level_index k)
        s.stack.lit = s.stack.lit.filter (fun l => decide (s.level (var_of l) < k))
      split
      · next e =>
        unfold prop_stack_t.top
        rw [List.take_length]
        symm
        apply List.filter_eq_self.2
        intro x hx
        have := h.level.le_dl x hx
        simp; omega
      · next e =>
        exact h.level.index k (by
          have hk2 : k ≤ s.decision_level + 1 := hk
          omega)
  · intro l hl
    exact ante_ok_congr (h.ante l hl) rfl rfl rfl rfl (fun _ _ => rfl)

theorem coreInv_decide {s : smt_core_t} (h : CoreInv s) {l : Int} (hl : valid_lit s l)
    (hu : s.value l = VAL_UNDEF) : CoreInv (decide_literal s l) := by
  rw [decide_literal_eq h.level.base_le]
  exact coreInv_implied (coreInv_open_level h) hl hu (Or.inl rfl)

/-! ## Learned clauses -/

theorem backtrack_to_level_eq {s : smt_core_t} {k : Nat} (hk : k < s.decision_level) :
    backtrack_to_level s k
      = { backtrack s k with
          th_calls := (backtrack s k).th_calls ++ [th_call_t.backtrack k] } := by
  unfold backtrack_to_level; rw [if_pos hk]

theorem backtrack_to_level_ge {s : smt_core_t} {k : Nat} (hk : s.decision_level ≤ k) :
    backtrack_to_level s k = s := by
  unfold backtrack_to_level; rw [if_neg (by omega)]

theorem coreInv_backtrack_to_level {s : smt_core_t} (h : CoreInv s) {k : Nat}
    (hb : s.base_level ≤ k) : CoreInv (backtrack_to_level s k) := by
  by_cases hk : k < s.decision_level
  · rw [backtrack_to_level_eq hk]
    exact coreInv_of_frame (coreInv_backtrack h hb hk) rfl rfl rfl rfl rfl rfl rfl rfl rfl rfl rfl
      rfl rfl rfl rfl rfl
  · rw [backtrack_to_level_ge (by omega)]; exact h

/-- Assignment stack after `backtrack_to_level`: the literals of level at most
`k` stay. -/
theorem backtrack_to_level_lit {s : smt_core_t} (hL : LevelInv s) (k : Nat) :
    (backtrack_to_level s k).stack.lit
      = s.stack.lit.filter (fun l => decide (s.level (var_of l) < k + 1)) := by
  by_cases hk : k < s.decision_level
  · rw [backtrack_to_level_eq hk, backtrack_eq]
    exact hL.index (k + 1) hk
  · rw [backtrack_to_level_ge (by omega)]
    symm
    apply List.filter_eq_self.2
    intro x hx
    have := hL.le_dl x hx
    simp; omega

theorem backtrack_to_level_value {s : smt_core_t} (hL : LevelInv s) {k : Nat} {x : Int}
    (hx : s.level (var_of x) ≤ k) : (backtrack_to_level s k).value x = s.value x := by
  by_cases hk : k < s.decision_level
  · rw [backtrack_to_level_eq hk]
    exact backtrack_value_level hL hk hx
  · rw [backtrack_to_level_ge (by omega)]

theorem backtrack_to_level_undef {s : smt_core_t} (hA : AssignInv s) (hL : LevelInv s) {k : Nat}
    {x : Int} (hv : valid_lit s x) (ha : s.value x ≠ VAL_UNDEF) (hx : k < s.level (var_of x)) :
    (backtrack_to_level s k).value x = VAL_UNDEF := by
  have hon : ∃ d ∈ s.stack.lit, x = d ∨ x = not_lit d := by
    cases hval : s.value x with
    | VAL_UNDEF => exact absurd hval ha
    | VAL_TRUE => exact ⟨x, (hA.trail_true x hv.1 hv.2).1 hval, Or.inl rfl⟩
    | VAL_FALSE => exact ⟨not_lit x, assigned_on_trail hA hv hval, Or.inr (not_lit_not_lit x).symm⟩
  obtain ⟨d, hd, hxd⟩ := hon
  have hlv : s.level (var_of d) = s.level (var_of x) := by
    rcases hxd with e | e
    · rw [e]
    · rw [e, var_of_not_lit]
  have hdl := hL.le_dl d hd
  have hk : k < s.decision_level := by omega
  rw [backtrack_to_level_eq hk]
  show (backtrack s k).value x = VAL_UNDEF
  refine backtrack_value_undone (d := d) ?_ hxd
  rw [← List.take_append_drop (s.stack.level_index (k + 1)) s.stack.lit] at hd
  rcases List.mem_append.1 hd with h1 | h1
  · have := backtrack_kept hL hk d h1
    omega
  · exact h1

theorem backtrack_to_level_dl {s : smt_core_t} {k : Nat} (hk : k ≤ s.decision_level) :
    (backtrack_to_level s k).decision_level = k := by
  by_cases hk2 : k < s.decision_level
  · rw [backtrack_to_level_eq hk2, backtrack_eq]
  · rw [backtrack_to_level_ge (by omega)]; omega

/-- Level of a literal that is assigned. -/
theorem level_le_of_assigned {s : smt_core_t} (hA : AssignInv s) (hL : LevelInv s) {x : Int}
    (hv : valid_lit s x) (ha : s.value x ≠ VAL_UNDEF) : s.level (var_of x) ≤ s.decision_level := by
  cases hval : s.value x with
  | VAL_UNDEF => exact absurd hval ha
  | VAL_TRUE => exact hL.le_dl x ((hA.trail_true x hv.1 hv.2).1 hval)
  | VAL_FALSE =>
    have := hL.le_dl _ (assigned_on_trail hA hv hval)
    rw [var_of_not_lit] at this; exact this

theorem second_level_loop_spec (level : Int → Nat) (a : List Int) (n : Nat) :
    ∀ (i : Nat) (jk : Nat × Nat), a.length - i = n → jk.1 < i → i ≤ a.length →
      jk.2 = level (var_of (a.getD jk.1 0)) →
      (second_level_loop level (a.drop i) i jk).1 < a.length ∧
      jk.1 ≤ (second_level_loop level (a.drop i) i jk).1 ∧
      (second_level_loop level (a.drop i) i jk).2
        = level (var_of (a.getD (second_level_loop level (a.drop i) i jk).1 0)) ∧
      jk.2 ≤ (second_level_loop level (a.drop i) i jk).2 ∧
      ∀ m, i ≤ m → m < a.length →
        level (var_of (a.getD m 0)) ≤ (second_level_loop level (a.drop i) i jk).2 := by
  induction n with
  | zero =>
    intro i jk hn hj hi hk
    have : a.drop i = [] := List.drop_eq_nil_of_le (by omega)
    rw [this]
    unfold second_level_loop
    exact ⟨by omega, Nat.le_refl _, hk, Nat.le_refl _, fun m h1 h2 => by omega⟩
  | succ n ih =>
    intro i jk hn hj hi hk
    have hlt : i < a.length := by omega
    have hd : a.drop i = a[i] :: a.drop (i + 1) := List.drop_eq_getElem_cons hlt
    have hg : a.getD i 0 = a[i] := by simp [List.getD_eq_getElem?_getD, hlt]
    rw [hd]
    unfold second_level_loop
    by_cases hq : level (var_of a[i]) > jk.2
    · rw [if_pos hq]
      obtain ⟨r1, r2, r3, r4, r5⟩ := ih (i + 1) (i, level (var_of a[i])) (by omega)
        (Nat.lt_succ_self i) (by omega) (by rw [← hg])
      refine ⟨r1, by simp only at r2; omega, r3, by simp only at r4; omega, ?_⟩
      intro m h1 h2
      rcases Nat.eq_or_lt_of_le h1 with e | e
      · rw [← e, hg]; exact r4
      · exact r5 m e h2
    · rw [if_neg hq]
      obtain ⟨r1, r2, r3, r4, r5⟩ := ih (i + 1) jk (by omega) (by omega) (by omega) hk
      refine ⟨r1, r2, r3, r4, ?_⟩
      intro m h1 h2
      rcases Nat.eq_or_lt_of_le h1 with e | e
      · rw [← e, hg]; omega
      · exact r5 m e h2

theorem swap_second_length (a : List Int) (j : Nat) : (swap_second a j).length = a.length := by
  unfold swap_second; simp

theorem swap_second_getD (a : List Int) {j : Nat} (h1 : 1 < a.length) (hj : j < a.length)
    (i : Nat) :
    (swap_second a j).getD i 0
      = a.getD (if i = 1 then j else if i = j then 1 else i) 0 := by
  unfold swap_second
  simp only [List.getD_eq_getElem?_getD, List.getElem?_set]
  by_cases e1 : i = 1
  · subst e1
    simp [h1, hj]
  · by_cases e2 : i = j
    · subst e2
      simp [h1, hj, e1, Ne.symm e1]
    · simp [e1, e2, Ne.symm e1, Ne.symm e2]

theorem ante_ok_transfer {s t : smt_core_t} {tr tr2 : List Int} {x : Int} {a : antecedent_t}
    (ha : ante_ok s tr x a) (e1 : t.nlits = s.nlits) (e13 : t.expand = s.expand)
    (hact : ∀ c, active s c → active t c ∧ t.clauses c = s.clauses c)
    (hv : ∀ m, m ∈ tr ∨ not_lit m ∈ tr → t.value m = s.value m) (htr : tr ⊆ tr2) :
    ante_ok t tr2 x a := by
  have hvalid : ∀ m, valid_lit s m → valid_lit t m := fun m hm => by
    unfold valid_lit at hm ⊢; rw [e1]; exact hm
  cases a with
  | literal m =>
    unfold ante_ok at ha ⊢
    rcases ha with ha | ⟨h1, h2, h3⟩
    · exact Or.inl ha
    · exact Or.inr ⟨hvalid m h1, by rw [hv m (Or.inr h3)]; exact h2, htr h3⟩
  | clause0 c =>
    unfold ante_ok at ha ⊢
    obtain ⟨h1, h2, h3⟩ := ha
    show active t c ∧ _ ∧ _
    rw [(hact c h1).2]
    exact ⟨(hact c h1).1, h2, fun k hk hk0 =>
      ⟨by rw [hv _ (Or.inr (h3 k hk hk0).2)]; exact (h3 k hk hk0).1, htr (h3 k hk hk0).2⟩⟩
  | clause1 c =>
    unfold ante_ok at ha ⊢
    obtain ⟨h1, h2, h3⟩ := ha
    show active t c ∧ _ ∧ _
    rw [(hact c h1).2]
    exact ⟨(hact c h1).1, h2, fun k hk hk0 =>
      ⟨by rw [hv _ (Or.inr (h3 k hk hk0).2)]; exact (h3 k hk hk0).1, htr (h3 k hk hk0).2⟩⟩
  | generic e =>
    unfold ante_ok at ha ⊢
    rw [e13]
    intro m hm
    obtain ⟨h1, h2, h3⟩ := ha m hm
    exact ⟨hvalid m h1, by rw [hv m (Or.inl h3)]; exact h2, htr h3⟩

theorem link_learned_clause_watch (s : smt_core_t) {a : List Int}
    (hne : a.getD 1 0 ≠ a.getD 0 0) (l : Int) :
    (link_learned_clause s a).watch l
      = if l = a.getD 1 0 then
          (if s.USE_END_WATCH then s.watch (a.getD 1 0) ++ [(s.nclauses_alloc, 1)]
            else (s.nclauses_alloc, 1) :: s.watch (a.getD 1 0))
        else if l = a.getD 0 0 then
          (if s.USE_END_WATCH then s.watch (a.getD 0 0) ++ [(s.nclauses_alloc, 0)]
            else (s.nclauses_alloc, 0) :: s.watch (a.getD 0 0))
        else s.watch l := by
  unfold link_learned_clause watch_add alloc_clause
  simp only [upd_apply, if_neg hne]

theorem mem_link_learned_clause_watch (s : smt_core_t) {a : List Int}
    (hne : a.getD 1 0 ≠ a.getD 0 0) (l : Int) (x : link_t) :
    x ∈ (link_learned_clause s a).watch l ↔
      (x = (s.nclauses_alloc, 1) ∧ l = a.getD 1 0) ∨ (x = (s.nclauses_alloc, 0) ∧ l = a.getD 0 0)
        ∨ x ∈ s.watch l := by
  rw [link_learned_clause_watch s hne]
  generalize a.getD 1 0 = l1 at hne ⊢
  generalize a.getD 0 0 = l0 at hne ⊢
  by_cases h1 : l = l1
  · have h0 : l ≠ l0 := fun e => hne (h1.symm.trans e)
    rw [if_pos h1, mem_watch_add, ← h1]
    simp [h0]
  · rw [if_neg h1]
    by_cases h0 : l = l0
    · rw [if_pos h0, mem_watch_add, ← h0]
      simp [h1]
    · rw [if_neg h0]; simp [h1, h0]

theorem stored_link_learned_clause (s : smt_core_t) (a : List Int) :
    stored (link_learned_clause s a) = stored s ++ [s.nclauses_alloc] := by
  unfold stored link_learned_clause watch_add alloc_clause
  simp

theorem link_learned_clause_clauses (s : smt_core_t) (a : List Int) :
    (link_learned_clause s a).clauses = updN s.clauses s.nclauses_alloc (new_learned_clause a) :=
  rfl

theorem link_learned_clause_old {s : smt_core_t} (hS : AllocInv s) (a : List Int) {c : Nat}
    (hc : c ∈ stored s) : (link_learned_clause s a).clauses c = s.clauses c := by
  have := hS c hc
  rw [link_learned_clause_clauses]
  unfold updN; rw [if_neg (by omega)]

theorem link_learned_clause_new (s : smt_core_t) (a : List Int) :
    (link_learned_clause s a).clauses s.nclauses_alloc = new_learned_clause a := by
  rw [link_learned_clause_clauses]; unfold updN; rw [if_pos rfl]

theorem new_learned_clause_get {a : List Int} {k : Nat} (hk : k < a.length) :
    (new_learned_clause a).get k = a.getD k 0 := by
  unfold new_learned_clause clause_t.get
  simp [List.getD_eq_getElem?_getD, hk]

theorem getD_mem_of_lt {a : List Int} {k : Nat} (hk : k < a.length) : a.getD k 0 ∈ a := by
  rw [List.getD_eq_getElem?_getD, List.getElem?_eq_getElem hk]
  exact List.getElem_mem hk

theorem getD_inj_of_nodup {a : List Int} (hn : a.Nodup) {i j : Nat} (hi : i < a.length)
    (hj : j < a.length) (e : a.getD i 0 = a.getD j 0) : i = j := by
  rw [List.getD_eq_getElem?_getD, List.getD_eq_getElem?_getD, List.getElem?_eq_getElem hi,
    List.getElem?_eq_getElem hj] at e
  exact (List.Nodup.getElem_inj_iff hn).1 e

theorem new_learned_not_removed {s : smt_core_t} {a : List Int} (h2 : 2 ≤ a.length)
    (hv : ∀ l ∈ a, valid_lit s l) : is_clause_to_be_removed (new_learned_clause a) = false := by
  unfold is_clause_to_be_removed
  rw [new_learned_clause_get (by omega : 0 < a.length),
    new_learned_clause_get (by omega : 1 < a.length)]
  have h0 := (hv _ (getD_mem_of_lt (by omega : 0 < a.length))).1
  have h1 := (hv _ (getD_mem_of_lt (by omega : 1 < a.length))).1
  generalize a.getD 0 0 = l0 at h0 ⊢
  generalize a.getD 1 0 = l1 at h1 ⊢
  simp; omega

/-- Closed form of `link_learned_clause`. -/
theorem link_learned_clause_eq (s : smt_core_t) (a : List Int) :
    link_learned_clause s a =
      { s with
        clauses := updN s.clauses s.nclauses_alloc (new_learned_clause a)
        nclauses_alloc := s.nclauses_alloc + 1
        learned_clauses := s.learned_clauses ++ [s.nclauses_alloc]
        watch := (link_learned_clause s a).watch
        nb_clauses := s.nb_clauses + 1 } := by
  unfold link_learned_clause watch_add alloc_clause
  simp only []

theorem active_link_learned_clause {s : smt_core_t} (hS : AllocInv s) (a : List Int) {c : Nat}
    (hc : active s c) :
    active (link_learned_clause s a) c ∧ (link_learned_clause s a).clauses c = s.clauses c := by
  have e := link_learned_clause_old hS a hc.1
  refine ⟨⟨?_, ?_⟩, e⟩
  · rw [stored_link_learned_clause]; exact List.mem_append_left _ hc.1
  · rw [e]; exact hc.2

theorem active_link_learned_new {s : smt_core_t} {a : List Int} (h2 : 2 ≤ a.length)
    (hv : ∀ l ∈ a, valid_lit s l) : active (link_learned_clause s a) s.nclauses_alloc := by
  refine ⟨?_, ?_⟩
  · rw [stored_link_learned_clause]; simp
  · rw [link_learned_clause_new]; exact new_learned_not_removed h2 hv

theorem allocInv_link_learned_clause {s : smt_core_t} (hS : AllocInv s) (a : List Int) :
    AllocInv (link_learned_clause s a) := by
  intro c hc
  rw [stored_link_learned_clause] at hc
  have e : (link_learned_clause s a).nclauses_alloc = s.nclauses_alloc + 1 := by
    rw [link_learned_clause_eq]
  rw [e]
  rcases List.mem_append.1 hc with h | h
  · exact Nat.lt_succ_of_lt (hS c h)
  · rw [List.mem_singleton] at h; omega

theorem coreInv_link_learned_clause {s : smt_core_t} (h : CoreInv s) (hS : AllocInv s)
    {a : List Int} (h2 : 2 ≤ a.length) (hv : ∀ l ∈ a, valid_lit s l) (hn : a.Nodup) :
    CoreInv (link_learned_clause s a) := by
  have hne : a.getD 1 0 ≠ a.getD 0 0 := fun e => by
    have := getD_inj_of_nodup hn (by omega : 1 < a.length) (by omega : 0 < a.length) e
    omega
  have hnew := link_learned_clause_new s a
  have hmem : ∀ c ∈ stored (link_learned_clause s a), c ∈ stored s ∨ c = s.nclauses_alloc := by
    intro c hc
    rw [stored_link_learned_clause] at hc
    rcases List.mem_append.1 hc with h | h
    · exact Or.inl h
    · exact Or.inr (List.mem_singleton.1 h)
  have hnl : (link_learned_clause s a).nlits = s.nlits := by rw [link_learned_clause_eq]
  refine ⟨by rw [link_learned_clause_eq]; exact assignInv_of_frame h.assign rfl rfl rfl rfl, ?_, ?_,
    by rw [link_learned_clause_eq]; exact binInv_of_frame h.bin rfl rfl,
    by rw [link_learned_clause_eq]; exact levelInv_of_frame h.level rfl rfl rfl rfl rfl, ?_,
    by rw [link_learned_clause_eq]; exact markInv_of_frame h.mark rfl rfl rfl rfl rfl⟩
  · constructor
    · intro c hc hr
      rcases hmem c hc with hc | hc
      · rw [link_learned_clause_old hS a hc] at hr ⊢; exact h.clause.len c hc hr
      · rw [hc, hnew]; exact h2
    · intro c hc hr k hk
      rcases hmem c hc with hc | hc
      · rw [link_learned_clause_old hS a hc] at hr hk ⊢
        have := h.clause.valid c hc hr k hk
        unfold valid_lit at this ⊢; rw [hnl]; exact this
      · rw [hc, hnew] at hk ⊢
        have hk2 : k < a.length := hk
        rw [new_learned_clause_get hk2]
        have := hv _ (getD_mem_of_lt hk2)
        unfold valid_lit at this ⊢; rw [hnl]; exact this
    · intro c hc hr k hk j hj
      rcases hmem c hc with hc | hc
      · rw [link_learned_clause_old hS a hc] at hr hk ⊢; exact h.clause.distinct c hc hr k hk j hj
      · rw [hc, hnew] at hk ⊢
        have hk2 : k < a.length := hk
        rw [new_learned_clause_get hk2, new_learned_clause_get (by omega : j < a.length)]
        intro e
        have := getD_inj_of_nodup hn (by omega) hk2 e
        omega
  · constructor
    · intro l h0 hl
      have hl2 : l < s.nlits := by rw [← hnl]; exact hl
      rw [link_learned_clause_watch s hne]
      have hnot : ∀ j, (s.nclauses_alloc, j) ∉ s.watch l := by
        intro j hj
        have := (h.watch.sound l h0 hl2 _ hj).1.1
        have := hS _ this
        omega
      split
      · next e => rw [← e]; exact nodup_watch_add (h.watch.nodup l h0 hl2) (hnot 1)
      · split
        · next e => rw [← e]; exact nodup_watch_add (h.watch.nodup l h0 hl2) (hnot 0)
        · exact h.watch.nodup l h0 hl2
    · intro l h0 hl lnk hlnk
      have hl2 : l < s.nlits := by rw [← hnl]; exact hl
      rcases (mem_link_learned_clause_watch s hne l lnk).1 hlnk with ⟨e1, e2⟩ | ⟨e1, e2⟩ | h3
      · rw [e1, e2]
        refine ⟨active_link_learned_new h2 hv, by simp, ?_⟩
        show ((link_learned_clause s a).clauses s.nclauses_alloc).get 1 = _
        rw [hnew, new_learned_clause_get (by omega : 1 < a.length)]
      · rw [e1, e2]
        refine ⟨active_link_learned_new h2 hv, by simp, ?_⟩
        show ((link_learned_clause s a).clauses s.nclauses_alloc).get 0 = _
        rw [hnew, new_learned_clause_get (by omega : 0 < a.length)]
      · obtain ⟨q1, q2, q3⟩ := h.watch.sound l h0 hl2 lnk h3
        have := active_link_learned_clause hS a q1
        exact ⟨this.1, q2, by rw [this.2]; exact q3⟩
    · intro c hc hr j hj
      rw [mem_link_learned_clause_watch s hne]
      rcases hmem c hc with hc | hc
      · rw [link_learned_clause_old hS a hc] at hr ⊢
        exact Or.inr (Or.inr (h.watch.complete c hc hr j hj))
      · rw [hc, hnew]
        have : j = 0 ∨ j = 1 := by omega
        rcases this with e | e
        · subst e
          rw [new_learned_clause_get (by omega : 0 < a.length)]
          exact Or.inr (Or.inl ⟨rfl, rfl⟩)
        · subst e
          rw [new_learned_clause_get (by omega : 1 < a.length)]
          exact Or.inl ⟨rfl, rfl⟩
  · have hlit : (link_learned_clause s a).stack.lit = s.stack.lit := by
      rw [link_learned_clause_eq]
    have hval : (link_learned_clause s a).value = s.value := by rw [link_learned_clause_eq]
    have hant : (link_learned_clause s a).antecedent = s.antecedent := by
      rw [link_learned_clause_eq]
    have hexp : (link_learned_clause s a).expand = s.expand := by rw [link_learned_clause_eq]
    unfold AnteInv
    rw [hlit, hant]
    intro l hl
    exact ante_ok_transfer (h.ante l hl) hnl hexp (fun c hc => active_link_learned_clause hS a hc)
      (fun _ _ => by rw [hval]) (fun _ hx => hx)

theorem backtrack_to_level_frame (s : smt_core_t) (k : Nat) :
    (backtrack_to_level s k).nlits = s.nlits ∧ (backtrack_to_level s k).nvars = s.nvars ∧
    (backtrack_to_level s k).clauses = s.clauses ∧
    (backtrack_to_level s k).problem_clauses = s.problem_clauses ∧
    (backtrack_to_level s k).learned_clauses = s.learned_clauses ∧
    (backtrack_to_level s k).nclauses_alloc = s.nclauses_alloc ∧
    (backtrack_to_level s k).level = s.level ∧
    (backtrack_to_level s k).antecedent = s.antecedent ∧
    (backtrack_to_level s k).watch = s.watch ∧
    (backtrack_to_level s k).bin = s.bin ∧
    (backtrack_to_level s k).base_level = s.base_level ∧
    (backtrack_to_level s k).mark = s.mark ∧
    (backtrack_to_level s k).expand = s.expand := by
  by_cases hk : k < s.decision_level
  · rw [backtrack_to_level_eq hk, backtrack_eq]
    exact ⟨rfl, rfl, rfl, rfl, rfl, rfl, rfl, rfl, rfl, rfl, rfl, rfl, rfl⟩
  · rw [backtrack_to_level_ge (by omega)]
    exact ⟨rfl, rfl, rfl, rfl, rfl, rfl, rfl, rfl, rfl, rfl, rfl, rfl, rfl⟩

theorem assignInv_backtrack_to_level {s : smt_core_t} (h : AssignInv s) (k : Nat) :
    AssignInv (backtrack_to_level s k) := by
  by_cases hk : k < s.decision_level
  · rw [backtrack_to_level_eq hk]
    exact assignInv_of_frame (assignInv_backtrack h k) rfl rfl rfl rfl
  · rw [backtrack_to_level_ge (by omega)]; exact h

theorem stored_backtrack_to_level (s : smt_core_t) (k : Nat) :
    stored (backtrack_to_level s k) = stored s := by
  obtain ⟨-, -, -, e4, e5, -⟩ := backtrack_to_level_frame s k
  unfold stored; rw [e4, e5]

theorem allocInv_backtrack_to_level {s : smt_core_t} (h : AllocInv s) (k : Nat) :
    AllocInv (backtrack_to_level s k) := by
  obtain ⟨-, -, -, -, -, e6, -⟩ := backtrack_to_level_frame s k
  unfold AllocInv
  rw [stored_backtrack_to_level, e6]; exact h

theorem allocInv_implied {s : smt_core_t} (h : AllocInv s) (l : Int) (a : antecedent_t) :
    AllocInv (implied_literal s l a) := h

theorem mem_iff_getD {a : List Int} {l : Int} : l ∈ a ↔ ∃ i, i < a.length ∧ a.getD i 0 = l := by
  constructor
  · intro h
    obtain ⟨n, hn, e⟩ := List.mem_iff_getElem.1 h
    exact ⟨n, hn, by rw [List.getD_eq_getElem?_getD, List.getElem?_eq_getElem hn]; exact e⟩
  · rintro ⟨i, hi, e⟩
    rw [← e]; exact getD_mem_of_lt hi

theorem nodup_of_getD {a : List Int}
    (h : ∀ i j, i < j → j < a.length → a.getD i 0 ≠ a.getD j 0) : a.Nodup := by
  rw [List.nodup_iff_getElem?_ne_getElem?]
  intro i j hij hj e
  apply h i j hij hj
  rw [List.getD_eq_getElem?_getD, List.getD_eq_getElem?_getD, e]

theorem swap_second_mem {a : List Int} {j : Nat} (h1 : 1 < a.length) (hj : j < a.length)
    {l : Int} (hl : l ∈ swap_second a j) : l ∈ a := by
  obtain ⟨i, hi, e⟩ := mem_iff_getD.1 hl
  rw [swap_second_length] at hi
  rw [swap_second_getD a h1 hj] at e
  rw [← e]
  apply getD_mem_of_lt
  split_ifs <;> omega

theorem swap_second_nodup {a : List Int} {j : Nat} (h1 : 1 < a.length) (hj : j < a.length)
    (hn : a.Nodup) : (swap_second a j).Nodup := by
  apply nodup_of_getD
  intro i k hik hk e
  rw [swap_second_length] at hk
  rw [swap_second_getD a h1 hj, swap_second_getD a h1 hj] at e
  have := getD_inj_of_nodup hn (by split_ifs <;> omega) (by split_ifs <;> omega) e
  split_ifs at this <;> omega

theorem second_level_facts (s : smt_core_t) {a : List Int} (h3 : 3 ≤ a.length) :
    1 ≤ (second_level s a).1 ∧ (second_level s a).1 < a.length ∧
    (second_level s a).2 = d_level s (a.getD (second_level s a).1 0) ∧
    ∀ i, 1 ≤ i → i < a.length → d_level s (a.getD i 0) ≤ (second_level s a).2 := by
  obtain ⟨r1, r2, r3, r4, r5⟩ := second_level_loop_spec s.level a (a.length - 2) 2
    (1, s.level (var_of (a.getD 1 0))) rfl (Nat.lt_succ_self 1) (by omega) rfl
  refine ⟨r2, r1, r3, ?_⟩
  intro i h1 hi
  rcases Nat.eq_or_lt_of_le h1 with e | e
  · rw [← e]; exact r4
  · exact r5 i e hi

theorem add_learned_clause_long (s : smt_core_t) {a : List Int} (h3 : 3 ≤ a.length) :
    add_learned_clause s a
      = implied_literal
          (backtrack_to_level (link_learned_clause s (swap_second a (second_level s a).1))
            (second_level s a).2)
          (a.getD 0 0) (mk_clause0_antecedent s.nclauses_alloc) := by
  unfold add_learned_clause
  rw [if_neg (by omega), if_neg (by omega)]

/-- State of `add_learned_clause` for `n ≥ 3` before the implied literal is
assigned. -/
theorem learned_long_mid {s : smt_core_t} (hA : AssignInv s) (hL : LevelInv s) {a : List Int}
    (hv : ∀ l ∈ a, valid_lit s l) (hf : ∀ l ∈ a, s.value l = VAL_FALSE)
    (htop : ∀ i, i < a.length → 1 ≤ i → d_level s (a.getD i 0) < d_level s (a.getD 0 0))
    (h3 : 3 ≤ a.length) :
    (swap_second a (second_level s a).1).getD 0 0 = a.getD 0 0 ∧
    (swap_second a (second_level s a).1).getD 1 0 = a.getD (second_level s a).1 0 ∧
    (second_level s a).2 < s.decision_level ∧
    (backtrack_to_level (link_learned_clause s (swap_second a (second_level s a).1))
        (second_level s a).2).decision_level = (second_level s a).2 ∧
    (backtrack_to_level (link_learned_clause s (swap_second a (second_level s a).1))
        (second_level s a).2).stack.lit
      = s.stack.lit.filter (fun l => decide (s.level (var_of l) < (second_level s a).2 + 1)) ∧
    (backtrack_to_level (link_learned_clause s (swap_second a (second_level s a).1))
        (second_level s a).2).value (a.getD 0 0) = VAL_UNDEF ∧
    ∀ i, 1 ≤ i → i < a.length →
      (backtrack_to_level (link_learned_clause s (swap_second a (second_level s a).1))
        (second_level s a).2).value ((swap_second a (second_level s a).1).getD i 0) = VAL_FALSE := by
  obtain ⟨f1, f2, f3, f4⟩ := second_level_facts s h3
  generalize second_level s a = jk at f1 f2 f3 f4 ⊢
  have h1 : 1 < a.length := by omega
  have hA5 : AssignInv (link_learned_clause s (swap_second a jk.1)) := by
    rw [link_learned_clause_eq]; exact assignInv_of_frame hA rfl rfl rfl rfl
  have hL5 : LevelInv (link_learned_clause s (swap_second a jk.1)) := by
    rw [link_learned_clause_eq]; exact levelInv_of_frame hL rfl rfl rfl rfl rfl
  have e_val : (link_learned_clause s (swap_second a jk.1)).value = s.value := by
    rw [link_learned_clause_eq]
  have e_lev : (link_learned_clause s (swap_second a jk.1)).level = s.level := by
    rw [link_learned_clause_eq]
  have e_lit : (link_learned_clause s (swap_second a jk.1)).stack.lit = s.stack.lit := by
    rw [link_learned_clause_eq]
  have e_dl : (link_learned_clause s (swap_second a jk.1)).decision_level = s.decision_level := by
    rw [link_learned_clause_eq]
  have e_nl : (link_learned_clause s (swap_second a jk.1)).nlits = s.nlits := by
    rw [link_learned_clause_eq]
  have ha0 : a.getD 0 0 ∈ a := getD_mem_of_lt (by omega)
  have hlt : jk.2 < d_level s (a.getD 0 0) := by rw [f3]; exact htop _ f2 f1
  have hle0 : d_level s (a.getD 0 0) ≤ s.decision_level :=
    level_le_of_assigned hA hL (hv _ ha0) (by rw [hf _ ha0]; decide)
  refine ⟨?_, ?_, by omega, ?_, ?_, ?_, ?_⟩
  · rw [swap_second_getD a h1 f2]
    rw [if_neg (by decide), if_neg (by omega)]
  · rw [swap_second_getD a h1 f2, if_pos rfl]
  · exact backtrack_to_level_dl (by rw [e_dl]; omega)
  · rw [backtrack_to_level_lit hL5, e_lit, e_lev]
  · apply backtrack_to_level_undef hA5 hL5
    · have := hv _ ha0
      unfold valid_lit at this ⊢; rw [e_nl]; exact this
    · rw [e_val, hf _ ha0]; decide
    · rw [e_lev]; exact hlt
  · intro i hi1 hi
    have hmem : (swap_second a jk.1).getD i 0 ∈ a := by
      apply swap_second_mem h1 f2
      apply getD_mem_of_lt; rw [swap_second_length]; exact hi
    rw [backtrack_to_level_value hL5, e_val]
    · exact hf _ hmem
    · rw [e_lev, swap_second_getD a h1 f2]
      apply f4
      · split_ifs <;> omega
      · split_ifs <;> omega

theorem coreInv_add_learned_long {s : smt_core_t} (h : CoreInv s) (hS : AllocInv s)
    {a : List Int} (hp : LearnedPre s a) (h3 : 3 ≤ a.length) :
    CoreInv (add_learned_clause s a) ∧ AllocInv (add_learned_clause s a) := by
  obtain ⟨m1, m2, m3, m4, m5, m6, m7⟩ :=
    learned_long_mid h.assign h.level hp.valid hp.is_false hp.top h3
  obtain ⟨f1, f2, f3, f4⟩ := second_level_facts s h3
  rw [add_learned_clause_long s h3]
  generalize second_level s a = jk at f1 f2 f3 f4 m1 m2 m3 m4 m5 m6 m7 ⊢
  have h1 : 1 < a.length := by omega
  have hv2 : ∀ l ∈ swap_second a jk.1, valid_lit s l :=
    fun l hl => hp.valid l (swap_second_mem h1 f2 hl)
  have hlen : (swap_second a jk.1).length = a.length := swap_second_length a jk.1
  have hC5 := coreInv_link_learned_clause h hS (by rw [hlen]; omega) hv2
    (swap_second_nodup h1 f2 hp.nodup)
  have hS5 := allocInv_link_learned_clause hS (swap_second a jk.1)
  have e_bl : (link_learned_clause s (swap_second a jk.1)).base_level = s.base_level := by
    rw [link_learned_clause_eq]
  have e_nl : (link_learned_clause s (swap_second a jk.1)).nlits = s.nlits := by
    rw [link_learned_clause_eq]
  have hbase : s.base_level ≤ jk.2 := by rw [f3]; exact hp.base _ f2 f1
  have hC6 := coreInv_backtrack_to_level hC5 (k := jk.2) (by rw [e_bl]; exact hbase)
  have hS6 := allocInv_backtrack_to_level hS5 jk.2
  obtain ⟨g1, -, g3, -, -, -, -, -, -, -, -, -, -⟩ :=
    backtrack_to_level_frame (link_learned_clause s (swap_second a jk.1)) jk.2
  have hval0 : valid_lit (backtrack_to_level (link_learned_clause s (swap_second a jk.1)) jk.2)
      (a.getD 0 0) := by
    have := hp.valid _ (getD_mem_of_lt (by omega : 0 < a.length))
    unfold valid_lit at this ⊢; rw [g1, e_nl]; exact this
  refine ⟨coreInv_implied hC6 hval0 m6 ?_, allocInv_implied hS6 _ _⟩
  show active _ _ ∧ _ ∧ _
  rw [g3, link_learned_clause_new]
  refine ⟨?_, ?_, ?_⟩
  · have := active_link_learned_new (s := s) (a := swap_second a jk.1) (by rw [hlen]; omega) hv2
    unfold active at this ⊢
    rw [stored_backtrack_to_level, g3]; exact this
  · rw [new_learned_clause_get (by rw [hlen]; omega), m1]
  · intro k hk hk0
    have hk3 : k < (swap_second a jk.1).length := hk
    have hk2 : k < a.length := by rw [← hlen]; exact hk3
    rw [new_learned_clause_get hk3]
    have hf := m7 k (by omega) hk2
    refine ⟨hf, ?_⟩
    apply assigned_on_trail hC6.assign _ hf
    have := hv2 _ (getD_mem_of_lt hk3)
    unfold valid_lit at this ⊢; rw [g1, e_nl]; exact this

theorem backtrack_to_level_value_cases (s : smt_core_t) (k : Nat) (x : Int) :
    (backtrack_to_level s k).value x = s.value x ∨
      (backtrack_to_level s k).value x = VAL_UNDEF := by
  by_cases hk : k < s.decision_level
  · rw [backtrack_to_level_eq hk, backtrack_eq]
    show undo_value _ _ x = _ ∨ undo_value _ _ x = _
    rw [undo_value_apply]
    split
    · exact Or.inr rfl
    · exact Or.inl rfl
  · rw [backtrack_to_level_ge (by omega)]; exact Or.inl rfl

/-! ### Unit clauses -/

theorem add_learned_clause_unit (s : smt_core_t) (l0 : Int) :
    add_learned_clause s [l0] =
      if (backtrack_to_base_level s).value l0 = VAL_FALSE then
        { backtrack_to_base_level s with
          inconsistent := true
          conflict_buffer := write_prefix (backtrack_to_base_level s).conflict_buffer [l0, end_clause]
          conflict := write_prefix (backtrack_to_base_level s).conflict_buffer [l0, end_clause] }
      else
        { assign_literal (backtrack_to_base_level s) l0 with
          nb_unit_clauses := (assign_literal (backtrack_to_base_level s) l0).nb_unit_clauses + 1 } := by
  unfold add_learned_clause
  rw [if_pos (List.length_singleton l0)]
  rfl

theorem assign_literal_base {s : smt_core_t} (h : s.decision_level = s.base_level) (l : Int) :
    { assign_literal s l with nb_unit_clauses := (assign_literal s l).nb_unit_clauses + 1 }
      = implied_literal s l (mk_literal_antecedent null_literal) := by
  unfold assign_literal implied_literal
  simp [h]

theorem coreInv_add_learned_unit {s : smt_core_t} (h : CoreInv s) (hS : AllocInv s)
    {l0 : Int} (hv : valid_lit s l0) (hf : s.value l0 = VAL_FALSE) :
    CoreInv (add_learned_clause s [l0]) ∧ AllocInv (add_learned_clause s [l0]) := by
  have hC1 : CoreInv (backtrack_to_base_level s) :=
    coreInv_backtrack_to_level h (Nat.le_refl _)
  have hS1 : AllocInv (backtrack_to_base_level s) := allocInv_backtrack_to_level hS _
  have hdl : (backtrack_to_base_level s).decision_level = s.base_level :=
    backtrack_to_level_dl h.level.base_le
  obtain ⟨g1, -, -, -, -, -, -, -, -, -, g11, -, -⟩ := backtrack_to_level_frame s s.base_level
  rw [add_learned_clause_unit]
  split
  · exact ⟨coreInv_of_frame hC1 rfl rfl rfl rfl rfl rfl rfl rfl rfl rfl rfl rfl rfl rfl rfl rfl, hS1⟩
  · next hne =>
    have hu : (backtrack_to_base_level s).value l0 = VAL_UNDEF := by
      rcases backtrack_to_level_value_cases s s.base_level l0 with e | e
      · exact absurd (e.trans hf) hne
      · exact e
    rw [assign_literal_base (by rw [hdl]; exact g11.symm)]
    refine ⟨coreInv_implied hC1 ?_ hu (Or.inl rfl), allocInv_implied hS1 _ _⟩
    unfold valid_lit at hv ⊢
    unfold backtrack_to_base_level
    rw [g1]; exact hv

/-! ### Binary clauses -/

theorem add_learned_clause_binary (s : smt_core_t) {a : List Int} (h2 : a.length = 2) :
    add_learned_clause s a =
      implied_literal
        (backtrack_to_level (direct_binary_clause s (a.getD 0 0) (a.getD 1 0))
          (d_level s (a.getD 1 0)))
        (a.getD 0 0) (mk_literal_antecedent (a.getD 1 0)) := by
  unfold add_learned_clause
  rw [if_neg (by omega), if_pos h2]
  rfl

theorem direct_binary_clause_bin (s : smt_core_t) (l1 l2 : Int) (l : Int) :
    (direct_binary_clause s l1 l2).bin l
      = if l = l2 then add_literal_to_vector (if l2 = l1 then add_literal_to_vector (s.bin l1) l2
          else s.bin l2) l1
        else if l = l1 then add_literal_to_vector (s.bin l1) l2 else s.bin l := by
  unfold direct_binary_clause
  simp only [upd_apply]

theorem mem_add_literal_to_vector {v : Option (List Int)} {l m : Int}
    (h : m ∈ (add_literal_to_vector v l).getD []) : m = l ∨ m ∈ v.getD [] := by
  cases v with
  | none =>
    unfold add_literal_to_vector at h
    simp at h; exact Or.inl h
  | some d =>
    unfold add_literal_to_vector at h
    simp at h
    rcases h with h | h
    · exact Or.inr (by simpa using h)
    · exact Or.inl h

theorem coreInv_direct_binary_clause {s : smt_core_t} (h : CoreInv s) {l1 l2 : Int}
    (h1 : valid_lit s l1) (h2 : valid_lit s l2) : CoreInv (direct_binary_clause s l1 l2) := by
  refine ⟨assignInv_of_frame h.assign rfl rfl rfl rfl, clauseInv_of_frame h.clause rfl rfl rfl rfl,
    watchInvW_of_frame h.watch rfl rfl rfl rfl, ?_, levelInv_of_frame h.level rfl rfl rfl rfl rfl,
    ?_, markInv_of_frame h.mark rfl rfl rfl rfl rfl⟩
  · intro l h0 hl m hm
    have hl2 : l < s.nlits := hl
    show valid_lit s m
    rw [direct_binary_clause_bin] at hm
    split at hm
    · rcases mem_add_literal_to_vector hm with e | hm
      · rw [e]; exact h1
      · split at hm
        · next e2 =>
          rcases mem_add_literal_to_vector hm with e | hm
          · rw [e]; exact h2
          · exact h.bin l1 (valid_nonneg h1) h1.2 m hm
        · exact h.bin l2 (valid_nonneg h2) h2.2 m hm
    · split at hm
      · rcases mem_add_literal_to_vector hm with e | hm
        · rw [e]; exact h2
        · exact h.bin l1 (valid_nonneg h1) h1.2 m hm
      · exact h.bin l h0 hl2 m hm
  · intro l hl
    exact ante_ok_congr (h.ante l hl) rfl rfl rfl rfl (fun _ _ => rfl)

/-- State of `add_learned_clause` for `n = 2` before the implied literal is
assigned. -/
theorem learned_binary_mid {s : smt_core_t} (hA : AssignInv s) (hL : LevelInv s) {l0 l1 : Int}
    (hv0 : valid_lit s l0) (hf0 : s.value l0 = VAL_FALSE)
    (hf1 : s.value l1 = VAL_FALSE) (htop : d_level s l1 < d_level s l0) :
    d_level s l1 < s.decision_level ∧
    (backtrack_to_level (direct_binary_clause s l0 l1) (d_level s l1)).decision_level
      = d_level s l1 ∧
    (backtrack_to_level (direct_binary_clause s l0 l1) (d_level s l1)).stack.lit
      = s.stack.lit.filter (fun l => decide (s.level (var_of l) < d_level s l1 + 1)) ∧
    (backtrack_to_level (direct_binary_clause s l0 l1) (d_level s l1)).value l0 = VAL_UNDEF ∧
    (backtrack_to_level (direct_binary_clause s l0 l1) (d_level s l1)).value l1 = VAL_FALSE := by
  have hA5 : AssignInv (direct_binary_clause s l0 l1) := assignInv_of_frame hA rfl rfl rfl rfl
  have hL5 : LevelInv (direct_binary_clause s l0 l1) := levelInv_of_frame hL rfl rfl rfl rfl rfl
  have hle0 : d_level s l0 ≤ s.decision_level :=
    level_le_of_assigned hA hL hv0 (by rw [hf0]; decide)
  refine ⟨by omega, ?_, ?_, ?_, ?_⟩
  · exact backtrack_to_level_dl (by show d_level s l1 ≤ s.decision_level; omega)
  · rw [backtrack_to_level_lit hL5]; rfl
  · exact backtrack_to_level_undef hA5 hL5 hv0 (by show s.value l0 ≠ _; rw [hf0]; decide) htop
  · have := backtrack_to_level_value hL5 (k := d_level s l1) (x := l1) (Nat.le_refl _)
    rw [this]; exact hf1

theorem coreInv_add_learned_binary {s : smt_core_t} (h : CoreInv s) (hS : AllocInv s)
    {a : List Int} (hp : LearnedPre s a) (h2 : a.length = 2) :
    CoreInv (add_learned_clause s a) ∧ AllocInv (add_learned_clause s a) := by
  have hv0 := hp.valid _ (getD_mem_of_lt (by omega : 0 < a.length))
  have hv1 := hp.valid _ (getD_mem_of_lt (by omega : 1 < a.length))
  have hf0 := hp.is_false _ (getD_mem_of_lt (by omega : 0 < a.length))
  have hf1 := hp.is_false _ (getD_mem_of_lt (by omega : 1 < a.length))
  have htop := hp.top 1 (by omega) (Nat.le_refl _)
  have hbase := hp.base 1 (by omega) (Nat.le_refl _)
  obtain ⟨m1, m2, m3, m4, m5⟩ := learned_binary_mid h.assign h.level hv0 hf0 hf1 htop
  rw [add_learned_clause_binary s h2]
  generalize a.getD 0 0 = l0 at hv0 hf0 htop m1 m2 m3 m4 m5 ⊢
  generalize a.getD 1 0 = l1 at hv1 hf1 htop hbase m1 m2 m3 m4 m5 ⊢
  have hC5 := coreInv_direct_binary_clause h hv0 hv1
  have hS5 : AllocInv (direct_binary_clause s l0 l1) := hS
  have hC6 := coreInv_backtrack_to_level hC5 (k := d_level s l1) hbase
  have hS6 := allocInv_backtrack_to_level hS5 (d_level s l1)
  obtain ⟨g1, -⟩ := backtrack_to_level_frame (direct_binary_clause s l0 l1) (d_level s l1)
  have hval : ∀ m, valid_lit s m →
      valid_lit (backtrack_to_level (direct_binary_clause s l0 l1) (d_level s l1)) m := by
    intro m hm
    unfold valid_lit at hm ⊢; rw [g1]; exact hm
  refine ⟨coreInv_implied hC6 (hval _ hv0) m4 ?_, allocInv_implied hS6 _ _⟩
  exact Or.inr ⟨hval _ hv1, m5, assigned_on_trail hC6.assign (hval _ hv1) m5⟩

/-- The invariants of the core are preserved by `add_learned_clause`. -/
theorem coreInv_add_learned_clause {s : smt_core_t} (h : CoreInv s) (hS : AllocInv s)
    {a : List Int} (hp : LearnedPre s a) :
    CoreInv (add_learned_clause s a) ∧ AllocInv (add_learned_clause s a) := by
  have hlen := hp.len
  rcases Nat.lt_or_ge a.length 3 with h3 | h3
  · rcases Nat.lt_or_ge a.length 2 with h2 | h2
    · match a, hp, hlen, h2 with
      | [l0], hp, _, _ =>
        exact coreInv_add_learned_unit h hS (hp.valid l0 (List.mem_singleton_self _))
          (hp.is_false l0 (List.mem_singleton_self _))
    · exact coreInv_add_learned_binary h hS hp (by omega)
  · exact coreInv_add_learned_long h hS hp h3

theorem backtrack_to_level_th_calls {s : smt_core_t} {k : Nat} (hk : k < s.decision_level) :
    (backtrack_to_level s k).th_calls = s.th_calls ++ [th_call_t.backtrack k] := by
  rw [backtrack_to_level_eq hk, backtrack_eq]

theorem backtrack_to_level_binary_clauses (s : smt_core_t) (k : Nat) :
    (backtrack_to_level s k).binary_clauses = s.binary_clauses := by
  by_cases hk : k < s.decision_level
  · rw [backtrack_to_level_eq hk, backtrack_eq]
  · rw [backtrack_to_level_ge (by omega)]

theorem learned_clause_order_long (s : smt_core_t) {a : List Int} (h3 : 3 ≤ a.length) :
    learned_clause_order s a = swap_second a (second_level s a).1 := by
  unfold learned_clause_order; rw [if_neg (by omega)]

theorem new_learned_clause_array (a : List Int) :
    (new_learned_clause a).array = a ++ [end_learned] := rfl

/-- Effect of `add_learned_clause` on an array of at least three literals. -/
theorem add_learned_long_spec {s : smt_core_t} (hA : AssignInv s) (hL : LevelInv s)
    {a : List Int} (hv : ∀ l ∈ a, valid_lit s l) (hf : ∀ l ∈ a, s.value l = VAL_FALSE)
    (htop : ∀ i, i < a.length → 1 ≤ i → d_level s (a.getD i 0) < d_level s (a.getD 0 0))
    (h3 : 3 ≤ a.length) :
    (∃ j, 1 ≤ j ∧ j < a.length ∧ learned_clause_order s a = swap_second a j ∧
      (learned_clause_order s a).getD 0 0 = a.getD 0 0 ∧
      (learned_clause_order s a).getD 1 0 = a.getD j 0 ∧
      ∀ i, 1 ≤ i → i < a.length → d_level s (a.getD i 0) ≤ d_level s (a.getD j 0)) ∧
    (add_learned_clause s a).learned_clauses = s.learned_clauses ++ [s.nclauses_alloc] ∧
    ((add_learned_clause s a).clauses s.nclauses_alloc).array
      = learned_clause_order s a ++ [end_learned] ∧
    (∀ l x, x ∈ (add_learned_clause s a).watch l ↔
      (x = (s.nclauses_alloc, 1) ∧ l = (learned_clause_order s a).getD 1 0) ∨
      (x = (s.nclauses_alloc, 0) ∧ l = a.getD 0 0) ∨ x ∈ s.watch l) ∧
    (add_learned_clause s a).decision_level = d_level s ((learned_clause_order s a).getD 1 0) ∧
    (add_learned_clause s a).th_calls
      = s.th_calls ++ [th_call_t.backtrack (d_level s ((learned_clause_order s a).getD 1 0))] ∧
    (add_learned_clause s a).stack.lit
      = s.stack.lit.filter
          (fun l => decide (d_level s l ≤ d_level s ((learned_clause_order s a).getD 1 0)))
        ++ [a.getD 0 0] ∧
    (add_learned_clause s a).value (a.getD 0 0) = VAL_TRUE ∧
    (add_learned_clause s a).level (var_of (a.getD 0 0))
      = d_level s ((learned_clause_order s a).getD 1 0) ∧
    (add_learned_clause s a).antecedent (var_of (a.getD 0 0))
      = mk_clause0_antecedent s.nclauses_alloc ∧
    ∀ i, 1 ≤ i → i < a.length →
      (add_learned_clause s a).value ((learned_clause_order s a).getD i 0) = VAL_FALSE := by
  obtain ⟨m1, m2, m3, m4, m5, m6, m7⟩ := learned_long_mid hA hL hv hf htop h3
  obtain ⟨f1, f2, f3, f4⟩ := second_level_facts s h3
  rw [add_learned_clause_long s h3, learned_clause_order_long s h3]
  generalize second_level s a = jk at f1 f2 f3 f4 m1 m2 m3 m4 m5 m6 m7 ⊢
  obtain ⟨g1, g2, g3, g4, g5, g6, g7, g8, g9, g10, g11, g12, g13⟩ :=
    backtrack_to_level_frame (link_learned_clause s (swap_second a jk.1)) jk.2
  have hk : d_level s ((swap_second a jk.1).getD 1 0) = jk.2 := by rw [m2, f3]
  have hne : (swap_second a jk.1).getD 1 0 ≠ (swap_second a jk.1).getD 0 0 := by
    intro e
    have := htop _ f2 f1
    rw [← m2, e, m1] at this
    exact Nat.lt_irrefl _ this
  have e_dl : (link_learned_clause s (swap_second a jk.1)).decision_level = s.decision_level := by
    rw [link_learned_clause_eq]
  have e_th : (link_learned_clause s (swap_second a jk.1)).th_calls = s.th_calls := by
    rw [link_learned_clause_eq]
  have e_lc : (link_learned_clause s (swap_second a jk.1)).learned_clauses
      = s.learned_clauses ++ [s.nclauses_alloc] := by
    rw [link_learned_clause_eq]
  refine ⟨⟨jk.1, f1, f2, rfl, m1, m2, fun i h1 hi => by rw [← f3]; exact f4 i h1 hi⟩,
    ?_, ?_, ?_, ?_, ?_, ?_, ?_, ?_, ?_, ?_⟩
  · show (backtrack_to_level _ _).learned_clauses = _
    rw [g5, e_lc]
  · show ((backtrack_to_level _ _).clauses _).array = _
    rw [g3, link_learned_clause_new, new_learned_clause_array]
  · intro l x
    show x ∈ (backtrack_to_level _ _).watch l ↔ _
    rw [g9, mem_link_learned_clause_watch s hne, m1]
  · show (backtrack_to_level _ _).decision_level = _
    rw [m4, hk]
  · show (backtrack_to_level _ _).th_calls = _
    rw [backtrack_to_level_th_calls (by rw [e_dl]; exact m3), e_th, hk]
  · rw [implied_literal_lit, m5, hk]
    congr 1
    apply List.filter_congr
    intro x _
    unfold d_level
    simp [Nat.lt_succ_iff]
  · exact implied_literal_value_self _ _ _
  · show upd _ _ (backtrack_to_level _ _).decision_level _ = _
    rw [upd_same, m4, hk]
  · show upd _ _ _ _ = _
    rw [upd_same]
  · intro i h1 hi
    have hfi := m7 i h1 hi
    rw [implied_literal_value]
    by_cases e : (swap_second a jk.1).getD i 0 = not_lit (a.getD 0 0)
    · rw [e, upd_same]
    · rw [upd_ne _ _ e, upd_apply]
      split
      · next e2 => rw [e2, m6] at hfi; cases hfi
      · exact hfi

/-- Effect of `add_learned_clause` on a unit clause. -/
theorem add_learned_unit_spec {s : smt_core_t} (hL : LevelInv s) (l0 : Int) :
    (backtrack_to_base_level s).decision_level = s.base_level ∧
    (backtrack_to_base_level s).stack.lit
      = s.stack.lit.filter (fun l => decide (d_level s l ≤ s.base_level)) ∧
    ((backtrack_to_base_level s).value l0 = VAL_FALSE →
      (add_learned_clause s [l0]).inconsistent = true ∧
      (add_learned_clause s [l0]).conflict.take 2 = [l0, end_clause] ∧
      (add_learned_clause s [l0]).value = (backtrack_to_base_level s).value ∧
      (add_learned_clause s [l0]).stack = (backtrack_to_base_level s).stack ∧
      (add_learned_clause s [l0]).decision_level = s.base_level) ∧
    ((backtrack_to_base_level s).value l0 ≠ VAL_FALSE →
      (add_learned_clause s [l0]).value l0 = VAL_TRUE ∧
      (add_learned_clause s [l0]).value (not_lit l0) = VAL_FALSE ∧
      (add_learned_clause s [l0]).level (var_of l0) = s.base_level ∧
      (add_learned_clause s [l0]).antecedent (var_of l0) = mk_literal_antecedent null_literal ∧
      (add_learned_clause s [l0]).stack.lit = (backtrack_to_base_level s).stack.lit ++ [l0] ∧
      (add_learned_clause s [l0]).decision_level = s.base_level ∧
      (add_learned_clause s [l0]).nb_unit_clauses = s.nb_unit_clauses + 1 ∧
      (add_learned_clause s [l0]).inconsistent = s.inconsistent) := by
  have hdl : (backtrack_to_base_level s).decision_level = s.base_level :=
    backtrack_to_level_dl hL.base_le
  obtain ⟨g1, g2, g3, g4, g5, g6, g7, g8, g9, g10, g11, g12, g13⟩ :=
    backtrack_to_level_frame s s.base_level
  have hnu : (backtrack_to_base_level s).nb_unit_clauses = s.nb_unit_clauses := by
    unfold backtrack_to_base_level
    by_cases hk : s.base_level < s.decision_level
    · rw [backtrack_to_level_eq hk, backtrack_eq]
    · rw [backtrack_to_level_ge (by omega)]
  have hinc : (backtrack_to_base_level s).inconsistent = s.inconsistent := by
    unfold backtrack_to_base_level
    by_cases hk : s.base_level < s.decision_level
    · rw [backtrack_to_level_eq hk, backtrack_eq]
    · rw [backtrack_to_level_ge (by omega)]
  refine ⟨hdl, ?_, ?_, ?_⟩
  · unfold backtrack_to_base_level
    rw [backtrack_to_level_lit hL]
    apply List.filter_congr
    intro x _
    unfold d_level
    simp [Nat.lt_succ_iff]
  · intro hfalse
    rw [add_learned_clause_unit, if_pos hfalse]
    exact ⟨rfl, rfl, rfl, rfl, hdl⟩
  · intro hne
    rw [add_learned_clause_unit, if_neg hne]
    refine ⟨?_, ?_, ?_, ?_, rfl, hdl, ?_, hinc⟩
    · show upd (upd _ l0 VAL_TRUE) (not_lit l0) VAL_FALSE l0 = _
      rw [upd_ne _ _ (not_lit_ne l0).symm, upd_same]
    · show upd (upd _ l0 VAL_TRUE) (not_lit l0) VAL_FALSE (not_lit l0) = _
      rw [upd_same]
    · show upd _ _ (backtrack_to_base_level s).base_level _ = _
      rw [upd_same]; exact g11
    · show upd _ _ _ _ = _
      rw [upd_same]
    · show (backtrack_to_base_level s).nb_unit_clauses + 1 = _
      rw [hnu]

/-- Effect of `add_learned_clause` on a binary clause. -/
theorem add_learned_binary_spec {s : smt_core_t} (hA : AssignInv s) (hL : LevelInv s)
    {a : List Int} (hv : ∀ l ∈ a, valid_lit s l) (hf : ∀ l ∈ a, s.value l = VAL_FALSE)
    (htop : ∀ i, i < a.length → 1 ≤ i → d_level s (a.getD i 0) < d_level s (a.getD 0 0))
    (h2 : a.length = 2) :
    (add_learned_clause s a).bin (a.getD 0 0)
      = add_literal_to_vector (s.bin (a.getD 0 0)) (a.getD 1 0) ∧
    (add_learned_clause s a).bin (a.getD 1 0)
      = add_literal_to_vector (s.bin (a.getD 1 0)) (a.getD 0 0) ∧
    (∀ l, l ≠ a.getD 0 0 → l ≠ a.getD 1 0 → (add_learned_clause s a).bin l = s.bin l) ∧
    (add_learned_clause s a).clauses = s.clauses ∧
    (add_learned_clause s a).nclauses_alloc = s.nclauses_alloc ∧
    (add_learned_clause s a).problem_clauses = s.problem_clauses ∧
    (add_learned_clause s a).learned_clauses = s.learned_clauses ∧
    (add_learned_clause s a).watch = s.watch ∧
    (add_learned_clause s a).binary_clauses
      = (if s.base_level > 0 then s.binary_clauses ++ [a.getD 0 0, a.getD 1 0]
          else s.binary_clauses) ∧
    (add_learned_clause s a).decision_level = d_level s (a.getD 1 0) ∧
    (add_learned_clause s a).th_calls
      = s.th_calls ++ [th_call_t.backtrack (d_level s (a.getD 1 0))] ∧
    (add_learned_clause s a).stack.lit
      = s.stack.lit.filter (fun l => decide (d_level s l ≤ d_level s (a.getD 1 0)))
        ++ [a.getD 0 0] ∧
    (add_learned_clause s a).value (a.getD 0 0) = VAL_TRUE ∧
    (add_learned_clause s a).level (var_of (a.getD 0 0)) = d_level s (a.getD 1 0) ∧
    (add_learned_clause s a).antecedent (var_of (a.getD 0 0))
      = mk_literal_antecedent (a.getD 1 0) ∧
    (add_learned_clause s a).value (a.getD 1 0) = VAL_FALSE := by
  have hv0 := hv _ (getD_mem_of_lt (by omega : 0 < a.length))
  have hf0 := hf _ (getD_mem_of_lt (by omega : 0 < a.length))
  have hf1 := hf _ (getD_mem_of_lt (by omega : 1 < a.length))
  have htop1 := htop 1 (by omega) (Nat.le_refl _)
  obtain ⟨m1, m2, m3, m4, m5⟩ := learned_binary_mid hA hL hv0 hf0 hf1 htop1
  rw [add_learned_clause_binary s h2]
  generalize a.getD 0 0 = l0 at hv0 hf0 htop1 m1 m2 m3 m4 m5 ⊢
  generalize a.getD 1 0 = l1 at hf1 htop1 m1 m2 m3 m4 m5 ⊢
  have hne : l1 ≠ l0 := by
    intro e; rw [e] at htop1; exact Nat.lt_irrefl _ htop1
  obtain ⟨g1, g2, g3, g4, g5, g6, g7, g8, g9, g10, g11, g12, g13⟩ :=
    backtrack_to_level_frame (direct_binary_clause s l0 l1) (d_level s l1)
  refine ⟨?_, ?_, ?_, ?_, ?_, ?_, ?_, ?_, ?_, ?_, ?_, ?_, ?_, ?_, ?_, ?_⟩
  · show (backtrack_to_level _ _).bin l0 = _
    rw [g10, direct_binary_clause_bin, if_neg hne.symm, if_pos rfl]
  · show (backtrack_to_level _ _).bin l1 = _
    rw [g10, direct_binary_clause_bin, if_pos rfl, if_neg hne]
  · intro l h0 h1
    show (backtrack_to_level _ _).bin l = _
    rw [g10, direct_binary_clause_bin, if_neg h1, if_neg h0]
  · show (backtrack_to_level _ _).clauses = _
    rw [g3]; rfl
  · show (backtrack_to_level _ _).nclauses_alloc = _
    rw [g6]; rfl
  · show (backtrack_to_level _ _).problem_clauses = _
    rw [g4]; rfl
  · show (backtrack_to_level _ _).learned_clauses = _
    rw [g5]; rfl
  · show (backtrack_to_level _ _).watch = _
    rw [g9]; rfl
  · show (backtrack_to_level _ _).binary_clauses = _
    rw [backtrack_to_level_binary_clauses]; rfl
  · exact m2
  · show (backtrack_to_level _ _).th_calls = _
    rw [backtrack_to_level_th_calls (by show d_level s l1 < s.decision_level; exact m1)]; rfl
  · rw [implied_literal_lit, m3]
    congr 1
    apply List.filter_congr
    intro x _
    unfold d_level
    simp [Nat.lt_succ_iff]
  · exact implied_literal_value_self _ _ _
  · show upd _ _ (backtrack_to_level _ _).decision_level _ = _
    rw [upd_same, m2]
  · show upd _ _ _ _ = _
    rw [upd_same]
  · rw [implied_literal_value]
    by_cases e : l1 = not_lit l0
    · rw [e, upd_same]
    · rw [upd_ne _ _ e, upd_ne _ _ hne]; exact m5


/-- Claim C6: on a state with a well-formed assignment and well-formed levels, for
an array `a` of valid false literals in which `a[0]` has a level strictly above the
level of every other literal, `add_learned_clause` behaves as follows.
For `n ≥ 3`: the array is reordered by swapping `a[1]` with a literal `a[j]` of
maximal level among `a[1 .. n-1]`; the clause gets the fresh handle, is appended to
the learned-clause vector, ends with `end_learned`, and is linked into the watch
lists of `a[0]` (slot 0) and of the new `a[1]` (slot 1), the other links being
unchanged; the core backtracks to the level of the new `a[1]`, then `a[0]` is
pushed on the stack, true at that level with antecedent `clause0`, while the other
literals are still false.
For `n = 1`: the core backtracks to `base_level`; if `a[0]` is still false there the
conflict `{a[0]}` is recorded and the core is inconsistent, otherwise `a[0]` is
assigned true at `base_level` with a null antecedent.
For `n = 2`: the clause is stored in `bin[a[0]]` and `bin[a[1]]` only (no clause is
allocated, the clause vectors and the watch lists are unchanged, and the pair is
copied to `binary_clauses` when `base_level > 0`); the core backtracks to the level
of `a[1]` and `a[0]` is assigned true at that level with antecedent the literal
`a[1]`, which is still false. -/
theorem add_learned_clause_installs {s : smt_core_t} (hA : AssignInv s) (hL : LevelInv s)
    {a : List Int} (hv : ∀ l ∈ a, valid_lit s l) (hf : ∀ l ∈ a, s.value l = VAL_FALSE)
    (htop : ∀ i, i < a.length → 1 ≤ i → d_level s (a.getD i 0) < d_level s (a.getD 0 0)) :
    (3 ≤ a.length →
      (∃ j, 1 ≤ j ∧ j < a.length ∧ learned_clause_order s a = swap_second a j ∧
        (learned_clause_order s a).getD 0 0 = a.getD 0 0 ∧
        (learned_clause_order s a).getD 1 0 = a.getD j 0 ∧
        ∀ i, 1 ≤ i → i < a.length → d_level s (a.getD i 0) ≤ d_level s (a.getD j 0)) ∧
      (add_learned_clause s a).learned_clauses = s.learned_clauses ++ [s.nclauses_alloc] ∧
      ((add_learned_clause s a).clauses s.nclauses_alloc).array
        = learned_clause_order s a ++ [end_learned] ∧
      (∀ l x, x ∈ (add_learned_clause s a).watch l ↔
        (x = (s.nclauses_alloc, 1) ∧ l = (learned_clause_order s a).getD 1 0) ∨
        (x = (s.nclauses_alloc, 0) ∧ l = a.getD 0 0) ∨ x ∈ s.watch l) ∧
      (add_learned_clause s a).decision_level
        = d_level s ((learned_clause_order s a).getD 1 0) ∧
      (add_learned_clause s a).th_calls
        = s.th_calls ++ [th_call_t.backtrack (d_level s ((learned_clause_order s a).getD 1 0))] ∧
      (add_learned_clause s a).stack.lit
        = s.stack.lit.filter
            (fun l => decide (d_level s l ≤ d_level s ((learned_clause_order s a).getD 1 0)))
          ++ [a.getD 0 0] ∧
      (add_learned_clause s a).value (a.getD 0 0) = VAL_TRUE ∧
      (add_learned_clause s a).level (var_of (a.getD 0 0))
        = d_level s ((learned_clause_order s a).getD 1 0) ∧
      (add_learned_clause s a).antecedent (var_of (a.getD 0 0))
        = mk_clause0_antecedent s.nclauses_alloc ∧
      ∀ i, 1 ≤ i → i < a.length →
        (add_learned_clause s a).value ((learned_clause_order s a).getD i 0) = VAL_FALSE) ∧
    (∀ l0, a = [l0] →
      (backtrack_to_base_level s).decision_level = s.base_level ∧
      (backtrack_to_base_level s).stack.lit
        = s.stack.lit.filter (fun l => decide (d_level s l ≤ s.base_level)) ∧
      ((backtrack_to_base_level s).value l0 = VAL_FALSE →
        (add_learned_clause s [l0]).inconsistent = true ∧
        (add_learned_clause s [l0]).conflict.take 2 = [l0, end_clause] ∧
        (add_learned_clause s [l0]).value = (backtrack_to_base_level s).value ∧
        (add_learned_clause s [l0]).stack = (backtrack_to_base_level s).stack ∧
        (add_learned_clause s [l0]).decision_level = s.base_level) ∧
      ((backtrack_to_base_level s).value l0 ≠ VAL_FALSE →
        (add_learned_clause s [l0]).value l0 = VAL_TRUE ∧
        (add_learned_clause s [l0]).value (not_lit l0) = VAL_FALSE ∧
        (add_learned_clause s [l0]).level (var_of l0) = s.base_level ∧
        (add_learned_clause s [l0]).antecedent (var_of l0) = mk_literal_antecedent null_literal ∧
        (add_learned_clause s [l0]).stack.lit = (backtrack_to_base_level s).stack.lit ++ [l0] ∧
        (add_learned_clause s [l0]).decision_level = s.base_level ∧
        (add_learned_clause s [l0]).nb_unit_clauses = s.nb_unit_clauses + 1 ∧
        (add_learned_clause s [l0]).inconsistent = s.inconsistent)) ∧
    (a.length = 2 →
      (add_learned_clause s a).bin (a.getD 0 0)
        = add_literal_to_vector (s.bin (a.getD 0 0)) (a.getD 1 0) ∧
      (add_learned_clause s a).bin (a.getD 1 0)
        = add_literal_to_vector (s.bin (a.getD 1 0)) (a.getD 0 0) ∧
      (∀ l, l ≠ a.getD 0 0 → l ≠ a.getD 1 0 → (add_learned_clause s a).bin l = s.bin l) ∧
      (add_learned_clause s a).clauses = s.clauses ∧
      (add_learned_clause s a).nclauses_alloc = s.nclauses_alloc ∧
      (add_learned_clause s a).problem_clauses = s.problem_clauses ∧
      (add_learned_clause s a).learned_clauses = s.learned_clauses ∧
      (add_learned_clause s a).watch = s.watch ∧
      (add_learned_clause s a).binary_clauses
        = (if s.base_level > 0 then s.binary_clauses ++ [a.getD 0 0, a.getD 1 0]
            else s.binary_clauses) ∧
      (add_learned_clause s a).decision_level = d_level s (a.getD 1 0) ∧
      (add_learned_clause s a).th_calls
        = s.th_calls ++ [th_call_t.backtrack (d_level s (a.getD 1 0))] ∧
      (add_learned_clause s a).stack.lit
        = s.stack.lit.filter (fun l => decide (d_level s l ≤ d_level s (a.getD 1 0)))
          ++ [a.getD 0 0] ∧
      (add_learned_clause s a).value (a.getD 0 0) = VAL_TRUE ∧
      (add_learned_clause s a).level (var_of (a.getD 0 0)) = d_level s (a.getD 1 0) ∧
      (add_learned_clause s a).antecedent (var_of (a.getD 0 0))
        = mk_literal_antecedent (a.getD 1 0) ∧
      (add_learned_clause s a).value (a.getD 1 0) = VAL_FALSE) :=
  ⟨fun h3 => add_learned_long_spec hA hL hv hf htop h3,
   fun l0 _ => add_learned_unit_spec hL l0,
   fun h2 => add_learned_binary_spec hA hL hv hf htop h2⟩

theorem assignInv_sample_three : AssignInv sample_three :=
  ⟨by decide, by decide, by decide, by decide, by decide, by decide, by decide⟩

theorem levelInv_sample_three : LevelInv sample_three :=
  ⟨by decide, by decide, by decide, by decide, by decide⟩

theorem add_learned_clause_installs_witness :
    (∀ l ∈ [7, 3, 5], valid_lit sample_three l) ∧
    (∀ l ∈ [7, 3, 5], sample_three.value l = VAL_FALSE) ∧
    learned_clause_order sample_three [7, 3, 5] = [7, 5, 3] ∧
    (add_learned_clause sample_three [7, 3, 5]).decision_level = 2 ∧
    (add_learned_clause sample_three [7, 3, 5]).stack.lit = [2, 4, 7] ∧
    (add_learned_clause sample_three [7, 3, 5]).value 5 = VAL_FALSE :=
  have h := (add_learned_clause_installs (s := sample_three) (a := [7, 3, 5])
    assignInv_sample_three levelInv_sample_three (by decide) (by decide) (by decide)).1 (by decide)
  ⟨by decide, by decide, by decide, h.2.2.2.2.1, h.2.2.2.2.2.2.1,
    h.2.2.2.2.2.2.2.2.2.2 1 (by decide) (by decide)⟩

/-! ## Antecedent causality along the search -/

theorem allocInv_of_grows {s t : smt_core_t} (h : AllocInv s) (g : Grows s t) : AllocInv t := by
  unfold AllocInv stored
  rw [g.problem, g.learned, g.alloc]; exact h

theorem allocInv_backtrack {s : smt_core_t} (h : AllocInv s) (k : Nat) :
    AllocInv (backtrack s k) := by
  have e1 : stored (backtrack s k) = stored s := by rw [backtrack_eq]; rfl
  have e2 : (backtrack s k).nclauses_alloc = s.nclauses_alloc := by rw [backtrack_eq]
  unfold AllocInv
  rw [e1, e2]; exact h

/-- The invariants of the core hold in every state of the search. -/
theorem coreInv_of_searchReachable {s0 s : smt_core_t} (h0 : CoreInv s0) (hS : AllocInv s0)
    (hr : SearchReachable s0 s) : CoreInv s ∧ AllocInv s := by
  induction hr with
  | start => exact ⟨h0, hS⟩
  | decide l _ hl hu ih => exact ⟨coreInv_decide ih.1 hl hu, ih.2⟩
  | propagate fuel b t _ hp ih =>
    obtain ⟨a1, a2, -⟩ := boolean_propagation_loop_inv fuel _ _ ih.1 _ hp
    exact ⟨a1, allocInv_of_grows ih.2 a2⟩
  | learn a _ hp ih => exact coreInv_add_learned_clause ih.1 ih.2 hp
  | backtrack k _ hb hk ih => exact ⟨coreInv_backtrack ih.1 hb hk, allocInv_backtrack ih.2 k⟩

theorem mem_cl_get {c : clause_t} {m : Int} (h : m ∈ c.cl) :
    ∃ k, k < c.cl.length ∧ c.get k = m := by
  obtain ⟨n, hn, e⟩ := List.mem_iff_getElem.1 h
  exact ⟨n, hn, by rw [clause_get_lt c hn]; exact e⟩

/-- The antecedent relation gives the reading of the invariant on the literals
of the antecedent. -/
theorem antecedents_false_of_anteInv {s : smt_core_t} (hA : AssignInv s) (h : AnteInv s) :
    antecedents_false_before s := by
  intro l hl m hm
  have ha := h l hl
  have key : ∀ x, valid_lit s x → s.value x = VAL_FALSE →
      s.value (not_lit x) = VAL_TRUE :=
    fun x hx hv => (valSym_true_iff hA.sym (valid_nonneg hx) hx.2).2 hv
  have key2 : ∀ x, not_lit x ∈ s.stack.lit.takeWhile (fun y => decide (y ≠ l)) →
      s.value (not_lit x) = VAL_TRUE :=
    fun x hx => trail_value_true hA (mem_of_mem_takeWhile hx)
  cases hante : s.antecedent (var_of l) with
  | literal x =>
    rw [hante] at ha hm
    simp only [antecedent_literals] at hm
    simp only [ante_ok] at ha
    by_cases e : x = null_literal
    · rw [if_pos e] at hm; cases hm
    · rw [if_neg e, List.mem_singleton] at hm
      rcases ha with ha | ⟨_, h2, h3⟩
      · exact absurd ha e
      · rw [hm]; exact ⟨h2, key2 _ h3, h3⟩
  | clause0 c =>
    rw [hante] at ha hm
    simp only [antecedent_literals] at hm
    simp only [ante_ok] at ha
    obtain ⟨_, h2, h3⟩ := ha
    obtain ⟨hm1, hm2⟩ := List.mem_filter.1 hm
    obtain ⟨k, hk, e⟩ := mem_cl_get hm1
    have hk0 : k ≠ 0 := by
      intro e0; rw [e0, h2] at e
      simp at hm2; exact hm2 e.symm
    rw [← e]
    exact ⟨(h3 k hk hk0).1, key2 _ (h3 k hk hk0).2, (h3 k hk hk0).2⟩
  | clause1 c =>
    rw [hante] at ha hm
    simp only [antecedent_literals] at hm
    simp only [ante_ok] at ha
    obtain ⟨_, h2, h3⟩ := ha
    obtain ⟨hm1, hm2⟩ := List.mem_filter.1 hm
    obtain ⟨k, hk, e⟩ := mem_cl_get hm1
    have hk0 : k ≠ 1 := by
      intro e0; rw [e0, h2] at e
      simp at hm2; exact hm2 e.symm
    rw [← e]
    exact ⟨(h3 k hk hk0).1, key2 _ (h3 k hk hk0).2, (h3 k hk hk0).2⟩
  | generic e =>
    rw [hante] at hm
    simp only [antecedent_literals] at hm
    cases hm

theorem option_eq_some_getD {α : Type} (o : Option (Bool × α)) (d : Bool × α)
    (h : o.isSome = true) : o = some ((o.getD d).1, (o.getD d).2) := by
  cases o with
  | none => cases h
  | some x => rfl

theorem searchReachable_sample_bin : SearchReachable sample_bin sample_bin_propagated :=
  SearchReachable.propagate 9 _ _ SearchReachable.start
    (option_eq_some_getD (boolean_propagation 9 sample_bin) (false, sample_bin) (by decide))

/-- Claim C4 as stated does not hold: in the state reached from `sample_bin` by
Boolean propagation, the literal 4 is assigned with antecedent the literal 3,
and 3 is false and not in the assignment stack. -/
theorem antecedent_literal_is_false :
    CoreInv sample_bin ∧ AllocInv sample_bin ∧
    SearchReachable sample_bin sample_bin_propagated ∧
    4 ∈ sample_bin_propagated.stack.lit ∧
    sample_bin_propagated.antecedent (var_of 4) = antecedent_t.literal 3 ∧
    sample_bin_propagated.value 3 = VAL_FALSE ∧
    3 ∉ sample_bin_propagated.stack.lit ∧
    ¬ antecedents_true_before sample_bin_propagated :=
  ⟨coreInv_sample_bin, by decide, searchReachable_sample_bin, by decide, by decide, by decide,
    by decide, by decide⟩

/-- Claim C4 (amended): in every state reachable from a state that satisfies the
invariants of the core by `decide_literal`, Boolean propagation,
`add_learned_clause` and `backtrack`, every assigned literal `l` is explained by
its antecedent: `l` is the tagged watched literal of the antecedent clause, and
every other literal of the antecedent clause (or the non-null antecedent
literal) is false while its negation is true and occurs in the assignment stack
strictly before `l`. -/
theorem antecedent_causality {s0 s : smt_core_t} (h0 : CoreInv s0) (hS : AllocInv s0)
    (hr : SearchReachable s0 s) : AnteInv s ∧ antecedents_false_before s :=
  have h := (coreInv_of_searchReachable h0 hS hr).1
  ⟨h.ante, antecedents_false_of_anteInv h.assign h.ante⟩

theorem antecedent_causality_witness :
    CoreInv sample_bin ∧ AllocInv sample_bin ∧
    SearchReachable sample_bin sample_bin_propagated ∧
    antecedents_false_before sample_bin_propagated :=
  ⟨coreInv_sample_bin, by decide, searchReachable_sample_bin,
    (antecedent_causality coreInv_sample_bin (by decide) searchReachable_sample_bin).2⟩

/-! ## Conflict analysis: the resolution walk -/

theorem trail_var_inj {s : smt_core_t} (h : AssignInv s) {a b : Int} (ha : a ∈ s.stack.lit)
    (hb : b ∈ s.stack.lit) (e : var_of a = var_of b) : a = b := by
  rcases (var_of_eq_iff a b).1 e with e1 | e1
  · exact e1
  · have h1 := trail_value_true h ha
    have h2 := trail_value_not h hb
    rw [← e1, h1] at h2; cases h2

theorem length_filter_flip {α : Type} (p q : α → Bool) (l : List α) (e : α) (hn : l.Nodup)
    (he : e ∈ l) (hp : p e = false) (hq : q e = true) (hother : ∀ m ∈ l, m ≠ e → q m = p m) :
    (l.filter q).length = (l.filter p).length + 1 := by
  induction l with
  | nil => cases he
  | cons a l ih =>
    rw [List.nodup_cons] at hn
    by_cases hae : a = e
    · subst hae
      have hsame : l.filter q = l.filter p := by
        apply List.filter_congr
        intro m hm
        exact hother m (List.mem_cons_of_mem _ hm) (fun e2 => hn.1 (e2 ▸ hm))
      rw [List.filter_cons, List.filter_cons, hp, hq, hsame]
      simp
    · have he2 : e ∈ l := by
        rcases List.mem_cons.1 he with h | h
        · exact absurd h.symm hae
        · exact h
      have := ih hn.2 he2 (fun m hm => hother m (List.mem_cons_of_mem _ hm))
      rw [List.filter_cons, List.filter_cons, hother a (List.mem_cons_self _ _) hae]
      split
      · simp [this]
      · exact this

theorem valid_of_not_on_trail {s : smt_core_t} (h : AssignInv s) {l : Int}
    (hl : not_lit l ∈ s.stack.lit) : valid_lit s l := by
  have := valid_lit_not h.nlits_eq (h.trail_valid _ hl)
  rw [not_lit_not_lit] at this; exact this

theorem anteInv_of_frame {s t : smt_core_t} (h : AnteInv s) (e1 : t.nlits = s.nlits)
    (e3 : t.value = s.value) (e4 : t.stack.lit = s.stack.lit)
    (e5 : t.clauses = s.clauses) (e6 : t.problem_clauses = s.problem_clauses)
    (e7 : t.learned_clauses = s.learned_clauses) (e11 : t.antecedent = s.antecedent)
    (e13 : t.expand = s.expand) : AnteInv t := by
  have est : stored t = stored s := by unfold stored; rw [e6, e7]
  unfold AnteInv
  rw [e4, e11]
  intro l hl
  exact ante_ok_congr (h l hl) e1 e3 e13 est (fun c _ => by rw [e5])

/-- Effect of `process_literal` on the state of the walk, for a false literal whose
negation is still to be visited. -/
theorem resolveInv_process {s0 : smt_core_t} (hA : AssignInv s0) (hL : LevelInv s0) {k : Nat}
    (hdl : s0.decision_level = k) {rest : List Int} (hsub : ∀ l ∈ rest, l ∈ s0.stack.lit)
    (hnd : rest.Nodup) {s : smt_core_t} {u : Nat} (h : ResolveInv s0 k rest s u) {l : Int}
    (hf : s0.value l = VAL_FALSE) (hin : not_lit l ∈ rest) :
    ResolveInv s0 k rest (process_literal k (s, u) l).1 (process_literal k (s, u) l).2 := by
  have hon : not_lit l ∈ s0.stack.lit := hsub _ hin
  have hv : valid_lit s0 l := valid_of_not_on_trail hA hon
  have hle : s0.level (var_of l) ≤ k := by
    have := hL.le_dl _ hon
    rw [var_of_not_lit, hdl] at this; exact this
  have huniq : ∀ m ∈ rest, var_of m = var_of l → m = not_lit l := by
    intro m hm e
    exact trail_var_inj hA (hsub m hm) hon (by rw [var_of_not_lit]; exact e)
  unfold process_literal
  by_cases hm : s.mark (var_of l) = false
  · simp only [hm, if_true]
    have hm0 : s0.mark (var_of l) = false := by
      cases h0 : s0.mark (var_of l) with
      | false => rfl
      | true => rw [h.mark_old _ h0] at hm; cases hm
    have hnb : var_of l ∉ s.buffer.tail.map var_of := by
      intro hc
      obtain ⟨m, hm1, hm2⟩ := List.mem_map.1 hc
      have := h.mark_buf m hm1
      rw [hm2, hm] at this; cases this
    obtain ⟨b0, hb0⟩ : ∃ bs, s.buffer = null_literal :: bs := by
      cases hb : s.buffer with
      | nil => have := h.head; rw [hb] at this; cases this
      | cons a bs =>
        have := h.head; rw [hb] at this
        simp at this; exact ⟨bs, by rw [this]⟩
    by_cases hlt : s.level (var_of l) < k
    · simp only [hlt, if_true]
      have htail : (s.buffer ++ [l]).tail = s.buffer.tail ++ [l] := by rw [hb0]; rfl
      constructor
      · exact h.value
      · exact h.level
      · exact h.lit
      · exact h.antecedent
      · exact h.base
      · exact h.dl
      · exact h.nlits
      · exact h.nvars
      · exact h.li
      · exact h.expand
      · exact anteInv_of_frame h.ante rfl rfl rfl rfl rfl rfl rfl rfl
      · exact h.alloc
      · exact h.len
      · exact h.buffer2
      · show (s.buffer ++ [l]).head? = _
        rw [hb0]; rfl
      · show ∀ x ∈ (s.buffer ++ [l]).tail, _
        rw [htail]
        intro x hx
        rcases List.mem_append.1 hx with hx | hx
        · exact h.buf x hx
        · rw [List.mem_singleton] at hx; subst hx
          exact ⟨hv, hf, by rw [← h.level]; exact hlt, hm0⟩
      · show ((s.buffer ++ [l]).tail.map var_of).Nodup
        rw [htail, List.map_append, List.nodup_append]
        refine ⟨h.buf_nodup, List.nodup_singleton _, ?_⟩
        intro x hx hx2
        simp at hx2
        exact hnb (hx2 ▸ hx)
      · intro x hx
        show upd s.mark (var_of l) true x = true
        rw [upd_apply]; split
        · rfl
        · exact h.mark_old x hx
      · show ∀ x ∈ (s.buffer ++ [l]).tail, upd s.mark (var_of l) true (var_of x) = true
        rw [htail]
        intro x hx
        rw [upd_apply]; split
        · rfl
        · rcases List.mem_append.1 hx with hx | hx
          · exact h.mark_buf x hx
          · rw [List.mem_singleton] at hx; subst hx; contradiction
      · intro x hx
        show _ ∨ x ∈ (s.buffer ++ [l]).tail.map var_of ∨ _
        rw [htail]
        have hx2 : upd s.mark (var_of l) true x = true := hx
        rw [upd_apply] at hx2
        by_cases e : x = var_of l
        · right; left; rw [e]; simp
        · rw [if_neg e] at hx2
          rcases h.mark_src x hx2 with h1 | h1 | h1
          · exact Or.inl h1
          · right; left; rw [List.map_append]; exact List.mem_append_left _ h1
          · exact Or.inr (Or.inr h1)
      · show u = (rest.filter (fun m => upd s.mark (var_of l) true (var_of m)
            && decide (s0.level (var_of m) = k))).length
        rw [h.count]
        congr 1
        apply List.filter_congr
        intro m _
        rw [upd_apply]
        by_cases e : var_of m = var_of l
        · rw [if_pos e, e]
          have : ¬ s0.level (var_of l) = k := by rw [← h.level]; omega
          simp [this]
        · rw [if_neg e]
    · simp only [hlt, if_false]
      have hk : s0.level (var_of l) = k := by
        have : ¬ s0.level (var_of l) < k := by rw [← h.level]; exact hlt
        omega
      constructor
      · exact h.value
      · exact h.level
      · exact h.lit
      · exact h.antecedent
      · exact h.base
      · exact h.dl
      · exact h.nlits
      · exact h.nvars
      · exact h.li
      · exact h.expand
      · exact anteInv_of_frame h.ante rfl rfl rfl rfl rfl rfl rfl rfl
      · exact h.alloc
      · exact h.len
      · exact h.buffer2
      · exact h.head
      · exact h.buf
      · exact h.buf_nodup
      · intro x hx
        show upd s.mark (var_of l) true x = true
        rw [upd_apply]; split
        · rfl
        · exact h.mark_old x hx
      · intro x hx
        show upd s.mark (var_of l) true (var_of x) = true
        rw [upd_apply]; split
        · rfl
        · exact h.mark_buf x hx
      · intro x hx
        have hx2 : upd s.mark (var_of l) true x = true := hx
        rw [upd_apply] at hx2
        by_cases e : x = var_of l
        · right; right
          exact ⟨not_lit l, hin, by rw [var_of_not_lit, e], by rw [e]; exact hk⟩
        · rw [if_neg e] at hx2
          exact h.mark_src x hx2
      · show u + 1 = (rest.filter (fun m => upd s.mark (var_of l) true (var_of m)
            && decide (s0.level (var_of m) = k))).length
        rw [h.count]
        symm
        apply length_filter_flip _ _ rest (not_lit l) hnd hin
        · rw [var_of_not_lit, hm]; rfl
        · rw [var_of_not_lit, upd_same, hk]; simp
        · intro m hm1 hne
          have e : var_of m ≠ var_of l := fun e => hne (huniq m hm1 e)
          rw [upd_ne _ _ e]
  · have hm2 : ¬ (s.mark (var_of l) = false) := hm
    simp only [hm2, if_false]
    exact h

theorem resolveInv_process_list {s0 : smt_core_t} (hA : AssignInv s0) (hL : LevelInv s0)
    {k : Nat} (hdl : s0.decision_level = k) {rest : List Int}
    (hsub : ∀ l ∈ rest, l ∈ s0.stack.lit) (hnd : rest.Nodup) (ls : List Int) :
    ∀ (s : smt_core_t) (u : Nat), ResolveInv s0 k rest s u →
      (∀ l ∈ ls, s0.value l = VAL_FALSE ∧ not_lit l ∈ rest) →
      ResolveInv s0 k rest (ls.foldl (process_literal k) (s, u)).1
        (ls.foldl (process_literal k) (s, u)).2 ∧
      u ≤ (ls.foldl (process_literal k) (s, u)).2 := by
  induction ls with
  | nil => intro s u h _; exact ⟨h, Nat.le_refl _⟩
  | cons l ls ih =>
    intro s u h hls
    rw [List.foldl_cons]
    have h1 := resolveInv_process hA hL hdl hsub hnd h (hls l (List.mem_cons_self _ _)).1
      (hls l (List.mem_cons_self _ _)).2
    have hmono : u ≤ (process_literal k (s, u) l).2 := by
      unfold process_literal
      simp only
      split
      · split
        · exact Nat.le_refl _
        · exact Nat.le_succ _
      · exact Nat.le_refl _
    obtain ⟨r1, r2⟩ := ih (process_literal k (s, u) l).1 (process_literal k (s, u) l).2 h1
      (fun x hx => hls x (List.mem_cons_of_mem _ hx))
    exact ⟨r1, Nat.le_trans hmono r2⟩

theorem CacheRel.cr_refl (s : smt_core_t) : CacheRel s s :=
  ⟨rfl, rfl, rfl, rfl, rfl, rfl, rfl, rfl, rfl, rfl, rfl, rfl, rfl, rfl, rfl, rfl, rfl,
    fun _ hc => ⟨hc, rfl⟩, fun h => h, fun h => h⟩

theorem CacheRel.cr_trans {s t r : smt_core_t} (h1 : CacheRel s t) (h2 : CacheRel t r) :
    CacheRel s r :=
  ⟨h2.value.trans h1.value, h2.level.trans h1.level, h2.stack.trans h1.stack,
    h2.antecedent.trans h1.antecedent, h2.base.trans h1.base, h2.dl.trans h1.dl,
    h2.nlits.trans h1.nlits, h2.nvars.trans h1.nvars, h2.expand.trans h1.expand,
    h2.mark.trans h1.mark, h2.buffer.trans h1.buffer, h2.explanation.trans h1.explanation,
    h2.inconsistent.trans h1.inconsistent, h2.theory_conflict.trans h1.theory_conflict,
    h2.conflict.trans h1.conflict, h2.th_cache.trans h1.th_cache, h2.th_calls.trans h1.th_calls,
    fun c hc => ⟨(h2.keep c (h1.keep c hc).1).1, (h2.keep c (h1.keep c hc).1).2.trans (h1.keep c hc).2⟩,
    fun h => h2.alloc (h1.alloc h), fun h => h2.len (h1.len h)⟩

/-- A change of `buffer2` only. -/
theorem cacheRel_buffer2 (s : smt_core_t) (v : List Int) : CacheRel s { s with buffer2 := v } :=
  ⟨rfl, rfl, rfl, rfl, rfl, rfl, rfl, rfl, rfl, rfl, rfl, rfl, rfl, rfl, rfl, rfl, rfl,
    fun _ hc => ⟨hc, rfl⟩, fun h => h, fun h => h⟩

theorem cacheRel_direct_binary (s : smt_core_t) (l1 l2 : Int) :
    CacheRel s (direct_binary_clause s l1 l2) :=
  ⟨rfl, rfl, rfl, rfl, rfl, rfl, rfl, rfl, rfl, rfl, rfl, rfl, rfl, rfl, rfl, rfl, rfl,
    fun _ hc => ⟨hc, rfl⟩, fun h => h, fun h => h⟩

theorem cacheRel_link {s : smt_core_t} (hS : AllocInv s) {a : List Int} (h2 : 2 ≤ a.length) :
    CacheRel s (link_learned_clause s a) := by
  have E := link_learned_clause_eq s a
  refine ⟨by rw [E], by rw [E], by rw [E], by rw [E], by rw [E], by rw [E], by rw [E], by rw [E],
    by rw [E], by rw [E], by rw [E], by rw [E], by rw [E], by rw [E], by rw [E], by rw [E],
    by rw [E], fun c hc => active_link_learned_clause hS a hc,
    fun _ => allocInv_link_learned_clause hS a, ?_⟩
  intro hlen c hc hr
  rw [stored_link_learned_clause] at hc
  rcases List.mem_append.1 hc with hc | hc
  · rw [link_learned_clause_old hS a hc] at hr ⊢; exact hlen c hc hr
  · rw [List.mem_singleton] at hc
    rw [hc, link_learned_clause_new]; exact h2

theorem cacheRel_try_cache_theory_clause {s : smt_core_t} (hS : AllocInv s) (a : List Int) :
    CacheRel s (try_cache_theory_clause s a).2 := by
  unfold try_cache_theory_clause
  simp only
  split
  · split
    · exact cacheRel_direct_binary s _ _
    · exact CacheRel.cr_refl s
  · split
    · next hn hlen =>
      split
      · exact CacheRel.cr_refl s
      · split
        · exact CacheRel.cr_refl s
        · apply cacheRel_link hS
          simp only [List.length_set]
          omega
    · exact CacheRel.cr_refl s

theorem cacheRel_try_cache_theory_implication {s : smt_core_t} (hS : AllocInv s) (a : List Int)
    (l0 : Int) : CacheRel s (try_cache_theory_implication s a l0) := by
  unfold try_cache_theory_implication
  split
  · exact CacheRel.cr_refl s
  · simp only
    have h1 := cacheRel_buffer2 s (s.remove_duplicates (s.buffer2 ++ l0 ::
      (a.filter (fun l => decide (d_level s l > s.base_level))).map not_lit))
    have h2 := cacheRel_try_cache_theory_clause (h1.alloc hS)
      (s.remove_duplicates (s.buffer2 ++ l0 ::
        (a.filter (fun l => decide (d_level s l > s.base_level))).map not_lit))
    exact (h1.cr_trans h2).cr_trans (cacheRel_buffer2 _ _)

theorem try_cache_theory_implication_buffer2 {s : smt_core_t} (h : s.buffer2 = []) (a : List Int)
    (l0 : Int) : (try_cache_theory_implication s a l0).buffer2 = [] := by
  unfold try_cache_theory_implication
  split
  · exact h
  · rfl

theorem mem_clause_tail {c : clause_t} {l : Int} (h : l ∈ clause_tail c) :
    ∃ j, 2 ≤ j ∧ j < c.cl.length ∧ c.get j = l := by
  unfold clause_tail at h
  have h0 : 0 ≤ l := by
    have := List.mem_takeWhile_imp h
    simpa using this
  have hm : l ∈ c.array.drop 2 := (List.takeWhile_sublist _).subset h
  obtain ⟨n, hn, e⟩ := List.mem_iff_getElem.1 hm
  unfold clause_t.array at hn e
  rw [List.length_drop, List.length_append] at hn
  simp only [List.length_singleton] at hn
  rw [List.getElem_drop] at e
  rcases Nat.lt_or_ge (2 + n) c.cl.length with hlt | hge
  · refine ⟨2 + n, by omega, hlt, ?_⟩
    rw [clause_get_lt c hlt, ← e, List.getElem_append_left hlt]
  · exfalso
    rw [List.getElem_append_right hge] at e
    simp at e
    have := end_marker_neg c
    omega

theorem resolveInv_of_cache {s0 : smt_core_t} {k : Nat} {rest : List Int} {s t : smt_core_t}
    {u : Nat} (h : ResolveInv s0 k rest s u) (hc : CacheRel s t) (hb2 : t.buffer2 = []) :
    ResolveInv s0 k rest t u := by
  constructor
  · rw [hc.value]; exact h.value
  · rw [hc.level]; exact h.level
  · rw [hc.stack]; exact h.lit
  · rw [hc.antecedent]; exact h.antecedent
  · rw [hc.base]; exact h.base
  · rw [hc.dl]; exact h.dl
  · rw [hc.nlits]; exact h.nlits
  · rw [hc.nvars]; exact h.nvars
  · rw [hc.stack]; exact h.li
  · rw [hc.expand]; exact h.expand
  · unfold AnteInv
    rw [hc.stack, hc.antecedent]
    intro l hl
    exact ante_ok_transfer (h.ante l hl) hc.nlits hc.expand hc.keep (fun _ _ => by rw [hc.value])
      (fun _ hx => hx)
  · exact hc.alloc h.alloc
  · exact hc.len h.len
  · exact hb2
  · rw [hc.buffer]; exact h.head
  · rw [hc.buffer]; exact h.buf
  · rw [hc.buffer]; exact h.buf_nodup
  · rw [hc.mark]; exact h.mark_old
  · rw [hc.buffer, hc.mark]; exact h.mark_buf
  · rw [hc.buffer, hc.mark]; exact h.mark_src
  · rw [hc.mark]; exact h.count

/-- The explanation vector and the record of the calls to the theory are not
read by the walk. -/
theorem resolveInv_explain {s0 : smt_core_t} {k : Nat} {rest : List Int} {s : smt_core_t}
    {u : Nat} (h : ResolveInv s0 k rest s u) (l : Int) (e : Nat) :
    ResolveInv s0 k rest (explain_antecedent s l e) u :=
  ⟨h.value, h.level, h.lit, h.antecedent, h.base, h.dl, h.nlits, h.nvars, h.li, h.expand,
    anteInv_of_frame h.ante rfl rfl rfl rfl rfl rfl rfl rfl, h.alloc, h.len, h.buffer2, h.head,
    h.buf, h.buf_nodup, h.mark_old, h.mark_buf, h.mark_src, h.count⟩

theorem takeWhile_at {pre done : List Int} {b : Int} (hb : b ∉ pre) :
    (pre ++ b :: done).takeWhile (fun y => decide (y ≠ b)) = pre := by
  have : pre ++ b :: done = (pre ++ [b]) ++ done := by simp
  rw [this, takeWhile_append_of_mem done (by simp : b ∈ pre ++ [b]), takeWhile_append_new hb]

theorem var_of_valid {s : smt_core_t} (h : AssignInv s) {l : Int} (hl : valid_lit s l) :
    0 ≤ var_of l ∧ var_of l < s.nvars := by
  have h1 := hl.1
  have h2 := hl.2
  rw [h.nlits_eq] at h2
  push_cast at h2
  unfold var_of
  constructor <;> omega

/-- A literal assigned above the base level is not marked. -/
theorem unmarked_of_level {s : smt_core_t} (hA : AssignInv s) (hM : MarkInv s) {l : Int}
    (hl : valid_lit s l) (hlev : s.base_level < s.level (var_of l)) :
    s.mark (var_of l) = false := by
  have hv := var_of_valid hA hl
  cases hm : s.mark (var_of l) with
  | false => rfl
  | true =>
    have := ((hM (var_of l) hv.1 hv.2).1 hm).2
    omega

theorem exists_of_filter_length_pos {p : Int → Bool} {l : List Int}
    (h : 1 ≤ (l.filter p).length) : ∃ m ∈ l, p m = true := by
  cases hf : l.filter p with
  | nil => rw [hf] at h; simp at h
  | cons a t =>
    have : a ∈ l.filter p := by rw [hf]; exact List.mem_cons_self _ _
    exact ⟨a, (List.mem_filter.1 this).1, (List.mem_filter.1 this).2⟩

theorem resolve_walk_spec {s0 : smt_core_t} (hI : AnalysisInv s0) {k : Nat}
    (hdl : s0.decision_level = k) (hbase : s0.base_level < k) :
    ∀ (rest done : List Int) (s : smt_core_t) (u : Nat),
      s0.stack.lit = rest.reverse ++ done → ResolveInv s0 k rest s u → 1 ≤ u →
      ∃ (b : Int) (pre rest' : List Int) (s' : smt_core_t),
        rest = pre ++ b :: rest' ∧ ResolveInv s0 k (b :: rest') s' 1 ∧
        s'.mark (var_of b) = true ∧ s0.level (var_of b) = k ∧
        resolve_walk k rest s u = some { s' with buffer := s'.buffer.set 0 (not_lit b) } := by
  intro rest
  induction rest with
  | nil =>
    intro done s u _ h hu
    have := h.count
    simp at this
    omega
  | cons b rest ih =>
    intro done s u hsplit h hu
    have htr : s0.stack.lit = rest.reverse ++ b :: done := by rw [hsplit]; simp
    have hnd := hI.assign.trail_nodup
    rw [htr] at hnd
    have hbnot : b ∉ rest.reverse := fun hb => by
      have := (List.nodup_append.1 hnd).2.2 hb (List.mem_cons_self _ _)
      exact this
    have hbnot2 : b ∉ rest := fun hb => hbnot (List.mem_reverse.2 hb)
    have hndr : rest.Nodup := List.nodup_reverse.1 (List.nodup_append.1 hnd).1
    have hsub : ∀ l ∈ rest, l ∈ s0.stack.lit := fun l hl => by
      rw [htr]; exact List.mem_append_left _ (List.mem_reverse.2 hl)
    have hbin : b ∈ s0.stack.lit := by rw [htr]; simp
    have hbv : valid_lit s0 b := hI.assign.trail_valid b hbin
    have hvarne : ∀ m ∈ rest, var_of m ≠ var_of b := fun m hm e =>
      hbnot2 (trail_var_inj hI.assign (hsub m hm) hbin e ▸ hm)
    -- the recursive call
    have step : ∀ (s2 : smt_core_t) (u2 : Nat), ResolveInv s0 k rest s2 u2 → 1 ≤ u2 →
        ∃ (b' : Int) (pre rest' : List Int) (s' : smt_core_t),
          b :: rest = pre ++ b' :: rest' ∧ ResolveInv s0 k (b' :: rest') s' 1 ∧
          s'.mark (var_of b') = true ∧ s0.level (var_of b') = k ∧
          resolve_walk k rest s2 u2 = some { s' with buffer := s'.buffer.set 0 (not_lit b') } := by
      intro s2 u2 h2 hu2
      obtain ⟨b', pre, rest', s', e1, e2, e3, e4, e5⟩ := ih (b :: done) s2 u2 htr h2 hu2
      exact ⟨b', b :: pre, rest', s', by rw [e1]; rfl, e2, e3, e4, e5⟩
    by_cases hm : s.mark (var_of b) = true
    · -- the level of b is the conflict level
      have hlevb : s0.level (var_of b) = k := by
        have hc := h.count
        rw [hc] at hu
        obtain ⟨m, hm1, hm2⟩ := exists_of_filter_length_pos hu
        simp only [Bool.and_eq_true, decide_eq_true_eq] at hm2
        rcases List.mem_cons.1 hm1 with e | e
        · rw [← e]; exact hm2.2
        · have hle : s0.level (var_of m) ≤ s0.level (var_of b) := by
            have hs := hI.level.sorted
            rw [htr, List.pairwise_append] at hs
            exact hs.2.2 m (List.mem_reverse.2 e) b (List.mem_cons_self _ _)
          have := hI.level.le_dl b hbin
          omega
      have hcount : u = 1 + (rest.filter
          (fun l => s.mark (var_of l) && decide (s0.level (var_of l) = k))).length := by
        rw [h.count, List.filter_cons]
        simp [hm, hlevb]; omega
      by_cases hu1 : u = 1
      · refine ⟨b, [], rest, s, rfl, by rw [← hu1]; exact h, hm, hlevb, ?_⟩
        unfold resolve_walk
        rw [if_pos hm, if_pos hu1]
      · have hu2 : 1 ≤ u - 1 := by omega
        have hm0 : s0.mark (var_of b) = false :=
          unmarked_of_level hI.assign hI.mark hbv (by omega)
        -- the state after the mark of b is cleared
        have h1 : ResolveInv s0 k rest { s with mark := upd s.mark (var_of b) false } (u - 1) := by
          constructor
          · exact h.value
          · exact h.level
          · exact h.lit
          · exact h.antecedent
          · exact h.base
          · exact h.dl
          · exact h.nlits
          · exact h.nvars
          · exact h.li
          · exact h.expand
          · exact anteInv_of_frame h.ante rfl rfl rfl rfl rfl rfl rfl rfl
          · exact h.alloc
          · exact h.len
          · exact h.buffer2
          · exact h.head
          · exact h.buf
          · exact h.buf_nodup
          · intro x hx
            show upd s.mark (var_of b) false x = true
            rw [upd_ne _ _ (fun e => by rw [e, hm0] at hx; cases hx)]
            exact h.mark_old x hx
          · intro l hl
            show upd s.mark (var_of b) false (var_of l) = true
            have := (h.buf l hl).2.2.1
            rw [upd_ne _ _ (fun e => by rw [e, hlevb] at this; omega)]
            exact h.mark_buf l hl
          · intro x hx
            have hx2 : upd s.mark (var_of b) false x = true := hx
            rw [upd_apply] at hx2
            by_cases e : x = var_of b
            · rw [if_pos e] at hx2; cases hx2
            · rw [if_neg e] at hx2
              rcases h.mark_src x hx2 with q | q | ⟨l, hl, q1, q2⟩
              · exact Or.inl q
              · exact Or.inr (Or.inl q)
              · rcases List.mem_cons.1 hl with e2 | e2
                · exact absurd (by rw [← q1, e2]) e
                · exact Or.inr (Or.inr ⟨l, e2, q1, q2⟩)
          · show u - 1 = (rest.filter (fun l => upd s.mark (var_of b) false (var_of l)
                && decide (s0.level (var_of l) = k))).length
            have : rest.filter (fun l => upd s.mark (var_of b) false (var_of l)
                && decide (s0.level (var_of l) = k))
              = rest.filter (fun l => s.mark (var_of l) && decide (s0.level (var_of l) = k)) := by
              apply List.filter_congr
              intro m hm1
              rw [upd_ne _ _ (hvarne m hm1)]
            rw [this]; omega
        -- the antecedent of b
        have hante := h.ante b (by rw [h.lit]; exact hbin)
        rw [h.lit, htr, takeWhile_at hbnot] at hante
        have hproc : ∀ (s2 : smt_core_t) (ls : List Int), ResolveInv s0 k rest s2 (u - 1) →
            (∀ l ∈ ls, s0.value l = VAL_FALSE ∧ not_lit l ∈ rest) →
            ResolveInv s0 k rest (ls.foldl (process_literal k) (s2, u - 1)).1
              (ls.foldl (process_literal k) (s2, u - 1)).2 ∧
            1 ≤ (ls.foldl (process_literal k) (s2, u - 1)).2 := by
          intro s2 ls h2 hls
          obtain ⟨r1, r2⟩ := resolveInv_process_list hI.assign hI.level hdl hsub hndr ls s2 (u - 1)
            h2 hls
          exact ⟨r1, Nat.le_trans hu2 r2⟩
        unfold resolve_walk
        rw [if_pos hm, if_neg hu1]
        simp only
        cases hA : s.antecedent (var_of b) with
        | clause0 c =>
          rw [hA] at hante
          simp only [ante_ok] at hante
          obtain ⟨a1, a2, a3⟩ := hante
          have hlen := h.len c a1.1 a1.2
          obtain ⟨r1, r2⟩ := hproc _ ((s.clauses c).get 1 :: clause_tail (s.clauses c)) h1 (by
            intro l hl
            rcases List.mem_cons.1 hl with e | e
            · rw [e, ← h.value]
              exact ⟨(a3 1 (by omega) (by decide)).1, List.mem_reverse.1 (a3 1 (by omega) (by decide)).2⟩
            · obtain ⟨j, hj2, hj, e2⟩ := mem_clause_tail e
              rw [← e2, ← h.value]
              exact ⟨(a3 j hj (by omega)).1, List.mem_reverse.1 (a3 j hj (by omega)).2⟩)
          exact step _ _ r1 r2
        | clause1 c =>
          rw [hA] at hante
          simp only [ante_ok] at hante
          obtain ⟨a1, a2, a3⟩ := hante
          have hlen := h.len c a1.1 a1.2
          obtain ⟨r1, r2⟩ := hproc _ ((s.clauses c).get 0 :: clause_tail (s.clauses c)) h1 (by
            intro l hl
            rcases List.mem_cons.1 hl with e | e
            · rw [e, ← h.value]
              exact ⟨(a3 0 (by omega) (by decide)).1, List.mem_reverse.1 (a3 0 (by omega) (by decide)).2⟩
            · obtain ⟨j, hj2, hj, e2⟩ := mem_clause_tail e
              rw [← e2, ← h.value]
              exact ⟨(a3 j hj (by omega)).1, List.mem_reverse.1 (a3 j hj (by omega)).2⟩)
          exact step _ _ r1 r2
        | literal l =>
          rw [hA] at hante
          simp only [ante_ok] at hante
          rcases hante with e | ⟨_, a2, a3⟩
          · exfalso
            have hfirst := hI.first b hbin (by rw [← h.antecedent, hA, e]) (by omega)
            rw [htr, takeWhile_at hbnot] at hfirst
            have hc := h1.count
            rw [hc] at hu2
            obtain ⟨m, hm1, hm2⟩ := exists_of_filter_length_pos hu2
            simp only [Bool.and_eq_true, decide_eq_true_eq] at hm2
            have := hfirst m (List.mem_reverse.2 hm1)
            omega
          · obtain ⟨r1, r2⟩ := hproc _ [l] h1 (by
              intro x hx
              rw [List.mem_singleton] at hx
              rw [hx, ← h.value]; exact ⟨a2, List.mem_reverse.1 a3⟩)
            exact step _ _ r1 r2
        | generic e =>
          rw [hA] at hante
          simp only [ante_ok] at hante
          have h2 := resolveInv_explain h1 b e
          obtain ⟨r1, r2⟩ := hproc _
            ((explain_antecedent { s with mark := upd s.mark (var_of b) false } b e).explanation.map
              not_lit) h2 (by
            intro x hx
            obtain ⟨m, hm1, hm2⟩ := List.mem_map.1 hx
            obtain ⟨q1, q2, q3⟩ := hante m hm1
            rw [← hm2, not_lit_not_lit, ← h.value]
            exact ⟨(valSym_false_iff (by rw [h.value, h.nlits]; exact hI.assign.sym)
              (valid_nonneg q1) q1.2).2 q2, List.mem_reverse.1 q3⟩)
          dsimp only
          split
          · refine step _ _ ?_ r2
            exact resolveInv_of_cache r1 (cacheRel_try_cache_theory_implication r1.alloc _ b)
              (try_cache_theory_implication_buffer2 r1.buffer2 _ b)
          · exact step _ _ r1 r2
    · have hm2 : ¬ s.mark (var_of b) = true := hm
      have h1 : ResolveInv s0 k rest s u := by
        refine { h with mark_src := ?_, count := ?_ }
        · intro x hx
          rcases h.mark_src x hx with q | q | ⟨l, hl, q1, q2⟩
          · exact Or.inl q
          · exact Or.inr (Or.inl q)
          · rcases List.mem_cons.1 hl with e2 | e2
            · rw [← q1, e2] at hx; exact absurd hx hm
            · exact Or.inr (Or.inr ⟨l, e2, q1, q2⟩)
        · rw [h.count, List.filter_cons]
          simp [hm2]
      obtain ⟨b', pre, rest', s', e1, e2, e3, e4, e5⟩ := step s u h1 hu
      refine ⟨b', pre, rest', s', e1, e2, e3, e4, ?_⟩
      unfold resolve_walk
      rw [if_neg hm]
      exact e5

theorem process_literal_mark_mono (k : Nat) (su : smt_core_t × Nat) (l : Int) (x : Int)
    (h : su.1.mark x = true) : (process_literal k su l).1.mark x = true := by
  unfold process_literal
  simp only
  split
  · split
    · show upd su.1.mark (var_of l) true x = true
      rw [upd_apply]; split
      · rfl
      · exact h
    · show upd su.1.mark (var_of l) true x = true
      rw [upd_apply]; split
      · rfl
      · exact h
  · exact h

theorem process_literal_marks (k : Nat) (su : smt_core_t × Nat) (l : Int) :
    (process_literal k su l).1.mark (var_of l) = true := by
  unfold process_literal
  simp only
  split
  · split
    · show upd su.1.mark (var_of l) true (var_of l) = true
      rw [upd_same]
    · show upd su.1.mark (var_of l) true (var_of l) = true
      rw [upd_same]
  · next h =>
    cases hm : su.1.mark (var_of l) with
    | true => rfl
    | false => exact absurd hm h

theorem process_list_mark_mono (k : Nat) (ls : List Int) :
    ∀ (su : smt_core_t × Nat) (x : Int), su.1.mark x = true →
      (ls.foldl (process_literal k) su).1.mark x = true := by
  induction ls with
  | nil => intro su x h; exact h
  | cons l ls ih =>
    intro su x h
    rw [List.foldl_cons]
    exact ih _ x (process_literal_mark_mono k su l x h)

theorem process_list_marks (k : Nat) (ls : List Int) :
    ∀ (su : smt_core_t × Nat), ∀ l ∈ ls, (ls.foldl (process_literal k) su).1.mark (var_of l) = true := by
  induction ls with
  | nil => intro su l hl; cases hl
  | cons a ls ih =>
    intro su l hl
    rw [List.foldl_cons]
    rcases List.mem_cons.1 hl with e | e
    · rw [e]; exact process_list_mark_mono k ls _ _ (process_literal_marks k su a)
    · exact ih _ l e

/-- The state in which the walk starts. -/
theorem resolveInv_start {s : smt_core_t} (hI : AnalysisInv s) {k : Nat}
    (hbase : s.base_level < k) :
    ResolveInv s k s.stack.lit.reverse { s with buffer := [null_literal] } 0 := by
  constructor
  · rfl
  · rfl
  · rfl
  · rfl
  · rfl
  · rfl
  · rfl
  · rfl
  · rfl
  · rfl
  · exact anteInv_of_frame hI.ante rfl rfl rfl rfl rfl rfl rfl rfl
  · exact hI.alloc
  · exact hI.len
  · exact hI.buffer2
  · rfl
  · intro l hl; cases hl
  · exact List.nodup_nil
  · intro x hx; exact hx
  · intro l hl; cases hl
  · intro x hx; exact Or.inl hx
  · symm
    rw [List.length_eq_zero, List.filter_eq_nil_iff]
    intro l hl
    have hl2 : l ∈ s.stack.lit := List.mem_reverse.1 hl
    simp only [Bool.and_eq_true, decide_eq_true_eq, not_and]
    intro hm hk
    have := unmarked_of_level hI.assign hI.mark (hI.assign.trail_valid l hl2) (by omega)
    rw [this] at hm; cases hm

theorem set_zero_cons (a b : Int) (l : List Int) : (a :: l).set 0 b = b :: l := rfl

/-- The clause built by resolution from a Boolean conflict. -/
theorem build_learned_clause_spec {s : smt_core_t} (hI : AnalysisInv s) {k : Nat} {c : List Int}
    (hc : ConflictAt s k c) :
    ∃ t b, build_learned_clause k s c = some t ∧ Built s k t ∧
      t.buffer.head? = some (not_lit b) ∧ b ∈ s.stack.lit ∧ d_level s b = k ∧
      t.mark (var_of b) = true ∧
      ∀ l ∈ s.stack.lit, d_level s l = k → l ≠ b → t.mark (var_of l) = false := by
  have hA := hI.assign
  have h0 := resolveInv_start hI hc.above
  have hsub : ∀ l ∈ s.stack.lit.reverse, l ∈ s.stack.lit := fun l hl => List.mem_reverse.1 hl
  have hnd : s.stack.lit.reverse.Nodup := List.nodup_reverse.2 hA.trail_nodup
  have hls : ∀ l ∈ conflict_literals c, s.value l = VAL_FALSE ∧ not_lit l ∈ s.stack.lit.reverse :=
    fun l hl => ⟨(hc.is_false l hl).2,
      List.mem_reverse.2 (assigned_on_trail hA (hc.is_false l hl).1 (hc.is_false l hl).2)⟩
  obtain ⟨r1, -⟩ := resolveInv_process_list hA hI.level hc.dl hsub hnd (conflict_literals c) _ 0
    h0 hls
  -- one literal of the conflict has level k: it is counted
  have hu : 1 ≤ ((conflict_literals c).foldl (process_literal k)
      ({ s with buffer := [null_literal] }, 0)).2 := by
    obtain ⟨l, hl, hlk⟩ := hc.top
    have hm := process_list_marks k (conflict_literals c)
      ({ s with buffer := [null_literal] }, 0) l hl
    rw [r1.count]
    have hmem : not_lit l ∈ s.stack.lit.reverse.filter (fun l =>
        ((conflict_literals c).foldl (process_literal k)
          ({ s with buffer := [null_literal] }, 0)).1.mark (var_of l)
          && decide (s.level (var_of l) = k)) := by
      rw [List.mem_filter]
      refine ⟨(hls l hl).2, ?_⟩
      rw [var_of_not_lit, hm]
      simpa using hlk
    exact List.length_pos_of_mem hmem
  obtain ⟨b, pre, rest', s', e1, e2, e3, e4, e5⟩ := resolve_walk_spec hI hc.dl hc.above
    s.stack.lit.reverse [] _ _ (by simp) r1 hu
  have hbin : b ∈ s.stack.lit := by
    apply List.mem_reverse.1; rw [e1]; simp
  have hsub2 : ∀ l ∈ b :: rest', l ∈ s.stack.lit := fun l hl => by
    apply List.mem_reverse.1; rw [e1]; exact List.mem_append_right _ hl
  have hbv := hA.trail_valid b hbin
  obtain ⟨bs, hbs⟩ : ∃ bs, s'.buffer = null_literal :: bs := by
    cases hb : s'.buffer with
    | nil => have := e2.head; rw [hb] at this; cases this
    | cons a bs =>
      have := e2.head; rw [hb] at this
      simp at this; exact ⟨bs, by rw [this]⟩
  have htail : s'.buffer.tail = bs := by rw [hbs]; rfl
  have hbuf : s'.buffer.set 0 (not_lit b) = not_lit b :: bs := by rw [hbs]; rfl
  -- b is the only marked literal of level k
  have honly : ∀ l ∈ b :: rest', s'.mark (var_of l) = true → s.level (var_of l) = k → l = b := by
    intro l hl hm hk
    by_contra hne
    have hc1 := e2.count
    rw [List.filter_cons] at hc1
    simp only [e3, e4, decide_True, Bool.and_self, if_true, List.length_cons] at hc1
    have hl2 : l ∈ rest' := by
      rcases List.mem_cons.1 hl with e | e
      · exact absurd e hne
      · exact e
    have : l ∈ rest'.filter (fun l => s'.mark (var_of l) && decide (s.level (var_of l) = k)) := by
      rw [List.mem_filter]; exact ⟨hl2, by simp [hm, hk]⟩
    have := List.length_pos_of_mem this
    omega
  have hm0b : s.mark (var_of b) = false := unmarked_of_level hA hI.mark hbv (by
    have := hc.above
    omega)
  have hvb : var_of b ∉ bs.map var_of := by
    intro hx
    obtain ⟨m, hm1, hm2⟩ := List.mem_map.1 hx
    have := (e2.buf m (by rw [htail]; exact hm1)).2.2.1
    rw [hm2] at this; omega
  refine ⟨{ s' with buffer := s'.buffer.set 0 (not_lit b) }, b, ?_, ?_, ?_, hbin, e4, e3, ?_⟩
  · unfold build_learned_clause
    simp only
    rw [r1.lit]
    exact e5
  · constructor
    · exact e2.value
    · exact e2.level
    · exact e2.lit
    · exact e2.antecedent
    · exact e2.base
    · exact e2.dl
    · exact e2.nlits
    · exact e2.nvars
    · exact e2.li
    · exact e2.expand
    · exact anteInv_of_frame e2.ante rfl rfl rfl rfl rfl rfl rfl rfl
    · exact e2.alloc
    · exact e2.len
    · exact e2.buffer2
    · show 1 ≤ (s'.buffer.set 0 (not_lit b)).length
      rw [hbuf]; simp
    · show ∀ l ∈ s'.buffer.set 0 (not_lit b), _
      rw [hbuf]
      intro l hl
      rcases List.mem_cons.1 hl with e | e
      · rw [e]
        refine ⟨valid_lit_not hA.nlits_eq hbv, trail_value_not hA hbin, ?_⟩
        rw [var_of_not_lit]; exact hm0b
      · have := e2.buf l (by rw [htail]; exact e)
        exact ⟨this.1, this.2.1, this.2.2.2⟩
    · show d_level s ((s'.buffer.set 0 (not_lit b)).getD 0 0) = k
      rw [hbuf]
      show s.level (var_of (not_lit b)) = k
      rw [var_of_not_lit]; exact e4
    · show ∀ l ∈ (s'.buffer.set 0 (not_lit b)).tail, _
      rw [hbuf]
      intro l hl
      exact (e2.buf l (by rw [htail]; exact hl)).2.2.1
    · show ((s'.buffer.set 0 (not_lit b)).map var_of).Nodup
      rw [hbuf, List.map_cons, List.nodup_cons, var_of_not_lit]
      refine ⟨hvb, ?_⟩
      have := e2.buf_nodup
      rw [htail] at this; exact this
    · intro x
      show s'.mark x = true ↔ (_ ∨ x ∈ (s'.buffer.set 0 (not_lit b)).map var_of)
      rw [hbuf, List.map_cons, var_of_not_lit]
      constructor
      · intro hx
        rcases e2.mark_src x hx with q | q | ⟨l, hl, q1, q2⟩
        · exact Or.inl q
        · rw [htail] at q; exact Or.inr (List.mem_cons_of_mem _ q)
        · have := honly l hl (by rw [q1]; exact hx) (by rw [q1]; exact q2)
          rw [← q1, this]; exact Or.inr (List.mem_cons_self _ _)
      · rintro (q | q)
        · exact e2.mark_old x q
        · rcases List.mem_cons.1 q with q | q
          · rw [q]; exact e3
          · obtain ⟨m, hm1, hm2⟩ := List.mem_map.1 q
            rw [← hm2]; exact e2.mark_buf m (by rw [htail]; exact hm1)
  · show (s'.buffer.set 0 (not_lit b)).head? = _
    rw [hbuf]; rfl
  · intro l hl hk hne
    show s'.mark (var_of l) = false
    cases hm : s'.mark (var_of l) with
    | false => rfl
    | true =>
      exfalso
      have hlv := hA.trail_valid l hl
      rcases e2.mark_src _ hm with q | q | ⟨l', hl', q1, q2⟩
      · have := unmarked_of_level hA hI.mark hlv (by
          have h1 := hc.above
          have h2 : s.level (var_of l) = k := hk
          omega)
        rw [this] at q; cases q
      · rw [htail] at q
        obtain ⟨m, hm1, hm2⟩ := List.mem_map.1 q
        have := (e2.buf m (by rw [htail]; exact hm1)).2.2.1
        rw [hm2] at this
        have h2 : s.level (var_of l) = k := hk
        omega
      · have e : l' = l := trail_var_inj hA (hsub2 l' hl') hl q1
        rw [e] at hl'
        exact hne (honly l hl' hm hk)


/-- Claim C5: on a state that satisfies the invariants of conflict analysis
(antecedent causality among them), for a Boolean conflict of level `k` (the
literals of `s.conflict` are false, one of them has level `k`, and `k` is the
decision level, above the base level), the walk of `resolve_conflict` returns;
the clause it leaves in `buffer` before `simplify_learned_clause` has
`buffer[0] = not(b)` where `b` is an assigned literal of level `k` that is still
marked, no other assigned literal of level `k` being marked; `buffer[0]` has level
`k`, every other literal of the buffer has a level below `k`, no variable occurs
twice, and every literal of the buffer is false.  This state is the one
`resolve_conflict` passes to `simplify_learned_clause`. -/
theorem resolve_conflict_builds_uip {s : smt_core_t} (hI : AnalysisInv s) {k : Nat}
    (hc : ConflictAt s k s.conflict) (hb : s.theory_conflict = false) :
    ∃ t b, build_learned_clause k s s.conflict = some t ∧
      t.buffer.getD 0 0 = not_lit b ∧ b ∈ s.stack.lit ∧ d_level s b = k ∧
      t.mark (var_of b) = true ∧
      (∀ l ∈ s.stack.lit, d_level s l = k → l ≠ b → t.mark (var_of l) = false) ∧
      d_level s (t.buffer.getD 0 0) = k ∧
      (∀ i, 1 ≤ i → i < t.buffer.length → d_level s (t.buffer.getD i 0) < k) ∧
      (t.buffer.map var_of).Nodup ∧
      (∀ l ∈ t.buffer, t.value l = VAL_FALSE) ∧
      ∀ fuel, resolve_conflict fuel s =
        (simplify_learned_clause fuel t).map (fun s4 =>
          add_learned_clause { s4 with inconsistent := false, theory_conflict := false }
            s4.buffer) := by
  obtain ⟨t, b, h1, h2, h3, h4, h5, h6, h7⟩ := build_learned_clause_spec hI hc
  refine ⟨t, b, h1, ?_, h4, h5, h6, h7, h2.top, ?_, h2.nodup, ?_, ?_⟩
  · cases hbuf : t.buffer with
    | nil => rw [hbuf] at h3; cases h3
    | cons a bs => rw [hbuf] at h3; simp at h3; rw [h3]; rfl
  · intro i hi1 hi
    apply h2.low
    cases hbuf : t.buffer with
    | nil => rw [hbuf] at hi; simp at hi
    | cons a bs =>
      rw [hbuf] at hi
      obtain ⟨j, rfl⟩ : ∃ j, i = j + 1 := ⟨i - 1, by omega⟩
      show (a :: bs).getD (j + 1) 0 ∈ bs
      rw [List.getD_cons_succ]
      exact getD_mem (by simpa using hi)
  · intro l hl
    rw [h2.value]; exact (h2.buf l hl).2.1
  · intro fuel
    have hk : k = s.decision_level := hc.dl.symm
    have hne : ¬ s.decision_level = s.base_level := by
      have := hc.above
      omega
    unfold resolve_conflict resolve_conflict_level analyze_conflict
    simp only [hb, Bool.false_eq_true, if_false, hne]
    rw [← hk, h1]
    cases hs : simplify_learned_clause fuel t <;> simp only [hs] <;> rfl

theorem analysisInv_sample_conflict : AnalysisInv sample_conflict := by
  refine ⟨⟨by decide, by decide, by decide, by decide, by decide, by decide, by decide⟩,
    ⟨by decide, by decide, by decide, by decide, by decide⟩, ?_, ?_, by decide, by decide,
    by decide, by decide⟩
  · unfold AnteInv; decide
  · unfold MarkInv; decide

theorem conflictAt_sample_conflict : ConflictAt sample_conflict 2 sample_conflict.conflict :=
  ⟨by decide, by decide, by decide, ⟨5, by decide, by decide⟩⟩

theorem resolve_conflict_builds_uip_witness :
    AnalysisInv sample_conflict ∧ ConflictAt sample_conflict 2 sample_conflict.conflict ∧
    sample_conflict.conflict = [7, 5, 3, -1] ∧
    (build_learned_clause 2 sample_conflict sample_conflict.conflict).map (fun t => t.buffer)
      = some [5, 3] ∧
    ∃ t b, build_learned_clause 2 sample_conflict sample_conflict.conflict = some t ∧
      t.buffer.getD 0 0 = not_lit b ∧ b ∈ sample_conflict.stack.lit :=
  have h := resolve_conflict_builds_uip analysisInv_sample_conflict conflictAt_sample_conflict
    (by decide)
  ⟨analysisInv_sample_conflict, conflictAt_sample_conflict, by decide, by decide,
    match h with
    | ⟨t, b, h1, h2, h3, _⟩ => ⟨t, b, h1, h2, h3⟩⟩

/-! ## Conflict analysis: minimization of the learned clause -/

/-! ## Clause minimization -/

theorem with_marks_self (s : smt_core_t) :
    with_marks s s.mark s.buffer2 s.explanation s.th_calls = s := rfl

theorem clear_marks_apply (v : List Int) (m : Int → Bool) (x : Int) :
    clear_marks m v x = if x ∈ v.map var_of then false else m x := by
  induction v generalizing m with
  | nil => simp [clear_marks]
  | cons a v ih =>
    have hstep : clear_marks m (a :: v) = clear_marks (upd m (var_of a) false) v := rfl
    rw [hstep, ih]
    by_cases h1 : x ∈ v.map var_of
    · rw [if_pos h1, if_pos (by rw [List.map_cons]; exact List.mem_cons_of_mem _ h1)]
    · rw [if_neg h1]
      by_cases h2 : x = var_of a
      · rw [if_pos (by rw [List.map_cons, h2]; exact List.mem_cons_self _ _), h2, upd_same]
      · rw [upd_ne _ _ h2, if_neg]
        rw [List.map_cons]
        intro hc
        rcases List.mem_cons.1 hc with e | e
        · exact h2 e
        · exact h1 e

/-- Marking an unmarked variable lowers the count of unmarked variables by one. -/
theorem count_unmarked_mark {n : Nat} {m : Int → Bool} {x : Int} (h0 : 0 ≤ x) (hx : x < n)
    (hm : m x = false) : count_unmarked n (upd m x true) + 1 = count_unmarked n m := by
  unfold count_unmarked
  obtain ⟨y, rfl⟩ : ∃ y : Nat, x = (y : Int) := ⟨x.toNat, by omega⟩
  have hy : y < n := by omega
  symm
  apply length_filter_flip _ _ (List.range n) y (List.nodup_range n) (List.mem_range.2 hy)
  · show (! upd m (Int.ofNat y) true (Int.ofNat y)) = false
    rw [upd_same]; rfl
  · show (! m (Int.ofNat y)) = true
    have : m (Int.ofNat y) = false := hm
    rw [this]; rfl
  · intro z _ hz
    have : Int.ofNat z ≠ Int.ofNat y := by
      intro e; exact hz (Int.ofNat.inj e)
    show (! m (Int.ofNat z)) = (! upd m (Int.ofNat y) true (Int.ofNat z))
    rw [upd_ne _ _ this]

/-- False literals of the same variable are equal. -/
theorem false_var_inj {s : smt_core_t} (h : AssignInv s) {p q : Int} (hp : valid_lit s p)
    (hpf : s.value p = VAL_FALSE) (hqf : s.value q = VAL_FALSE) (e : var_of p = var_of q) :
    p = q := by
  rcases (var_of_eq_iff p q).1 e with e1 | e1
  · exact e1
  · exfalso
    have := (valSym_true_iff h.sym (valid_nonneg hp) hp.2).2 hpf
    rw [e1, not_lit_not_lit, hqf] at this
    cases this

theorem mark_and_push_with (s : smt_core_t) (m : Int → Bool) (b2 ex : List Int)
    (tc : List th_call_t) (l1 : Int) :
    mark_and_push (with_marks s m b2 ex tc) l1
      = with_marks s (upd m (var_of l1) true) (b2 ++ [l1]) ex tc := rfl

/-- Effect of the loops of `analyze_antecedents` on the marks and on `buffer2`:
the literals `N` pushed are unmarked literals of `ls`, and on success every
literal of `ls` is marked. -/
theorem analyze_loop_spec (s : smt_core_t) (sgn : Nat) (ex : List Int) (tc : List th_call_t)
    (ls : List Int) :
    ∀ (m : Int → Bool) (b2 : List Int), (∀ q ∈ ls, 0 ≤ var_of q ∧ var_of q < s.nvars) →
      ∃ (m' : Int → Bool) (N : List Int),
        (analyze_loop sgn ls (with_marks s m b2 ex tc)).2 = with_marks s m' (b2 ++ N) ex tc ∧
        (∀ x, m' x = true ↔ m x = true ∨ x ∈ N.map var_of) ∧
        (∀ q ∈ N, q ∈ ls ∧ m (var_of q) = false) ∧ (N.map var_of).Nodup ∧
        count_unmarked s.nvars m' + N.length = count_unmarked s.nvars m ∧
        ((analyze_loop sgn ls (with_marks s m b2 ex tc)).1 = true →
          ∀ q ∈ ls, m' (var_of q) = true) := by
  induction ls with
  | nil =>
    intro m b2 _
    exact ⟨m, [], (by simp [analyze_loop]), fun x => (by simp), fun q hq => (by cases hq),
      List.nodup_nil, rfl, fun _ q hq => (by cases hq)⟩
  | cons l1 rest ih =>
    intro m b2 hr
    have hr2 : ∀ q ∈ rest, 0 ≤ var_of q ∧ var_of q < s.nvars :=
      fun q hq => hr q (List.mem_cons_of_mem _ hq)
    have hl1 := hr l1 (List.mem_cons_self _ _)
    unfold analyze_loop
    by_cases hm : m (var_of l1) = false
    · have hm' : (with_marks s m b2 ex tc).mark (var_of l1) = false := hm
      rw [if_pos hm']
      by_cases hck : check_level (with_marks s m b2 ex tc) l1 sgn = true
      · rw [if_pos hck, mark_and_push_with]
        obtain ⟨m', N, e1, e2, e3, e4, e5, e6⟩ := ih (upd m (var_of l1) true) (b2 ++ [l1]) hr2
        refine ⟨m', l1 :: N, by rw [e1]; simp, ?_, ?_, ?_, ?_, ?_⟩
        · intro x
          rw [e2 x, upd_apply, List.map_cons, List.mem_cons]
          by_cases e : x = var_of l1
          · simp [e]
          · simp [e]
        · intro q hq
          rcases List.mem_cons.1 hq with e | e
          · rw [e]; exact ⟨List.mem_cons_self _ _, hm⟩
          · obtain ⟨q1, q2⟩ := e3 q e
            refine ⟨List.mem_cons_of_mem _ q1, ?_⟩
            rw [upd_apply] at q2
            split at q2
            · cases q2
            · exact q2
        · rw [List.map_cons, List.nodup_cons]
          refine ⟨?_, e4⟩
          intro hc
          obtain ⟨q, hq1, hq2⟩ := List.mem_map.1 hc
          have := (e3 q hq1).2
          rw [hq2, upd_same] at this; cases this
        · rw [List.length_cons, ← count_unmarked_mark hl1.1 hl1.2 hm, ← e5]; omega
        · intro hres q hq
          rcases List.mem_cons.1 hq with e | e
          · rw [e, e2]; left; rw [upd_same]
          · exact e6 hres q e
      · rw [if_neg hck]
        exact ⟨m, [], (by simp), fun x => (by simp), fun q hq => (by cases hq), List.nodup_nil, rfl,
          fun h => (by cases h)⟩
    · have hm' : ¬ (with_marks s m b2 ex tc).mark (var_of l1) = false := hm
      rw [if_neg hm']
      obtain ⟨m', N, e1, e2, e3, e4, e5, e6⟩ := ih m b2 hr2
      refine ⟨m', N, e1, e2, fun q hq => ⟨List.mem_cons_of_mem _ (e3 q hq).1, (e3 q hq).2⟩, e4,
        e5, ?_⟩
      intro hres q hq
      rcases List.mem_cons.1 hq with e | e
      · rw [e, e2]; left
        cases h : m (var_of l1) with
        | true => rfl
        | false => exact absurd h hm
      · exact e6 hres q e

/-- The false literals of the antecedent of `not(l)` are valid, false, and their
negations precede `not(l)` in the assignment stack. -/
theorem antecedent_falses_spec {s : smt_core_t} (hA : AssignInv s) (hAn : AnteInv s)
    (hLen : ClauseLen s) {l : Int} (hl : valid_lit s l) (hf : s.value l = VAL_FALSE) :
    ∀ q ∈ antecedent_falses s l, valid_lit s q ∧ s.value q = VAL_FALSE ∧
      before s.stack.lit (not_lit q) (not_lit l) := by
  have hon := assigned_on_trail hA hl hf
  have ha := hAn _ hon
  rw [var_of_not_lit] at ha
  have hval : ∀ q, not_lit q ∈ s.stack.lit.takeWhile (fun y => decide (y ≠ not_lit l)) →
      valid_lit s q := fun q hq => valid_of_not_on_trail hA (mem_of_mem_takeWhile hq)
  intro q hq
  unfold antecedent_falses at hq
  cases hante : s.antecedent (var_of l) with
  | literal l1 =>
    rw [hante] at ha hq
    simp only [ante_ok] at ha
    simp only at hq
    by_cases e : l1 = null_literal
    · rw [if_pos e] at hq; cases hq
    · rw [if_neg e, List.mem_singleton] at hq
      rcases ha with ha | ⟨h1, h2, h3⟩
      · exact absurd ha e
      · rw [hq]; exact ⟨h1, h2, h3⟩
  | clause0 c =>
    rw [hante] at ha hq
    simp only [ante_ok] at ha
    simp only at hq
    obtain ⟨a1, a2, a3⟩ := ha
    have hlen := hLen c a1.1 a1.2
    rcases List.mem_cons.1 hq with e | e
    · rw [e]
      have := a3 1 (by omega) (by decide)
      exact ⟨hval _ this.2, this.1, this.2⟩
    · obtain ⟨j, hj2, hj, e2⟩ := mem_clause_tail e
      rw [← e2]
      have := a3 j hj (by omega)
      exact ⟨hval _ this.2, this.1, this.2⟩
  | clause1 c =>
    rw [hante] at ha hq
    simp only [ante_ok] at ha
    simp only at hq
    obtain ⟨a1, a2, a3⟩ := ha
    have hlen := hLen c a1.1 a1.2
    rcases List.mem_cons.1 hq with e | e
    · rw [e]
      have := a3 0 (by omega) (by decide)
      exact ⟨hval _ this.2, this.1, this.2⟩
    · obtain ⟨j, hj2, hj, e2⟩ := mem_clause_tail e
      rw [← e2]
      have := a3 j hj (by omega)
      exact ⟨hval _ this.2, this.1, this.2⟩
  | generic e =>
    rw [hante] at ha hq
    simp only [ante_ok] at ha
    simp only at hq
    obtain ⟨p, hp1, hp2⟩ := List.mem_map.1 hq
    obtain ⟨q1, q2, q3⟩ := ha p hp1
    rw [← hp2, not_lit_not_lit]
    exact ⟨valid_lit_not hA.nlits_eq q1,
      (valSym_false_iff hA.sym (valid_nonneg q1) q1.2).2 q2, q3⟩

/-- One conditional `set_lit_mark; ivector_push` as a loop over one literal. -/
theorem mark_if_unmarked_spec (s : smt_core_t) (ex : List Int) (tc : List th_call_t) (l1 : Int)
    (m : Int → Bool) (b2 : List Int) (hv : 0 ≤ var_of l1 ∧ var_of l1 < s.nvars) :
    ∃ (m' : Int → Bool) (N : List Int),
      (if (with_marks s m b2 ex tc).mark (var_of l1) = false
        then mark_and_push (with_marks s m b2 ex tc) l1 else with_marks s m b2 ex tc)
        = with_marks s m' (b2 ++ N) ex tc ∧
      (∀ x, m' x = true ↔ m x = true ∨ x ∈ N.map var_of) ∧
      (∀ q ∈ N, q = l1 ∧ m (var_of q) = false) ∧ (N.map var_of).Nodup ∧
      count_unmarked s.nvars m' + N.length = count_unmarked s.nvars m ∧
      m' (var_of l1) = true := by
  by_cases hm : m (var_of l1) = false
  · have hm' : (with_marks s m b2 ex tc).mark (var_of l1) = false := hm
    rw [if_pos hm']
    refine ⟨upd m (var_of l1) true, [l1], rfl, ?_, ?_, by simp, ?_, by rw [upd_same]⟩
    · intro x
      rw [upd_apply]
      by_cases e : x = var_of l1 <;> simp [e]
    · intro q hq
      rw [List.mem_singleton] at hq
      rw [hq]; exact ⟨rfl, hm⟩
    · exact count_unmarked_mark hv.1 hv.2 hm
  · have hm' : ¬ (with_marks s m b2 ex tc).mark (var_of l1) = false := hm
    rw [if_neg hm']
    refine ⟨m, [], by simp, fun x => (by simp), fun q hq => (by cases hq), List.nodup_nil, rfl, ?_⟩
    cases h : m (var_of l1) with
    | true => rfl
    | false => exact absurd h hm

/-- Effect of `analyze_antecedents` on the marks and on `buffer2`. -/
theorem analyze_antecedents_spec (s : smt_core_t) (sgn : Nat) (l : Int) (m : Int → Bool)
    (b2 ex : List Int) (tc : List th_call_t)
    (hr : ∀ q ∈ antecedent_falses s l, 0 ≤ var_of q ∧ var_of q < s.nvars) :
    ∃ (m' : Int → Bool) (N ex' : List Int) (tc' : List th_call_t),
      (analyze_antecedents (with_marks s m b2 ex tc) l sgn).2
        = with_marks s m' (b2 ++ N) ex' tc' ∧
      (∀ x, m' x = true ↔ m x = true ∨ x ∈ N.map var_of) ∧
      (∀ q ∈ N, q ∈ antecedent_falses s l ∧ m (var_of q) = false) ∧ (N.map var_of).Nodup ∧
      count_unmarked s.nvars m' + N.length = count_unmarked s.nvars m ∧
      ((analyze_antecedents (with_marks s m b2 ex tc) l sgn).1 = true →
        has_antecedent s l ∧ ∀ q ∈ antecedent_falses s l, m' (var_of q) = true) := by
  unfold analyze_antecedents has_antecedent
  unfold antecedent_falses at hr ⊢
  have hante : (with_marks s m b2 ex tc).antecedent (var_of l) = s.antecedent (var_of l) := rfl
  rw [hante]
  cases ha : s.antecedent (var_of l) with
  | literal l1 =>
    rw [ha] at hr
    simp only at hr ⊢
    by_cases e : l1 = null_literal
    · rw [if_pos e]
      exact ⟨m, [], ex, tc, by simp, fun x => (by simp), fun q hq => (by cases hq),
        List.nodup_nil, rfl, fun h => (by cases h)⟩
    · rw [if_neg e] at hr ⊢
      obtain ⟨m', N, e1, e2, e3, e4, e5, e6⟩ :=
        mark_if_unmarked_spec s ex tc l1 m b2 (hr l1 (List.mem_singleton_self _))
      refine ⟨m', N, ex, tc, e1, e2, ?_, e4, e5, ?_⟩
      · intro q hq
        exact ⟨by rw [(e3 q hq).1, if_neg e]; exact List.mem_singleton_self _, (e3 q hq).2⟩
      · intro _
        refine ⟨fun h => e (by injection h), ?_⟩
        intro q hq
        rw [if_neg e, List.mem_singleton] at hq
        rw [hq]; exact e6
  | clause0 c =>
    rw [ha] at hr
    simp only at hr ⊢
    have hcl : (with_marks s m b2 ex tc).clauses c = s.clauses c := rfl
    rw [hcl]
    obtain ⟨m1, N1, e1, e2, e3, e4, e5, e6⟩ :=
      mark_if_unmarked_spec s ex tc ((s.clauses c).get 1) m b2 (hr _ (List.mem_cons_self _ _))
    rw [e1]
    obtain ⟨m2, N2, f1, f2, f3, f4, f5, f6⟩ := analyze_loop_spec s sgn ex tc
      (clause_tail (s.clauses c)) m1 (b2 ++ N1) (fun q hq => hr q (List.mem_cons_of_mem _ hq))
    refine ⟨m2, N1 ++ N2, ex, tc, by rw [f1, List.append_assoc], ?_, ?_, ?_, ?_, ?_⟩
    · intro x
      rw [f2 x, e2 x, List.map_append, List.mem_append, or_assoc]
    · intro q hq
      rcases List.mem_append.1 hq with h | h
      · exact ⟨by rw [(e3 q h).1]; exact List.mem_cons_self _ _, (e3 q h).2⟩
      · refine ⟨List.mem_cons_of_mem _ (f3 q h).1, ?_⟩
        cases hmq : m (var_of q) with
        | false => rfl
        | true =>
          have := (e2 (var_of q)).2 (Or.inl hmq)
          rw [(f3 q h).2] at this; cases this
    · rw [List.map_append, List.nodup_append]
      refine ⟨e4, f4, ?_⟩
      intro x hx1 hx2
      obtain ⟨q, hq1, hq2⟩ := List.mem_map.1 hx2
      have := (e2 x).2 (Or.inr hx1)
      rw [← hq2, (f3 q hq1).2] at this; cases this
    · rw [List.length_append]; omega
    · intro hres
      refine ⟨fun h => (by cases h), ?_⟩
      intro q hq
      rcases List.mem_cons.1 hq with h | h
      · rw [h, f2]; exact Or.inl e6
      · exact f6 hres q h
  | clause1 c =>
    rw [ha] at hr
    simp only at hr ⊢
    have hcl : (with_marks s m b2 ex tc).clauses c = s.clauses c := rfl
    rw [hcl]
    obtain ⟨m1, N1, e1, e2, e3, e4, e5, e6⟩ :=
      mark_if_unmarked_spec s ex tc ((s.clauses c).get 0) m b2 (hr _ (List.mem_cons_self _ _))
    rw [e1]
    obtain ⟨m2, N2, f1, f2, f3, f4, f5, f6⟩ := analyze_loop_spec s sgn ex tc
      (clause_tail (s.clauses c)) m1 (b2 ++ N1) (fun q hq => hr q (List.mem_cons_of_mem _ hq))
    refine ⟨m2, N1 ++ N2, ex, tc, by rw [f1, List.append_assoc], ?_, ?_, ?_, ?_, ?_⟩
    · intro x
      rw [f2 x, e2 x, List.map_append, List.mem_append, or_assoc]
    · intro q hq
      rcases List.mem_append.1 hq with h | h
      · exact ⟨by rw [(e3 q h).1]; exact List.mem_cons_self _ _, (e3 q h).2⟩
      · refine ⟨List.mem_cons_of_mem _ (f3 q h).1, ?_⟩
        cases hmq : m (var_of q) with
        | false => rfl
        | true =>
          have := (e2 (var_of q)).2 (Or.inl hmq)
          rw [(f3 q h).2] at this; cases this
    · rw [List.map_append, List.nodup_append]
      refine ⟨e4, f4, ?_⟩
      intro x hx1 hx2
      obtain ⟨q, hq1, hq2⟩ := List.mem_map.1 hx2
      have := (e2 x).2 (Or.inr hx1)
      rw [← hq2, (f3 q hq1).2] at this; cases this
    · rw [List.length_append]; omega
    · intro hres
      refine ⟨fun h => (by cases h), ?_⟩
      intro q hq
      rcases List.mem_cons.1 hq with h | h
      · rw [h, f2]; exact Or.inl e6
      · exact f6 hres q h
  | generic e =>
    rw [ha] at hr
    simp only at hr ⊢
    have hex : explain_antecedent (with_marks s m b2 ex tc) (not_lit l) e
        = with_marks s m b2 (s.expand (not_lit l) e)
            (tc ++ [th_call_t.expand_explanation (not_lit l) e]) := rfl
    rw [hex]
    have hex2 : (with_marks s m b2 (s.expand (not_lit l) e)
        (tc ++ [th_call_t.expand_explanation (not_lit l) e])).explanation
        = s.expand (not_lit l) e := rfl
    rw [hex2]
    obtain ⟨m2, N2, f1, f2, f3, f4, f5, f6⟩ := analyze_loop_spec s sgn (s.expand (not_lit l) e)
      (tc ++ [th_call_t.expand_explanation (not_lit l) e])
      ((s.expand (not_lit l) e).map not_lit) m b2 hr
    exact ⟨m2, N2, _, _, f1, f2, f3, f4, f5, fun hres => ⟨fun h => (by cases h), f6 hres⟩⟩

theorem getD_append_right_len (a b : List Int) (j : Nat) :
    (a ++ b).getD (a.length + j) 0 = b.getD j 0 := by
  rw [List.getD_eq_getElem?_getD, List.getD_eq_getElem?_getD,
    List.getElem?_append_right (Nat.le_add_right _ _)]
  congr 2
  omega

theorem getD_append_left_lt (a b : List Int) {j : Nat} (h : j < a.length) :
    (a ++ b).getD j 0 = a.getD j 0 := by
  rw [List.getD_eq_getElem?_getD, List.getD_eq_getElem?_getD, List.getElem?_append_left h]

/-- The loop of `subsumed`: with enough fuel it returns; the literals `N'` it
has pushed are false literals that were not marked, and on success the literal
tested and all the literals pushed have a non-null antecedent, all of whose
literals are marked. -/
theorem subsumed_loop_spec {s : smt_core_t} (hA : AssignInv s) (hAn : AnteInv s)
    (hLen : ClauseLen s) (sgn : Nat) (b0 : List Int) (mstart : Int → Bool) (l0 : Int) :
    ∀ (fuel : Nat) (m : Int → Bool) (N ex : List Int) (tc : List th_call_t) (j : Nat),
      j ≤ N.length →
      (∀ q ∈ l0 :: N, valid_lit s q ∧ s.value q = VAL_FALSE) →
      (∀ x, m x = true ↔ mstart x = true ∨ x ∈ N.map var_of) →
      (∀ q ∈ N, mstart (var_of q) = false) → (N.map var_of).Nodup →
      (∀ q ∈ (l0 :: N).take j,
        has_antecedent s q ∧ ∀ p ∈ antecedent_falses s q, m (var_of p) = true) →
      count_unmarked s.nvars m + (N.length - j) < fuel →
      ∃ (b : Bool) (m' : Int → Bool) (N' ex' : List Int) (tc' : List th_call_t),
        subsumed_loop sgn fuel (with_marks s m (b0 ++ N) ex tc) ((l0 :: N).getD j 0)
            (b0.length + j)
          = some (b, with_marks s m' (b0 ++ N') ex' tc') ∧
        (∀ x, m' x = true ↔ mstart x = true ∨ x ∈ N'.map var_of) ∧
        (∀ q ∈ N', valid_lit s q ∧ s.value q = VAL_FALSE ∧ mstart (var_of q) = false) ∧
        (N'.map var_of).Nodup ∧
        (b = true → ∀ q ∈ l0 :: N',
          has_antecedent s q ∧ ∀ p ∈ antecedent_falses s q, m' (var_of p) = true) := by
  intro fuel
  induction fuel with
  | zero => intro m N ex tc j _ _ _ _ _ _ hf; omega
  | succ fuel ih =>
    intro m N ex tc j hj hval hmark hun hnd hdone hf
    have hlmem : (l0 :: N).getD j 0 ∈ l0 :: N := getD_mem (by simp; omega)
    obtain ⟨hlv, hlf⟩ := hval _ hlmem
    have hfs := antecedent_falses_spec hA hAn hLen hlv hlf
    obtain ⟨m1, Nn, ex1, tc1, e1, e2, e3, e4, e5, e6⟩ :=
      analyze_antecedents_spec s sgn ((l0 :: N).getD j 0) m (b0 ++ N) ex tc
        (fun q hq => var_of_valid hA (hfs q hq).1)
    rw [List.append_assoc] at e1
    -- the invariant for the longer queue
    have hmark1 : ∀ x, m1 x = true ↔ mstart x = true ∨ x ∈ (N ++ Nn).map var_of := by
      intro x
      rw [e2 x, hmark x, List.map_append, List.mem_append, or_assoc]
    have hun_new : ∀ q ∈ Nn, mstart (var_of q) = false := by
      intro q hq
      cases h : mstart (var_of q) with
      | false => rfl
      | true =>
        have := (hmark (var_of q)).2 (Or.inl h)
        rw [(e3 q hq).2] at this; cases this
    have hun1 : ∀ q ∈ N ++ Nn, mstart (var_of q) = false := by
      intro q hq
      rcases List.mem_append.1 hq with h | h
      · exact hun q h
      · exact hun_new q h
    have hval1 : ∀ q ∈ l0 :: (N ++ Nn), valid_lit s q ∧ s.value q = VAL_FALSE := by
      intro q hq
      rcases List.mem_cons.1 hq with h | h
      · exact hval q (by rw [h]; exact List.mem_cons_self _ _)
      · rcases List.mem_append.1 h with h | h
        · exact hval q (List.mem_cons_of_mem _ h)
        · exact ⟨(hfs q (e3 q h).1).1, (hfs q (e3 q h).1).2.1⟩
    have hnd1 : ((N ++ Nn).map var_of).Nodup := by
      rw [List.map_append, List.nodup_append]
      refine ⟨hnd, e4, ?_⟩
      intro x hx1 hx2
      obtain ⟨q, hq1, hq2⟩ := List.mem_map.1 hx2
      have := (hmark x).2 (Or.inr hx1)
      rw [← hq2, (e3 q hq1).2] at this; cases this
    have hresult : ∀ N' : List Int, (∀ q ∈ N', valid_lit s q ∧ s.value q = VAL_FALSE) →
        (∀ q ∈ N', mstart (var_of q) = false) →
        ∀ q ∈ N', valid_lit s q ∧ s.value q = VAL_FALSE ∧ mstart (var_of q) = false :=
      fun N' h1 h2 q hq => ⟨(h1 q hq).1, (h1 q hq).2, h2 q hq⟩
    unfold subsumed_loop
    simp only
    cases hb : (analyze_antecedents (with_marks s m (b0 ++ N) ex tc) ((l0 :: N).getD j 0) sgn).1 with
    | false =>
      simp only [Bool.false_eq_true, if_false]
      refine ⟨false, m1, N ++ Nn, ex1, tc1, by rw [e1], hmark1, ?_, hnd1, fun h => (by cases h)⟩
      exact hresult _ (fun q hq => hval1 q (List.mem_cons_of_mem _ hq)) hun1
    | true =>
      simp only [if_true]
      have hdone1 : ∀ q ∈ (l0 :: (N ++ Nn)).take (j + 1),
          has_antecedent s q ∧ ∀ p ∈ antecedent_falses s q, m1 (var_of p) = true := by
        intro q hq
        have hsplit : (l0 :: (N ++ Nn)).take (j + 1)
            = (l0 :: N).take j ++ [(l0 :: N).getD j 0] := by
          have h1 : (l0 :: (N ++ Nn)) = (l0 :: N) ++ Nn := rfl
          rw [h1, List.take_append_of_le_length (by simp; omega)]
          exact take_succ_getD (by simp; omega)
        rw [hsplit] at hq
        rcases List.mem_append.1 hq with h | h
        · obtain ⟨d1, d2⟩ := hdone q h
          exact ⟨d1, fun p hp => (e2 _).2 (Or.inl (d2 p hp))⟩
        · rw [List.mem_singleton] at h
          rw [h]; exact e6 hb
      have hlen : (analyze_antecedents (with_marks s m (b0 ++ N) ex tc) ((l0 :: N).getD j 0)
          sgn).2.buffer2 = b0 ++ (N ++ Nn) := by rw [e1]; rfl
      rw [hlen, List.length_append]
      by_cases hlt : j < (N ++ Nn).length
      · rw [if_pos (by omega)]
        have hnext : (b0 ++ (N ++ Nn)).getD (b0.length + j) 0 = (l0 :: (N ++ Nn)).getD (j + 1) 0 := by
          rw [getD_append_right_len, List.getD_cons_succ]
        rw [hnext, e1]
        have := ih m1 (N ++ Nn) ex1 tc1 (j + 1) (by omega) hval1 hmark1 hun1 hnd1 hdone1 (by
          rw [List.length_append] at hlt ⊢
          omega)
        exact this
      · rw [if_neg (by omega)]
        refine ⟨true, m1, N ++ Nn, ex1, tc1, by rw [e1], hmark1, ?_, hnd1, ?_⟩
        · exact hresult _ (fun q hq => hval1 q (List.mem_cons_of_mem _ hq)) hun1
        · intro _ q hq
          apply hdone1 q
          rw [List.take_of_length_le (by simp at hlt ⊢; omega)]
          exact hq

theorem count_unmarked_le (n : Nat) (m : Int → Bool) : count_unmarked n m ≤ n := by
  unfold count_unmarked
  have := List.length_filter_le (fun x : Nat => ! m (Int.ofNat x)) (List.range n)
  rw [List.length_range] at this
  exact this

/-- Result of `subsumed`: on failure the marks and `buffer2` are as they were;
on success the literals `N'` pushed are false literals that were not marked, and
the literal tested and the literals pushed have a non-null antecedent all of
whose literals are marked. -/
theorem subsumed_spec {s : smt_core_t} (hA : AssignInv s) (hAn : AnteInv s)
    (hLen : ClauseLen s) (sgn : Nat) {fuel : Nat} (hfuel : s.nvars < fuel) (m : Int → Bool)
    (b0 ex : List Int) (tc : List th_call_t) {l0 : Int} (hl0 : valid_lit s l0)
    (hf0 : s.value l0 = VAL_FALSE) :
    (∃ (ex' : List Int) (tc' : List th_call_t),
      subsumed fuel (with_marks s m b0 ex tc) l0 sgn = some (false, with_marks s m b0 ex' tc')) ∨
    (∃ (m' : Int → Bool) (N' ex' : List Int) (tc' : List th_call_t),
      subsumed fuel (with_marks s m b0 ex tc) l0 sgn
        = some (true, with_marks s m' (b0 ++ N') ex' tc') ∧
      (∀ x, m' x = true ↔ m x = true ∨ x ∈ N'.map var_of) ∧
      (∀ q ∈ N', valid_lit s q ∧ s.value q = VAL_FALSE ∧ m (var_of q) = false) ∧
      (N'.map var_of).Nodup ∧
      ∀ q ∈ l0 :: N',
        has_antecedent s q ∧ ∀ p ∈ antecedent_falses s q, m' (var_of p) = true) := by
  obtain ⟨b, m', N', ex', tc', e1, e2, e3, e4, e5⟩ :=
    subsumed_loop_spec hA hAn hLen sgn b0 m l0 fuel m [] ex tc 0 (Nat.le_refl _)
      (fun q hq => by
        rw [List.mem_singleton] at hq
        rw [hq]; exact ⟨hl0, hf0⟩)
      (fun x => by simp) (fun q hq => (by cases hq)) List.nodup_nil
      (fun q hq => (by simp at hq))
      (by
        have := count_unmarked_le s.nvars m
        simp only [List.length_nil, Nat.sub_zero, Nat.add_zero]
        omega)
  simp only [List.append_nil, Nat.add_zero, List.getD_cons_zero] at e1
  unfold subsumed
  have hn : (with_marks s m b0 ex tc).buffer2.length = b0.length := rfl
  simp only [hn, e1]
  cases b with
  | true =>
    right
    exact ⟨m', N', ex', tc', rfl, e2, e3, e4, e5 rfl⟩
  | false =>
    left
    refine ⟨ex', tc', ?_⟩
    have hb2 : (with_marks s m' (b0 ++ N') ex' tc').buffer2 = b0 ++ N' := rfl
    have hmk : (with_marks s m' (b0 ++ N') ex' tc').mark = m' := rfl
    simp only [hb2, hmk, List.drop_left, List.take_left]
    have hfun : clear_marks m' N' = m := by
      funext x
      rw [clear_marks_apply]
      split
      · next hx =>
        obtain ⟨q, hq1, hq2⟩ := List.mem_map.1 hx
        rw [← hq2, (e3 q hq1).2.2]
      · next hx =>
        cases hm : m x with
        | true => exact (e2 x).2 (Or.inl hm)
        | false =>
          cases hm' : m' x with
          | false => rfl
          | true =>
            rcases (e2 x).1 hm' with h | h
            · rw [hm] at h; cases h
            · exact absurd h hx
    rw [hfun]
    rfl

theorem takeWhile_length_lt_of {α : Type} (p q : α → Bool) {tr : List α} {x : α}
    (h : x ∈ tr.takeWhile p) (hq : q x = false) :
    (tr.takeWhile q).length < (tr.takeWhile p).length := by
  induction tr with
  | nil => cases h
  | cons a t ih =>
    by_cases hp : p a = true
    · rw [List.takeWhile_cons_of_pos hp] at h ⊢
      by_cases hqa : q a = true
      · rw [List.takeWhile_cons_of_pos hqa, List.length_cons, List.length_cons]
        rcases List.mem_cons.1 h with e | e
        · rw [e, hqa] at hq; cases hq
        · exact Nat.succ_lt_succ (ih e)
      · rw [List.takeWhile_cons_of_neg hqa, List.length_cons]
        exact Nat.succ_pos _
    · rw [List.takeWhile_cons_of_neg hp] at h; cases h

theorem takeWhile_length_lt {tr : List Int} {x l : Int}
    (h : x ∈ tr.takeWhile (fun y => decide (y ≠ l))) :
    (tr.takeWhile (fun y => decide (y ≠ x))).length
      < (tr.takeWhile (fun y => decide (y ≠ l))).length :=
  takeWhile_length_lt_of _ _ h (by simp)

/-- The literals analysed with success are redundant: by induction along the
assignment stack. -/
theorem removable_of_analysed {s : smt_core_t} (hA : AssignInv s) (hAn : AnteInv s)
    (hLen : ClauseLen s) {L S : List Int} {m' : Int → Bool}
    (hS : ∀ q ∈ S, valid_lit s q ∧ s.value q = VAL_FALSE ∧ has_antecedent s q ∧
      ∀ p ∈ antecedent_falses s q, m' (var_of p) = true)
    (hmark : ∀ p, valid_lit s p → s.value p = VAL_FALSE → m' (var_of p) = true →
      Absorbed s L p ∨ p ∈ S) :
    ∀ q ∈ S, has_antecedent s q ∧ ∀ p ∈ antecedent_falses s q, Absorbed s L p := by
  have key : ∀ n, ∀ q ∈ S,
      (s.stack.lit.takeWhile (fun y => decide (y ≠ not_lit q))).length < n →
      has_antecedent s q ∧ ∀ p ∈ antecedent_falses s q, Absorbed s L p := by
    intro n
    induction n with
    | zero => intro q _ h; omega
    | succ n ih =>
      intro q hq hn
      obtain ⟨q1, q2, q3, q4⟩ := hS q hq
      refine ⟨q3, ?_⟩
      intro p hp
      obtain ⟨p1, p2, p3⟩ := antecedent_falses_spec hA hAn hLen q1 q2 p hp
      rcases hmark p p1 p2 (q4 p hp) with h | h
      · exact h
      · have hlt := takeWhile_length_lt p3
        obtain ⟨r1, r2⟩ := ih p h (by omega)
        exact Absorbed.expand r1 r2
  intro q hq
  exact key _ q hq (Nat.lt_succ_self _)

/-- The first loop of `simplify_learned_clause`: it returns; the literals kept
are a sublist of the literals visited, and a literal that is not kept has been
moved to `buffer2` and is redundant. -/
theorem simplify_loop_spec {s : smt_core_t} (hA : AssignInv s) (hAn : AnteInv s)
    (hLen : ClauseLen s) (sgn : Nat) {fuel : Nat} (hfuel : s.nvars < fuel) {L : List Int}
    (hL : ∀ l ∈ L, valid_lit s l ∧ s.value l = VAL_FALSE ∧ s.mark (var_of l) = true)
    (rest : List Int) :
    ∀ (kept : List Int) (m : Int → Bool) (b2 ex : List Int) (tc : List th_call_t),
      (∀ l ∈ rest, l ∈ L) →
      (∀ x, m x = true ↔ s.mark x = true ∨ x ∈ b2.map var_of) →
      (∀ q ∈ b2, valid_lit s q ∧ s.value q = VAL_FALSE ∧ (s.mark (var_of q) = true → q ∈ L)) →
      (∀ p, valid_lit s p → s.value p = VAL_FALSE → m (var_of p) = true → Absorbed s L p) →
      ∃ (m' : Int → Bool) (b2' ex' : List Int) (tc' : List th_call_t) (K : List Int),
        simplify_loop fuel sgn rest (with_marks s m b2 ex tc) kept
          = some (with_marks s m' b2' ex' tc', kept ++ K) ∧
        (∀ x, m' x = true ↔ s.mark x = true ∨ x ∈ b2'.map var_of) ∧
        (∀ q ∈ b2', valid_lit s q ∧ s.value q = VAL_FALSE ∧
          (s.mark (var_of q) = true → q ∈ L)) ∧
        K.Sublist rest ∧ (∀ q ∈ b2, q ∈ b2') ∧
        ∀ l ∈ rest, l ∈ K ∨
          (l ∈ b2' ∧ has_antecedent s l ∧ ∀ p ∈ antecedent_falses s l, Absorbed s L p) := by
  induction rest with
  | nil =>
    intro kept m b2 ex tc _ j1 j2 _
    exact ⟨m, b2, ex, tc, [], (by simp [simplify_loop]), j1, j2, List.Sublist.refl _,
      fun q hq => hq, fun l hl => (by cases hl)⟩
  | cons l rest ih =>
    intro kept m b2 ex tc hrest j1 j2 j3
    obtain ⟨hlv, hlf, hlm⟩ := hL l (hrest l (List.mem_cons_self _ _))
    have hrest2 : ∀ x ∈ rest, x ∈ L := fun x hx => hrest x (List.mem_cons_of_mem _ hx)
    unfold simplify_loop
    rcases subsumed_spec hA hAn hLen sgn hfuel m b2 ex tc hlv hlf with
      ⟨ex1, tc1, e1⟩ | ⟨m1, N1, ex1, tc1, e1, e2, e3, e4, e5⟩
    · rw [e1]
      simp only
      obtain ⟨m', b2', ex', tc', K, f1, f2, f3, f4, f6, f5⟩ :=
        ih (kept ++ [l]) m b2 ex1 tc1 hrest2 j1 j2 j3
      refine ⟨m', b2', ex', tc', l :: K, (by rw [f1]; simp), f2, f3, List.Sublist.cons₂ _ f4,
        f6, ?_⟩
      intro x hx
      rcases List.mem_cons.1 hx with e | e
      · left; rw [e]; exact List.mem_cons_self _ _
      · rcases f5 x e with h | h
        · exact Or.inl (List.mem_cons_of_mem _ h)
        · exact Or.inr h
    · rw [e1]
      simp only
      have hst : ({ with_marks s m1 (b2 ++ N1) ex1 tc1 with
          buffer2 := (with_marks s m1 (b2 ++ N1) ex1 tc1).buffer2 ++ [l] } : smt_core_t)
          = with_marks s m1 (b2 ++ N1 ++ [l]) ex1 tc1 := rfl
      rw [hst]
      -- the literals analysed are redundant
      have hred := @removable_of_analysed _ hA hAn hLen L (l :: N1) m1
        (by
          intro q hq
          have hq2 := e5 q hq
          rcases List.mem_cons.1 hq with h | h
          · rw [h]; exact ⟨hlv, hlf, by rw [← h]; exact hq2.1, by rw [← h]; exact hq2.2⟩
          · exact ⟨(e3 q h).1, (e3 q h).2.1, hq2.1, hq2.2⟩)
        (by
          intro p hp1 hp2 hp3
          rcases (e2 _).1 hp3 with h | h
          · exact Or.inl (j3 p hp1 hp2 h)
          · right
            obtain ⟨q, hq1, hq2⟩ := List.mem_map.1 h
            have : q = p := false_var_inj hA (e3 q hq1).1 (e3 q hq1).2.1 hp2 hq2
            rw [← this]; exact List.mem_cons_of_mem _ hq1)
      have j1' : ∀ x, m1 x = true ↔ s.mark x = true ∨ x ∈ (b2 ++ N1 ++ [l]).map var_of := by
        intro x
        rw [e2 x, j1 x]
        simp only [List.map_append, List.mem_append, List.map_cons, List.map_nil,
          List.mem_singleton]
        constructor
        · rintro ((h | h) | h)
          · exact Or.inl h
          · exact Or.inr (Or.inl (Or.inl h))
          · exact Or.inr (Or.inl (Or.inr h))
        · rintro (h | (h | h) | h)
          · exact Or.inl (Or.inl h)
          · exact Or.inl (Or.inr h)
          · exact Or.inr h
          · rw [h]; exact Or.inl (Or.inl hlm)
      have j2' : ∀ q ∈ b2 ++ N1 ++ [l], valid_lit s q ∧ s.value q = VAL_FALSE ∧
          (s.mark (var_of q) = true → q ∈ L) := by
        intro q hq
        rcases List.mem_append.1 hq with h | h
        · rcases List.mem_append.1 h with h | h
          · exact j2 q h
          · refine ⟨(e3 q h).1, (e3 q h).2.1, ?_⟩
            intro hm
            have := (j1 (var_of q)).2 (Or.inl hm)
            rw [(e3 q h).2.2] at this; cases this
        · rw [List.mem_singleton] at h
          rw [h]; exact ⟨hlv, hlf, fun _ => hrest l (List.mem_cons_self _ _)⟩
      have j3' : ∀ p, valid_lit s p → s.value p = VAL_FALSE → m1 (var_of p) = true →
          Absorbed s L p := by
        intro p hp1 hp2 hp3
        rcases (e2 _).1 hp3 with h | h
        · exact j3 p hp1 hp2 h
        · obtain ⟨q, hq1, hq2⟩ := List.mem_map.1 h
          have : q = p := false_var_inj hA (e3 q hq1).1 (e3 q hq1).2.1 hp2 hq2
          rw [← this]
          obtain ⟨r1, r2⟩ := hred q (List.mem_cons_of_mem _ hq1)
          exact Absorbed.expand r1 r2
      obtain ⟨m', b2', ex', tc', K, f1, f2, f3, f4, f6, f5⟩ :=
        ih kept m1 (b2 ++ N1 ++ [l]) ex1 tc1 hrest2 j1' j2' j3'
      refine ⟨m', b2', ex', tc', K, f1, f2, f3, List.Sublist.cons _ f4,
        fun q hq => f6 q (by simp [hq]), ?_⟩
      intro x hx
      rcases List.mem_cons.1 hx with e | e
      · right
        rw [e]
        exact ⟨f6 l (by simp), hred l (List.mem_cons_self _ _)⟩
      · exact f5 x e

theorem assignInv_of_built {s0 s : smt_core_t} {k : Nat} (hI : AnalysisInv s0)
    (hB : Built s0 k s) : AssignInv s :=
  assignInv_of_frame hI.assign hB.nlits hB.nvars hB.value hB.lit

theorem levelInv_of_built {s0 s : smt_core_t} {k : Nat} (hI : AnalysisInv s0)
    (hB : Built s0 k s) : LevelInv s :=
  levelInv_of_frame hI.level hB.lit hB.li hB.level hB.dl hB.base

theorem built_valid {s0 s : smt_core_t} {k : Nat} (hB : Built s0 k s) {l : Int}
    (h : valid_lit s0 l) : valid_lit s l := by
  unfold valid_lit at h ⊢; rw [hB.nlits]; exact h

/-- A false literal whose variable is marked when minimization starts is in the
learned clause or is assigned at the base level. -/
theorem absorbed_of_marked {s0 s : smt_core_t} {k : Nat} (hI : AnalysisInv s0)
    (hB : Built s0 k s) {p : Int} (hp : valid_lit s p) (hf : s.value p = VAL_FALSE)
    (hm : s.mark (var_of p) = true) : Absorbed s s.buffer p := by
  have hA := assignInv_of_built hI hB
  rcases (hB.marks _).1 hm with h | h
  · apply Absorbed.base
    have hv := var_of_valid hA hp
    rw [hB.nvars] at hv
    have := ((hI.mark _ hv.1 hv.2).1 h).2
    show s.level (var_of p) ≤ s.base_level
    rw [hB.level, hB.base]; exact this
  · obtain ⟨l, hl1, hl2⟩ := List.mem_map.1 h
    have hl := hB.buf l hl1
    have : l = p := false_var_inj hA (built_valid hB hl.1) (by rw [hB.value]; exact hl.2.1) hf hl2
    rw [← this]
    exact Absorbed.in_clause hl1

/-- Result of `simplify_learned_clause` on the clause built by resolution. -/
theorem simplify_learned_clause_spec {s0 s : smt_core_t} {k : Nat} (hI : AnalysisInv s0)
    (hB : Built s0 k s) {fuel : Nat} (hfuel : s.nvars < fuel) :
    ∃ t, simplify_learned_clause fuel s = some t ∧
      t = { with_marks s t.mark [] t.explanation t.th_calls with buffer := t.buffer } ∧
      t.buffer.Sublist s.buffer ∧ t.buffer.head? = s.buffer.head? ∧
      (∀ x, t.mark x = s0.mark x) ∧
      ∀ l ∈ s.buffer, l ∉ t.buffer →
        has_antecedent s l ∧ ∀ p ∈ antecedent_falses s l, Absorbed s s.buffer p := by
  have hA := assignInv_of_built hI hB
  have hL : ∀ l ∈ s.buffer, valid_lit s l ∧ s.value l = VAL_FALSE ∧ s.mark (var_of l) = true :=
    fun l hl => ⟨built_valid hB (hB.buf l hl).1, by rw [hB.value]; exact (hB.buf l hl).2.1,
      (hB.marks _).2 (Or.inr (List.mem_map_of_mem _ hl))⟩
  obtain ⟨b0, bs, hbuf⟩ : ∃ b0 bs, s.buffer = b0 :: bs := by
    cases h : s.buffer with
    | nil => have := hB.nonempty; rw [h] at this; simp at this
    | cons a t => exact ⟨a, t, rfl⟩
  have hs : s = with_marks s s.mark [] s.explanation s.th_calls := by
    have := with_marks_self s
    rw [hB.buffer2] at this
    exact this.symm
  obtain ⟨m', b2', ex', tc', K, f1, f2, f3, f4, -, f5⟩ :=
    simplify_loop_spec hA hB.ante hB.len (signature s (s.buffer.drop 1)) hfuel hL
      (s.buffer.drop 1) (s.buffer.take 1) s.mark [] s.explanation s.th_calls
      (fun l hl => List.mem_of_mem_drop hl) (fun x => by simp) (fun q hq => (by cases hq))
      (fun p hp1 hp2 hp3 => absorbed_of_marked hI hB hp1 hp2 hp3)
  rw [← hs] at f1
  have hdrop : s.buffer.drop 1 = bs := by rw [hbuf]; rfl
  have htake : s.buffer.take 1 = [b0] := by rw [hbuf]; rfl
  rw [hdrop] at f4 f5
  refine ⟨_, by unfold simplify_learned_clause; rw [f1], rfl, ?_, ?_, ?_, ?_⟩
  · show (s.buffer.take 1 ++ K).Sublist s.buffer
    rw [htake, hbuf]
    exact List.Sublist.cons₂ _ f4
  · show (s.buffer.take 1 ++ K).head? = s.buffer.head?
    rw [htake, hbuf]; rfl
  · intro x
    show clear_marks (clear_marks m' (s.buffer.take 1 ++ K)) b2' x = s0.mark x
    rw [htake, clear_marks_apply, clear_marks_apply]
    have hkept : ∀ l ∈ [b0] ++ K, l ∈ s.buffer := by
      intro l hl
      rw [hbuf]
      rcases List.mem_append.1 hl with h | h
      · rw [List.mem_singleton] at h; rw [h]; exact List.mem_cons_self _ _
      · exact List.mem_cons_of_mem _ (f4.subset h)
    split
    · next hx =>
      obtain ⟨q, hq1, hq2⟩ := List.mem_map.1 hx
      obtain ⟨-, -, q3⟩ := f3 q hq1
      rw [← hq2]
      cases hm : s.mark (var_of q) with
      | true => exact ((hB.buf q (q3 hm)).2.2).symm
      | false =>
        cases hm0 : s0.mark (var_of q) with
        | false => rfl
        | true =>
          have := (hB.marks _).2 (Or.inl hm0)
          rw [hm] at this; cases this
    · next hx =>
      split
      · next hx2 =>
        obtain ⟨q, hq1, hq2⟩ := List.mem_map.1 hx2
        rw [← hq2]
        exact ((hB.buf q (hkept q hq1)).2.2).symm
      · next hx2 =>
        cases hm0 : s0.mark x with
        | true =>
          exact (f2 x).2 (Or.inl ((hB.marks x).2 (Or.inl hm0)))
        | false =>
          cases hm : m' x with
          | false => rfl
          | true =>
            exfalso
            rcases (f2 x).1 hm with h | h
            · rcases (hB.marks x).1 h with h2 | h2
              · rw [hm0] at h2; cases h2
              · obtain ⟨l, hl1, hl2⟩ := List.mem_map.1 h2
                rw [hbuf] at hl1
                rcases List.mem_cons.1 hl1 with e | e
                · apply hx2
                  rw [← hl2, e]; simp
                · rcases f5 l e with q | q
                  · apply hx2
                    rw [← hl2]
                    exact List.mem_map_of_mem _ (List.mem_append_right _ q)
                  · apply hx
                    rw [← hl2]
                    exact List.mem_map_of_mem _ q.1
            · exact hx h
  · intro l hl hnot
    have hnot2 : l ∉ [b0] ++ K := by
      have hnot3 : l ∉ s.buffer.take 1 ++ K := hnot
      rw [htake] at hnot3; exact hnot3
    rw [hbuf] at hl
    rcases List.mem_cons.1 hl with e | e
    · exact absurd (by rw [e]; simp) hnot2
    · rcases f5 l e with q | q
      · exact absurd (List.mem_append_right _ q) hnot2
      · exact q.2

/-! ## Conflict analysis: the whole of resolve_conflict -/

/-! ## Conflict level of a theory conflict -/

theorem get_conflict_level_loop_eq (s : smt_core_t) (a : List Int) :
    ∀ (ki : Nat × Nat), get_conflict_level_loop s a ki =
      ((conflict_literals a).foldl (fun k l => max k (d_level s l)) ki.1,
        ki.2 + (conflict_literals a).length) := by
  induction a with
  | nil => intro ki; simp [get_conflict_level_loop, conflict_literals]
  | cons l rest ih =>
    intro ki
    unfold get_conflict_level_loop conflict_literals
    by_cases hl : l < 0
    · rw [if_pos hl, List.takeWhile_cons_of_neg (by simpa using hl)]
      simp
    · rw [if_neg hl, List.takeWhile_cons_of_pos (by simpa using hl), ih]
      have hmax : (if d_level s l > ki.1 then d_level s l else ki.1) = max ki.1 (d_level s l) := by
        split <;> omega
      simp only [hmax, List.foldl_cons, List.length_cons, conflict_literals]
      congr 1
      omega

theorem foldl_max_spec (s : smt_core_t) (ls : List Int) :
    ∀ k0 : Nat, k0 ≤ ls.foldl (fun k l => max k (d_level s l)) k0 ∧
      (∀ l ∈ ls, d_level s l ≤ ls.foldl (fun k l => max k (d_level s l)) k0) ∧
      (ls.foldl (fun k l => max k (d_level s l)) k0 = k0 ∨
        ∃ l ∈ ls, d_level s l = ls.foldl (fun k l => max k (d_level s l)) k0) := by
  induction ls with
  | nil => intro k0; exact ⟨Nat.le_refl _, fun l hl => (by cases hl), Or.inl rfl⟩
  | cons a ls ih =>
    intro k0
    rw [List.foldl_cons]
    obtain ⟨h1, h2, h3⟩ := ih (max k0 (d_level s a))
    refine ⟨by omega, ?_, ?_⟩
    · intro l hl
      rcases List.mem_cons.1 hl with e | e
      · rw [e]; omega
      · exact h2 l e
    · rcases h3 with h3 | ⟨l, hl, h3⟩
      · rw [h3]
        by_cases hk : d_level s a ≤ k0
        · left; omega
        · right
          exact ⟨a, List.mem_cons_self _ _, by omega⟩
      · exact Or.inr ⟨l, List.mem_cons_of_mem _ hl, h3⟩

/-- `get_conflict_level` returns the maximum of `base_level` and of the levels of
the literals of the conflict. -/
theorem get_conflict_level_spec (s : smt_core_t) (a : List Int) :
    s.base_level ≤ (get_conflict_level s a).1 ∧
    (∀ l ∈ conflict_literals a, d_level s l ≤ (get_conflict_level s a).1) ∧
    ((get_conflict_level s a).1 = s.base_level ∨
      ∃ l ∈ conflict_literals a, d_level s l = (get_conflict_level s a).1) ∧
    (get_conflict_level s a).2 = { s with th_conflict_size := (conflict_literals a).length } := by
  unfold get_conflict_level
  simp only [get_conflict_level_loop_eq, Nat.zero_add]
  obtain ⟨h1, h2, h3⟩ := foldl_max_spec s (conflict_literals a) s.base_level
  exact ⟨h1, h2, h3, trivial⟩

/-! ## The invariants of conflict analysis after backtracking and caching -/

theorem nullFirst_backtrack {s : smt_core_t} (h : NullFirst s) (k : Nat) :
    NullFirst (backtrack s k) := by
  have hlit : (backtrack s k).stack.lit = s.stack.lit.take (s.stack.level_index (k + 1)) := by
    rw [backtrack_eq]
  have hante : (backtrack s k).antecedent = s.antecedent := by rw [backtrack_eq]
  have hlev : (backtrack s k).level = s.level := by rw [backtrack_eq]
  have hbl : (backtrack s k).base_level = s.base_level := by rw [backtrack_eq]
  unfold NullFirst
  rw [hlit, hante, hlev, hbl]
  intro l hl ha hb m hm
  have hsplit := takeWhile_append_of_mem (s.stack.lit.drop (s.stack.level_index (k + 1))) hl
  rw [List.take_append_drop] at hsplit
  rw [← hsplit] at hm
  exact h l (List.mem_of_mem_take hl) ha hb m hm

theorem analysisInv_backtrack_to_level {s : smt_core_t} (h : AnalysisInv s) {k : Nat}
    (hb : s.base_level ≤ k) : AnalysisInv (backtrack_to_level s k) := by
  by_cases hk : k < s.decision_level
  · rw [backtrack_to_level_eq hk]
    have hA := assignInv_backtrack h.assign k
    have hL := levelInv_backtrack h.level hb hk
    have hAn := anteInv_backtrack h.assign h.ante k
    have hM := markInv_backtrack h.level h.mark hb hk
    have hS := allocInv_backtrack h.alloc k
    have hN := nullFirst_backtrack h.first k
    have hLen : ClauseLen (backtrack s k) := by
      have e1 : stored (backtrack s k) = stored s := by rw [backtrack_eq]; rfl
      have e2 : (backtrack s k).clauses = s.clauses := by rw [backtrack_eq]
      unfold ClauseLen
      rw [e1, e2]; exact h.len
    have hb2 : (backtrack s k).buffer2 = [] := by rw [backtrack_eq]; exact h.buffer2
    exact ⟨assignInv_of_frame hA rfl rfl rfl rfl, levelInv_of_frame hL rfl rfl rfl rfl rfl,
      anteInv_of_frame hAn rfl rfl rfl rfl rfl rfl rfl rfl,
      markInv_of_frame hM rfl rfl rfl rfl rfl, hS, hLen, hN, hb2⟩
  · rw [backtrack_to_level_ge (by omega)]; exact h

theorem analysisInv_of_cache {s t : smt_core_t} (h : AnalysisInv s) (hc : CacheRel s t)
    (hb2 : t.buffer2 = []) : AnalysisInv t := by
  refine ⟨assignInv_of_frame h.assign hc.nlits hc.nvars hc.value (by rw [hc.stack]),
    levelInv_of_frame h.level (by rw [hc.stack]) (by rw [hc.stack]) hc.level hc.dl hc.base, ?_,
    markInv_of_frame h.mark hc.nvars hc.value hc.level hc.mark hc.base, hc.alloc h.alloc,
    hc.len h.len, ?_, hb2⟩
  · unfold AnteInv
    rw [hc.stack, hc.antecedent]
    intro l hl
    exact ante_ok_transfer (h.ante l hl) hc.nlits hc.expand hc.keep (fun _ _ => by rw [hc.value])
      (fun _ hx => hx)
  · unfold NullFirst
    rw [hc.stack, hc.antecedent, hc.level, hc.base]
    exact h.first

theorem cacheRel_try_cache_theory_conflict {s : smt_core_t} (hS : AllocInv s) (a : List Int) :
    CacheRel s (try_cache_theory_conflict s a) := by
  unfold try_cache_theory_conflict
  split
  · exact CacheRel.cr_refl s
  · simp only
    have h1 := cacheRel_buffer2 s (s.remove_duplicates (s.buffer2 ++
      a.filter (fun l => decide (d_level s l > s.base_level))))
    have h2 := cacheRel_try_cache_theory_clause (h1.alloc hS)
      (s.remove_duplicates (s.buffer2 ++ a.filter (fun l => decide (d_level s l > s.base_level))))
    exact (h1.cr_trans h2).cr_trans (cacheRel_buffer2 _ _)

theorem try_cache_theory_conflict_buffer2 {s : smt_core_t} (h : s.buffer2 = []) (a : List Int) :
    (try_cache_theory_conflict s a).buffer2 = [] := by
  unfold try_cache_theory_conflict
  split
  · exact h
  · rfl

theorem backtrack_to_level_flags (s : smt_core_t) (k : Nat) :
    (backtrack_to_level s k).inconsistent = s.inconsistent ∧
    (backtrack_to_level s k).theory_conflict = s.theory_conflict ∧
    (backtrack_to_level s k).status = s.status ∧
    (backtrack_to_level s k).buffer = s.buffer ∧
    (backtrack_to_level s k).conflict = s.conflict ∧
    (backtrack_to_level s k).th_cache_enabled = s.th_cache_enabled ∧
    (backtrack_to_level s k).buffer2 = s.buffer2 := by
  by_cases hk : k < s.decision_level
  · rw [backtrack_to_level_eq hk, backtrack_eq]
    exact ⟨rfl, rfl, rfl, rfl, rfl, rfl, rfl⟩
  · rw [backtrack_to_level_ge (by omega)]
    exact ⟨rfl, rfl, rfl, rfl, rfl, rfl, rfl⟩

/-- `add_learned_clause` leaves the conflict flags as they are, and the marks of
the variables other than the variable of the implied literal. -/
theorem add_learned_clause_keeps {s : smt_core_t} (hA : AssignInv s) (hL : LevelInv s)
    {a : List Int} (hp : LearnedPre s a) (h0 : s.base_level < d_level s (a.getD 0 0)) :
    (add_learned_clause s a).inconsistent = s.inconsistent ∧
    (add_learned_clause s a).theory_conflict = s.theory_conflict ∧
    ∀ x, x ≠ var_of (a.getD 0 0) → (add_learned_clause s a).mark x = s.mark x := by
  have hlen := hp.len
  have hmark : ∀ (t : smt_core_t) (l : Int) (an : antecedent_t) (x : Int), x ≠ var_of l →
      (implied_literal t l an).mark x = t.mark x := by
    intro t l an x hx
    show (if t.decision_level = t.base_level then upd t.mark (var_of l) true else t.mark) x = _
    split
    · rw [upd_ne _ _ hx]
    · rfl
  rcases Nat.lt_or_ge a.length 3 with h3 | h3
  · rcases Nat.lt_or_ge a.length 2 with h2 | h2
    · match a, hp, hlen, h2, h0 with
      | [l0], hp, _, _, h0 =>
        have hv := hp.valid l0 (List.mem_singleton_self _)
        have hf := hp.is_false l0 (List.mem_singleton_self _)
        have hu : (backtrack_to_base_level s).value l0 = VAL_UNDEF :=
          backtrack_to_level_undef hA hL hv (by rw [hf]; decide) h0
        obtain ⟨g1, g2, g3, g4, g5, g6, g7, g8, g9, g10, g11, g12, g13⟩ :=
          backtrack_to_level_frame s s.base_level
        obtain ⟨f1, f2, -⟩ := backtrack_to_level_flags s s.base_level
        rw [add_learned_clause_unit, if_neg (by rw [hu]; decide)]
        refine ⟨f1, f2, ?_⟩
        intro x hx
        show upd (backtrack_to_base_level s).mark (var_of l0) true x = _
        rw [upd_ne _ _ (show x ≠ var_of l0 from hx)]
        exact congrFun g12 x
    · have h2' : a.length = 2 := by omega
      rw [add_learned_clause_binary s h2']
      obtain ⟨g1, g2, g3, g4, g5, g6, g7, g8, g9, g10, g11, g12, g13⟩ :=
        backtrack_to_level_frame (direct_binary_clause s (a.getD 0 0) (a.getD 1 0))
          (d_level s (a.getD 1 0))
      obtain ⟨f1, f2, -⟩ := backtrack_to_level_flags
        (direct_binary_clause s (a.getD 0 0) (a.getD 1 0)) (d_level s (a.getD 1 0))
      refine ⟨f1, f2, ?_⟩
      intro x hx
      rw [hmark _ _ _ x hx]
      exact congrFun g12 x
  · rw [add_learned_clause_long s h3]
    obtain ⟨g1, g2, g3, g4, g5, g6, g7, g8, g9, g10, g11, g12, g13⟩ :=
      backtrack_to_level_frame (link_learned_clause s (swap_second a (second_level s a).1))
        (second_level s a).2
    obtain ⟨f1, f2, -⟩ := backtrack_to_level_flags
      (link_learned_clause s (swap_second a (second_level s a).1)) (second_level s a).2
    have E := link_learned_clause_eq s (swap_second a (second_level s a).1)
    refine ⟨by show (backtrack_to_level _ _).inconsistent = _; rw [f1, E],
      by show (backtrack_to_level _ _).theory_conflict = _; rw [f2, E], ?_⟩
    intro x hx
    rw [hmark _ _ _ x hx, g12, E]

theorem sublist_tail_of_head {a b : List Int} (h : a.Sublist b) (hh : a.head? = b.head?)
    (hn : (b.map var_of).Nodup) : a.tail.Sublist b.tail := by
  cases a with
  | nil => exact List.nil_sublist _
  | cons x xs =>
    cases b with
    | nil => cases h
    | cons y ys =>
      simp only [List.head?_cons, Option.some.injEq] at hh
      subst hh
      cases h with
      | cons _ h2 =>
        exfalso
        have hx : x ∈ ys := h2.subset (List.mem_cons_self _ _)
        rw [List.map_cons, List.nodup_cons] at hn
        exact hn.1 (List.mem_map_of_mem _ hx)
      | cons₂ _ h2 => exact h2

/-- The analysis of a conflict of level `k` above the base level returns: the
marks are as before, and the clause left in `buffer` satisfies the preconditions
of `add_learned_clause`. -/
theorem analyze_conflict_spec {s : smt_core_t} (hI : AnalysisInv s) {k : Nat} {c : List Int}
    (hc : ConflictAt s k c) {fuel : Nat} (hfuel : s.nvars < fuel) :
    ∃ s3 s5, build_learned_clause k s c = some s3 ∧ Built s k s3 ∧
      analyze_conflict fuel k s c = some s5 ∧
      s5 = { with_marks s3 s5.mark [] s5.explanation s5.th_calls with
              buffer := s5.buffer, inconsistent := false, theory_conflict := false } ∧
      s5.buffer.Sublist s3.buffer ∧ s5.buffer.head? = s3.buffer.head? ∧
      (∀ x, s5.mark x = s.mark x) ∧
      (∀ l ∈ s3.buffer, l ∉ s5.buffer →
        has_antecedent s3 l ∧ ∀ p ∈ antecedent_falses s3 l, Absorbed s3 s3.buffer p) ∧
      AssignInv s5 ∧ LevelInv s5 ∧ LearnedPre s5 s5.buffer ∧
      s5.base_level < d_level s5 (s5.buffer.getD 0 0) := by
  obtain ⟨s3, b, h1, hB, -⟩ := build_learned_clause_spec hI hc
  have hf3 : s3.nvars < fuel := by rw [hB.nvars]; exact hfuel
  obtain ⟨t, ht1, ht2, ht3, ht4, ht5, ht6⟩ := simplify_learned_clause_spec hI hB hf3
  have hA3 := assignInv_of_built hI hB
  have hL3 := levelInv_of_built hI hB
  have e_val : t.value = s3.value := by rw [ht2]; rfl
  have e_lev : t.level = s3.level := by rw [ht2]; rfl
  have e_st : t.stack = s3.stack := by rw [ht2]; rfl
  have e_nl : t.nlits = s3.nlits := by rw [ht2]; rfl
  have e_nv : t.nvars = s3.nvars := by rw [ht2]; rfl
  have e_dl : t.decision_level = s3.decision_level := by rw [ht2]; rfl
  have e_bl : t.base_level = s3.base_level := by rw [ht2]; rfl
  have hA5 : AssignInv { t with inconsistent := false, theory_conflict := false } :=
    assignInv_of_frame hA3 e_nl e_nv e_val (by rw [e_st])
  have hL5 : LevelInv { t with inconsistent := false, theory_conflict := false } :=
    levelInv_of_frame hL3 (by rw [e_st]) (by rw [e_st]) e_lev e_dl e_bl
  obtain ⟨b0, bs, hbuf⟩ : ∃ b0 bs, s3.buffer = b0 :: bs := by
    cases h : s3.buffer with
    | nil => have := hB.nonempty; rw [h] at this; simp at this
    | cons a t => exact ⟨a, t, rfl⟩
  obtain ⟨ks, hks⟩ : ∃ ks, t.buffer = b0 :: ks := by
    cases h : t.buffer with
    | nil => rw [h, hbuf] at ht4; cases ht4
    | cons a ks =>
      rw [h, hbuf] at ht4
      simp at ht4
      exact ⟨ks, by rw [ht4]⟩
  have htail : t.buffer.tail.Sublist s3.buffer.tail := sublist_tail_of_head ht3 ht4 hB.nodup
  have hlevel : ∀ l, d_level { t with inconsistent := false, theory_conflict := false } l
      = d_level s l := by
    intro l
    show t.level (var_of l) = s.level (var_of l)
    rw [e_lev, hB.level]
  have hsub : ∀ l ∈ t.buffer, l ∈ s3.buffer := fun l hl => ht3.subset hl
  have htop : d_level s b0 = k := by
    have := hB.top
    rw [hbuf] at this; exact this
  refine ⟨s3, { t with inconsistent := false, theory_conflict := false }, h1, hB, ?_, ?_, ht3, ht4,
    ht5, ht6, hA5, hL5, ?_, ?_⟩
  · unfold analyze_conflict
    rw [h1]
    simp only [ht1]
  · show _ = ({ with_marks s3 t.mark [] t.explanation t.th_calls with
        buffer := t.buffer, inconsistent := false, theory_conflict := false } : smt_core_t)
    conv => lhs; rw [ht2]
  · constructor
    · show 1 ≤ t.buffer.length
      rw [hks]; simp
    · intro l hl
      have := (hB.buf l (hsub l hl)).1
      unfold valid_lit at this ⊢
      show 2 ≤ l ∧ l < t.nlits
      rw [e_nl, hB.nlits]; exact this
    · intro l hl
      show t.value l = VAL_FALSE
      rw [e_val, hB.value]; exact (hB.buf l (hsub l hl)).2.1
    · exact (List.Nodup.of_map _ hB.nodup).sublist ht3
    · intro i hi h1i
      rw [hlevel, hlevel]
      have hi2 : i < t.buffer.length := hi
      show d_level s (t.buffer.getD i 0) < d_level s (t.buffer.getD 0 0)
      rw [hks] at hi2 ⊢
      obtain ⟨j, rfl⟩ : ∃ j, i = j + 1 := ⟨i - 1, by omega⟩
      rw [List.getD_cons_succ, List.getD_cons_zero, htop]
      apply hB.low
      apply htail.subset
      rw [hks]
      exact getD_mem (by simpa using hi2)
    · intro i hi h1i
      rw [hlevel]
      have hi2 : i < t.buffer.length := hi
      have hmem : t.buffer.getD i 0 ∈ t.buffer := getD_mem hi2
      obtain ⟨q1, q2, q3⟩ := hB.buf _ (hsub _ hmem)
      have hv := var_of_valid hI.assign q1
      show t.base_level ≤ s.level (var_of (t.buffer.getD i 0))
      rw [e_bl, hB.base]
      by_contra hlt
      have hassigned : s.value (pos_lit (var_of (t.buffer.getD i 0))) ≠ VAL_UNDEF := by
        intro hu
        rcases pos_lit_var_of (t.buffer.getD i 0) with hp | hp
        · rw [hp, q2] at hu; cases hu
        · rw [hp] at hu
          have := (valSym_undef_iff hI.assign.sym (valid_nonneg q1) q1.2).1 hu
          rw [q2] at this; cases this
      have := (hI.mark _ hv.1 hv.2).2 ⟨hassigned, by omega⟩
      rw [q3] at this; cases this
  · rw [hlevel]
    show t.base_level < d_level s (t.buffer.getD 0 0)
    rw [e_bl, hB.base, hks, List.getD_cons_zero, htop]
    exact hc.above

theorem analysisInv_th_conflict_size {s : smt_core_t} (h : AnalysisInv s) (n : Nat) :
    AnalysisInv { s with th_conflict_size := n } :=
  ⟨assignInv_of_frame h.assign rfl rfl rfl rfl, levelInv_of_frame h.level rfl rfl rfl rfl rfl,
    anteInv_of_frame h.ante rfl rfl rfl rfl rfl rfl rfl rfl,
    markInv_of_frame h.mark rfl rfl rfl rfl rfl, h.alloc, h.len, h.first, h.buffer2⟩

/-- First part of `resolve_conflict` on a theory conflict: the core backtracks to
the conflict level, and the invariants of conflict analysis still hold. -/
theorem resolve_conflict_level_theory {s : smt_core_t} (hI : AnalysisInv s)
    (htc : s.theory_conflict = true)
    (hfalse : ∀ l ∈ conflict_literals s.conflict, valid_lit s l ∧ s.value l = VAL_FALSE) :
    (resolve_conflict_level s).1 = (get_conflict_level s s.conflict).1 ∧
    AnalysisInv (resolve_conflict_level s).2 ∧
    (resolve_conflict_level s).2.decision_level = (get_conflict_level s s.conflict).1 ∧
    (resolve_conflict_level s).2.mark = s.mark ∧
    (resolve_conflict_level s).2.level = s.level ∧
    (resolve_conflict_level s).2.base_level = s.base_level ∧
    (resolve_conflict_level s).2.nvars = s.nvars ∧
    (resolve_conflict_level s).2.inconsistent = s.inconsistent ∧
    (∀ l ∈ conflict_literals s.conflict,
      valid_lit (resolve_conflict_level s).2 l ∧ (resolve_conflict_level s).2.value l = VAL_FALSE) ∧
    (resolve_conflict_level s).2.stack.lit = s.stack.lit.filter
      (fun l => decide (d_level s l ≤ (get_conflict_level s s.conflict).1)) ∧
    (resolve_conflict_level s).2.th_calls = s.th_calls ++
      (if (get_conflict_level s s.conflict).1 < s.decision_level
        then [th_call_t.backtrack (get_conflict_level s s.conflict).1] else []) := by
  obtain ⟨k1, k2, k3, k4⟩ := get_conflict_level_spec s s.conflict
  have hI1 : AnalysisInv (get_conflict_level s s.conflict).2 := by
    rw [k4]; exact analysisInv_th_conflict_size hI _
  have hkdl : (get_conflict_level s s.conflict).1 ≤ s.decision_level := by
    rcases k3 with e | ⟨l, hl, e⟩
    · rw [e]; exact hI.level.base_le
    · rw [← e]
      exact level_le_of_assigned hI.assign hI.level (hfalse l hl).1 (by
        rw [(hfalse l hl).2]; decide)
  generalize hk1 : (get_conflict_level s s.conflict).1 = k at *
  generalize hs1 : (get_conflict_level s s.conflict).2 = s1 at *
  have hb1 : s1.base_level ≤ k := by rw [k4]; exact k1
  have hI2 := analysisInv_backtrack_to_level hI1 hb1
  obtain ⟨g1, g2, g3, g4, g5, g6, g7, g8, g9, g10, g11, g12, g13⟩ := backtrack_to_level_frame s1 k
  obtain ⟨f1, f2, f3, f4, f5, f6, f7⟩ := backtrack_to_level_flags s1 k
  have hdl2 : (backtrack_to_level s1 k).decision_level = k :=
    backtrack_to_level_dl (by rw [k4]; exact hkdl)
  have hlit2 : (backtrack_to_level s1 k).stack.lit
      = s.stack.lit.filter (fun l => decide (d_level s l ≤ k)) := by
    rw [backtrack_to_level_lit hI1.level, k4]
    apply List.filter_congr
    intro x _
    unfold d_level
    simp [Nat.lt_succ_iff]
  have hth2 : (backtrack_to_level s1 k).th_calls = s.th_calls ++
      (if k < s.decision_level then [th_call_t.backtrack k] else []) := by
    by_cases hk : k < s.decision_level
    · rw [if_pos hk, backtrack_to_level_th_calls (by rw [k4]; exact hk), k4]
    · rw [if_neg hk, backtrack_to_level_ge (by rw [k4]; exact Nat.le_of_not_lt hk), k4]
      simp
  have hval2 : ∀ l ∈ conflict_literals s.conflict,
      valid_lit (backtrack_to_level s1 k) l ∧ (backtrack_to_level s1 k).value l = VAL_FALSE := by
    intro l hl
    constructor
    · have := (hfalse l hl).1
      unfold valid_lit at this ⊢
      rw [g1, k4]; exact this
    · rw [backtrack_to_level_value hI1.level (by rw [k4]; exact k2 l hl), k4]
      exact (hfalse l hl).2
  -- the state after the caching
  have hcache : CacheRel (backtrack_to_level s1 k) (resolve_conflict_level s).2 ∧
      (resolve_conflict_level s).2.buffer2 = [] ∧ (resolve_conflict_level s).1 = k := by
    unfold resolve_conflict_level
    rw [if_pos htc]
    simp only
    rw [hs1]
    refine ⟨?_, ?_, hk1⟩
    · split
      · rw [hk1]; exact cacheRel_try_cache_theory_conflict hI2.alloc _
      · rw [hk1]; exact CacheRel.cr_refl _
    · split
      · rw [hk1]; exact try_cache_theory_conflict_buffer2 hI2.buffer2 _
      · rw [hk1]; exact hI2.buffer2
  obtain ⟨hC, hb2, hk⟩ := hcache
  refine ⟨hk, analysisInv_of_cache hI2 hC hb2, ?_, ?_, ?_, ?_, ?_, ?_, ?_, ?_, ?_⟩
  · rw [hC.dl, hdl2]
  · rw [hC.mark, g12, k4]
  · rw [hC.level, g7, k4]
  · rw [hC.base, g11, k4]
  · rw [hC.nvars, g2, k4]
  · rw [hC.inconsistent, f1, k4]
  · intro l hl
    have := hval2 l hl
    unfold valid_lit at this ⊢
    rw [hC.nlits, hC.value]
    exact this
  · rw [hC.stack, hlit2]
  · rw [hC.th_calls, hth2]

/-- What `resolve_conflict` keeps when it computes the conflict level. -/
theorem resolve_conflict_level_spec {s : smt_core_t} (hI : AnalysisInv s)
    (hfalse : ∀ l ∈ conflict_literals s.conflict, valid_lit s l ∧ s.value l = VAL_FALSE) :
    AnalysisInv (resolve_conflict_level s).2 ∧
    (resolve_conflict_level s).2.decision_level = (resolve_conflict_level s).1 ∧
    (resolve_conflict_level s).2.mark = s.mark ∧
    (resolve_conflict_level s).2.level = s.level ∧
    (resolve_conflict_level s).2.base_level = s.base_level ∧
    (resolve_conflict_level s).2.nvars = s.nvars ∧
    (resolve_conflict_level s).2.inconsistent = s.inconsistent ∧
    (∀ l ∈ conflict_literals s.conflict,
      valid_lit (resolve_conflict_level s).2 l ∧ (resolve_conflict_level s).2.value l = VAL_FALSE) ∧
    (s.theory_conflict = true →
      (resolve_conflict_level s).1 = (get_conflict_level s s.conflict).1) ∧
    (s.theory_conflict = false → resolve_conflict_level s = (s.decision_level, s)) := by
  cases htc : s.theory_conflict with
  | true =>
    obtain ⟨h1, h2, h3, h4, h5, h6, h7, h8, h9, _, _⟩ := resolve_conflict_level_theory hI htc hfalse
    exact ⟨h2, (by rw [h3, h1]), h4, h5, h6, h7, h8, h9, fun _ => h1, fun h => (by cases h)⟩
  | false =>
    have e : resolve_conflict_level s = (s.decision_level, s) := by
      unfold resolve_conflict_level
      rw [htc]; rfl
    rw [e]
    exact ⟨hI, rfl, rfl, rfl, rfl, rfl, rfl, hfalse, fun h => (by cases h), fun _ => rfl⟩

theorem resolve_conflict_base {s : smt_core_t} (hI : AnalysisInv s)
    (hfalse : ∀ l ∈ conflict_literals s.conflict, valid_lit s l ∧ s.value l = VAL_FALSE)
    (hk : (resolve_conflict_level s).1 = s.base_level) (fuel : Nat) :
    resolve_conflict fuel s = some (resolve_conflict_level s).2 := by
  obtain ⟨_, _, _, _, h5, _⟩ := resolve_conflict_level_spec hI hfalse
  unfold resolve_conflict
  simp only
  rw [if_pos (by rw [h5]; exact hk)]

theorem conflictAt_resolve_conflict_level {s : smt_core_t} (hI : AnalysisInv s)
    (hfalse : ∀ l ∈ conflict_literals s.conflict, valid_lit s l ∧ s.value l = VAL_FALSE)
    (hbool : s.theory_conflict = false → s.decision_level ≠ s.base_level →
      ∃ l ∈ conflict_literals s.conflict, d_level s l = s.decision_level)
    (hk : (resolve_conflict_level s).1 ≠ s.base_level) :
    ConflictAt (resolve_conflict_level s).2 (resolve_conflict_level s).1 s.conflict := by
  obtain ⟨h1, h2, h3, h4, h5, h6, h7, h8, h9, h10⟩ := resolve_conflict_level_spec hI hfalse
  have hd : ∀ l, d_level (resolve_conflict_level s).2 l = d_level s l := by
    intro l; unfold d_level; rw [h4]
  refine ⟨h2, ?_, h8, ?_⟩
  · have := h1.level.base_le
    rw [h2, h5] at this
    rw [h5]; omega
  · cases htc : s.theory_conflict with
    | true =>
      have e := h9 htc
      obtain ⟨_, _, k3, _⟩ := get_conflict_level_spec s s.conflict
      rw [← e] at k3
      rcases k3 with k3 | ⟨l, hl, hl2⟩
      · exact absurd k3 hk
      · exact ⟨l, hl, by rw [hd, hl2]⟩
    | false =>
      have e := h10 htc
      rw [e] at hk ⊢
      exact hbool htc hk

/-- The two ways `resolve_conflict` returns, for `fuel` above the number of
variables. -/
theorem resolve_conflict_spec {s : smt_core_t} (hI : AnalysisInv s)
    (hfalse : ∀ l ∈ conflict_literals s.conflict, valid_lit s l ∧ s.value l = VAL_FALSE)
    (hbool : s.theory_conflict = false → s.decision_level ≠ s.base_level →
      ∃ l ∈ conflict_literals s.conflict, d_level s l = s.decision_level)
    (hk : (resolve_conflict_level s).1 ≠ s.base_level) {fuel : Nat} (hfuel : s.nvars < fuel) :
    ∃ s5, analyze_conflict fuel (resolve_conflict_level s).1 (resolve_conflict_level s).2
        s.conflict = some s5 ∧
      resolve_conflict fuel s = some (add_learned_clause s5 s5.buffer) ∧
      s5.inconsistent = false ∧ s5.theory_conflict = false ∧
      (∀ x, s5.mark x = s.mark x) ∧ s5.level = s.level ∧ s5.base_level = s.base_level ∧
      s5.nvars = s.nvars ∧ s5.value = (resolve_conflict_level s).2.value ∧
      AssignInv s5 ∧ LevelInv s5 ∧ LearnedPre s5 s5.buffer ∧
      s5.base_level < d_level s5 (s5.buffer.getD 0 0) ∧
      (add_learned_clause s5 s5.buffer).inconsistent = false ∧
      (add_learned_clause s5 s5.buffer).theory_conflict = false ∧
      ∀ x, x ≠ var_of (s5.buffer.getD 0 0) → (add_learned_clause s5 s5.buffer).mark x = s.mark x := by
  obtain ⟨h1, h2, h3, h4, h5, h6, h7, h8, h9, h10⟩ := resolve_conflict_level_spec hI hfalse
  have hc := conflictAt_resolve_conflict_level hI hfalse hbool hk
  obtain ⟨s3, s5, a1, a2, a3, a4, a5, a6, a7, a8, a9, a10, a11, a12⟩ :=
    analyze_conflict_spec h1 hc (by rw [h6]; exact hfuel)
  obtain ⟨b1, b2, b3⟩ := add_learned_clause_keeps a9 a10 a11 a12
  have e_inc : s5.inconsistent = false := by rw [a4]
  have e_tc : s5.theory_conflict = false := by rw [a4]
  have e_lv : s5.level = s3.level := by rw [a4]; rfl
  have e_bl : s5.base_level = s3.base_level := by rw [a4]; rfl
  have e_nv : s5.nvars = s3.nvars := by rw [a4]; rfl
  have e_val : s5.value = s3.value := by rw [a4]; rfl
  refine ⟨s5, a3, ?_, e_inc, e_tc, ?_, ?_, ?_, ?_, ?_, a9, a10, a11, a12, ?_, ?_, ?_⟩
  · unfold resolve_conflict
    simp only
    rw [if_neg (by rw [h5]; exact hk), a3]
  · intro x; rw [a7, h3]
  · rw [e_lv, a2.level, h4]
  · rw [e_bl, a2.base, h5]
  · rw [e_nv, a2.nvars, h6]
  · rw [e_val, a2.value]
  · rw [b1, e_inc]
  · rw [b2, e_tc]
  · intro x hx; rw [b3 x hx, a7, h3]

/-! ## Marks after conflict resolution -/

theorem get_conflict_level_eq_foldl (s : smt_core_t) (a : List Int) :
    (get_conflict_level s a).1 =
      (conflict_literals a).foldl (fun k l => max k (d_level s l)) s.base_level := by
  unfold get_conflict_level
  simp only [get_conflict_level_loop_eq]

theorem smt_process_conflict_of {s t : smt_core_t} {fuel : Nat}
    (h : resolve_conflict fuel s = some t) :
    smt_process_conflict fuel s = some
      (if t.inconsistent then { t with status := smt_status_t.STATUS_UNSAT } else t) := by
  unfold smt_process_conflict
  rw [h]

/-- Claim C9: if the marked variables are exactly the variables assigned at a level
at most `base_level` (part of `AnalysisInv`), then `resolve_conflict` returns, and
the marks are what they were before it: when the conflict cannot be resolved the
state returned has the marks of the start; when it is resolved, the state handed
to `add_learned_clause` (after the walk of the trail and the minimization) has
the marks of the start, so no variable of level above `base_level` is marked, and
`add_learned_clause` changes at most the mark of the variable of the implied
literal `buffer[0]`. -/
theorem resolve_conflict_clears_marks {s : smt_core_t} (hI : AnalysisInv s)
    (hfalse : ∀ l ∈ conflict_literals s.conflict, valid_lit s l ∧ s.value l = VAL_FALSE)
    (hbool : s.theory_conflict = false → s.decision_level ≠ s.base_level →
      ∃ l ∈ conflict_literals s.conflict, d_level s l = s.decision_level)
    (fuel : Nat) (hfuel : s.nvars < fuel) :
    ∃ t, resolve_conflict fuel s = some t ∧
      ((resolve_conflict_level s).1 = s.base_level →
        t = (resolve_conflict_level s).2 ∧ (∀ x, t.mark x = s.mark x) ∧ MarkInv t ∧
        ∀ x : Int, 0 ≤ x → x < t.nvars → t.base_level < t.level x → t.mark x = false) ∧
      ((resolve_conflict_level s).1 ≠ s.base_level →
        ∃ s5, analyze_conflict fuel (resolve_conflict_level s).1 (resolve_conflict_level s).2
            s.conflict = some s5 ∧
          t = add_learned_clause s5 s5.buffer ∧
          (∀ x, s5.mark x = s.mark x) ∧
          (∀ x : Int, 0 ≤ x → x < s5.nvars → s5.base_level < s5.level x → s5.mark x = false) ∧
          ∀ x, x ≠ var_of (s5.buffer.getD 0 0) → t.mark x = s.mark x) := by
  have hM := hI.mark
  by_cases hk : (resolve_conflict_level s).1 = s.base_level
  · obtain ⟨h1, h2, h3, h4, h5, h6, h7, h8, h9, h10⟩ := resolve_conflict_level_spec hI hfalse
    refine ⟨_, resolve_conflict_base hI hfalse hk fuel, fun _ => ⟨rfl, ?_, h1.mark, ?_⟩,
      fun h => absurd hk h⟩
    · intro x; rw [h3]
    · intro x hx0 hxn hlev
      rw [h3]
      rw [h5, h4] at hlev
      rw [h6] at hxn
      cases hm : s.mark x with
      | false => rfl
      | true => have := ((hM x hx0 hxn).1 hm).2; omega
  · obtain ⟨s5, a1, a2, a3, a4, a5, a6, a7, a8, a9, a10, a11, a12, a13, a14, a15, a16⟩ :=
      resolve_conflict_spec hI hfalse hbool hk hfuel
    refine ⟨_, a2, fun h => absurd h hk, fun _ => ⟨s5, a1, rfl, a5, ?_, a16⟩⟩
    intro x hx0 hxn hlev
    rw [a5]
    rw [a7, a6] at hlev
    rw [a8] at hxn
    cases hm : s.mark x with
    | false => rfl
    | true => have := ((hM x hx0 hxn).1 hm).2; omega

theorem resolve_conflict_clears_marks_witness :
    AnalysisInv sample_conflict ∧ sample_conflict.nvars < 8 ∧
    (resolve_conflict_level sample_conflict).1 ≠ sample_conflict.base_level ∧
    ∃ t, resolve_conflict 8 sample_conflict = some t ∧
      ((resolve_conflict_level sample_conflict).1 ≠ sample_conflict.base_level →
        ∃ s5, analyze_conflict 8 (resolve_conflict_level sample_conflict).1
            (resolve_conflict_level sample_conflict).2 sample_conflict.conflict = some s5 ∧
          t = add_learned_clause s5 s5.buffer ∧
          ∀ x, s5.mark x = sample_conflict.mark x) :=
  ⟨analysisInv_sample_conflict, by decide, by decide,
    match resolve_conflict_clears_marks analysisInv_sample_conflict
      conflictAt_sample_conflict.is_false (fun _ _ => conflictAt_sample_conflict.top)
      8 (by decide) with
    | ⟨t, h1, _, h3⟩ => ⟨t, h1, fun h =>
        match h3 h with
        | ⟨s5, b1, b2, b3, _⟩ => ⟨s5, b1, b2, b3⟩⟩⟩

/-! ## Theory conflicts -/

/-- Claim C7: for a theory conflict `a = s.conflict` whose literals are false,
`resolve_conflict` computes `k`, the maximum of `base_level` and of the levels of
the literals of `a`, and backtracks to `k` (the assignment stack keeps the
literals of level at most `k`, the theory solver is told to backtrack to `k`).
If `k = base_level`, which is the case when `a` is empty, it returns with
`inconsistent` still true, and the loop of `smt_process` sets the status to
`STATUS_UNSAT`.  If `k > base_level`, conflict analysis returns (with enough
fuel), `inconsistent` and `theory_conflict` are cleared, and the clause of
`buffer`, which satisfies the precondition of `add_learned_clause`, is added as
a learned clause. -/
theorem theory_conflict_resolution {s : smt_core_t} (hI : AnalysisInv s)
    (htc : s.theory_conflict = true) (hinc : s.inconsistent = true)
    (hfalse : ∀ l ∈ conflict_literals s.conflict, valid_lit s l ∧ s.value l = VAL_FALSE) :
    (get_conflict_level s s.conflict).1 =
      (conflict_literals s.conflict).foldl (fun k l => max k (d_level s l)) s.base_level ∧
    s.base_level ≤ (get_conflict_level s s.conflict).1 ∧
    (∀ l ∈ conflict_literals s.conflict, d_level s l ≤ (get_conflict_level s s.conflict).1) ∧
    ((get_conflict_level s s.conflict).1 = s.base_level ∨
      ∃ l ∈ conflict_literals s.conflict, d_level s l = (get_conflict_level s s.conflict).1) ∧
    (conflict_literals s.conflict = [] → (get_conflict_level s s.conflict).1 = s.base_level) ∧
    (resolve_conflict_level s).1 = (get_conflict_level s s.conflict).1 ∧
    (resolve_conflict_level s).2.decision_level = (get_conflict_level s s.conflict).1 ∧
    (resolve_conflict_level s).2.stack.lit = s.stack.lit.filter
      (fun l => decide (d_level s l ≤ (get_conflict_level s s.conflict).1)) ∧
    (resolve_conflict_level s).2.th_calls = s.th_calls ++
      (if (get_conflict_level s s.conflict).1 < s.decision_level
        then [th_call_t.backtrack (get_conflict_level s s.conflict).1] else []) ∧
    ((get_conflict_level s s.conflict).1 = s.base_level → ∀ fuel,
      resolve_conflict fuel s = some (resolve_conflict_level s).2 ∧
      (resolve_conflict_level s).2.inconsistent = true ∧
      smt_process_conflict fuel s = some
        { (resolve_conflict_level s).2 with status := smt_status_t.STATUS_UNSAT }) ∧
    (s.base_level < (get_conflict_level s s.conflict).1 → ∀ fuel, s.nvars < fuel →
      ∃ s5, analyze_conflict fuel (get_conflict_level s s.conflict).1
          (resolve_conflict_level s).2 s.conflict = some s5 ∧
        s5.inconsistent = false ∧ s5.theory_conflict = false ∧
        AssignInv s5 ∧ LevelInv s5 ∧ LearnedPre s5 s5.buffer ∧
        resolve_conflict fuel s = some (add_learned_clause s5 s5.buffer) ∧
        (add_learned_clause s5 s5.buffer).inconsistent = false ∧
        (add_learned_clause s5 s5.buffer).theory_conflict = false ∧
        smt_process_conflict fuel s = some (add_learned_clause s5 s5.buffer)) := by
  obtain ⟨k1, k2, k3, _⟩ := get_conflict_level_spec s s.conflict
  obtain ⟨h1, _, h3, _, _, _, _, h8, _, h11, h12⟩ := resolve_conflict_level_theory hI htc hfalse
  refine ⟨get_conflict_level_eq_foldl s s.conflict, k1, k2, k3, ?_, h1, h3, h11, h12, ?_, ?_⟩
  · intro he
    rcases k3 with k3 | ⟨l, hl, _⟩
    · exact k3
    · rw [he] at hl; cases hl
  · intro hk fuel
    have hr := resolve_conflict_base hI hfalse (h1.trans hk) fuel
    have hi : (resolve_conflict_level s).2.inconsistent = true := by rw [h8, hinc]
    refine ⟨hr, hi, ?_⟩
    rw [smt_process_conflict_of hr, if_pos hi]
  · intro hk fuel hfuel
    have hne : (resolve_conflict_level s).1 ≠ s.base_level := by rw [h1]; omega
    obtain ⟨s5, a1, a2, a3, a4, _, _, _, _, _, a10, a11, a12, _, a14, a15, _⟩ :=
      resolve_conflict_spec hI hfalse (fun h => by rw [htc] at h; cases h) hne hfuel
    rw [h1] at a1
    refine ⟨s5, a1, a3, a4, a10, a11, a12, a2, a14, a15, ?_⟩
    rw [smt_process_conflict_of a2, a14]
    rfl

theorem analysisInv_sample_theory : AnalysisInv sample_theory := by
  refine ⟨⟨by decide, by decide, by decide, by decide, by decide, by decide, by decide⟩,
    ⟨by decide, by decide, by decide, by decide, by decide⟩, ?_, ?_, by decide, by decide,
    by decide, by decide⟩
  · unfold AnteInv; decide
  · unfold MarkInv; decide

theorem theory_conflict_resolution_witness :
    AnalysisInv sample_theory ∧ sample_theory.theory_conflict = true ∧
    sample_theory.inconsistent = true ∧
    (∀ l ∈ conflict_literals sample_theory.conflict,
      valid_lit sample_theory l ∧ sample_theory.value l = VAL_FALSE) ∧
    sample_theory.decision_level = 3 ∧
    (get_conflict_level sample_theory sample_theory.conflict).1 = 2 ∧
    (resolve_conflict_level sample_theory).1 =
      (get_conflict_level sample_theory sample_theory.conflict).1 ∧
    (resolve_conflict_level sample_theory).2.decision_level =
      (get_conflict_level sample_theory sample_theory.conflict).1 ∧
    (resolve_conflict 8 sample_theory).map (fun t => (t.inconsistent, t.stack.lit))
      = some (false, [2, 5]) :=
  have h := theory_conflict_resolution analysisInv_sample_theory (by decide) (by decide)
    (by decide)
  ⟨analysisInv_sample_theory, by decide, by decide, by decide, by decide, by decide,
    h.2.2.2.2.2.1, h.2.2.2.2.2.2.1, by decide⟩

/-! ## Soundness of clause minimization -/

theorem is_pos_not_lit (l : Int) : is_pos (not_lit l) = ! is_pos l := by
  unfold is_pos not_lit
  by_cases h : l % 2 = 0
  · rw [if_pos h]
    have : ¬ (l + 1) % 2 = 0 := by omega
    simp [h, this]
  · rw [if_neg h]
    have : (l - 1) % 2 = 0 := by omega
    simp [h, this]

theorem eval_lit_not_lit (v : Int → Bool) (l : Int) :
    eval_lit v (not_lit l) = ! eval_lit v l := by
  unfold eval_lit
  rw [is_pos_not_lit, var_of_not_lit]
  cases is_pos l <;> simp

/-- A redundant literal stays redundant when the redundant literals are removed
from the clause: by induction along the assignment stack. -/
theorem absorbed_shrink {s : smt_core_t} (hA : AssignInv s) (hAn : AnteInv s)
    (hLen : ClauseLen s) {L K : List Int}
    (hrem : ∀ l ∈ L, l ∉ K →
      has_antecedent s l ∧ ∀ p ∈ antecedent_falses s l, Absorbed s L p) :
    ∀ p, valid_lit s p → s.value p = VAL_FALSE → Absorbed s L p → Absorbed s K p := by
  have key : ∀ n p,
      (s.stack.lit.takeWhile (fun y => decide (y ≠ not_lit p))).length < n →
      valid_lit s p → s.value p = VAL_FALSE → Absorbed s L p → Absorbed s K p := by
    intro n
    induction n with
    | zero => intro p h; omega
    | succ n ih =>
      intro p hn hv hf h
      have hsub : ∀ q ∈ antecedent_falses s p, Absorbed s L q → Absorbed s K q := by
        intro q hq hq2
        obtain ⟨p1, p2, p3⟩ := antecedent_falses_spec hA hAn hLen hv hf q hq
        have hlt := takeWhile_length_lt p3
        exact ih q (by omega) p1 p2 hq2
      cases h with
      | in_clause hm =>
        by_cases hk : p ∈ K
        · exact Absorbed.in_clause hk
        · obtain ⟨r1, r2⟩ := hrem p hm hk
          exact Absorbed.expand r1 (fun q hq => hsub q hq (r2 q hq))
      | base hb => exact Absorbed.base hb
      | expand r1 r2 => exact Absorbed.expand r1 (fun q hq => hsub q hq (r2 q hq))
  intro p hv hf h
  exact key _ p (Nat.lt_succ_self _) hv hf h

/-- A valuation that satisfies the antecedent clauses and the assignments of the
base level, and makes a redundant literal true, satisfies the clause. -/
theorem absorbed_sound {s : smt_core_t} (hA : AssignInv s) (hAn : AnteInv s)
    (hLen : ClauseLen s) {K : List Int} (v : Int → Bool)
    (hante : ∀ q, valid_lit s q → s.value q = VAL_FALSE → has_antecedent s q →
      (antecedent_clause s q).any (eval_lit v) = true)
    (hbase : ∀ q, valid_lit s q → s.value q = VAL_FALSE → d_level s q ≤ s.base_level →
      eval_lit v q = false) :
    ∀ p, Absorbed s K p → valid_lit s p → s.value p = VAL_FALSE → eval_lit v p = true →
      K.any (eval_lit v) = true := by
  intro p h
  induction h with
  | in_clause hm => intro _ _ he; exact List.any_eq_true.2 ⟨_, hm, he⟩
  | base hb => intro hv hf he; rw [hbase _ hv hf hb] at he; cases he
  | @expand q r1 r2 ih =>
    intro hv hf he
    have hc := hante q hv hf r1
    unfold antecedent_clause at hc
    rw [List.any_cons, eval_lit_not_lit, he] at hc
    simp only [Bool.not_true, Bool.false_or] at hc
    obtain ⟨x, hx, hxe⟩ := List.any_eq_true.1 hc
    obtain ⟨p1, p2, _⟩ := antecedent_falses_spec hA hAn hLen hv hf x hx
    exact ih x hx p1 p2 hxe

theorem mem_of_any_eval {v : Int → Bool} {L : List Int} (h : L.any (eval_lit v) = true) :
    ∃ l ∈ L, eval_lit v l = true :=
  List.any_eq_true.1 h

/-- Claim C8 (amended): on the clause built by `resolve_conflict` from a conflict
of level `k`, `simplify_learned_clause` returns (with enough fuel), keeps
`buffer[0]`, and leaves a subsequence of the buffer in the same order.  A literal
`m` is removed only if `not(m)` has a non-null antecedent and every false literal
of that antecedent is redundant (`Absorbed`): it is a literal of the minimized
clause, or it is assigned at a level at most `base_level`, or it has a non-null
antecedent whose false literals are redundant.  Hence a valuation that satisfies
the antecedent clauses, falsifies the literals false at the base level and
satisfies the clause built also satisfies the minimized clause. -/
theorem simplify_learned_clause_sound {s : smt_core_t} (hI : AnalysisInv s) {k : Nat}
    {c : List Int} (hc : ConflictAt s k c) (fuel : Nat) (hfuel : s.nvars < fuel) :
    ∃ s3 t, build_learned_clause k s c = some s3 ∧ simplify_learned_clause fuel s3 = some t ∧
      1 ≤ t.buffer.length ∧ t.buffer.getD 0 0 = s3.buffer.getD 0 0 ∧
      t.buffer.Sublist s3.buffer ∧
      (∀ m ∈ s3.buffer, m ∉ t.buffer →
        m ≠ s3.buffer.getD 0 0 ∧ has_antecedent s3 m ∧
        ∀ p ∈ antecedent_falses s3 m, Absorbed s3 t.buffer p) ∧
      ∀ v : Int → Bool,
        (∀ q, valid_lit s3 q → s3.value q = VAL_FALSE → has_antecedent s3 q →
          (antecedent_clause s3 q).any (eval_lit v) = true) →
        (∀ q, valid_lit s3 q → s3.value q = VAL_FALSE → d_level s3 q ≤ s3.base_level →
          eval_lit v q = false) →
        s3.buffer.any (eval_lit v) = true → t.buffer.any (eval_lit v) = true := by
  obtain ⟨s3, b, h1, hB, -⟩ := build_learned_clause_spec hI hc
  have hf3 : s3.nvars < fuel := by rw [hB.nvars]; exact hfuel
  obtain ⟨t, ht1, ht2, ht3, ht4, ht5, ht6⟩ := simplify_learned_clause_spec hI hB hf3
  have hA3 := assignInv_of_built hI hB
  have hbuf : ∀ l ∈ s3.buffer, valid_lit s3 l ∧ s3.value l = VAL_FALSE := fun l hl =>
    ⟨built_valid hB (hB.buf l hl).1, by rw [hB.value]; exact (hB.buf l hl).2.1⟩
  obtain ⟨b0, bs, e3⟩ : ∃ b0 bs, s3.buffer = b0 :: bs := by
    cases h : s3.buffer with
    | nil => have := hB.nonempty; rw [h] at this; simp at this
    | cons a r => exact ⟨a, r, rfl⟩
  obtain ⟨ts, et⟩ : ∃ ts, t.buffer = b0 :: ts := by
    cases h : t.buffer with
    | nil => rw [h, e3] at ht4; cases ht4
    | cons a r =>
      rw [h, e3] at ht4
      simp only [List.head?_cons, Option.some.injEq] at ht4
      exact ⟨r, by rw [ht4]⟩
  have hshrink : ∀ m ∈ s3.buffer, m ∉ t.buffer →
      has_antecedent s3 m ∧ ∀ p ∈ antecedent_falses s3 m, Absorbed s3 t.buffer p := by
    intro m hm hnot
    obtain ⟨r1, r2⟩ := ht6 m hm hnot
    refine ⟨r1, fun p hp => ?_⟩
    obtain ⟨p1, p2, _⟩ := antecedent_falses_spec hA3 hB.ante hB.len (hbuf m hm).1 (hbuf m hm).2 p hp
    exact absorbed_shrink hA3 hB.ante hB.len ht6 p p1 p2 (r2 p hp)
  refine ⟨s3, t, h1, ht1, ?_, ?_, ht3, ?_, ?_⟩
  · rw [et]; simp
  · rw [et, e3]; rfl
  · intro m hm hnot
    refine ⟨?_, hshrink m hm hnot⟩
    intro e
    apply hnot
    rw [e, e3, et]
    exact List.mem_cons_self _ _
  · intro v hante hbase hsat
    obtain ⟨l, hl, hle⟩ := mem_of_any_eval hsat
    by_cases hk : l ∈ t.buffer
    · exact List.any_eq_true.2 ⟨l, hk, hle⟩
    · obtain ⟨r1, r2⟩ := hshrink l hl hk
      exact absorbed_sound hA3 hB.ante hB.len v hante hbase l (Absorbed.expand r1 r2)
        (hbuf l hl).1 (hbuf l hl).2 hle

theorem analysisInv_sample_minimize : AnalysisInv sample_minimize := by
  refine ⟨⟨by decide, by decide, by decide, by decide, by decide, by decide, by decide⟩,
    ⟨by decide, by decide, by decide, by decide, by decide⟩, ?_, ?_, by decide, by decide,
    by decide, by decide⟩
  · unfold AnteInv; decide
  · unfold MarkInv; decide

theorem conflictAt_sample_minimize : ConflictAt sample_minimize 2 sample_minimize.conflict :=
  ⟨by decide, by decide, by decide, ⟨9, by decide, by decide⟩⟩

theorem simplify_learned_clause_sound_witness :
    AnalysisInv sample_minimize ∧ ConflictAt sample_minimize 2 sample_minimize.conflict ∧
    sample_minimize.nvars < 9 ∧
    ((build_learned_clause 2 sample_minimize sample_minimize.conflict).bind
      (simplify_learned_clause 9)).map (fun t => t.buffer) = some [9, 5] ∧
    ∃ s3 t, build_learned_clause 2 sample_minimize sample_minimize.conflict = some s3 ∧
      simplify_learned_clause 9 s3 = some t ∧ t.buffer.Sublist s3.buffer :=
  ⟨analysisInv_sample_minimize, conflictAt_sample_minimize, by decide, by decide,
    match simplify_learned_clause_sound analysisInv_sample_minimize conflictAt_sample_minimize
      9 (by decide) with
    | ⟨s3, t, h1, h2, _, _, h5, _⟩ => ⟨s3, t, h1, h2, h5⟩⟩

/-- Claim C8, counterexample: when `resolve_conflict` runs on `sample_minimize`
the clause built is `{¬x4, ¬x3, ¬x2}` and `simplify_learned_clause` removes `¬x3`,
whose negation was implied by the clause `{x3, ¬x2, ¬x1}`.  The literal `¬x1` of that antecedent is
false at the base level: it is not a literal of the learned clause and `x1` has
a null antecedent, so it is not redundant in the sense of the specification.
The valuation `x2 = x4 = true`, `x1 = x3 = false` satisfies the antecedent
clauses and the clause built, but not the minimized clause `{¬x4, ¬x2}`. -/
theorem simplify_learned_clause_drops_base_reason :
    ∃ s3 t, build_learned_clause (resolve_conflict_level sample_minimize).1
        (resolve_conflict_level sample_minimize).2 sample_minimize.conflict = some s3 ∧
      simplify_learned_clause 9 s3 = some t ∧
      s3.buffer = [9, 7, 5] ∧ t.buffer = [9, 5] ∧
      antecedent_falses s3 7 = [5, 3] ∧ ¬ has_antecedent s3 3 ∧
      ¬ Covered s3 s3.buffer 3 ∧ ¬ Covered s3 t.buffer 3 ∧
      ¬ (has_antecedent s3 7 ∧ ∀ p ∈ antecedent_falses s3 7, Covered s3 s3.buffer p) ∧
      ∃ v : Int → Bool,
        (∀ q, valid_lit s3 q → s3.value q = VAL_FALSE → has_antecedent s3 q →
          (antecedent_clause s3 q).any (eval_lit v) = true) ∧
        s3.buffer.any (eval_lit v) = true ∧ t.buffer.any (eval_lit v) = false := by
  have e1 : (build_learned_clause (resolve_conflict_level sample_minimize).1
        (resolve_conflict_level sample_minimize).2 sample_minimize.conflict).map
      (fun t => (t.buffer, antecedent_falses t 7, decide (has_antecedent t 3),
        decide (∀ q : Int, 2 ≤ q → q < t.nlits → t.value q = VAL_FALSE → has_antecedent t q →
          (antecedent_clause t q).any (eval_lit (fun x => decide (x = 2 ∨ x = 4))) = true)))
      = some ([9, 7, 5], [5, 3], false, true) := by decide
  have e2 : ((build_learned_clause (resolve_conflict_level sample_minimize).1
        (resolve_conflict_level sample_minimize).2 sample_minimize.conflict).bind
      (simplify_learned_clause 9)).map (fun t => t.buffer) = some [9, 5] := by decide
  cases h : build_learned_clause (resolve_conflict_level sample_minimize).1
        (resolve_conflict_level sample_minimize).2 sample_minimize.conflict with
  | none => rw [h] at e1; cases e1
  | some s3 =>
    rw [h] at e1 e2
    simp only [Option.map_some', Option.some.injEq, Prod.mk.injEq, decide_eq_false_iff_not,
      decide_eq_true_eq] at e1
    obtain ⟨b1, b2, b3, b4⟩ := e1
    simp only [Option.some_bind] at e2
    cases h2 : simplify_learned_clause 9 s3 with
    | none => rw [h2] at e2; cases e2
    | some t =>
      rw [h2] at e2
      simp only [Option.map_some', Option.some.injEq] at e2
      have hcov : ¬ Covered s3 s3.buffer 3 := by
        intro hC
        cases hC with
        | in_clause hm => rw [b1] at hm; revert hm; decide
        | expand r1 _ => exact b3 r1
      have hcov2 : ¬ Covered s3 t.buffer 3 := by
        intro hC
        cases hC with
        | in_clause hm => rw [e2] at hm; revert hm; decide
        | expand r1 _ => exact b3 r1
      refine ⟨s3, t, rfl, h2, b1, e2, b2, b3, hcov, hcov2, ?_,
        fun x => decide (x = 2 ∨ x = 4), ?_, ?_, ?_⟩
      · intro hall
        exact hcov (hall.2 3 (by rw [b2]; decide))
      · intro q hv
        exact b4 q hv.1 hv.2
      · rw [b1]; decide
      · rw [e2]; decide

/-! ## The watched-literal index -/

theorem occ_nil {α : Type} [DecidableEq α] (x : α) : occ ([] : List α) x = 0 := rfl

theorem occ_cons {α : Type} [DecidableEq α] (a : α) (w : List α) (x : α) :
    occ (a :: w) x = (if a = x then 1 else 0) + occ w x := by
  unfold occ
  by_cases h : a = x
  · rw [List.filter_cons_of_pos (by simpa using h), if_pos h, List.length_cons]; omega
  · rw [List.filter_cons_of_neg (by simpa using h), if_neg h]; omega

theorem occ_append {α : Type} [DecidableEq α] (u w : List α) (x : α) :
    occ (u ++ w) x = occ u x + occ w x := by
  unfold occ
  rw [List.filter_append, List.length_append]

theorem occ_eq_zero {α : Type} [DecidableEq α] {w : List α} {x : α} (h : x ∉ w) :
    occ w x = 0 := by
  induction w with
  | nil => rfl
  | cons a t ih =>
    rw [occ_cons, ih (fun hm => h (List.mem_cons_of_mem _ hm)),
      if_neg (fun e => h (by rw [e]; exact List.mem_cons_self _ _))]

theorem occ_pos {α : Type} [DecidableEq α] {w : List α} {x : α} (h : x ∈ w) :
    0 < occ w x := by
  induction w with
  | nil => cases h
  | cons a t ih =>
    rw [occ_cons]
    rcases List.mem_cons.1 h with e | e
    · rw [if_pos e.symm]; omega
    · have := ih e; omega

theorem mem_of_occ_pos {α : Type} [DecidableEq α] {w : List α} {x : α} (h : 0 < occ w x) :
    x ∈ w := by
  by_contra hn
  rw [occ_eq_zero hn] at h
  omega

theorem occ_eq_one {α : Type} [DecidableEq α] {w : List α} {x : α} (hn : w.Nodup)
    (h : x ∈ w) : occ w x = 1 := by
  induction w with
  | nil => cases h
  | cons a t ih =>
    rw [occ_cons]
    rw [List.nodup_cons] at hn
    rcases List.mem_cons.1 h with e | e
    · rw [if_pos e.symm, occ_eq_zero (by rw [e]; exact hn.1)]
    · rw [if_neg (fun e2 => hn.1 (by rw [e2]; exact e)), ih hn.2 e]

theorem nodup_of_occ_le_one {α : Type} [DecidableEq α] {w : List α}
    (h : ∀ x ∈ w, occ w x ≤ 1) : w.Nodup := by
  induction w with
  | nil => exact List.nodup_nil
  | cons a t ih =>
    rw [List.nodup_cons]
    constructor
    · intro hm
      have := h a (List.mem_cons_self _ _)
      rw [occ_cons, if_pos rfl] at this
      have := occ_pos hm
      omega
    · apply ih
      intro x hx
      have := h x (List.mem_cons_of_mem _ hx)
      rw [occ_cons] at this
      omega

theorem occ_filter {α : Type} [DecidableEq α] (p : α → Bool) (w : List α) (x : α) :
    occ (w.filter p) x = if p x = true then occ w x else 0 := by
  induction w with
  | nil => simp [occ_nil]
  | cons a t ih =>
    by_cases hp : p a = true
    · rw [List.filter_cons_of_pos hp, occ_cons, occ_cons, ih]
      by_cases hx : a = x
      · have hpx : p x = true := hx ▸ hp
        simp [hx, hpx]
      · simp [hx]
    · rw [List.filter_cons_of_neg hp, ih, occ_cons]
      by_cases hx : a = x
      · have hpx : ¬ p x = true := hx ▸ hp
        simp [hpx]
      · simp [hx]

theorem watchIndex_of_watchInv {s : smt_core_t} (h : WatchInv s) : WatchIndex s := by
  intro l h0 hl c hc hr
  refine ⟨?_, ?_⟩
  · intro i hi
    by_cases e : (s.clauses c).get i = l
    · rw [if_pos e]
      have hm := h.complete c hc hr i hi
      rw [e] at hm
      exact occ_eq_one (h.nodup l h0 hl) hm
    · rw [if_neg e]
      apply occ_eq_zero
      intro hm
      exact e (h.sound l h0 hl _ hm).2.2
  · intro lnk hm _
    exact (h.sound l h0 hl _ hm).2.1

theorem linksActive_of_watchInv {s : smt_core_t} (h : WatchInv s) : LinksActive s :=
  fun l h0 hl lnk hm => (h.sound l h0 hl lnk hm).1

theorem watchInv_of_watchIndex {s : smt_core_t} (h : WatchIndex s) (ha : LinksActive s)
    (hcl : ∀ c ∈ stored s, is_clause_to_be_removed (s.clauses c) = false → ∀ j, j < 2 →
      0 ≤ (s.clauses c).get j ∧ (s.clauses c).get j < s.nlits) :
    WatchInv s := by
  refine ⟨?_, ?_, ?_⟩
  · intro l h0 hl
    apply nodup_of_occ_le_one
    intro lnk hm
    obtain ⟨hc, hr⟩ := ha l h0 hl lnk hm
    obtain ⟨h1, h2⟩ := h l h0 hl lnk.1 hc hr
    have := h1 lnk.2 (h2 lnk hm rfl)
    rw [show ((lnk.1, lnk.2) : link_t) = lnk from rfl] at this
    rw [this]; split <;> omega
  · intro l h0 hl lnk hm
    obtain ⟨hc, hr⟩ := ha l h0 hl lnk hm
    obtain ⟨h1, h2⟩ := h l h0 hl lnk.1 hc hr
    have h3 := h2 lnk hm rfl
    refine ⟨⟨hc, hr⟩, h3, ?_⟩
    have := h1 lnk.2 h3
    rw [show ((lnk.1, lnk.2) : link_t) = lnk from rfl] at this
    by_contra e
    rw [if_neg e] at this
    have := occ_pos hm
    omega
  · intro c hc hr j hj
    have hv := hcl c hc hr j hj
    have := (h _ hv.1 hv.2 c hc hr).1 j hj
    rw [if_pos rfl] at this
    exact mem_of_occ_pos (by omega)

theorem cleanup_fold (s : smt_core_t) : ∀ n : Nat,
    (List.range n).foldl (fun t i => cleanup_watch_list t (Int.ofNat i)) s =
      { s with
        watch := fun l => if 0 ≤ l ∧ l < n then
          (s.watch l).filter (fun lnk => ! is_clause_to_be_removed (s.clauses lnk.1))
          else s.watch l } := by
  intro n
  induction n with
  | zero =>
    simp only [List.range_zero, List.foldl_nil]
    have : (fun l : Int => if 0 ≤ l ∧ l < ((0 : Nat) : Int) then
          (s.watch l).filter (fun lnk => ! is_clause_to_be_removed (s.clauses lnk.1))
          else s.watch l) = s.watch := by
      funext l
      rw [if_neg]
      intro h; have := h.2; omega
    rw [this]
  | succ n ih =>
    rw [List.range_succ, List.foldl_append, ih]
    simp only [List.foldl_cons, List.foldl_nil]
    unfold cleanup_watch_list
    simp only
    congr 1
    funext l
    unfold upd
    dsimp only
    have e : Int.ofNat n = (n : Int) := rfl
    rw [e]
    push_cast
    by_cases h : l = (n : Int)
    · subst h
      rw [if_pos rfl, if_neg (by omega), if_pos (by omega)]
    · rw [if_neg h]
      by_cases h2 : 0 ≤ l ∧ l < (n : Int)
      · rw [if_pos h2, if_pos (by omega)]
      · rw [if_neg h2, if_neg (by omega)]

theorem cleanup_watch_lists_eq (s : smt_core_t) :
    cleanup_watch_lists s =
      { s with
        watch := fun l => if 0 ≤ l ∧ l < s.nlits then
          (s.watch l).filter (fun lnk => ! is_clause_to_be_removed (s.clauses lnk.1))
          else s.watch l } := by
  unfold cleanup_watch_lists
  exact cleanup_fold s s.nlits

/-- After `cleanup_watch_lists` the index holds and no list has a link to a
marked clause, whatever links to marked clauses the lists had. -/
theorem watchIndex_cleanup_watch_lists {s : smt_core_t} (h : WatchIndex s)
    (hs : LinksStored s) :
    WatchIndex (cleanup_watch_lists s) ∧ LinksActive (cleanup_watch_lists s) := by
  rw [cleanup_watch_lists_eq]
  constructor
  · intro l h0 hl c hc hr
    have hl' : l < s.nlits := hl
    obtain ⟨h1, h2⟩ := h l h0 hl' c hc hr
    have hr' : is_clause_to_be_removed (s.clauses c) = false := hr
    refine ⟨?_, ?_⟩
    · intro i hi
      show occ (if 0 ≤ l ∧ l < s.nlits then _ else _) (c, i) = if (s.clauses c).get i = l then 1 else 0
      rw [if_pos ⟨h0, hl'⟩, occ_filter, ← h1 i hi]
      simp only [hr', Bool.not_false, if_true]
    · intro lnk hm e
      have hm' : lnk ∈ (if 0 ≤ l ∧ l < s.nlits then
          (s.watch l).filter (fun lnk => ! is_clause_to_be_removed (s.clauses lnk.1))
          else s.watch l) := hm
      rw [if_pos ⟨h0, hl'⟩] at hm'
      exact h2 lnk (List.mem_filter.1 hm').1 e
  · intro l h0 hl lnk hm
    have hl' : l < s.nlits := hl
    have hm' : lnk ∈ (if 0 ≤ l ∧ l < s.nlits then
        (s.watch l).filter (fun lnk => ! is_clause_to_be_removed (s.clauses lnk.1))
        else s.watch l) := hm
    rw [if_pos ⟨h0, hl'⟩] at hm'
    obtain ⟨m1, m2⟩ := List.mem_filter.1 hm'
    exact ⟨hs l h0 hl' lnk m1, by simpa using m2⟩

theorem occ_watch_add (s : smt_core_t) (l : Int) (lnk : link_t) (l' : Int) (x : link_t) :
    occ ((watch_add s l lnk).watch l') x
      = occ (s.watch l') x + if l' = l ∧ lnk = x then 1 else 0 := by
  unfold watch_add
  simp only [upd_apply]
  by_cases h : l' = l
  · rw [if_pos h, h]
    cases s.USE_END_WATCH
    · simp only [Bool.false_eq_true, if_false, occ_cons, true_and]; omega
    · simp only [if_true, occ_append, occ_cons, occ_nil, true_and, Nat.add_zero]
  · rw [if_neg h]; simp [h]

theorem new_problem_clause_frame (s : smt_core_t) (a : List Int) :
    (new_problem_clause s a).clauses = updN s.clauses s.nclauses_alloc (new_clause a) ∧
    (new_problem_clause s a).problem_clauses = s.problem_clauses ++ [s.nclauses_alloc] ∧
    (new_problem_clause s a).learned_clauses = s.learned_clauses ∧
    (new_problem_clause s a).nlits = s.nlits ∧
    (new_problem_clause s a).nclauses_alloc = s.nclauses_alloc + 1 := by
  unfold new_problem_clause watch_add alloc_clause
  exact ⟨rfl, rfl, rfl, rfl, rfl⟩

theorem occ_new_problem_clause (s : smt_core_t) (a : List Int) (l : Int) (x : link_t) :
    occ ((new_problem_clause s a).watch l) x
      = occ (s.watch l) x + (if l = a.getD 0 0 ∧ (s.nclauses_alloc, 0) = x then 1 else 0)
        + (if l = a.getD 1 0 ∧ (s.nclauses_alloc, 1) = x then 1 else 0) := by
  unfold new_problem_clause
  simp only []
  show occ ((watch_add (watch_add _ _ _) _ _).watch l) x = _
  rw [occ_watch_add, occ_watch_add]
  rfl

theorem new_clause_get {a : List Int} {k : Nat} (hk : k < a.length) :
    (new_clause a).get k = a.getD k 0 := by
  unfold new_clause clause_t.get
  simp [List.getD_eq_getElem?_getD, hk]

/-- The index is kept by `new_problem_clause`: the new clause is on the lists of
`a[0]` and `a[1]` and on no other list. -/
theorem watchIndex_new_problem_clause {s : smt_core_t} (h : WatchIndex s) (hs : LinksStored s)
    (hS : AllocInv s) {a : List Int} (h2 : 2 ≤ a.length) :
    WatchIndex (new_problem_clause s a) ∧ LinksStored (new_problem_clause s a) ∧
    AllocInv (new_problem_clause s a) := by
  obtain ⟨f1, f2, f3, f4, f5⟩ := new_problem_clause_frame s a
  have hst : ∀ c, c ∈ stored (new_problem_clause s a) ↔ c ∈ stored s ∨ c = s.nclauses_alloc := by
    intro c
    unfold stored; rw [f2, f3]
    simp only [List.mem_append, List.mem_singleton]
    tauto
  have hold : ∀ l : Int, 0 ≤ l → l < s.nlits → ∀ i, occ (s.watch l) (s.nclauses_alloc, i) = 0 := by
    intro l h0 hl i
    apply occ_eq_zero
    intro hm
    have := hS _ (hs l h0 hl _ hm)
    simp at this
  have hmem : ∀ l (x : link_t), x ∈ (new_problem_clause s a).watch l →
      x ∈ s.watch l ∨ (x.1 = s.nclauses_alloc ∧ x.2 < 2) := by
    intro l x hx
    have hp := occ_pos hx
    rw [occ_new_problem_clause] at hp
    by_cases hx2 : x ∈ s.watch l
    · exact Or.inl hx2
    · right
      rw [occ_eq_zero hx2] at hp
      by_cases e0 : l = a.getD 0 0 ∧ (s.nclauses_alloc, 0) = x
      · rw [← e0.2]; exact ⟨rfl, Nat.zero_lt_two⟩
      · rw [if_neg e0] at hp
        by_cases e1 : l = a.getD 1 0 ∧ (s.nclauses_alloc, 1) = x
        · rw [← e1.2]; exact ⟨rfl, Nat.one_lt_two⟩
        · rw [if_neg e1] at hp; omega
  refine ⟨?_, ?_, ?_⟩
  · intro l h0 hl c hc hr
    rw [f4] at hl
    rw [f1] at hr ⊢
    rcases (hst c).1 hc with hc | hc
    · have hlt := hS c hc
      have hne : c ≠ s.nclauses_alloc := by omega
      unfold updN at hr ⊢
      rw [if_neg hne] at hr ⊢
      obtain ⟨h1, h3⟩ := h l h0 hl c hc hr
      refine ⟨?_, ?_⟩
      · intro i hi
        have e0 : ¬ (l = a.getD 0 0 ∧ (s.nclauses_alloc, 0) = (c, i)) :=
          fun e => hne (congrArg Prod.fst e.2).symm
        have e1 : ¬ (l = a.getD 1 0 ∧ (s.nclauses_alloc, 1) = (c, i)) :=
          fun e => hne (congrArg Prod.fst e.2).symm
        rw [occ_new_problem_clause, if_neg e0, if_neg e1, h1 i hi, Nat.add_zero]
      · intro lnk hm e
        rcases hmem l lnk hm with hm | hm
        · exact h3 lnk hm e
        · exact hm.2
    · subst hc
      unfold updN
      rw [if_pos rfl]
      refine ⟨?_, ?_⟩
      · intro i hi
        rw [occ_new_problem_clause, hold l h0 hl i, new_clause_get (by omega)]
        rcases Nat.eq_zero_or_pos i with e | e
        · subst e
          have e1 : ¬ (l = a.getD 1 0 ∧ ((s.nclauses_alloc, 1) : link_t) = (s.nclauses_alloc, 0)) :=
            fun e => by cases e.2
          rw [if_neg e1]
          by_cases hl0 : a.getD 0 0 = l
          · rw [if_pos hl0, if_pos ⟨hl0.symm, rfl⟩]
          · rw [if_neg hl0, if_neg (fun e => hl0 e.1.symm)]
        · have e1 : i = 1 := by omega
          subst e1
          have e0 : ¬ (l = a.getD 0 0 ∧ ((s.nclauses_alloc, 0) : link_t) = (s.nclauses_alloc, 1)) :=
            fun e => by cases e.2
          rw [if_neg e0]
          by_cases hl1 : a.getD 1 0 = l
          · rw [if_pos hl1, if_pos ⟨hl1.symm, rfl⟩]
          · rw [if_neg hl1, if_neg (fun e => hl1 e.1.symm)]
      · intro lnk hm e
        rcases hmem l lnk hm with hm | hm
        · have := hS _ (hs l h0 hl _ hm)
          omega
        · exact hm.2
  · intro l h0 hl lnk hm
    rw [f4] at hl
    rw [hst]
    rcases hmem l lnk hm with hm | hm
    · exact Or.inl (hs l h0 hl _ hm)
    · exact Or.inr hm.1
  · intro c hc
    rw [f5]
    rcases (hst c).1 hc with hc | hc
    · exact Nat.lt_succ_of_lt (hS c hc)
    · omega

/-- One step of the last loop of `restore_clauses`: the clause `c` is linked on
the lists of its two watched literals. -/
theorem restore_clauses_step_spec (t : smt_core_t) (c : Nat) :
    (restore_clauses_step t c).nlits = t.nlits ∧
    (restore_clauses_step t c).problem_clauses = t.problem_clauses ∧
    (restore_clauses_step t c).learned_clauses = t.learned_clauses ∧
    (∀ d, d ≠ c → (restore_clauses_step t c).clauses d = t.clauses d) ∧
    ∀ l x, occ ((restore_clauses_step t c).watch l) x
      = occ (t.watch l) x
        + (if l = ((restore_clauses_step t c).clauses c).get 0 ∧ (c, 0) = x then 1 else 0)
        + (if l = ((restore_clauses_step t c).clauses c).get 1 ∧ (c, 1) = x then 1 else 0) := by
  unfold restore_clauses_step
  simp only []
  by_cases hm : is_clause_to_be_removed (t.clauses c) = true
  · simp only [hm, if_true]
    refine ⟨rfl, rfl, rfl, ?_, ?_⟩
    · intro d hd
      show updN t.clauses c _ d = _
      unfold updN; rw [if_neg hd]
    · intro l x
      rw [occ_watch_add, occ_watch_add]
      rfl
  · simp only [hm, if_false]
    refine ⟨rfl, rfl, rfl, fun d _ => rfl, ?_⟩
    intro l x
    rw [occ_watch_add, occ_watch_add]
    rfl

/-- The last loop of `restore_clauses` over the clauses `cs`. -/
theorem restore_clauses_fold (cs : List Nat) : ∀ (t : smt_core_t), cs.Nodup →
    (cs.foldl restore_clauses_step t).nlits = t.nlits ∧
    (cs.foldl restore_clauses_step t).problem_clauses = t.problem_clauses ∧
    (cs.foldl restore_clauses_step t).learned_clauses = t.learned_clauses ∧
    (∀ d, d ∉ cs → (cs.foldl restore_clauses_step t).clauses d = t.clauses d) ∧
    ∀ l (x : link_t), occ ((cs.foldl restore_clauses_step t).watch l) x
      = occ (t.watch l) x
        + (if x.1 ∈ cs ∧ x.2 < 2 ∧ ((cs.foldl restore_clauses_step t).clauses x.1).get x.2 = l
            then 1 else 0) := by
  induction cs with
  | nil =>
    intro t _
    refine ⟨rfl, rfl, rfl, fun _ _ => rfl, ?_⟩
    intro l x
    simp
  | cons c rest ih =>
    intro t hn
    rw [List.nodup_cons] at hn
    rw [List.foldl_cons]
    obtain ⟨a1, a2, a3, a4, a5⟩ := restore_clauses_step_spec t c
    obtain ⟨b1, b2, b3, b4, b5⟩ := ih (restore_clauses_step t c) hn.2
    refine ⟨b1.trans a1, b2.trans a2, b3.trans a3, ?_, ?_⟩
    · intro d hd
      rw [b4 d (fun h => hd (List.mem_cons_of_mem _ h)),
        a4 d (fun h => hd (by rw [h]; exact List.mem_cons_self _ _))]
    · intro l x
      rw [b5, a5]
      have hc := b4 c hn.1
      obtain ⟨x1, x2⟩ := x
      by_cases hx : x1 = c
      · subst hx
        have hr : ¬ (x1 ∈ rest ∧ x2 < 2 ∧
            ((rest.foldl restore_clauses_step (restore_clauses_step t x1)).clauses x1).get x2 = l) :=
          fun h => hn.1 h.1
        rw [if_neg hr, hc]
        generalize (restore_clauses_step t x1).clauses x1 = K
        rcases Nat.lt_or_ge x2 2 with h2 | h2
        · rcases Nat.eq_zero_or_pos x2 with e | e
          · subst e
            by_cases hl : K.get 0 = l
            · simp [hl.symm]
            · simp [hl, Ne.symm hl]
          · have e1 : x2 = 1 := by omega
            subst e1
            by_cases hl : K.get 1 = l
            · simp [hl.symm]
            · simp [hl, Ne.symm hl]
        · have n0 : ¬ (l = K.get 0 ∧ ((x1, 0) : link_t) = (x1, x2)) := by
            intro e; have := congrArg Prod.snd e.2; simp at this; omega
          have n1 : ¬ (l = K.get 1 ∧ ((x1, 1) : link_t) = (x1, x2)) := by
            intro e; have := congrArg Prod.snd e.2; simp at this; omega
          rw [if_neg n0, if_neg n1, if_neg]
          intro e; have := e.2.1; simp at this; omega
      · have n0 : ¬ (l = ((restore_clauses_step t c).clauses c).get 0 ∧
            ((c, 0) : link_t) = (x1, x2)) := fun e => hx (congrArg Prod.fst e.2).symm
        have n1 : ¬ (l = ((restore_clauses_step t c).clauses c).get 1 ∧
            ((c, 1) : link_t) = (x1, x2)) := fun e => hx (congrArg Prod.fst e.2).symm
        rw [if_neg n0, if_neg n1]
        simp only [List.mem_cons, hx, false_or, Nat.add_zero]

/-- `restore_clauses` rebuilds the index from empty lists: whatever the lists
held, each clause kept is afterwards on the lists of its two watched literals
and nowhere else. -/
theorem watchIndex_restore_clauses (s : smt_core_t) (n : Nat)
    (hn : (s.problem_clauses.take n).Nodup) :
    WatchIndex (restore_clauses s n) ∧ LinksStored (restore_clauses s n) := by
  have key : ∀ t0 : smt_core_t, t0.problem_clauses.Nodup → t0.learned_clauses = [] →
      (∀ l : Int, 0 ≤ l → l < t0.nlits → t0.watch l = []) →
      ∀ t : smt_core_t, t.nlits = (t0.problem_clauses.foldl restore_clauses_step t0).nlits →
        t.problem_clauses = (t0.problem_clauses.foldl restore_clauses_step t0).problem_clauses →
        t.learned_clauses = (t0.problem_clauses.foldl restore_clauses_step t0).learned_clauses →
        t.clauses = (t0.problem_clauses.foldl restore_clauses_step t0).clauses →
        t.watch = (t0.problem_clauses.foldl restore_clauses_step t0).watch →
        WatchIndex t ∧ LinksStored t := by
    intro t0 hnd hle hw t e1 e2 e3 e4 e5
    obtain ⟨b1, b2, b3, b4, b5⟩ := restore_clauses_fold t0.problem_clauses t0 hnd
    have hst : stored t = t0.problem_clauses := by
      unfold stored; rw [e2, e3, b2, b3, hle, List.append_nil]
    have hocc : ∀ l : Int, 0 ≤ l → l < t.nlits → ∀ x : link_t, occ (t.watch l) x
        = if x.1 ∈ t0.problem_clauses ∧ x.2 < 2 ∧ (t.clauses x.1).get x.2 = l then 1 else 0 := by
      intro l h0 hl x
      rw [e1, b1] at hl
      rw [e5, e4, b5, hw l h0 hl, occ_nil, Nat.zero_add]
    constructor
    · intro l h0 hl c hc hr
      rw [hst] at hc
      refine ⟨?_, ?_⟩
      · intro i hi
        rw [hocc l h0 hl]
        by_cases e : (t.clauses c).get i = l
        · rw [if_pos e, if_pos ⟨hc, hi, e⟩]
        · rw [if_neg e, if_neg (fun h => e h.2.2)]
      · intro lnk hm _
        have hp := occ_pos hm
        rw [hocc l h0 hl] at hp
        by_contra h2
        rw [if_neg (fun h => h2 h.2.1)] at hp
        omega
    · intro l h0 hl lnk hm
      have hp := occ_pos hm
      rw [hocc l h0 hl] at hp
      rw [hst]
      by_contra h2
      rw [if_neg (fun h => h2 h.1)] at hp
      omega
  unfold restore_clauses
  simp only []
  refine key _ ?_ rfl ?_ _ rfl rfl rfl rfl rfl
  · exact hn
  · intro l h0 hl
    show (if 0 ≤ l ∧ l < _ then [] else _) = []
    rw [if_pos ⟨h0, hl⟩]

theorem coreInv_sample_three : CoreInv sample_three := by
  refine ⟨assignInv_sample_three, ⟨by decide, by decide, by decide⟩,
    ⟨by decide, by decide, by decide⟩, ?_, levelInv_sample_three, ?_, ?_⟩
  · unfold BinInv; decide
  · unfold AnteInv; decide
  · unfold MarkInv; decide

theorem learnedPre_sample_three : LearnedPre sample_three [7, 3, 5] :=
  ⟨by decide, by decide, by decide, by decide, by decide, by decide⟩

theorem occ_getD_add (v : Option (List Int)) (l m : Int) :
    occ ((add_literal_to_vector v l).getD []) m = occ (v.getD []) m + if l = m then 1 else 0 := by
  cases v with
  | none => simp [add_literal_to_vector, occ_cons, occ_nil]
  | some d => simp [add_literal_to_vector, occ_append, occ_cons, occ_nil]

/-- What `direct_binary_clause(l1, l2)` writes: `l2` at the end of `bin[l1]`, then
`l1` at the end of `bin[l2]`, one more binary clause, and the pair in
`binary_clauses` when `base_level > 0`. -/
theorem direct_binary_clause_effect (s : smt_core_t) (l1 l2 : Int) :
    (l1 ≠ l2 →
      (direct_binary_clause s l1 l2).bin l1 = some ((s.bin l1).getD [] ++ [l2]) ∧
      (direct_binary_clause s l1 l2).bin l2 = some ((s.bin l2).getD [] ++ [l1])) ∧
    (∀ l, l ≠ l1 → l ≠ l2 → (direct_binary_clause s l1 l2).bin l = s.bin l) ∧
    (direct_binary_clause s l1 l2).nb_bin_clauses = s.nb_bin_clauses + 1 ∧
    (0 < s.base_level →
      (direct_binary_clause s l1 l2).binary_clauses = s.binary_clauses ++ [l1, l2]) ∧
    (s.base_level = 0 → (direct_binary_clause s l1 l2).binary_clauses = s.binary_clauses) := by
  refine ⟨?_, ?_, rfl, ?_, ?_⟩
  · intro hne
    unfold direct_binary_clause
    simp only [upd_apply, if_pos rfl, if_neg hne, if_neg (Ne.symm hne)]
    constructor
    · cases s.bin l1 <;> rfl
    · cases s.bin l2 <;> rfl
  · intro l h1 h2
    unfold direct_binary_clause
    simp only [upd_apply, if_neg h1, if_neg h2]
  · intro h
    unfold direct_binary_clause
    simp only [if_pos h]
  · intro h
    unfold direct_binary_clause
    simp only [h, Nat.lt_irrefl, if_false, gt_iff_lt]

/-- The index stays symmetric when `direct_binary_clause` adds a clause. -/
theorem binSym_direct_binary_clause {s : smt_core_t} (h : BinSym s) (l1 l2 : Int) :
    BinSym (direct_binary_clause s l1 l2) := by
  have key : ∀ l m : Int, occ (((direct_binary_clause s l1 l2).bin l).getD []) m
      = occ ((s.bin l).getD []) m + (if l = l1 ∧ l2 = m then 1 else 0)
        + (if l = l2 ∧ l1 = m then 1 else 0) := by
    intro l m
    unfold direct_binary_clause
    simp only [upd_apply]
    by_cases e2 : l = l2
    · rw [if_pos e2, occ_getD_add]
      by_cases e1 : l2 = l1
      · rw [if_pos e1, occ_getD_add]
        subst e2; subst e1
        simp
      · rw [if_neg e1]
        have : ¬ (l = l1 ∧ l2 = m) := fun hh => e1 (e2 ▸ hh.1)
        rw [if_neg this]
        subst e2
        simp
    · rw [if_neg e2]
      by_cases e1 : l = l1
      · rw [if_pos e1, occ_getD_add]
        subst e1
        simp [e2]
      · rw [if_neg e1]
        simp [e1, e2]
  intro l m
  rw [key l m, key m l, h l m]
  have c1 : (if l = l1 ∧ l2 = m then 1 else 0) = (if m = l2 ∧ l1 = l then 1 else 0) :=
    if_congr ⟨fun e => ⟨e.2.symm, e.1.symm⟩, fun e => ⟨e.2.symm, e.1.symm⟩⟩ rfl rfl
  have c2 : (if l = l2 ∧ l1 = m then 1 else 0) = (if m = l1 ∧ l2 = l then 1 else 0) :=
    if_congr ⟨fun e => ⟨e.2.symm, e.1.symm⟩, fun e => ⟨e.2.symm, e.1.symm⟩⟩ rfl rfl
  rw [c1, c2]
  omega

/-- Claim C12, evaluation at the failing input.  In `sample_bins` the vector
`binary_clauses` records the clauses `{x1, x4}` and `{x1, x2}` added after
`smt_push`.  When `x4` is deleted, `remove_garbage_bin_clauses` removes `x4` from
the binary vectors and moves the pair `(x1, x2)` to the front of
`binary_clauses`, but the vector keeps its size and now holds that pair twice.
`restore_binary_clauses`, called by `smt_pop`, then pops two literals from
`bin[x1]` and from `bin[x2]`: the clauses `{x1, x3}` and `{x2, x3}` added before
the push are removed from these two vectors and stay in `bin[x3]`, so the index
is not symmetric. -/
theorem bin_index_broken_after_garbage_collection :
    sample_bins.base_level = 1 ∧ sample_bins.binary_clauses = [2, 8, 2, 4] ∧
    (List.range 10).map (fun i : Nat => sample_bins.bin i)
      = [none, none, some [6, 8, 4], none, some [6, 2], none, some [2, 4], none, some [2], none] ∧
    (delete_variables sample_bins 4).1 = true ∧
    sample_bins_collected.binary_clauses = [2, 4, 2, 4] ∧
    (List.range 10).map (fun i : Nat => sample_bins_collected.bin i)
      = [none, none, some [6, 4], none, some [6, 2], none, some [2, 4], none, none, none] ∧
    (List.range 10).map (fun i : Nat => (restore_binary_clauses sample_bins_collected 0).bin i)
      = [none, none, some [], none, some [], none, some [2, 4], none, none, none] ∧
    (List.range 10).map (fun i : Nat => (smt_pop sample_bins_collected).bin i)
      = [none, none, some [], none, some [], none, some [2, 4], none, none, none] ∧
    ¬ BinSym (restore_binary_clauses sample_bins_collected 0) ∧
    ¬ BinSym (smt_pop sample_bins_collected) := by
  refine ⟨by decide, by decide, by decide, by decide, by decide, by decide, by decide,
    by decide, ?_, ?_⟩
  · intro h
    have := h 6 2
    revert this
    decide
  · intro h
    have := h 6 2
    revert this
    decide

/-! ## Clauses added during the search -/

theorem prefer_asymm {v1 v2 : bval_t} {k1 k2 : Nat} (h : prefer v1 k1 v2 k2 = true) :
    prefer v2 k2 v1 k1 = false := by
  cases v1 <;> cases v2 <;> simp [prefer, bval_t.code] at h ⊢ <;> omega

theorem prefer_trans {v1 v2 v3 : bval_t} {k1 k2 k3 : Nat} (h1 : prefer v1 k1 v2 k2 = true)
    (h2 : prefer v2 k2 v3 k3 = true) : prefer v1 k1 v3 k3 = true := by
  cases v1 <;> cases v2 <;> cases v3 <;> simp [prefer, bval_t.code] at h1 h2 ⊢ <;> omega

theorem getD_set_int (l : List Int) (i j : Nat) (a : Int) :
    (l.set i a).getD j 0 = if i = j ∧ i < l.length then a else l.getD j 0 := by
  rw [List.getD_eq_getElem?_getD, List.getD_eq_getElem?_getD, List.getElem?_set]
  by_cases h : i = j
  · subst h
    by_cases h2 : i < l.length
    · simp [h2]
    · simp [h2, List.getElem?_eq_none (Nat.le_of_not_lt h2)]
  · simp [h]

theorem getD_set_ne (l : List Int) (i j : Nat) (a : Int) (h : i ≠ j) :
    (l.set i a).getD j 0 = l.getD j 0 := by
  rw [getD_set_int, if_neg (fun e => h e.1)]

theorem getD_set_eq (l : List Int) (i : Nat) (a : Int) (h : i < l.length) :
    (l.set i a).getD i 0 = a := by
  rw [getD_set_int, if_pos ⟨rfl, h⟩]

theorem occ_set_int (l : List Int) (i : Nat) (a b : Int) (h : i < l.length) :
    occ (l.set i a) b + (if l.getD i 0 = b then 1 else 0)
      = occ l b + (if a = b then 1 else 0) := by
  induction l generalizing i with
  | nil => simp at h
  | cons x t ih =>
    cases i with
    | zero =>
      simp only [List.set_cons_zero, occ_cons, List.getD_cons_zero]
      omega
    | succ i =>
      simp only [List.set_cons_succ, occ_cons, List.getD_cons_succ]
      have := ih i (by simpa using h)
      omega

theorem count_eq_occ (l : List Int) (x : Int) : l.count x = occ l x := by
  induction l with
  | nil => rfl
  | cons a t ih =>
    rw [List.count_cons, occ_cons, ih]
    by_cases h : a = x
    · simp [h]; omega
    · simp [h]

theorem perm_of_occ {l1 l2 : List Int} (h : ∀ x, occ l1 x = occ l2 x) : l1.Perm l2 := by
  rw [List.perm_iff_count]
  intro x
  rw [count_eq_occ, count_eq_occ, h]

theorem selInv_init (s : smt_core_t) {a : List Int} (h : 2 ≤ a.length) :
    SelInv s a (find_watched_init s a) 2 := by
  unfold find_watched_init
  simp only []
  by_cases hp : prefer (s.value (a.getD 1 0)) (s.level (var_of (a.getD 1 0)))
      (s.value (a.getD 0 0)) (s.level (var_of (a.getD 0 0))) = true
  · rw [if_pos hp]
    have g0 : ((a.set 1 (a.getD 0 0)).set 0 (a.getD 1 0)).getD 0 0 = a.getD 1 0 := by
      rw [getD_set_eq _ 0 _ (by rw [List.length_set]; omega)]
    have g1 : ((a.set 1 (a.getD 0 0)).set 0 (a.getD 1 0)).getD 1 0 = a.getD 0 0 := by
      rw [getD_set_ne _ 0 1 _ (by decide), getD_set_eq _ 1 _ (by omega)]
    refine ⟨by simp, ?_, ?_, ?_, ?_, ?_, ?_, fun j h2 hj => by omega⟩
    · intro x
      have e1 := occ_set_int a 1 (a.getD 0 0) x (by omega)
      have e2 := occ_set_int (a.set 1 (a.getD 0 0)) 0 (a.getD 1 0) x
        (by rw [List.length_set]; omega)
      rw [getD_set_ne _ 1 0 _ (by decide)] at e2
      show occ ((a.set 1 (a.getD 0 0)).set 0 (a.getD 1 0)) x = occ a x
      omega
    · show s.value (a.getD 1 0) = _; rw [g0]
    · show s.level (var_of (a.getD 1 0)) = _; rw [g0]
    · show s.value (a.getD 0 0) = _; rw [g1]
    · show s.level (var_of (a.getD 0 0)) = _; rw [g1]
    · show prefer_lit s _ _ = false
      rw [g0, g1]
      exact prefer_asymm hp
  · rw [if_neg hp]
    refine ⟨rfl, fun _ => rfl, rfl, rfl, rfl, rfl, ?_, fun j h2 hj => by omega⟩
    simpa using hp

theorem selInv_step {s : smt_core_t} {a0 : List Int} {w : watch_sel} {i : Nat}
    (h : SelInv s a0 w i) (h2 : 2 ≤ i) (hi : i < a0.length) :
    SelInv s a0 (find_watched_step s w i) (i + 1) := by
  have hlen := h.len
  unfold find_watched_step
  simp only []
  generalize hx0 : w.a.getD 0 0 = x0
  generalize hx1 : w.a.getD 1 0 = x1
  generalize hl : w.a.getD i 0 = l
  have hf := h.first
  rw [hx0, hx1] at hf
  have hv0 := h.v0; have hk0 := h.k0; have hv1 := h.v1; have hk1 := h.k1
  rw [hx0] at hv0 hk0
  rw [hx1] at hv1 hk1
  rw [hv0, hk0, hv1, hk1]
  have hrest : ∀ j, 2 ≤ j → j < i →
      prefer_lit s (w.a.getD j 0) x0 = false ∧ prefer_lit s (w.a.getD j 0) x1 = false := by
    intro j a b
    have := h.rest j a b
    rw [hx0, hx1] at this
    exact this
  by_cases hp0 : prefer (s.value l) (s.level (var_of l)) (s.value x0) (s.level (var_of x0)) = true
  · rw [if_pos hp0]
    have g : ∀ j, (((w.a.set i x1).set 1 x0).set 0 l).getD j 0
        = if j = 0 then l else if j = 1 then x0 else if j = i then x1 else w.a.getD j 0 := by
      intro j
      rw [getD_set_int, getD_set_int, getD_set_int]
      simp only [List.length_set]
      by_cases j0 : j = 0
      · subst j0; rw [if_pos ⟨rfl, by omega⟩, if_pos rfl]
      · rw [if_neg (fun e => j0 e.1.symm), if_neg j0]
        by_cases j1 : j = 1
        · subst j1; rw [if_pos ⟨rfl, by omega⟩, if_pos rfl]
        · rw [if_neg (fun e => j1 e.1.symm), if_neg j1]
          by_cases ji : j = i
          · subst ji; rw [if_pos ⟨rfl, by omega⟩, if_pos rfl]
          · rw [if_neg (fun e => ji e.1.symm), if_neg ji]
    refine ⟨by simp [hlen], ?_, ?_, ?_, ?_, ?_, ?_, ?_⟩
    · intro x
      have e1 := occ_set_int w.a i x1 x (by omega)
      have e2 := occ_set_int (w.a.set i x1) 1 x0 x (by rw [List.length_set]; omega)
      have e3 := occ_set_int ((w.a.set i x1).set 1 x0) 0 l x
        (by rw [List.length_set, List.length_set]; omega)
      rw [getD_set_ne _ i 1 _ (by omega), hx1] at e2
      rw [getD_set_ne _ 1 0 _ (by decide), getD_set_ne _ i 0 _ (by omega), hx0] at e3
      rw [hl] at e1
      have := h.occ x
      show occ (((w.a.set i x1).set 1 x0).set 0 l) x = occ a0 x
      omega
    · show s.value l = _; rw [g 0, if_pos rfl]
    · show s.level (var_of l) = _; rw [g 0, if_pos rfl]
    · show s.value x0 = _; rw [g 1, if_neg (by omega), if_pos rfl]
    · show s.level (var_of x0) = _; rw [g 1, if_neg (by omega), if_pos rfl]
    · show prefer_lit s _ _ = false
      rw [g 0, g 1, if_pos rfl, if_neg (by omega), if_pos rfl]
      exact prefer_asymm hp0
    · intro j a b
      show prefer_lit s _ _ = false ∧ prefer_lit s _ _ = false
      rw [g 0, g 1, g j, if_pos rfl, if_neg (by omega : (1:Nat) ≠ 0), if_pos rfl,
        if_neg (by omega : j ≠ 0), if_neg (by omega : j ≠ 1)]
      by_cases ji : j = i
      · rw [if_pos ji]
        refine ⟨?_, hf⟩
        cases hc : prefer_lit s x1 l with
        | false => rfl
        | true =>
          have := prefer_trans hc hp0
          unfold prefer_lit at hf
          rw [hf] at this; cases this
      · rw [if_neg ji]
        obtain ⟨r1, r2⟩ := hrest j a (by omega)
        refine ⟨?_, r1⟩
        cases hc : prefer_lit s (w.a.getD j 0) l with
        | false => rfl
        | true =>
          have := prefer_trans hc hp0
          unfold prefer_lit at r1
          rw [r1] at this; cases this
  · rw [if_neg hp0]
    have hp0' : prefer_lit s l x0 = false := by simpa [prefer_lit] using hp0
    by_cases hp1 : prefer (s.value l) (s.level (var_of l)) (s.value x1) (s.level (var_of x1)) = true
    · rw [if_pos hp1]
      have g : ∀ j, ((w.a.set i x1).set 1 l).getD j 0
          = if j = 1 then l else if j = i then x1 else w.a.getD j 0 := by
        intro j
        rw [getD_set_int, getD_set_int]
        simp only [List.length_set]
        by_cases j1 : j = 1
        · subst j1; rw [if_pos ⟨rfl, by omega⟩, if_pos rfl]
        · rw [if_neg (fun e => j1 e.1.symm), if_neg j1]
          by_cases ji : j = i
          · subst ji; rw [if_pos ⟨rfl, by omega⟩, if_pos rfl]
          · rw [if_neg (fun e => ji e.1.symm), if_neg ji]
      refine ⟨by simp [hlen], ?_, ?_, ?_, ?_, ?_, ?_, ?_⟩
      · intro x
        have e1 := occ_set_int w.a i x1 x (by omega)
        have e2 := occ_set_int (w.a.set i x1) 1 l x (by rw [List.length_set]; omega)
        rw [getD_set_ne _ i 1 _ (by omega), hx1] at e2
        rw [hl] at e1
        have := h.occ x
        show occ ((w.a.set i x1).set 1 l) x = occ a0 x
        omega
      · show s.value x0 = _; rw [g 0, if_neg (by omega), if_neg (by omega), hx0]
      · show s.level (var_of x0) = _; rw [g 0, if_neg (by omega), if_neg (by omega), hx0]
      · show s.value l = _; rw [g 1, if_pos rfl]
      · show s.level (var_of l) = _; rw [g 1, if_pos rfl]
      · show prefer_lit s _ _ = false
        rw [g 0, g 1, if_pos rfl, if_neg (by omega), if_neg (by omega), hx0]
        exact hp0'
      · intro j a b
        show prefer_lit s _ _ = false ∧ prefer_lit s _ _ = false
        rw [g 0, g 1, g j, if_pos rfl, if_neg (by omega : (0:Nat) ≠ 1), if_neg (by omega : 0 ≠ i),
          hx0, if_neg (by omega : j ≠ 1)]
        by_cases ji : j = i
        · rw [if_pos ji]
          exact ⟨hf, prefer_asymm hp1⟩
        · rw [if_neg ji]
          obtain ⟨r1, r2⟩ := hrest j a (by omega)
          refine ⟨r1, ?_⟩
          cases hc : prefer_lit s (w.a.getD j 0) l with
          | false => rfl
          | true =>
            have := prefer_trans hc hp1
            unfold prefer_lit at r2
            rw [r2] at this; cases this
    · rw [if_neg hp1]
      have hp1' : prefer_lit s l x1 = false := by simpa [prefer_lit] using hp1
      refine ⟨hlen, h.occ, ?_, ?_, ?_, ?_, ?_, ?_⟩
      · rw [hx0]; exact hv0
      · rw [hx0]; exact hk0
      · rw [hx1]; exact hv1
      · rw [hx1]; exact hk1
      · rw [hx0, hx1]; exact hf
      · intro j a b
        rw [hx0, hx1]
        by_cases ji : j = i
        · rw [ji, hl]; exact ⟨hp0', hp1'⟩
        · exact hrest j a (by omega)

theorem selInv_loop {s : smt_core_t} {a0 : List Int} :
    ∀ (m i : Nat) (w : watch_sel), SelInv s a0 w i → 2 ≤ i → i + m = a0.length →
      SelInv s a0 (find_watched_loop s m i w) a0.length := by
  intro m
  induction m with
  | zero =>
    intro i w h _ e
    rw [Nat.add_zero] at e
    rw [← e]
    exact h
  | succ m ih =>
    intro i w h h2 e
    exact ih (i + 1) _ (selInv_step h h2 (by omega)) (by omega) (by omega)

theorem new_problem_clause_assignment (s : smt_core_t) (a : List Int) :
    (new_problem_clause s a).value = s.value ∧ (new_problem_clause s a).level = s.level ∧
    (new_problem_clause s a).stack = s.stack ∧ (new_problem_clause s a).nvars = s.nvars ∧
    (new_problem_clause s a).decision_level = s.decision_level ∧
    (new_problem_clause s a).base_level = s.base_level ∧
    (new_problem_clause s a).inconsistent = s.inconsistent ∧
    (new_problem_clause s a).antecedent = s.antecedent := by
  unfold new_problem_clause watch_add alloc_clause
  exact ⟨rfl, rfl, rfl, rfl, rfl, rfl, rfl, rfl⟩

/-- The three outcomes of `add_simplified_clause_tail`, by the values and
levels of the two watched literals. -/
theorem add_simplified_clause_tail_cases (s1 : smt_core_t) (cl : Nat) (w : watch_sel)
    (k0 k1 : Nat) (e0 : k0 = if w.v0 = VAL_UNDEF then UINT32_MAX else w.k0)
    (e1 : k1 = if w.v1 = VAL_UNDEF then UINT32_MAX else w.k1) :
    (w.v0 = VAL_FALSE ∧ k0 < k1 →
      add_simplified_clause_tail s1 cl w = implied_literal
        (if k0 < s1.decision_level then { backtrack_to_level s1 k0 with inconsistent := false }
          else s1) (w.a.getD 1 0) (mk_clause1_antecedent cl)) ∧
    (¬ (w.v0 = VAL_FALSE ∧ k0 < k1) → w.v1 = VAL_FALSE ∧ k1 < k0 →
      add_simplified_clause_tail s1 cl w = implied_literal
        (if k1 < s1.decision_level then { backtrack_to_level s1 k1 with inconsistent := false }
          else s1) (w.a.getD 0 0) (mk_clause0_antecedent cl)) ∧
    (¬ (w.v0 = VAL_FALSE ∧ k0 < k1) → ¬ (w.v1 = VAL_FALSE ∧ k1 < k0) →
      w.v0 = VAL_FALSE ∧ w.v1 = VAL_FALSE →
      add_simplified_clause_tail s1 cl w = record_clause_conflict (backtrack_to_level s1 k0) cl) ∧
    (¬ (w.v0 = VAL_FALSE ∧ k0 < k1) → ¬ (w.v1 = VAL_FALSE ∧ k1 < k0) →
      ¬ (w.v0 = VAL_FALSE ∧ w.v1 = VAL_FALSE) → add_simplified_clause_tail s1 cl w = s1) := by
  subst e0; subst e1
  unfold add_simplified_clause_tail
  simp only []
  refine ⟨?_, ?_, ?_, ?_⟩
  · intro h; rw [if_pos h]
  · intro h1 h2; rw [if_neg h1, if_pos h2]
  · intro h1 h2 h3; rw [if_neg h1, if_neg h2, if_pos h3]
  · intro h1 h2 h3; rw [if_neg h1, if_neg h2, if_neg h3]

theorem add_simplified_clause_tail_frame (s1 : smt_core_t) (cl : Nat) (w : watch_sel) :
    (add_simplified_clause_tail s1 cl w).clauses = s1.clauses ∧
    (add_simplified_clause_tail s1 cl w).problem_clauses = s1.problem_clauses ∧
    (add_simplified_clause_tail s1 cl w).watch = s1.watch := by
  obtain ⟨c1, c2, c3, c4⟩ := add_simplified_clause_tail_cases s1 cl w _ _ rfl rfl
  have hb : ∀ k, (backtrack_to_level s1 k).clauses = s1.clauses ∧
      (backtrack_to_level s1 k).problem_clauses = s1.problem_clauses ∧
      (backtrack_to_level s1 k).watch = s1.watch := by
    intro k
    obtain ⟨-, -, e3, e4, -, -, -, -, e9, -⟩ := backtrack_to_level_frame s1 k
    exact ⟨e3, e4, e9⟩
  have hs2 : ∀ (k : Nat) (c : Prop) [Decidable c],
      (if c then { backtrack_to_level s1 k with inconsistent := false } else s1).clauses
        = s1.clauses ∧
      (if c then { backtrack_to_level s1 k with inconsistent := false } else s1).problem_clauses
        = s1.problem_clauses ∧
      (if c then { backtrack_to_level s1 k with inconsistent := false } else s1).watch
        = s1.watch := by
    intro k c _
    by_cases h : c
    · rw [if_pos h]; exact hb k
    · rw [if_neg h]; exact ⟨rfl, rfl, rfl⟩
  by_cases h1 : w.v0 = VAL_FALSE ∧ (if w.v0 = VAL_UNDEF then UINT32_MAX else w.k0)
      < (if w.v1 = VAL_UNDEF then UINT32_MAX else w.k1)
  · rw [c1 h1]
    exact hs2 _ _
  · by_cases h2 : w.v1 = VAL_FALSE ∧ (if w.v1 = VAL_UNDEF then UINT32_MAX else w.k1)
        < (if w.v0 = VAL_UNDEF then UINT32_MAX else w.k0)
    · rw [c2 h1 h2]
      exact hs2 _ _
    · by_cases h3 : w.v0 = VAL_FALSE ∧ w.v1 = VAL_FALSE
      · rw [c3 h1 h2 h3]; exact hb _
      · rw [c4 h1 h2 h3]; exact ⟨rfl, rfl, rfl⟩

/-- The clause stored by `add_simplified_clause` above the base level is the
array left by the selection of the watched literals. -/
theorem add_simplified_clause_stored (s : smt_core_t) (a : List Int)
    (hne : s.base_level ≠ s.decision_level) :
    (add_simplified_clause s a).clauses s.nclauses_alloc
      = new_clause (find_watched_loop s (a.length - 2) 2 (find_watched_init s a)).a ∧
    (add_simplified_clause s a).problem_clauses = s.problem_clauses ++ [s.nclauses_alloc] := by
  obtain ⟨f1, f2, -, -, -⟩ := new_problem_clause_frame s
    (find_watched_loop s (a.length - 2) 2 (find_watched_init s a)).a
  unfold add_simplified_clause
  rw [if_neg hne]
  simp only []
  obtain ⟨g1, g2, -⟩ := add_simplified_clause_tail_frame (new_problem_clause s
    (find_watched_loop s (a.length - 2) 2 (find_watched_init s a)).a) s.nclauses_alloc
    (find_watched_loop s (a.length - 2) 2 (find_watched_init s a))
  rw [g1, g2, f1, f2]
  unfold updN; rw [if_pos rfl]
  exact ⟨rfl, rfl⟩

theorem selInv_final (s : smt_core_t) {a : List Int} (h2 : 2 ≤ a.length) :
    SelInv s a (find_watched_loop s (a.length - 2) 2 (find_watched_init s a)) a.length :=
  selInv_loop (a.length - 2) 2 _ (selInv_init s h2) (Nat.le_refl 2) (by omega)

/-- Claim C13: for a clause `a` of `n ≥ 3` literals added by
`add_simplified_clause` while `decision_level > base_level`, the clause stored
(with the new handle, in `problem_clauses`) is a permutation of `a`, and its
watched literals are minimal for the preference order of `prefer` evaluated in
the assignment at the call: `c[1]` is not preferred to `c[0]`, and no `c[i]`,
`i ≥ 2`, is preferred to `c[0]` or to `c[1]`. -/
theorem add_simplified_clause_watches (s : smt_core_t) (a : List Int) (h3 : 3 ≤ a.length)
    (hd : s.base_level < s.decision_level) :
    s.nclauses_alloc ∈ (add_simplified_clause s a).problem_clauses ∧
    ((add_simplified_clause s a).clauses s.nclauses_alloc).cl.Perm a ∧
    prefer_lit s (((add_simplified_clause s a).clauses s.nclauses_alloc).get 1)
      (((add_simplified_clause s a).clauses s.nclauses_alloc).get 0) = false ∧
    ∀ i, 2 ≤ i → i < a.length →
      prefer_lit s (((add_simplified_clause s a).clauses s.nclauses_alloc).get i)
        (((add_simplified_clause s a).clauses s.nclauses_alloc).get 0) = false ∧
      prefer_lit s (((add_simplified_clause s a).clauses s.nclauses_alloc).get i)
        (((add_simplified_clause s a).clauses s.nclauses_alloc).get 1) = false := by
  obtain ⟨e1, e2⟩ := add_simplified_clause_stored s a (by omega)
  have hS := selInv_final s (by omega : 2 ≤ a.length)
  rw [e1, e2]
  generalize find_watched_loop s (a.length - 2) 2 (find_watched_init s a) = w at hS
  have hlen := hS.len
  refine ⟨by simp, perm_of_occ hS.occ, ?_, ?_⟩
  · rw [new_clause_get (by omega), new_clause_get (by omega)]
    exact hS.first
  · intro i hi hn
    rw [new_clause_get (by omega), new_clause_get (by omega), new_clause_get (by omega)]
    exact hS.rest i hi hn

theorem add_simplified_clause_watches_witness :
    ((add_simplified_clause sample_three [3, 5, 7]).clauses 0).cl = [7, 5, 3] ∧
    ((add_simplified_clause sample_three [3, 5, 7]).clauses 0).cl.Perm [3, 5, 7] ∧
    prefer_lit sample_three 5 7 = false ∧ prefer_lit sample_three 7 5 = true :=
  ⟨by decide,
    (add_simplified_clause_watches sample_three [3, 5, 7] (by decide) (by decide)).2.1,
    by decide, by decide⟩

theorem mem_of_occ_eq {l1 l2 : List Int} (h : ∀ x, occ l1 x = occ l2 x) {x : Int} :
    x ∈ l1 ↔ x ∈ l2 := by
  constructor
  · intro hx; have := occ_pos hx; rw [h] at this; exact mem_of_occ_pos this
  · intro hx; have := occ_pos hx; rw [← h] at this; exact mem_of_occ_pos this

theorem upd_self {α : Type} (a : Int → α) (i : Int) (v : α) : upd a i v i = v := by
  unfold upd; rw [if_pos rfl]

theorem occ_two_of_heads {l : List Int} {u : Int} (h0 : l.getD 0 0 = u) (h1 : l.getD 1 0 = u)
    (h2 : 2 ≤ l.length) : 2 ≤ occ l u := by
  match l, h2 with
  | x :: y :: t, _ =>
    simp only [List.getD_cons_zero, List.getD_cons_succ] at h0 h1
    rw [occ_cons, occ_cons, if_pos h0, if_pos h1]
    omega

/-- The branch of `add_simplified_clause` in which `a[0]` is implied: the core
backtracks to the level `k1` of `a[1]` and assigns `a[0]` with the new clause as
antecedent. -/
theorem add_simplified_clause_implies_first {s : smt_core_t} (hL : LevelInv s) {a : List Int}
    (hd : s.base_level < s.decision_level) (w : watch_sel)
    (hw : w = find_watched_loop s (a.length - 2) 2 (find_watched_init s a))
    (hk : s.level (var_of (w.a.getD 1 0)) ≤ s.decision_level)
    (h1 : ¬ (w.v0 = VAL_FALSE ∧ (if w.v0 = VAL_UNDEF then UINT32_MAX else w.k0)
      < (if w.v1 = VAL_UNDEF then UINT32_MAX else w.k1)))
    (h2 : w.v1 = VAL_FALSE ∧ (if w.v1 = VAL_UNDEF then UINT32_MAX else w.k1)
      < (if w.v0 = VAL_UNDEF then UINT32_MAX else w.k0))
    (hk1 : w.k1 = s.level (var_of (w.a.getD 1 0))) :
    (add_simplified_clause s a).decision_level = s.level (var_of (w.a.getD 1 0)) ∧
    (add_simplified_clause s a).value (w.a.getD 0 0) = VAL_TRUE ∧
    (add_simplified_clause s a).level (var_of (w.a.getD 0 0))
      = s.level (var_of (w.a.getD 1 0)) ∧
    (add_simplified_clause s a).antecedent (var_of (w.a.getD 0 0))
      = mk_clause0_antecedent s.nclauses_alloc ∧
    (s.level (var_of (w.a.getD 1 0)) < s.decision_level →
      (add_simplified_clause s a).inconsistent = false) ∧
    (s.level (var_of (w.a.getD 1 0)) = s.decision_level →
      (add_simplified_clause s a).inconsistent = s.inconsistent) ∧
    (∀ l, l ≠ w.a.getD 0 0 → l ≠ not_lit (w.a.getD 0 0) →
      s.level (var_of l) ≤ s.level (var_of (w.a.getD 1 0)) →
      (add_simplified_clause s a).value l = s.value l) := by
  obtain ⟨f1, f2, f3, f4, f5, f6, f7, f8⟩ := new_problem_clause_assignment s w.a
  have hL1 : LevelInv (new_problem_clause s w.a) :=
    levelInv_of_frame hL (by rw [f3]) (by rw [f3]) f2 f5 f6
  have e : add_simplified_clause s a
      = add_simplified_clause_tail (new_problem_clause s w.a) s.nclauses_alloc w := by
    unfold add_simplified_clause
    rw [if_neg (by omega), hw]
  have hke : (if w.v1 = VAL_UNDEF then UINT32_MAX else w.k1)
      = s.level (var_of (w.a.getD 1 0)) := by
    rw [if_neg (by rw [h2.1]; decide), hk1]
  rw [e, (add_simplified_clause_tail_cases _ _ w _ _ rfl rfl).2.1 h1 h2, hke, f5]
  generalize s.level (var_of (w.a.getD 1 0)) = K at *
  generalize w.a.getD 0 0 = x0 at *
  generalize new_problem_clause s w.a = s1 at *
  have hs2 : (if K < s.decision_level then
      ({ backtrack_to_level s1 K with inconsistent := false } : smt_core_t) else s1).decision_level
      = K := by
    by_cases h : K < s.decision_level
    · rw [if_pos h]; exact backtrack_to_level_dl (by rw [f5]; omega)
    · rw [if_neg h, f5]; omega
  refine ⟨hs2, ?_, ?_, ?_, ?_, ?_, ?_⟩
  · show upd (upd _ x0 VAL_TRUE) (not_lit x0) VAL_FALSE x0 = VAL_TRUE
    rw [upd_ne _ _ (not_lit_ne x0).symm, upd_self]
  · show upd _ (var_of x0) _ (var_of x0) = K
    rw [upd_self, hs2]
  · show upd _ (var_of x0) _ (var_of x0) = _
    rw [upd_self]
  · intro h
    rw [if_pos h]; rfl
  · intro h
    rw [if_neg (by omega)]; exact f7
  · intro l n1 n2 hl
    show upd (upd _ x0 VAL_TRUE) (not_lit x0) VAL_FALSE l = _
    rw [upd_ne _ _ n2, upd_ne _ _ n1]
    by_cases h : K < s.decision_level
    · rw [if_pos h]
      show (backtrack_to_level s1 K).value l = _
      rw [backtrack_to_level_value hL1 (by rw [f2]; exact hl), f1]
    · rw [if_neg h, f1]

theorem prefer_undef_false (k1 k2 : Nat) : prefer VAL_UNDEF k1 VAL_FALSE k2 = true := by
  simp [prefer, bval_t.code]

theorem prefer_false_false (k1 k2 : Nat) : prefer VAL_FALSE k1 VAL_FALSE k2 = decide (k1 > k2) := by
  simp [prefer]

/-- Position of the watched literals when exactly one literal `u` of the clause
is Undef and the others are False: `u` is first, and the second literal has the
highest level among the others. -/
theorem selInv_unit {s : smt_core_t} {a : List Int} {w : watch_sel}
    (hS : SelInv s a w a.length) (h2 : 2 ≤ a.length) {u : Int} (hu : u ∈ a)
    (hund : s.value u = VAL_UNDEF) (hone : occ a u = 1)
    (hf : ∀ l ∈ a, l ≠ u → s.value l = VAL_FALSE) :
    w.a.getD 0 0 = u ∧ w.a.getD 1 0 ∈ a ∧ w.a.getD 1 0 ≠ u ∧
    ∀ l ∈ a, l ≠ u → s.level (var_of l) ≤ s.level (var_of (w.a.getD 1 0)) := by
  have hlen := hS.len
  have hmem : ∀ j, j < a.length → w.a.getD j 0 ∈ a := fun j hj =>
    (mem_of_occ_eq hS.occ).1 (getD_mem_of_lt (by omega))
  have hnot : ∀ j, 1 ≤ j → j < a.length →
      prefer_lit s (w.a.getD j 0) (w.a.getD 0 0) = false := by
    intro j h1 hj
    rcases Nat.lt_or_ge j 2 with h | h
    · have e : j = 1 := by omega
      rw [e]; exact hS.first
    · exact (hS.rest j h hj).1
  have h0 : w.a.getD 0 0 = u := by
    by_contra hne
    have hv0 := hf _ (hmem 0 (by omega)) hne
    obtain ⟨j, hj, ej⟩ := mem_iff_getD.1 ((mem_of_occ_eq hS.occ).2 hu)
    have hj1 : 1 ≤ j := by
      rcases Nat.eq_zero_or_pos j with e | e
      · rw [e] at ej; exact absurd ej hne
      · exact e
    have := hnot j hj1 (by omega)
    rw [ej] at this
    unfold prefer_lit at this
    rw [hund, hv0, prefer_undef_false] at this
    cases this
  have h1 : w.a.getD 1 0 ≠ u := by
    intro e
    have := occ_two_of_heads h0 e (by omega)
    rw [hS.occ, hone] at this
    omega
  refine ⟨h0, hmem 1 (by omega), h1, ?_⟩
  intro l hl hne
  obtain ⟨j, hj, ej⟩ := mem_iff_getD.1 ((mem_of_occ_eq hS.occ).2 hl)
  have hj1 : 1 ≤ j := by
    rcases Nat.eq_zero_or_pos j with e | e
    · rw [e, h0] at ej; exact absurd ej.symm hne
    · exact e
  rcases Nat.lt_or_ge j 2 with h | h
  · have e : j = 1 := by omega
    rw [e] at ej; rw [ej]
  · have := (hS.rest j h (by omega)).2
    rw [ej] at this
    unfold prefer_lit at this
    rw [hf l hl hne, hf _ (hmem 1 (by omega)) h1, prefer_false_false] at this
    simpa using this

/-- Claim C15: a clause of `n ≥ 3` literals is added by `add_simplified_clause`
while `decision_level > base_level`, exactly one literal `u` is Undef and the
others are False.  With `k` the maximum level of the False literals, on return
the decision level is `k` (the core has backtracked if `k` was below the
decision level), `u` is in slot 0 of the new clause and the clause is linked on
`watch[u]`, `u` is True at level `k` with the new clause, tagged 0, as
antecedent, the other literals are still False, and `inconsistent` is cleared if
the core has backtracked. -/
theorem add_simplified_clause_unit {s : smt_core_t} (hA : AssignInv s) (hL : LevelInv s)
    {a : List Int} {u : Int} (h3 : 3 ≤ a.length) (hd : s.base_level < s.decision_level)
    (hmax : s.decision_level < UINT32_MAX) (hv : ∀ l ∈ a, valid_lit s l) (hu : u ∈ a)
    (hund : s.value u = VAL_UNDEF) (hone : occ a u = 1)
    (hf : ∀ l ∈ a, l ≠ u → s.value l = VAL_FALSE) :
    ∃ k, (∀ l ∈ a, l ≠ u → s.level (var_of l) ≤ k) ∧
      (∃ l ∈ a, l ≠ u ∧ s.level (var_of l) = k) ∧ k ≤ s.decision_level ∧
      (add_simplified_clause s a).decision_level = k ∧
      ((add_simplified_clause s a).clauses s.nclauses_alloc).get 0 = u ∧
      (s.nclauses_alloc, 0) ∈ (add_simplified_clause s a).watch u ∧
      (add_simplified_clause s a).value u = VAL_TRUE ∧
      (add_simplified_clause s a).level (var_of u) = k ∧
      (add_simplified_clause s a).antecedent (var_of u) = mk_clause0_antecedent s.nclauses_alloc ∧
      (∀ l ∈ a, l ≠ u → (add_simplified_clause s a).value l = VAL_FALSE) ∧
      (k < s.decision_level → (add_simplified_clause s a).inconsistent = false) ∧
      (k = s.decision_level → (add_simplified_clause s a).inconsistent = s.inconsistent) := by
  have hS := selInv_final s (by omega : 2 ≤ a.length)
  obtain ⟨e1, -⟩ := add_simplified_clause_stored s a (by omega)
  have hwatch : (add_simplified_clause s a).watch = (new_problem_clause s
      (find_watched_loop s (a.length - 2) 2 (find_watched_init s a)).a).watch := by
    unfold add_simplified_clause
    rw [if_neg (by omega)]
    exact (add_simplified_clause_tail_frame _ _ _).2.2
  generalize hw : find_watched_loop s (a.length - 2) 2 (find_watched_init s a) = w at hS e1 hwatch
  obtain ⟨g0, g1, g2, g3⟩ := selInv_unit hS (by omega) hu hund hone hf
  have hv1 : s.value (w.a.getD 1 0) = VAL_FALSE := hf _ g1 g2
  have hk : s.level (var_of (w.a.getD 1 0)) ≤ s.decision_level :=
    level_le_of_assigned hA hL (hv _ g1) (by rw [hv1]; decide)
  have c0 : w.v0 = VAL_UNDEF := by rw [hS.v0, g0, hund]
  have c1 : w.v1 = VAL_FALSE := by rw [hS.v1, hv1]
  have b1 : ¬ (w.v0 = VAL_FALSE ∧ (if w.v0 = VAL_UNDEF then UINT32_MAX else w.k0)
      < (if w.v1 = VAL_UNDEF then UINT32_MAX else w.k1)) := by
    rw [c0]; intro h; cases h.1
  have b2 : w.v1 = VAL_FALSE ∧ (if w.v1 = VAL_UNDEF then UINT32_MAX else w.k1)
      < (if w.v0 = VAL_UNDEF then UINT32_MAX else w.k0) := by
    refine ⟨c1, ?_⟩
    rw [if_pos c0, if_neg (by rw [c1]; decide), hS.k1]
    omega
  obtain ⟨r1, r2, r3, r4, r5, r6, r7⟩ :=
    add_simplified_clause_implies_first hL hd w hw.symm hk b1 b2 hS.k1
  rw [g0] at r2 r3 r4 r7
  refine ⟨s.level (var_of (w.a.getD 1 0)), g3, ⟨_, g1, g2, rfl⟩, hk, r1, ?_, ?_, r2, r3, r4,
    ?_, r5, r6⟩
  · rw [e1, new_clause_get (by rw [hS.len]; omega)]; exact g0
  · rw [hwatch]
    apply mem_of_occ_pos
    rw [occ_new_problem_clause, if_pos ⟨g0.symm, rfl⟩]
    omega
  · intro l hl hne
    rw [r7 l hne ?_ (g3 l hl hne)]
    · exact hf l hl hne
    · intro e
      have hvu := hv u hu
      have := (valSym_undef_iff hA.sym (valid_nonneg hvu) hvu.2).2 hund
      rw [← e, hf l hl hne] at this
      cases this

/-- Position of the watched literals when every literal of the clause is False:
the first two have the two highest levels. -/
theorem selInv_false {s : smt_core_t} {a : List Int} {w : watch_sel}
    (hS : SelInv s a w a.length) (h2 : 2 ≤ a.length)
    (hf : ∀ l ∈ a, s.value l = VAL_FALSE) :
    w.a.getD 0 0 ∈ a ∧ w.a.getD 1 0 ∈ a ∧
    s.level (var_of (w.a.getD 1 0)) ≤ s.level (var_of (w.a.getD 0 0)) ∧
    (∀ l ∈ a, s.level (var_of l) ≤ s.level (var_of (w.a.getD 0 0))) ∧
    ∀ j, 1 ≤ j → j < a.length →
      s.level (var_of (w.a.getD j 0)) ≤ s.level (var_of (w.a.getD 1 0)) := by
  have hlen := hS.len
  have hmem : ∀ j, j < a.length → w.a.getD j 0 ∈ a := fun j hj =>
    (mem_of_occ_eq hS.occ).1 (getD_mem_of_lt (by omega))
  have hval : ∀ j, j < a.length → s.value (w.a.getD j 0) = VAL_FALSE :=
    fun j hj => hf _ (hmem j hj)
  have h10 : s.level (var_of (w.a.getD 1 0)) ≤ s.level (var_of (w.a.getD 0 0)) := by
    have := hS.first
    unfold prefer_lit at this
    rw [hval 1 (by omega), hval 0 (by omega), prefer_false_false] at this
    simpa using this
  have hj : ∀ j, 1 ≤ j → j < a.length →
      s.level (var_of (w.a.getD j 0)) ≤ s.level (var_of (w.a.getD 1 0)) := by
    intro j h1 hj
    rcases Nat.lt_or_ge j 2 with h | h
    · have e : j = 1 := by omega
      rw [e]
    · have := (hS.rest j h hj).2
      unfold prefer_lit at this
      rw [hval j hj, hval 1 (by omega), prefer_false_false] at this
      simpa using this
  refine ⟨hmem 0 (by omega), hmem 1 (by omega), h10, ?_, hj⟩
  intro l hl
  obtain ⟨j, hj2, ej⟩ := mem_iff_getD.1 ((mem_of_occ_eq hS.occ).2 hl)
  rcases Nat.eq_zero_or_pos j with e | e
  · rw [e] at ej; rw [ej]
  · have := hj j e (by omega)
    rw [ej] at this
    omega

/-- Claim C14 (amended): a clause of `n ≥ 3` literals, all False, is added by
`add_simplified_clause` while `decision_level > base_level`.  Let `k0 ≥ k1` be
the levels of the two watched literals `c[0]`, `c[1]` of the stored clause, the
two highest levels of the clause.  If `k0 = k1`, the core backtracks to `k0`
and the new clause is recorded as the conflict: `inconsistent` is true, and the
literals are still False.  If `k1 < k0`, the core backtracks to `k1`, clears
`inconsistent`, and `c[0]` is assigned True at level `k1` with the new clause as
antecedent, the other literals staying False. -/
theorem add_simplified_clause_false {s : smt_core_t} (hA : AssignInv s) (hL : LevelInv s)
    {a : List Int} (h3 : 3 ≤ a.length) (hd : s.base_level < s.decision_level)
    (hv : ∀ l ∈ a, valid_lit s l) (hf : ∀ l ∈ a, s.value l = VAL_FALSE) :
    ∃ c0 c1 : Int,
      ((add_simplified_clause s a).clauses s.nclauses_alloc).get 0 = c0 ∧
      ((add_simplified_clause s a).clauses s.nclauses_alloc).get 1 = c1 ∧
      c0 ∈ a ∧ c1 ∈ a ∧
      s.level (var_of c1) ≤ s.level (var_of c0) ∧ s.level (var_of c0) ≤ s.decision_level ∧
      (∀ l ∈ a, s.level (var_of l) ≤ s.level (var_of c0)) ∧
      (∀ j, 1 ≤ j → j < a.length →
        s.level (var_of (((add_simplified_clause s a).clauses s.nclauses_alloc).get j))
          ≤ s.level (var_of c1)) ∧
      (s.level (var_of c0) = s.level (var_of c1) →
        (add_simplified_clause s a).inconsistent = true ∧
        (add_simplified_clause s a).false_clause = some s.nclauses_alloc ∧
        (add_simplified_clause s a).conflict
          = ((add_simplified_clause s a).clauses s.nclauses_alloc).array ∧
        (add_simplified_clause s a).decision_level = s.level (var_of c0) ∧
        ∀ l ∈ a, (add_simplified_clause s a).value l = VAL_FALSE) ∧
      (s.level (var_of c1) < s.level (var_of c0) →
        (add_simplified_clause s a).inconsistent = false ∧
        (add_simplified_clause s a).decision_level = s.level (var_of c1) ∧
        (add_simplified_clause s a).value c0 = VAL_TRUE ∧
        (add_simplified_clause s a).level (var_of c0) = s.level (var_of c1) ∧
        (add_simplified_clause s a).antecedent (var_of c0)
          = mk_clause0_antecedent s.nclauses_alloc ∧
        ∀ l ∈ a, l ≠ c0 → (add_simplified_clause s a).value l = VAL_FALSE) := by
  have hS := selInv_final s (by omega : 2 ≤ a.length)
  obtain ⟨e1, -⟩ := add_simplified_clause_stored s a (by omega)
  have e : add_simplified_clause s a
      = add_simplified_clause_tail (new_problem_clause s
          (find_watched_loop s (a.length - 2) 2 (find_watched_init s a)).a) s.nclauses_alloc
          (find_watched_loop s (a.length - 2) 2 (find_watched_init s a)) := by
    unfold add_simplified_clause
    rw [if_neg (by omega)]
  generalize hw : find_watched_loop s (a.length - 2) 2 (find_watched_init s a) = w at hS e1 e
  obtain ⟨g0, g1, g2, g3, g4⟩ := selInv_false hS (by omega) hf
  have hlen := hS.len
  have hget : ∀ j, j < a.length →
      ((add_simplified_clause s a).clauses s.nclauses_alloc).get j = w.a.getD j 0 := by
    intro j hj
    rw [e1, new_clause_get (by omega)]
  have hk0 : s.level (var_of (w.a.getD 0 0)) ≤ s.decision_level :=
    level_le_of_assigned hA hL (hv _ g0) (by rw [hf _ g0]; decide)
  have c0 : w.v0 = VAL_FALSE := by rw [hS.v0, hf _ g0]
  have c1 : w.v1 = VAL_FALSE := by rw [hS.v1, hf _ g1]
  have k0e : (if w.v0 = VAL_UNDEF then UINT32_MAX else w.k0) = s.level (var_of (w.a.getD 0 0)) := by
    rw [if_neg (by rw [c0]; decide), hS.k0]
  have k1e : (if w.v1 = VAL_UNDEF then UINT32_MAX else w.k1) = s.level (var_of (w.a.getD 1 0)) := by
    rw [if_neg (by rw [c1]; decide), hS.k1]
  have b1 : ¬ (w.v0 = VAL_FALSE ∧ (if w.v0 = VAL_UNDEF then UINT32_MAX else w.k0)
      < (if w.v1 = VAL_UNDEF then UINT32_MAX else w.k1)) := by
    rw [k0e, k1e]; intro h; omega
  refine ⟨w.a.getD 0 0, w.a.getD 1 0, hget 0 (by omega), hget 1 (by omega), g0, g1, g2, hk0, g3,
    ?_, ?_, ?_⟩
  · intro j h1 hj
    rw [hget j hj]; exact g4 j h1 hj
  · intro heq
    have b2 : ¬ (w.v1 = VAL_FALSE ∧ (if w.v1 = VAL_UNDEF then UINT32_MAX else w.k1)
        < (if w.v0 = VAL_UNDEF then UINT32_MAX else w.k0)) := by
      rw [k0e, k1e]; intro h; omega
    have hr := (add_simplified_clause_tail_cases (new_problem_clause s w.a) s.nclauses_alloc w
      _ _ rfl rfl).2.2.1 b1 b2 ⟨c0, c1⟩
    rw [k0e] at hr
    obtain ⟨f1, f2, f3, f4, f5, f6, f7, f8⟩ := new_problem_clause_assignment s w.a
    have hL1 : LevelInv (new_problem_clause s w.a) :=
      levelInv_of_frame hL (by rw [f3]) (by rw [f3]) f2 f5 f6
    have hcl : (add_simplified_clause s a).clauses
        = (backtrack_to_level (new_problem_clause s w.a)
            (s.level (var_of (w.a.getD 0 0)))).clauses := by
      rw [e, hr]; rfl
    refine ⟨by rw [e, hr]; rfl, by rw [e, hr]; rfl, ?_, ?_, ?_⟩
    · rw [hcl, e, hr]; rfl
    · rw [e, hr]
      show (backtrack_to_level _ _).decision_level = _
      exact backtrack_to_level_dl (by rw [f5]; exact hk0)
    · intro l hl
      rw [e, hr]
      show (backtrack_to_level _ _).value l = _
      rw [backtrack_to_level_value hL1 (by rw [f2]; exact g3 l hl), f1]
      exact hf l hl
  · intro hlt
    have b2 : w.v1 = VAL_FALSE ∧ (if w.v1 = VAL_UNDEF then UINT32_MAX else w.k1)
        < (if w.v0 = VAL_UNDEF then UINT32_MAX else w.k0) := by
      rw [k0e, k1e]; exact ⟨c1, hlt⟩
    obtain ⟨r1, r2, r3, r4, r5, r6, r7⟩ :=
      add_simplified_clause_implies_first hL hd w hw.symm (by omega) b1 b2 hS.k1
    refine ⟨r5 (by omega), r1, r2, r3, r4, ?_⟩
    intro l hl hne
    obtain ⟨j, hj2, ej⟩ := mem_iff_getD.1 ((mem_of_occ_eq hS.occ).2 hl)
    have hj1 : 1 ≤ j := by
      rcases Nat.eq_zero_or_pos j with e0 | e0
      · rw [e0] at ej; exact absurd ej.symm hne
      · exact e0
    have hlev := g4 j hj1 (by omega)
    rw [ej] at hlev
    rw [r7 l hne ?_ hlev]
    · exact hf l hl
    · intro e2
      have hv0 := hv _ g0
      have := (valSym_true_iff hA.sym (valid_nonneg hv0) hv0.2).2 (hf _ g0)
      rw [← e2, hf l hl] at this
      cases this

theorem assignInv_sample_levels : AssignInv sample_levels :=
  ⟨by decide, by decide, by decide, by decide, by decide, by decide, by decide⟩

theorem levelInv_sample_levels : LevelInv sample_levels :=
  ⟨by decide, by decide, by decide, by decide, by decide⟩

theorem assignInv_sample_false : AssignInv sample_false :=
  ⟨by decide, by decide, by decide, by decide, by decide, by decide, by decide⟩

theorem levelInv_sample_false : LevelInv sample_false :=
  ⟨by decide, by decide, by decide, by decide, by decide⟩

/-- In `sample_three` the literals 3, 5, 7 are False at the levels 1, 2, 3.
Adding the clause `{3, 5, 7}` backtracks to level 2 and assigns 7: no conflict
is raised. -/
theorem add_simplified_clause_all_false_no_conflict :
    (∀ l ∈ [3, 5, 7], sample_three.value l = VAL_FALSE) ∧
    sample_three.base_level < sample_three.decision_level ∧
    sample_three.inconsistent = false ∧
    (add_simplified_clause sample_three [3, 5, 7]).inconsistent = false ∧
    (add_simplified_clause sample_three [3, 5, 7]).false_clause = none ∧
    (add_simplified_clause sample_three [3, 5, 7]).decision_level = 2 ∧
    (add_simplified_clause sample_three [3, 5, 7]).stack.lit = [2, 4, 7] ∧
    (add_simplified_clause sample_three [3, 5, 7]).value 7 = VAL_TRUE := by
  decide

theorem add_simplified_clause_false_witness :
    (∀ l ∈ [7, 3, 5], sample_false.value l = VAL_FALSE) ∧
    (add_simplified_clause sample_false [7, 3, 5]).inconsistent = true ∧
    (add_simplified_clause sample_false [7, 3, 5]).false_clause = some 0 ∧
    (add_simplified_clause sample_false [7, 3, 5]).decision_level = 2 ∧
    ∃ c0 c1 : Int,
      ((add_simplified_clause sample_false [7, 3, 5]).clauses sample_false.nclauses_alloc).get 0
        = c0 ∧
      ((add_simplified_clause sample_false [7, 3, 5]).clauses sample_false.nclauses_alloc).get 1
        = c1 ∧
      c0 ∈ [7, 3, 5] ∧ c1 ∈ [7, 3, 5] ∧
      sample_false.level (var_of c1) ≤ sample_false.level (var_of c0) :=
  have h := add_simplified_clause_false (s := sample_false) (a := [7, 3, 5])
    assignInv_sample_false levelInv_sample_false (by decide) (by decide) (by decide) (by decide)
  ⟨by decide, by decide, by decide, by decide,
    h.elim fun c0 h0 => h0.elim fun c1 h1 =>
      ⟨c0, c1, h1.1, h1.2.1, h1.2.2.1, h1.2.2.2.1, h1.2.2.2.2.1⟩⟩

theorem add_simplified_clause_unit_witness :
    sample_levels.value 8 = VAL_UNDEF ∧
    (∀ l ∈ [8, 3, 5], l ≠ 8 → sample_levels.value l = VAL_FALSE) ∧
    (add_simplified_clause sample_levels [8, 3, 5]).stack.lit = [2, 4, 8] ∧
    ∃ k, (∀ l ∈ [8, 3, 5], l ≠ 8 → sample_levels.level (var_of l) ≤ k) ∧
      (∃ l ∈ [8, 3, 5], l ≠ 8 ∧ sample_levels.level (var_of l) = k) ∧
      k ≤ sample_levels.decision_level ∧
      (add_simplified_clause sample_levels [8, 3, 5]).decision_level = k ∧
      (add_simplified_clause sample_levels [8, 3, 5]).value 8 = VAL_TRUE :=
  have h := add_simplified_clause_unit (s := sample_levels) (a := [8, 3, 5]) (u := 8)
    assignInv_sample_levels levelInv_sample_levels (by decide) (by decide) (by decide)
    (by decide) (by decide) (by decide) (by decide) (by decide)
  ⟨by decide, by decide, by decide,
    h.elim fun k hk => ⟨k, hk.1, hk.2.1, hk.2.2.1, hk.2.2.2.1, hk.2.2.2.2.2.2.1⟩⟩

/-! ## Simplification of a clause before its addition -/

theorem not_lit_near (l : Int) : not_lit l = l + 1 ∨ not_lit l = l - 1 := by
  unfold not_lit; split <;> simp

theorem remove_duplicates_none (l : Int) (rest out : List Int)
    (hs : (l :: rest).Sorted (fun x y => x ≤ y)) :
    remove_duplicates_loop l rest out = none ↔ ∃ x ∈ l :: rest, not_lit x ∈ l :: rest := by
  induction rest generalizing l out with
  | nil =>
    simp [remove_duplicates_loop, not_lit_ne]
  | cons y r ih =>
    have hly : l ≤ y := List.rel_of_sorted_cons hs y (List.mem_cons_self _ _)
    have hs1 : (y :: r).Sorted (fun x y => x ≤ y) := hs.of_cons
    unfold remove_duplicates_loop
    by_cases e : y = l
    · subst e
      rw [if_neg (by simp), ih y out hs1]
      simp
    · rw [if_pos e]
      by_cases e2 : y = not_lit l
      · rw [if_pos e2]
        simp only [true_iff]
        exact ⟨l, List.mem_cons_self _ _, by rw [← e2]; simp⟩
      · rw [if_neg e2, ih y (out ++ [y]) hs1]
        constructor
        · rintro ⟨x, hx, hnx⟩
          exact ⟨x, List.mem_cons_of_mem _ hx, List.mem_cons_of_mem _ hnx⟩
        · rintro ⟨x, hx, hnx⟩
          have key : ∀ z, z ∈ y :: r → not_lit z ≠ l := by
            intro z hz hz2
            have h1 : y ≤ z := by
              rcases List.mem_cons.1 hz with h | h
              · rw [h]
              · exact List.rel_of_sorted_cons hs1 z h
            have h2 : z = not_lit l := by rw [← hz2, not_lit_not_lit]
            rcases not_lit_near l with h3 | h3 <;> omega
          rcases List.mem_cons.1 hx with h | h
          · rcases List.mem_cons.1 hnx with h' | h'
            · exact absurd (h'.trans h.symm) (not_lit_ne x)
            · exact absurd (by rw [h, not_lit_not_lit]) (key (not_lit x) (by simpa [h] using h'))
          · rcases List.mem_cons.1 hnx with h' | h'
            · exact absurd h' (key x h)
            · exact ⟨x, h, h'⟩

theorem remove_duplicates_some (l : Int) (rest out b : List Int)
    (hs : (l :: rest).Sorted (fun x y => x ≤ y))
    (h : remove_duplicates_loop l rest out = some b) :
    ∃ t, b = out ++ t ∧ (l :: t).Sorted (fun x y => x < y) ∧ ∀ x, x ∈ l :: t ↔ x ∈ l :: rest := by
  induction rest generalizing l out with
  | nil =>
    simp only [remove_duplicates_loop, Option.some.injEq] at h
    exact ⟨[], by simp [h], by simp, fun x => Iff.rfl⟩
  | cons y r ih =>
    have hly : l ≤ y := List.rel_of_sorted_cons hs y (List.mem_cons_self _ _)
    have hs1 : (y :: r).Sorted (fun x y => x ≤ y) := hs.of_cons
    unfold remove_duplicates_loop at h
    by_cases e : y = l
    · subst e
      rw [if_neg (by simp)] at h
      obtain ⟨t, e1, e2, e3⟩ := ih y out hs1 h
      exact ⟨t, e1, e2, fun x => by rw [e3]; simp⟩
    · rw [if_pos e] at h
      by_cases e2 : y = not_lit l
      · rw [if_pos e2] at h; cases h
      · rw [if_neg e2] at h
        obtain ⟨t, e1, e3, e4⟩ := ih y (out ++ [y]) hs1 h
        refine ⟨y :: t, by rw [e1]; simp, ?_, ?_⟩
        · refine List.sorted_cons.2 ⟨?_, e3⟩
          intro z hz
          have hz2 := (e4 z).1 hz
          have h1 : y ≤ z := by
            rcases List.mem_cons.1 hz2 with h | h
            · rw [h]
            · exact List.rel_of_sorted_cons hs1 z h
          omega
        · intro x
          simp only [List.mem_cons] at e4 ⊢
          rw [e4]

theorem remove_false_none (s : smt_core_t) (b out : List Int) :
    remove_false_loop s b out = none ↔ ∃ l ∈ b, literal_base_value s l = VAL_TRUE := by
  induction b generalizing out with
  | nil => simp [remove_false_loop]
  | cons y r ih =>
    unfold remove_false_loop
    cases e : literal_base_value s y
    · simp only [ih]
      simp [e]
    · simp only [ih]
      simp [e]
    · simp only [true_iff]
      exact ⟨y, List.mem_cons_self _ _, e⟩

theorem remove_false_some (s : smt_core_t) (b out c : List Int)
    (h : remove_false_loop s b out = some c) :
    c = out ++ b.filter (fun l => decide (literal_base_value s l = VAL_UNDEF)) := by
  induction b generalizing out with
  | nil =>
    simp only [remove_false_loop, Option.some.injEq] at h
    simp [h]
  | cons y r ih =>
    unfold remove_false_loop at h
    cases e : literal_base_value s y
    · rw [e] at h
      rw [ih out h, List.filter_cons_of_neg (by simp [e])]
    · rw [e] at h
      rw [ih _ h, List.filter_cons_of_pos (by simp [e])]
      simp
    · rw [e] at h; cases h

theorem int_array_sort_sorted (a : List Int) :
    (int_array_sort a).Sorted (fun x y => x ≤ y) :=
  List.sorted_insertionSort _ a

theorem int_array_sort_mem (a : List Int) (x : Int) : x ∈ int_array_sort a ↔ x ∈ a :=
  (List.perm_insertionSort _ a).mem_iff

/-- Claim C16: `preprocess_clause` returns false (`none`) iff the input contains
two complementary literals or a literal that is True at the base level;
otherwise it returns true and the array left in `a[0 .. n-1]` is strictly
increasing (so every literal occurs once) and holds exactly the input literals
that are not False at the base level; the array is empty when all input
literals are False at the base level and for the empty input. -/
theorem preprocess_clause_spec (s : smt_core_t) (a : List Int) :
    (preprocess_clause s a = none ↔
      (∃ l ∈ a, not_lit l ∈ a) ∨ (∃ l ∈ a, literal_base_value s l = VAL_TRUE)) ∧
    (∀ b, preprocess_clause s a = some b →
      b.Sorted (fun x y => x < y) ∧
      (∀ l, l ∈ b ↔ l ∈ a ∧ literal_base_value s l ≠ VAL_FALSE) ∧
      ((∀ l ∈ a, literal_base_value s l = VAL_FALSE) → b = [])) ∧
    (a = [] → preprocess_clause s a = some []) := by
  have hmain : (preprocess_clause s a = none ↔
      (∃ l ∈ a, not_lit l ∈ a) ∨ (∃ l ∈ a, literal_base_value s l = VAL_TRUE)) ∧
    (∀ b, preprocess_clause s a = some b →
      b.Sorted (fun x y => x < y) ∧
      (∀ l, l ∈ b ↔ l ∈ a ∧ literal_base_value s l ≠ VAL_FALSE)) := by
    unfold preprocess_clause
    by_cases h0 : a.length = 0
    · have ea : a = [] := List.length_eq_zero.1 h0
      subst ea
      simp
    · rw [if_neg h0]
      have hsrt := int_array_sort_sorted a
      have hmem := int_array_sort_mem a
      generalize int_array_sort a = sa at hsrt hmem
      cases sa with
      | nil =>
        have : a = [] := List.eq_nil_iff_forall_not_mem.2 fun x hx => by
          have := (hmem x).2 hx
          cases this
        exact absurd (by rw [this]; rfl) h0
      | cons l rest =>
        have hn := remove_duplicates_none l rest [l] hsrt
        cases e : remove_duplicates_loop l rest [l] with
        | none =>
          obtain ⟨x, hx, hnx⟩ := hn.1 e
          dsimp only
          rw [e]
          refine ⟨⟨fun _ => Or.inl ⟨x, (hmem x).1 hx, (hmem _).1 hnx⟩, fun _ => rfl⟩, ?_⟩
          intro b hb
          cases hb
        | some b =>
          obtain ⟨t, e1, e2, e3⟩ := remove_duplicates_some l rest [l] b hsrt e
          have eb : b = l :: t := by rw [e1]; rfl
          have hb : ∀ x, x ∈ b ↔ x ∈ a := fun x => by rw [eb, e3, hmem]
          have hnc : ¬ ∃ x ∈ a, not_lit x ∈ a := by
            rintro ⟨x, hx, hnx⟩
            have : remove_duplicates_loop l rest [l] = none :=
              hn.2 ⟨x, (hmem x).2 hx, (hmem _).2 hnx⟩
            rw [e] at this; cases this
          dsimp only
          rw [e]
          dsimp only
          constructor
          · rw [remove_false_none]
            constructor
            · rintro ⟨x, hx, hv⟩
              exact Or.inr ⟨x, (hb x).1 hx, hv⟩
            · rintro (h | ⟨x, hx, hv⟩)
              · exact absurd h hnc
              · exact ⟨x, (hb x).2 hx, hv⟩
          · intro c hc
            have hnt : ¬ ∃ x ∈ b, literal_base_value s x = VAL_TRUE := by
              intro h
              rw [(remove_false_none s b []).2 h] at hc; cases hc
            have ec := remove_false_some s b [] c hc
            rw [List.nil_append] at ec
            constructor
            · rw [ec, eb]
              exact List.Pairwise.filter _ e2
            · intro x
              rw [ec, List.mem_filter, hb]
              constructor
              · rintro ⟨h1, h2⟩
                refine ⟨h1, ?_⟩
                rw [of_decide_eq_true h2]; decide
              · rintro ⟨h1, h2⟩
                refine ⟨h1, decide_eq_true ?_⟩
                cases e5 : literal_base_value s x
                · exact absurd e5 h2
                · rfl
                · exact absurd ⟨x, (hb x).2 h1, e5⟩ hnt
  refine ⟨hmain.1, ?_, ?_⟩
  · intro b hb
    obtain ⟨h1, h2⟩ := hmain.2 b hb
    refine ⟨h1, h2, ?_⟩
    intro hall
    refine List.eq_nil_iff_forall_not_mem.2 fun x hx => ?_
    have := (h2 x).1 hx
    exact this.2 (hall x this.1)
  · intro e; subst e; rfl

theorem preprocess_clause_spec_witness :
    preprocess_clause sample_minimize [9, 3, 6, 3, 9] = some [6, 9] ∧
    literal_base_value sample_minimize 3 = VAL_FALSE ∧
    literal_base_value sample_minimize 6 = VAL_UNDEF ∧
    [6, 9].Sorted (fun x y : Int => x < y) ∧
    (∀ l, l ∈ [6, 9] ↔
      l ∈ [9, 3, 6, 3, 9] ∧ literal_base_value sample_minimize l ≠ VAL_FALSE) ∧
    preprocess_clause sample_minimize [9, 2, 6] = none ∧
    preprocess_clause sample_minimize [9, 6, 8] = none :=
  have h := (preprocess_clause_spec sample_minimize [9, 3, 6, 3, 9]).2.1 [6, 9] (by decide)
  ⟨by decide, by decide, by decide, h.1, h.2.1, by decide, by decide⟩

/-! ## Addition of clauses: lemma queue or immediate installation -/

theorem mem_add_literal_to_vector_iff (v : Option (List Int)) (l x : Int) :
    x ∈ (add_literal_to_vector v l).getD [] ↔ x ∈ v.getD [] ∨ x = l := by
  cases v <;> simp [add_literal_to_vector]

theorem backtrack_to_level_lemmas (s : smt_core_t) (k : Nat) :
    (backtrack_to_level s k).lemmas = s.lemmas := by
  by_cases hk : k < s.decision_level
  · rw [backtrack_to_level_eq hk, backtrack_eq]
  · rw [backtrack_to_level_ge (by omega)]

theorem add_simplified_unit_clause_effect (s : smt_core_t) (l : Int) :
    (add_simplified_unit_clause s l).lemmas = s.lemmas ∧
    (add_simplified_unit_clause s l).value l = VAL_TRUE ∧
    l ∈ (add_simplified_unit_clause s l).stack.lit := by
  unfold add_simplified_unit_clause
  refine ⟨?_, ?_, ?_⟩
  · show (backtrack_to_base_level _).lemmas = _
    unfold backtrack_to_base_level
    rw [backtrack_to_level_lemmas]
    split <;> rfl
  · show upd (upd _ l VAL_TRUE) (not_lit l) VAL_FALSE l = _
    rw [upd_ne _ _ (not_lit_ne l).symm, upd_self]
  · show l ∈ (push_literal _ l).lit
    unfold push_literal
    simp

theorem new_problem_clause_installed (s : smt_core_t) (b : List Int) :
    (new_problem_clause s b).lemmas = s.lemmas ∧
    (new_problem_clause s b).problem_clauses = s.problem_clauses ++ [s.nclauses_alloc] ∧
    ((new_problem_clause s b).clauses s.nclauses_alloc).cl = b ∧
    (s.nclauses_alloc, 0) ∈ (new_problem_clause s b).watch (b.getD 0 0) ∧
    (s.nclauses_alloc, 1) ∈ (new_problem_clause s b).watch (b.getD 1 0) := by
  refine ⟨?_, (new_problem_clause_frame s b).2.1, ?_, ?_, ?_⟩
  · unfold new_problem_clause watch_add alloc_clause; rfl
  · rw [(new_problem_clause_frame s b).1]
    simp [updN, new_clause]
  · apply mem_of_occ_pos
    rw [occ_new_problem_clause, if_pos ⟨rfl, rfl⟩]
    omega
  · apply mem_of_occ_pos
    rw [occ_new_problem_clause,
      if_pos (⟨rfl, rfl⟩ : b.getD 1 0 = b.getD 1 0 ∧ (s.nclauses_alloc, 1) = (s.nclauses_alloc, 1))]
    omega

theorem clause_installed_unsafe (s : smt_core_t) (a : List Int) :
    clause_installed s a (add_preprocessed_clause s a) := by
  unfold clause_installed add_preprocessed_clause
  cases e : preprocess_clause s a with
  | none =>
    refine ⟨rfl, fun _ => ⟨rfl, rfl, rfl, rfl, rfl, rfl, rfl, rfl, rfl⟩, ?_⟩
    intro b hb; cases hb
  | some b =>
    dsimp only
    refine ⟨?_, (fun h => Option.noConfusion h), ?_⟩
    · split
      · exact (new_problem_clause_installed s b).1
      · split
        · rfl
        · split
          · exact (add_simplified_unit_clause_effect s _).1
          · rfl
    · intro b' hb'
      cases hb'
      refine ⟨?_, ?_, ?_, ?_⟩
      · intro h3
        rw [if_pos (by omega)]
        exact (new_problem_clause_installed s b).2
      · intro h2
        rw [if_neg (by omega), if_pos h2, direct_binary_clause_bin, direct_binary_clause_bin]
        constructor
        · by_cases e1 : b.getD 0 0 = b.getD 1 0
          · rw [if_pos e1, if_pos e1.symm, mem_add_literal_to_vector_iff, mem_add_literal_to_vector_iff]
            exact Or.inl (Or.inr rfl)
          · rw [if_neg e1, if_pos rfl, mem_add_literal_to_vector_iff]
            exact Or.inr rfl
        · rw [if_pos rfl, mem_add_literal_to_vector_iff]
          exact Or.inr rfl
      · intro h1
        rw [if_neg (by omega), if_neg (by omega), if_pos h1]
        exact (add_simplified_unit_clause_effect s _).2
      · intro h0
        rw [if_neg (by omega), if_neg (by omega), if_neg (by omega)]
        exact ⟨rfl, by simp [record_empty_conflict, write_prefix]⟩

theorem remove_false_loop_congr {s t : smt_core_t}
    (h : ∀ l, literal_base_value t l = literal_base_value s l) (b out : List Int) :
    remove_false_loop t b out = remove_false_loop s b out := by
  induction b generalizing out with
  | nil => rfl
  | cons y r ih =>
    unfold remove_false_loop
    rw [h y]
    cases literal_base_value s y
    · exact ih out
    · exact ih _
    · rfl

theorem preprocess_clause_congr {s t : smt_core_t}
    (h : ∀ l, literal_base_value t l = literal_base_value s l) (a : List Int) :
    preprocess_clause t a = preprocess_clause s a := by
  unfold preprocess_clause
  split
  · rfl
  · cases int_array_sort a with
    | nil => rfl
    | cons l rest =>
      dsimp only
      cases remove_duplicates_loop l rest [l] with
      | none => rfl
      | some b => exact remove_false_loop_congr h b []

theorem clause_installed_copy (s : smt_core_t) (a : List Int) :
    clause_installed s a
      { add_preprocessed_clause { s with buffer2 := a } a with buffer2 := [] } := by
  have h := clause_installed_unsafe { s with buffer2 := a } a
  have e : preprocess_clause { s with buffer2 := a } a = preprocess_clause s a :=
    @preprocess_clause_congr s { s with buffer2 := a } (fun _ => rfl) a
  unfold clause_installed at h ⊢
  rw [e] at h
  exact h

theorem unit_installed_of_base (s : smt_core_t) (l : Int)
    (h : ¬ (on_the_fly s = true ∧ s.decision_level > s.base_level)) :
    unit_installed s l (add_unit_clause s l) := by
  unfold unit_installed add_unit_clause
  rw [if_neg h]
  refine ⟨?_, ?_, ?_, ?_⟩
  · split
    · rfl
    · split <;> rfl
  · intro h1 h2
    rw [if_pos ⟨h1, h2⟩]
  · intro h1
    rw [if_neg (by rw [h1]; simp), if_pos h1]
    exact ⟨rfl, by simp [ write_prefix]⟩
  · intro h1
    rw [if_neg (by rw [h1]; simp), if_neg (by rw [h1]; simp)]
    refine ⟨?_, rfl, ?_, rfl⟩
    · show upd (upd _ l VAL_TRUE) (not_lit l) VAL_FALSE l = _
      rw [upd_ne _ _ (not_lit_ne l).symm, upd_self]
    · show upd s.level (var_of l) s.base_level (var_of l) = _
      rw [upd_self]

/-- Claim C17 (amended): while the status is Searching, `add_empty_clause`,
`add_clause_unsafe`, `add_clause`, `add_binary_clause` and `add_ternary_clause`
only append the literal sequence to the lemma queue (every other field of the
core is unchanged), and so does `add_unit_clause` when
`decision_level > base_level`; `add_unit_clause` called at
`decision_level = base_level` installs the unit clause at once, also while
Searching.  When the status is Idle every function installs the clause at once
and leaves the lemma queue unchanged. -/
theorem add_clause_queue_or_install (s : smt_core_t) (l l1 l2 l3 : Int) (a : List Int) :
    (s.status = smt_status_t.STATUS_SEARCHING →
      add_empty_clause s = { s with lemmas := s.lemmas ++ [[]] } ∧
      (s.base_level < s.decision_level →
        add_unit_clause s l = { s with lemmas := s.lemmas ++ [[l]] }) ∧
      (s.decision_level ≤ s.base_level → unit_installed s l (add_unit_clause s l)) ∧
      add_clause_unsafe s a = { s with lemmas := s.lemmas ++ [a] } ∧
      add_clause s a = { s with lemmas := s.lemmas ++ [a] } ∧
      add_binary_clause s l1 l2 = { s with lemmas := s.lemmas ++ [[l1, l2]] } ∧
      add_ternary_clause s l1 l2 l3 = { s with lemmas := s.lemmas ++ [[l1, l2, l3]] }) ∧
    (s.status = smt_status_t.STATUS_IDLE →
      (add_empty_clause s).lemmas = s.lemmas ∧
      (add_empty_clause s).inconsistent = true ∧
      (add_empty_clause s).conflict.head? = some end_clause ∧
      unit_installed s l (add_unit_clause s l) ∧
      clause_installed s a ( add_clause_unsafe s a) ∧
      clause_installed s a (add_clause s a) ∧
      clause_installed s [l1, l2] (add_binary_clause s l1 l2) ∧
      clause_installed s [l1, l2, l3] (add_ternary_clause s l1 l2 l3)) := by
  constructor
  · intro hs
    have hfly : on_the_fly s = true := by
      unfold on_the_fly; rw [hs]; decide
    refine ⟨?_, ?_, ?_, ?_, ?_, ?_, ?_⟩
    · unfold add_empty_clause; rw [if_pos hfly]; rfl
    · intro hd
      unfold add_unit_clause; rw [if_pos ⟨hfly, hd⟩]; rfl
    · intro hd
      exact unit_installed_of_base s l (fun h => by omega)
    · unfold add_clause_unsafe; rw [if_pos hfly]; rfl
    · unfold add_clause; rw [if_pos hfly]; rfl
    · unfold add_binary_clause add_clause_unsafe; rw [if_pos hfly]; rfl
    · unfold add_ternary_clause add_clause_unsafe; rw [if_pos hfly]; rfl
  · intro hs
    have hfly : ¬ on_the_fly s = true := by
      unfold on_the_fly; rw [hs]; decide
    have hu : ∀ b, add_clause_unsafe s b = add_preprocessed_clause s b := by
      intro b; unfold add_clause_unsafe; rw [if_neg hfly]
    refine ⟨?_, ?_, ?_, ?_, ?_, ?_, ?_, ?_⟩
    · unfold add_empty_clause; rw [if_neg hfly]; rfl
    · unfold add_empty_clause; rw [if_neg hfly]; rfl
    · unfold add_empty_clause; rw [if_neg hfly]
      simp [record_empty_conflict, write_prefix]
    · exact unit_installed_of_base s l (fun h => hfly h.1)
    · rw [hu]; exact clause_installed_unsafe s a
    · unfold add_clause; rw [if_neg hfly]; exact clause_installed_copy s a
    · unfold add_binary_clause; rw [hu]; exact clause_installed_unsafe s _
    · unfold add_ternary_clause; rw [hu]; exact clause_installed_unsafe s _

/-- After `start_search` the status is Searching and `decision_level =
base_level`.  The call `add_unit_clause(s, 2)` does not touch the lemma queue:
it pushes the literal 2 on the trail and assigns it. -/
theorem add_unit_clause_installs_while_searching :
    sample_searching.status = smt_status_t.STATUS_SEARCHING ∧
    sample_searching.decision_level = sample_searching.base_level ∧
    sample_searching.value 2 = VAL_UNDEF ∧
    (add_unit_clause sample_searching 2).lemmas = sample_searching.lemmas ∧
    (add_unit_clause sample_searching 2).value 2 = VAL_TRUE ∧
    (add_unit_clause sample_searching 2).stack.lit = sample_searching.stack.lit ++ [2] := by
  decide

theorem add_clause_queue_or_install_witness :
    sample_searching.status = smt_status_t.STATUS_SEARCHING ∧
    core5.status = smt_status_t.STATUS_IDLE ∧
    (add_clause sample_searching [2, 4, 6]).lemmas = [[2, 4, 6]] ∧
    (add_clause sample_searching [2, 4, 6]).problem_clauses = [] ∧
    (add_clause core5 [6, 4, 2, 4]).problem_clauses = [0] ∧
    ((add_clause core5 [6, 4, 2, 4]).clauses 0).cl = [2, 4, 6] ∧
    add_clause sample_searching [2, 4, 6]
      = { sample_searching with lemmas := sample_searching.lemmas ++ [[2, 4, 6]] } ∧
    unit_installed sample_searching 2 (add_unit_clause sample_searching 2) ∧
    clause_installed core5 [6, 4, 2, 4] (add_clause core5 [6, 4, 2, 4]) :=
  have h1 := (add_clause_queue_or_install sample_searching 2 2 4 6 [2, 4, 6]).1 (by decide)
  have h2 := (add_clause_queue_or_install core5 2 2 4 6 [6, 4, 2, 4]).2 (by decide)
  ⟨by decide, by decide, by decide, by decide, by decide, by decide,
    h1.2.2.2.2.1, h1.2.2.1 (by decide), h2.2.2.2.2.2.1⟩

/-! ## The variable heap -/

theorem heap_precedes_iff {α : Type} [LinearOrder α] (act : Int → α) (x y : Int) :
    heap_precedes act x y = true ↔ act y < act x ∨ (act x = act y ∧ x < y) := by
  unfold heap_precedes heap_cmp
  simp

theorem heap_precedes_false_iff {α : Type} [LinearOrder α] (act : Int → α) (x y : Int) :
    heap_precedes act x y = false ↔ act x < act y ∨ (act x = act y ∧ y ≤ x) := by
  rw [← Bool.not_eq_true, heap_precedes_iff]
  constructor
  · intro h
    rcases lt_trichotomy (act x) (act y) with h1 | h1 | h1
    · exact Or.inl h1
    · refine Or.inr ⟨h1, ?_⟩
      by_contra h2
      exact h (Or.inr ⟨h1, by omega⟩)
    · exact absurd (Or.inl h1) h
  · rintro (h1 | ⟨h1, h2⟩) (h3 | ⟨h3, h4⟩)
    · exact lt_asymm h1 h3
    · rw [h3] at h1; exact lt_irrefl _ h1
    · rw [h1] at h3; exact lt_irrefl _ h3
    · omega

theorem heap_precedes_irrefl {α : Type} [LinearOrder α] (act : Int → α) (x : Int) :
    heap_precedes act x x = false :=
  (heap_precedes_false_iff act x x).2 (Or.inr ⟨rfl, le_refl x⟩)

theorem heap_precedes_asymm {α : Type} [LinearOrder α] {act : Int → α} {x y : Int}
    (h : heap_precedes act x y = true) : heap_precedes act y x = false := by
  rw [heap_precedes_iff] at h
  rw [heap_precedes_false_iff]
  rcases h with h | ⟨h1, h2⟩
  · exact Or.inl h
  · exact Or.inr ⟨h1.symm, by omega⟩

theorem heap_precedes_total {α : Type} [LinearOrder α] (act : Int → α) {x y : Int}
    (hne : x ≠ y) (h : heap_precedes act x y = false) : heap_precedes act y x = true := by
  rw [heap_precedes_false_iff] at h
  rw [heap_precedes_iff]
  rcases h with h | ⟨h1, h2⟩
  · exact Or.inl h
  · exact Or.inr ⟨h1.symm, by omega⟩

/-- The relation "does not precede" is transitive. -/
theorem heap_precedes_false_trans {α : Type} [LinearOrder α] {act : Int → α} {x y z : Int}
    (h1 : heap_precedes act x y = false) (h2 : heap_precedes act y z = false) :
    heap_precedes act x z = false := by
  rw [heap_precedes_false_iff] at h1 h2 ⊢
  rcases h1 with h1 | ⟨h1, h1'⟩ <;> rcases h2 with h2 | ⟨h2, h2'⟩
  · exact Or.inl (lt_trans h1 h2)
  · exact Or.inl (by rw [← h2]; exact h1)
  · exact Or.inl (by rw [h1]; exact h2)
  · exact Or.inr ⟨h1.trans h2, by omega⟩

theorem heap_precedes_false_of_true {α : Type} [LinearOrder α] {act : Int → α} {x y z : Int}
    (h1 : heap_precedes act x y = false) (h2 : heap_precedes act z y = true) :
    heap_precedes act x z = false :=
  heap_precedes_false_trans h1 (heap_precedes_asymm h2)

theorem heap_precedes_false_of_true_left {α : Type} [LinearOrder α] {act : Int → α}
    {x y z : Int} (h1 : heap_precedes act y x = true) (h2 : heap_precedes act y z = false) :
    heap_precedes act x z = false :=
  heap_precedes_false_trans (heap_precedes_asymm h1) h2

/-- The marker `-1` stops the loop of `update_up`. -/
theorem heap_precedes_marker {α : Type} [LinearOrder α] {act : Int → α} {x : Int}
    (h0 : 0 ≤ x) (h : act x ≤ act (-1)) : heap_precedes act x (-1) = false := by
  rw [heap_precedes_false_iff]
  rcases lt_or_eq_of_le h with h1 | h1
  · exact Or.inl h1
  · exact Or.inr ⟨h1, by omega⟩

theorem heap_precedes_congr {α : Type} [LinearOrder α] {act act' : Int → α} {x y : Int}
    (hx : act' x = act x) (hy : act' y = act y) :
    heap_precedes act' x y = heap_precedes act x y := by
  unfold heap_precedes
  rw [hx, hy]

theorem heap_put_frame {α : Type} (h : var_heap_t α) (i : Nat) (x : Int) :
    (heap_put h i x).size = h.size ∧ (heap_put h i x).activity = h.activity ∧
    (heap_put h i x).heap_last = h.heap_last ∧
    (heap_put h i x).act_increment = h.act_increment ∧
    (heap_put h i x).inv_act_decay = h.inv_act_decay :=
  ⟨rfl, rfl, rfl, rfl, rfl⟩

theorem heap_put_heap {α : Type} (h : var_heap_t α) (i : Nat) (x : Int) (p : Nat) :
    (heap_put h i x).heap p = if p = i then x else h.heap p := rfl

theorem heap_put_index {α : Type} (h : var_heap_t α) (i : Nat) (x : Int) (y : Int) :
    (heap_put h i x).heap_index y = if y = x then (i : Int) else h.heap_index y := rfl

/-- The heap array is injective on the positions other than the hole. -/
theorem HeapHole.inj_hole {α : Type} [LinearOrder α] {h : var_heap_t α} {i : Nat} {v : Int}
    (H : HeapHole h i v) {p q : Nat} (hp : 1 ≤ p) (hp2 : p ≤ h.heap_last) (hpi : p ≠ i)
    (hq : 1 ≤ q) (hq2 : q ≤ h.heap_last) (hqi : q ≠ i) (e : h.heap p = h.heap q) : p = q := by
  have h1 := (H.pos p hp hp2 hpi).2.2.1
  have h2 := (H.pos q hq hq2 hqi).2.2.1
  rw [e, h2] at h1
  exact_mod_cast h1.symm

theorem HeapOk.inj {α : Type} [LinearOrder α] {h : var_heap_t α}
    (H : HeapOk h) {p q : Nat} (hp : 1 ≤ p) (hp2 : p ≤ h.heap_last)
    (hq : 1 ≤ q) (hq2 : q ≤ h.heap_last) (e : h.heap p = h.heap q) : p = q := by
  have h1 := (H.pos p hp hp2).2.2
  have h2 := (H.pos q hq hq2).2.2
  rw [e, h2] at h1
  exact_mod_cast h1.symm

/-- The hole is filled by `h[i] = v; index[v] = i` when `v` does not precede
the parent of the hole and no child of the hole precedes `v`. -/
theorem heapOk_fill {α : Type} [LinearOrder α] {h : var_heap_t α} {i : Nat} {v : Int}
    (H : HeapHole h i v)
    (hp : 2 ≤ i → heap_precedes h.activity v (h.heap (i / 2)) = false)
    (hc : ∀ c, 2 ≤ c → c ≤ h.heap_last → c / 2 = i →
      heap_precedes h.activity (h.heap c) v = false) :
    HeapOk (heap_put h i v) := by
  have hi := H.ir
  refine ⟨?_, H.sent, ?_, ?_, ?_⟩
  · rw [heap_put_heap, if_neg (by omega)]; exact H.zero
  · intro p h1 h2
    rw [heap_put_heap, heap_put_index]
    by_cases e : p = i
    · rw [if_pos e, if_pos rfl, e]
      exact ⟨H.vr.1, H.vr.2, rfl⟩
    · obtain ⟨a1, a2, a3, a4⟩ := H.pos p h1 h2 e
      rw [if_neg e, if_neg a4]
      exact ⟨a1, a2, a3⟩
  · intro x h1 h2
    rw [heap_put_index]
    by_cases e : x = v
    · rw [if_pos e]
      refine Or.inr ⟨i, hi.1, hi.2, rfl, ?_⟩
      rw [heap_put_heap, if_pos rfl, e]
    · rw [if_neg e]
      rcases H.idx x h1 h2 e with a | ⟨p, a1, a2, a3, a4, a5⟩
      · exact Or.inl a
      · refine Or.inr ⟨p, a1, a2, a4, ?_⟩
        rw [heap_put_heap, if_neg a3]; exact a5
  · intro p h1 h2
    show heap_precedes h.activity _ _ = false
    rw [heap_put_heap, heap_put_heap]
    by_cases e : p = i
    · rw [if_pos e, if_neg (by omega)]
      rw [e]; exact hp (by omega)
    · rw [if_neg e]
      by_cases e2 : p / 2 = i
      · rw [if_pos e2]; exact hc p h1 h2 e2
      · rw [if_neg e2]; exact H.ord p h1 h2 e e2

/-- Positions and indices after the element at `j` is moved into the hole. -/
theorem heapHole_move {α : Type} [LinearOrder α] {h : var_heap_t α} {i : Nat} {v : Int}
    (H : HeapHole h i v) {j : Nat} (hj1 : 1 ≤ j) (hj2 : j ≤ h.heap_last) (hji : j ≠ i) :
    (∀ p, 1 ≤ p → p ≤ h.heap_last → p ≠ j →
      0 ≤ (heap_put h i (h.heap j)).heap p ∧ (heap_put h i (h.heap j)).heap p < h.size ∧
      (heap_put h i (h.heap j)).heap_index ((heap_put h i (h.heap j)).heap p) = p ∧
      (heap_put h i (h.heap j)).heap p ≠ v) ∧
    (∀ x : Int, 0 ≤ x → x < h.size → x ≠ v →
      (heap_put h i (h.heap j)).heap_index x = -1 ∨
        ∃ p, 1 ≤ p ∧ p ≤ h.heap_last ∧ p ≠ j ∧ (heap_put h i (h.heap j)).heap_index x = p ∧
          (heap_put h i (h.heap j)).heap p = x) ∧
    (∀ x, InHole (heap_put h i (h.heap j)) j x ↔ InHole h i x) := by
  have hi := H.ir
  obtain ⟨b1, b2, b3, b4⟩ := H.pos j hj1 hj2 hji
  refine ⟨?_, ?_, ?_⟩
  · intro p h1 h2 hpj
    rw [heap_put_heap, heap_put_index]
    by_cases e : p = i
    · rw [if_pos e, if_pos rfl, e]
      exact ⟨b1, b2, rfl, b4⟩
    · obtain ⟨a1, a2, a3, a4⟩ := H.pos p h1 h2 e
      rw [if_neg e, if_neg (fun e2 => hpj (H.inj_hole h1 h2 e hj1 hj2 hji e2))]
      exact ⟨a1, a2, a3, a4⟩
  · intro x h1 h2 hxv
    rw [heap_put_index]
    by_cases e : x = h.heap j
    · rw [if_pos e]
      refine Or.inr ⟨i, hi.1, hi.2, Ne.symm hji, rfl, ?_⟩
      rw [heap_put_heap, if_pos rfl, e]
    · rw [if_neg e]
      rcases H.idx x h1 h2 hxv with a | ⟨p, a1, a2, a3, a4, a5⟩
      · exact Or.inl a
      · refine Or.inr ⟨p, a1, a2, ?_, a4, ?_⟩
        · intro e2; rw [e2] at a5; exact e a5.symm
        · rw [heap_put_heap, if_neg a3]; exact a5
  · intro x
    constructor
    · rintro ⟨p, a1, a2, a3, a4⟩
      rw [heap_put_heap] at a4
      by_cases e : p = i
      · rw [if_pos e] at a4
        exact ⟨j, hj1, hj2, hji, a4⟩
      · rw [if_neg e] at a4
        exact ⟨p, a1, a2, e, a4⟩
    · rintro ⟨p, a1, a2, a3, a4⟩
      by_cases e : p = j
      · refine ⟨i, hi.1, hi.2, Ne.symm hji, ?_⟩
        rw [heap_put_heap, if_pos rfl, ← a4, e]
      · refine ⟨p, a1, a2, e, ?_⟩
        rw [heap_put_heap, if_neg a3]; exact a4

/-- One round of `update_up`: the parent of the hole moves into the hole. -/
theorem heapHole_up {α : Type} [LinearOrder α] {h : var_heap_t α} {i : Nat} {v : Int}
    (H : HeapHole h i v) (hi2 : 2 ≤ i) :
    HeapHole (heap_put h i (h.heap (i / 2))) (i / 2) v := by
  have hi := H.ir
  have hj1 : 1 ≤ i / 2 := by omega
  have hj2 : i / 2 ≤ h.heap_last := by omega
  have hji : i / 2 ≠ i := by omega
  obtain ⟨m1, m2, -⟩ := heapHole_move H hj1 hj2 hji
  refine ⟨?_, H.sent, H.vr, ⟨hj1, hj2⟩, m1, m2, ?_, ?_⟩
  · rw [heap_put_heap, if_neg (by omega)]; exact H.zero
  · intro p h1 h2 hpj hpj2
    show heap_precedes h.activity _ _ = false
    rw [heap_put_heap, heap_put_heap]
    have hpi : p ≠ i := fun e => hpj2 (by rw [e])
    rw [if_neg hpi]
    by_cases e : p / 2 = i
    · rw [if_pos e]; exact H.gp p h1 h2 e hi2
    · rw [if_neg e]; exact H.ord p h1 h2 hpi e
  · intro c h1 h2 hcj hj
    show heap_precedes h.activity _ _ = false
    rw [heap_put_heap, heap_put_heap, if_neg (by omega : i / 2 / 2 ≠ i)]
    have hy := H.ord (i / 2) hj hj2 hji (by omega)
    by_cases e : c = i
    · rw [if_pos e]; exact hy
    · rw [if_neg e]
      have := H.ord c h1 h2 e (by omega)
      rw [hcj] at this
      exact heap_precedes_false_trans this hy

/-- One round of `update_down`: the child at `j` that no other child of the
hole precedes moves into the hole. -/
theorem heapHole_down {α : Type} [LinearOrder α] {h : var_heap_t α} {i : Nat} {v : Int}
    (H : HeapHole h i v) {j : Nat} (hj : j / 2 = i) (hj2 : j ≤ h.heap_last)
    (hbest : ∀ c, 2 ≤ c → c ≤ h.heap_last → c / 2 = i → c ≠ j →
      heap_precedes h.activity (h.heap c) (h.heap j) = false) :
    HeapHole (heap_put h i (h.heap j)) j v := by
  have hi := H.ir
  have hj1 : 2 ≤ j := by omega
  have hji : j ≠ i := by omega
  obtain ⟨m1, m2, -⟩ := heapHole_move H (by omega) hj2 hji
  refine ⟨?_, H.sent, H.vr, ⟨by omega, hj2⟩, m1, m2, ?_, ?_⟩
  · rw [heap_put_heap, if_neg (by omega)]; exact H.zero
  · intro p h1 h2 hpj hpj2
    show heap_precedes h.activity _ _ = false
    rw [heap_put_heap, heap_put_heap]
    by_cases e : p = i
    · rw [if_pos e, if_neg (by omega), e]
      exact H.gp j hj1 hj2 hj (by omega)
    · rw [if_neg e]
      by_cases e2 : p / 2 = i
      · rw [if_pos e2]; exact hbest p h1 h2 e2 hpj
      · rw [if_neg e2]; exact H.ord p h1 h2 e e2
  · intro c h1 h2 hcj _
    show heap_precedes h.activity _ _ = false
    rw [heap_put_heap, heap_put_heap, if_neg (by omega : c ≠ i), hj, if_pos rfl]
    have := H.ord c h1 h2 (by omega) (by omega)
    rw [hcj] at this
    exact this

/-- The loop of `update_up` from a heap with a hole at `i`, when no child of
the hole precedes `x`: the loop stops, at a hole where `x` can be put. -/
theorem update_up_loop_spec {α : Type} [LinearOrder α] (x : Int) (fuel : Nat) :
    ∀ (h : var_heap_t α) (i : Nat), HeapHole h i x → i < fuel →
      (∀ c, 2 ≤ c → c ≤ h.heap_last → c / 2 = i →
        heap_precedes h.activity (h.heap c) x = false) →
      ∃ h1 i1, update_up_loop x (h.activity x) fuel h i = some (h1, i1) ∧
        HeapHole h1 i1 x ∧
        (2 ≤ i1 → heap_precedes h1.activity x (h1.heap (i1 / 2)) = false) ∧
        (∀ c, 2 ≤ c → c ≤ h1.heap_last → c / 2 = i1 →
          heap_precedes h1.activity (h1.heap c) x = false) ∧
        h1.size = h.size ∧ h1.activity = h.activity ∧ h1.heap_last = h.heap_last ∧
        h1.act_increment = h.act_increment ∧ h1.inv_act_decay = h.inv_act_decay ∧
        (∀ y, InHole h1 i1 y ↔ InHole h i y) := by
  induction fuel with
  | zero => intro h i _ hf; omega
  | succ n ih =>
    intro h i H hf hc
    have hi := H.ir
    unfold update_up_loop
    dsimp only
    by_cases hcmp : heap_cmp x (h.heap (i / 2)) (h.activity x) (h.activity (h.heap (i / 2))) = true
    · rw [if_pos hcmp]
      have hi2 : 2 ≤ i := by
        by_contra hlt
        have e : i / 2 = 0 := by omega
        rw [e, H.zero] at hcmp
        have := heap_precedes_marker H.vr.1 (H.sent x H.vr.1 H.vr.2)
        unfold heap_precedes at this
        rw [this] at hcmp
        cases hcmp
      have H1 := heapHole_up H hi2
      have hc1 : ∀ c, 2 ≤ c → c ≤ (heap_put h i (h.heap (i / 2))).heap_last → c / 2 = i / 2 →
          heap_precedes (heap_put h i (h.heap (i / 2))).activity
            ((heap_put h i (h.heap (i / 2))).heap c) x = false := by
        intro c h1 h2 hcj
        show heap_precedes h.activity _ x = false
        rw [heap_put_heap]
        by_cases e : c = i
        · rw [if_pos e]
          exact heap_precedes_asymm hcmp
        · rw [if_neg e]
          have := H.ord c h1 h2 e (by omega)
          rw [hcj] at this
          exact heap_precedes_false_of_true this hcmp
      obtain ⟨h1, i1, e1, e2, e3, e4, e5, e6, e7, e8, e9, e10⟩ :=
        ih (heap_put h i (h.heap (i / 2))) (i / 2) H1 (by omega) hc1
      refine ⟨h1, i1, e1, e2, e3, e4, e5, e6, e7, e8, e9, ?_⟩
      intro y
      rw [e10]
      exact (heapHole_move H (by omega) (by omega) (by omega)).2.2 y
    · rw [if_neg hcmp]
      refine ⟨h, i, rfl, H, ?_, hc, rfl, rfl, rfl, rfl, rfl, fun y => Iff.rfl⟩
      intro _
      exact Bool.not_eq_true _ ▸ hcmp

/-- Membership after the hole is filled. -/
theorem inHeap_fill {α : Type} (h : var_heap_t α) {i : Nat} (v : Int) (h1 : 1 ≤ i)
    (h2 : i ≤ h.heap_last) (y : Int) :
    InHeap (heap_put h i v) y ↔ InHole h i y ∨ y = v := by
  constructor
  · rintro ⟨p, a1, a2, a3⟩
    rw [heap_put_heap] at a3
    by_cases e : p = i
    · rw [if_pos e] at a3; exact Or.inr a3.symm
    · rw [if_neg e] at a3; exact Or.inl ⟨p, a1, a2, e, a3⟩
  · rintro (⟨p, a1, a2, a3, a4⟩ | e)
    · exact ⟨p, a1, a2, by rw [heap_put_heap, if_neg a3]; exact a4⟩
    · exact ⟨i, h1, h2, by rw [heap_put_heap, if_pos rfl, e]⟩

/-- `update_up` from a heap with a hole at `i`, when no child of the hole
precedes `x`: it returns a heap that satisfies the invariants and holds `x`
and the elements at the other positions. -/
theorem update_up_spec {α : Type} [LinearOrder α] {h : var_heap_t α} {i : Nat} {x : Int}
    (H : HeapHole h i x)
    (hc : ∀ c, 2 ≤ c → c ≤ h.heap_last → c / 2 = i →
      heap_precedes h.activity (h.heap c) x = false) :
    ∃ h', update_up h x i = some h' ∧ HeapOk h' ∧
      h'.size = h.size ∧ h'.activity = h.activity ∧ h'.heap_last = h.heap_last ∧
      h'.act_increment = h.act_increment ∧ h'.inv_act_decay = h.inv_act_decay ∧
      (∀ y, InHeap h' y ↔ InHole h i y ∨ y = x) := by
  obtain ⟨h1, i1, e1, e2, e3, e4, e5, e6, e7, e8, e9, e10⟩ :=
    update_up_loop_spec x (i + 1) h i H (by omega) hc
  refine ⟨heap_put h1 i1 x, ?_, heapOk_fill e2 e3 e4, e5, e6, e7, e8, e9, ?_⟩
  · unfold update_up
    rw [e1]
  · intro y
    rw [inHeap_fill h1 x e2.ir.1 e2.ir.2, e10]

/-- The child chosen by a round of `update_down`. -/
theorem update_down_choice {α : Type} [LinearOrder α] {h : var_heap_t α} {i j : Nat}
    (hj : j = 2 * i) (hl : j + 1 ≤ h.heap_last) (jx : Nat × Int)
    (e : jx = if heap_precedes h.activity (h.heap (j + 1)) (h.heap j) then
      (j + 1, h.heap (j + 1)) else (j, h.heap j)) :
    jx.2 = h.heap jx.1 ∧ jx.1 / 2 = i ∧ jx.1 ≤ h.heap_last ∧ j ≤ jx.1 ∧
    ∀ c, 2 ≤ c → c ≤ h.heap_last → c / 2 = i → c ≠ jx.1 →
      heap_precedes h.activity (h.heap c) (h.heap jx.1) = false := by
  by_cases hp : heap_precedes h.activity (h.heap (j + 1)) (h.heap j) = true
  · rw [if_pos hp] at e
    rw [e]
    refine ⟨rfl, by dsimp only; omega, by dsimp only; omega, by dsimp only; omega, ?_⟩
    intro c h1 h2 h3 h4
    dsimp only at h4 ⊢
    have : c = j := by omega
    rw [this]
    exact heap_precedes_asymm hp
  · rw [if_neg hp] at e
    rw [e]
    refine ⟨rfl, by dsimp only; omega, by dsimp only; omega, by dsimp only; omega, ?_⟩
    intro c h1 h2 h3 h4
    dsimp only at h4 ⊢
    have : c = j + 1 := by omega
    rw [this]
    exact Bool.not_eq_true _ ▸ hp

/-- The loop of `update_down` from a heap with a hole at `i`, when `z` does not
precede the parent of the hole: it returns a heap that satisfies the
invariants and holds `z` and the elements at the other positions. -/
theorem update_down_loop_spec {α : Type} [LinearOrder α] (z : Int) (L : Nat) (fuel : Nat) :
    ∀ (h : var_heap_t α) (i j : Nat), HeapHole h i z → h.heap_last + 1 = L → j = 2 * i →
      L < j + fuel → 0 < fuel →
      (2 ≤ i → heap_precedes h.activity z (h.heap (i / 2)) = false) →
      ∃ h', update_down_loop z (h.activity z) L fuel h i j = some h' ∧ HeapOk h' ∧
        h'.size = h.size ∧ h'.activity = h.activity ∧ h'.heap_last = h.heap_last ∧
        h'.act_increment = h.act_increment ∧ h'.inv_act_decay = h.inv_act_decay ∧
        (∀ y, InHeap h' y ↔ InHole h i y ∨ y = z) := by
  induction fuel with
  | zero =>
    intro h i j H hL hj hf hf0
    omega
  | succ n ih =>
    intro h i j H hL hj hf _ hpar
    have hi := H.ir
    unfold update_down_loop
    dsimp only
    by_cases hA : j + 1 < L
    · rw [if_pos hA]
      obtain ⟨c1, c2, c3, c4, c5⟩ := update_down_choice hj (by omega)
        (if heap_precedes h.activity (h.heap (j + 1)) (h.heap j) then
          (j + 1, h.heap (j + 1)) else (j, h.heap j)) rfl
      generalize (if heap_precedes h.activity (h.heap (j + 1)) (h.heap j) = true then
          (j + 1, h.heap (j + 1)) else (j, h.heap j)) = jx at c1 c2 c3 c4 c5
      by_cases hcmp : heap_cmp z jx.2 (h.activity z) (h.activity jx.2) = true
      · rw [if_pos hcmp]
        have hz : heap_precedes h.activity z (h.heap jx.1) = true := by
          rw [← c1]; exact hcmp
        refine ⟨_, rfl, heapOk_fill H hpar ?_, rfl, rfl, rfl, rfl, rfl,
          inHeap_fill h z hi.1 hi.2⟩
        intro c h1 h2 h3
        by_cases e : c = jx.1
        · rw [e]; exact heap_precedes_asymm hz
        · exact heap_precedes_false_trans (c5 c h1 h2 h3 e) (heap_precedes_asymm hz)
      · rw [if_neg hcmp]
        have hz : heap_precedes h.activity z (h.heap jx.1) = false := by
          rw [← c1]; exact Bool.not_eq_true _ ▸ hcmp
        have H1 : HeapHole (heap_put h i jx.2) jx.1 z := by
          rw [c1]; exact heapHole_down H c2 c3 c5
        obtain ⟨h', e1, e2, e3, e4, e5, e6, e7, e8⟩ :=
          ih (heap_put h i jx.2) jx.1 (2 * jx.1) H1 hL rfl (by omega) (by omega) (by
            intro _
            show heap_precedes h.activity z ((heap_put h i jx.2).heap (jx.1 / 2)) = false
            rw [heap_put_heap, if_pos c2, c1]
            exact hz)
        refine ⟨h', e1, e2, e3, e4, e5, e6, e7, ?_⟩
        intro y
        rw [e8, c1, (heapHole_move H (by omega) c3 (by omega)).2.2 y]
    · rw [if_neg hA]
      by_cases hB : j < L
      · rw [if_pos hB]
        have hjl : j = h.heap_last := by omega
        by_cases hcmp : heap_cmp z (h.heap j) (h.activity z) (h.activity (h.heap j)) = true
        · rw [if_pos hcmp]
          refine ⟨_, rfl, heapOk_fill H hpar ?_, rfl, rfl, rfl, rfl, rfl,
            inHeap_fill h z hi.1 hi.2⟩
          intro c h1 h2 h3
          have : c = j := by omega
          rw [this]
          exact heap_precedes_asymm hcmp
        · rw [if_neg hcmp]
          have H1 : HeapHole (heap_put h i (h.heap j)) j z :=
            heapHole_down H (by omega) (by omega) (by
              intro c h1 h2 h3 h4
              omega)
          refine ⟨_, rfl, heapOk_fill H1 ?_ ?_, rfl, rfl, rfl, rfl, rfl, ?_⟩
          · intro _
            show heap_precedes h.activity z ((heap_put h i (h.heap j)).heap (j / 2)) = false
            rw [heap_put_heap, if_pos (by omega)]
            exact Bool.not_eq_true _ ▸ hcmp
          · intro c h1 h2 h3
            have : c ≤ h.heap_last := h2
            omega
          · intro y
            rw [inHeap_fill _ z (by omega) (by show j ≤ h.heap_last; omega),
              (heapHole_move H (by omega) (by omega) (by omega)).2.2 y]
      · rw [if_neg hB]
        refine ⟨_, rfl, heapOk_fill H hpar ?_, rfl, rfl, rfl, rfl, rfl,
          inHeap_fill h z hi.1 hi.2⟩
        intro c h1 h2 h3
        omega

theorem heap_last_decr_pos {n : Nat} (h : 1 ≤ n) : heap_last_decr n = n - 1 := by
  unfold heap_last_decr
  rw [if_neg (by omega)]

/-- `update_down` at the position `i` of an element removed from the index:
it returns a heap that satisfies the invariants and holds the other elements. -/
theorem update_down_spec {α : Type} [LinearOrder α] {h : var_heap_t α} {i : Nat}
    (H : HeapGone h i)
    (hpar : i ≠ h.heap_last → 2 ≤ i →
      heap_precedes h.activity (h.heap h.heap_last) (h.heap (i / 2)) = false) :
    ∃ h', update_down h i = some h' ∧ HeapOk h' ∧
      h'.size = h.size ∧ h'.activity = h.activity ∧ h'.heap_last = h.heap_last - 1 ∧
      h'.act_increment = h.act_increment ∧ h'.inv_act_decay = h.inv_act_decay ∧
      h'.heap_index (h.heap i) = -1 ∧
      (∀ y, InHeap h' y ↔ InHeap h y ∧ y ≠ h.heap i) := by
  have hi := H.ir
  unfold update_down
  dsimp only
  rw [heap_last_decr_pos (by omega)]
  by_cases e : h.heap_last = i
  · rw [if_pos e]
    refine ⟨_, rfl, ⟨H.zero, H.sent, ?_, ?_, ?_⟩, rfl, rfl, rfl, rfl, rfl, ?_, ?_⟩
    · intro p h1 h2
      have h2' : p ≤ h.heap_last - 1 := h2
      obtain ⟨a1, a2, a3⟩ := H.pos p h1 (by omega)
      exact ⟨a1, a2, (a3 (by omega)).1⟩
    · intro x h1 h2
      rcases H.idx x h1 h2 with a | ⟨p, a1, a2, a3, a4, a5⟩
      · exact Or.inl a
      · exact Or.inr ⟨p, a1, by show p ≤ h.heap_last - 1; omega, a4, a5⟩
    · intro p h1 h2
      have h2' : p ≤ h.heap_last - 1 := h2
      exact H.ord p h1 (by omega)
    · have h0 := H.pos i hi.1 hi.2
      rcases H.idx (h.heap i) h0.1 h0.2.1 with a | ⟨p, a1, a2, a3, a4, a5⟩
      · exact a
      · exact absurd a5 ((H.pos p a1 a2).2.2 a3).2
    · intro y
      constructor
      · rintro ⟨p, a1, a2, a3⟩
        have a2' : p ≤ h.heap_last - 1 := a2
        refine ⟨⟨p, a1, by omega, a3⟩, ?_⟩
        rw [← a3]
        exact ((H.pos p a1 (by omega)).2.2 (by omega)).2
      · rintro ⟨⟨p, a1, a2, a3⟩, hne⟩
        refine ⟨p, a1, ?_, a3⟩
        show p ≤ h.heap_last - 1
        have : p ≠ i := by
          intro e2; rw [e2] at a3; exact hne a3.symm
        omega
  · rw [if_neg e]
    have hz := H.pos h.heap_last (by omega) (le_refl _)
    have hzi := hz.2.2 e
    have HH : HeapHole { h with heap_last := h.heap_last - 1 } i (h.heap h.heap_last) := by
      refine ⟨H.zero, H.sent, ⟨hz.1, hz.2.1⟩, ⟨hi.1, by show i ≤ h.heap_last - 1; omega⟩,
        ?_, ?_, ?_, ?_⟩
      · intro p h1 h2 h3
        have h2' : p ≤ h.heap_last - 1 := h2
        obtain ⟨a1, a2, a3⟩ := H.pos p h1 (by omega)
        refine ⟨a1, a2, (a3 h3).1, ?_⟩
        intro e2
        have := (a3 h3).1
        rw [e2, hzi.1] at this
        have : h.heap_last = p := by exact_mod_cast this
        omega
      · intro x h1 h2 h3
        rcases H.idx x h1 h2 with a | ⟨p, a1, a2, a3, a4, a5⟩
        · exact Or.inl a
        · refine Or.inr ⟨p, a1, ?_, a3, a4, a5⟩
          show p ≤ h.heap_last - 1
          have : p ≠ h.heap_last := by
            intro e2; rw [e2] at a5; exact h3 a5.symm
          omega
      · intro p h1 h2 _ _
        have h2' : p ≤ h.heap_last - 1 := h2
        exact H.ord p h1 (by omega)
      · intro c h1 h2 h3 h4
        have h2' : c ≤ h.heap_last - 1 := h2
        have o1 := H.ord c h1 (by omega)
        rw [h3] at o1
        exact heap_precedes_false_trans o1 (H.ord i h4 hi.2)
    obtain ⟨h', e1, e2, e3, e4, e5, e6, e7, e8⟩ :=
      update_down_loop_spec (h.heap h.heap_last) h.heap_last (h.heap_last + 1)
        { h with heap_last := h.heap_last - 1 } i (2 * i) HH
        (by show h.heap_last - 1 + 1 = h.heap_last; omega) rfl (by omega) (by omega)
        (fun h2 => hpar (Ne.symm e) h2)
    refine ⟨h', e1, e2, e3, e4, e5, e6, e7, ?_, ?_⟩
    · have h0 := H.pos i hi.1 hi.2
      have hnot : ¬ InHeap h' (h.heap i) := by
        rw [e8]
        rintro (⟨p, a1, a2, a3, a4⟩ | a)
        · have a2' : p ≤ h.heap_last - 1 := a2
          exact ((H.pos p a1 (by omega)).2.2 a3).2 a4
        · exact hzi.2 a.symm
      rcases e2.idx (h.heap i) h0.1 (by rw [e3]; exact h0.2.1) with a | ⟨p, a1, a2, a3, a4⟩
      · exact a
      · exact absurd ⟨p, a1, a2, a4⟩ hnot
    · intro y
      rw [e8]
      constructor
      · rintro (⟨p, a1, a2, a3, a4⟩ | a)
        · have a2' : p ≤ h.heap_last - 1 := a2
          refine ⟨⟨p, a1, by omega, a4⟩, ?_⟩
          rw [← a4]
          exact ((H.pos p a1 (by omega)).2.2 a3).2
        · rw [a]
          exact ⟨⟨h.heap_last, by omega, le_refl _, rfl⟩, hzi.2⟩
      · rintro ⟨⟨p, a1, a2, a3⟩, hne⟩
        have hpi : p ≠ i := by
          intro e2; rw [e2] at a3; exact hne a3.symm
        by_cases e9 : p = h.heap_last
        · right; rw [← a3, e9]
        · left
          exact ⟨p, a1, by show p ≤ h.heap_last - 1; omega, hpi, a3⟩

theorem HeapOk.index_of_inHeap {α : Type} [LinearOrder α] {h : var_heap_t α} (H : HeapOk h)
    {x : Int} (hx : InHeap h x) : 0 ≤ x ∧ x < h.size ∧ 1 ≤ h.heap_index x := by
  obtain ⟨p, a1, a2, a3⟩ := hx
  obtain ⟨b1, b2, b3⟩ := H.pos p a1 a2
  rw [a3] at b1 b2 b3
  exact ⟨b1, b2, by rw [b3]; exact_mod_cast a1⟩

theorem HeapOk.index_of_not_inHeap {α : Type} [LinearOrder α] {h : var_heap_t α}
    (H : HeapOk h) {x : Int} (h0 : 0 ≤ x) (h1 : x < h.size) (hx : ¬ InHeap h x) :
    h.heap_index x = -1 := by
  rcases H.idx x h0 h1 with a | ⟨p, a1, a2, a3, a4⟩
  · exact a
  · exact absurd ⟨p, a1, a2, a4⟩ hx

/-- In a heap that satisfies the invariants, `x` is in the heap iff
`heap_index[x]` is not negative. -/
theorem HeapOk.inHeap_iff {α : Type} [LinearOrder α] {h : var_heap_t α} (H : HeapOk h)
    {x : Int} (h0 : 0 ≤ x) (h1 : x < h.size) : InHeap h x ↔ 0 ≤ h.heap_index x := by
  constructor
  · intro hx
    have := (H.index_of_inHeap hx).2.2
    omega
  · intro hx
    by_contra hn
    have := H.index_of_not_inHeap h0 h1 hn
    omega

theorem heapGone_of_ok {α : Type} [LinearOrder α] {h : var_heap_t α} (H : HeapOk h)
    {p : Nat} (hp1 : 1 ≤ p) (hp2 : p ≤ h.heap_last) :
    HeapGone { h with heap_index := upd h.heap_index (h.heap p) (-1) } p := by
  refine ⟨H.zero, H.sent, ⟨hp1, hp2⟩, ?_, ?_, H.ord⟩
  · intro q h1 h2
    obtain ⟨a1, a2, a3⟩ := H.pos q h1 h2
    refine ⟨a1, a2, ?_⟩
    intro hq
    have hne : h.heap q ≠ h.heap p := fun e => hq (H.inj h1 h2 hp1 hp2 e)
    refine ⟨?_, hne⟩
    show upd h.heap_index (h.heap p) (-1) (h.heap q) = q
    rw [upd_ne _ _ hne]; exact a3
  · intro x h1 h2
    show upd h.heap_index (h.heap p) (-1) x = -1 ∨
      ∃ q, 1 ≤ q ∧ q ≤ h.heap_last ∧ q ≠ p ∧ upd h.heap_index (h.heap p) (-1) x = q ∧ h.heap q = x
    by_cases e : x = h.heap p
    · left; rw [e, upd_self]
    · rw [upd_ne _ _ e]
      rcases H.idx x h1 h2 with a | ⟨q, a1, a2, a3, a4⟩
      · exact Or.inl a
      · refine Or.inr ⟨q, a1, a2, ?_, a3, a4⟩
        intro e2; rw [e2] at a4; exact e a4.symm

/-- `heap_insert` returns; the invariants hold after it, and the heap holds
`x` and the elements it held. -/
theorem heap_insert_spec {α : Type} [LinearOrder α] {h : var_heap_t α} (H : HeapOk h)
    {x : Int} (h0 : 0 ≤ x) (h1 : x < h.size) :
    ∃ h', heap_insert h x = some h' ∧ HeapOk h' ∧
      h'.size = h.size ∧ h'.activity = h.activity ∧
      h'.act_increment = h.act_increment ∧ h'.inv_act_decay = h.inv_act_decay ∧
      (∀ y, InHeap h' y ↔ InHeap h y ∨ y = x) := by
  unfold heap_insert
  by_cases hi : h.heap_index x < 0
  · rw [if_pos hi]
    have hnx : ¬ InHeap h x := fun hx => by
      have := (H.index_of_inHeap hx).2.2
      omega
    have HH : HeapHole { h with heap_last := h.heap_last + 1 } (h.heap_last + 1) x := by
      refine ⟨H.zero, H.sent, ⟨h0, h1⟩, ⟨by omega, le_refl _⟩, ?_, ?_, ?_, ?_⟩
      · intro p a1 a2 a3
        have a2' : p ≤ h.heap_last + 1 := a2
        obtain ⟨b1, b2, b3⟩ := H.pos p a1 (by omega)
        exact ⟨b1, b2, b3, fun e => hnx ⟨p, a1, by omega, e⟩⟩
      · intro y a1 a2 _
        rcases H.idx y a1 a2 with a | ⟨p, b1, b2, b3, b4⟩
        · exact Or.inl a
        · exact Or.inr ⟨p, b1, by show p ≤ h.heap_last + 1; omega, by omega, b3, b4⟩
      · intro p a1 a2 a3 _
        have a2' : p ≤ h.heap_last + 1 := a2
        exact H.ord p a1 (by omega)
      · intro c a1 a2 a3 _
        have a2' : c ≤ h.heap_last + 1 := a2
        omega
    obtain ⟨h', e1, e2, e3, e4, e5, e6, e7, e8⟩ := update_up_spec HH (by
      intro c a1 a2 a3
      have a2' : c ≤ h.heap_last + 1 := a2
      omega)
    refine ⟨h', e1, e2, e3, e4, e6, e7, ?_⟩
    intro y
    rw [e8]
    constructor
    · rintro (⟨p, a1, a2, a3, a4⟩ | a)
      · have a2' : p ≤ h.heap_last + 1 := a2
        exact Or.inl ⟨p, a1, by omega, a4⟩
      · exact Or.inr a
    · rintro (⟨p, a1, a2, a3⟩ | a)
      · exact Or.inl ⟨p, a1, by show p ≤ h.heap_last + 1; omega, by omega, a3⟩
      · exact Or.inr a
  · rw [if_neg hi]
    refine ⟨h, rfl, H, rfl, rfl, rfl, rfl, ?_⟩
    intro y
    constructor
    · exact Or.inl
    · rintro (a | a)
      · exact a
      · rw [a]; exact (H.inHeap_iff h0 h1).2 (by omega)

/-- `heap_remove` returns; the invariants hold after it, and the heap holds
the elements it held other than `x`. -/
theorem heap_remove_spec {α : Type} [LinearOrder α] {h : var_heap_t α} (H : HeapOk h)
    {x : Int} (h0 : 0 ≤ x) (h1 : x < h.size) :
    ∃ h', heap_remove h x = some h' ∧ HeapOk h' ∧
      h'.size = h.size ∧ h'.activity = h.activity ∧
      h'.act_increment = h.act_increment ∧ h'.inv_act_decay = h.inv_act_decay ∧
      h'.heap_index x = -1 ∧
      (∀ y, InHeap h' y ↔ InHeap h y ∧ y ≠ x) := by
  unfold heap_remove
  dsimp only
  by_cases hi : h.heap_index x < 0
  · rw [if_pos hi]
    have hnx : ¬ InHeap h x := fun hx => by
      have := (H.index_of_inHeap hx).2.2
      omega
    refine ⟨h, rfl, H, rfl, rfl, rfl, rfl, H.index_of_not_inHeap h0 h1 hnx, ?_⟩
    intro y
    constructor
    · intro hy
      exact ⟨hy, fun e => hnx (e ▸ hy)⟩
    · exact fun hy => hy.1
  · rw [if_neg hi]
    rcases H.idx x h0 h1 with a | ⟨p, a1, a2, a3, a4⟩
    · omega
    · have hp : (h.heap_index x).toNat = p := by rw [a3]; rfl
      rw [hp]
      have HG := heapGone_of_ok H a1 a2
      rw [a4] at HG
      by_cases e : h.heap_index x = Int.ofNat h.heap_last
      · rw [if_pos e]
        have epl : h.heap_last = p := by
          rw [a3] at e
          exact (Int.ofNat.inj e).symm
        obtain ⟨h', e1, e2, e3, e4, e5, e6, e7, e8, e9⟩ := update_down_spec HG (by
          intro hne; exact absurd epl.symm hne)
        have e0 : update_down { h with heap_index := upd h.heap_index x (-1) } p
            = some { h with heap_index := upd h.heap_index x (-1),
                            heap_last := heap_last_decr h.heap_last } := by
          unfold update_down
          dsimp only
          rw [if_pos epl]
        rw [e0] at e1
        cases e1
        refine ⟨_, rfl, e2, e3, e4, e6, e7, ?_, ?_⟩
        · have := e8; rw [a4] at this; exact this
        · intro y
          have := e9 y
          rw [a4] at this
          exact this
      · rw [if_neg e]
        have hpl : p ≠ h.heap_last := by
          intro e2
          apply e
          rw [a3, e2]; rfl
        have hlast := H.pos h.heap_last (by omega) (le_refl _)
        have hxy : x ≠ h.heap h.heap_last := by
          intro e2
          rw [← a4] at e2
          exact hpl (H.inj a1 a2 (by omega) (le_refl _) e2)
        by_cases hprec : heap_precedes h.activity x (h.heap h.heap_last) = true
        · rw [if_pos hprec]
          obtain ⟨h', e1, e2, e3, e4, e5, e6, e7, e8, e9⟩ := update_down_spec HG (by
            intro _ hp2
            show heap_precedes h.activity (h.heap h.heap_last) (h.heap (p / 2)) = false
            have o := H.ord p hp2 a2
            rw [a4] at o
            exact heap_precedes_false_of_true_left hprec o)
          refine ⟨h', e1, e2, e3, e4, e6, e7, ?_, ?_⟩
          · have := e8; rw [a4] at this; exact this
          · intro y
            have := e9 y
            rw [a4] at this
            exact this
        · rw [if_neg hprec]
          rw [heap_last_decr_pos (by omega : 1 ≤ h.heap_last)]
          have hyx : heap_precedes h.activity (h.heap h.heap_last) x = true :=
            heap_precedes_total _ hxy (Bool.not_eq_true _ ▸ hprec)
          have HH : HeapHole
              { h with heap_index := upd h.heap_index x (-1),
                       heap := updN h.heap p (h.heap h.heap_last),
                       heap_last := h.heap_last - 1 } p (h.heap h.heap_last) := by
            refine ⟨?_, H.sent, ⟨hlast.1, hlast.2.1⟩, ⟨a1, by show p ≤ h.heap_last - 1; omega⟩,
              ?_, ?_, ?_, ?_⟩
            · show updN h.heap p _ 0 = -1
              unfold updN; rw [if_neg (by omega)]; exact H.zero
            · intro q b1 b2 b3
              have b2' : q ≤ h.heap_last - 1 := b2
              show 0 ≤ updN h.heap p _ q ∧ updN h.heap p _ q < h.size ∧
                upd h.heap_index x (-1) (updN h.heap p _ q) = q ∧ updN h.heap p _ q ≠ _
              have hq : updN h.heap p (h.heap h.heap_last) q = h.heap q := by
                unfold updN; rw [if_neg b3]
              rw [hq]
              obtain ⟨c1, c2, c3⟩ := H.pos q b1 (by omega)
              have hqx : h.heap q ≠ x := by
                rw [← a4]; intro e2; exact b3 (H.inj b1 (by omega) a1 a2 e2)
              refine ⟨c1, c2, ?_, ?_⟩
              · rw [upd_ne _ _ hqx]; exact c3
              · intro e2
                have := H.inj b1 (by omega) (by omega) (le_refl _) e2
                omega
            · intro y b1 b2 b3
              show upd h.heap_index x (-1) y = -1 ∨
                ∃ q, 1 ≤ q ∧ q ≤ h.heap_last - 1 ∧ q ≠ p ∧ upd h.heap_index x (-1) y = q ∧
                  updN h.heap p (h.heap h.heap_last) q = y
              by_cases e2 : y = x
              · left; rw [e2, upd_self]
              · rw [upd_ne _ _ e2]
                rcases H.idx y b1 b2 with a | ⟨q, c1, c2, c3, c4⟩
                · exact Or.inl a
                · have hqp : q ≠ p := by
                    intro e3; rw [e3, a4] at c4; exact e2 c4.symm
                  have hql : q ≠ h.heap_last := by
                    intro e3; rw [e3] at c4; exact b3 c4.symm
                  refine Or.inr ⟨q, c1, by omega, hqp, c3, ?_⟩
                  unfold updN; rw [if_neg hqp]; exact c4
            · intro q b1 b2 b3 b4
              have b2' : q ≤ h.heap_last - 1 := b2
              show heap_precedes h.activity (updN h.heap p _ q) (updN h.heap p _ (q / 2)) = false
              unfold updN
              rw [if_neg b3, if_neg b4]
              exact H.ord q b1 (by omega)
            · intro c b1 b2 b3 b4
              have b2' : c ≤ h.heap_last - 1 := b2
              show heap_precedes h.activity (updN h.heap p _ c) (updN h.heap p _ (p / 2)) = false
              unfold updN
              rw [if_neg (by omega), if_neg (by omega)]
              have o1 := H.ord c b1 (by omega)
              rw [b3] at o1
              exact heap_precedes_false_trans o1 (H.ord p b4 a2)
          obtain ⟨h', e1, e2, e3, e4, e5, e6, e7, e8⟩ := update_up_spec HH (by
            intro c b1 b2 b3
            have b2' : c ≤ h.heap_last - 1 := b2
            show heap_precedes h.activity (updN h.heap p _ c) _ = false
            unfold updN
            rw [if_neg (by omega)]
            have o1 := H.ord c b1 (by omega)
            rw [b3, a4] at o1
            exact heap_precedes_false_of_true o1 hyx)
          have hmem : ∀ y, InHeap h' y ↔ InHeap h y ∧ y ≠ x := by
            intro y
            rw [e8]
            constructor
            · rintro (⟨q, b1, b2, b3, b4⟩ | b)
              · have b2' : q ≤ h.heap_last - 1 := b2
                have b4' : updN h.heap p (h.heap h.heap_last) q = y := b4
                unfold updN at b4'
                rw [if_neg b3] at b4'
                refine ⟨⟨q, b1, by omega, b4'⟩, ?_⟩
                rw [← b4', ← a4]
                intro e9
                exact b3 (H.inj b1 (by omega) a1 a2 e9)
              · rw [b]
                exact ⟨⟨h.heap_last, by omega, le_refl _, rfl⟩, Ne.symm hxy⟩
            · rintro ⟨⟨q, b1, b2, b3⟩, hne⟩
              have hqp : q ≠ p := by
                intro e9; rw [e9, a4] at b3; exact hne b3.symm
              by_cases e9 : q = h.heap_last
              · right; rw [← b3, e9]
              · left
                refine ⟨q, b1, by show q ≤ h.heap_last - 1; omega, hqp, ?_⟩
                show updN h.heap p (h.heap h.heap_last) q = y
                unfold updN; rw [if_neg hqp]; exact b3
          refine ⟨h', e1, e2, e3, e4, e6, e7, ?_, hmem⟩
          apply e2.index_of_not_inHeap h0 (by rw [e3]; exact h1)
          rw [hmem]
          exact fun hh => hh.2 rfl

/-- No element of the heap precedes the element at position 1. -/
theorem HeapOk.top_first {α : Type} [LinearOrder α] {h : var_heap_t α} (H : HeapOk h) :
    ∀ p, 1 ≤ p → p ≤ h.heap_last →
      heap_precedes h.activity (h.heap p) (h.heap 1) = false := by
  intro p
  induction p using Nat.strong_induction_on with
  | _ p ih =>
    intro h1 h2
    by_cases e : p = 1
    · rw [e]; exact heap_precedes_irrefl _ _
    · exact heap_precedes_false_trans (H.ord p (by omega) h2)
        (ih (p / 2) (by omega) (by omega) (by omega))

/-- `heap_get_top` returns `null_bvar` on an empty heap; on a non-empty heap
it returns and removes the element at position 1, which precedes every other
element, and the invariants hold after it. -/
theorem heap_get_top_spec {α : Type} [LinearOrder α] {h : var_heap_t α} (H : HeapOk h) :
    (h.heap_last = 0 → heap_get_top h = some (null_bvar, h)) ∧
    (0 < h.heap_last →
      ∃ h', heap_get_top h = some (h.heap 1, h') ∧ HeapOk h' ∧
        h'.heap_last = h.heap_last - 1 ∧ h'.heap_index (h.heap 1) = -1 ∧
        h'.size = h.size ∧ h'.activity = h.activity ∧
        h'.act_increment = h.act_increment ∧ h'.inv_act_decay = h.inv_act_decay ∧
        (∀ y, InHeap h' y ↔ InHeap h y ∧ y ≠ h.heap 1) ∧
        ∀ p, 2 ≤ p → p ≤ h.heap_last →
          heap_precedes h.activity (h.heap 1) (h.heap p) = true) := by
  constructor
  · intro e
    unfold heap_get_top
    rw [if_pos e]
  · intro hl
    have HG := heapGone_of_ok H (le_refl 1) (by omega : 1 ≤ h.heap_last)
    obtain ⟨h', e1, e2, e3, e4, e5, e6, e7, e8, e9⟩ := update_down_spec HG (by
      intro _ h2; omega)
    refine ⟨h', ?_, e2, e5, e8, e3, e4, e6, e7, e9, ?_⟩
    · unfold heap_get_top
      rw [if_neg (by omega)]
      dsimp only
      rw [e1]
    · intro p h1 h2
      apply heap_precedes_total _ _ (H.top_first p (by omega) h2)
      intro e
      have := H.inj (by omega) h2 (le_refl 1) (by omega) e
      omega

/-- An increase of the activity of `x` leaves `x` after the elements that it
did not precede. -/
theorem heap_precedes_false_mono {α : Type} [LinearOrder α] {act act1 : Int → α} {c x : Int}
    (hc : act1 c = act c) (hx : act x ≤ act1 x)
    (h : heap_precedes act c x = false) : heap_precedes act1 c x = false := by
  rw [heap_precedes_false_iff] at h ⊢
  rw [hc]
  rcases h with h | ⟨h1, h2⟩
  · exact Or.inl (lt_of_lt_of_le h hx)
  · rcases lt_or_eq_of_le hx with h3 | h3
    · exact Or.inl (by rw [h1]; exact h3)
    · exact Or.inr ⟨by rw [h1]; exact h3, h2⟩

/-- `increase_bvar_activity` without rescaling returns; the invariants hold
after it and the heap holds the same elements. -/
theorem increase_bvar_activity_spec {α : Type} [LinearOrderedRing α] {h : var_heap_t α}
    (H : HeapOk h) (t tinv : α) (nvars : Nat) {x : Int} (h0 : 0 ≤ x) (h1 : x < h.size)
    (hinc : 0 ≤ h.act_increment) (ht : ¬ (h.activity x + h.act_increment > t))
    (htop : t ≤ h.activity (-1)) :
    ∃ h', increase_bvar_activity t tinv nvars h x = some h' ∧ HeapOk h' ∧
      h'.size = h.size ∧
      h'.activity = upd h.activity x (h.activity x + h.act_increment) ∧
      h'.heap_last = h.heap_last ∧
      h'.act_increment = h.act_increment ∧ h'.inv_act_decay = h.inv_act_decay ∧
      (∀ y, InHeap h' y ↔ InHeap h y) := by
  unfold increase_bvar_activity
  dsimp only
  rw [if_neg ht]
  have hact : ∀ y, y ≠ x → upd h.activity x (h.activity x + h.act_increment) y = h.activity y :=
    fun y hy => upd_ne _ _ hy
  have hactx : h.activity x ≤ upd h.activity x (h.activity x + h.act_increment) x := by
    rw [upd_self]
    exact le_add_of_nonneg_right hinc
  have hsent : ∀ y : Int, 0 ≤ y → y < h.size →
      upd h.activity x (h.activity x + h.act_increment) y
        ≤ upd h.activity x (h.activity x + h.act_increment) (-1) := by
    intro y a1 a2
    rw [hact (-1) (by omega)]
    by_cases e : y = x
    · rw [e, upd_self]
      exact le_trans (not_lt.1 ht) htop
    · rw [hact y e]; exact H.sent y a1 a2
  by_cases hi : h.heap_index x ≥ 0
  · rw [if_pos hi]
    rcases H.idx x h0 h1 with a | ⟨p, a1, a2, a3, a4⟩
    · omega
    · have hp : (h.heap_index x).toNat = p := by rw [a3]; rfl
      rw [hp]
      have hne : ∀ q, 1 ≤ q → q ≤ h.heap_last → q ≠ p → h.heap q ≠ x := by
        intro q b1 b2 b3 e
        rw [← a4] at e
        exact b3 (H.inj b1 b2 a1 a2 e)
      have HH : HeapHole { h with activity := upd h.activity x (h.activity x + h.act_increment) }
          p x := by
        refine ⟨H.zero, hsent, ⟨h0, h1⟩, ⟨a1, a2⟩, ?_, ?_, ?_, ?_⟩
        · intro q b1 b2 b3
          obtain ⟨c1, c2, c3⟩ := H.pos q b1 b2
          exact ⟨c1, c2, c3, hne q b1 b2 b3⟩
        · intro y b1 b2 b3
          rcases H.idx y b1 b2 with a | ⟨q, c1, c2, c3, c4⟩
          · exact Or.inl a
          · refine Or.inr ⟨q, c1, c2, ?_, c3, c4⟩
            intro e; rw [e, a4] at c4; exact b3 c4.symm
        · intro q b1 b2 b3 b4
          have b2' : q ≤ h.heap_last := b2
          show heap_precedes (upd h.activity x _) _ _ = false
          rw [heap_precedes_congr (hact _ (hne q (by omega) b2 b3))
            (hact _ (hne (q / 2) (by omega) (by omega) b4))]
          exact H.ord q b1 b2
        · intro c b1 b2 b3 b4
          have b2' : c ≤ h.heap_last := b2
          show heap_precedes (upd h.activity x _) _ _ = false
          rw [heap_precedes_congr (hact _ (hne c (by omega) b2 (by omega)))
            (hact _ (hne (p / 2) (by omega) (by omega) (by omega)))]
          have o1 := H.ord c b1 b2
          rw [b3] at o1
          exact heap_precedes_false_trans o1 (H.ord p b4 a2)
      obtain ⟨h', e1, e2, e3, e4, e5, e6, e7, e8⟩ := update_up_spec HH (by
        intro c b1 b2 b3
        show heap_precedes (upd h.activity x _) _ _ = false
        have o1 := H.ord c b1 b2
        rw [b3, a4] at o1
        exact heap_precedes_false_mono (hact _ (hne c (by omega) b2 (by omega))) hactx o1)
      refine ⟨h', e1, e2, e3, e4, e5, e6, e7, ?_⟩
      intro y
      rw [e8]
      constructor
      · rintro (⟨q, b1, b2, b3, b4⟩ | b)
        · exact ⟨q, b1, b2, b4⟩
        · exact ⟨p, a1, a2, by rw [b]; exact a4⟩
      · rintro ⟨q, b1, b2, b3⟩
        by_cases e : q = p
        · right; rw [← b3, e, a4]
        · left; exact ⟨q, b1, b2, e, b3⟩
  · rw [if_neg hi]
    have hne : ∀ q, 1 ≤ q → q ≤ h.heap_last → h.heap q ≠ x := by
      intro q b1 b2 e
      have := (H.pos q b1 b2).2.2
      rw [e] at this
      omega
    refine ⟨_, rfl, ⟨H.zero, hsent, H.pos, H.idx, ?_⟩, rfl, rfl, rfl, rfl, rfl,
      fun y => Iff.rfl⟩
    intro q b1 b2
    have b2' : q ≤ h.heap_last := b2
    show heap_precedes (upd h.activity x _) _ _ = false
    rw [heap_precedes_congr (hact _ (hne q (by omega) b2))
      (hact _ (hne (q / 2) (by omega) (by omega)))]
    exact H.ord q b1 b2

theorem init_heap_ok {α : Type} [LinearOrderedRing α] (h : var_heap_t α) (n : Nat)
    {dmax : α} (inc decay : α) (hd : 0 ≤ dmax) : HeapOk (init_heap h n dmax inc decay) := by
  refine ⟨rfl, ?_, ?_, ?_, ?_⟩
  · intro x h0 h1
    have e1 : (init_heap h n dmax inc decay).activity (-1) = dmax := by
      show (if (-1 : Int) = -1 then dmax else
        if 0 ≤ (-1 : Int) ∧ (-1 : Int) < (n : Int) then (0 : α) else h.activity (-1)) = dmax
      rw [if_pos rfl]
    have e2 : (init_heap h n dmax inc decay).activity x = 0 := by
      show (if x = -1 then dmax else if 0 ≤ x ∧ x < (n : Int) then (0 : α) else h.activity x)
        = 0
      rw [if_neg (by omega), if_pos ⟨h0, h1⟩]
    rw [e1, e2]
    exact hd
  · intro p h1 h2
    have : p ≤ 0 := h2
    omega
  · intro x h0 h1
    left
    show (if 0 ≤ x ∧ x < (n : Int) then (-1 : Int) else h.heap_index x) = -1
    rw [if_pos ⟨h0, h1⟩]
  · intro p h1 h2
    have : p ≤ 0 := h2
    omega

theorem extend_heap_ok {α : Type} [LinearOrderedRing α] {h : var_heap_t α} (H : HeapOk h)
    {n : Nat} (hn : h.size ≤ n) (htop : 0 ≤ h.activity (-1)) :
    HeapOk (extend_heap h n) ∧ (∀ y, InHeap (extend_heap h n) y ↔ InHeap h y) ∧
    (extend_heap h n).activity (-1) = h.activity (-1) := by
  have hact : ∀ y : Int, y < h.size → (extend_heap h n).activity y = h.activity y := by
    intro y hy
    show (if (h.size : Int) ≤ y ∧ y < n then (0 : α) else h.activity y) = _
    rw [if_neg (by omega)]
  have hidx : ∀ y : Int, y < h.size → (extend_heap h n).heap_index y = h.heap_index y := by
    intro y hy
    show (if (h.size : Int) ≤ y ∧ y < n then (-1 : Int) else h.heap_index y) = _
    rw [if_neg (by omega)]
  refine ⟨⟨H.zero, ?_, ?_, ?_, ?_⟩, fun y => Iff.rfl, hact (-1) (by omega)⟩
  · intro x h0 h1
    rw [hact (-1) (by omega)]
    by_cases e : x < h.size
    · rw [hact x e]; exact H.sent x h0 e
    · show (if (h.size : Int) ≤ x ∧ x < n then (0 : α) else h.activity x) ≤ _
      rw [if_pos ⟨by omega, h1⟩]
      exact htop
  · intro p h1 h2
    obtain ⟨a1, a2, a3⟩ := H.pos p h1 h2
    refine ⟨a1, ?_, ?_⟩
    · show h.heap p < (n : Int)
      have : (h.size : Int) ≤ n := by exact_mod_cast hn
      omega
    · show (extend_heap h n).heap_index (h.heap p) = p
      rw [hidx _ a2]; exact a3
  · intro x h0 h1
    by_cases e : x < h.size
    · rw [hidx x e]; exact H.idx x h0 e
    · left
      show (if (h.size : Int) ≤ x ∧ x < n then (-1 : Int) else h.heap_index x) = -1
      rw [if_pos ⟨by omega, h1⟩]
  · intro p h1 h2
    have h2' : p ≤ h.heap_last := h2
    show heap_precedes (extend_heap h n).activity (h.heap p) (h.heap (p / 2)) = false
    rw [heap_precedes_congr (hact _ (H.pos p (by omega) h2).2.1)
      (hact _ (H.pos (p / 2) (by omega) (by omega : p / 2 ≤ h.heap_last)).2.1)]
    exact H.ord p h1 h2

/-- Invariants of the reachable states of the heap. -/
theorem heapOk_of_reach {α : Type} [LinearOrderedRing α] {t tinv dmax inc decay : α}
    {h0 : var_heap_t α} {n : Nat} {h : var_heap_t α} (hd : 0 ≤ dmax) (ht : t ≤ dmax)
    (hi : 0 ≤ inc) (hr : HeapReach t tinv dmax inc decay h0 n h) :
    HeapOk h ∧ h.activity (-1) = dmax ∧ h.act_increment = inc := by
  induction hr with
  | init => exact ⟨init_heap_ok h0 n inc decay hd, rfl, rfl⟩
  | insert x _ hx0 hx1 he ih =>
    obtain ⟨h', e1, e2, e3, e4, e5, e6, e7⟩ := heap_insert_spec ih.1 hx0 hx1
    rw [he] at e1; cases e1
    exact ⟨e2, by rw [e4]; exact ih.2.1, by rw [e5]; exact ih.2.2⟩
  | remove x _ hx0 hx1 he ih =>
    obtain ⟨h', e1, e2, e3, e4, e5, e6, e7⟩ := heap_remove_spec ih.1 hx0 hx1
    rw [he] at e1; cases e1
    exact ⟨e2, by rw [e4]; exact ih.2.1, by rw [e5]; exact ih.2.2⟩
  | @get_top h h1 x _ he ih =>
    by_cases e : h.heap_last = 0
    · rw [(heap_get_top_spec ih.1).1 e] at he
      cases he
      exact ih
    · obtain ⟨h', e1, e2, e3, e4, e5, e6, e7, e8, e9⟩ := (heap_get_top_spec ih.1).2 (by omega)
      rw [he] at e1; cases e1
      exact ⟨e2, by rw [e6]; exact ih.2.1, by rw [e7]; exact ih.2.2⟩
  | increase x nvars _ hx0 hx1 hno he ih =>
    obtain ⟨h', e1, e2, e3, e4, e5, e6, e7, e8⟩ :=
      increase_bvar_activity_spec ih.1 t tinv nvars hx0 hx1 (by rw [ih.2.2]; exact hi) hno
        (by rw [ih.2.1]; exact ht)
    rw [he] at e1; cases e1
    refine ⟨e2, ?_, by rw [e6]; exact ih.2.2⟩
    rw [e4, upd_ne _ _ (by omega)]
    exact ih.2.1

/-- Claim C18: in every state of the heap reachable from `init_heap` by
`heap_insert`, `heap_remove`, `heap_get_top` and `increase_bvar_activity`
without rescaling, `heap_index[heap[i]] = i` for `1 ≤ i ≤ heap_last`,
`heap_index[x] = -1` for every variable `x` below `size` that is not in
`heap[1 .. heap_last]`, and no element strictly precedes its parent in the
order of `heap_cmp`.  On an empty heap `heap_get_top` returns `null_bvar`; on
a non-empty heap it returns and removes `heap[1]`, which strictly precedes
every other element of the heap and is preceded by none.  Each of the four
operations returns.  The constants satisfy `0 ≤ DBL_MAX`, threshold
`≤ DBL_MAX` and `0 ≤` initial increment. -/
theorem heap_invariants {α : Type} [LinearOrderedRing α] {t tinv dmax inc decay : α}
    {h0 : var_heap_t α} {n : Nat} {h : var_heap_t α} (hd : 0 ≤ dmax) (ht : t ≤ dmax)
    (hi : 0 ≤ inc) (hr : HeapReach t tinv dmax inc decay h0 n h) :
    (∀ i, 1 ≤ i → i ≤ h.heap_last → h.heap_index (h.heap i) = i) ∧
    (∀ x : Int, 0 ≤ x → x < h.size → ¬ InHeap h x → h.heap_index x = -1) ∧
    (∀ i, 2 ≤ i → i ≤ h.heap_last →
      heap_precedes h.activity (h.heap i) (h.heap (i / 2)) = false) ∧
    (h.heap_last = 0 → heap_get_top h = some (null_bvar, h)) ∧
    (0 < h.heap_last →
      ∃ h1, heap_get_top h = some (h.heap 1, h1) ∧ HeapOk h1 ∧
        h1.heap_last = h.heap_last - 1 ∧ h1.heap_index (h.heap 1) = -1 ∧
        (∀ y, InHeap h1 y ↔ InHeap h y ∧ y ≠ h.heap 1) ∧
        ∀ y, InHeap h y → y ≠ h.heap 1 →
          heap_precedes h.activity (h.heap 1) y = true ∧
          heap_precedes h.activity y (h.heap 1) = false) ∧
    HeapOk h ∧
    (∀ x : Int, 0 ≤ x → x < h.size →
      (∃ h1, heap_insert h x = some h1) ∧ (∃ h1, heap_remove h x = some h1) ∧
      (¬ (h.activity x + h.act_increment > t) →
        ∀ nvars, ∃ h1, increase_bvar_activity t tinv nvars h x = some h1)) := by
  obtain ⟨H, hm, hinc⟩ := heapOk_of_reach hd ht hi hr
  refine ⟨fun i h1 h2 => (H.pos i h1 h2).2.2, fun x h1 h2 h3 => H.index_of_not_inHeap h1 h2 h3,
    H.ord, (heap_get_top_spec H).1, ?_, H, ?_⟩
  · intro hl
    obtain ⟨h', e1, e2, e3, e4, e5, e6, e7, e8, e9, e10⟩ := (heap_get_top_spec H).2 hl
    refine ⟨h', e1, e2, e3, e4, e9, ?_⟩
    rintro y ⟨p, a1, a2, a3⟩ hne
    have hp : 2 ≤ p := by
      by_contra hlt
      have : p = 1 := by omega
      rw [this] at a3
      exact hne a3.symm
    rw [← a3]
    exact ⟨e10 p hp a2, heap_precedes_asymm (e10 p hp a2)⟩
  · intro x h1 h2
    refine ⟨?_, ?_, ?_⟩
    · obtain ⟨h', e1, -⟩ := heap_insert_spec H h1 h2
      exact ⟨h', e1⟩
    · obtain ⟨h', e1, -⟩ := heap_remove_spec H h1 h2
      exact ⟨h', e1⟩
    · intro hno nvars
      obtain ⟨h', e1, -⟩ := increase_bvar_activity_spec H t tinv nvars h1 h2
        (by rw [hinc]; exact hi) hno (by rw [hm]; exact ht)
      exact ⟨h', e1⟩

theorem heap_invariants_witness :
    sample_heap3.heap_last = 2 ∧ sample_heap3.heap 1 = 5 ∧ sample_heap3.heap 2 = 3 ∧
    sample_heap3.activity 5 = 1 ∧ sample_heap3.activity 3 = 0 ∧
    (heap_get_top sample_heap3).map (fun r => r.1) = some 5 ∧
    HeapReach (100 : Int) 1 1000 1 2 sample_heap_blank 8 sample_heap3 ∧
    (∀ i, 1 ≤ i → i ≤ sample_heap3.heap_last →
      sample_heap3.heap_index (sample_heap3.heap i) = i) ∧
    (∀ i, 2 ≤ i → i ≤ sample_heap3.heap_last →
      heap_precedes sample_heap3.activity (sample_heap3.heap i) (sample_heap3.heap (i / 2))
        = false) :=
  have hr : HeapReach (100 : Int) 1 1000 1 2 sample_heap_blank 8 sample_heap3 :=
    HeapReach.increase 5 8
      (HeapReach.insert 5
        (HeapReach.insert 3 HeapReach.init (by decide) (by decide) rfl)
        (by decide) (by decide) rfl)
      (by decide) (by decide) (by decide) rfl
  have h := heap_invariants (by decide) (by decide) (by decide) hr
  ⟨by decide, by decide, by decide, by decide, by decide, by decide, hr, h.1, h.2.2.1⟩

/-- The element at position 1 precedes the other elements of the heap. -/
theorem HeapOk.top_precedes {α : Type} [LinearOrder α] {h : var_heap_t α} (H : HeapOk h)
    {y : Int} (hy : InHeap h y) (hne : y ≠ h.heap 1) :
    heap_precedes h.activity (h.heap 1) y = true := by
  obtain ⟨p, a1, a2, a3⟩ := hy
  have hl : 0 < h.heap_last := by omega
  obtain ⟨h', e1, e2, e3, e4, e5, e6, e7, e8, e9, e10⟩ := (heap_get_top_spec H).2 hl
  have hp : 2 ≤ p := by
    by_contra hlt
    have : p = 1 := by omega
    rw [this] at a3
    exact hne a3.symm
  rw [← a3]
  exact e10 p hp a2

/-- The loop of `select_unassigned_literal` returns: either the heap held no
unassigned variable and is now empty, or the result `x` is an unassigned
variable of the heap that precedes the other unassigned variables, and the
heap holds the elements that `x` precedes. -/
theorem select_loop_spec {α : Type} [LinearOrder α] (value : Int → bval_t)
    (hend : value (-2) = VAL_UNDEF) (fuel : Nat) :
    ∀ h : var_heap_t α, HeapOk h → h.heap_last < fuel →
      ∃ x h1, select_loop value fuel h = some (x, h1) ∧ HeapOk h1 ∧
        h1.size = h.size ∧ h1.activity = h.activity ∧
        ((x = -1 ∧ h1.heap_last = 0 ∧ ∀ y, InHeap h y → value (pos_lit y) ≠ VAL_UNDEF) ∨
         (InHeap h x ∧ value (pos_lit x) = VAL_UNDEF ∧
          (∀ y, InHeap h y → y ≠ x → value (pos_lit y) = VAL_UNDEF →
            heap_precedes h.activity x y = true) ∧
          (∀ y, InHeap h1 y ↔ InHeap h y ∧ heap_precedes h.activity x y = true))) := by
  induction fuel with
  | zero => intro h _ hf; omega
  | succ n ih =>
    intro h H hf
    unfold select_loop
    by_cases e : h.heap_last = 0
    · rw [(heap_get_top_spec H).1 e]
      dsimp only
      have : value (pos_lit null_bvar) = VAL_UNDEF := hend
      rw [if_neg (by rw [this]; simp)]
      refine ⟨_, _, rfl, H, rfl, rfl, Or.inl ⟨rfl, e, ?_⟩⟩
      rintro y ⟨p, a1, a2, a3⟩
      omega
    · obtain ⟨h', e1, e2, e3, e4, e5, e6, e7, e8, e9, e10⟩ :=
        (heap_get_top_spec H).2 (by omega)
      rw [e1]
      dsimp only
      by_cases hv : value (pos_lit (h.heap 1)) ≠ VAL_UNDEF
      · rw [if_pos hv]
        obtain ⟨x, h1, f1, f2, f3, f4, f5⟩ := ih h' e2 (by omega)
        refine ⟨x, h1, f1, f2, by rw [f3, e5], by rw [f4, e6], ?_⟩
        rcases f5 with ⟨g1, g2, g3⟩ | ⟨g1, g2, g3, g4⟩
        · left
          refine ⟨g1, g2, ?_⟩
          intro y hy
          by_cases ey : y = h.heap 1
          · rw [ey]; exact hv
          · exact g3 y ((e9 y).2 ⟨hy, ey⟩)
        · right
          have hx := (e9 x).1 g1
          refine ⟨hx.1, g2, ?_, ?_⟩
          · intro y hy hne hu
            have ey : y ≠ h.heap 1 := by
              intro ey; rw [ey] at hu; exact hv hu
            have := g3 y ((e9 y).2 ⟨hy, ey⟩) hne hu
            rw [e6] at this
            exact this
          · intro y
            rw [g4, e9, e6]
            constructor
            · rintro ⟨⟨a1, _⟩, a3⟩
              exact ⟨a1, a3⟩
            · rintro ⟨a1, a2⟩
              refine ⟨⟨a1, ?_⟩, a2⟩
              intro ey
              have := heap_precedes_asymm (H.top_precedes hx.1 hx.2)
              rw [ey, this] at a2
              cases a2
      · rw [if_neg hv]
        have hv' : value (pos_lit (h.heap 1)) = VAL_UNDEF := by
          by_contra hn; exact hv hn
        have htop : InHeap h (h.heap 1) := ⟨1, le_refl 1, by omega, rfl⟩
        refine ⟨_, _, rfl, e2, e5, e6, Or.inr ⟨htop, hv', ?_, ?_⟩⟩
        · intro y hy hne _
          exact H.top_precedes hy hne
        · intro y
          rw [e9]
          constructor
          · rintro ⟨a1, a2⟩
            exact ⟨a1, H.top_precedes a1 a2⟩
          · rintro ⟨a1, a2⟩
            refine ⟨a1, ?_⟩
            intro ey
            rw [ey, heap_precedes_irrefl] at a2
            cases a2

/-- Claim C20: with `scaled_random = 0`, in a state where the invariants of
the assignment and of the heap hold and the heap holds variables of the core,
`select_unassigned_literal` returns.  It returns `null_literal` iff the heap
holds no unassigned variable (the heap is then empty).  Otherwise it returns
`pos_lit(x)` if `polarity[x]` is set and `neg_lit(x)` if not, where `x` is an
unassigned variable of the heap that precedes every other unassigned variable
of the heap: the first one popped.  The returned literal is Undef, and the
elements left in the heap are those that `x` precedes: the elements popped
before `x` are assigned. -/
theorem select_unassigned_literal_spec {α : Type} [LinearOrder α] {s : smt_core_t}
    {h : var_heap_t α} (H : HeapOk h) (hA : AssignInv s)
    (hv : ∀ x, InHeap h x → x < s.nvars) (rnd : Nat) (rx : Int) :
    ∃ l h1, select_unassigned_literal s h 0 rnd rx = some (l, h1) ∧ HeapOk h1 ∧
      (l = null_literal ↔ ∀ x, InHeap h x → s.value (pos_lit x) ≠ VAL_UNDEF) ∧
      (l = null_literal → h1.heap_last = 0) ∧
      (l ≠ null_literal →
        ∃ x, InHeap h x ∧ s.value (pos_lit x) = VAL_UNDEF ∧
          l = (if s.polarity x then pos_lit x else neg_lit x) ∧
          s.value l = VAL_UNDEF ∧
          (∀ y, InHeap h y → y ≠ x → s.value (pos_lit y) = VAL_UNDEF →
            heap_precedes h.activity x y = true) ∧
          (∀ y, InHeap h y → heap_precedes h.activity x y = false → y ≠ x →
            s.value (pos_lit y) ≠ VAL_UNDEF) ∧
          (∀ y, InHeap h1 y ↔ InHeap h y ∧ heap_precedes h.activity x y = true)) := by
  obtain ⟨x, h1, e1, e2, e3, e4, e5⟩ :=
    select_loop_spec s.value hA.end2 (h.heap_last + 1) h H (by omega)
  unfold select_unassigned_literal
  rw [if_neg (by omega), e1]
  dsimp only
  rcases e5 with ⟨g1, g2, g3⟩ | ⟨g1, g2, g3, g4⟩
  · rw [if_pos (by omega)]
    exact ⟨_, _, rfl, e2, ⟨fun _ => g3, fun _ => rfl⟩, fun _ => g2, fun hne => absurd rfl hne⟩
  · have hx := H.index_of_inHeap g1
    have hxn := hv x g1
    rw [if_neg (by omega)]
    have hlit : ∀ l : Int, l = (if s.polarity x = true then pos_lit x else neg_lit x) →
        l ≠ null_literal ∧ s.value l = VAL_UNDEF := by
      intro l hl
      have hp0 : 0 ≤ pos_lit x := by unfold pos_lit; omega
      have hp1 : pos_lit x < s.nlits := by
        rw [hA.nlits_eq]; unfold pos_lit; push_cast; omega
      have hneg : neg_lit x = not_lit (pos_lit x) := by
        unfold neg_lit not_lit pos_lit
        rw [if_pos (by omega)]
      have hnu : s.value (neg_lit x) = VAL_UNDEF := by
        rw [hneg]
        exact (valSym_undef_iff hA.sym hp0 hp1).2 g2
      by_cases hpol : s.polarity x = true
      · rw [if_pos hpol] at hl
        rw [hl]
        exact ⟨by unfold null_literal; omega, g2⟩
      · rw [if_neg hpol] at hl
        rw [hl]
        exact ⟨by unfold null_literal neg_lit; omega, hnu⟩
    refine ⟨_, _, rfl, e2, ⟨fun hl => absurd hl (hlit _ rfl).1, fun hall => absurd g2 (hall x g1)⟩,
      fun hl => absurd hl (hlit _ rfl).1, fun _ => ⟨x, g1, g2, rfl, (hlit _ rfl).2, g3, ?_, g4⟩⟩
    intro y hy hny hne hu
    rw [g3 y hy hne hu] at hny
    cases hny

theorem heap_insert_all_spec {α : Type} [LinearOrder α] (ls : List Int) :
    ∀ h : var_heap_t α, HeapOk h → (∀ l ∈ ls, 0 ≤ var_of l ∧ var_of l < h.size) →
      ∃ h1, heap_insert_all ls h = some h1 ∧ HeapOk h1 ∧ h1.size = h.size ∧
        h1.activity = h.activity ∧
        (∀ y, InHeap h1 y ↔ InHeap h y ∨ ∃ l ∈ ls, y = var_of l) := by
  induction ls with
  | nil =>
    intro h H _
    exact ⟨h, rfl, H, rfl, rfl, fun y => by simp⟩
  | cons l ls ih =>
    intro h H hl
    obtain ⟨a1, a2⟩ := hl l (List.mem_cons_self _ _)
    obtain ⟨h1, e1, e2, e3, e4, e5, e6, e7⟩ := heap_insert_spec H a1 a2
    obtain ⟨h2, f1, f2, f3, f4, f5⟩ := ih h1 e2 (fun m hm => by
      rw [e3]; exact hl m (List.mem_cons_of_mem _ hm))
    refine ⟨h2, ?_, f2, by rw [f3, e3], by rw [f4, e4], ?_⟩
    · unfold heap_insert_all
      rw [e1]
      exact f1
    · intro y
      rw [f5, e7]
      simp only [List.mem_cons, exists_eq_or_imp]
      tauto

theorem var_of_neg_lit (x : Int) : var_of (neg_lit x) = x := by
  unfold var_of neg_lit; omega

theorem valid_lit_var {s : smt_core_t} (hn : s.nlits = 2 * s.nvars) {l : Int}
    (h : valid_lit s l) : 1 ≤ var_of l ∧ var_of l < s.nvars := by
  obtain ⟨h1, h2⟩ := h
  rw [hn] at h2
  push_cast at h2
  unfold var_of
  omega

/-- An assignment of `l` that leaves the heap unchanged keeps the invariants. -/
theorem searchHeapInv_assign {α : Type} [LinearOrderedRing α] {s t : smt_core_t}
    {h : var_heap_t α} (J : SearchHeapInv s h) {l : Int} (hl : valid_lit s l)
    (e1 : t.nvars = s.nvars) (e2 : t.nlits = s.nlits)
    (e3 : t.value = upd (upd s.value l VAL_TRUE) (not_lit l) VAL_FALSE)
    (e4 : t.stack.lit = s.stack.lit ++ [l]) : SearchHeapInv t h := by
  have hv : ∀ x : Int, t.value x = VAL_UNDEF → s.value x = VAL_UNDEF := by
    intro x hx
    rw [e3] at hx
    unfold upd at hx
    by_cases a : x = not_lit l
    · rw [if_pos a] at hx; cases hx
    · rw [if_neg a] at hx
      by_cases b : x = l
      · rw [if_pos b] at hx; cases hx
      · rw [if_neg b] at hx; exact hx
  refine ⟨J.ok, J.top, by rw [e1]; exact J.size, by rw [e1, e2]; exact J.nlits_eq,
    by rw [e1]; exact J.nvars_pos, ?_, ?_, by rw [e1]; exact J.elems, ?_⟩
  · rw [e3, upd_ne _ _ (by have := not_lit_ge_two hl.1; omega), upd_ne _ _ (by have := hl.1; omega)]
    exact J.end2
  · intro m hm
    rw [e4] at hm
    have hs : valid_lit s m := by
      rcases List.mem_append.1 hm with a | a
      · exact J.trail_valid m a
      · rw [List.mem_singleton.1 a]; exact hl
    exact ⟨hs.1, by rw [e2]; exact hs.2⟩
  · intro x a1 a2 a3
    exact J.unassigned x a1 (by rw [← e1]; exact a2) (hv _ a3)

/-- The result of `select_unassigned_literal` with `scaled_random = 0` in terms
of the result of its loop. -/
theorem select_unassigned_literal_cases {α : Type} [LinearOrder α] {s : smt_core_t}
    {h h1 : var_heap_t α} {rnd : Nat} {rx l : Int} (H : HeapOk h)
    (hend : s.value (-2) = VAL_UNDEF)
    (e : select_unassigned_literal s h 0 rnd rx = some (l, h1)) :
    HeapOk h1 ∧ h1.size = h.size ∧ h1.activity = h.activity ∧
    ((l = null_literal ∧ h1.heap_last = 0 ∧
        ∀ y, InHeap h y → s.value (pos_lit y) ≠ VAL_UNDEF) ∨
     (∃ x, InHeap h x ∧ (l = pos_lit x ∨ l = neg_lit x) ∧ s.value (pos_lit x) = VAL_UNDEF ∧
        (∀ y, InHeap h y → y ≠ x → s.value (pos_lit y) = VAL_UNDEF →
          heap_precedes h.activity x y = true) ∧
        (∀ y, InHeap h1 y ↔ InHeap h y ∧ heap_precedes h.activity x y = true))) := by
  obtain ⟨x, h2, e1, e2, e3, e4, e5⟩ :=
    select_loop_spec s.value hend (h.heap_last + 1) h H (by omega)
  unfold select_unassigned_literal at e
  rw [if_neg (by omega), e1] at e
  dsimp only at e
  rcases e5 with ⟨g1, g2, g3⟩ | ⟨g1, g2, g3, g4⟩
  · rw [if_pos (by omega)] at e
    cases e
    exact ⟨e2, e3, e4, Or.inl ⟨rfl, g2, g3⟩⟩
  · have hx := H.index_of_inHeap g1
    rw [if_neg (by omega)] at e
    cases e
    refine ⟨e2, e3, e4, Or.inr ⟨x, g1, ?_, g2, g3, g4⟩⟩
    by_cases hp : s.polarity x = true
    · left; rw [if_pos hp]
    · right; rw [if_neg hp]

/-- The invariants of the core and its heap hold in the reachable states. -/
theorem searchHeapInv_of_reach {α : Type} [LinearOrderedRing α] {s0 : smt_core_t}
    {mode : smt_mode_t} {h0 : var_heap_t α} {n : Nat} {dmax inc decay : α}
    {s : smt_core_t} {h : var_heap_t α} (hd : 0 ≤ dmax) (hn : 1 ≤ n)
    (hr : SearchHeapReach s0 mode h0 n dmax inc decay s h) : SearchHeapInv s h := by
  induction hr with
  | init =>
    refine ⟨init_heap_ok h0 n inc decay hd, ?_, hn, rfl, le_refl 1, ?_, ?_, ?_, ?_⟩
    · have e1 : (init_heap h0 n dmax inc decay).activity (-1) = dmax := rfl
      rw [e1]; exact hd
    · show upd (upd (upd (upd s0.value (-2) VAL_UNDEF) (-1) VAL_UNDEF) true_literal VAL_TRUE)
        false_literal VAL_FALSE (-2) = VAL_UNDEF
      simp [upd, true_literal, false_literal]
    · intro l hl
      cases hl
    · rintro x ⟨p, a1, a2, a3⟩
      have : p ≤ 0 := a2
      omega
    · intro x a1 a2
      have : x < 1 := a2
      omega
  | @create s h h1 _ he J =>
    unfold create_boolean_variable_heap at he
    dsimp only at he
    have hsz := J.size
    have hX : ∃ h2 : var_heap_t α, heap_insert h2 s.nvars = some h1 ∧ HeapOk h2 ∧
        (s.nvars : Int) < h2.size ∧ h2.activity (-1) = h.activity (-1) ∧
        ∀ y, InHeap h2 y ↔ InHeap h y := by
      by_cases c : s.nvars ≥ h.size
      · rw [if_pos c] at he
        obtain ⟨x1, x2, x3⟩ := extend_heap_ok J.ok
          (by omega : h.size ≤ h.size + 1 + (h.size + 1) / 2) J.top
        refine ⟨_, he, x1, ?_, x3, x2⟩
        show (s.nvars : Int) < ((h.size + 1 + (h.size + 1) / 2 : Nat) : Int)
        have : s.nvars < h.size + 1 + (h.size + 1) / 2 := by omega
        exact_mod_cast this
      · rw [if_neg c] at he
        refine ⟨h, he, J.ok, ?_, rfl, fun y => Iff.rfl⟩
        have : s.nvars < h.size := by omega
        exact_mod_cast this
    obtain ⟨h2, f1, f2, f3, f4, f5⟩ := hX
    obtain ⟨h3, g1, g2, g3, g4, g5, g6, g7⟩ :=
      heap_insert_spec f2 (by omega : (0 : Int) ≤ s.nvars) f3
    rw [f1] at g1
    cases g1
    have hnv : (create_boolean_variable s).nvars = s.nvars + 1 := rfl
    have hnl : (create_boolean_variable s).nlits = s.nlits + 2 := rfl
    have hval : (create_boolean_variable s).value
        = upd (upd s.value (pos_lit s.nvars) VAL_UNDEF) (neg_lit s.nvars) VAL_UNDEF := rfl
    have hnp := J.nvars_pos
    refine ⟨g2, by rw [g4, f4]; exact J.top, ?_, by rw [hnv, hnl, J.nlits_eq]; omega,
      by rw [hnv]; omega, ?_, ?_, ?_, ?_⟩
    · rw [hnv]
      have : (s.nvars : Int) < h1.size := by rw [g3]; exact f3
      have : s.nvars < h1.size := by exact_mod_cast this
      omega
    · rw [hval, upd_ne _ _ (by unfold neg_lit; omega), upd_ne _ _ (by unfold pos_lit; omega)]
      exact J.end2
    · intro l hl
      have := J.trail_valid l hl
      exact ⟨this.1, by rw [hnl]; have := this.2; push_cast; omega⟩
    · intro x hx
      rw [hnv]
      push_cast
      rcases (g7 x).1 hx with a | a
      · have := J.elems x ((f5 x).1 a)
        omega
      · rw [a]; omega
    · intro x a1 a2 a3
      rw [g7]
      by_cases ex : x = s.nvars
      · exact Or.inr ex
      · left
        rw [f5]
        rw [hnv] at a2
        push_cast at a2
        apply J.unassigned x a1 (by omega)
        rw [hval, upd_ne _ _ (by unfold pos_lit neg_lit; omega),
          upd_ne _ _ (by unfold pos_lit; omega)] at a3
        exact a3
  | decide l _ hl _ J => exact searchHeapInv_assign J hl rfl rfl rfl rfl
  | implied l a _ hl _ J => exact searchHeapInv_assign J hl rfl rfl rfl rfl
  | @select s h h1 rnd rx l _ he hne J =>
    obtain ⟨e2, e3, e4, e5⟩ := select_unassigned_literal_cases J.ok J.end2 he
    rcases e5 with ⟨g1, -⟩ | ⟨x, g1, g2, g3, g4, g5⟩
    · exact absurd g1 hne
    · have hx := J.elems x g1
      have hl : valid_lit s l := by
        refine ⟨?_, ?_⟩
        · rcases g2 with a | a <;> rw [a] <;> [unfold pos_lit; unfold neg_lit] <;> omega
        · rw [J.nlits_eq]
          push_cast
          rcases g2 with a | a <;> rw [a] <;> [unfold pos_lit; unfold neg_lit] <;> omega
      have J1 : SearchHeapInv (decide_literal s l) h :=
        searchHeapInv_assign J hl rfl rfl rfl rfl
      have hass : (decide_literal s l).value (pos_lit x) ≠ VAL_UNDEF := by
        show upd (upd s.value l VAL_TRUE) (not_lit l) VAL_FALSE (pos_lit x) ≠ VAL_UNDEF
        rcases g2 with a | a
        · rw [a, upd_ne _ _ (not_lit_ne _).symm, upd_self]; simp
        · have : not_lit l = pos_lit x := by
            rw [a]; unfold not_lit neg_lit pos_lit
            rw [if_neg (by omega)]; omega
          rw [this, upd_self]; simp
      have hkeep : ∀ y : Int, (decide_literal s l).value y = VAL_UNDEF → s.value y = VAL_UNDEF := by
        intro y hy
        have hy' : upd (upd s.value l VAL_TRUE) (not_lit l) VAL_FALSE y = VAL_UNDEF := hy
        unfold upd at hy'
        by_cases a : y = not_lit l
        · rw [if_pos a] at hy'; cases hy'
        · rw [if_neg a] at hy'
          by_cases b : y = l
          · rw [if_pos b] at hy'; cases hy'
          · rw [if_neg b] at hy'; exact hy'
      refine ⟨e2, by rw [e4]; exact J1.top, by rw [e3]; exact J1.size, J1.nlits_eq, J1.nvars_pos,
        J1.end2, J1.trail_valid, ?_, ?_⟩
      · intro y hy
        exact J1.elems y ((g5 y).1 hy).1
      · intro y a1 a2 a3
        have hyx : y ≠ x := by
          intro e; rw [e] at a3; exact hass a3
        have hy := J.unassigned y a1 a2 (hkeep _ a3)
        exact (g5 y).2 ⟨hy, g4 y hy hyx (hkeep _ a3)⟩
  | @select_null s h h1 rnd rx _ he J =>
    obtain ⟨e2, e3, e4, e5⟩ := select_unassigned_literal_cases J.ok J.end2 he
    rcases e5 with ⟨-, g2, g3⟩ | ⟨x, g1, g2, -⟩
    · refine ⟨e2, by rw [e4]; exact J.top, by rw [e3]; exact J.size, J.nlits_eq, J.nvars_pos,
        J.end2, J.trail_valid, ?_, ?_⟩
      · rintro y ⟨p, a1, a2, a3⟩
        omega
      · intro y a1 a2 a3
        exact absurd a3 (g3 y (J.unassigned y a1 a2 a3))
    · have hx := J.elems x g1
      exfalso
      rcases g2 with a | a
      · unfold null_literal pos_lit at a; omega
      · unfold null_literal neg_lit at a; omega
  | @backtrack s h h1 k _ he J =>
    unfold backtrack_heap at he
    have hdrop : ∀ l ∈ (s.stack.lit.drop (s.stack.level_index (k + 1))).reverse,
        valid_lit s l := fun l hl =>
      J.trail_valid l (List.mem_of_mem_drop (List.mem_reverse.1 hl))
    obtain ⟨h2, f1, f2, f3, f4, f5⟩ := heap_insert_all_spec _ h J.ok (fun l hl => by
      have := valid_lit_var J.nlits_eq (hdrop l hl)
      have hs := J.size
      have : (s.nvars : Int) ≤ h.size := by exact_mod_cast hs
      omega)
    rw [he] at f1
    cases f1
    rw [backtrack_eq]
    refine ⟨f2, by rw [f4]; exact J.top, by rw [f3]; exact J.size, J.nlits_eq, J.nvars_pos,
      ?_, ?_, ?_, ?_⟩
    · show undo_value s.value _ (-2) = VAL_UNDEF
      rw [undo_value_apply]
      split
      · rfl
      · exact J.end2
    · intro l hl
      exact J.trail_valid l (List.mem_of_mem_take hl)
    · intro y hy
      rcases (f5 y).1 hy with a | ⟨l, a1, a2⟩
      · exact J.elems y a
      · rw [a2]; exact valid_lit_var J.nlits_eq (hdrop l a1)
    · intro y a1 a2 a3
      have a3' : undo_value s.value
          (s.stack.lit.drop (s.stack.level_index (k + 1))).reverse (pos_lit y) = VAL_UNDEF := a3
      rw [undo_value_apply] at a3'
      rw [f5]
      by_cases c : ∃ d ∈ (s.stack.lit.drop (s.stack.level_index (k + 1))).reverse,
          pos_lit y = d ∨ pos_lit y = not_lit d
      · right
        obtain ⟨d, d1, d2⟩ := c
        refine ⟨d, d1, ?_⟩
        rcases d2 with d2 | d2
        · rw [← d2, var_of_pos_lit]
        · rw [← var_of_not_lit d, ← d2, var_of_pos_lit]
      · rw [if_neg c] at a3'
        exact Or.inl (J.unassigned y a1 a2 a3')

theorem sample_order4_reach :
    SearchHeapReach blank_core smt_mode_t.SMT_MODE_PUSHPOP sample_heap_blank 4 (1000 : Int) 1 2
      core5 sample_order4 :=
  SearchHeapReach.create (SearchHeapReach.create (SearchHeapReach.create
    (SearchHeapReach.create SearchHeapReach.init rfl) rfl) rfl) rfl

theorem sample_implied_reach :
    SearchHeapReach blank_core smt_mode_t.SMT_MODE_PUSHPOP sample_heap_blank 4 (1000 : Int) 1 2
      sample_implied sample_order5 :=
  SearchHeapReach.implied 4 (mk_literal_antecedent 3)
    (SearchHeapReach.select 0 0 3 sample_order4_reach rfl (by decide))
    (by decide) (by decide)

/-- Claim C19 (amended): in every state of the core and its heap reachable by
variable creation, decisions, selections, assignments of implied literals and
backtracking, the heap satisfies its invariants, every unassigned variable of
`[1, nvars)` is in the heap (`heap_index` is not negative), and the heap holds
variables of `[1, nvars)` only. -/
theorem heap_holds_unassigned {α : Type} [LinearOrderedRing α] {s0 : smt_core_t}
    {mode : smt_mode_t} {h0 : var_heap_t α} {n : Nat} {dmax inc decay : α}
    {s : smt_core_t} {h : var_heap_t α} (hd : 0 ≤ dmax) (hn : 1 ≤ n)
    (hr : SearchHeapReach s0 mode h0 n dmax inc decay s h) :
    HeapOk h ∧
    (∀ x : Int, 1 ≤ x → x < s.nvars → s.value (pos_lit x) = VAL_UNDEF →
      InHeap h x ∧ 0 ≤ h.heap_index x) ∧
    (∀ x, InHeap h x → 1 ≤ x ∧ x < s.nvars) := by
  have J := searchHeapInv_of_reach hd hn hr
  refine ⟨J.ok, ?_, J.elems⟩
  intro x h1 h2 h3
  have hx := J.unassigned x h1 h2 h3
  have := (J.ok.index_of_inHeap hx).2.2
  exact ⟨hx, by omega⟩

/-- After the selection and the decision on the variable 1, the variable 2 is
assigned as an implied literal: it is still in the heap, at position 1. -/
theorem heap_holds_assigned_variable :
    SearchHeapReach blank_core smt_mode_t.SMT_MODE_PUSHPOP sample_heap_blank 4 (1000 : Int) 1 2
      sample_implied sample_order5 ∧
    (1 : Int) ≤ 2 ∧ (2 : Int) < sample_implied.nvars ∧
    sample_implied.value (pos_lit 2) = VAL_TRUE ∧
    InHeap sample_order5 2 ∧ sample_order5.heap_index 2 = 1 :=
  ⟨sample_implied_reach, by decide, by decide, by decide,
    ⟨1, by decide, by decide, by decide⟩, by decide⟩

theorem heap_holds_unassigned_witness :
    sample_implied.value (pos_lit 3) = VAL_UNDEF ∧
    (InHeap sample_order5 3 ∧ 0 ≤ sample_order5.heap_index 3) ∧
    sample_order5.heap_index 3 = 3 :=
  have h := heap_holds_unassigned (by decide) (by decide) sample_implied_reach
  ⟨by decide, h.2.1 3 (by decide) (by decide) (by decide), by decide⟩

theorem assignInv_sample_decided : AssignInv (decide_literal core5 2) :=
  ⟨by decide, by decide, by decide, by decide, by decide, by decide, by decide⟩

theorem select_unassigned_literal_spec_witness :
    (select_unassigned_literal (decide_literal core5 2) sample_order4 0 0 0).map (fun r => r.1)
      = some 5 ∧
    (decide_literal core5 2).value (pos_lit 1) = VAL_TRUE ∧
    (decide_literal core5 2).value (pos_lit 2) = VAL_UNDEF ∧
    (decide_literal core5 2).polarity 2 = false ∧
    ∃ l h1, select_unassigned_literal (decide_literal core5 2) sample_order4 0 0 0
        = some (l, h1) ∧ HeapOk h1 ∧
      (l = null_literal ↔
        ∀ x, InHeap sample_order4 x → (decide_literal core5 2).value (pos_lit x) ≠ VAL_UNDEF) :=
  have J := searchHeapInv_of_reach (by decide) (by decide) sample_order4_reach
  have h := select_unassigned_literal_spec J.ok assignInv_sample_decided
    (fun x hx => (J.elems x hx).2) 0 0
  ⟨by decide, by decide, by decide, by decide,
    h.elim fun l hl => hl.elim fun h1 h2 => ⟨l, h1, h2.1, h2.2.1, h2.2.2.1⟩⟩

/-! ## Backtracking and the heap -/

theorem undo_polarity_of_not (p : Int → Bool) (ds : List Int) (x : Int)
    (hx : ∀ d ∈ ds, var_of d ≠ x) : undo_polarity p ds x = p x := by
  induction ds generalizing p with
  | nil => rfl
  | cons e ds ih =>
    show undo_polarity (upd p (var_of e) (is_pos e)) ds x = p x
    rw [ih _ (fun d hd => hx d (List.mem_cons_of_mem _ hd)),
      upd_ne _ _ (Ne.symm (hx e (List.mem_cons_self _ _)))]

theorem undo_polarity_of_mem (p : Int → Bool) (ds : List Int)
    (hinj : ∀ a ∈ ds, ∀ b ∈ ds, var_of a = var_of b → a = b) {d : Int} (hd : d ∈ ds) :
    undo_polarity p ds (var_of d) = is_pos d := by
  induction ds generalizing p with
  | nil => cases hd
  | cons e ds ih =>
    show undo_polarity (upd p (var_of e) (is_pos e)) ds (var_of d) = is_pos d
    by_cases hm : d ∈ ds
    · exact ih _ (fun a ha b hb => hinj a (List.mem_cons_of_mem _ ha) b
        (List.mem_cons_of_mem _ hb)) hm
    · have hde : d = e := by
        rcases List.mem_cons.1 hd with h | h
        · exact h
        · exact absurd h hm
      rw [undo_polarity_of_not, hde, upd_self]
      intro a ha e2
      have := hinj a (List.mem_cons_of_mem _ ha) d hd e2
      rw [this] at ha
      exact hm ha

/-- Claim C21: for `base_level ≤ back_level < decision_level`, `backtrack`
makes Undef the literals of the variables of the trail literals at the
positions `≥ level_index[back_level + 1]`, keeps the value of the other
literals and the arrays `level` and `antecedent`, inserts each unassigned
variable into the heap (the heap holds these variables and those it held), sets
`polarity[x]` to the sign of the trail literal of `x` (1 iff `x` was True),
keeps the polarity of the other variables, and sets `stack.top`, `prop_ptr` and
`theory_ptr` to `level_index[back_level + 1]` and `decision_level` to
`back_level`. -/
theorem backtrack_spec {α : Type} [LinearOrder α] {s : smt_core_t} {h : var_heap_t α}
    (hA : AssignInv s) (hL : LevelInv s) (H : HeapOk h) (hsz : s.nvars ≤ h.size) {k : Nat}
    (hb : s.base_level ≤ k) (hk : k < s.decision_level) :
    (∀ d ∈ s.stack.lit.drop (s.stack.level_index (k + 1)),
      (backtrack s k).value d = VAL_UNDEF ∧ (backtrack s k).value (not_lit d) = VAL_UNDEF ∧
      (backtrack s k).polarity (var_of d) = is_pos d ∧
      (is_pos d = true ↔ s.value (pos_lit (var_of d)) = VAL_TRUE)) ∧
    (∀ l : Int, (∀ d ∈ s.stack.lit.drop (s.stack.level_index (k + 1)), var_of d ≠ var_of l) →
      (backtrack s k).value l = s.value l ∧
      (backtrack s k).polarity (var_of l) = s.polarity (var_of l)) ∧
    (backtrack s k).level = s.level ∧ (backtrack s k).antecedent = s.antecedent ∧
    (backtrack s k).stack.lit = s.stack.lit.take (s.stack.level_index (k + 1)) ∧
    (backtrack s k).stack.top = s.stack.level_index (k + 1) ∧
    (backtrack s k).stack.prop_ptr = s.stack.level_index (k + 1) ∧
    (backtrack s k).stack.theory_ptr = s.stack.level_index (k + 1) ∧
    (backtrack s k).decision_level = k ∧
    s.base_level ≤ (backtrack s k).decision_level ∧
    ∃ h1, backtrack_heap s h k = some h1 ∧ HeapOk h1 ∧
      ∀ y, InHeap h1 y ↔
        InHeap h y ∨ ∃ d ∈ s.stack.lit.drop (s.stack.level_index (k + 1)), y = var_of d := by
  have hle : s.stack.level_index (k + 1) ≤ s.stack.lit.length := hL.index_le (k + 1) hk
  have hlen : (s.stack.lit.take (s.stack.level_index (k + 1))).length
      = s.stack.level_index (k + 1) := by
    rw [List.length_take]; omega
  have hdrop : ∀ d ∈ s.stack.lit.drop (s.stack.level_index (k + 1)), d ∈ s.stack.lit :=
    fun d hd => List.mem_of_mem_drop hd
  rw [backtrack_eq]
  refine ⟨?_, ?_, rfl, rfl, rfl, hlen, hlen, hlen, rfl, hb, ?_⟩
  · intro d hd
    have hdv := hA.trail_valid d (hdrop d hd)
    refine ⟨undo_value_of_mem _ (List.mem_reverse.2 hd) (Or.inl rfl),
      undo_value_of_mem _ (List.mem_reverse.2 hd) (Or.inr rfl), ?_, ?_⟩
    · show undo_polarity s.polarity _ (var_of d) = _
      apply undo_polarity_of_mem
      · intro a ha b hb2 e
        exact trail_var_inj hA (hdrop a (List.mem_reverse.1 ha)) (hdrop b (List.mem_reverse.1 hb2)) e
      · exact List.mem_reverse.2 hd
    · have htrue := trail_value_true hA (hdrop d hd)
      constructor
      · intro hp
        have : pos_lit (var_of d) = d := by
          unfold is_pos at hp
          unfold pos_lit var_of
          have := of_decide_eq_true hp
          omega
        rw [this]; exact htrue
      · intro hv
        by_contra hn
        have hneg : pos_lit (var_of d) = not_lit d := by
          unfold is_pos at hn
          have h2 : ¬ d % 2 = 0 := fun e => hn (decide_eq_true e)
          unfold pos_lit var_of not_lit
          rw [if_neg h2]; omega
        rw [hneg, trail_value_not hA (hdrop d hd)] at hv
        cases hv
  · intro l hl
    constructor
    · apply undo_value_of_not
      intro d hd
      have := hl d (List.mem_reverse.1 hd)
      constructor
      · intro e; rw [e] at this; exact this rfl
      · intro e; rw [e, var_of_not_lit] at this; exact this rfl
    · exact undo_polarity_of_not _ _ _ (fun d hd => hl d (List.mem_reverse.1 hd))
  · unfold backtrack_heap
    obtain ⟨h1, e1, e2, e3, e4, e5⟩ := heap_insert_all_spec
      (s.stack.lit.drop (s.stack.level_index (k + 1))).reverse h H (fun l hl => by
        have := valid_lit_var hA.nlits_eq (hA.trail_valid l (hdrop l (List.mem_reverse.1 hl)))
        have : (s.nvars : Int) ≤ h.size := by exact_mod_cast hsz
        omega)
    refine ⟨h1, e1, e2, ?_⟩
    intro y
    rw [e5]
    simp only [List.mem_reverse]

theorem sample_pop1_reach :
    SearchHeapReach blank_core smt_mode_t.SMT_MODE_PUSHPOP sample_heap_blank 4 (1000 : Int) 1 2
      sample_selected sample_pop1 :=
  SearchHeapReach.decide 6
    (SearchHeapReach.decide 4
      (SearchHeapReach.select 0 0 3
        (SearchHeapReach.create (SearchHeapReach.create
          (SearchHeapReach.create SearchHeapReach.init rfl) rfl) rfl)
        rfl (by decide))
      (by decide) (by decide))
    (by decide) (by decide)

theorem assignInv_sample_selected : AssignInv sample_selected :=
  ⟨by decide, by decide, by decide, by decide, by decide, by decide, by decide⟩

theorem levelInv_sample_selected : LevelInv sample_selected :=
  ⟨by decide, by decide, by decide, by decide, by decide⟩

theorem backtrack_spec_witness :
    sample_selected.stack.lit = [3, 4, 6] ∧ sample_selected.stack.level_index 1 = 0 ∧
    (backtrack sample_selected 0).stack.lit = [] ∧
    (backtrack sample_selected 0).value 3 = VAL_UNDEF ∧
    (backtrack sample_selected 0).value 4 = VAL_UNDEF ∧
    (backtrack sample_selected 0).polarity 1 = false ∧
    (backtrack sample_selected 0).polarity 2 = true ∧
    (backtrack sample_selected 0).stack.top = 0 ∧
    (backtrack sample_selected 0).decision_level = 0 ∧
    sample_pop1.heap_index 1 = -1 ∧
    (backtrack_heap sample_selected sample_pop1 0).map (fun r => r.heap_index 1) = some 1 ∧
    ∃ h1, backtrack_heap sample_selected sample_pop1 0 = some h1 ∧ HeapOk h1 ∧
      ∀ y, InHeap h1 y ↔ InHeap sample_pop1 y ∨
        ∃ d ∈ sample_selected.stack.lit.drop (sample_selected.stack.level_index (0 + 1)),
          y = var_of d :=
  have J := searchHeapInv_of_reach (by decide) (by decide) sample_pop1_reach
  have h := backtrack_spec assignInv_sample_selected levelInv_sample_selected J.ok J.size
    (by decide : sample_selected.base_level ≤ 0) (by decide)
  ⟨by decide, by decide, by decide, by decide, by decide, by decide, by decide, by decide,
    by decide, by decide, by decide, h.2.2.2.2.2.2.2.2.2.2⟩

/-! ## Atom table and deletion of variables -/

/-- Claim C28, evaluation of the code: in `sample_checkpoint` the variables 3
and 4 were created after the checkpoint, are unassigned and are in the heap, and
the atom table has size 0.  `delete_variables(s, 3)` returns true and sets
`nvars = 3`, `nlits = 6`, but the loop that calls `heap_remove` stops at the
size of the atom table: the variables 3 and 4 are still in the heap.
`restore_variables(s, 3)` removes both. -/
theorem delete_variables_leaves_heap_entries :
    sample_checkpoint.nvars = 5 ∧ sample_checkpoint.checkpoints = [⟨0, 3⟩] ∧
    sample_checkpoint.value (pos_lit 3) = VAL_UNDEF ∧
    sample_checkpoint.value (pos_lit 4) = VAL_UNDEF ∧
    init_atom_table.size = 0 ∧
    sample_order4.heap_last = 4 ∧
    sample_order4.heap_index 3 = 3 ∧ sample_order4.heap_index 4 = 4 ∧
    (delete_variables_atoms sample_checkpoint init_atom_table sample_order4 3).map
      (fun r => (r.1, r.2.1.nvars, r.2.1.nlits, r.2.2.2.heap_last,
        r.2.2.2.heap_index 3, r.2.2.2.heap 3, r.2.2.2.heap_index 4, r.2.2.2.heap 4))
      = some (true, 3, 6, 4, 3, 3, 4, 4) ∧
    (restore_variables_heap sample_checkpoint sample_order4 3).map
      (fun h => (h.heap_last, h.heap_index 3, h.heap_index 4)) = some (2, -1, -1) := by
  refine ⟨by decide, by decide, by decide, by decide, by decide, by decide, by decide, by decide,
    rfl, by decide⟩

/-- Claim C27, evaluation of the code: in `sample_garbage` the undo vector
`binary_clauses` is `[2, 4, 2, 8]` and the variable 4 (literals 8 and 9) was
created after the checkpoint.  `delete_irrelevant_variables` deletes the
variable 4, empties `bin[8]`, removes 8 from `bin[2]` and decrements
`nb_bin_clauses`, but the undo vector still holds the pair `(2, 8)`. -/
theorem delete_irrelevant_variables_keeps_stale_pair :
    sample_garbage.nvars = 5 ∧ sample_garbage.checkpoints = [⟨1, 4⟩] ∧
    sample_garbage.decision_level = 1 ∧
    sample_garbage.binary_clauses = [2, 4, 2, 8] ∧ sample_garbage.nb_bin_clauses = 2 ∧
    (delete_irrelevant_variables sample_garbage init_atom_table sample_order4).map
      (fun r => (r.1.nvars, r.1.checkpoints, r.1.bin 2, r.1.bin 8, r.1.nb_bin_clauses,
        r.1.binary_clauses))
      = some (4, [], some [4], none, 1, [2, 4, 2, 8]) ∧
    var_of 8 = 4 := by
  refine ⟨by decide, by decide, by decide, by decide, by decide, rfl, by decide⟩

/-! ## Simplification of the clause database -/

theorem sameButClauses_refl (s : smt_core_t) : SameButClauses s s := rfl

theorem sameButClauses_trans {s t u : smt_core_t} (h1 : SameButClauses s t)
    (h2 : SameButClauses t u) : SameButClauses s u := by
  unfold SameButClauses at *
  rw [h2, h1]

theorem sameButClauses_proj {β : Type} (p : smt_core_t → β)
    (hp : ∀ (s : smt_core_t) (cl : Nat → clause_t) (a b : Nat),
      p { s with clauses := cl, aux_literals := a, aux_clauses := b } = p s)
    {s t : smt_core_t} (h : SameButClauses s t) : p t = p s := by
  unfold SameButClauses at h
  rw [h]
  exact hp _ _ _ _

theorem clause_is_locked_eq (s : smt_core_t) (c : Nat) :
    clause_is_locked s c = locked_by s.value s.antecedent c (s.clauses c) := rfl

theorem updN_same_self {α : Type} (a : Nat → α) (i : Nat) : updN a i (a i) = a := by
  funext j
  unfold updN
  split
  · next h => rw [h]
  · rfl

theorem simplify_clause_clauses (s : smt_core_t) (c : Nat) :
    SameButClauses s (simplify_clause s c) ∧
    (simplify_clause s c).clauses
      = updN s.clauses c (simplify_clause_result s.value (s.clauses c)) := by
  unfold simplify_clause simplify_clause_result SameButClauses
  dsimp only
  split <;> exact ⟨rfl, rfl⟩

theorem mark_true_clause_clauses (s : smt_core_t) (c : Nat) :
    SameButClauses s (mark_true_clause s c) ∧
    (mark_true_clause s c).clauses
      = updN s.clauses c (mark_true_result s.value (s.clauses c)) := by
  unfold mark_true_clause mark_true_result SameButClauses
  dsimp only
  split
  · exact ⟨rfl, rfl⟩
  · exact ⟨rfl, (updN_same_self _ _).symm⟩

theorem simplify_problem_step_clauses (s : smt_core_t) (c : Nat) :
    SameButClauses s (simplify_problem_step s c) ∧
    (simplify_problem_step s c).clauses
      = updN s.clauses c (clause_step_result true s.value s.antecedent s.base_level c (s.clauses c)) := by
  unfold simplify_problem_step clause_step_result
  rw [clause_is_locked_eq]
  simp only [Bool.not_true, Bool.false_or]
  split
  · split
    · exact simplify_clause_clauses s c
    · exact mark_true_clause_clauses s c
  · exact ⟨rfl, (updN_same_self _ _).symm⟩

theorem simplify_learned_step_clauses (s : smt_core_t) (c : Nat) :
    SameButClauses s (simplify_learned_step s c) ∧
    (simplify_learned_step s c).clauses
      = updN s.clauses c (clause_step_result false s.value s.antecedent s.base_level c (s.clauses c)) := by
  unfold simplify_learned_step clause_step_result
  rw [clause_is_locked_eq]
  simp only [Bool.not_false, Bool.true_or, Bool.true_and]
  split
  · split
    · exact simplify_clause_clauses s c
    · exact mark_true_clause_clauses s c
  · exact ⟨rfl, (updN_same_self _ _).symm⟩

theorem foldl_clause_steps (f : smt_core_t → Nat → smt_core_t)
    (R : (Int → bval_t) → (Int → antecedent_t) → Nat → Nat → clause_t → clause_t)
    (hf : ∀ s c, SameButClauses s (f s c) ∧
      (f s c).clauses = updN s.clauses c (R s.value s.antecedent s.base_level c (s.clauses c))) :
    ∀ (L : List Nat) (s : smt_core_t), L.Nodup →
      SameButClauses s (L.foldl f s) ∧
      ∀ d, (L.foldl f s).clauses d
        = if d ∈ L then R s.value s.antecedent s.base_level d (s.clauses d) else s.clauses d := by
  intro L
  induction L with
  | nil => intro s _; exact ⟨rfl, fun d => by simp⟩
  | cons c L ih =>
    intro s nd
    rw [List.nodup_cons] at nd
    obtain ⟨h1, h2⟩ := hf s c
    obtain ⟨i1, i2⟩ := ih (f s c) nd.2
    rw [List.foldl_cons]
    refine ⟨sameButClauses_trans h1 i1, fun d => ?_⟩
    rw [i2 d]
    have ev : (f s c).value = s.value := sameButClauses_proj smt_core_t.value (fun _ _ _ _ => rfl) h1
    have ea : (f s c).antecedent = s.antecedent := sameButClauses_proj smt_core_t.antecedent (fun _ _ _ _ => rfl) h1
    have eb : (f s c).base_level = s.base_level := sameButClauses_proj smt_core_t.base_level (fun _ _ _ _ => rfl) h1
    by_cases hd : d ∈ L
    · have hne : d ≠ c := fun e => nd.1 (e ▸ hd)
      rw [if_pos hd, if_pos (List.mem_cons_of_mem _ hd), ev, ea, eb, h2]
      simp [updN, hne]
    · rw [if_neg hd, h2]
      by_cases hc : d = c
      · subst hc
        simp [updN]
      · rw [if_neg (by simp [hc, hd])]
        simp [updN, hc]

theorem sameButBin_trans {s t u : smt_core_t} (h1 : SameButBin s t)
    (h2 : SameButBin t u) : SameButBin s u := by
  unfold SameButBin at *
  rw [h2, h1]

theorem sameButBin_proj {β : Type} (p : smt_core_t → β)
    (hp : ∀ (s : smt_core_t) (b : Int → Option (List Int)) (a n : Nat),
      p { s with bin := b, aux_literals := a, nb_bin_clauses := n } = p s)
    {s t : smt_core_t} (h : SameButBin s t) : p t = p s := by
  unfold SameButBin at h
  rw [h]
  exact hp _ _ _ _

theorem sameButBin_foldl {β : Type} (f : smt_core_t → β → smt_core_t)
    (hf : ∀ s x, SameButBin s (f s x)) :
    ∀ (L : List β) (s : smt_core_t), SameButBin s (L.foldl f s) := by
  intro L
  induction L with
  | nil => intro s; exact rfl
  | cons x L ih => intro s; exact sameButBin_trans (hf s x) (ih (f s x))

theorem sameButBin_cleanup (s : smt_core_t) (l : Int) :
    SameButBin s (cleanup_binary_clause_vector s l) := by
  unfold cleanup_binary_clause_vector
  split <;> rfl

theorem sameButBin_step (s : smt_core_t) (l0 : Int) :
    SameButBin s (simplify_binary_step s l0) := by
  unfold simplify_binary_step
  have h1 : SameButBin s (match s.bin l0 with
      | none => s
      | some v0 =>
        let t := v0.foldl
          (fun t l1 => if t.value l1 = VAL_UNDEF then cleanup_binary_clause_vector t l1 else t) s
        { t with bin := upd t.bin l0 none, aux_literals := t.aux_literals + v0.length }) := by
    split
    · rfl
    · next v0 _ =>
      have := sameButBin_foldl
        (fun t l1 => if t.value l1 = VAL_UNDEF then cleanup_binary_clause_vector t l1 else t)
        (fun t l1 => by
          dsimp only
          split
          · exact sameButBin_cleanup t l1
          · rfl) v0 s
      exact sameButBin_trans this rfl
  have key : ∀ s1 : smt_core_t, SameButBin s s1 →
      SameButBin s (match s1.bin (not_lit l0) with
        | none => s1
        | some v0 =>
          { s1 with aux_literals := s1.aux_literals + v0.length,
                    bin := upd s1.bin (not_lit l0) none }) := by
    intro s1 h
    split
    · exact h
    · exact sameButBin_trans h rfl
  exact key _ h1

theorem sameButBin_simplify_binary_vectors (s : smt_core_t) :
    SameButBin s (simplify_binary_vectors s) := by
  unfold simplify_binary_vectors
  have h0 : SameButBin s { s with aux_literals := 0 } := rfl
  have h1 := sameButBin_foldl simplify_binary_step sameButBin_step
    (({ s with aux_literals := 0 } : smt_core_t).stack.lit.drop
      ({ s with aux_literals := 0 } : smt_core_t).simplify_bottom) { s with aux_literals := 0 }
  exact sameButBin_trans (sameButBin_trans h0 h1) rfl

/-! ### The clause written by `simplify_clause` -/

theorem clause_scan_append {a : List Int} (h : ∀ l ∈ a, 0 ≤ l) (m : Int) :
    clause_scan (a ++ [m]) = a ++ [m] := by
  induction a with
  | nil => simp [clause_scan]
  | cons x a ih =>
    have hx : x ≥ 0 := h x (List.mem_cons_self _ _)
    rw [List.cons_append, clause_scan, if_pos hx, ih (fun l hl => h l (List.mem_cons_of_mem _ hl))]

theorem takeWhile_append_stop {p : Int → Bool} {a : List Int} (h : ∀ l ∈ a, p l = true)
    (m : Int) (hm : p m = false) (d : List Int) : (a ++ m :: d).takeWhile p = a := by
  induction a with
  | nil => simp [List.takeWhile, hm]
  | cons x a ih =>
    rw [List.cons_append, List.takeWhile_cons, h x (List.mem_cons_self _ _)]
    simp only [if_true]
    rw [ih (fun l hl => h l (List.mem_cons_of_mem _ hl))]

/-- Without a true literal, `simplify_clause` keeps the literals of value
Undef. -/
theorem simplify_clause_result_filter {value : Int → bval_t} {cl : clause_t}
    (hv : ∀ l ∈ cl.cl, 0 ≤ l) (hm : value cl.end_marker = VAL_UNDEF)
    (ht : ∀ l ∈ cl.cl, value l ≠ VAL_TRUE) :
    simplify_clause_result value cl
      = { cl with cl := cl.cl.filter (fun l => decide (value l = VAL_UNDEF)) } := by
  unfold simplify_clause_result
  have e1 : clause_scan cl.array = cl.array := clause_scan_append hv _
  have e2 : cl.array.takeWhile (fun l => decide (value l ≠ VAL_TRUE)) = cl.array := by
    rw [List.takeWhile_eq_self_iff]
    intro l hl
    unfold clause_t.array at hl
    rw [List.mem_append, List.mem_singleton] at hl
    rcases hl with hl | hl
    · simpa using ht l hl
    · subst hl
      simp [hm]
  dsimp only
  rw [e1, e2, if_neg (Nat.lt_irrefl _)]
  have e3 : cl.array.filter (fun l => decide (value l = VAL_UNDEF))
      = cl.cl.filter (fun l => decide (value l = VAL_UNDEF)) ++ [cl.end_marker] := by
    unfold clause_t.array
    rw [List.filter_append]
    simp [hm]
  rw [e3, List.append_assoc, List.singleton_append]
  rw [takeWhile_append_stop (fun l hl => by
      have := hv l (List.mem_of_mem_filter hl)
      simpa using this) _ (by simpa using end_marker_neg cl)]

theorem mark_for_removal_marked {c : clause_t} (hn : c.cl ≠ []) (h0 : 0 < c.get 0) :
    is_clause_to_be_removed (mark_for_removal c) = true := by
  obtain ⟨cl, learned⟩ := c
  cases cl with
  | nil => exact absurd rfl hn
  | cons x rest =>
    have hx : 0 < x := by simpa [clause_t.get] using h0
    cases rest with
    | nil => simp [is_clause_to_be_removed, mark_for_removal, clause_t.get, hx]
    | cons y r => simp [is_clause_to_be_removed, mark_for_removal, clause_t.get, hx]

/-- With a true literal, `simplify_clause` marks the clause. -/
theorem simplify_clause_result_marked {value : Int → bval_t} {cl : clause_t}
    (hv : ∀ l ∈ cl.cl, 0 < l) {l0 : Int} (h0 : l0 ∈ cl.cl) (ht : value l0 = VAL_TRUE) :
    is_clause_to_be_removed (simplify_clause_result value cl) = true := by
  unfold simplify_clause_result
  have e1 : clause_scan cl.array = cl.array :=
    clause_scan_append (fun l hl => Int.le_of_lt (hv l hl)) _
  dsimp only
  rw [e1]
  -- the entries read before the true literal are a proper prefix of the literals
  have hpre : ∃ r, cl.cl = cl.array.takeWhile (fun l => decide (value l ≠ VAL_TRUE)) ++ r
      ∧ r ≠ [] := by
    unfold clause_t.array
    obtain ⟨a, b, e⟩ := List.append_of_mem h0
    -- split at the first true literal
    have : ∀ (u : List Int), (∃ x ∈ u, value x = VAL_TRUE) → ∀ (m : Int),
        ∃ r, u = (u ++ [m]).takeWhile (fun l => decide (value l ≠ VAL_TRUE)) ++ r ∧ r ≠ [] := by
      intro u
      induction u with
      | nil => intro ⟨x, hx, _⟩; cases hx
      | cons y u ih =>
        intro ⟨x, hx, hxt⟩ m
        by_cases hy : value y = VAL_TRUE
        · refine ⟨y :: u, ?_, by simp⟩
          simp [List.takeWhile, hy]
        · have hxu : x ∈ u := by
            rcases List.mem_cons.1 hx with h | h
            · exact absurd (h ▸ hxt) hy
            · exact h
          obtain ⟨r, hr, hne⟩ := ih ⟨x, hxu, hxt⟩ m
          refine ⟨r, ?_, hne⟩
          rw [List.cons_append, List.takeWhile_cons]
          simp only [hy, ne_eq, not_false_eq_true, decide_True, if_true]
          rw [List.cons_append, ← hr]
    exact this cl.cl ⟨l0, h0, ht⟩ _
  obtain ⟨r, hr, hne⟩ := hpre
  generalize hp : cl.array.takeWhile (fun l => decide (value l ≠ VAL_TRUE)) = pre at hr
  have hlen : pre.length < cl.array.length := by
    have : cl.array.length = cl.cl.length + 1 := by simp [clause_t.array]
    rw [this, hr, List.length_append]
    have := List.length_pos.2 hne
    omega
  rw [if_pos hlen]
  -- the array written
  have hw : (pre.filter (fun l => decide (value l = VAL_UNDEF))).length ≤ pre.length :=
    List.length_filter_le _ _
  generalize hwd : pre.filter (fun l => decide (value l = VAL_UNDEF)) = w at hw
  have hwsub : ∀ x ∈ w, x ∈ cl.cl := by
    intro x hx
    rw [← hwd] at hx
    rw [hr]
    exact List.mem_append_left _ (List.mem_of_mem_filter hx)
  have hwl : w.length ≤ cl.cl.length := by
    rw [hr, List.length_append]; omega
  have harr : (w ++ cl.array.drop w.length).dropLast = w ++ cl.cl.drop w.length := by
    unfold clause_t.array
    rw [List.drop_append_of_le_length hwl, ← List.append_assoc, List.dropLast_concat]
  rw [harr]
  have hcl : cl.cl ≠ [] := List.ne_nil_of_mem h0
  have hX : ∀ x ∈ w ++ cl.cl.drop w.length, 0 < x := by
    intro x hx
    rcases List.mem_append.1 hx with h | h
    · exact hv x (hwsub x h)
    · exact hv x (List.mem_of_mem_drop h)
  have hXn : w ++ cl.cl.drop w.length ≠ [] := by
    intro e
    have hlenX : (w ++ cl.cl.drop w.length).length = cl.cl.length := by
      rw [List.length_append, List.length_drop]; omega
    rw [e] at hlenX
    have := List.length_pos.2 hcl
    simp at hlenX
    omega
  apply mark_for_removal_marked hXn
  show 0 < (w ++ cl.cl.drop w.length).getD 0 _
  cases hh : w ++ cl.cl.drop w.length with
  | nil => exact absurd hh hXn
  | cons x rest =>
    rw [hh] at hX
    simpa using hX x (List.mem_cons_self _ _)

theorem sameButClauses_exists {s t : smt_core_t} (h : SameButClauses s t) :
    ∃ (cl : Nat → clause_t) (a b : Nat),
      t = { s with clauses := cl, aux_literals := a, aux_clauses := b } :=
  ⟨t.clauses, t.aux_literals, t.aux_clauses, h⟩

/-- The state after `simplify_clause_set` at base level 0: the clause memory
holds the clauses written by the steps, and the two vectors keep the handles
whose clause is not marked. -/
theorem simplify_clause_set_base {s : smt_core_t} (hb : s.base_level = 0)
    (nd : (stored s).Nodup) :
    ∃ (cl : Nat → clause_t) (w : Int → List link_t) (a b n n1 : Nat),
      simplify_clause_set s
        = { s with
            clauses := cl, watch := w, aux_literals := a, aux_clauses := b,
            nb_prob_clauses := n1, nb_clauses := n,
            problem_clauses :=
              s.problem_clauses.filter (fun c => ! is_clause_to_be_removed (cl c)),
            learned_clauses :=
              s.learned_clauses.filter (fun c => ! is_clause_to_be_removed (cl c)) } ∧
      ∀ d, cl d =
        if d ∈ s.problem_clauses then
          clause_step_result true s.value s.antecedent s.base_level d (s.clauses d)
        else if d ∈ s.learned_clauses then
          clause_step_result false s.value s.antecedent s.base_level d (s.clauses d)
        else s.clauses d := by
  unfold stored at nd
  have ndP : s.problem_clauses.Nodup := (List.nodup_append.1 nd).1
  have ndL : s.learned_clauses.Nodup := (List.nodup_append.1 nd).2.1
  have dis : ∀ d, d ∈ s.problem_clauses → d ∉ s.learned_clauses := fun d h1 h2 =>
    (List.nodup_append.1 nd).2.2 h1 h2
  obtain ⟨F1a, F1b⟩ := foldl_clause_steps simplify_problem_step (clause_step_result true)
    simplify_problem_step_clauses s.problem_clauses { s with aux_literals := 0, aux_clauses := 0 } ndP
  unfold simplify_clause_set
  dsimp only at F1a F1b ⊢
  generalize List.foldl simplify_problem_step { s with aux_literals := 0, aux_clauses := 0 }
    s.problem_clauses = s1 at F1a F1b ⊢
  obtain ⟨cl1, a1, b1, e1⟩ := sameButClauses_exists F1a
  subst e1
  dsimp only at F1b ⊢
  obtain ⟨F2a, F2b⟩ := foldl_clause_steps simplify_learned_step (clause_step_result false)
    simplify_learned_step_clauses s.learned_clauses
    { s with clauses := cl1, aux_literals := 0, aux_clauses := if s.base_level = 0 then 0 else b1,
             nb_prob_clauses := b1 } ndL
  dsimp only at F2a F2b
  generalize List.foldl simplify_learned_step
    { s with clauses := cl1, aux_literals := 0, aux_clauses := if s.base_level = 0 then 0 else b1,
             nb_prob_clauses := b1 } s.learned_clauses = s3 at F2a F2b ⊢
  obtain ⟨cl3, a3, b3, e3⟩ := sameButClauses_exists F2a
  subst e3
  dsimp only at F2b ⊢
  rw [cleanup_watch_lists_eq]
  dsimp only
  rw [if_pos hb]
  refine ⟨cl3, _, a3, b3, _, b1, rfl, ?_⟩
  intro d
  rw [F2b d]
  by_cases hP : d ∈ s.problem_clauses
  · rw [if_pos hP, if_neg (dis d hP), F1b d, if_pos hP]
  · rw [if_neg hP, F1b d, if_neg hP]

/-- The state after `simplify_clause_database` at base level 0. -/
theorem simplify_clause_database_base {s : smt_core_t} (hb : s.base_level = 0)
    (nd : (stored s).Nodup) :
    (simplify_clause_database s).value = s.value ∧
    (simplify_clause_database s).problem_clauses = s.problem_clauses.filter
      (fun c => ! is_clause_to_be_removed ((simplify_clause_database s).clauses c)) ∧
    (simplify_clause_database s).learned_clauses = s.learned_clauses.filter
      (fun c => ! is_clause_to_be_removed ((simplify_clause_database s).clauses c)) ∧
    ∀ d, (simplify_clause_database s).clauses d =
      if d ∈ s.problem_clauses then
        clause_step_result true s.value s.antecedent s.base_level d (s.clauses d)
      else if d ∈ s.learned_clauses then
        clause_step_result false s.value s.antecedent s.base_level d (s.clauses d)
      else s.clauses d := by
  obtain ⟨cl, w, a, b, n, n1, e, hcl⟩ := simplify_clause_set_base hb nd
  unfold simplify_clause_database
  dsimp only
  rw [e]
  dsimp only
  rw [if_pos hb]
  have hB := sameButBin_simplify_binary_vectors
    { s with
      clauses := cl, watch := w, aux_literals := a, aux_clauses := b,
      nb_prob_clauses := n1, nb_clauses := n,
      problem_clauses := s.problem_clauses.filter (fun c => ! is_clause_to_be_removed (cl c)),
      learned_clauses := s.learned_clauses.filter (fun c => ! is_clause_to_be_removed (cl c)) }
  have e1 := sameButBin_proj smt_core_t.value (fun _ _ _ _ => rfl) hB
  have e2 := sameButBin_proj smt_core_t.clauses (fun _ _ _ _ => rfl) hB
  have e3 := sameButBin_proj smt_core_t.problem_clauses (fun _ _ _ _ => rfl) hB
  have e4 := sameButBin_proj smt_core_t.learned_clauses (fun _ _ _ _ => rfl) hB
  dsimp only at e1 e2 e3 e4
  refine ⟨e1, ?_, ?_, ?_⟩
  · rw [e3, e2]
  · rw [e4, e2]
  · intro d
    rw [e2]
    exact hcl d

theorem clause_get_mem {c : clause_t} {k : Nat} (h : k < c.cl.length) : c.get k ∈ c.cl := by
  unfold clause_t.get
  rw [List.getD_eq_getElem _ _ h]
  exact List.getElem_mem h

theorem clause_mem_get {c : clause_t} {l : Int} (h : l ∈ c.cl) :
    ∃ k, k < c.cl.length ∧ c.get k = l := by
  obtain ⟨k, hk, e⟩ := List.mem_iff_getElem.1 h
  refine ⟨k, hk, ?_⟩
  unfold clause_t.get
  rw [List.getD_eq_getElem _ _ hk]
  exact e

/-- In a state where every assigned literal has been propagated, the two
watched literals of a clause without a true literal are unassigned. -/
theorem watched_undef_of_propagated {s : smt_core_t} (hA : AssignInv s) (hC : ClauseInv s)
    (hP : Propagated s s.stack.top) {c : Nat} (hc : c ∈ stored s)
    (hm : is_clause_to_be_removed (s.clauses c) = false)
    (ht : ∀ l ∈ (s.clauses c).cl, s.value l ≠ VAL_TRUE) {j : Nat} (hj : j < 2) :
    s.value ((s.clauses c).get j) = VAL_UNDEF := by
  have hlen := hC.len c hc hm
  have hv := hC.valid c hc hm j (by omega)
  have h1 : s.value ((s.clauses c).get j) ≠ VAL_TRUE := ht _ (clause_get_mem (by omega))
  have h2 : s.value ((s.clauses c).get j) ≠ VAL_FALSE := by
    intro hf
    have hn : s.value (not_lit ((s.clauses c).get j)) = VAL_TRUE :=
      (valSym_true_iff hA.sym (valid_nonneg hv) hv.2).2 hf
    have hvn := valid_lit_not hA.nlits_eq hv
    have hmem : not_lit ((s.clauses c).get j) ∈ s.stack.lit :=
      (hA.trail_true _ hvn.1 hvn.2).1 hn
    have := hP c hc hm j hj hf (by
      unfold prop_stack_t.top
      rw [List.take_length]
      exact hmem)
    exact ht _ (clause_get_mem (by omega)) this
  cases h : s.value ((s.clauses c).get j)
  · exact absurd h h2
  · rfl
  · exact absurd h h1

theorem filter_keeps_watched {p : Int → Bool} {cl : List Int} (hlen : 2 ≤ cl.length) (m : Int)
    (h0 : p (cl.getD 0 m) = true) (h1 : p (cl.getD 1 m) = true) :
    (cl.filter p).getD 0 m = cl.getD 0 m ∧ (cl.filter p).getD 1 m = cl.getD 1 m := by
  match cl, hlen with
  | a :: b :: r, _ =>
    have ha : p a = true := by simpa using h0
    have hb : p b = true := by simpa using h1
    simp [List.filter, ha, hb]

/-- Clause of a stored handle after `simplify_clause_database` at base level 0
in a state where every assigned literal has been propagated. -/
theorem simplify_clause_database_clause {s : smt_core_t} (hb : s.base_level = 0)
    (hA : AssignInv s) (hC : ClauseInv s) (hP : Propagated s s.stack.top)
    (nd : (stored s).Nodup)
    (hl : ∀ c ∈ s.learned_clauses, is_clause_to_be_removed (s.clauses c) = false)
    {c : Nat} (hc : c ∈ stored s) :
    (is_clause_to_be_removed (s.clauses c) = true →
      is_clause_to_be_removed ((simplify_clause_database s).clauses c) = true) ∧
    (is_clause_to_be_removed (s.clauses c) = false → clause_is_locked s c = true →
      (simplify_clause_database s).clauses c = s.clauses c) ∧
    (is_clause_to_be_removed (s.clauses c) = false → clause_is_locked s c = false →
      (∃ l ∈ (s.clauses c).cl, s.value l = VAL_TRUE) →
      is_clause_to_be_removed ((simplify_clause_database s).clauses c) = true) ∧
    (is_clause_to_be_removed (s.clauses c) = false → clause_is_locked s c = false →
      (∀ l ∈ (s.clauses c).cl, s.value l ≠ VAL_TRUE) →
      (simplify_clause_database s).clauses c
        = { s.clauses c with
            cl := (s.clauses c).cl.filter (fun l => decide (s.value l = VAL_UNDEF)) } ∧
      is_clause_to_be_removed ((simplify_clause_database s).clauses c) = false) := by
  obtain ⟨_, _, _, hcl⟩ := simplify_clause_database_base hb nd
  have key : ∃ g : Bool, (g = false → is_clause_to_be_removed (s.clauses c) = false) ∧
      (simplify_clause_database s).clauses c
        = clause_step_result g s.value s.antecedent s.base_level c (s.clauses c) := by
    rw [hcl c]
    by_cases hp : c ∈ s.problem_clauses
    · exact ⟨true, (fun h => Bool.noConfusion h), by rw [if_pos hp]⟩
    · have hL : c ∈ s.learned_clauses := by
        unfold stored at hc
        rcases List.mem_append.1 hc with h | h
        · exact absurd h hp
        · exact h
      exact ⟨false, fun _ => hl c hL, by rw [if_neg hp, if_pos hL]⟩
  obtain ⟨g, hg, e⟩ := key
  rw [e]
  unfold clause_step_result
  rw [← clause_is_locked_eq, hb]
  simp only [if_true]
  have hend : s.value (s.clauses c).end_marker = VAL_UNDEF := by
    rcases end_marker_cases (s.clauses c) with h | h <;> rw [h]
    · exact hA.end1
    · exact hA.end2
  have hval : is_clause_to_be_removed (s.clauses c) = false → ∀ l ∈ (s.clauses c).cl, 2 ≤ l := by
    intro hm l hmem
    obtain ⟨k, hk, e⟩ := clause_mem_get hmem
    rw [← e]
    exact (hC.valid c hc hm k hk).1
  refine ⟨?_, ?_, ?_, ?_⟩
  · intro hm
    cases g
    · rw [hg rfl] at hm; cases hm
    · simp [hm]
  · intro hm hk
    simp [hk]
  · intro hm hk ⟨l, hmem, ht⟩
    simp only [hm, hk, Bool.not_false, Bool.or_true, Bool.and_self, if_true]
    exact simplify_clause_result_marked (fun x hx => by have := hval hm x hx; omega) hmem ht
  · intro hm hk ht
    simp only [hm, hk, Bool.not_false, Bool.or_true, Bool.and_self, if_true]
    rw [simplify_clause_result_filter (fun x hx => by have := hval hm x hx; omega) hend ht]
    refine ⟨rfl, ?_⟩
    have hlen := hC.len c hc hm
    have w0 := watched_undef_of_propagated hA hC hP hc hm ht (by decide : 0 < 2)
    have w1 := watched_undef_of_propagated hA hC hP hc hm ht (by decide : 1 < 2)
    obtain ⟨f0, f1⟩ := filter_keeps_watched (p := fun l => decide (s.value l = VAL_UNDEF)) hlen
      (s.clauses c).end_marker (by simpa [clause_t.get] using w0)
      (by simpa [clause_t.get] using w1)
    have v0 := (hC.valid c hc hm 0 (by omega)).1
    have v1 := (hC.valid c hc hm 1 (by omega)).1
    unfold clause_t.get at v0 v1
    have g0 : ¬ ((List.filter (fun l => decide (s.value l = VAL_UNDEF)) (s.clauses c).cl).getD 0
        (s.clauses c).end_marker < 0) := by
      rw [f0]; omega
    have g1 : ¬ ((List.filter (fun l => decide (s.value l = VAL_UNDEF)) (s.clauses c).cl).getD 1
        (s.clauses c).end_marker < 0) := by
      rw [f1]; omega
    exact Bool.or_eq_false_iff.2 ⟨decide_eq_false g0, decide_eq_false g1⟩

/-- Claim C25 (amended): after `simplify_clause_database` at base level 0, in a
state where every assigned literal has been propagated, the clauses that remain
in the two vectors are the unmarked clauses that were locked or had no true
literal.  A locked clause is left as it was, assigned literals included; every
other remaining clause keeps exactly its unassigned literals, so none of its
literals is assigned. -/
theorem simplify_clause_database_spec {s : smt_core_t} (hb : s.base_level = 0)
    (hA : AssignInv s) (hC : ClauseInv s) (hP : Propagated s s.stack.top)
    (nd : (stored s).Nodup)
    (hl : ∀ c ∈ s.learned_clauses, is_clause_to_be_removed (s.clauses c) = false) :
    (simplify_clause_database s).value = s.value ∧
    (∀ c, c ∈ stored (simplify_clause_database s) ↔
      c ∈ stored s ∧ is_clause_to_be_removed (s.clauses c) = false ∧
        (clause_is_locked s c = true ∨ ∀ l ∈ (s.clauses c).cl, s.value l ≠ VAL_TRUE)) ∧
    (∀ c ∈ stored (simplify_clause_database s),
      is_clause_to_be_removed ((simplify_clause_database s).clauses c) = false ∧
      (clause_is_locked s c = true → (simplify_clause_database s).clauses c = s.clauses c) ∧
      (clause_is_locked s c = false →
        ((simplify_clause_database s).clauses c).cl
          = (s.clauses c).cl.filter (fun l => decide (s.value l = VAL_UNDEF)) ∧
        ∀ l ∈ ((simplify_clause_database s).clauses c).cl,
          (simplify_clause_database s).value l = VAL_UNDEF)) := by
  obtain ⟨ev, eP, eL, _⟩ := simplify_clause_database_base hb nd
  have hmem : ∀ c, c ∈ stored (simplify_clause_database s) ↔
      c ∈ stored s ∧ is_clause_to_be_removed ((simplify_clause_database s).clauses c) = false := by
    intro c
    unfold stored
    rw [eP, eL, List.mem_append, List.mem_append, List.mem_filter, List.mem_filter]
    simp only [Bool.not_eq_true', ← or_and_right]
  have hcase : ∀ c, c ∈ stored s →
      (is_clause_to_be_removed ((simplify_clause_database s).clauses c) = false ↔
        is_clause_to_be_removed (s.clauses c) = false ∧
          (clause_is_locked s c = true ∨ ∀ l ∈ (s.clauses c).cl, s.value l ≠ VAL_TRUE)) := by
    intro c hc
    obtain ⟨k1, k2, k3, k4⟩ := simplify_clause_database_clause hb hA hC hP nd hl hc
    cases hm : is_clause_to_be_removed (s.clauses c)
    · cases hk : clause_is_locked s c
      · by_cases ht : ∀ l ∈ (s.clauses c).cl, s.value l ≠ VAL_TRUE
        · exact ⟨fun _ => ⟨rfl, Or.inr ht⟩, fun _ => (k4 hm hk ht).2⟩
        · have hex : ∃ l ∈ (s.clauses c).cl, s.value l = VAL_TRUE := by
            by_contra hne
            exact ht (fun l hl e => hne ⟨l, hl, e⟩)
          have := k3 hm hk hex
          constructor
          · intro h; rw [this] at h; cases h
          · intro ⟨_, h⟩
            rcases h with h | h
            · cases h
            · exact absurd h ht
      · have := k2 hm hk
        rw [this]
        exact ⟨fun _ => ⟨rfl, Or.inl rfl⟩, fun _ => hm⟩
    · have := k1 hm
      rw [this]
      constructor
      · intro h; cases h
      · intro ⟨h, _⟩; cases h
  refine ⟨ev, ?_, ?_⟩
  · intro c
    rw [hmem c]
    constructor
    · intro ⟨hc, h⟩
      exact ⟨hc, (hcase c hc).1 h⟩
    · intro ⟨hc, h⟩
      exact ⟨hc, (hcase c hc).2 h⟩
  · intro c hct
    obtain ⟨hc, hu⟩ := (hmem c).1 hct
    obtain ⟨hm, hor⟩ := (hcase c hc).1 hu
    obtain ⟨_, k2, k3, k4⟩ := simplify_clause_database_clause hb hA hC hP nd hl hc
    refine ⟨hu, fun hk => k2 hm hk, fun hk => ?_⟩
    have ht : ∀ l ∈ (s.clauses c).cl, s.value l ≠ VAL_TRUE := by
      rcases hor with h | h
      · rw [hk] at h; cases h
      · exact h
    have e := (k4 hm hk ht).1
    rw [e]
    refine ⟨rfl, fun l hmem => ?_⟩
    rw [ev]
    have := (List.mem_filter.1 hmem).2
    simpa using this

/-- Claim C25 as stated fails: `sample_locked` is at base level 0, every
assigned literal has been propagated and there is no conflict; the clause 0 is
the antecedent of the literal 6, so that `simplify_clause_database` skips it,
and it remains in the problem-clause vector with the literals 4 and 2, both
false at level 0. -/
theorem simplify_keeps_locked_clause :
    sample_locked.base_level = 0 ∧ sample_locked.decision_level = 0 ∧
    sample_locked.stack.prop_ptr = sample_locked.stack.top ∧
    sample_locked.inconsistent = false ∧
    Propagated sample_locked sample_locked.stack.top ∧
    boolean_propagation 9 sample_locked = some (true, sample_locked) ∧
    clause_is_locked sample_locked 0 = true ∧
    (simplify_clause_database sample_locked).problem_clauses = [0] ∧
    ((simplify_clause_database sample_locked).clauses 0).cl = [6, 4, 2] ∧
    ¬ (∀ c ∈ stored (simplify_clause_database sample_locked),
        ∀ l ∈ ((simplify_clause_database sample_locked).clauses c).cl,
          ¬ ((simplify_clause_database sample_locked).value l ≠ VAL_UNDEF ∧
            (simplify_clause_database sample_locked).level (var_of l)
              ≤ (simplify_clause_database sample_locked).base_level)) := by
  refine ⟨by decide, by decide, by decide, by decide, by unfold Propagated; decide, rfl,
    by decide, by decide, by decide, by decide⟩

theorem assignInv_sample_simplify : AssignInv sample_simplify :=
  ⟨by decide, by decide, by decide, by decide, by decide, by decide, by decide⟩

theorem clauseInv_sample_simplify : ClauseInv sample_simplify :=
  ⟨by decide, by decide, by decide⟩

theorem simplify_clause_database_spec_witness :
    sample_simplify.stack.lit = [5, 6] ∧
    stored sample_simplify = [0, 1, 2] ∧
    (sample_simplify.clauses 1).cl = [3, 8, 4] ∧
    ((simplify_clause_database sample_simplify).value = sample_simplify.value ∧
    (∀ c, c ∈ stored (simplify_clause_database sample_simplify) ↔
      c ∈ stored sample_simplify ∧ is_clause_to_be_removed (sample_simplify.clauses c) = false ∧
        (clause_is_locked sample_simplify c = true ∨
          ∀ l ∈ (sample_simplify.clauses c).cl, sample_simplify.value l ≠ VAL_TRUE)) ∧
    (∀ c ∈ stored (simplify_clause_database sample_simplify),
      is_clause_to_be_removed ((simplify_clause_database sample_simplify).clauses c) = false ∧
      (clause_is_locked sample_simplify c = true →
        (simplify_clause_database sample_simplify).clauses c = sample_simplify.clauses c) ∧
      (clause_is_locked sample_simplify c = false →
        ((simplify_clause_database sample_simplify).clauses c).cl
          = (sample_simplify.clauses c).cl.filter
              (fun l => decide (sample_simplify.value l = VAL_UNDEF)) ∧
        ∀ l ∈ ((simplify_clause_database sample_simplify).clauses c).cl,
          (simplify_clause_database sample_simplify).value l = VAL_UNDEF))) ∧
    stored (simplify_clause_database sample_simplify) = [1] ∧
    ((simplify_clause_database sample_simplify).clauses 1).cl = [3, 8] :=
  ⟨by decide, by decide, by decide,
    simplify_clause_database_spec (by decide) assignInv_sample_simplify
      clauseInv_sample_simplify (by unfold Propagated; decide) (by decide) (by decide),
    by decide, by decide⟩

/-! ## Reordering of the learned clauses -/

theorem movedWithin_refl (low high : Nat) (a : Nat → Nat) : MovedWithin low high a a :=
  ⟨Equiv.refl _, fun _ _ => rfl, fun _ => rfl⟩

theorem movedWithin_trans {low high : Nat} {a b c : Nat → Nat}
    (h1 : MovedWithin low high a b) (h2 : MovedWithin low high b c) :
    MovedWithin low high a c := by
  obtain ⟨σ, s1, s2⟩ := h1
  obtain ⟨τ, t1, t2⟩ := h2
  refine ⟨τ.trans σ, fun k hk => ?_, fun k => ?_⟩
  · show σ (τ k) = k
    rw [t1 k hk, s1 k hk]
  · show c k = a (σ (τ k))
    rw [t2 k, s2 (τ k)]

theorem movedWithin_mono {low high low1 high1 : Nat} {a b : Nat → Nat}
    (h : MovedWithin low high a b) (hl : low1 ≤ low) (hh : high ≤ high1) :
    MovedWithin low1 high1 a b := by
  obtain ⟨σ, s1, s2⟩ := h
  exact ⟨σ, fun k hk => s1 k (fun ⟨x, y⟩ => hk ⟨by omega, by omega⟩), s2⟩

theorem movedWithin_swap {low high : Nat} (a : Nat → Nat) {i j : Nat}
    (hi : low ≤ i ∧ i < high) (hj : low ≤ j ∧ j < high) :
    MovedWithin low high a (swap_entries a i j) := by
  refine ⟨Equiv.swap i j, fun k hk => ?_, fun k => ?_⟩
  · apply Equiv.swap_apply_of_ne_of_ne
    · intro e; exact hk (e ▸ hi)
    · intro e; exact hk (e ▸ hj)
  · unfold swap_entries updN
    by_cases h1 : k = j
    · subst h1
      rw [if_pos rfl, Equiv.swap_apply_right]
    · rw [if_neg h1]
      by_cases h2 : k = i
      · subst h2
        rw [if_pos rfl, Equiv.swap_apply_left]
      · rw [if_neg h2, Equiv.swap_apply_of_ne_of_ne h2 h1]

theorem movedWithin_outside {low high : Nat} {a b : Nat → Nat} (h : MovedWithin low high a b)
    {k : Nat} (hk : ¬ (low ≤ k ∧ k < high)) : b k = a k := by
  obtain ⟨σ, s1, s2⟩ := h
  rw [s2 k, s1 k hk]

theorem movedWithin_inside {low high : Nat} {a b : Nat → Nat} (h : MovedWithin low high a b)
    {k : Nat} (hk : low ≤ k ∧ k < high) : ∃ m, (low ≤ m ∧ m < high) ∧ b k = a m := by
  obtain ⟨σ, s1, s2⟩ := h
  refine ⟨σ k, ?_, s2 k⟩
  by_contra hn
  have := s1 (σ k) hn
  have e : σ k = k := σ.injective this
  rw [e] at hn
  exact hn hk

theorem swap_entries_left (a : Nat → Nat) (i j : Nat) : swap_entries a i j i = a j := by
  unfold swap_entries updN
  by_cases h : i = j
  · rw [if_pos h, h]
  · rw [if_neg h, if_pos rfl]

theorem swap_entries_right (a : Nat → Nat) (i j : Nat) : swap_entries a i j j = a i := by
  unfold swap_entries updN
  rw [if_pos rfl]

theorem swap_entries_other (a : Nat → Nat) {i j k : Nat} (h1 : k ≠ i) (h2 : k ≠ j) :
    swap_entries a i j k = a k := by
  unfold swap_entries updN
  rw [if_neg h2, if_neg h1]

theorem scan_down_spec {α : Type} [LinearOrder α] (act : Nat → α) (a : Nat → Nat) (p : α) :
    ∀ j k, k < j → ¬ (act (a k) < p) →
      ∃ j1, scan_down act a p j = some j1 ∧ k ≤ j1 ∧ j1 < j ∧ ¬ (act (a j1) < p) ∧
        ∀ m, j1 < m → m < j → act (a m) < p := by
  intro j
  induction j with
  | zero => intro k hk; omega
  | succ j ih =>
    intro k hk hp
    unfold scan_down
    by_cases h : act (a j) < p
    · rw [if_pos h]
      have hkj : k < j := by
        rcases Nat.lt_succ_iff_lt_or_eq.1 hk with h1 | h1
        · exact h1
        · subst h1; exact absurd h hp
      obtain ⟨j1, e, b1, b2, b3, b4⟩ := ih k hkj hp
      refine ⟨j1, e, b1, by omega, b3, fun m hm1 hm2 => ?_⟩
      rcases Nat.lt_succ_iff_lt_or_eq.1 hm2 with h1 | h1
      · exact b4 m hm1 h1
      · subst h1; exact h
    · rw [if_neg h]
      exact ⟨j, rfl, by omega, by omega, h, fun m hm1 hm2 => by omega⟩

theorem scan_up_to_spec {α : Type} [LinearOrder α] (act : Nat → α) (a : Nat → Nat) (p : α)
    (j : Nat) : ∀ fuel i, j - i ≤ fuel →
      i < scan_up_to act a p j fuel i ∧
      (i ≤ j → scan_up_to act a p j fuel i ≤ j + 1) ∧
      (∀ m, i < m → m < scan_up_to act a p j fuel i → act (a m) > p) ∧
      (scan_up_to act a p j fuel i ≤ j → ¬ (act (a (scan_up_to act a p j fuel i)) > p)) := by
  intro fuel
  induction fuel with
  | zero =>
    intro i hf
    unfold scan_up_to
    exact ⟨by omega, fun _ => by omega, fun m h1 h2 => by omega, fun h => by omega⟩
  | succ fuel ih =>
    intro i hf
    unfold scan_up_to
    by_cases h : i + 1 ≤ j ∧ act (a (i + 1)) > p
    · rw [if_pos h]
      obtain ⟨b1, b2, b3, b4⟩ := ih (i + 1) (by omega)
      refine ⟨by omega, fun _ => b2 h.1, fun m hm1 hm2 => ?_, b4⟩
      by_cases hm : m = i + 1
      · subst hm; exact h.2
      · exact b3 m (by omega) hm2
    · rw [if_neg h]
      refine ⟨by omega, fun _ => by omega, fun m h1 h2 => by omega, fun h1 h2 => h ⟨h1, h2⟩⟩

theorem scan_up_spec {α : Type} [LinearOrder α] (act : Nat → α) (a : Nat → Nat) (p : α)
    (n : Nat) : ∀ fuel i k, i < k → k < n → ¬ (act (a k) > p) → k - i ≤ fuel →
      ∃ i1, scan_up act a p n fuel i = some i1 ∧ i < i1 ∧ i1 ≤ k ∧ ¬ (act (a i1) > p) ∧
        ∀ m, i < m → m < i1 → act (a m) > p := by
  intro fuel
  induction fuel with
  | zero => intro i k h1 h2 h3 h4; omega
  | succ fuel ih =>
    intro i k h1 h2 h3 h4
    unfold scan_up
    rw [if_pos (by omega : i + 1 < n)]
    by_cases h : act (a (i + 1)) > p
    · rw [if_pos h]
      have hk : i + 1 < k := by
        rcases Nat.lt_or_ge (i + 1) k with h5 | h5
        · exact h5
        · have : k = i + 1 := by omega
          subst this; exact absurd h h3
      obtain ⟨i1, e, b1, b2, b3, b4⟩ := ih (i + 1) k hk h2 h3 (by omega)
      refine ⟨i1, e, by omega, b2, b3, fun m hm1 hm2 => ?_⟩
      by_cases hm : m = i + 1
      · subst hm; exact h
      · exact b4 m (by omega) hm2
    · rw [if_neg h]
      exact ⟨i + 1, rfl, by omega, by omega, h, fun m hm1 hm2 => by omega⟩

theorem split_loop_spec {α : Type} [LinearOrder α] (act : Nat → α) (p : α)
    (low high n : Nat) : ∀ fuel (a : Nat → Nat) i j, SplitInv act a low high n i j p →
      j - i ≤ fuel →
      ∃ b j1, split_loop act p n fuel a i j = some (b, j1) ∧ MovedWithin (low + 1) high a b ∧
        low ≤ j1 ∧ j1 < high ∧ act (b low) = p ∧ (∀ k, low < k → k < j1 → p ≤ act (b k)) ∧
        p ≤ act (b j1) ∧ (∀ k, j1 < k → k < high → act (b k) ≤ p) := by
  intro fuel
  induction fuel with
  | zero =>
    intro a i j I hf
    unfold split_loop
    rw [if_neg (by omega)]
    exact ⟨a, j, rfl, movedWithin_refl _ _ _, I.hlj, I.hj, I.piv,
      fun k h1 h2 => I.left k h1 (by omega), I.atj, I.right⟩
  | succ fuel ih =>
    intro a i j I hf
    unfold split_loop
    by_cases hij : i < j
    · rw [if_pos hij]
      have ei : act (swap_entries a i j i) = act (a j) := by rw [swap_entries_left]
      have ej : act (swap_entries a i j j) = act (a i) := by rw [swap_entries_right]
      have hai : act (a i) ≤ p := I.ati (by omega)
      obtain ⟨j1, e1, c1, c2, c3, c4⟩ := scan_down_spec act (swap_entries a i j) p j i hij
        (by rw [ei]; exact not_lt.2 I.atj)
      obtain ⟨i1, e2, d1, d2, d3, d4⟩ := scan_up_spec act (swap_entries a i j) p n (n - i) i j
        hij (by have := I.hj; have := I.hn; omega) (by rw [ej]; exact not_lt.2 hai)
        (by have := I.hj; have := I.hn; omega)
      rw [e1, e2]
      dsimp only
      have I1 : SplitInv act (swap_entries a i j) low high n i1 j1 p := by
        have hl := I.hlow
        refine ⟨by omega, ?_, by have := I.hj; omega, by omega, I.hn, ?_, ?_, ?_, not_lt.1 c3,
          fun _ => not_lt.1 d3⟩
        · by_contra hc
          have h1 : act (swap_entries a i j (j1 + 1)) > p := d4 (j1 + 1) (by omega) (by omega)
          by_cases h2 : j1 + 1 = j
          · rw [h2, ej] at h1
            exact absurd hai (not_le.2 h1)
          · have := c4 (j1 + 1) (by omega) (by omega)
            exact absurd this (not_lt.2 (le_of_lt h1))
        · rw [swap_entries_other a (by omega) (by omega)]
          exact I.piv
        · intro k hk1 hk2
          rcases Nat.lt_trichotomy k i with h | h | h
          · rw [swap_entries_other a (by omega) (by omega)]
            exact I.left k hk1 h
          · subst h
            rw [ei]; exact I.atj
          · exact le_of_lt (d4 k h hk2)
        · intro k hk1 hk2
          rcases Nat.lt_trichotomy k j with h | h | h
          · exact le_of_lt (c4 k hk1 h)
          · subst h
            rw [ej]; exact hai
          · rw [swap_entries_other a (by omega) (by omega)]
            exact I.right k h hk2
      obtain ⟨b, j2, e3, m3, r⟩ := ih (swap_entries a i j) i1 j1 I1 (by omega)
      refine ⟨b, j2, e3, movedWithin_trans (movedWithin_swap a ?_ ?_) m3, r⟩
      · have := I.hlow; have := I.hj; omega
      · have := I.hlow; have := I.hj; omega
    · rw [if_neg hij]
      exact ⟨a, j, rfl, movedWithin_refl _ _ _, I.hlj, I.hj, I.piv,
        fun k h1 h2 => I.left k h1 (by omega), I.atj, I.right⟩

/-- One pass of `quick_split` puts the pivot at `j`, the entries at least as
active before it and the entries at most as active after it. -/
theorem split_pass_spec {α : Type} [LinearOrder α] (act : Nat → α) (n : Nat) (a : Nat → Nat)
    {low high : Nat} (hlh : low < high) (hn : high ≤ n) :
    ∃ b j, split_pass act n a low high = some (b, j) ∧ MovedWithin low high a b ∧
      low ≤ j ∧ j < high ∧ (∀ k, low ≤ k → k < j → act (b j) ≤ act (b k)) ∧
      (∀ k, j < k → k < high → act (b k) ≤ act (b j)) := by
  unfold split_pass
  obtain ⟨j0, e0, c1, c2, c3, c4⟩ := scan_down_spec act a (act (a low)) high low hlh
    (lt_irrefl _)
  obtain ⟨u1, u2, u3, u4⟩ := scan_up_to_spec act a (act (a low)) j0 (j0 - low) low (le_refl _)
  dsimp only
  rw [e0]
  dsimp only
  generalize scan_up_to act a (act (a low)) j0 (j0 - low) low = i0 at u1 u2 u3 u4 ⊢
  have I : SplitInv act a low high n i0 j0 (act (a low)) :=
    ⟨u1, u2 c1, c2, c1, hn, rfl, fun k h1 h2 => le_of_lt (u3 k h1 h2),
      fun k h1 h2 => le_of_lt (c4 k h1 h2), not_lt.1 c3, fun h => not_lt.1 (u4 h)⟩
  obtain ⟨b, j, e, m, r1, r2, r3, r4, r5, r6⟩ :=
    split_loop_spec act (act (a low)) low high n (j0 - i0) a i0 j0 I (le_refl _)
  rw [e]
  dsimp only
  refine ⟨_, j, rfl, ?_, r1, r2, ?_, ?_⟩
  · exact movedWithin_trans (movedWithin_mono m (by omega) (le_refl _))
      (movedWithin_swap b ⟨le_refl _, hlh⟩ ⟨r1, r2⟩)
  · intro k hk1 hk2
    rw [swap_entries_right, r3]
    by_cases hk : k = low
    · subst hk
      rw [swap_entries_left]; exact r5
    · rw [swap_entries_other b hk (by omega)]
      exact r4 k (by omega) hk2
  · intro k hk1 hk2
    rw [swap_entries_right, r3, swap_entries_other b (by omega) (by omega)]
    exact r6 k hk1 hk2

theorem quick_split_loop_spec {α : Type} [LinearOrder α] (act : Nat → α) (lo n half : Nat) :
    ∀ fuel (a : Nat → Nat) low high, OuterInv act a lo n half low high → high - low ≤ fuel →
      ∃ b, quick_split_loop act n half fuel a low high = some b ∧ MovedWithin lo n a b ∧
        (∀ k m, lo ≤ k → k < half → half ≤ m → m < n → act (b m) ≤ act (b k)) ∧
        ∀ m, half < m → m < n → act (b m) ≤ act (b half) := by
  intro fuel
  induction fuel with
  | zero =>
    intro a low high I hf
    have := I.h2; have := I.h3
    omega
  | succ fuel ih =>
    intro a low high I hf
    have g1 := I.h1
    have g2 := I.h2
    have g3 := I.h3
    have g4 := I.h4
    obtain ⟨b, j, e, m, r1, r2, r3, r4⟩ := split_pass_spec act n a
      (by omega : low < high) g4
    unfold quick_split_loop
    rw [e]
    dsimp only
    have mo : MovedWithin lo n a b := movedWithin_mono m g1 g4
    -- the entries outside the range are as before, the ones inside come from inside
    have hleft : ∀ k x, lo ≤ k → k < low → low ≤ x → x < n → act (b x) ≤ act (b k) := by
      intro k x hk1 hk2 hx1 hx2
      rw [movedWithin_outside m (by omega : ¬ (low ≤ k ∧ k < high))]
      by_cases hx : x < high
      · obtain ⟨y, hy, ey⟩ := movedWithin_inside m ⟨hx1, hx⟩
        rw [ey]
        exact I.left k y hk1 hk2 hy.1 (by omega)
      · rw [movedWithin_outside m (by omega : ¬ (low ≤ x ∧ x < high))]
        exact I.left k x hk1 hk2 hx1 hx2
    have hright : ∀ k x, high ≤ k → k < n → lo ≤ x → x < high → act (b k) ≤ act (b x) := by
      intro k x hk1 hk2 hx1 hx2
      rw [movedWithin_outside m (by omega : ¬ (low ≤ k ∧ k < high))]
      by_cases hx : low ≤ x
      · obtain ⟨y, hy, ey⟩ := movedWithin_inside m ⟨hx, hx2⟩
        rw [ey]
        exact I.right k y hk1 hk2 (by omega) hy.2
      · rw [movedWithin_outside m (by omega : ¬ (low ≤ x ∧ x < high))]
        exact I.right k x hk1 hk2 hx1 hx2
    by_cases hj : j = half
    · rw [if_pos hj]
      subst hj
      refine ⟨b, rfl, mo, fun k x hk1 hk2 hx1 hx2 => ?_, fun x hx1 hx2 => ?_⟩
      · by_cases hk : k < low
        · exact hleft k x hk1 hk (by omega) hx2
        · by_cases hx : x < high
          · have a1 : act (b j) ≤ act (b k) := r3 k (by omega) hk2
            have a2 : act (b x) ≤ act (b j) := by
              by_cases hxj : x = j
              · rw [hxj]
              · exact r4 x (by omega) hx
            exact le_trans a2 a1
          · exact hright x k (by omega) hx2 hk1 (by omega)
      · by_cases hx : x < high
        · exact r4 x hx1 hx
        · exact hright x j (by omega) hx2 (by omega) r2
    · rw [if_neg hj]
      by_cases hlt : j < half
      · rw [if_pos hlt]
        have I1 : OuterInv act b lo n half (j + 1) high := by
          refine ⟨by omega, by omega, g3, g4, ?_, hright⟩
          intro k x hk1 hk2 hx1 hx2
          by_cases hk : k < low
          · exact hleft k x hk1 hk (by omega) hx2
          · by_cases hx : x < high
            · have a1 : act (b j) ≤ act (b k) := by
                by_cases hkj : k = j
                · rw [hkj]
                · exact r3 k (by omega) (by omega)
              exact le_trans (r4 x (by omega) hx) a1
            · exact hright x k (by omega) hx2 hk1 (by omega)
        obtain ⟨c, e2, m2, r⟩ := ih b (j + 1) high I1 (by omega)
        exact ⟨c, e2, movedWithin_trans mo m2, r⟩
      · rw [if_neg hlt]
        have I1 : OuterInv act b lo n half low j := by
          refine ⟨g1, g2, by omega, by omega, hleft, ?_⟩
          intro k x hk1 hk2 hx1 hx2
          by_cases hk : k < high
          · by_cases hx : x < low
            · exact hleft x k hx1 hx (by omega) hk2
            · have a1 : act (b k) ≤ act (b j) := by
                by_cases hkj : k = j
                · rw [hkj]
                · exact r4 k (by omega) hk
              exact le_trans a1 (r3 x (by omega) hx2)
          · exact hright k x (by omega) hk2 hx1 (by omega)
        obtain ⟨c, e2, m2, r⟩ := ih b low j I1 (by omega)
        exact ⟨c, e2, movedWithin_trans mo m2, r⟩

/-- `quick_split(a, low, high)` returns, permutes `a[low .. high-1]`, and
leaves every entry before `half = (low + high)/2` at least as active as every
entry from `half` on. -/
theorem quick_split_spec {α : Type} [LinearOrder α] (act : Nat → α) (a : Nat → Nat)
    (low high : Nat) :
    ∃ b, quick_split act high a low high = some b ∧ MovedWithin low high a b ∧
      ∀ k m, low ≤ k → k < (low + high) / 2 → (low + high) / 2 ≤ m → m < high →
        act (b m) ≤ act (b k) := by
  unfold quick_split
  by_cases h : high ≤ low + 1
  · rw [if_pos h]
    exact ⟨a, rfl, movedWithin_refl _ _ _, fun k m h1 h2 h3 h4 => by omega⟩
  · rw [if_neg h]
    obtain ⟨b, e, m, r, _⟩ :=
      quick_split_loop_spec act low high ((low + high) / 2) (high - low) a low high
        ⟨le_refl _, by omega, by omega, le_refl _, fun k m h1 h2 => by omega,
          fun k m h1 h2 => by omega⟩ (le_refl _)
    exact ⟨b, e, m, r⟩

theorem map_getD_range (v : List Nat) : (List.range v.length).map (fun i => v.getD i 0) = v := by
  apply List.ext_getElem
  · simp
  · intro i h1 h2
    simp [List.getElem?_eq_getElem h2]

theorem movedWithin_perm {n : Nat} {a b : Nat → Nat} (h : MovedWithin 0 n a b) :
    ((List.range n).map b).Perm ((List.range n).map a) := by
  obtain ⟨σ, s1, s2⟩ := h
  have e : (List.range n).map b = ((List.range n).map σ).map a := by
    rw [List.map_map]
    apply List.map_congr_left
    intro k _
    exact s2 k
  rw [e]
  apply List.Perm.map
  rw [List.perm_ext_iff_of_nodup ((List.nodup_range n).map σ.injective) (List.nodup_range n)]
  intro k
  rw [List.mem_map, List.mem_range]
  constructor
  · rintro ⟨x, hx, rfl⟩
    rw [List.mem_range] at hx
    by_contra hc
    have := s1 (σ x) (by omega)
    have := σ.injective this
    omega
  · intro hk
    refine ⟨σ.symm k, ?_, by simp⟩
    rw [List.mem_range]
    by_contra hc
    have := s1 (σ.symm k) (by omega)
    rw [Equiv.apply_symm_apply] at this
    omega

/-- Claim C23 (amended): `reorder_clause_vector` returns a permutation of the
vector in which the half of highest activity comes first: every clause at an
index below `n/2` has an activity at least that of every clause at an index
from `n/2` on. -/
theorem reorder_clause_vector_spec {α : Type} [LinearOrder α] (act : Nat → α) (v : List Nat) :
    ∃ w, reorder_clause_vector act v = some w ∧ w.Perm v ∧ w.length = v.length ∧
      ∀ i j, i < v.length / 2 → v.length / 2 ≤ j → j < v.length →
        act (w.getD j 0) ≤ act (w.getD i 0) := by
  obtain ⟨b, e, m, r⟩ := quick_split_spec act (fun i => v.getD i 0) 0 v.length
  unfold reorder_clause_vector
  rw [e]
  refine ⟨_, rfl, ?_, by simp, ?_⟩
  · have := movedWithin_perm m
    rw [map_getD_range] at this
    exact this
  · intro i j hi hj hjn
    have h := r i j (Nat.zero_le _) (by simpa using hi) (by simpa using hj) hjn
    have gi : ((List.range v.length).map b).getD i 0 = b i := by
      rw [List.getD_eq_getElem _ _ (by simp; omega)]
      simp
    have gj : ((List.range v.length).map b).getD j 0 = b j := by
      rw [List.getD_eq_getElem _ _ (by simp; omega)]
      simp
    rw [gi, gj]
    exact h

/-- Claim C23 as stated fails: with the clause 0 of activity 1 and the clause
1 of activity 2, `reorder_clause_vector` exchanges the two clauses; the clause
at index 0 then has a larger activity than the clause at index 1. -/
theorem reorder_puts_high_activity_first :
    reorder_clause_vector sample_activity [0, 1] = some [1, 0] ∧
    ¬ (∀ w, reorder_clause_vector sample_activity [0, 1] = some w →
        ∀ i j, i < 2 / 2 → 2 / 2 ≤ j → j < 2 →
          sample_activity (w.getD i 0) ≤ sample_activity (w.getD j 0)) := by
  refine ⟨by decide, fun h => ?_⟩
  have := h [1, 0] (by decide) 0 1 (by decide) (by decide) (by decide)
  revert this
  decide

/-! ## Deletion of learned clauses -/

theorem reduce_mark_low_clauses {α : Type} [LinearOrder α] (act : Nat → α) (thr : α)
    (s : smt_core_t) (c : Nat) :
    SameButClauses s (reduce_mark_low act thr s c) ∧
    (reduce_mark_low act thr s c).clauses
      = updN s.clauses c (reduce_step_result (fun c => decide (act c ≤ thr))
          s.value s.antecedent c (s.clauses c)) := by
  unfold reduce_mark_low reduce_step_result
  rw [clause_is_locked_eq]
  dsimp only
  split
  · exact ⟨rfl, rfl⟩
  · exact ⟨rfl, (updN_same_self _ _).symm⟩

theorem reduce_mark_high_clauses (s : smt_core_t) (c : Nat) :
    SameButClauses s (reduce_mark_high s c) ∧
    (reduce_mark_high s c).clauses
      = updN s.clauses c (reduce_step_result (fun _ => true)
          s.value s.antecedent c (s.clauses c)) := by
  unfold reduce_mark_high reduce_step_result
  rw [clause_is_locked_eq]
  simp only [Bool.true_and]
  split
  · exact ⟨rfl, rfl⟩
  · exact ⟨rfl, (updN_same_self _ _).symm⟩

/-- The state after `reduce_clause_database`, given the reordered vector. -/
theorem reduce_clause_database_eq {α : Type} [LinearOrder α] [Div α] [NatCast α]
    (act : Nat → α) (cla_inc : α) {s : smt_core_t} {v : List Nat}
    (hn : s.learned_clauses ≠ [])
    (hv : reorder_clause_vector act s.learned_clauses = some v) (nd : v.Nodup) :
    ∃ (cl : Nat → clause_t) (a b : Nat),
      reduce_clause_database act cla_inc s
        = some (delete_learned_clauses
            { s with clauses := cl, learned_clauses := v, aux_literals := a, aux_clauses := b }) ∧
      ∀ d, cl d =
        if d ∈ v.take (s.learned_clauses.length / 2) then
          reduce_step_result
            (fun c => decide (act c ≤ cla_inc / ((s.learned_clauses.length : Nat) : α)))
            s.value s.antecedent d (s.clauses d)
        else if d ∈ v.drop (s.learned_clauses.length / 2) then
          reduce_step_result (fun _ => true) s.value s.antecedent d (s.clauses d)
        else s.clauses d := by
  have ndT : (v.take (s.learned_clauses.length / 2)).Nodup := nd.sublist (List.take_sublist _ _)
  have ndD : (v.drop (s.learned_clauses.length / 2)).Nodup := nd.sublist (List.drop_sublist _ _)
  have dis : ∀ d, d ∈ v.take (s.learned_clauses.length / 2) →
      d ∉ v.drop (s.learned_clauses.length / 2) := by
    intro d h1 h2
    have := nd
    rw [← List.take_append_drop (s.learned_clauses.length / 2) v] at this
    exact (List.nodup_append.1 this).2.2 h1 h2
  unfold reduce_clause_database
  dsimp only
  rw [if_neg (fun h => hn (List.length_eq_zero.1 h)), hv]
  dsimp only
  obtain ⟨F1a, F1b⟩ := foldl_clause_steps
    (reduce_mark_low act (cla_inc / ((s.learned_clauses.length : Nat) : α)))
    (fun value antecedent _ c cl => reduce_step_result
      (fun c => decide (act c ≤ cla_inc / ((s.learned_clauses.length : Nat) : α)))
      value antecedent c cl)
    (fun s c => reduce_mark_low_clauses act _ s c)
    (v.take (s.learned_clauses.length / 2)) { s with learned_clauses := v } ndT
  dsimp only at F1a F1b
  generalize List.foldl (reduce_mark_low act (cla_inc / ((s.learned_clauses.length : Nat) : α)))
    { s with learned_clauses := v } (v.take (s.learned_clauses.length / 2)) = s2 at F1a F1b ⊢
  obtain ⟨cl2, a2, b2, e2⟩ := sameButClauses_exists F1a
  subst e2
  dsimp only at F1b
  obtain ⟨F2a, F2b⟩ := foldl_clause_steps reduce_mark_high
    (fun value antecedent _ c cl => reduce_step_result (fun _ => true) value antecedent c cl)
    reduce_mark_high_clauses
    (v.drop (s.learned_clauses.length / 2))
    { s with learned_clauses := v, clauses := cl2, aux_literals := a2, aux_clauses := b2 } ndD
  dsimp only at F2a F2b
  generalize List.foldl reduce_mark_high
    { s with learned_clauses := v, clauses := cl2, aux_literals := a2, aux_clauses := b2 }
    (v.drop (s.learned_clauses.length / 2)) = s3 at F2a F2b ⊢
  obtain ⟨cl3, a3, b3, e3⟩ := sameButClauses_exists F2a
  subst e3
  dsimp only at F2b
  refine ⟨cl3, a3, b3, rfl, fun d => ?_⟩
  rw [F2b d]
  by_cases hT : d ∈ v.take (s.learned_clauses.length / 2)
  · rw [if_pos hT, if_neg (dis d hT), F1b d, if_pos hT]
  · rw [if_neg hT, F1b d, if_neg hT]

theorem getD_mem_take {v : List Nat} {i k : Nat} (hi : i < k) (hv : i < v.length) :
    v.getD i 0 ∈ v.take k := by
  rw [List.getD_eq_getElem _ _ hv]
  rw [List.mem_take_iff_getElem]
  exact ⟨i, by omega, rfl⟩

theorem getD_mem_drop {v : List Nat} {i k : Nat} (hi : k ≤ i) (hv : i < v.length) :
    v.getD i 0 ∈ v.drop k := by
  rw [List.getD_eq_getElem _ _ hv]
  rw [List.mem_drop_iff_getElem]
  exact ⟨i - k, by omega, by simp [Nat.add_sub_cancel' hi]⟩

/-- The state after `delete_learned_clauses`. -/
theorem delete_learned_clauses_eq (s : smt_core_t) :
    delete_learned_clauses s =
      { s with
        watch := fun l => if 0 ≤ l ∧ l < s.nlits then
          (s.watch l).filter (fun lnk => ! is_clause_to_be_removed (s.clauses lnk.1))
          else s.watch l
        learned_clauses :=
          s.learned_clauses.filter (fun c => ! is_clause_to_be_removed (s.clauses c))
        nb_clauses := s.nb_clauses - (s.learned_clauses.length
          - (s.learned_clauses.filter
              (fun c => ! is_clause_to_be_removed (s.clauses c))).length) } := by
  unfold delete_learned_clauses
  rw [cleanup_watch_lists_eq]
  rfl

/-- Claim C24: `reduce_clause_database` returns; a learned clause that is
locked stays in the vector of learned clauses, unchanged and on the watch lists
of its two watched literals; with `v` the vector after the reordering and `n`
its size, a clause `v[i]` that is not locked is removed if `i ≥ n/2`, and for
`i < n/2` it is removed exactly when its activity is at most `cla_inc / n`;
`nb_clauses` decreases by the number of clauses removed. -/
theorem reduce_clause_database_spec {α : Type} [LinearOrder α] [Div α] [NatCast α]
    (act : Nat → α) (cla_inc : α) {s : smt_core_t} (hC : ClauseInv s) (hW : WatchInv s)
    (nd : s.learned_clauses.Nodup)
    (hu : ∀ c ∈ s.learned_clauses, is_clause_to_be_removed (s.clauses c) = false) :
    ∃ v t, reorder_clause_vector act s.learned_clauses = some v ∧
      v.Perm s.learned_clauses ∧
      reduce_clause_database act cla_inc s = some t ∧
      (∀ c ∈ s.learned_clauses, clause_is_locked s c = true →
        c ∈ t.learned_clauses ∧ t.clauses c = s.clauses c ∧
        ∀ j, j < 2 → (c, j) ∈ t.watch ((s.clauses c).get j)) ∧
      (∀ i, s.learned_clauses.length / 2 ≤ i → i < s.learned_clauses.length →
        clause_is_locked s (v.getD i 0) = false → v.getD i 0 ∉ t.learned_clauses) ∧
      (∀ i, i < s.learned_clauses.length / 2 → clause_is_locked s (v.getD i 0) = false →
        (v.getD i 0 ∉ t.learned_clauses ↔
          act (v.getD i 0) ≤ cla_inc / ((s.learned_clauses.length : Nat) : α))) ∧
      t.learned_clauses.Sublist v ∧
      t.nb_clauses = s.nb_clauses - (s.learned_clauses.length - t.learned_clauses.length) ∧
      t.problem_clauses = s.problem_clauses := by
  obtain ⟨v, hv, hperm, hlen, _⟩ := reorder_clause_vector_spec act s.learned_clauses
  by_cases hn : s.learned_clauses = []
  · have hv0 : v = [] := by
      rw [hn] at hperm
      exact List.Perm.eq_nil hperm
    refine ⟨v, s, hv, hperm, ?_, ?_, ?_, ?_, ?_, ?_, rfl⟩
    · unfold reduce_clause_database
      dsimp only
      rw [if_pos (by rw [hn]; rfl)]
    · intro c hc; rw [hn] at hc; cases hc
    · intro i _ hi; rw [hn] at hi; simp at hi
    · intro i hi; rw [hn] at hi; simp at hi
    · rw [hn, hv0]
    · rw [hn]; rfl
  · have ndv : v.Nodup := hperm.nodup_iff.2 nd
    obtain ⟨cl, a, b, e, hcl⟩ := reduce_clause_database_eq act cla_inc hn hv ndv
    rw [delete_learned_clauses_eq] at e
    dsimp only at e
    have hmemv : ∀ c, c ∈ v ↔ c ∈ s.learned_clauses := fun c => hperm.mem_iff
    have hst : ∀ c ∈ s.learned_clauses, c ∈ stored s := fun c hc => by
      unfold stored; exact List.mem_append_right _ hc
    -- a marked clause is recognised as such
    have hmark : ∀ c ∈ s.learned_clauses,
        is_clause_to_be_removed (mark_for_removal (s.clauses c)) = true := by
      intro c hc
      have hl := hC.len c (hst c hc) (hu c hc)
      have hv0 := (hC.valid c (hst c hc) (hu c hc) 0 (by omega)).1
      exact mark_for_removal_marked (fun h => by rw [h] at hl; simp at hl) (by omega)
    -- the clause of a learned handle after the two loops
    have hlocked : ∀ c ∈ s.learned_clauses, clause_is_locked s c = true →
        cl c = s.clauses c := by
      intro c hc hk
      rw [hcl c]
      unfold reduce_step_result
      rw [← clause_is_locked_eq, hk]
      simp
    have hhigh : ∀ i, s.learned_clauses.length / 2 ≤ i → i < s.learned_clauses.length →
        clause_is_locked s (v.getD i 0) = false →
        is_clause_to_be_removed (cl (v.getD i 0)) = true := by
      intro i h1 h2 hk
      have hd := getD_mem_drop h1 (by omega : i < v.length)
      have hnt : v.getD i 0 ∉ v.take (s.learned_clauses.length / 2) := by
        intro ht
        have := ndv
        rw [← List.take_append_drop (s.learned_clauses.length / 2) v] at this
        exact (List.nodup_append.1 this).2.2 ht hd
      rw [hcl _, if_neg hnt, if_pos hd]
      unfold reduce_step_result
      rw [← clause_is_locked_eq, hk]
      simp only [Bool.not_false, Bool.and_self, if_true]
      exact hmark _ ((hmemv _).1 (List.mem_of_mem_drop hd))
    have hlow : ∀ i, i < s.learned_clauses.length / 2 →
        clause_is_locked s (v.getD i 0) = false →
        (is_clause_to_be_removed (cl (v.getD i 0)) = true ↔
          act (v.getD i 0) ≤ cla_inc / ((s.learned_clauses.length : Nat) : α)) := by
      intro i h1 hk
      have hi : i < v.length := by omega
      have ht := getD_mem_take h1 hi
      have hin := (hmemv _).1 (List.mem_of_mem_take ht)
      rw [hcl _, if_pos ht]
      unfold reduce_step_result
      rw [← clause_is_locked_eq, hk]
      simp only [Bool.not_false, Bool.and_true]
      by_cases ha : act (v.getD i 0) ≤ cla_inc / ((s.learned_clauses.length : Nat) : α)
      · simp only [ha, decide_True, if_true, iff_true]
        exact hmark _ hin
      · simp only [ha, decide_False, iff_false]
        rw [if_neg (by simp)]
        rw [hu _ hin]
        simp
    refine ⟨v, _, hv, hperm, e, ?_, ?_, ?_, List.filter_sublist _, ?_, rfl⟩
    · intro c hc hk
      have hcc := hlocked c hc hk
      refine ⟨?_, hcc, fun j hj => ?_⟩
      · show c ∈ v.filter _
        rw [List.mem_filter]
        refine ⟨(hmemv c).2 hc, ?_⟩
        show (! is_clause_to_be_removed (cl c)) = true
        rw [hcc, hu c hc]; rfl
      · have hw := hW.complete c (hst c hc) (hu c hc) j hj
        show (c, j) ∈ (if 0 ≤ (s.clauses c).get j ∧ (s.clauses c).get j < s.nlits then
          (s.watch ((s.clauses c).get j)).filter
            (fun lnk => ! is_clause_to_be_removed (cl lnk.1))
          else s.watch ((s.clauses c).get j))
        split
        · rw [List.mem_filter]
          refine ⟨hw, ?_⟩
          show (! is_clause_to_be_removed (cl c)) = true
          rw [hcc, hu c hc]; rfl
        · exact hw
    · intro i h1 h2 hk hm
      have := hhigh i h1 h2 hk
      have hm' : v.getD i 0 ∈ v.filter (fun c => ! is_clause_to_be_removed (cl c)) := hm
      rw [List.mem_filter] at hm'
      rw [this] at hm'
      exact absurd hm'.2 (by simp)
    · intro i h1 hk
      rw [← hlow i h1 hk]
      have hi : i < v.length := by omega
      have hin : v.getD i 0 ∈ v := List.mem_of_mem_take (getD_mem_take h1 hi)
      show ¬ (v.getD i 0 ∈ v.filter (fun c => ! is_clause_to_be_removed (cl c))) ↔ _
      rw [List.mem_filter]
      constructor
      · intro h
        by_contra hc
        exact h ⟨hin, by simpa using hc⟩
      · intro h ⟨_, h2⟩
        rw [h] at h2
        exact absurd h2 (by simp)
    · show s.nb_clauses - (v.length - _) = s.nb_clauses - (s.learned_clauses.length - _)
      rw [hlen]

theorem clauseInv_sample_reduce : ClauseInv sample_reduce :=
  ⟨by decide, by decide, by decide⟩

theorem watchInv_sample_reduce : WatchInv sample_reduce :=
  ⟨by decide, by decide, by decide⟩

theorem reduce_clause_database_spec_witness :
    sample_reduce.learned_clauses = [0, 1, 2] ∧ sample_reduce.nb_clauses = 3 ∧
    clause_is_locked sample_reduce 1 = true ∧
    reduce_clause_database sample_clause_activity 6 sample_reduce
      = some ((reduce_clause_database sample_clause_activity 6 sample_reduce).getD sample_reduce) ∧
    ((reduce_clause_database sample_clause_activity 6 sample_reduce).getD
      sample_reduce).learned_clauses = [0, 1] ∧
    ∃ v t, reorder_clause_vector sample_clause_activity sample_reduce.learned_clauses = some v ∧
      v.Perm sample_reduce.learned_clauses ∧
      reduce_clause_database sample_clause_activity 6 sample_reduce = some t ∧
      (∀ c ∈ sample_reduce.learned_clauses, clause_is_locked sample_reduce c = true →
        c ∈ t.learned_clauses ∧ t.clauses c = sample_reduce.clauses c ∧
        ∀ j, j < 2 → (c, j) ∈ t.watch ((sample_reduce.clauses c).get j)) ∧
      (∀ i, sample_reduce.learned_clauses.length / 2 ≤ i →
        i < sample_reduce.learned_clauses.length →
        clause_is_locked sample_reduce (v.getD i 0) = false → v.getD i 0 ∉ t.learned_clauses) ∧
      (∀ i, i < sample_reduce.learned_clauses.length / 2 →
        clause_is_locked sample_reduce (v.getD i 0) = false →
        (v.getD i 0 ∉ t.learned_clauses ↔
          sample_clause_activity (v.getD i 0)
            ≤ 6 / ((sample_reduce.learned_clauses.length : Nat) : Int))) ∧
      t.learned_clauses.Sublist v ∧
      t.nb_clauses = sample_reduce.nb_clauses
        - (sample_reduce.learned_clauses.length - t.learned_clauses.length) ∧
      t.problem_clauses = sample_reduce.problem_clauses :=
  ⟨by decide, by decide, by decide, rfl, by decide,
    reduce_clause_database_spec sample_clause_activity 6 clauseInv_sample_reduce
      watchInv_sample_reduce (by decide) (by decide)⟩

/-! ## Union-find structure of the context -/

theorem rootOf_root {parent : Int → Int} {t r : Int} (h : RootOf parent t r) : parent r = r := by
  induction h with
  | base h => exact h
  | step _ _ ih => exact ih

theorem rootOf_unique {parent : Int → Int} {t r r1 : Int} (h : RootOf parent t r)
    (h1 : RootOf parent t r1) : r = r1 := by
  induction h with
  | base h =>
    cases h1 with
    | base _ => rfl
    | step hn _ => exact absurd h hn
  | step hn _ ih =>
    cases h1 with
    | base h => exact absurd h hn
    | step _ h2 => exact ih h2

theorem rootOf_ne {parent : Int → Int} {t r : Int} (h : RootOf parent t r) (hn : parent t ≠ t) :
    r ≠ t := by
  intro e
  subst e
  exact hn (rootOf_root h)

theorem rootOf_added {τ : Type} {NULL_TERM : Int} {p : partition_t τ} {d : Int → Nat}
    (ok : PartOk NULL_TERM p d) {t r : Int} (h : RootOf p.parent t r)
    (ha : Added NULL_TERM p t) : Added NULL_TERM p r := by
  induction h with
  | base _ => exact ha
  | step _ _ ih =>
    obtain ⟨a1, a2, a3⟩ := ha
    exact ih (ok.closed _ a1 a2 a3)

theorem rootOf_height {τ : Type} {NULL_TERM : Int} {p : partition_t τ} {d : Int → Nat}
    (ok : PartOk NULL_TERM p d) {t r : Int} (h : RootOf p.parent t r)
    (ha : Added NULL_TERM p t) : d r ≤ d t := by
  induction h with
  | base _ => exact le_refl _
  | step hn _ ih =>
    obtain ⟨a1, a2, a3⟩ := ha
    have := ok.acyclic _ a1 a2 a3 hn
    have := ih (ok.closed _ a1 a2 a3)
    omega

theorem find_root_loop_spec {τ : Type} {NULL_TERM : Int} {p : partition_t τ} {d : Int → Nat}
    (ok : PartOk NULL_TERM p d) : ∀ fuel y, Added NULL_TERM p y → d y < fuel →
      ∃ r, find_root_loop p.parent fuel y = some r ∧ RootOf p.parent y r := by
  intro fuel
  induction fuel with
  | zero => intro y _ h; omega
  | succ fuel ih =>
    intro y ha hf
    unfold find_root_loop
    by_cases h : p.parent y = y
    · rw [if_pos h]
      exact ⟨y, rfl, RootOf.base h⟩
    · rw [if_neg h]
      obtain ⟨a1, a2, a3⟩ := ha
      have hd := ok.acyclic _ a1 a2 a3 h
      obtain ⟨r, e, hr⟩ := ih (p.parent y) (ok.closed _ a1 a2 a3) (by omega)
      exact ⟨r, e, RootOf.step h hr⟩

/-- Every term of a well-formed partition has a root. -/
theorem rootOf_exists {τ : Type} {NULL_TERM : Int} {p : partition_t τ} {d : Int → Nat}
    (ok : PartOk NULL_TERM p d) {t : Int} (ha : Added NULL_TERM p t) :
    ∃ r, RootOf p.parent t r := by
  obtain ⟨r, _, h⟩ := find_root_loop_spec ok (d t + 1) t ha (Nat.lt_succ_self _)
  exact ⟨r, h⟩

theorem compress_loop_spec {τ : Type} {NULL_TERM : Int} {p : partition_t τ} {d : Int → Nat}
    (ok : PartOk NULL_TERM p d) (r : Int) : ∀ fuel (q : Int → Int) t, Added NULL_TERM p t →
      RootOf p.parent t r → t ≠ r → (∀ u, d u ≤ d t → q u = p.parent u) → d t < fuel →
      ∃ q1, compress_loop r fuel q t = some q1 ∧
        ∀ u, q1 u = q u ∨ (q1 u = r ∧ RootOf p.parent u r ∧ Added NULL_TERM p u) := by
  intro fuel
  induction fuel with
  | zero => intro q t _ _ _ _ h; omega
  | succ fuel ih =>
    intro q t ha hr hne hq hf
    have hqt : q t = p.parent t := hq t (le_refl _)
    have hnr : p.parent t ≠ t := by
      intro e
      cases hr with
      | base _ => exact hne rfl
      | step hn _ => exact hn e
    have hr1 : RootOf p.parent (p.parent t) r := by
      cases hr with
      | base _ => exact absurd rfl hne
      | step _ h => exact h
    obtain ⟨a1, a2, a3⟩ := ha
    have hd := ok.acyclic _ a1 a2 a3 hnr
    unfold compress_loop
    rw [hqt]
    by_cases h : p.parent t ≠ r
    · rw [if_pos h]
      obtain ⟨q1, e, hq1⟩ := ih (upd q t r) (p.parent t) (ok.closed _ a1 a2 a3) hr1 h
        (fun u hu => by
          have hut : u ≠ t := by
            intro e; subst e; omega
          rw [upd_ne _ _ hut]
          exact hq u (by omega)) (by omega)
      refine ⟨q1, e, fun u => ?_⟩
      rcases hq1 u with h1 | h1
      · by_cases hut : u = t
        · subst hut
          right
          rw [h1, upd_same]
          exact ⟨rfl, RootOf.step hnr hr1, a1, a2, a3⟩
        · left
          rw [h1, upd_ne _ _ hut]
      · exact Or.inr h1
    · rw [if_neg h]
      refine ⟨_, rfl, fun u => ?_⟩
      by_cases hut : u = t
      · subst hut
        right
        rw [upd_same]
        exact ⟨rfl, RootOf.step hnr hr1, a1, a2, a3⟩
      · left
        rw [upd_ne _ _ hut]

/-- A parent array that differs from `parent` only by pointing terms to their
root has the same roots. -/
theorem rootOf_compressed {parent q : Int → Int} {r : Int}
    (hq : ∀ u, q u = parent u ∨ (q u = r ∧ RootOf parent u r)) {u ru : Int}
    (h : RootOf parent u ru) : RootOf q u ru := by
  have hroot : ∀ x, parent x = x → q x = x := by
    intro x hx
    rcases hq x with h1 | ⟨h1, h2⟩
    · rw [h1, hx]
    · rw [h1]
      exact rootOf_unique h2 (RootOf.base hx)
  induction h with
  | base h => exact RootOf.base (hroot _ h)
  | @step t ru hn h1 ih =>
    rcases hq t with h2 | ⟨h2, h3⟩
    · exact RootOf.step (by rw [h2]; exact hn) (by rw [h2]; exact ih)
    · have e : r = ru := rootOf_unique h3 (RootOf.step hn h1)
      subst e
      have hne : r ≠ t := rootOf_ne h3 hn
      exact RootOf.step (by rw [h2]; exact hne)
        (by rw [h2]; exact RootOf.base (hroot _ (rootOf_root h3)))

/-- `partition_find` on a well-formed partition: with enough fuel it returns;
the result is `NULL_TERM` iff `t` is not in the partition, otherwise it is the
root of the class of `t`; the partition after the path compression is well
formed, with the same terms and the same root for every term. -/
theorem partition_find_spec {τ : Type} {NULL_TERM : Int} {p : partition_t τ} {d : Int → Nat}
    (ok : PartOk NULL_TERM p d) {t : Int} (ht : 0 ≤ t) :
    ∀ fuel, d t < fuel →
      ∃ r p1, partition_find NULL_TERM fuel p t = some (r, p1) ∧
        (r = NULL_TERM ↔ ¬ Added NULL_TERM p t) ∧
        (Added NULL_TERM p t → RootOf p.parent t r ∧ p1.parent r = r) ∧
        PartOk NULL_TERM p1 d ∧
        p1.nelems = p.nelems ∧ p1.type = p.type ∧ p1.rank = p.rank ∧
        (∀ u, Added NULL_TERM p1 u ↔ Added NULL_TERM p u) ∧
        (∀ u ru, RootOf p.parent u ru → RootOf p1.parent u ru) := by
  intro fuel hf
  unfold partition_find
  by_cases h1 : t ≥ (p.nelems : Int)
  · rw [if_pos h1]
    refine ⟨NULL_TERM, p, rfl, ?_, ?_, ok, rfl, rfl, rfl, fun u => Iff.rfl, fun u ru h => h⟩
    · exact ⟨fun _ ha => by have := ha.2.1; omega, fun _ => rfl⟩
    · intro ha; have := ha.2.1; omega
  · rw [if_neg h1]
    dsimp only
    by_cases h2 : p.parent t < 0 ∨ p.parent t = t
    · rw [if_pos h2]
      refine ⟨p.parent t, p, rfl, ?_, ?_, ok, rfl, rfl, rfl, fun u => Iff.rfl, fun u ru h => h⟩
      · constructor
        · intro e ha; exact ha.2.2 e
        · intro hna
          by_contra hc
          exact hna ⟨ht, by omega, hc⟩
      · intro ha
        rcases h2 with h | h
        · have := (ok.closed t ha.1 ha.2.1 ha.2.2).1
          omega
        · rw [h]
          exact ⟨RootOf.base h, h⟩
    · rw [if_neg h2]
      have hnn : p.parent t ≠ NULL_TERM := by
        intro e
        have := ok.null
        exact h2 (Or.inl (by omega))
      have ha : Added NULL_TERM p t := ⟨ht, by omega, hnn⟩
      have hnr : p.parent t ≠ t := fun e => h2 (Or.inr e)
      have hd := ok.acyclic t ha.1 ha.2.1 ha.2.2 hnr
      have hay := ok.closed t ha.1 ha.2.1 ha.2.2
      obtain ⟨r, e1, hr1⟩ := find_root_loop_spec ok fuel (p.parent t) hay (by omega)
      have hr : RootOf p.parent t r := RootOf.step hnr hr1
      have hne : t ≠ r := (rootOf_ne hr hnr).symm
      obtain ⟨q1, e2, hq1⟩ := compress_loop_spec ok r fuel p.parent t ha hr hne
        (fun _ _ => rfl) hf
      rw [e1]
      dsimp only
      rw [e2]
      dsimp only
      have har : Added NULL_TERM p r := rootOf_added ok hr ha
      have hq : ∀ u, q1 u = p.parent u ∨ (q1 u = r ∧ RootOf p.parent u r) := fun u => by
        rcases hq1 u with h | h
        · exact Or.inl h
        · exact Or.inr ⟨h.1, h.2.1⟩
      have hadd : ∀ u, Added NULL_TERM { p with parent := q1 } u ↔ Added NULL_TERM p u := by
        intro u
        unfold Added
        dsimp only
        rcases hq1 u with h | ⟨h, _, hu⟩
        · rw [h]
        · rw [h]
          exact ⟨fun ⟨a, b, _⟩ => ⟨a, b, hu.2.2⟩, fun ⟨a, b, _⟩ => ⟨a, b, by
            have := har.1; have := ok.null; omega⟩⟩
      refine ⟨r, _, rfl, ?_, ?_, ?_, rfl, rfl, rfl, hadd, fun u ru h => rootOf_compressed hq h⟩
      · constructor
        · intro e
          have := har.1
          have := ok.null
          omega
        · intro hna; exact absurd ha hna
      · intro _
        refine ⟨hr, ?_⟩
        have := rootOf_compressed hq (RootOf.base (rootOf_root hr))
        exact rootOf_root this
      · refine ⟨ok.null, ?_, ?_,
          fun u u1 u2 u3 => ok.rank_le u u1 u2 ((hadd u).1 ⟨u1, u2, u3⟩).2.2⟩
        · intro u u1 u2 u3
          have hau : Added NULL_TERM p u := (hadd u).1 ⟨u1, u2, u3⟩
          have hcl := ok.closed u hau.1 hau.2.1 hau.2.2
          show 0 ≤ q1 u ∧ q1 u < (p.nelems : Int) ∧ q1 (q1 u) ≠ NULL_TERM
          have key : ∀ x, Added NULL_TERM p x → q1 x ≠ NULL_TERM := fun x hx =>
            ((hadd x).2 hx).2.2
          rcases hq1 u with h | ⟨h, _, _⟩
          · rw [h]
            exact ⟨hcl.1, hcl.2.1, key _ hcl⟩
          · rw [h]
            exact ⟨har.1, har.2.1, key _ har⟩
        · intro u u1 u2 u3 hne1
          have hau : Added NULL_TERM p u := (hadd u).1 ⟨u1, u2, u3⟩
          show d (q1 u) < d u
          have hne2 : q1 u ≠ u := hne1
          rcases hq1 u with h | ⟨h, hru, _⟩
          · rw [h]
            rw [h] at hne2
            exact ok.acyclic u hau.1 hau.2.1 hau.2.2 hne2
          · rw [h]
            rw [h] at hne2
            cases hru with
            | base _ => exact absurd rfl hne2
            | step hn hr2 =>
              have := ok.acyclic u hau.1 hau.2.1 hau.2.2 hn
              have := rootOf_height ok hr2 (ok.closed u hau.1 hau.2.1 hau.2.2)
              omega

/-- The parent array after a root `l` is linked to another root `w`. -/
theorem link_roots_spec {τ : Type} {NULL_TERM : Int} {p p1 : partition_t τ} {d : Int → Nat}
    (ok : PartOk NULL_TERM p d) {l w : Int} (hl : Added NULL_TERM p l)
    (hw : Added NULL_TERM p w) (rl : p.parent l = l) (rw1 : p.parent w = w) (hne : l ≠ w)
    (en : p1.nelems = p.nelems) (ep : p1.parent = upd p.parent l w)
    (hrk : ∀ t : Int, 0 ≤ t → t < (p.nelems : Int) → p.parent t ≠ NULL_TERM →
      p1.rank t ≤ 255) :
    (∃ d1, PartOk NULL_TERM p1 d1) ∧
    (∀ u, Added NULL_TERM p1 u ↔ Added NULL_TERM p u) ∧
    (∀ u ru, RootOf p.parent u ru → RootOf p1.parent u (if ru = l then w else ru)) := by
  have hwn : w ≠ NULL_TERM := by have := hw.1; have := ok.null; omega
  have hadd : ∀ u, Added NULL_TERM p1 u ↔ Added NULL_TERM p u := by
    intro u
    unfold Added
    rw [en, ep]
    by_cases hu : u = l
    · subst hu
      rw [upd_same]
      exact ⟨fun ⟨a, b, _⟩ => ⟨a, b, hl.2.2⟩, fun ⟨a, b, _⟩ => ⟨a, b, hwn⟩⟩
    · rw [upd_ne _ _ hu]
  have hnotl : ¬ RootOf p.parent w l := fun h =>
    hne (rootOf_unique h (RootOf.base rw1))
  refine ⟨?_, hadd, ?_⟩
  · classical
    refine ⟨fun u => if RootOf p.parent u l then d u + d w + 1 else d u, ok.null, ?_, ?_,
      fun u u1 u2 u3 => hrk u ((hadd u).1 ⟨u1, u2, u3⟩).1 ((hadd u).1 ⟨u1, u2, u3⟩).2.1
        ((hadd u).1 ⟨u1, u2, u3⟩).2.2⟩
    · intro u u1 u2 u3
      have hau : Added NULL_TERM p u := (hadd u).1 ⟨u1, u2, u3⟩
      have key : ∀ x, Added NULL_TERM p x → 0 ≤ x ∧ x < (p1.nelems : Int) ∧
          p1.parent x ≠ NULL_TERM := fun x hx => (hadd x).2 hx
      rw [ep]
      by_cases hu : u = l
      · subst hu
        rw [upd_same]
        have := key w hw
        rw [ep] at this
        exact this
      · rw [upd_ne _ _ hu]
        have := key _ (ok.closed u hau.1 hau.2.1 hau.2.2)
        rw [ep] at this
        exact this
    · intro u u1 u2 u3 hne1
      have hau : Added NULL_TERM p u := (hadd u).1 ⟨u1, u2, u3⟩
      rw [ep] at hne1 ⊢
      by_cases hu : u = l
      · subst hu
        rw [upd_same]
        rw [if_neg hnotl, if_pos (RootOf.base rl)]
        omega
      · rw [upd_ne _ _ hu] at hne1 ⊢
        have hd := ok.acyclic u hau.1 hau.2.1 hau.2.2 hne1
        have hiff : RootOf p.parent (p.parent u) l ↔ RootOf p.parent u l := by
          constructor
          · intro h; exact RootOf.step hne1 h
          · intro h
            cases h with
            | base h => exact absurd h hne1
            | step _ h => exact h
        by_cases hc : RootOf p.parent u l
        · rw [if_pos hc, if_pos (hiff.2 hc)]
          omega
        · rw [if_neg hc, if_neg (fun h => hc (hiff.1 h))]
          exact hd
  · intro u ru h
    rw [ep]
    have hwroot : RootOf (upd p.parent l w) w w := by
      apply RootOf.base
      rw [upd_ne _ _ (Ne.symm hne), rw1]
    induction h with
    | @base r h =>
      by_cases hr : r = l
      · rw [if_pos hr, hr]
        exact RootOf.step (by rw [upd_same]; exact Ne.symm hne)
          (by rw [upd_same]; exact hwroot)
      · rw [if_neg hr]
        apply RootOf.base
        rw [upd_ne _ _ hr, h]
    | @step t r hn _ ih =>
      have htl : t ≠ l := fun e => hn (e ▸ rl)
      exact RootOf.step (by rw [upd_ne _ _ htl]; exact hn)
        (by rw [upd_ne _ _ htl]; exact ih)

theorem mergeable_not_both_frozen {τ : Type} (is_subtype : τ → τ → Bool) {p : partition_t τ}
    {x y : Int} (hm : mergeable_classes is_subtype p x y = true) :
    ¬ (p.rank x = 255 ∧ p.rank y = 255) := by
  intro ⟨h1, h2⟩
  unfold mergeable_classes at hm
  rw [if_pos h1] at hm
  simp [h2] at hm

/-- `partition_merge` of two distinct roots with `mergeable_classes`: the
partition stays well formed with the same terms, the classes of `x` and `y`
become one class of root `merge_root`, the other classes keep their root; a
frozen root among `x`, `y` is the root of the merged class and stays frozen;
and every term of rank 255 is still a root. -/
theorem partition_merge_spec {τ : Type} {NULL_TERM : Int} {p : partition_t τ} {d : Int → Nat}
    (is_subtype : τ → τ → Bool) (inf_type : τ → τ → τ)
    (ok : PartOk NULL_TERM p d) {x y : Int} (hx : Added NULL_TERM p x)
    (hy : Added NULL_TERM p y) (rx : p.parent x = x) (ry : p.parent y = y) (hxy : x ≠ y)
    (hm : mergeable_classes is_subtype p x y = true) :
    (∃ d1, PartOk NULL_TERM (partition_merge inf_type p x y) d1) ∧
    (∀ u, Added NULL_TERM (partition_merge inf_type p x y) u ↔ Added NULL_TERM p u) ∧
    (∀ u ru, RootOf p.parent u ru →
      RootOf (partition_merge inf_type p x y).parent u
        (if ru = x ∨ ru = y then merge_root p x y else ru)) ∧
    (p.rank x = 255 →
      merge_root p x y = x ∧ (partition_merge inf_type p x y).rank x = 255) ∧
    (p.rank y = 255 →
      merge_root p x y = y ∧ (partition_merge inf_type p x y).rank y = 255) ∧
    (FrozenRoots NULL_TERM p → FrozenRoots NULL_TERM (partition_merge inf_type p x y)) := by
  have hnb := mergeable_not_both_frozen is_subtype hm
  have kx := ok.rank_le x hx.1 hx.2.1 hx.2.2
  have ky := ok.rank_le y hy.1 hy.2.1 hy.2.2
  by_cases hlt : p.rank x < p.rank y
  · -- y stays root
    have e : partition_merge inf_type p x y =
        { p with parent := upd p.parent x y,
                 type := upd p.type y (inf_type (p.type x) (p.type y)) } := by
      unfold partition_merge
      dsimp only
      rw [if_pos hlt]
    have emr : merge_root p x y = y := by unfold merge_root; rw [if_pos hlt]
    rw [emr]
    obtain ⟨l1, l2, l3⟩ := @link_roots_spec τ NULL_TERM p (partition_merge inf_type p x y) d
      ok x y hx hy rx ry hxy (by rw [e]) (by rw [e]) (by rw [e]; exact ok.rank_le)
    refine ⟨l1, l2, ?_, ?_, ?_, ?_⟩
    · intro u ru h
      have := l3 u ru h
      by_cases h1 : ru = x
      · rw [if_pos h1] at this
        rw [if_pos (Or.inl h1)]
        exact this
      · rw [if_neg h1] at this
        by_cases h2 : ru = y
        · rw [if_pos (Or.inr h2)]
          rw [h2] at this
          exact this
        · rw [if_neg (by tauto)]
          exact this
    · intro h; omega
    · intro h; exact ⟨rfl, by rw [e]; exact h⟩
    · intro hf u u1 u2 u3 u4
      have hau : Added NULL_TERM p u := (l2 u).1 ⟨u1, u2, u3⟩
      rw [e] at u4 ⊢
      have hux : u ≠ x := by
        intro e1
        subst e1
        have : p.rank u = 255 := u4
        omega
      show upd p.parent x y u = u
      rw [upd_ne _ _ hux]
      exact hf u hau.1 hau.2.1 hau.2.2 u4
  · -- x stays root
    have e : partition_merge inf_type p x y =
        { p with parent := upd p.parent y x,
                 type := upd p.type x (inf_type (p.type x) (p.type y)),
                 rank := if p.rank x = p.rank y then upd p.rank x ((p.rank x + 1) % 256)
                         else p.rank } := by
      unfold partition_merge
      dsimp only
      rw [if_neg hlt]
    have emr : merge_root p x y = x := by unfold merge_root; rw [if_neg hlt]
    rw [emr]
    have hrk : ∀ t : Int, 0 ≤ t → t < (p.nelems : Int) → p.parent t ≠ NULL_TERM →
        (if p.rank x = p.rank y then upd p.rank x ((p.rank x + 1) % 256) else p.rank) t
          ≤ 255 := by
      intro t t1 t2 t3
      split
      · by_cases ht : t = x
        · subst ht
          rw [upd_same]
          omega
        · rw [upd_ne _ _ ht]
          exact ok.rank_le t t1 t2 t3
      · exact ok.rank_le t t1 t2 t3
    obtain ⟨l1, l2, l3⟩ := @link_roots_spec τ NULL_TERM p (partition_merge inf_type p x y) d
      ok y x hy hx ry rx (Ne.symm hxy) (by rw [e]) (by rw [e]) (by rw [e]; exact hrk)
    refine ⟨l1, l2, ?_, ?_, ?_, ?_⟩
    · intro u ru h
      have := l3 u ru h
      by_cases h2 : ru = y
      · rw [if_pos h2] at this
        rw [if_pos (Or.inr h2)]
        exact this
      · rw [if_neg h2] at this
        by_cases h1 : ru = x
        · rw [if_pos (Or.inl h1)]
          rw [h1] at this
          exact this
        · rw [if_neg (by tauto)]
          exact this
    · intro h
      refine ⟨rfl, ?_⟩
      have hne : p.rank x ≠ p.rank y := fun e1 => hnb ⟨h, by omega⟩
      rw [e]
      show (if p.rank x = p.rank y then upd p.rank x ((p.rank x + 1) % 256) else p.rank) x = 255
      rw [if_neg hne]
      exact h
    · intro h
      exfalso
      have : p.rank x = 255 := by omega
      exact hnb ⟨this, h⟩
    · intro hf u u1 u2 u3 u4
      have hau : Added NULL_TERM p u := (l2 u).1 ⟨u1, u2, u3⟩
      rw [e] at u4 ⊢
      show upd p.parent y x u = u
      have u4' : (if p.rank x = p.rank y then upd p.rank x ((p.rank x + 1) % 256)
          else p.rank) u = 255 := u4
      by_cases hux : u = x
      · subst hux
        rw [upd_ne _ _ hxy, rx]
      · have hru : p.rank u = 255 := by
          split at u4'
          · rw [upd_ne _ _ hux] at u4'
            exact u4'
          · exact u4'
        have huy : u ≠ y := by
          intro e1
          subst e1
          have : p.rank x = 255 := by omega
          exact hnb ⟨this, hru⟩
        rw [upd_ne _ _ huy]
        exact hf u hau.1 hau.2.1 hau.2.2 hru

theorem partition_add_parent {τ : Type} (NULL_TERM : Int) (p : partition_t τ) (t : Int)
    (tau : τ) (rnk : Nat) (u : Int) :
    (partition_add NULL_TERM p t tau rnk).parent u =
      if u = t then t
      else if t ≥ (p.nelems : Int) ∧ (p.nelems : Int) ≤ u ∧ u ≤ t then NULL_TERM
      else p.parent u := by
  unfold partition_add resize_partition
  dsimp only
  by_cases hu : u = t
  · rw [if_pos hu, hu, upd_same]
  · rw [if_neg hu, upd_ne _ _ hu]
    by_cases h : t ≥ (p.nelems : Int)
    · rw [if_pos h]
      dsimp only
      by_cases h2 : (p.nelems : Int) ≤ u ∧ u ≤ t
      · rw [if_pos h2, if_pos ⟨h, h2⟩]
      · rw [if_neg h2, if_neg (fun h3 => h2 h3.2)]
    · rw [if_neg h, if_neg (fun h3 => h h3.1)]

theorem partition_add_nelems {τ : Type} (NULL_TERM : Int) (p : partition_t τ) (t : Int)
    (tau : τ) (rnk : Nat) :
    (partition_add NULL_TERM p t tau rnk).nelems =
      if t ≥ (p.nelems : Int) then (t + 1).toNat else p.nelems := by
  unfold partition_add resize_partition
  dsimp only
  by_cases h : t ≥ (p.nelems : Int)
  · simp only [if_pos h]
  · rw [if_neg h, if_neg h]

theorem partition_add_rank {τ : Type} (NULL_TERM : Int) (p : partition_t τ) (t : Int)
    (tau : τ) (rnk : Nat) :
    (partition_add NULL_TERM p t tau rnk).rank = upd p.rank t rnk := by
  unfold partition_add resize_partition
  dsimp only
  split <;> rfl

/-- `partition_add` of a term that is not in the partition: the term becomes
the root of a class of its own with the rank given, the other classes are as
before. -/
theorem partition_add_spec {τ : Type} {NULL_TERM : Int} {p : partition_t τ} {d : Int → Nat}
    (ok : PartOk NULL_TERM p d) {t : Int} (ht : 0 ≤ t) (hna : ¬ Added NULL_TERM p t)
    (tau : τ) {rnk : Nat} (hr : rnk ≤ 255) :
    PartOk NULL_TERM (partition_add NULL_TERM p t tau rnk) d ∧
    (∀ u, Added NULL_TERM (partition_add NULL_TERM p t tau rnk) u ↔
      Added NULL_TERM p u ∨ u = t) ∧
    (partition_add NULL_TERM p t tau rnk).parent t = t ∧
    (partition_add NULL_TERM p t tau rnk).rank t = rnk ∧
    (∀ u ru, Added NULL_TERM p u → RootOf p.parent u ru →
      RootOf (partition_add NULL_TERM p t tau rnk).parent u ru) ∧
    (FrozenRoots NULL_TERM p → FrozenRoots NULL_TERM (partition_add NULL_TERM p t tau rnk)) := by
  have hnull := ok.null
  have hpar : ∀ u, Added NULL_TERM p u →
      (partition_add NULL_TERM p t tau rnk).parent u = p.parent u := by
    intro u hu
    rw [partition_add_parent]
    have hut : u ≠ t := fun e => hna (e ▸ hu)
    rw [if_neg hut, if_neg (fun h => by have := hu.2.1; omega)]
  have hself : (partition_add NULL_TERM p t tau rnk).parent t = t := by
    rw [partition_add_parent, if_pos rfl]
  have hadd : ∀ u, Added NULL_TERM (partition_add NULL_TERM p t tau rnk) u ↔
      Added NULL_TERM p u ∨ u = t := by
    intro u
    constructor
    · intro ⟨u1, u2, u3⟩
      by_cases hut : u = t
      · exact Or.inr hut
      · left
        rw [partition_add_parent, if_neg hut] at u3
        rw [partition_add_nelems] at u2
        by_cases h : t ≥ (p.nelems : Int)
        · rw [if_pos h] at u2
          have hlt : u < (p.nelems : Int) := by
            by_contra hc
            apply u3
            rw [if_pos ⟨h, by omega, by omega⟩]
          rw [if_neg (fun h3 => by omega)] at u3
          exact ⟨u1, hlt, u3⟩
        · rw [if_neg h] at u2
          rw [if_neg (fun h3 => h h3.1)] at u3
          exact ⟨u1, u2, u3⟩
    · intro h
      rcases h with h | h
      · refine ⟨h.1, ?_, ?_⟩
        · rw [partition_add_nelems]
          have := h.2.1
          split <;> omega
        · rw [hpar u h]
          exact h.2.2
      · subst h
        refine ⟨ht, ?_, ?_⟩
        · rw [partition_add_nelems]
          by_cases h : u ≥ (p.nelems : Int)
          · rw [if_pos h]; omega
          · rw [if_neg h]; omega
        · rw [hself]; omega
  refine ⟨⟨hnull, ?_, ?_, ?_⟩, hadd, hself, ?_, ?_, ?_⟩
  · intro u u1 u2 u3
    rcases (hadd u).1 ⟨u1, u2, u3⟩ with h | h
    · rw [hpar u h]
      have hc := ok.closed u h.1 h.2.1 h.2.2
      exact (hadd _).2 (Or.inl hc)
    · subst h
      rw [hself]
      exact ⟨u1, u2, by rw [hself]; omega⟩
  · intro u u1 u2 u3 hne
    rcases (hadd u).1 ⟨u1, u2, u3⟩ with h | h
    · rw [hpar u h] at hne ⊢
      exact ok.acyclic u h.1 h.2.1 h.2.2 hne
    · subst h
      exact absurd hself hne
  · intro u u1 u2 u3
    rw [partition_add_rank]
    rcases (hadd u).1 ⟨u1, u2, u3⟩ with h | h
    · have hut : u ≠ t := fun e => hna (e ▸ h)
      rw [upd_ne _ _ hut]
      exact ok.rank_le u h.1 h.2.1 h.2.2
    · subst h
      rw [upd_same]
      exact hr
  · rw [partition_add_rank, upd_same]
  · intro u ru hu h
    induction h with
    | base h => exact RootOf.base (by rw [hpar _ hu]; exact h)
    | step hn _ ih =>
      have hc := ok.closed _ hu.1 hu.2.1 hu.2.2
      exact RootOf.step (by rw [hpar _ hu]; exact hn) (by rw [hpar _ hu]; exact ih hc)
  · intro hf u u1 u2 u3 u4
    rcases (hadd u).1 ⟨u1, u2, u3⟩ with h | h
    · have hut : u ≠ t := fun e => hna (e ▸ h)
      rw [partition_add_rank, upd_ne _ _ hut] at u4
      rw [hpar u h]
      exact hf u h.1 h.2.1 h.2.2 u4
    · subst h
      exact hself

/-- Two terms of rank 255 in the same class are the same term. -/
theorem frozen_unique {τ : Type} {NULL_TERM : Int} {p : partition_t τ}
    (hf : FrozenRoots NULL_TERM p) {u v r : Int} (hu : Added NULL_TERM p u)
    (hv : Added NULL_TERM p v) (ru : RootOf p.parent u r) (rv : RootOf p.parent v r)
    (fu : p.rank u = 255) (fv : p.rank v = 255) : u = v := by
  have e1 := rootOf_unique ru (RootOf.base (hf u hu.1 hu.2.1 hu.2.2 fu))
  have e2 := rootOf_unique rv (RootOf.base (hf v hv.1 hv.2.1 hv.2.2 fv))
  rw [← e1, ← e2]

/-- Claim C30: on a well-formed partition (acyclic parent array),
`partition_find(t)` returns with enough fuel, the result is `NULL_TERM` iff `t`
was not added, otherwise it is the root `r` of the class of `t`, with
`parent[r] = r`, and after the path compression every term has the root it
had; `partition_add_root` makes a new class whose root is frozen; for distinct
roots `x`, `y` with `mergeable_classes`, `partition_merge` makes the classes
of `x` and `y` one class and leaves the other classes, a frozen term among
`x`, `y` is the root of the merged class and stays frozen, and if the terms of
rank 255 were roots before, they are roots after, so that a class has at most
one of them. -/
theorem partition_spec {τ : Type} {NULL_TERM : Int} {p : partition_t τ} {d : Int → Nat}
    (is_subtype : τ → τ → Bool) (inf_type : τ → τ → τ) (ok : PartOk NULL_TERM p d) :
    (∀ t, 0 ≤ t → ∀ fuel, d t < fuel →
      ∃ r p1, partition_find NULL_TERM fuel p t = some (r, p1) ∧
        (r = NULL_TERM ↔ ¬ Added NULL_TERM p t) ∧
        (Added NULL_TERM p t → RootOf p.parent t r ∧ p1.parent r = r) ∧
        PartOk NULL_TERM p1 d ∧
        (∀ u, Added NULL_TERM p1 u ↔ Added NULL_TERM p u) ∧
        (∀ u ru, RootOf p.parent u ru → RootOf p1.parent u ru)) ∧
    (∀ t tau, 0 ≤ t → ¬ Added NULL_TERM p t →
      PartOk NULL_TERM (partition_add_root NULL_TERM p t tau) d ∧
      (∀ u, Added NULL_TERM (partition_add_root NULL_TERM p t tau) u ↔
        Added NULL_TERM p u ∨ u = t) ∧
      (partition_add_root NULL_TERM p t tau).parent t = t ∧
      root_is_frozen (partition_add_root NULL_TERM p t tau) t = true ∧
      (FrozenRoots NULL_TERM p →
        FrozenRoots NULL_TERM (partition_add_root NULL_TERM p t tau))) ∧
    (∀ x y, Added NULL_TERM p x → Added NULL_TERM p y → p.parent x = x → p.parent y = y →
      x ≠ y → mergeable_classes is_subtype p x y = true →
      (∃ d1, PartOk NULL_TERM (partition_merge inf_type p x y) d1) ∧
      (∀ u, Added NULL_TERM (partition_merge inf_type p x y) u ↔ Added NULL_TERM p u) ∧
      (∀ u ru, RootOf p.parent u ru →
        RootOf (partition_merge inf_type p x y).parent u
          (if ru = x ∨ ru = y then merge_root p x y else ru)) ∧
      (root_is_frozen p x = true →
        merge_root p x y = x ∧ root_is_frozen (partition_merge inf_type p x y) x = true) ∧
      (root_is_frozen p y = true →
        merge_root p x y = y ∧ root_is_frozen (partition_merge inf_type p x y) y = true) ∧
      (FrozenRoots NULL_TERM p →
        FrozenRoots NULL_TERM (partition_merge inf_type p x y) ∧
        ∀ u v r, Added NULL_TERM p u → Added NULL_TERM p v →
          RootOf (partition_merge inf_type p x y).parent u r →
          RootOf (partition_merge inf_type p x y).parent v r →
          root_is_frozen (partition_merge inf_type p x y) u = true →
          root_is_frozen (partition_merge inf_type p x y) v = true → u = v)) := by
  refine ⟨?_, ?_, ?_⟩
  · intro t ht fuel hf
    obtain ⟨r, p1, e, a1, a2, a3, _, _, _, a4, a5⟩ := partition_find_spec ok ht fuel hf
    exact ⟨r, p1, e, a1, a2, a3, a4, a5⟩
  · intro t tau ht hna
    obtain ⟨a1, a2, a3, a4, _, a6⟩ := partition_add_spec ok ht hna tau (le_refl 255)
    refine ⟨a1, a2, a3, ?_, a6⟩
    unfold root_is_frozen
    exact decide_eq_true a4
  · intro x y hx hy rx ry hxy hm
    obtain ⟨b1, b2, b3, b4, b5, b6⟩ := partition_merge_spec is_subtype inf_type ok hx hy rx ry
      hxy hm
    refine ⟨b1, b2, b3, ?_, ?_, ?_⟩
    · intro h
      have h1 : p.rank x = 255 := of_decide_eq_true h
      exact ⟨(b4 h1).1, decide_eq_true (b4 h1).2⟩
    · intro h
      have h1 : p.rank y = 255 := of_decide_eq_true h
      exact ⟨(b5 h1).1, decide_eq_true (b5 h1).2⟩
    · intro hf
      refine ⟨b6 hf, fun u v r hu hv ru rv fu fv => ?_⟩
      exact frozen_unique (b6 hf) ((b2 u).2 hu) ((b2 v).2 hv) ru rv (of_decide_eq_true fu)
        (of_decide_eq_true fv)

theorem partOk_sample_partition : PartOk sample_null sample_partition sample_height :=
  ⟨by decide, by decide, by decide, by decide⟩

theorem partition_spec_witness :
    sample_partition.parent 3 = 2 ∧ sample_partition.parent 2 = 1 ∧
    sample_partition.parent 1 = 1 ∧ sample_partition.rank 0 = 255 ∧
    (partition_find sample_null 3 sample_partition 3).map (fun r => (r.1, r.2.parent 3))
      = some (1, 1) ∧
    (partition_merge min sample_partition 1 0).parent 1 = 0 ∧
    (∃ r p1, partition_find sample_null 3 sample_partition 3 = some (r, p1) ∧
        (r = sample_null ↔ ¬ Added sample_null sample_partition 3) ∧
        (Added sample_null sample_partition 3 →
          RootOf sample_partition.parent 3 r ∧ p1.parent r = r) ∧
        PartOk sample_null p1 sample_height ∧
        (∀ u, Added sample_null p1 u ↔ Added sample_null sample_partition u) ∧
        (∀ u ru, RootOf sample_partition.parent u ru → RootOf p1.parent u ru)) ∧
    ((∃ d1, PartOk sample_null (partition_merge min sample_partition 1 0) d1) ∧
      (∀ u, Added sample_null (partition_merge min sample_partition 1 0) u ↔
        Added sample_null sample_partition u) ∧
      (∀ u ru, RootOf sample_partition.parent u ru →
        RootOf (partition_merge min sample_partition 1 0).parent u
          (if ru = 1 ∨ ru = 0 then merge_root sample_partition 1 0 else ru)) ∧
      (root_is_frozen sample_partition 1 = true →
        merge_root sample_partition 1 0 = 1 ∧
        root_is_frozen (partition_merge min sample_partition 1 0) 1 = true) ∧
      (root_is_frozen sample_partition 0 = true →
        merge_root sample_partition 1 0 = 0 ∧
        root_is_frozen (partition_merge min sample_partition 1 0) 0 = true) ∧
      (FrozenRoots sample_null sample_partition →
        FrozenRoots sample_null (partition_merge min sample_partition 1 0) ∧
        ∀ u v r, Added sample_null sample_partition u → Added sample_null sample_partition v →
          RootOf (partition_merge min sample_partition 1 0).parent u r →
          RootOf (partition_merge min sample_partition 1 0).parent v r →
          root_is_frozen (partition_merge min sample_partition 1 0) u = true →
          root_is_frozen (partition_merge min sample_partition 1 0) v = true → u = v)) :=
  have h := partition_spec sample_subtype min partOk_sample_partition
  ⟨by decide, by decide, by decide, by decide, by decide, by decide,
    h.1 3 (by decide) 3 (by decide),
    h.2.2 1 0 (by unfold Added; decide) (by unfold Added; decide) (by decide) (by decide)
      (by decide) (by decide)⟩

/-! ## Propagation to the theory solver -/

theorem propFrame_refl (s : smt_core_t) : PropFrame s s := ⟨rfl, rfl, le_refl _⟩

theorem propFrame_trans {s t u : smt_core_t} (h1 : PropFrame s t) (h2 : PropFrame t u) :
    PropFrame s u :=
  ⟨h2.th_calls.trans h1.th_calls, h2.theory_ptr.trans h1.theory_ptr,
    le_trans h1.top_le h2.top_le⟩

theorem propFrame_implied (s : smt_core_t) (l : Int) (a : antecedent_t) :
    PropFrame s (implied_literal s l a) := by
  refine ⟨rfl, rfl, ?_⟩
  show s.stack.lit.length ≤ (s.stack.lit ++ [l]).length
  simp

theorem propFrame_bin_vector (l0 : Int) : ∀ (v : List Int) (s : smt_core_t),
    PropFrame s (propagation_via_bin_vector s l0 v).2 := by
  intro v
  induction v with
  | nil => intro s; exact propFrame_refl s
  | cons l1 v ih =>
    intro s
    unfold propagation_via_bin_vector
    split
    · exact ih s
    · split
      · exact propFrame_refl s
      · split
        · exact propFrame_trans (propFrame_implied s l1 _) (ih _)
        · exact ⟨rfl, rfl, le_refl _⟩

theorem propFrame_watched_loop (l0 : Int) : ∀ (links : List link_t) (s : smt_core_t)
    (kept : List link_t), PropFrame s (propagation_via_watched_list_loop l0 links s kept).2 := by
  intro links
  induction links with
  | nil => intro s kept; exact ⟨rfl, rfl, le_refl _⟩
  | cons lnk rest ih =>
    intro s kept
    obtain ⟨c, i⟩ := lnk
    unfold propagation_via_watched_list_loop
    dsimp only
    split
    · exact ih s _
    · split
      · refine propFrame_trans ?_ (ih _ _)
        exact ⟨rfl, rfl, le_refl _⟩
      · split
        · exact propFrame_trans (propFrame_implied s _ _) (ih _ _)
        · exact ⟨rfl, rfl, le_refl _⟩

theorem propFrame_step (s : smt_core_t) (l : Int) :
    PropFrame s (boolean_propagation_step s l).2 := by
  unfold boolean_propagation_step
  split
  · exact propFrame_watched_loop l _ s []
  · dsimp only
    split
    · exact propFrame_trans (propFrame_bin_vector l _ s) (propFrame_watched_loop l _ _ [])
    · exact propFrame_bin_vector l _ s

theorem propFrame_loop : ∀ (fuel i : Nat) (s : smt_core_t) (b : Bool) (c : smt_core_t),
    boolean_propagation_loop fuel i s = some (b, c) →
    PropFrame s c ∧ (b = true → i ≤ s.stack.top → c.stack.prop_ptr = c.stack.top) := by
  intro fuel
  induction fuel with
  | zero => intro i s b c h; cases h
  | succ fuel ih =>
    intro i s b c h
    unfold boolean_propagation_loop at h
    by_cases hlt : i < s.stack.top
    · rw [if_pos hlt] at h
      dsimp only at h
      have hf := propFrame_step s (not_lit (s.stack.lit.getD i 0))
      generalize boolean_propagation_step s (not_lit (s.stack.lit.getD i 0)) = r at h hf
      cases hr : r.1
      · rw [hr] at h
        simp only [Bool.false_eq_true, if_false, Option.some.injEq, Prod.mk.injEq] at h
        obtain ⟨h1, h2⟩ := h
        subst h1 h2
        exact ⟨hf, fun h => by cases h⟩
      · rw [hr] at h
        simp only [if_true] at h
        obtain ⟨g1, g2⟩ := ih (i + 1) r.2 b c h
        refine ⟨propFrame_trans hf g1, fun hb _ => g2 hb ?_⟩
        have := hf.top_le
        omega
    · rw [if_neg hlt] at h
      simp only [Option.some.injEq, Prod.mk.injEq] at h
      obtain ⟨h1, h2⟩ := h
      subst h1 h2
      refine ⟨⟨rfl, rfl, le_refl _⟩, fun _ hi => ?_⟩
      show i = s.stack.lit.length
      have : s.stack.top = s.stack.lit.length := rfl
      omega

/-- `boolean_propagation` makes no theory call, keeps `theory_ptr`, and when
it returns true `prop_ptr` is the top of the stack. -/
theorem boolean_propagation_frame {fuel : Nat} {s c : smt_core_t} {b : Bool}
    (h : boolean_propagation fuel s = some (b, c)) :
    PropFrame s c ∧ (b = true → s.stack.prop_ptr ≤ s.stack.top →
      c.stack.prop_ptr = c.stack.top) :=
  propFrame_loop fuel _ s b c h

theorem atom_asserts_cons (tbl : atom_table_t) (l : Int) (rest : List Int) :
    atom_asserts tbl (l :: rest) =
      if var_of l < (tbl.size : Int) ∧ tbl.has_atom (var_of l) = true then
        th_call_t.assert_atom (tbl.atom (var_of l)) l :: atom_asserts tbl rest
      else atom_asserts tbl rest := by
  unfold atom_asserts
  by_cases h : var_of l < (tbl.size : Int) ∧ tbl.has_atom (var_of l) = true
  · rw [if_pos h, List.filter_cons_of_pos (by simp [h.1, h.2])]
    rfl
  · rw [if_neg h, List.filter_cons_of_neg (by
      simp only [Bool.and_eq_true, decide_eq_true_eq]
      exact h)]

theorem drop_getD_cons {l : List Int} {i : Nat} (h : i < l.length) :
    l.drop i = l.getD i 0 :: l.drop (i + 1) := by
  rw [List.getD_eq_getElem _ _ h]
  exact List.drop_eq_getElem_cons h

/-- The loop of `theory_propagation` when no call fails: the stack and
`prop_ptr` are kept and the trace gets the calls of `assert_atom` for the
literals from position `i` on. -/
theorem theory_propagation_loop_spec {θ : Type} {th : th_solver_t θ} (q : QuietTheory th)
    (tbl : atom_table_t) : ∀ (fuel i : Nat) (st st1 : smt_state_t θ) (j : Nat),
    theory_propagation_loop th tbl fuel i st = some (true, j, st1) →
    st1.core.stack.lit = st.core.stack.lit ∧
    st1.core.stack.prop_ptr = st.core.stack.prop_ptr ∧
    st1.core.th_calls = st.core.th_calls ++ atom_asserts tbl (st.core.stack.lit.drop i) := by
  intro fuel
  induction fuel with
  | zero => intro i st st1 j h; cases h
  | succ fuel ih =>
    intro i st st1 j h
    unfold theory_propagation_loop at h
    by_cases hlt : i < st.core.stack.top
    · rw [if_pos hlt] at h
      dsimp only at h
      rw [drop_getD_cons hlt, atom_asserts_cons]
      by_cases hc : var_of (st.core.stack.lit.getD i 0) < (tbl.size : Int) ∧
          tbl.has_atom (var_of (st.core.stack.lit.getD i 0)) = true
      · rw [if_pos hc] at h
        rw [if_pos hc]
        have q1 := q.assert_lit (record_th_call st (th_call_t.assert_atom
          (tbl.atom (var_of (st.core.stack.lit.getD i 0))) (st.core.stack.lit.getD i 0)))
          (tbl.atom (var_of (st.core.stack.lit.getD i 0))) (st.core.stack.lit.getD i 0)
        have q2 := q.assert_ptr (record_th_call st (th_call_t.assert_atom
          (tbl.atom (var_of (st.core.stack.lit.getD i 0))) (st.core.stack.lit.getD i 0)))
          (tbl.atom (var_of (st.core.stack.lit.getD i 0))) (st.core.stack.lit.getD i 0)
        have q3 := q.assert_calls (record_th_call st (th_call_t.assert_atom
          (tbl.atom (var_of (st.core.stack.lit.getD i 0))) (st.core.stack.lit.getD i 0)))
          (tbl.atom (var_of (st.core.stack.lit.getD i 0))) (st.core.stack.lit.getD i 0)
        generalize th.assert_atom (record_th_call st (th_call_t.assert_atom
          (tbl.atom (var_of (st.core.stack.lit.getD i 0))) (st.core.stack.lit.getD i 0)))
          (tbl.atom (var_of (st.core.stack.lit.getD i 0))) (st.core.stack.lit.getD i 0) = r
          at h q1 q2 q3
        cases hr : r.1
        · rw [hr] at h
          simp at h
        · rw [hr] at h
          simp only [if_true] at h
          obtain ⟨g1, g2, g3⟩ := ih (i + 1) r.2 st1 j h
          have e1 : r.2.core.stack.lit = st.core.stack.lit := q1 hr
          refine ⟨g1.trans e1, g2.trans (q2 hr), ?_⟩
          rw [g3, q3 hr, e1]
          show (st.core.th_calls ++ [_]) ++ _ = _
          simp
      · rw [if_neg hc] at h
        rw [if_neg hc]
        exact ih (i + 1) st st1 j h
    · rw [if_neg hlt] at h
      simp only [Option.some.injEq, Prod.mk.injEq, true_and] at h
      obtain ⟨_, h2⟩ := h
      subst h2
      have : st.core.stack.lit.drop i = [] := by
        apply List.drop_eq_nil_of_le
        have : st.core.stack.top = st.core.stack.lit.length := rfl
        omega
      rw [this]
      exact ⟨rfl, rfl, by simp [atom_asserts]⟩

/-- The loop of `theory_propagation` returns when the fuel exceeds the number
of literals to visit. -/
theorem theory_propagation_loop_returns {θ : Type} {th : th_solver_t θ} (q : QuietTheory th)
    (tbl : atom_table_t) : ∀ (fuel i : Nat) (st : smt_state_t θ),
    st.core.stack.top - i < fuel →
    ∃ r, theory_propagation_loop th tbl fuel i st = some r := by
  intro fuel
  induction fuel with
  | zero => intro i st h; omega
  | succ fuel ih =>
    intro i st hf
    unfold theory_propagation_loop
    by_cases hlt : i < st.core.stack.top
    · rw [if_pos hlt]
      dsimp only
      split
      · have q1 := q.assert_lit (record_th_call st (th_call_t.assert_atom
          (tbl.atom (var_of (st.core.stack.lit.getD i 0))) (st.core.stack.lit.getD i 0)))
          (tbl.atom (var_of (st.core.stack.lit.getD i 0))) (st.core.stack.lit.getD i 0)
        generalize th.assert_atom (record_th_call st (th_call_t.assert_atom
          (tbl.atom (var_of (st.core.stack.lit.getD i 0))) (st.core.stack.lit.getD i 0)))
          (tbl.atom (var_of (st.core.stack.lit.getD i 0))) (st.core.stack.lit.getD i 0) = r
          at q1
        cases hr : r.1
        · exact ⟨_, rfl⟩
        · simp only [if_true]
          apply ih
          have e1 : r.2.core.stack.lit = st.core.stack.lit := q1 hr
          have : r.2.core.stack.top = st.core.stack.top := by
            unfold prop_stack_t.top; rw [e1]
          omega
      · exact ih (i + 1) st (by omega)
    · rw [if_neg hlt]
      exact ⟨_, rfl⟩

/-- A round of `smt_propagation_loop`. -/
theorem smt_propagation_loop_rounds {θ : Type} {th : th_solver_t θ} (q : QuietTheory th)
    (fuel : Nat) : ∀ (rounds : Nat) (st st1 : smt_state_t θ),
    st.core.stack.prop_ptr ≤ st.core.stack.top →
    smt_propagation_loop th fuel rounds st = some (true, st1) → Rounds th fuel st st1 := by
  intro rounds
  induction rounds with
  | zero => intro st st1 _ h; cases h
  | succ rounds ih =>
    intro st st1 hp h
    unfold smt_propagation_loop at h
    cases hb : boolean_propagation fuel st.core with
    | none => rw [hb] at h; cases h
    | some r =>
      obtain ⟨b, c⟩ := r
      rw [hb] at h
      cases b with
      | false => simp at h
      | true =>
        dsimp only at h
        obtain ⟨f1, f2⟩ := boolean_propagation_frame hb
        have hpc : c.stack.prop_ptr = c.stack.top := f2 rfl hp
        unfold theory_propagation at h
        dsimp only at h
        cases hl : theory_propagation_loop th st.atoms fuel c.stack.theory_ptr
            { st with core := c } with
        | none => rw [hl] at h; cases h
        | some r1 =>
          obtain ⟨b1, j, stA⟩ := r1
          rw [hl] at h
          cases b1 with
          | false =>
            simp at h
          | true =>
            dsimp only at h
            obtain ⟨g1, g2, g3⟩ := theory_propagation_loop_spec q st.atoms fuel _ _ _ _ hl
            have g1' : stA.core.stack.lit = c.stack.lit := g1
            have g2' : stA.core.stack.prop_ptr = c.stack.prop_ptr := g2
            have g3' : stA.core.th_calls
                = c.th_calls ++ atom_asserts st.atoms (c.stack.lit.drop c.stack.theory_ptr) := g3
            have k1 := q.propagate_calls (record_th_call
              { stA with core := { stA.core with stack := { stA.core.stack with theory_ptr := j } } }
              th_call_t.propagate)
            have k2 := q.propagate_ptr (record_th_call
              { stA with core := { stA.core with stack := { stA.core.stack with theory_ptr := j } } }
              th_call_t.propagate)
            have e2 : (record_th_call
              { stA with core := { stA.core with stack := { stA.core.stack with theory_ptr := j } } }
              th_call_t.propagate).core.stack.lit = c.stack.lit := g1'
            have e3 : (record_th_call
              { stA with core := { stA.core with stack := { stA.core.stack with theory_ptr := j } } }
              th_call_t.propagate).core.stack.prop_ptr = (record_th_call
              { stA with core := { stA.core with stack := { stA.core.stack with theory_ptr := j } } }
              th_call_t.propagate).core.stack.top := by
              show stA.core.stack.prop_ptr = stA.core.stack.lit.length
              rw [g2', g1', hpc]
              rfl
            have e4 : (record_th_call
              { stA with core := { stA.core with stack := { stA.core.stack with theory_ptr := j } } }
              th_call_t.propagate).core.th_calls = st.core.th_calls
                ++ atom_asserts st.atoms (c.stack.lit.drop c.stack.theory_ptr)
                ++ [th_call_t.propagate] := by
              show stA.core.th_calls ++ [th_call_t.propagate] = _
              rw [g3', f1.th_calls]
            generalize record_th_call
              { stA with core := { stA.core with stack := { stA.core.stack with theory_ptr := j } } }
              th_call_t.propagate = st2 at h k1 k2 e2 e3 e4
            change (if ((th.propagate st2).1
                && decide (c.stack.top < (th.propagate st2).2.core.stack.top)) = true
              then smt_propagation_loop th fuel rounds (th.propagate st2).2
              else some ((th.propagate st2).1, (th.propagate st2).2)) = some (true, st1) at h
            cases hpq : th.propagate st2 with
            | mk code stB =>
              rw [hpq] at h k1 k2
              dsimp only at h k1 k2
              by_cases hcont : (code && decide (c.stack.top < stB.core.stack.top)) = true
              · rw [if_pos hcont] at h
                have hcode : code = true := by
                  cases code
                  · simp at hcont
                  · rfl
                subst hcode
                have hlt : c.stack.top < stB.core.stack.top := by simpa using hcont
                exact Rounds.next hb hpc e2 e3 e4 hpq (k1 rfl) hlt
                  (ih stB st1 (k2 rfl (le_of_eq e3)) h)
              · rw [if_neg hcont] at h
                simp only [Option.some.injEq, Prod.mk.injEq] at h
                obtain ⟨h1, h2⟩ := h
                subst h1 h2
                have hnlt : ¬ (c.stack.top < stB.core.stack.top) := by simpa using hcont
                exact Rounds.last hb hpc e2 e3 e4 hpq (k1 rfl) hnlt

/-- Claim C22: in a run of `smt_propagation` that returns true, with a theory
solver whose callbacks do not touch the stack during `assert_atom`: for a core
without atom the trace of the theory calls is not changed; otherwise the run
is a sequence of rounds (`Rounds`): in each round `boolean_propagation` has
returned true with `prop_ptr = top`, the trace gets one call of `assert_atom`
for each literal of the stack from `theory_ptr` on whose variable has an atom,
in the order of the stack, then one call of `propagate`, made with
`prop_ptr = top`; a round that adds no literal to the stack is the last one,
every other round is followed by another.  The loop of `theory_propagation`
returns when the fuel exceeds the number of literals from `theory_ptr` on. -/
theorem smt_propagation_trace {θ : Type} {th : th_solver_t θ} (q : QuietTheory th)
    (fuel rounds : Nat) {st : smt_state_t θ}
    (hp : st.core.stack.prop_ptr ≤ st.core.stack.top) :
    (st.atoms.natoms = 0 → ∀ c, boolean_propagation fuel st.core = some (true, c) →
      smt_propagation th fuel rounds st = some (true, { st with core := c }) ∧
      c.th_calls = st.core.th_calls ∧ c.stack.prop_ptr = c.stack.top) ∧
    (st.atoms.natoms ≠ 0 → ∀ st1, smt_propagation th fuel rounds st = some (true, st1) →
      Rounds th fuel st st1) ∧
    (st.core.stack.top - st.core.stack.theory_ptr < fuel →
      ∃ r, theory_propagation th fuel st = some r) := by
  refine ⟨?_, ?_, ?_⟩
  · intro hn c hb
    obtain ⟨f1, f2⟩ := boolean_propagation_frame hb
    refine ⟨?_, f1.th_calls, f2 rfl hp⟩
    unfold smt_propagation
    rw [if_pos hn, hb]
    rfl
  · intro hn st1 h
    unfold smt_propagation at h
    rw [if_neg hn] at h
    exact smt_propagation_loop_rounds q fuel rounds st st1 hp h
  · intro hf
    obtain ⟨r, hr⟩ := theory_propagation_loop_returns q st.atoms fuel st.core.stack.theory_ptr
      st hf
    unfold theory_propagation
    rw [hr]
    obtain ⟨b, j, stA⟩ := r
    cases b
    · exact ⟨_, rfl⟩
    · exact ⟨_, rfl⟩

theorem quiet_sample_theory_solver : QuietTheory sample_theory_solver := by
  refine ⟨fun _ _ _ _ => rfl, fun _ _ _ _ => rfl, fun _ _ _ _ => rfl, ?_, ?_⟩
  · intro st _
    unfold sample_theory_solver
    dsimp only
    split <;> rfl
  · intro st _ h
    unfold sample_theory_solver
    dsimp only
    split
    · show st.core.stack.prop_ptr ≤ (st.core.stack.lit ++ [6]).length
      have : st.core.stack.top = st.core.stack.lit.length := rfl
      simp
      omega
    · exact h

theorem smt_propagation_trace_witness :
    sample_smt.atoms.natoms = 2 ∧
    sample_smt.core.th_calls = [th_call_t.increase_decision_level] ∧
    (smt_propagation sample_theory_solver 9 9 sample_smt).map
        (fun r => (r.1, r.2.core.stack.lit, r.2.core.th_calls, r.2.solver))
      = some (true, [2, 6],
          [th_call_t.increase_decision_level, th_call_t.assert_atom 11 2, th_call_t.propagate,
            th_call_t.assert_atom 13 6, th_call_t.propagate], 2) ∧
    Rounds sample_theory_solver 9 sample_smt
      ((smt_propagation sample_theory_solver 9 9 sample_smt).getD (false, sample_smt)).2 :=
  ⟨by decide, by decide, by decide,
    (smt_propagation_trace quiet_sample_theory_solver 9 9
      (by decide : sample_smt.core.stack.prop_ptr ≤ sample_smt.core.stack.top)).2.1
      (by decide) _ rfl⟩

/-! ## Removal of the substitution cycles -/

theorem termRoot_unique {τ : Type} {NULL_TERM : Int} {c : subst_ctx_t τ} {t r r1 : Int}
    (h : TermRoot NULL_TERM c t r) (h1 : TermRoot NULL_TERM c t r1) : r = r1 := by
  rcases h with ⟨a, h⟩ | ⟨a, h⟩ <;> rcases h1 with ⟨a1, h1⟩ | ⟨a1, h1⟩
  · exact rootOf_unique h h1
  · exact absurd a a1
  · exact absurd a1 a
  · rw [h, h1]

theorem termRoot_exists {τ : Type} {NULL_TERM : Int} {c : subst_ctx_t τ} {d : Int → Nat}
    (ok : PartOk NULL_TERM c.partition d) (t : Int) : ∃ r, TermRoot NULL_TERM c t r := by
  by_cases a : Added NULL_TERM c.partition t
  · obtain ⟨r, h⟩ := rootOf_exists ok a
    exact ⟨r, Or.inl ⟨a, h⟩⟩
  · exact ⟨t, Or.inr ⟨a, rfl⟩⟩

theorem termRoot_root {τ : Type} {NULL_TERM : Int} {c : subst_ctx_t τ} {d : Int → Nat}
    (ok : PartOk NULL_TERM c.partition d) {t r : Int}
    (h : TermRoot NULL_TERM c t r) : TermRoot NULL_TERM c r r := by
  rcases h with ⟨a, h⟩ | ⟨a, h⟩
  · exact Or.inl ⟨rootOf_added ok h a, RootOf.base (rootOf_root h)⟩
  · subst h
    exact Or.inr ⟨a, rfl⟩

theorem find_term_root_spec {τ : Type} {NULL_TERM : Int} {c : subst_ctx_t τ} {d : Int → Nat}
    (ok : PartOk NULL_TERM c.partition d) {t : Int} (ht : 0 ≤ t) (pf : Nat) (hpf : d t < pf) :
    ∃ r c2, find_term_root NULL_TERM pf c t = some (r, c2) ∧ TermRoot NULL_TERM c t r ∧
      c2.color = c.color ∧ c2.pseudo_subst = c.pseudo_subst ∧ c2.top_eqs = c.top_eqs ∧
      PartOk NULL_TERM c2.partition d ∧
      (∀ u ru, TermRoot NULL_TERM c2 u ru ↔ TermRoot NULL_TERM c u ru) := by
  obtain ⟨r, p1, e, hnull, hroot, ok1, _, _, _, hadd, hkeep⟩ := partition_find_spec ok ht pf hpf
  have hro : ∀ u ru, TermRoot NULL_TERM { c with partition := p1 } u ru ↔
      TermRoot NULL_TERM c u ru := by
    intro u ru
    constructor
    · rintro (⟨a, h⟩ | ⟨a, h⟩)
      · have a0 := (hadd u).1 a
        obtain ⟨r0, h0⟩ := rootOf_exists ok a0
        have := rootOf_unique (hkeep u r0 h0) h
        subst this
        exact Or.inl ⟨a0, h0⟩
      · exact Or.inr ⟨fun a0 => a ((hadd u).2 a0), h⟩
    · rintro (⟨a, h⟩ | ⟨a, h⟩)
      · exact Or.inl ⟨(hadd u).2 a, hkeep u ru h⟩
      · exact Or.inr ⟨fun a0 => a ((hadd u).1 a0), h⟩
  unfold find_term_root
  rw [e]
  by_cases a : Added NULL_TERM c.partition t
  · have hr := (hroot a).1
    have ar := rootOf_added ok hr a
    have : ¬ r < 0 := not_lt.2 ar.1
    exact ⟨r, { c with partition := p1 }, by simp only [if_neg this], Or.inl ⟨a, hr⟩, rfl, rfl, rfl,
      ok1, hro⟩
  · have hr : r = NULL_TERM := hnull.2 a
    have : r < 0 := by rw [hr]; exact ok.null
    exact ⟨t, { c with partition := p1 }, by simp only [if_pos this], Or.inr ⟨a, rfl⟩, rfl, rfl,
      rfl, ok1, hro⟩

theorem visitFrame_refl {τ : Type} {NULL_TERM : Int} {d : Int → Nat} {c : subst_ctx_t τ}
    (ok : PartOk NULL_TERM c.partition d) : VisitFrame NULL_TERM d c c :=
  ⟨fun _ _ => rfl, fun _ h => Or.inl h, fun _ _ => rfl, fun _ => Or.inl rfl, fun _ _ => Iff.rfl, ok⟩

theorem visitFrame_trans {τ : Type} {NULL_TERM : Int} {d : Int → Nat} {c c1 c2 : subst_ctx_t τ}
    (h : VisitFrame NULL_TERM d c c1) (h1 : VisitFrame NULL_TERM d c1 c2) :
    VisitFrame NULL_TERM d c c2 := by
  refine ⟨?_, ?_, ?_, ?_, ?_, h1.partok⟩
  · intro u hu
    rw [h1.keep u (by rw [h.keep u hu]; exact hu), h.keep u hu]
  · intro u hu
    rcases h.whites u hu with e | e
    · exact h1.whites u e
    · right
      rw [h1.keep u (by rw [e]; decide), e]
  · intro x hx
    rw [h1.subst_keep x (by rw [h.keep x hx]; exact hx), h.subst_keep x hx]
  · intro x
    rcases h1.subst_removed x with e | e
    · rw [e]
      exact h.subst_removed x
    · exact Or.inr e
  · intro t r
    rw [h1.roots, h.roots]

/-- Frame of a step that changes the partition only by path compression. -/
theorem visitFrame_of_eq {τ : Type} {NULL_TERM : Int} {d : Int → Nat} {c c2 : subst_ctx_t τ}
    (hc : c2.color = c.color) (hs : c2.pseudo_subst = c.pseudo_subst)
    (ok : PartOk NULL_TERM c2.partition d)
    (hr : ∀ u ru, TermRoot NULL_TERM c2 u ru ↔ TermRoot NULL_TERM c u ru) :
    VisitFrame NULL_TERM d c c2 :=
  ⟨fun _ _ => by rw [hc], fun _ h => Or.inl (by rw [hc]; exact h), fun _ _ => by rw [hs],
    fun _ => Or.inl (by rw [hs]), hr, ok⟩

/-- The edges of a state are edges of an earlier state when the terms with an
internal code and the roots are the same and the candidates are kept or
removed. -/
theorem depEdge_mono {τ : Type} {NULL_TERM : Int} {tt : term_table_t} {c c1 : subst_ctx_t τ}
    (hcol : ∀ u, c.color u = term_color_t.assigned → c1.color u = term_color_t.assigned)
    (hs : ∀ x, c1.pseudo_subst x = c.pseudo_subst x ∨ c1.pseudo_subst x = some NULL_TERM)
    (hr : ∀ u ru, TermRoot NULL_TERM c1 u ru ↔ TermRoot NULL_TERM c u ru) {a b : Int}
    (h : DepEdge NULL_TERM tt c1 a b) : DepEdge NULL_TERM tt c a b := by
  rcases h with ⟨h0, h⟩ | ⟨h0, h1, h2, h3, h4⟩
  · refine Or.inl ⟨fun e => h0 (hcol a e), ?_⟩
    rcases h with h | ⟨h1, h2, h3⟩
    · exact Or.inl h
    · exact Or.inr ⟨h1, (hr a b).1 h2, h3⟩
  · refine Or.inr ⟨fun e => h0 (hcol a e), h1, (hr a a).1 h2, ?_, h4⟩
    rcases hs a with e | e
    · unfold subst_candidate at h3 ⊢
      rw [← e]
      exact h3
    · exfalso
      unfold subst_candidate at h3
      rw [e] at h3
      exact h4 h3.symm

theorem staticEdge_congr {τ : Type} {NULL_TERM : Int} {tt : term_table_t} {c c1 : subst_ctx_t τ}
    (hcol : ∀ u, c.color u = term_color_t.assigned → c1.color u = term_color_t.assigned)
    (hr : ∀ u ru, TermRoot NULL_TERM c1 u ru ↔ TermRoot NULL_TERM c u ru) {a b : Int}
    (h : StaticEdge NULL_TERM tt c1 a b) : StaticEdge NULL_TERM tt c a b := by
  obtain ⟨h0, h⟩ := h
  refine ⟨fun e => h0 (hcol a e), ?_⟩
  rcases h with h | ⟨h1, h2, h3⟩
  · exact Or.inl h
  · exact Or.inr ⟨h1, (hr a b).1 h2, h3⟩

theorem visitFrame_assigned {τ : Type} {NULL_TERM : Int} {d : Int → Nat} {c c1 : subst_ctx_t τ}
    (h : VisitFrame NULL_TERM d c c1) (u : Int) :
    c1.color u = term_color_t.assigned ↔ c.color u = term_color_t.assigned := by
  constructor
  · intro e
    by_cases hw : c.color u = term_color_t.white
    · rcases h.whites u hw with e1 | e1 <;> rw [e1] at e <;> cases e
    · rw [← h.keep u hw]
      exact e
  · intro e
    rw [h.keep u (by rw [e]; decide)]
    exact e

theorem visitFrame_edge {τ : Type} {NULL_TERM : Int} {d : Int → Nat} {tt : term_table_t}
    {c c1 : subst_ctx_t τ} (h : VisitFrame NULL_TERM d c c1) {a b : Int}
    (e : DepEdge NULL_TERM tt c1 a b) : DepEdge NULL_TERM tt c a b :=
  depEdge_mono (fun u => (visitFrame_assigned h u).2) h.subst_removed h.roots e

/-- The edges from the grey terms are kept by a step that keeps the grey terms,
their candidates and the roots. -/
theorem greyEdge_keep {τ : Type} {NULL_TERM : Int} {tt : term_table_t} {c c1 : subst_ctx_t τ}
    (hcol : ∀ u, c.color u = term_color_t.grey → c1.color u = term_color_t.grey)
    (hs : ∀ x, c.color x = term_color_t.grey → c1.pseudo_subst x = c.pseudo_subst x)
    (hr : ∀ u ru, TermRoot NULL_TERM c1 u ru ↔ TermRoot NULL_TERM c u ru) {a b : Int}
    (h : GreyEdge NULL_TERM tt c a b) : GreyEdge NULL_TERM tt c1 a b := by
  obtain ⟨h, hg⟩ := h
  have hg1 := hcol a hg
  have hna : c1.color a ≠ term_color_t.assigned := by rw [hg1]; decide
  refine ⟨?_, hg1⟩
  rcases h with ⟨_, h⟩ | ⟨_, h1, h2, h3, h4⟩
  · refine Or.inl ⟨hna, ?_⟩
    rcases h with h | ⟨h1, h2, h3⟩
    · exact Or.inl h
    · exact Or.inr ⟨h1, (hr a b).2 h2, h3⟩
  · refine Or.inr ⟨hna, h1, (hr a a).2 h2, ?_, h4⟩
    unfold subst_candidate at h3 ⊢
    rw [hs a hg]
    exact h3

theorem visitFrame_greyEdge {τ : Type} {NULL_TERM : Int} {d : Int → Nat} {tt : term_table_t}
    {c c1 : subst_ctx_t τ} (h : VisitFrame NULL_TERM d c c1) {a b : Int}
    (e : GreyEdge NULL_TERM tt c a b) : GreyEdge NULL_TERM tt c1 a b :=
  greyEdge_keep (fun u hu => by rw [h.keep u (by rw [hu]; decide)]; exact hu)
    (fun x hx => h.subst_keep x (by rw [hx]; decide)) h.roots e

theorem acc_mono {α : Type} {r r1 : α → α → Prop} (h : ∀ a b, r1 a b → r a b) {x : α}
    (hx : Acc r x) : Acc r1 x := by
  induction hx with
  | intro x _ ih => exact Acc.intro x (fun y hy => ih y (h y x hy))

/-- A term with an internal code has no successor. -/
theorem depEdge_not_assigned {τ : Type} {NULL_TERM : Int} {tt : term_table_t}
    {c : subst_ctx_t τ} {a b : Int} (h : DepEdge NULL_TERM tt c a b) :
    c.color a ≠ term_color_t.assigned := by
  rcases h with ⟨h, _⟩ | ⟨h, _⟩ <;> exact h

theorem blackOk_mono {τ : Type} {NULL_TERM : Int} {tt : term_table_t} {c c1 : subst_ctx_t τ}
    (hb : BlackOk NULL_TERM tt c)
    (h1 : ∀ z, c1.color z = term_color_t.black → c.color z = term_color_t.black)
    (h2 : ∀ a b, DepEdge NULL_TERM tt c1 a b → DepEdge NULL_TERM tt c a b)
    (h3 : ∀ u, c.color u = term_color_t.black ∨ c.color u = term_color_t.assigned →
      c1.color u = term_color_t.black ∨ c1.color u = term_color_t.assigned) :
    BlackOk NULL_TERM tt c1 := by
  intro t ht
  obtain ⟨ha, hs⟩ := hb t (h1 t ht)
  exact ⟨acc_mono (fun a b e => h2 b a e) ha, fun u e => h3 u (hs u (h2 t u e))⟩

/-- A grey term whose successors are black or have an internal code can be
marked black. -/
theorem blackOk_set_black {τ : Type} {NULL_TERM : Int} {tt : term_table_t} {c : subst_ctx_t τ}
    (hb : BlackOk NULL_TERM tt c) {t : Int} (hg : c.color t = term_color_t.grey)
    (hs : ∀ u, DepEdge NULL_TERM tt c t u →
      c.color u = term_color_t.black ∨ c.color u = term_color_t.assigned) :
    BlackOk NULL_TERM tt (set_term_color c t term_color_t.black) := by
  have hedge : ∀ a b, DepEdge NULL_TERM tt (set_term_color c t term_color_t.black) a b →
      DepEdge NULL_TERM tt c a b := by
    intro a b e
    refine @depEdge_mono τ NULL_TERM tt c (set_term_color c t term_color_t.black) ?_
      (fun x => Or.inl rfl) (fun _ _ => Iff.rfl) a b e
    intro u hu
    show upd c.color t term_color_t.black u = term_color_t.assigned
    unfold upd
    by_cases e1 : u = t
    · subst e1
      rw [hg] at hu
      cases hu
    · rw [if_neg e1]
      exact hu
  have hcol : ∀ u, c.color u = term_color_t.black ∨ c.color u = term_color_t.assigned →
      (set_term_color c t term_color_t.black).color u = term_color_t.black ∨
      (set_term_color c t term_color_t.black).color u = term_color_t.assigned := by
    intro u hu
    show upd c.color t term_color_t.black u = _ ∨ upd c.color t term_color_t.black u = _
    unfold upd
    by_cases e1 : u = t
    · rw [if_pos e1]
      exact Or.inl rfl
    · rw [if_neg e1]
      exact hu
  have hacc : ∀ u, c.color u = term_color_t.black ∨ c.color u = term_color_t.assigned →
      Acc (fun a b => DepEdge NULL_TERM tt (set_term_color c t term_color_t.black) b a) u := by
    intro u hu
    rcases hu with hu | hu
    · exact acc_mono (fun a b e => hedge b a e) (hb u hu).1
    · refine Acc.intro u (fun y hy => ?_)
      exact absurd hu (depEdge_not_assigned (hedge u y hy))
  intro z hz
  by_cases e1 : z = t
  · subst e1
    refine ⟨Acc.intro z (fun u hu => hacc u (hs u (hedge z u hu))), ?_⟩
    intro u hu
    exact hcol u (hs u (hedge z u hu))
  · have hz0 : c.color z = term_color_t.black := by
      have : upd c.color t term_color_t.black z = term_color_t.black := hz
      unfold upd at this
      rw [if_neg e1] at this
      exact this
    exact ⟨hacc z (Or.inl hz0), fun u hu => hcol u ((hb z hz0).2 u (hedge z u hu))⟩

theorem retractedOnCycle_refl {τ : Type} {NULL_TERM : Int} {tt : term_table_t}
    {c c1 : subst_ctx_t τ} (h : c1.pseudo_subst = c.pseudo_subst) :
    RetractedOnCycle NULL_TERM tt c c1 := by
  intro x hx
  rw [h] at hx
  exact absurd rfl hx

theorem retractedOnCycle_trans {τ : Type} {NULL_TERM : Int} {tt : term_table_t}
    {c c1 c2 : subst_ctx_t τ} (h : RetractedOnCycle NULL_TERM tt c c1)
    (h1 : RetractedOnCycle NULL_TERM tt c1 c2)
    (he : ∀ a b, DepEdge NULL_TERM tt c1 a b → DepEdge NULL_TERM tt c a b) :
    RetractedOnCycle NULL_TERM tt c c2 := by
  intro x hx
  by_cases e : c1.pseudo_subst x = c.pseudo_subst x
  · have : c2.pseudo_subst x ≠ c1.pseudo_subst x := by rw [e]; exact hx
    obtain ⟨cm, hm, hcyc, hsub⟩ := h1 x this
    exact ⟨cm, fun a b hab => he a b (hm a b hab), hcyc, by rw [hsub, e]⟩
  · exact h x e

theorem retractedOnCycle_congr {τ : Type} {NULL_TERM : Int} {tt : term_table_t}
    {c c0 c1 c2 : subst_ctx_t τ} (h : RetractedOnCycle NULL_TERM tt c c1)
    (hs : c.pseudo_subst = c0.pseudo_subst)
    (he : ∀ a b, DepEdge NULL_TERM tt c a b → DepEdge NULL_TERM tt c0 a b)
    (hs2 : c2.pseudo_subst = c1.pseudo_subst) :
    RetractedOnCycle NULL_TERM tt c0 c2 := by
  intro x hx
  rw [hs2, ← hs] at hx
  obtain ⟨cm, hm, hcyc, hsub⟩ := h x hx
  exact ⟨cm, fun a b hab => he a b (hm a b hab), hcyc, by rw [hsub, hs]⟩

theorem static_path_le {τ : Type} {NULL_TERM : Int} {tt : term_table_t} {h : Int → Nat}
    {c : subst_ctx_t τ} (hd : StaticDag NULL_TERM tt h c) {a b : Int}
    (hp : Relation.ReflTransGen (StaticEdge NULL_TERM tt c) a b) : h b ≤ h a := by
  induction hp with
  | refl => exact le_refl _
  | tail _ e ih => exact le_trans (le_of_lt (hd _ _ e)) ih

theorem staticDag_mono {τ : Type} {NULL_TERM : Int} {tt : term_table_t} {h : Int → Nat}
    {c c1 : subst_ctx_t τ} (hd : StaticDag NULL_TERM tt h c)
    (hcol : ∀ u, c.color u = term_color_t.assigned → c1.color u = term_color_t.assigned)
    (hr : ∀ u ru, TermRoot NULL_TERM c1 u ru ↔ TermRoot NULL_TERM c u ru) :
    StaticDag NULL_TERM tt h c1 :=
  fun a b e => hd a b (staticEdge_congr hcol hr e)

theorem visitFrame_staticDag {τ : Type} {NULL_TERM : Int} {d : Int → Nat} {tt : term_table_t}
    {h : Int → Nat} {c c1 : subst_ctx_t τ} (hf : VisitFrame NULL_TERM d c c1)
    (hd : StaticDag NULL_TERM tt h c) : StaticDag NULL_TERM tt h c1 :=
  staticDag_mono hd (fun u => (visitFrame_assigned hf u).2) hf.roots

theorem visitFrame_grey {τ : Type} {NULL_TERM : Int} {d : Int → Nat} {c c1 : subst_ctx_t τ}
    (hf : VisitFrame NULL_TERM d c c1) {v : Int} (hv : c1.color v = term_color_t.grey) :
    c.color v = term_color_t.grey := by
  by_cases hw : c.color v = term_color_t.white
  · rcases hf.whites v hw with e | e <;> rw [e] at hv <;> cases hv
  · rw [← hf.keep v hw]
    exact hv

theorem visitFrame_done {τ : Type} {NULL_TERM : Int} {d : Int → Nat} {c c1 : subst_ctx_t τ}
    (hf : VisitFrame NULL_TERM d c c1) {u : Int}
    (hu : c.color u = term_color_t.black ∨ c.color u = term_color_t.assigned) :
    c1.color u = term_color_t.black ∨ c1.color u = term_color_t.assigned := by
  have : c.color u ≠ term_color_t.white := by
    rcases hu with e | e <;> rw [e] <;> decide
  rw [hf.keep u this]
  exact hu

theorem visitFrame_black {τ : Type} {NULL_TERM : Int} {d : Int → Nat} {tt : term_table_t}
    {c c1 : subst_ctx_t τ} (hf : VisitFrame NULL_TERM d c c1) (hc : c1.color = c.color)
    (hb : BlackOk NULL_TERM tt c) : BlackOk NULL_TERM tt c1 :=
  blackOk_mono hb (fun z hz => by rw [← hc]; exact hz) (fun _ _ e => visitFrame_edge hf e)
    (fun u hu => by rw [hc]; exact hu)

/-- The calls of `visit` on the terms of an array, from left to right, until
one returns true. -/
theorem visit_array_spec {τ : Type} {NULL_TERM : Int} {d : Int → Nat} {tt : term_table_t}
    {h : Int → Nat} {v : subst_ctx_t τ → Int → Option (Bool × subst_ctx_t τ)}
    (Pv : ∀ c t b c1, v c t = some (b, c1) → PartOk NULL_TERM c.partition d →
      VisitSpec NULL_TERM d tt h c t b c1) :
    ∀ (ts : List Int) (c : subst_ctx_t τ) (b : Bool) (cK : subst_ctx_t τ),
      visit_array v c ts = some (b, cK) → PartOk NULL_TERM c.partition d →
      VisitFrame NULL_TERM d c cK ∧
      (b = false → ∀ u ∈ ts,
        cK.color u = term_color_t.black ∨ cK.color u = term_color_t.assigned) ∧
      (∀ t0, GreyPath NULL_TERM tt c t0 → (∀ u ∈ ts, GreyEdge NULL_TERM tt c t0 u) →
        BlackOk NULL_TERM tt c → StaticDag NULL_TERM tt h c →
        BlackOk NULL_TERM tt cK ∧ RetractedOnCycle NULL_TERM tt c cK ∧
        (b = true → ∃ u ∈ ts, ∃ vg, c.color vg = term_color_t.grey ∧
          Relation.ReflTransGen (StaticEdge NULL_TERM tt cK) u vg)) := by
  intro ts
  induction ts with
  | nil =>
    intro c b cK e ok
    simp only [visit_array, Option.some.injEq, Prod.mk.injEq] at e
    obtain ⟨e1, e2⟩ := e
    subst e1 e2
    refine ⟨visitFrame_refl ok, fun _ u hu => absurd hu (List.not_mem_nil u), ?_⟩
    intro t0 _ _ hb _
    exact ⟨hb, retractedOnCycle_refl rfl, fun e => Bool.noConfusion e⟩
  | cons t ts ih =>
    intro c b cK e ok
    unfold visit_array at e
    cases hv : v c t with
    | none => rw [hv] at e; cases e
    | some res =>
      obtain ⟨b1, c1⟩ := res
      rw [hv] at e
      obtain ⟨hf, hfalse, _, hgraph⟩ := Pv c t b1 c1 hv ok
      cases b1 with
      | true =>
        simp only [Option.some.injEq, Prod.mk.injEq] at e
        obtain ⟨e1, e2⟩ := e
        subst e1 e2
        refine ⟨hf, fun e => Bool.noConfusion e, ?_⟩
        intro t0 hgp hge hb hd
        have hgp1 : GreyPath NULL_TERM tt c t := fun vg hvg =>
          Relation.ReflTransGen.tail (hgp vg hvg) (hge t (List.mem_cons_self _ _))
        obtain ⟨hb1, hr1, hp1⟩ := hgraph hgp1 hb hd
        obtain ⟨vg, hvg, hpath⟩ := hp1 rfl
        exact ⟨hb1, hr1, fun _ => ⟨t, List.mem_cons_self _ _, vg, hvg, hpath⟩⟩
      | false =>
        simp only at e
        obtain ⟨hf2, hfalse2, hgraph2⟩ := ih c1 b cK e hf.partok
        refine ⟨visitFrame_trans hf hf2, ?_, ?_⟩
        · intro hb u hu
          rcases List.mem_cons.1 hu with e1 | e1
          · subst e1
            exact visitFrame_done hf2 (hfalse rfl)
          · exact hfalse2 hb u e1
        · intro t0 hgp hge hb hd
          have hgp1 : GreyPath NULL_TERM tt c t := fun vg hvg =>
            Relation.ReflTransGen.tail (hgp vg hvg) (hge t (List.mem_cons_self _ _))
          obtain ⟨hb1, hr1, _⟩ := hgraph hgp1 hb hd
          have hgp2 : GreyPath NULL_TERM tt c1 t0 := fun vg hvg =>
            Relation.ReflTransGen.mono (fun a b e => visitFrame_greyEdge hf e)
              (hgp vg (visitFrame_grey hf hvg))
          obtain ⟨hb2, hr2, hp2⟩ := hgraph2 t0 hgp2
            (fun u hu => visitFrame_greyEdge hf (hge u (List.mem_cons_of_mem _ hu))) hb1
            (visitFrame_staticDag hf hd)
          refine ⟨hb2, retractedOnCycle_trans hr1 hr2 (fun a b e => visitFrame_edge hf e), ?_⟩
          intro hb
          obtain ⟨u, hu, vg, hvg, hpath⟩ := hp2 hb
          exact ⟨u, List.mem_cons_of_mem _ hu, vg, visitFrame_grey hf hvg, hpath⟩

theorem remove_subst_candidate_edge {τ : Type} {NULL_TERM : Int} {tt : term_table_t}
    {c : subst_ctx_t τ} {t a b : Int}
    (e : DepEdge NULL_TERM tt (remove_subst_candidate NULL_TERM c t) a b) :
    DepEdge NULL_TERM tt c a b := by
  refine @depEdge_mono τ NULL_TERM tt c (remove_subst_candidate NULL_TERM c t) (fun u hu => hu)
    ?_ (fun _ _ => Iff.rfl) a b e
  intro x
  show upd c.pseudo_subst t (some NULL_TERM) x = _ ∨ upd c.pseudo_subst t (some NULL_TERM) x = _
  unfold upd
  by_cases e1 : x = t
  · rw [if_pos e1]
    exact Or.inr rfl
  · rw [if_neg e1]
    exact Or.inl rfl

/-- A root variable has no partition edge. -/
theorem root_no_static_edge {τ : Type} {NULL_TERM : Int} {tt : term_table_t}
    {c : subst_ctx_t τ} {t u : Int} (hk : tt.kind t = visit_kind_t.uninterpreted)
    (hroot : TermRoot NULL_TERM c t t) (e : StaticEdge NULL_TERM tt c t u) : False := by
  rcases e with ⟨_, ⟨h1, _⟩ | ⟨_, h2, h3⟩⟩
  · rw [hk] at h1
    cases h1
  · exact h3 (termRoot_unique h2 hroot)

/-- The body of `visit` for a term `t` that has just been marked grey: the
result `b1` of the switch on the kind of `t` and the state `cK` before `t` gets
its final colour. -/
theorem visit_kind_spec {τ : Type} {NULL_TERM : Int} {d : Int → Nat} {tt : term_table_t}
    {h : Int → Nat} {pf : Nat}
    {v : subst_ctx_t τ → Int → Option (Bool × subst_ctx_t τ)}
    (hnn : ∀ t, tt.kind t = visit_kind_t.uninterpreted → 0 ≤ t) (hpf : ∀ t, d t < pf)
    (Pv : ∀ c t b c1, v c t = some (b, c1) → PartOk NULL_TERM c.partition d →
      VisitSpec NULL_TERM d tt h c t b c1)
    {c1 : subst_ctx_t τ} {t : Int} {b1 : Bool} {cK : subst_ctx_t τ}
    (hg : c1.color t = term_color_t.grey) (ok : PartOk NULL_TERM c1.partition d)
    (e : visit_kind NULL_TERM pf tt v c1 t = some (b1, cK)) :
    (∃ cM, VisitFrame NULL_TERM d c1 cM ∧
      (cK = cM ∨ cK = remove_subst_candidate NULL_TERM cM t)) ∧
    (GreyPath NULL_TERM tt c1 t → BlackOk NULL_TERM tt c1 → StaticDag NULL_TERM tt h c1 →
      BlackOk NULL_TERM tt cK ∧ RetractedOnCycle NULL_TERM tt c1 cK ∧
      (b1 = false → ∀ u, DepEdge NULL_TERM tt cK t u →
        cK.color u = term_color_t.black ∨ cK.color u = term_color_t.assigned) ∧
      (b1 = true → ∃ vg, c1.color vg = term_color_t.grey ∧ vg ≠ t ∧
        Relation.ReflTransGen (StaticEdge NULL_TERM tt cK) t vg)) := by
  have hna : c1.color t ≠ term_color_t.assigned := by rw [hg]; decide
  have hnw : c1.color t ≠ term_color_t.white := by rw [hg]; decide
  unfold visit_kind at e
  cases hk : tt.kind t with
  | leaf =>
    rw [hk] at e
    simp only [Option.some.injEq, Prod.mk.injEq] at e
    obtain ⟨e1, e2⟩ := e
    subst e1 e2
    refine ⟨⟨c1, visitFrame_refl ok, Or.inl rfl⟩, ?_⟩
    intro _ hb _
    refine ⟨hb, retractedOnCycle_refl rfl, ?_, fun e => Bool.noConfusion e⟩
    intro _ u hu
    rcases hu with ⟨_, ⟨h1, _⟩ | ⟨h1, _⟩⟩ | ⟨_, h1, _⟩ <;> (rw [hk] at h1; cases h1)
  | composite =>
    rw [hk] at e
    simp only at e
    obtain ⟨hf, hfalse, hgraph⟩ := visit_array_spec Pv (tt.children t) c1 b1 cK e ok
    refine ⟨⟨cK, hf, Or.inl rfl⟩, ?_⟩
    intro hgp hb hd
    have hge : ∀ u ∈ tt.children t, GreyEdge NULL_TERM tt c1 t u := fun u hu =>
      ⟨Or.inl ⟨hna, Or.inl ⟨hk, hu⟩⟩, hg⟩
    obtain ⟨hb1, hr1, hp1⟩ := hgraph t hgp hge hb hd
    refine ⟨hb1, hr1, ?_, ?_⟩
    · intro hb u hu
      rcases hu with ⟨_, ⟨_, h2⟩ | ⟨h1, _⟩⟩ | ⟨_, h1, _⟩
      · exact hfalse hb u h2
      · rw [hk] at h1
        cases h1
      · rw [hk] at h1
        cases h1
    · intro hb
      obtain ⟨u, hu, vg, hvg, hpath⟩ := hp1 hb
      have hd1 := visitFrame_staticDag hf hd
      have hgK : cK.color t = term_color_t.grey := by
        rw [hf.keep t hnw]
        exact hg
      have he : StaticEdge NULL_TERM tt cK t u := ⟨by rw [hgK]; decide, Or.inl ⟨hk, hu⟩⟩
      refine ⟨vg, hvg, ?_, Relation.ReflTransGen.head he hpath⟩
      intro e1
      subst e1
      have h1 := static_path_le hd1 hpath
      have h2 := hd1 _ _ he
      omega
  | uninterpreted =>
    rw [hk] at e
    simp only at e
    have ht := hnn t hk
    obtain ⟨r, c2, efr, hroot, hcol2, hsub2, _, ok2, hr2⟩ :=
      find_term_root_spec ok ht pf (hpf t)
    rw [efr] at e
    simp only at e
    have hf12 : VisitFrame NULL_TERM d c1 c2 := visitFrame_of_eq hcol2 hsub2 ok2 hr2
    have hg2 : c2.color t = term_color_t.grey := by rw [hcol2]; exact hg
    have hna2 : c2.color t ≠ term_color_t.assigned := by rw [hg2]; decide
    have hnw2 : c2.color t ≠ term_color_t.white := by rw [hg2]; decide
    have hgp12 : GreyPath NULL_TERM tt c1 t → ∀ vg, c2.color vg = term_color_t.grey →
        Relation.ReflTransGen (GreyEdge NULL_TERM tt c2) vg t := fun hgp vg hvg =>
      Relation.ReflTransGen.mono (fun a b e => visitFrame_greyEdge hf12 e)
        (hgp vg (by rw [← hcol2]; exact hvg))
    have hret12 : ∀ {cX : subst_ctx_t τ}, RetractedOnCycle NULL_TERM tt c2 cX →
        RetractedOnCycle NULL_TERM tt c1 cX := fun hr =>
      retractedOnCycle_congr hr hsub2 (fun a b e => visitFrame_edge hf12 e) rfl
    by_cases hrt : r = t
    · subst hrt
      rw [if_neg (not_not.2 rfl)] at e
      by_cases hs : subst_candidate NULL_TERM c2 r ≠ NULL_TERM
      · rw [if_pos hs] at e
        cases hv : v c2 (subst_candidate NULL_TERM c2 r) with
        | none =>
          rw [hv] at e
          cases e
        | some res =>
          obtain ⟨b3, c3⟩ := res
          rw [hv] at e
          obtain ⟨hf3, hfalse3, _, hgraph⟩ := Pv c2 _ b3 c3 hv ok2
          have hf13 := visitFrame_trans hf12 hf3
          have hg3 : c3.color r = term_color_t.grey := by
            rw [hf3.keep r hnw2]
            exact hg2
          have hroot3 : TermRoot NULL_TERM c3 r r := (hf3.roots r r).2 ((hr2 r r).2 hroot)
          have hcand3 : subst_candidate NULL_TERM c3 r = subst_candidate NULL_TERM c2 r := by
            unfold subst_candidate
            rw [hf3.subst_keep r hnw2]
          have hgp2 : GreyPath NULL_TERM tt c1 r →
              GreyPath NULL_TERM tt c2 (subst_candidate NULL_TERM c2 r) := fun hgp vg hvg =>
            Relation.ReflTransGen.tail (hgp12 hgp vg hvg)
              ⟨Or.inr ⟨hna2, hk, (hr2 r r).2 hroot, rfl, hs⟩, hg2⟩
          cases b3 with
          | true =>
            simp only [Option.some.injEq, Prod.mk.injEq] at e
            obtain ⟨e1, e2⟩ := e
            subst e1 e2
            refine ⟨⟨c3, hf13, Or.inr rfl⟩, ?_⟩
            intro hgp hb hd
            obtain ⟨hb3, hr3, hp3⟩ := hgraph (hgp2 hgp) (visitFrame_black hf12 hcol2 hb)
              (visitFrame_staticDag hf12 hd)
            obtain ⟨vg, hvg, hpath⟩ := hp3 rfl
            have hedge : DepEdge NULL_TERM tt c3 r (subst_candidate NULL_TERM c2 r) :=
              Or.inr ⟨by rw [hg3]; decide, hk, hroot3, hcand3, hs⟩
            have hcyc : Relation.TransGen (DepEdge NULL_TERM tt c3) r r := by
              refine Relation.TransGen.head' hedge ?_
              refine Relation.ReflTransGen.trans
                (Relation.ReflTransGen.mono (fun a b e => Or.inl e) hpath) ?_
              exact Relation.ReflTransGen.mono (fun a b e => (visitFrame_greyEdge hf13 e).1)
                (hgp vg (by rw [← hcol2]; exact hvg))
            have hr3K : RetractedOnCycle NULL_TERM tt c3
                (remove_subst_candidate NULL_TERM c3 r) := by
              intro x hx
              by_cases ex : x = r
              · subst ex
                exact ⟨c3, fun _ _ e => e, hcyc, rfl⟩
              · exfalso
                apply hx
                show upd c3.pseudo_subst r (some NULL_TERM) x = c3.pseudo_subst x
                unfold upd
                rw [if_neg ex]
            refine ⟨blackOk_mono hb3 (fun z hz => hz)
                (fun a b e => remove_subst_candidate_edge e) (fun u hu => hu),
              retractedOnCycle_trans (hret12 hr3) hr3K (fun a b e => visitFrame_edge hf13 e),
              ?_, fun e => Bool.noConfusion e⟩
            intro _ u hu
            exfalso
            rcases hu with hu | ⟨_, _, _, h4, h5⟩
            · exact root_no_static_edge hk hroot3 hu
            · apply h5
              rw [← h4]
              show (match upd c3.pseudo_subst r (some NULL_TERM) r with
                | none => NULL_TERM
                | some v => v) = NULL_TERM
              unfold upd
              rw [if_pos rfl]
          | false =>
            simp only [Option.some.injEq, Prod.mk.injEq] at e
            obtain ⟨e1, e2⟩ := e
            subst e1 e2
            refine ⟨⟨c3, hf13, Or.inl rfl⟩, ?_⟩
            intro hgp hb hd
            obtain ⟨hb3, hr3, _⟩ := hgraph (hgp2 hgp) (visitFrame_black hf12 hcol2 hb)
              (visitFrame_staticDag hf12 hd)
            refine ⟨hb3, hret12 hr3, ?_, fun e => Bool.noConfusion e⟩
            intro _ u hu
            rcases hu with hu | ⟨_, _, _, h4, _⟩
            · exact absurd hu (fun hu => root_no_static_edge hk hroot3 hu)
            · rw [← h4, hcand3]
              exact hfalse3 rfl
      · rw [if_neg hs] at e
        simp only [Option.some.injEq, Prod.mk.injEq] at e
        obtain ⟨e1, e2⟩ := e
        subst e1 e2
        refine ⟨⟨c2, hf12, Or.inl rfl⟩, ?_⟩
        intro hgp hb hd
        refine ⟨visitFrame_black hf12 hcol2 hb, retractedOnCycle_refl hsub2, ?_,
          fun e => Bool.noConfusion e⟩
        intro _ u hu
        exfalso
        rcases hu with hu | ⟨_, _, _, h4, h5⟩
        · exact root_no_static_edge hk ((hr2 r r).2 hroot) hu
        · apply hs
          rw [h4]
          exact h5
    · rw [if_pos hrt] at e
      obtain ⟨hf, hfalse, _, hgraph⟩ := Pv c2 r b1 cK e ok2
      refine ⟨⟨cK, visitFrame_trans hf12 hf, Or.inl rfl⟩, ?_⟩
      have hgK : cK.color t = term_color_t.grey := by
        rw [hf.keep t hnw2]
        exact hg2
      have hrootK : TermRoot NULL_TERM cK t r := (hf.roots t r).2 ((hr2 t r).2 hroot)
      have heK : StaticEdge NULL_TERM tt cK t r :=
        ⟨by rw [hgK]; decide, Or.inr ⟨hk, hrootK, hrt⟩⟩
      intro hgp hb hd
      have hgp2 : GreyPath NULL_TERM tt c2 r := fun vg hvg =>
        Relation.ReflTransGen.tail (hgp12 hgp vg hvg)
          ⟨Or.inl ⟨hna2, Or.inr ⟨hk, (hr2 t r).2 hroot, hrt⟩⟩, hg2⟩
      have hd2 := visitFrame_staticDag hf12 hd
      obtain ⟨hbK, hrK, hpK⟩ := hgraph hgp2 (visitFrame_black hf12 hcol2 hb) hd2
      refine ⟨hbK, hret12 hrK, ?_, ?_⟩
      · intro hb1 u hu
        have hur : u = r := by
          rcases hu with ⟨_, ⟨h1, _⟩ | ⟨_, h2, _⟩⟩ | ⟨_, _, h3, _⟩
          · rw [hk] at h1
            cases h1
          · exact termRoot_unique h2 hrootK
          · exact absurd (termRoot_unique hrootK h3) hrt
        rw [hur]
        exact hfalse hb1
      · intro hb1
        obtain ⟨vg, hvg, hpath⟩ := hpK hb1
        have hdK := visitFrame_staticDag hf hd2
        refine ⟨vg, by rw [← hcol2]; exact hvg, ?_, Relation.ReflTransGen.head heK hpath⟩
        intro e1
        subst e1
        have h1 := static_path_le hdK hpath
        have h2 := hdK _ _ heK
        omega

/-- Frame of a call of `visit` on a white term `t`, from the frame of the body
between the two changes of the colour of `t`. -/
theorem visitFrame_close {τ : Type} {NULL_TERM : Int} {d : Int → Nat}
    {c cM cK : subst_ctx_t τ} {t : Int} {x : term_color_t}
    (hw : c.color t = term_color_t.white)
    (hf : VisitFrame NULL_TERM d (set_term_color c t term_color_t.grey) cM)
    (hK : cK = cM ∨ cK = remove_subst_candidate NULL_TERM cM t)
    (hx : x = term_color_t.white ∨ x = term_color_t.black) :
    VisitFrame NULL_TERM d c (set_term_color cK t x) := by
  have hcolK : cK.color = cM.color := by rcases hK with e | e <;> subst e <;> rfl
  have hpartK : cK.partition = cM.partition := by rcases hK with e | e <;> subst e <;> rfl
  have hsubK : ∀ y, y ≠ t → cK.pseudo_subst y = cM.pseudo_subst y := by
    intro y hy
    rcases hK with e | e
    · rw [e]
    · rw [e]
      exact upd_ne _ _ hy
  have hsubK2 : ∀ y, cK.pseudo_subst y = cM.pseudo_subst y ∨
      cK.pseudo_subst y = some NULL_TERM := by
    intro y
    by_cases hy : y = t
    · rcases hK with e | e
      · rw [e]
        exact Or.inl rfl
      · rw [e, hy]
        exact Or.inr (upd_same _ _ _)
    · exact Or.inl (hsubK y hy)
  have hc1 : ∀ u, u ≠ t → (set_term_color c t term_color_t.grey).color u = c.color u :=
    fun u hu => upd_ne _ _ hu
  have hcK : ∀ u, u ≠ t → (set_term_color cK t x).color u = cM.color u := by
    intro u hu
    show upd cK.color t x u = cM.color u
    rw [upd_ne _ _ hu, hcolK]
  refine ⟨?_, ?_, ?_, ?_, ?_, ?_⟩
  · intro u hu
    have hut : u ≠ t := fun e => hu (by rw [e]; exact hw)
    rw [hcK u hut, hf.keep u (by rw [hc1 u hut]; exact hu), hc1 u hut]
  · intro u hu
    by_cases hut : u = t
    · rw [hut]
      show upd cK.color t x t = _ ∨ upd cK.color t x t = _
      rw [upd_same]
      exact hx
    · rw [hcK u hut]
      exact hf.whites u (by rw [hc1 u hut]; exact hu)
  · intro y hy
    have hyt : y ≠ t := fun e => hy (by rw [e]; exact hw)
    show cK.pseudo_subst y = c.pseudo_subst y
    rw [hsubK y hyt]
    exact hf.subst_keep y (by rw [hc1 y hyt]; exact hy)
  · intro y
    show cK.pseudo_subst y = c.pseudo_subst y ∨ cK.pseudo_subst y = some NULL_TERM
    rcases hsubK2 y with e | e
    · rw [e]
      exact hf.subst_removed y
    · exact Or.inr e
  · intro u r
    have : TermRoot NULL_TERM (set_term_color cK t x) u r ↔ TermRoot NULL_TERM cM u r := by
      unfold TermRoot
      show (Added NULL_TERM cK.partition u ∧ RootOf cK.partition.parent u r) ∨
        (¬ Added NULL_TERM cK.partition u ∧ r = u) ↔ _
      rw [hpartK]
    rw [this]
    exact hf.roots u r
  · show PartOk NULL_TERM cK.partition d
    rw [hpartK]
    exact hf.partok

/-- The specification of `visit`. -/
theorem visit_spec {τ : Type} {NULL_TERM : Int} {d : Int → Nat} {tt : term_table_t}
    {h : Int → Nat} {pf : Nat}
    (hnn : ∀ t, tt.kind t = visit_kind_t.uninterpreted → 0 ≤ t) (hpf : ∀ t, d t < pf) :
    ∀ (fuel : Nat) (c : subst_ctx_t τ) (t : Int) (b : Bool) (c1 : subst_ctx_t τ),
      visit NULL_TERM pf tt fuel c t = some (b, c1) → PartOk NULL_TERM c.partition d →
      VisitSpec NULL_TERM d tt h c t b c1 := by
  intro fuel
  induction fuel with
  | zero =>
    intro c t b c1 e
    simp only [visit] at e
    cases e
  | succ fuel ih =>
    intro c t b c1 e ok
    rw [visit] at e
    cases hc : c.color t with
    | white =>
      rw [hc] at e
      simp only at e
      have hg1 : (set_term_color c t term_color_t.grey).color t = term_color_t.grey :=
        upd_same _ _ _
      have ok1 : PartOk NULL_TERM (set_term_color c t term_color_t.grey).partition d := ok
      cases hvk : visit_kind NULL_TERM pf tt (visit NULL_TERM pf tt fuel)
          (set_term_color c t term_color_t.grey) t with
      | none =>
        rw [hvk] at e
        cases e
      | some res =>
        obtain ⟨b1, cK⟩ := res
        rw [hvk] at e
        obtain ⟨⟨cM, hfM, hK⟩, hgraph⟩ :=
          @visit_kind_spec τ NULL_TERM d tt h pf (visit NULL_TERM pf tt fuel) hnn hpf ih
            _ t b1 cK hg1 ok1 hvk
        have hcolK : cK.color = cM.color := by rcases hK with e | e <;> subst e <;> rfl
        have hgK : cK.color t = term_color_t.grey := by
          rw [hcolK, hfM.keep t (by rw [hg1]; decide)]
          exact hg1
        -- the graph of the state with `t` grey is the graph of `c`
        have hedge1 : ∀ a b, DepEdge NULL_TERM tt (set_term_color c t term_color_t.grey) a b →
            DepEdge NULL_TERM tt c a b := by
          intro a b e
          refine @depEdge_mono τ NULL_TERM tt c (set_term_color c t term_color_t.grey) ?_
            (fun x => Or.inl rfl) (fun _ _ => Iff.rfl) a b e
          intro u hu
          have hut : u ≠ t := by
            intro e1
            rw [e1, hc] at hu
            cases hu
          show upd c.color t term_color_t.grey u = _
          rw [upd_ne _ _ hut]
          exact hu
        have hpre : GreyPath NULL_TERM tt c t → BlackOk NULL_TERM tt c →
            StaticDag NULL_TERM tt h c →
            GreyPath NULL_TERM tt (set_term_color c t term_color_t.grey) t ∧
            BlackOk NULL_TERM tt (set_term_color c t term_color_t.grey) ∧
            StaticDag NULL_TERM tt h (set_term_color c t term_color_t.grey) := by
          intro hgp hb hd
          refine ⟨?_, ?_, ?_⟩
          · intro vg hvg
            by_cases e1 : vg = t
            · rw [e1]
            · have hvg0 : c.color vg = term_color_t.grey := by
                have : upd c.color t term_color_t.grey vg = term_color_t.grey := hvg
                rw [upd_ne _ _ e1] at this
                exact this
              refine Relation.ReflTransGen.mono (fun a b e => ?_) (hgp vg hvg0)
              refine @greyEdge_keep τ NULL_TERM tt c (set_term_color c t term_color_t.grey) ?_
                (fun _ _ => rfl) (fun _ _ => Iff.rfl) a b e
              intro u hu
              have hut : u ≠ t := by
                intro e2
                rw [e2, hc] at hu
                cases hu
              show upd c.color t term_color_t.grey u = _
              rw [upd_ne _ _ hut]
              exact hu
          · refine blackOk_mono hb ?_ hedge1 ?_
            · intro z hz
              by_cases e1 : z = t
              · rw [e1, hg1] at hz
                cases hz
              · have : upd c.color t term_color_t.grey z = term_color_t.black := hz
                rw [upd_ne _ _ e1] at this
                exact this
            · intro u hu
              have hut : u ≠ t := by
                intro e2
                rw [e2, hc] at hu
                rcases hu with hu | hu <;> cases hu
              show upd c.color t term_color_t.grey u = _ ∨ upd c.color t term_color_t.grey u = _
              rw [upd_ne _ _ hut]
              exact hu
          · refine staticDag_mono hd ?_ (fun _ _ => Iff.rfl)
            intro u hu
            have hut : u ≠ t := by
              intro e2
              rw [e2, hc] at hu
              cases hu
            show upd c.color t term_color_t.grey u = _
            rw [upd_ne _ _ hut]
            exact hu
        cases b1 with
        | true =>
          simp only [Option.some.injEq, Prod.mk.injEq] at e
          obtain ⟨e1, e2⟩ := e
          subst e1 e2
          refine ⟨visitFrame_close hc hfM hK (Or.inl rfl), fun e => Bool.noConfusion e, ?_, ?_⟩
          · intro _
            rw [hc]
            exact upd_same _ _ _
          · intro hgp hb hd
            obtain ⟨hgp1, hb1, hd1⟩ := hpre hgp hb hd
            obtain ⟨hbK, hrK, _, hpK⟩ := hgraph hgp1 hb1 hd1
            obtain ⟨vg, hvg, hne, hpath⟩ := hpK rfl
            have hedgeK : ∀ a b, DepEdge NULL_TERM tt (set_term_color cK t term_color_t.white) a b →
                DepEdge NULL_TERM tt cK a b := by
              intro a b e
              refine @depEdge_mono τ NULL_TERM tt cK (set_term_color cK t term_color_t.white) ?_
                (fun x => Or.inl rfl) (fun _ _ => Iff.rfl) a b e
              intro u hu
              have hut : u ≠ t := by
                intro e2
                rw [e2, hgK] at hu
                cases hu
              show upd cK.color t term_color_t.white u = _
              rw [upd_ne _ _ hut]
              exact hu
            refine ⟨?_, ?_, ?_⟩
            · refine blackOk_mono hbK ?_ hedgeK ?_
              · intro z hz
                by_cases e1 : z = t
                · have : upd cK.color t term_color_t.white z = term_color_t.black := hz
                  rw [e1, upd_same] at this
                  cases this
                · have : upd cK.color t term_color_t.white z = term_color_t.black := hz
                  rw [upd_ne _ _ e1] at this
                  exact this
              · intro u hu
                have hut : u ≠ t := by
                  intro e2
                  rw [e2, hgK] at hu
                  rcases hu with hu | hu <;> cases hu
                show upd cK.color t term_color_t.white u = _ ∨
                  upd cK.color t term_color_t.white u = _
                rw [upd_ne _ _ hut]
                exact hu
            · exact retractedOnCycle_congr hrK rfl hedge1 rfl
            · intro _
              refine ⟨vg, ?_, ?_⟩
              · have : upd c.color t term_color_t.grey vg = term_color_t.grey := hvg
                rw [upd_ne _ _ hne] at this
                exact this
              · refine Relation.ReflTransGen.mono (fun a b e => ?_) hpath
                refine @staticEdge_congr τ NULL_TERM tt (set_term_color cK t term_color_t.white)
                  cK ?_ (fun _ _ => Iff.rfl) a b e
                intro u hu
                have hut : u ≠ t := by
                  intro e2
                  have : upd cK.color t term_color_t.white u = term_color_t.assigned := hu
                  rw [e2, upd_same] at this
                  cases this
                have : upd cK.color t term_color_t.white u = term_color_t.assigned := hu
                rw [upd_ne _ _ hut] at this
                exact this
        | false =>
          simp only [Option.some.injEq, Prod.mk.injEq] at e
          obtain ⟨e1, e2⟩ := e
          subst e1 e2
          refine ⟨visitFrame_close hc hfM hK (Or.inr rfl), ?_, fun e => Bool.noConfusion e, ?_⟩
          · intro _
            exact Or.inl (upd_same _ _ _)
          · intro hgp hb hd
            obtain ⟨hgp1, hb1, hd1⟩ := hpre hgp hb hd
            obtain ⟨hbK, hrK, hsK, _⟩ := hgraph hgp1 hb1 hd1
            exact ⟨blackOk_set_black hbK hgK (hsK rfl),
              retractedOnCycle_congr hrK rfl hedge1 rfl, fun e => Bool.noConfusion e⟩
    | grey =>
      rw [hc] at e
      simp only [Option.some.injEq, Prod.mk.injEq] at e
      obtain ⟨e1, e2⟩ := e
      subst e1 e2
      exact ⟨visitFrame_refl ok, fun e => Bool.noConfusion e, fun _ => rfl,
        fun _ hb _ => ⟨hb, retractedOnCycle_refl rfl, fun _ => ⟨t, hc, Relation.ReflTransGen.refl⟩⟩⟩
    | black =>
      rw [hc] at e
      simp only [Option.some.injEq, Prod.mk.injEq] at e
      obtain ⟨e1, e2⟩ := e
      subst e1 e2
      exact ⟨visitFrame_refl ok, fun _ => Or.inl hc, fun e => Bool.noConfusion e,
        fun _ hb _ => ⟨hb, retractedOnCycle_refl rfl, fun e => Bool.noConfusion e⟩⟩
    | assigned =>
      rw [hc] at e
      simp only [Option.some.injEq, Prod.mk.injEq] at e
      obtain ⟨e1, e2⟩ := e
      subst e1 e2
      exact ⟨visitFrame_refl ok, fun _ => Or.inr hc, fun e => Bool.noConfusion e,
        fun _ hb _ => ⟨hb, retractedOnCycle_refl rfl, fun e => Bool.noConfusion e⟩⟩

theorem countP_lt_of_imp {p q : Nat → Bool} :
    ∀ l : List Nat, (∀ x ∈ l, p x = true → q x = true) →
      (∃ x ∈ l, q x = true ∧ p x = false) → l.countP p < l.countP q := by
  intro l
  induction l with
  | nil =>
    rintro _ ⟨x, hx, _⟩
    exact absurd hx (List.not_mem_nil x)
  | cons a l ih =>
    intro hpq hex
    have hle : l.countP p ≤ l.countP q :=
      List.countP_mono_left (fun x hx => hpq x (List.mem_cons_of_mem _ hx))
    rw [List.countP_cons, List.countP_cons]
    by_cases hpa : p a = true
    · have hqa := hpq a (List.mem_cons_self _ _) hpa
      have : l.countP p < l.countP q := by
        apply ih (fun x hx => hpq x (List.mem_cons_of_mem _ hx))
        obtain ⟨x, hx, h1, h2⟩ := hex
        rcases List.mem_cons.1 hx with e | e
        · subst e
          rw [hpa] at h2
          cases h2
        · exact ⟨x, e, h1, h2⟩
      simp only [hpa, hqa, if_true]
      omega
    · simp only [hpa]
      by_cases hqa : q a = true
      · simp only [hqa, if_true]
        simp
        omega
      · obtain ⟨x, hx, h1, h2⟩ := hex
        have : l.countP p < l.countP q := by
          apply ih (fun x hx => hpq x (List.mem_cons_of_mem _ hx))
          rcases List.mem_cons.1 hx with e | e
          · subst e
            exact absurd h1 hqa
          · exact ⟨x, e, h1, h2⟩
        simp only [hqa]
        simp
        omega

theorem white_count_le {τ : Type} (N : Nat) {c c1 : subst_ctx_t τ}
    (h : ∀ u, c1.color u = term_color_t.white → c.color u = term_color_t.white) :
    white_count N c1 ≤ white_count N c := by
  unfold white_count
  apply List.countP_mono_left
  intro x _ hx
  simp only [decide_eq_true_eq] at hx ⊢
  exact h _ hx

theorem white_count_lt {τ : Type} (N : Nat) {c c1 : subst_ctx_t τ} {t : Int}
    (h : ∀ u, c1.color u = term_color_t.white → c.color u = term_color_t.white)
    (ht : c.color t = term_color_t.white) (ht1 : c1.color t ≠ term_color_t.white)
    (ht0 : 0 ≤ t) (htN : t < (N : Int)) : white_count N c1 < white_count N c := by
  unfold white_count
  apply countP_lt_of_imp
  · intro x _ hx
    simp only [decide_eq_true_eq] at hx ⊢
    exact h _ hx
  · refine ⟨t.toNat, List.mem_range.2 (by omega), ?_, ?_⟩
    · simp only [decide_eq_true_eq]
      rw [Int.ofNat_eq_coe, Int.toNat_of_nonneg ht0]
      exact ht
    · simp only [decide_eq_false_iff_not]
      rw [Int.ofNat_eq_coe, Int.toNat_of_nonneg ht0]
      exact ht1

theorem white_count_le_bound {τ : Type} (N : Nat) (c : subst_ctx_t τ) : white_count N c ≤ N := by
  unfold white_count
  have := List.countP_le_length (fun i : Nat => decide (c.color (Int.ofNat i) = term_color_t.white))
    (l := List.range N)
  rw [List.length_range] at this
  exact this

theorem visitFrame_white {τ : Type} {NULL_TERM : Int} {d : Int → Nat} {c c1 : subst_ctx_t τ}
    (hf : VisitFrame NULL_TERM d c c1) {u : Int} (hu : c1.color u = term_color_t.white) :
    c.color u = term_color_t.white := by
  by_contra hw
  rw [hf.keep u hw] at hu
  exact hw hu

theorem small_frame {τ : Type} {NULL_TERM : Int} {d : Int → Nat} {N fuel : Nat}
    {c c1 : subst_ctx_t τ} (hf : VisitFrame NULL_TERM d c c1)
    (hs : Small NULL_TERM d N fuel c) : Small NULL_TERM d N fuel c1 :=
  ⟨hf.partok, fun t ht => hs.2.1 t (visitFrame_white hf ht),
    lt_of_le_of_lt (white_count_le N (fun _ hu => visitFrame_white hf hu)) hs.2.2⟩

theorem visit_array_returns {τ : Type} {NULL_TERM : Int} {d : Int → Nat} {tt : term_table_t}
    {N fuel : Nat} {v : subst_ctx_t τ → Int → Option (Bool × subst_ctx_t τ)}
    (Pv : ∀ c t b c1, v c t = some (b, c1) → PartOk NULL_TERM c.partition d →
      VisitSpec NULL_TERM d tt (fun _ => 0) c t b c1)
    (Rv : ∀ c t, Small NULL_TERM d N fuel c → ∃ r, v c t = some r) :
    ∀ (ts : List Int) (c : subst_ctx_t τ), Small NULL_TERM d N fuel c →
      ∃ r, visit_array v c ts = some r := by
  intro ts
  induction ts with
  | nil => exact fun c _ => ⟨(false, c), rfl⟩
  | cons t ts ih =>
    intro c hs
    obtain ⟨⟨b, c1⟩, e⟩ := Rv c t hs
    unfold visit_array
    rw [e]
    cases b with
    | true => exact ⟨_, rfl⟩
    | false => exact ih c1 (small_frame (Pv c t false c1 e hs.1).1 hs)

theorem visit_kind_returns {τ : Type} {NULL_TERM : Int} {d : Int → Nat} {tt : term_table_t}
    {N fuel pf : Nat} {v : subst_ctx_t τ → Int → Option (Bool × subst_ctx_t τ)}
    (hnn : ∀ t, tt.kind t = visit_kind_t.uninterpreted → 0 ≤ t) (hpf : ∀ t, d t < pf)
    (Pv : ∀ c t b c1, v c t = some (b, c1) → PartOk NULL_TERM c.partition d →
      VisitSpec NULL_TERM d tt (fun _ => 0) c t b c1)
    (Rv : ∀ c t, Small NULL_TERM d N fuel c → ∃ r, v c t = some r)
    (c : subst_ctx_t τ) (t : Int) (hs : Small NULL_TERM d N fuel c) :
    ∃ r, visit_kind NULL_TERM pf tt v c t = some r := by
  unfold visit_kind
  cases hk : tt.kind t with
  | leaf => exact ⟨_, rfl⟩
  | composite => exact visit_array_returns Pv Rv (tt.children t) c hs
  | uninterpreted =>
    simp only
    obtain ⟨r, c2, efr, _, hcol2, hsub2, _, ok2, hr2⟩ :=
      find_term_root_spec hs.1 (hnn t hk) pf (hpf t)
    have hs2 : Small NULL_TERM d N fuel c2 :=
      small_frame (visitFrame_of_eq hcol2 hsub2 ok2 hr2) hs
    rw [efr]
    simp only
    by_cases hrt : r ≠ t
    · rw [if_pos hrt]
      exact Rv c2 r hs2
    · rw [if_neg hrt]
      by_cases hc : subst_candidate NULL_TERM c2 t ≠ NULL_TERM
      · rw [if_pos hc]
        obtain ⟨⟨b, c3⟩, e⟩ := Rv c2 (subst_candidate NULL_TERM c2 t) hs2
        rw [e]
        cases b <;> exact ⟨_, rfl⟩
      · rw [if_neg hc]
        exact ⟨_, rfl⟩

/-- The call `visit(ctx, t)` returns: the recursion is no deeper than the
number of white terms. -/
theorem visit_returns {τ : Type} {NULL_TERM : Int} {d : Int → Nat} {tt : term_table_t}
    {N pf : Nat} (hnn : ∀ t, tt.kind t = visit_kind_t.uninterpreted → 0 ≤ t)
    (hpf : ∀ t, d t < pf) :
    ∀ (fuel : Nat) (c : subst_ctx_t τ) (t : Int), Small NULL_TERM d N fuel c →
      ∃ r, visit NULL_TERM pf tt fuel c t = some r := by
  intro fuel
  induction fuel with
  | zero =>
    intro c t hs
    exact absurd hs.2.2 (Nat.not_lt_zero _)
  | succ fuel ih =>
    intro c t hs
    rw [visit]
    cases hc : c.color t with
    | white =>
      simp only
      have hb := hs.2.1 t hc
      have hw : ∀ u, (set_term_color c t term_color_t.grey).color u = term_color_t.white →
          c.color u = term_color_t.white := by
        intro u hu
        have hu1 : upd c.color t term_color_t.grey u = term_color_t.white := hu
        by_cases e : u = t
        · rw [e, upd_same] at hu1
          cases hu1
        · rw [upd_ne _ _ e] at hu1
          exact hu1
      have hs1 : Small NULL_TERM d N fuel (set_term_color c t term_color_t.grey) := by
        refine ⟨hs.1, fun u hu => hs.2.1 u (hw u hu), ?_⟩
        have h1 : white_count N (set_term_color c t term_color_t.grey) < white_count N c := by
          refine white_count_lt N hw hc ?_ hb.1 hb.2
          show upd c.color t term_color_t.grey t ≠ term_color_t.white
          rw [upd_same]
          decide
        have h2 := hs.2.2
        omega
      obtain ⟨⟨b, cK⟩, e⟩ := visit_kind_returns hnn hpf
        (visit_spec hnn hpf fuel) ih (set_term_color c t term_color_t.grey) t hs1
      rw [e]
      cases b <;> exact ⟨_, rfl⟩
    | grey => exact ⟨_, rfl⟩
    | black => exact ⟨_, rfl⟩
    | assigned => exact ⟨_, rfl⟩

theorem acc_no_cycle {α : Type} {R : α → α → Prop} {t : α}
    (h : Acc (fun a b => R b a) t) : ¬ Relation.TransGen R t t := by
  induction h with
  | intro x _ ih =>
    intro hc
    obtain ⟨y, hxy, hyx⟩ := Relation.TransGen.head'_iff.1 hc
    exact ih y hxy (Relation.TransGen.tail' hyx hxy)

theorem visitFrame_unassigned {τ : Type} {NULL_TERM : Int} {d : Int → Nat} {tt : term_table_t}
    {c c1 : subst_ctx_t τ} (hf : VisitFrame NULL_TERM d c c1) (t : Int) :
    is_unassigned_var tt c1 t = is_unassigned_var tt c t := by
  unfold is_unassigned_var
  have := visitFrame_assigned hf t
  by_cases h : c.color t = term_color_t.assigned
  · simp [h, this.2 h]
  · have h1 : ¬ c1.color t = term_color_t.assigned := fun e => h (this.1 e)
    simp [h, h1]

theorem visitFrame_cycle_start {τ : Type} {NULL_TERM : Int} {d : Int → Nat} {tt : term_table_t}
    {c c1 : subst_ctx_t τ} (hf : VisitFrame NULL_TERM d c c1) (x y : Int) :
    cycle_start tt c1 x y = cycle_start tt c x y := by
  unfold cycle_start
  rw [visitFrame_unassigned hf]

theorem visitFrame_noGrey {τ : Type} {NULL_TERM : Int} {d : Int → Nat} {c c1 : subst_ctx_t τ}
    (hf : VisitFrame NULL_TERM d c c1) (hg : NoGrey c) : NoGrey c1 :=
  fun u hu => hg u (visitFrame_grey hf hu)

/-- A call `check_subst_cycle(ctx, x, y, e)` between two calls of `visit`: it
returns, and the root of the explored variable is black afterwards. -/
theorem check_subst_cycle_spec {τ : Type} {NULL_TERM : Int} {d : Int → Nat}
    {tt : term_table_t} {h : Int → Nat} {N pf fuel : Nat}
    (hnn : ∀ t, tt.kind t = visit_kind_t.uninterpreted → 0 ≤ t) (hpf : ∀ t, d t < pf)
    {c : subst_ctx_t τ} (x y e : Int) (hs : Small NULL_TERM d N fuel c) (hg : NoGrey c)
    (hb : BlackOk NULL_TERM tt c) (hd : StaticDag NULL_TERM tt h c)
    (hx : is_unassigned_var tt c (cycle_start tt c x y) = true) :
    ∃ c1, check_subst_cycle NULL_TERM pf fuel tt c x y e = some c1 ∧
      VisitFrame NULL_TERM d c c1 ∧ NoGrey c1 ∧ BlackOk NULL_TERM tt c1 ∧
      RetractedOnCycle NULL_TERM tt c c1 ∧
      ∀ r, TermRoot NULL_TERM c (cycle_start tt c x y) r →
        c1.color r = term_color_t.black ∨ c1.color r = term_color_t.assigned := by
  have hx1 : tt.kind (cycle_start tt c x y) = visit_kind_t.uninterpreted ∧
      c.color (cycle_start tt c x y) ≠ term_color_t.assigned := by
    unfold is_unassigned_var at hx
    simpa using hx
  obtain ⟨hk, hna⟩ := hx1
  have h0 := hnn _ hk
  -- the exploration of the variable when it is white
  have step1 : ∃ c1, (if c.color (cycle_start tt c x y) = term_color_t.white then
        (visit NULL_TERM pf tt fuel c (cycle_start tt c x y)).map (fun r => r.2)
      else some c) = some c1 ∧
      VisitFrame NULL_TERM d c c1 ∧ BlackOk NULL_TERM tt c1 ∧
      RetractedOnCycle NULL_TERM tt c c1 ∧
      c1.color (cycle_start tt c x y) = term_color_t.black := by
    by_cases hw : c.color (cycle_start tt c x y) = term_color_t.white
    · rw [if_pos hw]
      obtain ⟨⟨b, c1⟩, ev⟩ := visit_returns hnn hpf fuel c (cycle_start tt c x y) hs
      obtain ⟨hf, hfalse, _, hgraph⟩ :=
        @visit_spec τ NULL_TERM d tt h pf hnn hpf fuel c _ b c1 ev hs.1
      obtain ⟨hb1, hr1, hp1⟩ := hgraph (fun v hv => absurd hv (hg v)) hb hd
      have hbf : b = false := by
        cases b with
        | false => rfl
        | true =>
          obtain ⟨v, hv, _⟩ := hp1 rfl
          exact absurd hv (hg v)
      refine ⟨c1, by rw [ev]; rfl, hf, hb1, hr1, ?_⟩
      rcases hfalse hbf with e1 | e1
      · exact e1
      · exact absurd ((visitFrame_assigned hf _).1 e1) hna
    · rw [if_neg hw]
      refine ⟨c, rfl, visitFrame_refl hs.1, hb, retractedOnCycle_refl rfl, ?_⟩
      have hng := hg (cycle_start tt c x y)
      revert hw hna hng
      cases c.color (cycle_start tt c x y) <;> simp
  obtain ⟨c1, e1, hf1, hb1, hr1, hblack⟩ := step1
  obtain ⟨r, c2, efr, hroot, hcol2, hsub2, _, ok2, hr2⟩ :=
    find_term_root_spec hf1.partok h0 pf (hpf _)
  have hf12 : VisitFrame NULL_TERM d c1 c2 := visitFrame_of_eq hcol2 hsub2 ok2 hr2
  have hres : ∀ c3 : subst_ctx_t τ, c3.color = c2.color → c3.pseudo_subst = c2.pseudo_subst →
      c3.partition = c2.partition →
      VisitFrame NULL_TERM d c c3 ∧ NoGrey c3 ∧ BlackOk NULL_TERM tt c3 ∧
      RetractedOnCycle NULL_TERM tt c c3 ∧
      ∀ r, TermRoot NULL_TERM c (cycle_start tt c x y) r →
        c3.color r = term_color_t.black ∨ c3.color r = term_color_t.assigned := by
    intro c3 h1 h2 h3
    have hr3 : ∀ u ru, TermRoot NULL_TERM c3 u ru ↔ TermRoot NULL_TERM c2 u ru := by
      intro u ru
      unfold TermRoot
      rw [h3]
    have hf23 : VisitFrame NULL_TERM d c2 c3 :=
      visitFrame_of_eq h1 h2 (by rw [h3]; exact ok2) hr3
    have hf13 := visitFrame_trans hf12 hf23
    have hf03 := visitFrame_trans hf1 hf13
    have hc13 : c3.color = c1.color := by rw [h1, hcol2]
    refine ⟨hf03, visitFrame_noGrey hf03 hg, visitFrame_black hf13 hc13 hb1, ?_, ?_⟩
    · exact retractedOnCycle_congr hr1 rfl (fun _ _ e => e) (by rw [h2, hsub2])
    · intro r1 hr1
      have hroot1 : TermRoot NULL_TERM c1 (cycle_start tt c x y) r1 := (hf1.roots _ _).2 hr1
      rw [hc13]
      by_cases e2 : r1 = cycle_start tt c x y
      · rw [e2]
        exact Or.inl hblack
      · exact (hb1 _ hblack).2 r1
          (Or.inl ⟨by rw [hblack]; decide, Or.inr ⟨hk, hroot1, e2⟩⟩)
  unfold check_subst_cycle
  simp only
  show ∃ c4, (match (if c.color (cycle_start tt c x y) = term_color_t.white then
        (visit NULL_TERM pf tt fuel c (cycle_start tt c x y)).map (fun r => r.2)
      else some c) with
    | none => none
    | some c1 =>
      match find_term_root NULL_TERM pf c1 (cycle_start tt c x y) with
      | none => none
      | some (r, c2) =>
        if c2.pseudo_subst r = some NULL_TERM then some { c2 with top_eqs := c2.top_eqs ++ [e] }
        else some c2) = some c4 ∧ _
  rw [e1]
  simp only
  rw [efr]
  simp only
  by_cases hp : c2.pseudo_subst r = some NULL_TERM
  · rw [if_pos hp]
    exact ⟨_, rfl, hres _ rfl rfl rfl⟩
  · rw [if_neg hp]
    exact ⟨_, rfl, hres _ rfl rfl rfl⟩

/-- The loop of `remove_subst_cycles` over the equalities. -/
theorem remove_subst_cycles_loop {τ : Type} {NULL_TERM : Int} {d : Int → Nat}
    {tt : term_table_t} {h : Int → Nat} {N pf fuel : Nat}
    (hnn : ∀ t, tt.kind t = visit_kind_t.uninterpreted → 0 ≤ t) (hpf : ∀ t, d t < pf) :
    ∀ (eqs : List (Int × Int × Int)) (c : subst_ctx_t τ), Small NULL_TERM d N fuel c →
      NoGrey c → BlackOk NULL_TERM tt c → StaticDag NULL_TERM tt h c →
      (∀ q ∈ eqs, is_unassigned_var tt c (cycle_start tt c q.1 q.2.1) = true) →
      ∃ c1, remove_subst_cycles NULL_TERM pf fuel tt c eqs = some c1 ∧
        VisitFrame NULL_TERM d c c1 ∧ NoGrey c1 ∧ BlackOk NULL_TERM tt c1 ∧
        RetractedOnCycle NULL_TERM tt c c1 ∧
        ∀ q ∈ eqs, ∀ r, TermRoot NULL_TERM c (cycle_start tt c q.1 q.2.1) r →
          c1.color r = term_color_t.black ∨ c1.color r = term_color_t.assigned := by
  intro eqs
  induction eqs with
  | nil =>
    intro c hs hg hb _ _
    exact ⟨c, rfl, visitFrame_refl hs.1, hg, hb, retractedOnCycle_refl rfl,
      fun q hq => absurd hq (List.not_mem_nil q)⟩
  | cons q eqs ih =>
    intro c hs hg hb hd hv
    obtain ⟨x, y, e⟩ := q
    obtain ⟨c1, e1, hf1, hg1, hb1, hr1, hroot1⟩ :=
      check_subst_cycle_spec hnn hpf x y e hs hg hb hd (hv (x, y, e) (List.mem_cons_self _ _))
    have hv1 : ∀ q ∈ eqs, is_unassigned_var tt c1 (cycle_start tt c1 q.1 q.2.1) = true := by
      intro q hq
      rw [visitFrame_cycle_start hf1, visitFrame_unassigned hf1]
      exact hv q (List.mem_cons_of_mem _ hq)
    obtain ⟨c2, e2, hf2, hg2, hb2, hr2, hroot2⟩ :=
      ih c1 (small_frame hf1 hs) hg1 hb1 (visitFrame_staticDag hf1 hd) hv1
    refine ⟨c2, ?_, visitFrame_trans hf1 hf2, hg2, hb2,
      retractedOnCycle_trans hr1 hr2 (fun a b e => visitFrame_edge hf1 e), ?_⟩
    · rw [remove_subst_cycles, e1]
      exact e2
    · intro q hq r hr
      rcases List.mem_cons.1 hq with e3 | e3
      · subst e3
        exact visitFrame_done hf2 (hroot1 r hr)
      · refine hroot2 q e3 r ?_
        rw [visitFrame_cycle_start hf1]
        exact (hf1.roots _ _).2 hr

/-- C29: `remove_subst_cycles` on a dependency graph whose child edges and
partition edges make a finite DAG, with the colours reset (every term is white
or has an internal code) and equalities whose unassigned variables include a
member of every class that has a substitution candidate: the call returns; in
the final state the graph of the child edges, the partition edges and the
substitutions still present has no cycle, and walking its edges from any term
terminates; a substitution that was retracted lay on a cycle of the graph of a
state `cm` of the visit, whose edges are edges of the starting graph and where
the substitution is still present; the other substitutions and the roots are
unchanged. -/
theorem remove_subst_cycles_spec {τ : Type} (NULL_TERM : Int) (tt : term_table_t)
    (h d : Int → Nat) (N pf fuel : Nat) (c : subst_ctx_t τ) (eqs : List (Int × Int × Int))
    (hnn : ∀ t, tt.kind t = visit_kind_t.uninterpreted → 0 ≤ t)
    (ok : PartOk NULL_TERM c.partition d) (hpf : ∀ t, d t < pf)
    (hdag : StaticDag NULL_TERM tt h c)
    (hcol : ∀ t, c.color t = term_color_t.white ∨ c.color t = term_color_t.assigned)
    (hfin : WhiteBound N c) (hfuel : N < fuel)
    (hvars : ∀ q ∈ eqs, is_unassigned_var tt c (cycle_start tt c q.1 q.2.1) = true)
    (hcover : ∀ x u, SubstEdge NULL_TERM tt c x u →
      ∃ q ∈ eqs, TermRoot NULL_TERM c (cycle_start tt c q.1 q.2.1) x) :
    ∃ c1, remove_subst_cycles NULL_TERM pf fuel tt c eqs = some c1 ∧
      (∀ t, ¬ Relation.TransGen (DepEdge NULL_TERM tt c1) t t) ∧
      WellFounded (fun a b => DepEdge NULL_TERM tt c1 b a) ∧
      RetractedOnCycle NULL_TERM tt c c1 ∧
      (∀ x, c1.pseudo_subst x = c.pseudo_subst x ∨ c1.pseudo_subst x = some NULL_TERM) ∧
      (∀ t r, TermRoot NULL_TERM c1 t r ↔ TermRoot NULL_TERM c t r) := by
  have hs : Small NULL_TERM d N fuel c :=
    ⟨ok, hfin, lt_of_le_of_lt (white_count_le_bound N c) hfuel⟩
  have hg : NoGrey c := by
    intro u hu
    rcases hcol u with e | e <;> rw [e] at hu <;> cases hu
  have hb : BlackOk NULL_TERM tt c := by
    intro u hu
    rcases hcol u with e | e <;> rw [e] at hu <;> cases hu
  obtain ⟨c1, e1, hf, _, hb1, hr1, hroot⟩ := remove_subst_cycles_loop hnn hpf eqs c hs hg hb hdag hvars
  have hd1 := visitFrame_staticDag hf hdag
  -- the source of a substitution edge of the final graph is black
  have hsrc : ∀ x u, SubstEdge NULL_TERM tt c1 x u → c1.color x = term_color_t.black := by
    intro x u hxu
    have hxu0 : SubstEdge NULL_TERM tt c x u := by
      obtain ⟨h1, h2, h3, h4, h5⟩ := hxu
      refine ⟨fun e => h1 ((visitFrame_assigned hf x).2 e), h2, (hf.roots x x).1 h3, ?_, h5⟩
      rcases hf.subst_removed x with e | e
      · unfold subst_candidate at h4 ⊢
        rw [← e]
        exact h4
      · exfalso
        unfold subst_candidate at h4
        rw [e] at h4
        exact h5 h4.symm
    obtain ⟨q, hq, hqr⟩ := hcover x u hxu0
    rcases hroot q hq x hqr with e | e
    · exact e
    · exact absurd e hxu.1
  have hacc : ∀ n t, h t < n → Acc (fun a b => DepEdge NULL_TERM tt c1 b a) t := by
    intro n
    induction n with
    | zero => exact fun t ht => absurd ht (Nat.not_lt_zero _)
    | succ n ih =>
      intro t ht
      by_cases hsub : ∃ u, SubstEdge NULL_TERM tt c1 t u
      · obtain ⟨u, hu⟩ := hsub
        exact (hb1 t (hsrc t u hu)).1
      · refine Acc.intro t (fun u hu => ?_)
        rcases hu with hu | hu
        · have := hd1 t u hu
          exact ih u (by omega)
        · exact absurd ⟨u, hu⟩ hsub
  have hwf : ∀ t, Acc (fun a b => DepEdge NULL_TERM tt c1 b a) t :=
    fun t => hacc (h t + 1) t (Nat.lt_succ_self _)
  exact ⟨c1, e1, fun t => acc_no_cycle (hwf t), ⟨hwf⟩, hr1, hf.subst_removed, hf.roots⟩

theorem sample_term_table_kind (t : Int)
    (h : sample_term_table.kind t = visit_kind_t.uninterpreted) : t = 0 ∨ t = 1 ∨ t = 4 := by
  by_contra hn
  have : sample_term_table.kind t =
      if t = 2 ∨ t = 3 then visit_kind_t.composite else visit_kind_t.leaf := if_neg hn
  rw [this] at h
  split at h <;> cases h

theorem sample_term_table_composite (t : Int)
    (h : sample_term_table.kind t = visit_kind_t.composite) : t = 2 ∨ t = 3 := by
  by_contra hn
  have h1 : sample_term_table.kind t =
      if t = 0 ∨ t = 1 ∨ t = 4 then visit_kind_t.uninterpreted
      else if t = 2 ∨ t = 3 then visit_kind_t.composite
      else visit_kind_t.leaf := rfl
  rw [h1] at h
  split at h <;> cases h

theorem partOk_sample_subst :
    PartOk sample_null sample_subst_ctx.partition sample_class_height :=
  ⟨by decide, by decide, by decide, by decide⟩

theorem sample_root_0 : TermRoot sample_null sample_subst_ctx 0 0 :=
  Or.inl ⟨by unfold Added; decide, RootOf.base (by decide)⟩

theorem sample_root_1 : TermRoot sample_null sample_subst_ctx 1 1 :=
  Or.inr ⟨by unfold Added; decide, rfl⟩

theorem sample_root_4 : TermRoot sample_null sample_subst_ctx 4 0 :=
  Or.inl ⟨by unfold Added; decide, RootOf.step (by decide) (RootOf.base (by decide))⟩

theorem staticDag_sample :
    StaticDag sample_null sample_term_table sample_term_height sample_subst_ctx := by
  rintro a b ⟨_, ⟨hk, hb⟩ | ⟨hk, hr, hne⟩⟩
  · rcases sample_term_table_composite a hk with e | e
    · subst e
      have : b = 1 := by simpa [sample_term_table] using hb
      subst this
      decide
    · subst e
      have : b = 0 := by simpa [sample_term_table] using hb
      subst this
      decide
  · rcases sample_term_table_kind a hk with e | e | e
    · subst e
      exact absurd (termRoot_unique hr sample_root_0) hne
    · subst e
      exact absurd (termRoot_unique hr sample_root_1) hne
    · subst e
      have := termRoot_unique hr sample_root_4
      subst this
      decide

theorem sample_subst_cover (x u : Int)
    (hxu : SubstEdge sample_null sample_term_table sample_subst_ctx x u) :
    ∃ q ∈ sample_subst_eqs,
      TermRoot sample_null sample_subst_ctx
        (cycle_start sample_term_table sample_subst_ctx q.1 q.2.1) x := by
  obtain ⟨_, hk, _, hc, hne⟩ := hxu
  rcases sample_term_table_kind x hk with e | e | e
  · subst e
    exact ⟨(4, 2, 100), by decide, sample_root_4⟩
  · subst e
    exact ⟨(1, 3, 101), by decide, sample_root_1⟩
  · subst e
    exact absurd hc.symm hne

theorem sample_subst_colors (t : Int) :
    sample_subst_ctx.color t = term_color_t.white ∨
    sample_subst_ctx.color t = term_color_t.assigned := by
  show (if 0 ≤ t ∧ t < 5 then term_color_t.white else term_color_t.assigned) = _ ∨
    (if 0 ≤ t ∧ t < 5 then term_color_t.white else term_color_t.assigned) = _
  split
  · exact Or.inl rfl
  · exact Or.inr rfl

theorem sample_subst_bound : WhiteBound 5 sample_subst_ctx := by
  intro t ht
  have h1 : (if 0 ≤ t ∧ t < 5 then term_color_t.white else term_color_t.assigned) =
      term_color_t.white := ht
  by_contra hn
  have : ¬ (0 ≤ t ∧ t < 5) := fun h => hn ⟨h.1, by omega⟩
  rw [if_neg this] at h1
  cases h1

theorem remove_subst_cycles_spec_witness :
    (remove_subst_cycles sample_null 2 6 sample_term_table sample_subst_ctx
        sample_subst_eqs).map
      (fun c => (c.pseudo_subst 0, c.pseudo_subst 1, c.top_eqs, c.color 3))
      = some (some 2, some sample_null, [101], term_color_t.white) ∧
    ∃ c1, remove_subst_cycles sample_null 2 6 sample_term_table sample_subst_ctx
        sample_subst_eqs = some c1 ∧
      (∀ t, ¬ Relation.TransGen (DepEdge sample_null sample_term_table c1) t t) ∧
      WellFounded (fun a b => DepEdge sample_null sample_term_table c1 b a) ∧
      RetractedOnCycle sample_null sample_term_table sample_subst_ctx c1 ∧
      (∀ x, c1.pseudo_subst x = sample_subst_ctx.pseudo_subst x ∨
        c1.pseudo_subst x = some sample_null) ∧
      (∀ t r, TermRoot sample_null c1 t r ↔ TermRoot sample_null sample_subst_ctx t r) :=
  ⟨by decide,
    remove_subst_cycles_spec sample_null sample_term_table sample_term_height
      sample_class_height 5 2 6 sample_subst_ctx sample_subst_eqs
      (fun t ht => by rcases sample_term_table_kind t ht with e | e | e <;> subst e <;> decide)
      partOk_sample_subst (fun t => by unfold sample_class_height; split <;> decide)
      staticDag_sample sample_subst_colors sample_subst_bound (by decide) (by decide)
      sample_subst_cover⟩

/-! ## Naive bit counting (src/tests/test_bit_tricks.c) -/

theorem bit_count_succ (w x : Nat) : bit_count (w + 1) x = x % 2 + bit_count w (x / 2) := by
  unfold bit_count
  rw [List.range_succ_eq_map, List.filter_cons, List.filter_map]
  have e : ((fun i => x.testBit i) ∘ Nat.succ) = (fun i => (x / 2).testBit i) := by
    funext i; simp [Nat.testBit_succ]
  rw [e]
  rcases Nat.mod_two_eq_zero_or_one x with h | h
  · simp [Nat.testBit_zero, h]
  · simp [Nat.testBit_zero, h]; omega

theorem bit_count_zero (w : Nat) : bit_count w 0 = 0 := by
  unfold bit_count; simp

theorem and_pred_even (y : Nat) (hy : 0 < y) :
    (2 * y) &&& (2 * y - 1) = 2 * (y &&& (y - 1)) := by
  have e1 : 2 * y = Nat.bit false y := by simp [Nat.bit_val]
  have e2 : 2 * y - 1 = Nat.bit true (y - 1) := by simp [Nat.bit_val]; omega
  rw [e2]
  nth_rewrite 1 [e1]
  rw [Nat.land_bit]; simp [Nat.bit_val]

theorem and_pred_odd (y : Nat) : (2 * y + 1) &&& (2 * y + 1 - 1) = 2 * y := by
  have e1 : 2 * y + 1 = Nat.bit true y := by simp [Nat.bit_val]
  have e2 : 2 * y + 1 - 1 = Nat.bit false y := by simp [Nat.bit_val]
  rw [e2]
  nth_rewrite 1 [e1]
  rw [Nat.land_bit]; simp [Nat.bit_val]

theorem bit_count_and_pred (w : Nat) : ∀ x, 0 < x → x < 2 ^ w →
    bit_count w (x &&& (x - 1)) + 1 = bit_count w x := by
  induction w with
  | zero => intro x h0 h1; simp at h1; omega
  | succ w ih =>
    intro x h0 h1
    rw [bit_count_succ, bit_count_succ]
    rcases Nat.mod_two_eq_zero_or_one x with h | h
    · obtain ⟨y, rfl⟩ : ∃ y, x = 2 * y := ⟨x / 2, by omega⟩
      have hy : 0 < y := by omega
      have hy2 : y < 2 ^ w := by rw [pow_succ] at h1; omega
      rw [and_pred_even y hy]
      have := ih y hy hy2
      simp only [Nat.mul_mod_right, Nat.mul_div_cancel_left _ (by decide : 0 < 2)]
      omega
    · obtain ⟨y, rfl⟩ : ∃ y, x = 2 * y + 1 := ⟨x / 2, by omega⟩
      rw [and_pred_odd y]
      have e : (2 * y + 1) / 2 = y := by omega
      have e2 : (2 * y + 1) % 2 = 1 := by omega
      simp only [Nat.mul_mod_right, Nat.mul_div_cancel_left _ (by decide : 0 < 2), e, e2]
      omega

theorem bit_count_le (w x : Nat) : bit_count w x ≤ w := by
  unfold bit_count
  calc ((List.range w).filter (fun i => x.testBit i)).length
      ≤ (List.range w).length := List.length_filter_le _ _
    _ = w := List.length_range w

theorem naive_popcount_loop_spec (w : Nat) : ∀ fuel x c, x < 2 ^ w →
    bit_count w x < fuel → c + bit_count w x < 2 ^ 32 →
    naive_popcount_loop w fuel x c = some (c + bit_count w x) := by
  intro fuel
  induction fuel with
  | zero => intro x c _ h; omega
  | succ fuel ih =>
    intro x c hx hf hc
    unfold naive_popcount_loop
    by_cases h0 : x = 0
    · subst h0; simp [bit_count_zero]
    · have hpos : 0 < x := Nat.pos_of_ne_zero h0
      have e : (x + 2 ^ w - 1) % 2 ^ w = x - 1 := by
        have : x + 2 ^ w - 1 = (x - 1) + 2 ^ w := by omega
        rw [this, Nat.add_mod_right, Nat.mod_eq_of_lt (by omega)]
      have hb := bit_count_and_pred w x hpos hx
      have hlt : x &&& (x - 1) < 2 ^ w := lt_of_le_of_lt Nat.and_le_left hx
      rw [if_pos h0, e, Nat.mod_eq_of_lt (by omega), ih _ _ hlt (by omega) (by omega)]
      congr 1; omega

theorem bit_count_two_pow : ∀ i w, i < w → bit_count w (2 ^ i) = 1 := by
  intro i
  induction i with
  | zero =>
    intro w h
    obtain ⟨w, rfl⟩ : ∃ v, w = v + 1 := ⟨w - 1, by omega⟩
    rw [bit_count_succ]; simp [bit_count_zero]
  | succ i ih =>
    intro w h
    obtain ⟨w, rfl⟩ : ∃ v, w = v + 1 := ⟨w - 1, by omega⟩
    rw [bit_count_succ]
    have e1 : 2 ^ (i + 1) % 2 = 0 := by rw [pow_succ]; omega
    have e2 : 2 ^ (i + 1) / 2 = 2 ^ i := by rw [pow_succ]; omega
    rw [e1, e2, ih w (by omega)]

theorem bit_count_two_pow_pred : ∀ i w, i ≤ w → bit_count w (2 ^ i - 1) = i := by
  intro i
  induction i with
  | zero => intro w _; simp [bit_count_zero]
  | succ i ih =>
    intro w h
    obtain ⟨w, rfl⟩ : ∃ v, w = v + 1 := ⟨w - 1, by omega⟩
    rw [bit_count_succ]
    have hp : 0 < 2 ^ i := Nat.two_pow_pos _
    have e1 : (2 ^ (i + 1) - 1) % 2 = 1 := by rw [pow_succ]; omega
    have e2 : (2 ^ (i + 1) - 1) / 2 = 2 ^ i - 1 := by rw [pow_succ]; omega
    rw [e1, e2, ih w (by omega)]; omega

theorem exists_lowest_set_bit (w : Nat) : ∀ x, 0 < x → x < 2 ^ w →
    ∃ i, i < w ∧ LowestSetBit x i := by
  induction w with
  | zero => intro x h0 h1; simp at h1; omega
  | succ w ih =>
    intro x h0 h1
    rcases Nat.mod_two_eq_zero_or_one x with h | h
    · obtain ⟨i, hi, hb, hl⟩ := ih (x / 2) (by omega) (by rw [pow_succ] at h1; omega)
      refine ⟨i + 1, by omega, ?_, ?_⟩
      · rw [Nat.testBit_succ]; exact hb
      · intro j hj
        cases j with
        | zero => simp [Nat.testBit_zero, h]
        | succ j => rw [Nat.testBit_succ]; exact hl j (by omega)
    · exact ⟨0, by omega, by simp [Nat.testBit_zero, h], by intro j hj; omega⟩

theorem naive_ctz_loop_spec (x i : Nat) (hi : i < 32) (hb : LowestSetBit x i) :
    ∀ d k fuel, k + d = i → d < fuel →
      naive_ctz_loop x fuel (2 ^ k) k = some i := by
  intro d
  induction d with
  | zero =>
    intro k fuel hk hf
    obtain ⟨fuel, rfl⟩ : ∃ g, fuel = g + 1 := ⟨fuel - 1, by omega⟩
    have e : k = i := by omega
    subst e
    unfold naive_ctz_loop
    have hp : 0 < 2 ^ k := Nat.two_pow_pos _
    rw [Nat.and_two_pow, hb.1, if_neg (by simp)]
  | succ d ih =>
    intro k fuel hk hf
    obtain ⟨fuel, rfl⟩ : ∃ g, fuel = g + 1 := ⟨fuel - 1, by omega⟩
    unfold naive_ctz_loop
    have hz : x.testBit k = false := hb.2 k (by omega)
    have hk32 : k + 1 < 32 := by omega
    have hlt : 2 ^ (k + 1) < 2 ^ 32 := Nat.pow_lt_pow_right (by decide) hk32
    have e1 : (2 ^ k <<< 1) % 2 ^ 32 = 2 ^ (k + 1) := by
      rw [Nat.shiftLeft_eq, pow_one, ← pow_succ, Nat.mod_eq_of_lt hlt]
    rw [Nat.and_two_pow, hz, if_pos (by simp), e1, Nat.mod_eq_of_lt (by omega)]
    exact ih (k + 1) fuel (by omega) (by omega)

theorem lowestSetBit_two_pow (i : Nat) : LowestSetBit (2 ^ i) i := by
  refine ⟨by simp [Nat.testBit_two_pow], ?_⟩
  intro j hj
  rw [Nat.testBit_two_pow]; simp; omega

/-- C36: with any fuel above the word size, `naive_popcount32` and
`naive_popcount64` return the number of 1 bits of their argument (so a power of
two gives 1 and `2^i - 1` gives `i`), and `naive_ctz` returns the index of the
lowest set bit of a non-zero 32-bit argument (so `2^i` gives `i`). -/
theorem naive_bit_tricks_spec (fuel : Nat) :
    (∀ x, x < 2 ^ 32 → 32 < fuel → naive_popcount32 fuel x = some (bit_count 32 x)) ∧
    (∀ x, x < 2 ^ 64 → 64 < fuel → naive_popcount64 fuel x = some (bit_count 64 x)) ∧
    (∀ i, i < 32 → 32 < fuel → naive_popcount32 fuel (2 ^ i) = some 1 ∧
      naive_popcount32 fuel (2 ^ i - 1) = some i) ∧
    (∀ x, x ≠ 0 → x < 2 ^ 32 → 32 < fuel →
      ∃ i, naive_ctz fuel x = some i ∧ i < 32 ∧ LowestSetBit x i) ∧
    (∀ i, i < 32 → 32 < fuel → naive_ctz fuel (2 ^ i) = some i) := by
  have pc32 : ∀ x, x < 2 ^ 32 → 32 < fuel → naive_popcount32 fuel x = some (bit_count 32 x) := by
    intro x hx hf
    have hb := bit_count_le 32 x
    have := naive_popcount_loop_spec 32 fuel x 0 hx (by omega) (by omega)
    simpa [naive_popcount32] using this
  have ctz : ∀ x i, i < 32 → LowestSetBit x i → 32 < fuel → naive_ctz fuel x = some i := by
    intro x i hi hb hf
    have := naive_ctz_loop_spec x i hi hb i 0 fuel (by omega) (by omega)
    simpa [naive_ctz] using this
  refine ⟨pc32, ?_, ?_, ?_, ?_⟩
  · intro x hx hf
    have hb := bit_count_le 64 x
    have := naive_popcount_loop_spec 64 fuel x 0 hx (by omega) (by omega)
    simpa [naive_popcount64] using this
  · intro i hi hf
    have h1 : 2 ^ i < 2 ^ 32 := Nat.pow_lt_pow_right (by decide) hi
    have hp : 0 < 2 ^ i := Nat.two_pow_pos _
    refine ⟨?_, ?_⟩
    · rw [pc32 _ h1 hf, bit_count_two_pow i 32 hi]
    · rw [pc32 _ (by omega) hf, bit_count_two_pow_pred i 32 (by omega)]
  · intro x h0 hx hf
    obtain ⟨i, hi, hb⟩ := exists_lowest_set_bit 32 x (Nat.pos_of_ne_zero h0) hx
    exact ⟨i, ctz x i hi hb hf, hi, hb⟩
  · intro i hi hf
    exact ctz _ i hi (lowestSetBit_two_pow i) hf

/-- Witness for C36 at `x = 12` (two bits set, lowest set bit 2) and `i = 5`. -/
theorem naive_bit_tricks_spec_witness :
    naive_popcount32 65 12 = some (bit_count 32 12) ∧
    naive_popcount64 65 12 = some (bit_count 64 12) ∧
    (naive_popcount32 65 (2 ^ 5) = some 1 ∧ naive_popcount32 65 (2 ^ 5 - 1) = some 5) ∧
    (∃ i, naive_ctz 65 12 = some i ∧ i < 32 ∧ LowestSetBit 12 i) ∧
    naive_ctz 65 (2 ^ 5) = some 5 :=
  ⟨(naive_bit_tricks_spec 65).1 12 (by decide) (by decide),
   (naive_bit_tricks_spec 65).2.1 12 (by decide) (by decide),
   (naive_bit_tricks_spec 65).2.2.1 5 (by decide) (by decide),
   (naive_bit_tricks_spec 65).2.2.2.1 12 (by decide) (by decide) (by decide),
   (naive_bit_tricks_spec 65).2.2.2.2 5 (by decide) (by decide)⟩

/-! ## Random selection of a variable -/

/-- C38: on a core with `nvars = 3` where variable 2 is assigned and variable 1
is not, with `random_uint(3) = 2` and `random_uint(2) = 0` (increment 1),
`select_random_bvar` reads `value[pos_lit(3)]` and returns 3, which is not a
variable of the core. -/
theorem select_random_bvar_reads_past_nvars :
    sample_random_core.nvars = 3 ∧
    sample_random_core.value (pos_lit 1) = VAL_UNDEF ∧
    all_variables_assigned sample_random_core = false ∧
    select_random_bvar sample_random_core 2 0 10 = some (3, [2, 3]) := by
  refine ⟨by decide, by decide, by decide, by decide⟩

/-! ## Hash tables of non-negative integers (int_hash_tables.c) -/

theorem mask_of_pow (p : Nat) (hp : p ≤ 31) : mask_of (2 ^ p) = 2 ^ p - 1 := by
  unfold mask_of
  have h1 : 1 ≤ 2 ^ p := Nat.one_le_two_pow
  have h2 : 2 ^ p ≤ 2 ^ 31 := Nat.pow_le_pow_right (by norm_num) hp
  have h3 : (2 : Nat) ^ 32 = 4294967296 := by norm_num
  have h4 : (2 : Nat) ^ 31 = 2147483648 := by norm_num
  rw [h3]; rw [h4] at h2
  omega

theorem and_mask_of_pow (p : Nat) (hp : p ≤ 31) (k : Nat) :
    k &&& mask_of (2 ^ p) = k % 2 ^ p := by
  rw [mask_of_pow p hp]
  exact Nat.and_pow_two_sub_one_eq_mod k p

theorem next_slot_pow (p : Nat) (hp : p ≤ 31) (j : Nat) (hj : j < 2 ^ p) :
    next_slot (mask_of (2 ^ p)) j = (j + 1) % 2 ^ p := by
  unfold next_slot
  rw [and_mask_of_pow p hp]
  have h2 : 2 ^ p ≤ 2 ^ 31 := Nat.pow_le_pow_right (by norm_num) hp
  have h3 : (2 : Nat) ^ 32 = 4294967296 := by norm_num
  have h4 : (2 : Nat) ^ 31 = 2147483648 := by norm_num
  rw [h4] at h2
  have h5 : (j + 1) % 2 ^ 32 = j + 1 := by
    rw [h3]
    exact Nat.mod_eq_of_lt (by omega)
  rw [h5]

theorem probe_loop_first (stop : Nat → Bool) (p : Nat) (hp : p ≤ 31) :
    ∀ (m fuel j : Nat), j < 2 ^ p → m < fuel →
      stop ((j + m) % 2 ^ p) = true →
      (∀ i, i < m → stop ((j + i) % 2 ^ p) = false) →
      probe_loop stop (mask_of (2 ^ p)) fuel j = some ((j + m) % 2 ^ p) := by
  intro m
  induction m with
  | zero =>
    intro fuel j hj hf hs _
    obtain ⟨f, rfl⟩ : ∃ f, fuel = f + 1 := ⟨fuel - 1, by omega⟩
    have e : (j + 0) % 2 ^ p = j := Nat.mod_eq_of_lt hj
    rw [e] at hs
    rw [e, probe_loop, if_pos hs]
  | succ m ih =>
    intro fuel j hj hf hs hmin
    obtain ⟨f, rfl⟩ : ∃ f, fuel = f + 1 := ⟨fuel - 1, by omega⟩
    have h0 : stop j = false := by
      have := hmin 0 (by omega)
      have e : (j + 0) % 2 ^ p = j := Nat.mod_eq_of_lt hj
      rwa [e] at this
    have hmod : ∀ i, ((j + 1) % 2 ^ p + i) % 2 ^ p = (j + (i + 1)) % 2 ^ p := by
      intro i
      rw [Nat.add_mod, Nat.mod_mod, ← Nat.add_mod]
      congr 1
      omega
    rw [probe_loop, h0, next_slot_pow p hp j hj]
    simp only [Bool.false_eq_true, if_false]
    rw [ih f ((j + 1) % 2 ^ p) (Nat.mod_lt _ (Nat.two_pow_pos p)) (by omega)
      (by rw [hmod]; exact hs) (fun i hi => by rw [hmod]; exact hmin (i + 1) (by omega))]
    rw [hmod]

theorem slot_reached (n j s : Nat) (hj : j < n) (hs : s < n) :
    (s + n - j) % n < n ∧ (j + (s + n - j) % n) % n = s := by
  have hn : 0 < n := by omega
  refine ⟨Nat.mod_lt _ hn, ?_⟩
  by_cases h : j ≤ s
  · have : (s + n - j) % n = s - j := by
      have : s + n - j = (s - j) + n := by omega
      rw [this, Nat.add_mod_right, Nat.mod_eq_of_lt (by omega)]
    rw [this, show j + (s - j) = s by omega, Nat.mod_eq_of_lt hs]
  · have : (s + n - j) % n = s + n - j := Nat.mod_eq_of_lt (by omega)
    rw [this, show j + (s + n - j) = s + n by omega, Nat.add_mod_right, Nat.mod_eq_of_lt hs]

theorem probe_loop_exists (stop : Nat → Bool) (p : Nat) (hp : p ≤ 31) (fuel j : Nat)
    (hj : j < 2 ^ p) (hf : 2 ^ p ≤ fuel) (hex : ∃ s, s < 2 ^ p ∧ stop s = true) :
    ∃ m, m < 2 ^ p ∧ probe_loop stop (mask_of (2 ^ p)) fuel j = some ((j + m) % 2 ^ p) ∧
      stop ((j + m) % 2 ^ p) = true ∧ ∀ i, i < m → stop ((j + i) % 2 ^ p) = false := by
  obtain ⟨s, hs, hss⟩ := hex
  have hr := slot_reached (2 ^ p) j s hj hs
  have hex2 : ∃ i, i < 2 ^ p ∧ stop ((j + i) % 2 ^ p) = true :=
    ⟨_, hr.1, by rw [hr.2]; exact hss⟩
  classical
  let m := Nat.find hex2
  have hm : m < 2 ^ p ∧ stop ((j + m) % 2 ^ p) = true := Nat.find_spec hex2
  have hmin : ∀ i, i < m → stop ((j + i) % 2 ^ p) = false := by
    intro i hi
    have := Nat.find_min hex2 hi
    by_contra hc
    exact this ⟨by omega, by simpa using hc⟩
  exact ⟨m, hm.1, probe_loop_first stop p hp m fuel j hj (by omega) hm.2 hmin, hm.2, hmin⟩

theorem countP_range_cover (f g : Nat → Bool) :
    ∀ n, (∀ j, j < n → f j = true ∨ g j = true) →
      n ≤ (List.range n).countP f + (List.range n).countP g := by
  intro n
  induction n with
  | zero => intro _; simp
  | succ n ih =>
    intro h
    have := ih (fun j hj => h j (by omega))
    rw [List.range_succ, List.countP_append, List.countP_append]
    simp only [List.countP_cons, List.countP_nil]
    rcases h n (by omega) with h1 | h1
    · rw [h1]; simp; omega
    · rw [h1]; simp; omega

theorem countP_range_congr (f g : Nat → Bool) :
    ∀ n, (∀ j, j < n → f j = g j) → (List.range n).countP f = (List.range n).countP g := by
  intro n h
  apply List.countP_congr
  intro x hx
  rw [h x (List.mem_range.mp hx)]

theorem countP_range_update (f g : Nat → Bool) (r : Nat) :
    ∀ n, r < n → (∀ j, j < n → j ≠ r → f j = g j) →
      (List.range n).countP g + (if f r then 1 else 0) =
        (List.range n).countP f + (if g r then 1 else 0) := by
  intro n
  induction n with
  | zero => intro h; omega
  | succ n ih =>
    intro hr h
    rw [List.range_succ, List.countP_append, List.countP_append]
    simp only [List.countP_cons, List.countP_nil]
    by_cases hrn : r = n
    · subst hrn
      have := countP_range_congr f g r (fun j hj => h j (by omega) (by omega))
      rw [this]
      simp only [Nat.zero_add]
      omega
    · have h1 := ih (by omega) (fun j hj hne => h j (by omega) hne)
      have h2 := h n (by omega) (fun e => hrn e.symm)
      rw [h2]
      omega

theorem find_loop_eq_probe (t : int_htbl_t) (o : int_hobj_t) (mask k : Nat) :
    ∀ fuel j, int_htbl_find_loop t o mask k fuel j =
      (probe_loop (find_stop t o k) mask fuel j).map (fun s => (t.records s).value) := by
  intro fuel
  induction fuel with
  | zero => intro j; rfl
  | succ f ih =>
    intro j
    rw [int_htbl_find_loop, probe_loop]
    by_cases h : (0 ≤ (t.records j).value ∧ (t.records j).key = k ∧
        o.eq (t.records j).value = true) ∨ (t.records j).value = NULL_VALUE
    · rw [if_pos h, if_pos (by unfold find_stop; exact decide_eq_true h)]
      rfl
    · rw [if_neg h, if_neg (by unfold find_stop; simpa using h)]
      exact ih _

theorem null_slot_exists (rec : Nat → int_hrec_t) (n : Nat)
    (hv : ∀ j, j < n → 0 ≤ (rec j).value ∨ (rec j).value = NULL_VALUE ∨
      (rec j).value = DELETED_VALUE)
    (hc : (List.range n).countP (fun j => decide (0 ≤ (rec j).value)) +
      (List.range n).countP (fun j => decide ((rec j).value = DELETED_VALUE)) < n) :
    ∃ s, s < n ∧ (rec s).value = NULL_VALUE := by
  by_contra hno
  have := countP_range_cover (fun j => decide (0 ≤ (rec j).value))
    (fun j => decide ((rec j).value = DELETED_VALUE)) n (by
      intro j hj
      rcases hv j hj with h | h | h
      · exact Or.inl (decide_eq_true h)
      · exact absurd ⟨j, hj, h⟩ hno
      · exact Or.inr (decide_eq_true h))
  omega

theorem htbl_null_slot (t : int_htbl_t) (inv : HtblInv t) :
    ∃ s, s < t.size ∧ (t.records s).value = NULL_VALUE := by
  apply null_slot_exists t.records t.size inv.base.vals
  have h1 := inv.base.nelems_eq
  have h2 := inv.base.ndeleted_eq
  have h3 := inv.room
  unfold live_count at h1
  unfold deleted_count at h2
  omega

theorem NULL_VALUE_neg : ¬ (0 ≤ NULL_VALUE) := by decide

theorem DELETED_VALUE_neg : ¬ (0 ≤ DELETED_VALUE) := by decide

theorem mod_add_mod_pow (k n i : Nat) : (k % n + i) % n = (k + i) % n := by
  rw [Nat.add_mod, Nat.mod_mod, ← Nat.add_mod]

/-- Position of the first exit of the loop of `int_htbl_find_obj`. -/
theorem find_probe (t : int_htbl_t) (o : int_hobj_t) (inv : HtblInv t) (fuel : Nat)
    (hf : t.size ≤ fuel) :
    ∃ m, m < t.size ∧
      int_htbl_find_obj fuel t o = some (t.records ((o.hash + m) % t.size)).value ∧
      find_stop t o o.hash ((o.hash + m) % t.size) = true ∧
      ∀ i, i < m → find_stop t o o.hash ((o.hash + i) % t.size) = false := by
  obtain ⟨p, hp, hsz⟩ := inv.base.size_pow
  obtain ⟨s, hs, hnull⟩ := htbl_null_slot t inv
  have hpos : 0 < 2 ^ p := Nat.two_pow_pos p
  rw [hsz] at hs hf
  obtain ⟨m, hm, hpr, hst, hmin⟩ := probe_loop_exists (find_stop t o o.hash) p hp fuel
    (o.hash % 2 ^ p) (Nat.mod_lt _ hpos) hf
    ⟨s, hs, by unfold find_stop; exact decide_eq_true (Or.inr hnull)⟩
  rw [mod_add_mod_pow] at hpr hst
  refine ⟨m, by rw [hsz]; exact hm, ?_, by rw [hsz]; exact hst, ?_⟩
  · unfold int_htbl_find_obj
    rw [find_loop_eq_probe, hsz, and_mask_of_pow p hp, hpr]
    rfl
  · intro i hi
    have := hmin i hi
    rw [mod_add_mod_pow] at this
    rw [hsz]; exact this

theorem find_obj_spec (t : int_htbl_t) (o : int_hobj_t) (inv : HtblInv t) (fuel : Nat)
    (hf : t.size ≤ fuel) :
    ∃ r, int_htbl_find_obj fuel t o = some r ∧
      ((0 ≤ r ∧ Live t o.hash r ∧ o.eq r = true) ∨
       (r = NULL_VALUE ∧ ∀ v, Live t o.hash v → o.eq v = false)) := by
  obtain ⟨m, hm, hfind, hst, hmin⟩ := find_probe t o inv fuel hf
  refine ⟨_, hfind, ?_⟩
  have hst2 := of_decide_eq_true hst
  have hslot : (o.hash + m) % t.size < t.size := Nat.mod_lt _ (by omega)
  rcases hst2 with h | h
  · exact Or.inl ⟨h.1, ⟨_, hslot, h.1, h.2.1, rfl⟩, h.2.2⟩
  · refine Or.inr ⟨h, ?_⟩
    intro v hl
    obtain ⟨j, hj, hv, hk, hjv⟩ := hl
    by_contra he
    have he2 : o.eq v = true := by simpa using he
    obtain ⟨d, hd, hpath⟩ := inv.base.chain j hj (by rw [hjv]; exact hv)
    rw [hk] at hd hpath
    have hstd : find_stop t o o.hash ((o.hash + d) % t.size) = true := by
      unfold find_stop
      rw [hd]
      exact decide_eq_true (Or.inl ⟨by rw [hjv]; exact hv, hk, by rw [hjv]; exact he2⟩)
    rcases Nat.lt_trichotomy m d with h1 | h1 | h1
    · exact hpath m h1 h
    · rw [h1, hd, hjv] at h
      rw [h] at hv
      exact NULL_VALUE_neg hv
    · have := hmin d h1
      rw [hstd] at this
      cases this

theorem live_findable (t : int_htbl_t) (inv : HtblInv t) (fuel : Nat) (hf : t.size ≤ fuel)
    (k : Nat) (v : Int) (hl : Live t k v) : Findable fuel t k v := by
  intro o hk he hu
  obtain ⟨r, hfind, hr⟩ := find_obj_spec t o inv fuel hf
  rw [hfind]
  rcases hr with ⟨_, hlr, her⟩ | ⟨_, hno⟩
  · rw [hk] at hlr
    rw [hu r hlr her]
  · have := hno v (by rw [hk]; exact hl)
    rw [he] at this
    cases this

theorem value_updN_ne_null (rec : Nat → int_hrec_t) (r k : Nat) (v : Int) (hv : 0 ≤ v)
    (s : Nat) (h : (rec s).value ≠ NULL_VALUE) :
    (updN rec r { key := k, value := v } s).value ≠ NULL_VALUE := by
  unfold updN
  split
  · intro e
    have e2 : v = NULL_VALUE := e
    rw [e2] at hv
    exact NULL_VALUE_neg hv
  · exact h

theorem chain_update (rec : Nat → int_hrec_t) (n r k : Nat) (v : Int) (hc : Chain rec n)
    (hv : 0 ≤ v)
    (hpath : ∃ d, (k + d) % n = r ∧ ∀ i, i < d → (rec ((k + i) % n)).value ≠ NULL_VALUE) :
    Chain (updN rec r { key := k, value := v }) n := by
  intro j hj hlive
  by_cases hjr : j = r
  · subst hjr
    have e : updN rec j { key := k, value := v } j = { key := k, value := v } := by
      unfold updN; rw [if_pos rfl]
    rw [e]
    obtain ⟨d, hd, hp⟩ := hpath
    exact ⟨d, hd, fun i hi => value_updN_ne_null rec j k v hv _ (hp i hi)⟩
  · have e : updN rec r { key := k, value := v } j = rec j := by
      unfold updN; rw [if_neg hjr]
    rw [e] at hlive ⊢
    obtain ⟨d, hd, hp⟩ := hc j hj hlive
    exact ⟨d, hd, fun i hi => value_updN_ne_null rec r k v hv _ (hp i hi)⟩

theorem chain_delete (rec : Nat → int_hrec_t) (n r k : Nat) (hc : Chain rec n) :
    Chain (updN rec r { key := k, value := DELETED_VALUE }) n := by
  intro j hj hlive
  by_cases hjr : j = r
  · subst hjr
    have e : updN rec j { key := k, value := DELETED_VALUE } j =
        { key := k, value := DELETED_VALUE } := by
      unfold updN; rw [if_pos rfl]
    rw [e] at hlive
    exact absurd hlive DELETED_VALUE_neg
  · have e : updN rec r { key := k, value := DELETED_VALUE } j = rec j := by
      unfold updN; rw [if_neg hjr]
    rw [e] at hlive ⊢
    obtain ⟨d, hd, hp⟩ := hc j hj hlive
    refine ⟨d, hd, fun i hi => ?_⟩
    unfold updN
    split
    · intro e2
      have e3 : DELETED_VALUE = NULL_VALUE := e2
      revert e3
      decide
    · exact hp i hi

theorem copy_record_eq_probe (k : Nat) (v : Int) (mask : Nat) :
    ∀ fuel (tmp : Nat → int_hrec_t) j, int_htbl_copy_record k v mask fuel tmp j =
      (probe_loop (fun s => decide ((tmp s).value = NULL_VALUE)) mask fuel j).map
        (fun s => updN tmp s { key := k, value := v }) := by
  intro fuel
  induction fuel with
  | zero => intro tmp j; rfl
  | succ f ih =>
    intro tmp j
    rw [int_htbl_copy_record, probe_loop]
    by_cases h : (tmp j).value = NULL_VALUE
    · rw [if_pos h, if_pos (decide_eq_true h)]
      rfl
    · rw [if_neg h, if_neg (by simpa using h)]
      exact ih tmp _

theorem copy_record_spec (p : Nat) (hp : p ≤ 31) (tmp : Nat → int_hrec_t) (k : Nat) (v : Int)
    (fuel : Nat) (hf : 2 ^ p ≤ fuel)
    (hnull : ∃ s, s < 2 ^ p ∧ (tmp s).value = NULL_VALUE) :
    ∃ r, r < 2 ^ p ∧ (tmp r).value = NULL_VALUE ∧
      (∃ d, (k + d) % 2 ^ p = r ∧
        ∀ i, i < d → (tmp ((k + i) % 2 ^ p)).value ≠ NULL_VALUE) ∧
      int_htbl_copy_record k v (mask_of (2 ^ p)) fuel tmp (k &&& mask_of (2 ^ p)) =
        some (updN tmp r { key := k, value := v }) := by
  obtain ⟨s, hs, hsn⟩ := hnull
  have hpos : 0 < 2 ^ p := Nat.two_pow_pos p
  obtain ⟨m, hm, hpr, hst, hmin⟩ := probe_loop_exists
    (fun s => decide ((tmp s).value = NULL_VALUE)) p hp fuel (k % 2 ^ p) (Nat.mod_lt _ hpos) hf
    ⟨s, hs, decide_eq_true hsn⟩
  rw [mod_add_mod_pow] at hpr hst
  refine ⟨(k + m) % 2 ^ p, Nat.mod_lt _ hpos, of_decide_eq_true hst, ⟨m, rfl, ?_⟩, ?_⟩
  · intro i hi
    have := hmin i hi
    rw [mod_add_mod_pow] at this
    simpa using this
  · rw [copy_record_eq_probe, and_mask_of_pow p hp, hpr]
    rfl

theorem live_in_updN_new (rec : Nat → int_hrec_t) (n r k : Nat) (v : Int) (hr : r < n)
    (hv : 0 ≤ v) (hold : ¬ 0 ≤ (rec r).value) :
    live_in (updN rec r { key := k, value := v }) n = live_in rec n + 1 := by
  have := countP_range_update (fun j => decide (0 ≤ (rec j).value))
    (fun j => decide (0 ≤ (updN rec r { key := k, value := v } j).value)) r n hr
    (by intro j _ hne; unfold updN; simp only [if_neg hne])
  have e1 : decide (0 ≤ (rec r).value) = false := decide_eq_false hold
  have e2 : decide (0 ≤ (updN rec r { key := k, value := v } r).value) = true := by
    unfold updN; rw [if_pos rfl]; exact decide_eq_true hv
  simp only [e1, e2] at this
  unfold live_in
  simpa using this

theorem null_slot_of_live_in (tmp : Nat → int_hrec_t) (n : Nat)
    (ha : ∀ s, s < n → 0 ≤ (tmp s).value ∨ (tmp s).value = NULL_VALUE)
    (hc : live_in tmp n < n) : ∃ s, s < n ∧ (tmp s).value = NULL_VALUE := by
  by_contra hno
  have := countP_range_cover (fun j => decide (0 ≤ (tmp j).value)) (fun _ => false) n (by
    intro j hj
    rcases ha j hj with h | h
    · exact Or.inl (decide_eq_true h)
    · exact absurd ⟨j, hj, h⟩ hno)
  have h0 : (List.range n).countP (fun _ => false) = 0 := by simp
  unfold live_in at hc
  omega

theorem copy_loop_spec (old : Nat → int_hrec_t) (n p : Nat) (hp : p ≤ 31) (fuel : Nat)
    (hf : 2 ^ p ≤ fuel)
    (hdist : ∀ i j, i < n → j < n → 0 ≤ (old i).value → (old i).value = (old j).value → i = j) :
    ∀ (js : List Nat) (tmp : Nat → int_hrec_t), js.Nodup → (∀ j, j ∈ js → j < n) →
      (∀ s, s < 2 ^ p → 0 ≤ (tmp s).value ∨ (tmp s).value = NULL_VALUE) →
      Chain tmp (2 ^ p) →
      (∀ s, s < 2 ^ p → 0 ≤ (tmp s).value →
        ∃ j, j < n ∧ j ∉ js ∧ 0 ≤ (old j).value ∧ tmp s = old j) →
      (∀ s1 s2, s1 < 2 ^ p → s2 < 2 ^ p → 0 ≤ (tmp s1).value →
        (tmp s1).value = (tmp s2).value → s1 = s2) →
      live_in tmp (2 ^ p) + js.countP (fun j => decide (0 ≤ (old j).value)) < 2 ^ p →
      ∃ tmp1, int_htbl_copy_loop old (mask_of (2 ^ p)) fuel js tmp = some tmp1 ∧
        (∀ s, s < 2 ^ p → 0 ≤ (tmp1 s).value ∨ (tmp1 s).value = NULL_VALUE) ∧
        Chain tmp1 (2 ^ p) ∧
        (∀ s, s < 2 ^ p → 0 ≤ (tmp1 s).value → ∃ j, j < n ∧ 0 ≤ (old j).value ∧ tmp1 s = old j) ∧
        (∀ s1 s2, s1 < 2 ^ p → s2 < 2 ^ p → 0 ≤ (tmp1 s1).value →
          (tmp1 s1).value = (tmp1 s2).value → s1 = s2) ∧
        (∀ j, j ∈ js → 0 ≤ (old j).value → ∃ s, s < 2 ^ p ∧ tmp1 s = old j) ∧
        (∀ s, s < 2 ^ p → 0 ≤ (tmp s).value → tmp1 s = tmp s) ∧
        live_in tmp1 (2 ^ p) =
          live_in tmp (2 ^ p) + js.countP (fun j => decide (0 ≤ (old j).value)) := by
  intro js
  induction js with
  | nil =>
    intro tmp _ _ ha hb hc hd _
    refine ⟨tmp, rfl, ha, hb, ?_, hd, ?_, fun _ _ _ => rfl, by simp⟩
    · intro s hs hl
      obtain ⟨j, hj, _, h1, h2⟩ := hc s hs hl
      exact ⟨j, hj, h1, h2⟩
    · intro j hj
      cases hj
  | cons j js ih =>
    intro tmp hnd hlt ha hb hc hd hroom
    have hnd2 : js.Nodup := (List.nodup_cons.mp hnd).2
    have hjn : j ∉ js := (List.nodup_cons.mp hnd).1
    have hlt2 : ∀ j1, j1 ∈ js → j1 < n := fun j1 h => hlt j1 (List.mem_cons_of_mem _ h)
    rw [int_htbl_copy_loop]
    by_cases hlive : 0 ≤ (old j).value
    · rw [if_pos hlive]
      have hcnt : (j :: js).countP (fun j => decide (0 ≤ (old j).value)) =
          js.countP (fun j => decide (0 ≤ (old j).value)) + 1 := by
        rw [List.countP_cons_of_pos]
        exact decide_eq_true hlive
      rw [hcnt] at hroom
      obtain ⟨r, hr, hrn, hpath, hcopy⟩ := copy_record_spec p hp tmp (old j).key (old j).value
        fuel hf (null_slot_of_live_in tmp (2 ^ p) ha (by omega))
      rw [hcopy]
      dsimp only
      have hrec : ({ key := (old j).key, value := (old j).value } : int_hrec_t) = old j := rfl
      have hnl : ¬ 0 ≤ (tmp r).value := by rw [hrn]; exact NULL_VALUE_neg
      have hup_r : updN tmp r { key := (old j).key, value := (old j).value } r = old j := by
        unfold updN; rw [if_pos rfl]
      have hup_ne : ∀ s, s ≠ r →
          updN tmp r { key := (old j).key, value := (old j).value } s = tmp s := by
        intro s hs; unfold updN; rw [if_neg hs]
      have hfresh : ∀ s, s < 2 ^ p → 0 ≤ (tmp s).value → (tmp s).value ≠ (old j).value := by
        intro s hs hl e
        obtain ⟨j2, hj2, hnot, hl2, he2⟩ := hc s hs hl
        rw [he2] at e
        have := hdist j2 j hj2 (hlt j (List.mem_cons_self _ _)) hl2 e
        exact hnot (by rw [this]; exact List.mem_cons_self _ _)
      obtain ⟨tmp1, h1, h2, h3, h4, h5, h6, h7, h8⟩ :=
        ih (updN tmp r { key := (old j).key, value := (old j).value }) hnd2 hlt2
          (by
            intro s hs
            by_cases e : s = r
            · rw [e, hup_r]; exact Or.inl hlive
            · rw [hup_ne s e]; exact ha s hs)
          (chain_update tmp (2 ^ p) r _ _ hb hlive hpath)
          (by
            intro s hs hl
            by_cases e : s = r
            · rw [e, hup_r]
              exact ⟨j, hlt j (List.mem_cons_self _ _), hjn, hlive, rfl⟩
            · rw [hup_ne s e] at hl ⊢
              obtain ⟨j2, hj2, hnot, hl2, he2⟩ := hc s hs hl
              exact ⟨j2, hj2, fun hin => hnot (List.mem_cons_of_mem _ hin), hl2, he2⟩)
          (by
            intro s1 s2 hs1 hs2 hl he
            by_cases e1 : s1 = r
            · by_cases e2 : s2 = r
              · rw [e1, e2]
              · rw [e1, hup_r, hup_ne s2 e2] at he
                have hl2 : 0 ≤ (tmp s2).value := by rw [← he]; exact hlive
                exact absurd he.symm (hfresh s2 hs2 hl2)
            · by_cases e2 : s2 = r
              · rw [hup_ne s1 e1] at hl he
                rw [e2, hup_r] at he
                exact absurd he (hfresh s1 hs1 hl)
              · rw [hup_ne s1 e1] at hl he
                rw [hup_ne s2 e2] at he
                exact hd s1 s2 hs1 hs2 hl he)
          (by rw [live_in_updN_new tmp (2 ^ p) r _ _ hr hlive hnl]; omega)
      refine ⟨tmp1, h1, h2, h3, h4, h5, ?_, ?_, ?_⟩
      · intro j1 hj1 hl1
        rcases List.mem_cons.mp hj1 with e | e
        · refine ⟨r, hr, ?_⟩
          rw [e, h7 r hr (by rw [hup_r]; exact hlive), hup_r]
        · exact h6 j1 e hl1
      · intro s hs hl
        have e : s ≠ r := fun e => hnl (by rw [← e]; exact hl)
        rw [h7 s hs (by rw [hup_ne s e]; exact hl), hup_ne s e]
      · rw [h8, live_in_updN_new tmp (2 ^ p) r _ _ hr hlive hnl, hcnt]
        omega
    · rw [if_neg hlive]
      have hcnt : (j :: js).countP (fun j => decide (0 ≤ (old j).value)) =
          js.countP (fun j => decide (0 ≤ (old j).value)) := by
        rw [List.countP_cons_of_neg]
        simpa using hlive
      rw [hcnt] at hroom ⊢
      obtain ⟨tmp1, h1, h2, h3, h4, h5, h6, h7, h8⟩ := ih tmp hnd2 hlt2 ha hb
        (by
          intro s hs hl
          obtain ⟨j2, hj2, hnot, hl2, he2⟩ := hc s hs hl
          exact ⟨j2, hj2, fun hin => hnot (List.mem_cons_of_mem _ hin), hl2, he2⟩)
        hd hroom
      refine ⟨tmp1, h1, h2, h3, h4, h5, ?_, h7, h8⟩
      intro j1 hj1 hl1
      rcases List.mem_cons.mp hj1 with e | e
      · rw [e] at hl1; exact absurd hl1 hlive
      · exact h6 j1 e hl1

theorem live_in_null (n : Nat) : live_in null_records n = 0 := by
  unfold live_in
  rw [List.countP_eq_zero]
  intro j _
  simp [null_records, NULL_VALUE]

theorem rebuild_spec (t1 : int_htbl_t) (hb : HtblBase t1) (q : Nat) (hq : q ≤ 31)
    (hroom : t1.nelems < 2 ^ q) (fuel : Nat) (hf : 2 ^ q ≤ fuel) :
    ∃ tmp, int_htbl_copy_loop t1.records (mask_of (2 ^ q)) fuel (List.range t1.size)
        null_records = some tmp ∧
      (∀ t2 : int_htbl_t, t2.records = tmp → t2.size = 2 ^ q → t2.nelems = t1.nelems → t2.ndeleted = 0 →
        HtblBase t2 ∧ ∀ k v, Live t2 k v ↔ Live t1 k v) := by
  have hcount : (List.range t1.size).countP (fun j => decide (0 ≤ (t1.records j).value))
      = t1.nelems := by
    rw [hb.nelems_eq]; rfl
  obtain ⟨tmp, h1, h2, h3, h4, h5, h6, _, h8⟩ := copy_loop_spec t1.records t1.size q hq fuel hf
    hb.distinct (List.range t1.size) null_records (List.nodup_range _)
    (fun j hj => List.mem_range.mp hj)
    (fun _ _ => Or.inr rfl)
    (fun j _ hl => absurd hl NULL_VALUE_neg)
    (fun s _ hl => absurd hl NULL_VALUE_neg)
    (fun s1 _ _ _ hl _ => absurd hl NULL_VALUE_neg)
    (by rw [live_in_null, hcount]; omega)
  refine ⟨tmp, h1, ?_⟩
  intro t2 e1 e2 e3 e4
  refine ⟨⟨⟨q, hq, e2⟩, ?_, ?_, ?_, ?_, ?_⟩, ?_⟩
  · intro j hj
    rw [e1]
    rw [e2] at hj
    rcases h2 j hj with h | h
    · exact Or.inl h
    · exact Or.inr (Or.inl h)
  · have : live_count t2 = live_in tmp (2 ^ q) := by
      unfold live_count live_in
      rw [e1, e2]
    rw [this, h8, live_in_null, hcount, e3]
    omega
  · rw [e4]
    symm
    unfold deleted_count
    rw [List.countP_eq_zero]
    intro j hj
    have hj2 : j < 2 ^ q := by rw [← e2]; exact List.mem_range.mp hj
    rw [e1]
    rcases h2 j hj2 with h | h
    · intro hd
      have hd2 := of_decide_eq_true hd
      rw [hd2] at h
      exact DELETED_VALUE_neg h
    · rw [h]; decide
  · intro i j hi hj
    rw [e1]
    rw [e2] at hi hj
    exact h5 i j hi hj
  · rw [e1, e2]; exact h3
  · intro k v
    constructor
    · rintro ⟨s, hs, hv, hk, hvv⟩
      rw [e1] at hk hvv
      rw [e2] at hs
      obtain ⟨j, hj, _, he⟩ := h4 s hs (by rw [hvv]; exact hv)
      exact ⟨j, hj, hv, by rw [← he]; exact hk, by rw [← he]; exact hvv⟩
    · rintro ⟨j, hj, hv, hk, hvv⟩
      obtain ⟨s, hs, he⟩ := h6 j (List.mem_range.mpr hj) (by rw [hvv]; exact hv)
      exact ⟨s, by rw [e2]; exact hs, hv, by rw [e1, he]; exact hk, by rw [e1, he]; exact hvv⟩

theorem cleanup_spec (t1 : int_htbl_t) (hb : HtblBase t1) (hroom : t1.nelems < t1.size)
    (hres : t1.resize_threshold < t1.size) (fuel : Nat) (hf : t1.size ≤ fuel) :
    ∃ t2, int_htbl_cleanup fuel t1 = some t2 ∧ HtblInv t2 ∧ t2.size = t1.size ∧
      ∀ k v, Live t2 k v ↔ Live t1 k v := by
  obtain ⟨q, hq, hsz⟩ := hb.size_pow
  unfold int_htbl_cleanup
  have hroom2 := hroom
  rw [hsz] at hroom2 hf
  obtain ⟨tmp, hcopy, hrest⟩ := rebuild_spec t1 hb q hq hroom2 fuel hf
  rw [show mask_of t1.size = mask_of (2 ^ q) by rw [hsz], hcopy]
  obtain ⟨hb2, hl2⟩ := hrest { t1 with records := tmp, ndeleted := 0 } rfl hsz rfl rfl
  refine ⟨_, rfl, ⟨hb2, ?_, hres⟩, rfl, hl2⟩
  show t1.nelems + 0 < t1.size
  omega

theorem shift_left_one (n : Nat) (h : 2 * n < 2 ^ 32) : (n <<< 1) % 2 ^ 32 = 2 * n := by
  rw [Nat.shiftLeft_eq, Nat.pow_one, Nat.mod_eq_of_lt (by omega)]
  omega

theorem extend_spec (C : int_htbl_consts) (t1 : int_htbl_t) (hb : HtblBase t1)
    (hC1 : ∀ n, 0 < n → C.resize n < n) (hC2 : C.MAX_HTBL_SIZE ≤ 2 ^ 32)
    (hsz : 2 * t1.size < C.MAX_HTBL_SIZE) (fuel : Nat) (hf : 2 * t1.size ≤ fuel) :
    ∃ t2, int_htbl_extend C fuel t1 = some t2 ∧ HtblInv t2 ∧ t2.size = 2 * t1.size ∧
      ∀ k v, Live t2 k v ↔ Live t1 k v := by
  obtain ⟨q, hq, hs⟩ := hb.size_pow
  have hpos : 0 < 2 ^ q := Nat.two_pow_pos q
  have h2 : 2 * t1.size = 2 ^ (q + 1) := by rw [hs, Nat.pow_succ]; omega
  have hq1 : q + 1 ≤ 31 := by
    by_contra hc
    have : 2 ^ 32 ≤ 2 ^ (q + 1) := Nat.pow_le_pow_right (by norm_num) (by omega)
    omega
  have hle : t1.nelems ≤ t1.size := by
    rw [hb.nelems_eq]
    unfold live_count
    exact (List.countP_le_length _).trans (by rw [List.length_range])
  unfold int_htbl_extend
  dsimp only
  rw [shift_left_one t1.size (by omega), if_neg (by omega), h2]
  obtain ⟨tmp, hcopy, hrest⟩ := rebuild_spec t1 hb (q + 1) hq1 (by omega) fuel (by omega)
  rw [hcopy]
  obtain ⟨hb2, hl2⟩ := hrest
    { t1 with records := tmp, ndeleted := 0, size := 2 ^ (q + 1),
              resize_threshold := C.resize (2 ^ (q + 1)),
              cleanup_threshold := C.cleanup (2 ^ (q + 1)) } rfl rfl rfl rfl
  refine ⟨_, rfl, ⟨hb2, ?_, hC1 _ (Nat.two_pow_pos _)⟩, rfl, hl2⟩
  show t1.nelems + 0 < 2 ^ (q + 1)
  omega

theorem size_le_pow31 (t : int_htbl_t) (hb : HtblBase t) : t.size ≤ 2147483648 := by
  obtain ⟨p, hp, hs⟩ := hb.size_pow
  have h2 : 2 ^ p ≤ 2 ^ 31 := Nat.pow_le_pow_right (by norm_num) hp
  have h4 : (2 : Nat) ^ 31 = 2147483648 := by norm_num
  omega

theorem deleted_count_updN_new (t : int_htbl_t) (r k : Nat) (v : Int) (nd ne rt ct : Nat)
    (hr : r < t.size) (hv : 0 ≤ v)
    (hnd : nd + (if (t.records r).value = DELETED_VALUE then 1 else 0) = deleted_count t) :
    deleted_count
      { records := updN t.records r { key := k, value := v }, size := t.size,
        nelems := ne, ndeleted := nd, resize_threshold := rt, cleanup_threshold := ct } = nd := by
  have := countP_range_update (fun j => decide ((t.records j).value = DELETED_VALUE))
    (fun j => decide ((updN t.records r { key := k, value := v } j).value = DELETED_VALUE))
    r t.size hr (by intro j _ hne; unfold updN; simp only [if_neg hne])
  have e2 : decide ((updN t.records r { key := k, value := v } r).value = DELETED_VALUE)
      = false := by
    unfold updN; rw [if_pos rfl]
    apply decide_eq_false
    intro e
    have e3 : v = DELETED_VALUE := e
    rw [e3] at hv
    exact DELETED_VALUE_neg hv
  beta_reduce at this
  rw [e2] at this
  unfold deleted_count at hnd ⊢
  dsimp only
  by_cases hd : (t.records r).value = DELETED_VALUE
  · rw [if_pos hd] at hnd
    rw [decide_eq_true hd] at this
    simp only [if_true, Bool.false_eq_true, if_false] at this
    omega
  · rw [if_neg hd] at hnd
    rw [decide_eq_false hd] at this
    simp only [Bool.false_eq_true, if_false] at this
    omega

theorem store_new_obj_spec (C : int_htbl_consts) (t : int_htbl_t) (inv : HtblInv t)
    (o : int_hobj_t) (r k nd fuel : Nat)
    (hC1 : ∀ n, 0 < n → C.resize n < n) (hC2 : C.MAX_HTBL_SIZE ≤ 2 ^ 32)
    (hsz : 2 * t.size < C.MAX_HTBL_SIZE) (hf : 2 * t.size ≤ fuel)
    (hr : r < t.size)
    (hrv : (t.records r).value = NULL_VALUE ∨ (t.records r).value = DELETED_VALUE)
    (hnd : nd + (if (t.records r).value = DELETED_VALUE then 1 else 0) = t.ndeleted)
    (hpath : ∃ d, (k + d) % t.size = r ∧
      ∀ i, i < d → (t.records ((k + i) % t.size)).value ≠ NULL_VALUE)
    (hb : 0 ≤ o.build) (hfresh : ∀ j, j < t.size → (t.records j).value ≠ o.build) :
    ∃ t1, int_htbl_store_new_obj C fuel { t with ndeleted := nd } r k o = some (o.build, t1) ∧
      HtblInv t1 ∧ t1.size ≤ 2 * t.size ∧
      ∀ k1 v1, Live t1 k1 v1 ↔ (Live t k1 v1 ∨ (k1 = k ∧ v1 = o.build)) := by
  have hsize := size_le_pow31 t inv.base
  have hroom := inv.room
  have h32 : (2 : Nat) ^ 32 = 4294967296 := by norm_num
  have hnl : ¬ 0 ≤ (t.records r).value := by
    rcases hrv with h | h
    · rw [h]; exact NULL_VALUE_neg
    · rw [h]; exact DELETED_VALUE_neg
  have hup_r : updN t.records r { key := k, value := o.build } r =
      { key := k, value := o.build } := by
    unfold updN; rw [if_pos rfl]
  have hup_ne : ∀ s, s ≠ r → updN t.records r { key := k, value := o.build } s = t.records s := by
    intro s hs; unfold updN; rw [if_neg hs]
  have e1 : (t.nelems + 1) % 2 ^ 32 = t.nelems + 1 := by
    rw [h32]; exact Nat.mod_eq_of_lt (by omega)
  have hndle : nd ≤ t.ndeleted := by omega
  have e2 : (t.nelems + 1 + nd) % 2 ^ 32 = t.nelems + 1 + nd := by
    rw [h32]; exact Nat.mod_eq_of_lt (by omega)
  have hbase : HtblBase
      { records := updN t.records r { key := k, value := o.build },
        size := t.size, nelems := t.nelems + 1, ndeleted := nd,
        resize_threshold := t.resize_threshold, cleanup_threshold := t.cleanup_threshold } := by
    refine ⟨inv.base.size_pow, ?_, ?_, ?_, ?_, ?_⟩
    · intro j hj
      dsimp only
      by_cases e : j = r
      · rw [e, hup_r]; exact Or.inl hb
      · rw [hup_ne j e]; exact inv.base.vals j hj
    · show t.nelems + 1 = live_in (updN t.records r { key := k, value := o.build }) t.size
      rw [live_in_updN_new t.records t.size r k o.build hr hb hnl, inv.base.nelems_eq]
      rfl
    · exact (deleted_count_updN_new t r k o.build nd _ _ _ hr hb
        (by rw [← inv.base.ndeleted_eq]; exact hnd)).symm
    · intro i j hi hj
      show 0 ≤ (updN t.records r { key := k, value := o.build } i).value →
        (updN t.records r { key := k, value := o.build } i).value =
          (updN t.records r { key := k, value := o.build } j).value → i = j
      intro hl he
      by_cases e1 : i = r
      · by_cases e2 : j = r
        · rw [e1, e2]
        · rw [e1, hup_r, hup_ne j e2] at he
          exact absurd he.symm (hfresh j hj)
      · by_cases e2 : j = r
        · rw [hup_ne i e1, e2, hup_r] at he
          exact absurd he (hfresh i hi)
        · rw [hup_ne i e1] at hl he
          rw [hup_ne j e2] at he
          exact inv.base.distinct i j hi hj hl he
    · exact chain_update t.records t.size r k o.build inv.base.chain hb hpath
  have hlive : ∀ k1 v1, Live
      { records := updN t.records r { key := k, value := o.build },
        size := t.size, nelems := t.nelems + 1, ndeleted := nd,
        resize_threshold := t.resize_threshold, cleanup_threshold := t.cleanup_threshold } k1 v1 ↔
      (Live t k1 v1 ∨ (k1 = k ∧ v1 = o.build)) := by
    intro k1 v1
    constructor
    · rintro ⟨j, hj, hv, hk, hvv⟩
      have hk2 : (updN t.records r { key := k, value := o.build } j).key = k1 := hk
      have hvv2 : (updN t.records r { key := k, value := o.build } j).value = v1 := hvv
      by_cases e : j = r
      · rw [e, hup_r] at hk2 hvv2
        exact Or.inr ⟨hk2.symm, hvv2.symm⟩
      · rw [hup_ne j e] at hk2 hvv2
        exact Or.inl ⟨j, hj, hv, hk2, hvv2⟩
    · rintro (⟨j, hj, hv, hk, hvv⟩ | ⟨ek, ev⟩)
      · have e : j ≠ r := fun e => hnl (by rw [← e, hvv]; exact hv)
        refine ⟨j, hj, hv, ?_, ?_⟩
        · show (updN t.records r { key := k, value := o.build } j).key = k1
          rw [hup_ne j e]; exact hk
        · show (updN t.records r { key := k, value := o.build } j).value = v1
          rw [hup_ne j e]; exact hvv
      · refine ⟨r, hr, by rw [ev]; exact hb, ?_, ?_⟩
        · show (updN t.records r { key := k, value := o.build } r).key = k1
          rw [hup_r, ek]
        · show (updN t.records r { key := k, value := o.build } r).value = v1
          rw [hup_r, ev]
  unfold int_htbl_store_new_obj
  rw [if_pos hb]
  dsimp only
  rw [e1, e2]
  by_cases hext : t.nelems + 1 + nd > t.resize_threshold
  · rw [if_pos hext]
    obtain ⟨t2, hx, hinv2, hs2, hl2⟩ := extend_spec C _ hbase hC1 hC2 hsz fuel hf
    rw [hx]
    exact ⟨t2, rfl, hinv2, Nat.le_of_eq hs2, fun k1 v1 => (hl2 k1 v1).trans (hlive k1 v1)⟩
  · rw [if_neg hext]
    have hres := inv.resize_lt
    refine ⟨_, rfl, ⟨hbase, ?_, hres⟩, ?_, hlive⟩
    · show t.nelems + 1 + nd < t.size
      omega
    · show t.size ≤ 2 * t.size
      omega

theorem get_loop2_eq_probe (C : int_htbl_consts) (fuel0 : Nat) (t : int_htbl_t)
    (o : int_hobj_t) (mask k aux : Nat) :
    ∀ fuel j, int_htbl_get_loop2 C fuel0 t o mask k aux fuel j =
      (probe_loop (find_stop t o k) mask fuel (next_slot mask j)).bind (fun s =>
        if (t.records s).value = NULL_VALUE then
          (int_htbl_store_new_obj C fuel0
            { t with ndeleted := (t.ndeleted + 2 ^ 32 - 1) % 2 ^ 32 } aux k o).map
            (fun p => (p.1, p.2, 1))
        else some ((t.records s).value, t, 0)) := by
  intro fuel
  induction fuel with
  | zero => intro j; rfl
  | succ f ih =>
    intro j
    rw [int_htbl_get_loop2, probe_loop]
    by_cases h1 : (t.records (next_slot mask j)).value = NULL_VALUE
    · rw [if_pos h1, if_pos (by unfold find_stop; exact decide_eq_true (Or.inr h1))]
      simp only [Option.some_bind, if_pos h1]
    · rw [if_neg h1]
      by_cases h2 : 0 ≤ (t.records (next_slot mask j)).value ∧
          (t.records (next_slot mask j)).key = k ∧
          o.eq (t.records (next_slot mask j)).value = true
      · rw [if_pos h2, if_pos (by unfold find_stop; exact decide_eq_true (Or.inl h2))]
        simp only [Option.some_bind, if_neg h1]
      · rw [if_neg h2, if_neg (by
          unfold find_stop
          intro hd
          rcases of_decide_eq_true hd with h | h
          · exact h2 h
          · exact h1 h)]
        exact ih _

theorem get_loop1_eq_probe (C : int_htbl_consts) (fuel0 : Nat) (t : int_htbl_t)
    (o : int_hobj_t) (mask k : Nat) :
    ∀ fuel j, int_htbl_get_loop1 C fuel0 t o mask k fuel j =
      (probe_loop (get_stop t o k) mask fuel j).bind (fun s =>
        if (t.records s).value = NULL_VALUE then
          (int_htbl_store_new_obj C fuel0 t s k o).map (fun p => (p.1, p.2, 1))
        else if (t.records s).value = DELETED_VALUE then
          int_htbl_get_loop2 C fuel0 t o mask k s fuel0 s
        else some ((t.records s).value, t, 0)) := by
  intro fuel
  induction fuel with
  | zero => intro j; rfl
  | succ f ih =>
    intro j
    rw [int_htbl_get_loop1, probe_loop]
    by_cases h1 : (t.records j).value = NULL_VALUE
    · rw [if_pos h1, if_pos (by unfold get_stop; exact decide_eq_true (Or.inl h1))]
      simp only [Option.some_bind, if_pos h1]
    · rw [if_neg h1]
      by_cases h2 : (t.records j).value = DELETED_VALUE
      · rw [if_pos h2, if_pos (by unfold get_stop; exact decide_eq_true (Or.inr (Or.inl h2)))]
        simp only [Option.some_bind, if_neg h1, if_pos h2]
      · rw [if_neg h2]
        by_cases h3 : (t.records j).key = k ∧ o.eq (t.records j).value = true
        · rw [if_pos h3,
            if_pos (by unfold get_stop; exact decide_eq_true (Or.inr (Or.inr h3)))]
          simp only [Option.some_bind, if_neg h1, if_neg h2]
        · rw [if_neg h3, if_neg (by
            unfold get_stop
            intro hd
            rcases of_decide_eq_true hd with h | h | h
            · exact h1 h
            · exact h2 h
            · exact h3 h)]
          exact ih _

theorem probe_shift (a m n : Nat) : ((a % n + 1) % n + m) % n = (a + (1 + m)) % n := by
  rw [mod_add_mod_pow, Nat.add_assoc, mod_add_mod_pow]

theorem deleted_count_pos (t : int_htbl_t) (s : Nat) (hs : s < t.size)
    (h : (t.records s).value = DELETED_VALUE) : 0 < deleted_count t := by
  unfold deleted_count
  rw [List.countP_pos_iff]
  exact ⟨s, List.mem_range.mpr hs, decide_eq_true h⟩

theorem live_count_pos (t : int_htbl_t) (s : Nat) (hs : s < t.size)
    (h : 0 ≤ (t.records s).value) : 0 < live_count t := by
  unfold live_count
  rw [List.countP_pos_iff]
  exact ⟨s, List.mem_range.mpr hs, decide_eq_true h⟩

theorem get_obj_cases (C : int_htbl_consts) (t : int_htbl_t) (o : int_hobj_t) (fuel : Nat)
    (inv : HtblInv t) (hf : t.size ≤ fuel) :
    ∃ r, int_htbl_find_obj fuel t o = some r ∧
      ((0 ≤ r ∧ Live t o.hash r ∧ o.eq r = true ∧
          int_htbl_get_obj C fuel t o = some (r, t, 0)) ∨
       (r = NULL_VALUE ∧ (∀ v, Live t o.hash v → o.eq v = false) ∧
          ∃ slot nd, slot < t.size ∧
            ((t.records slot).value = NULL_VALUE ∨ (t.records slot).value = DELETED_VALUE) ∧
            nd + (if (t.records slot).value = DELETED_VALUE then 1 else 0) = t.ndeleted ∧
            (∃ d, (o.hash + d) % t.size = slot ∧
              ∀ i, i < d → (t.records ((o.hash + i) % t.size)).value ≠ NULL_VALUE) ∧
            int_htbl_get_obj C fuel t o =
              (int_htbl_store_new_obj C fuel { t with ndeleted := nd } slot o.hash o).map
                (fun p => (p.1, p.2, 1)))) := by
  obtain ⟨p, hp, hs⟩ := inv.base.size_pow
  have hpos : 0 < 2 ^ p := Nat.two_pow_pos p
  obtain ⟨mf, hmf, hfind, hstf, hminf⟩ := find_probe t o inv fuel hf
  obtain ⟨r1, hfind1, hsem⟩ := find_obj_spec t o inv fuel hf
  obtain ⟨s0, hs0, hnull⟩ := htbl_null_slot t inv
  rw [hs] at hs0 hf hmf hstf hminf hfind
  obtain ⟨m1, hm1, hpr1, hst1, hmin1⟩ := probe_loop_exists (get_stop t o o.hash) p hp fuel
    (o.hash % 2 ^ p) (Nat.mod_lt _ hpos) hf
    ⟨s0, hs0, by unfold get_stop; exact decide_eq_true (Or.inl hnull)⟩
  rw [mod_add_mod_pow] at hpr1 hst1
  have hmin1b : ∀ i, i < m1 → get_stop t o o.hash ((o.hash + i) % 2 ^ p) = false := by
    intro i hi
    have := hmin1 i hi
    rwa [mod_add_mod_pow] at this
  have himp : ∀ s, find_stop t o o.hash s = true → get_stop t o o.hash s = true := by
    intro s h
    unfold get_stop
    apply decide_eq_true
    rcases of_decide_eq_true h with h | h
    · exact Or.inr (Or.inr h.2)
    · exact Or.inl h
  have hle : m1 ≤ mf := by
    by_contra hc
    have := hmin1b mf (by omega)
    rw [himp _ hstf] at this
    cases this
  have hs1 : (o.hash + m1) % 2 ^ p < 2 ^ p := Nat.mod_lt _ hpos
  have hsf : (o.hash + mf) % 2 ^ p < 2 ^ p := Nat.mod_lt _ hpos
  have hpath : ∃ d, (o.hash + d) % t.size = (o.hash + m1) % 2 ^ p ∧
      ∀ i, i < d → (t.records ((o.hash + i) % t.size)).value ≠ NULL_VALUE := by
    refine ⟨m1, by rw [hs], ?_⟩
    intro i hi e
    have := hmin1b i hi
    rw [hs] at e
    unfold get_stop at this
    rw [decide_eq_true (Or.inl e)] at this
    cases this
  have hget : int_htbl_get_obj C fuel t o =
      (if (t.records ((o.hash + m1) % 2 ^ p)).value = NULL_VALUE then
        (int_htbl_store_new_obj C fuel t ((o.hash + m1) % 2 ^ p) o.hash o).map
          (fun p => (p.1, p.2, 1))
      else if (t.records ((o.hash + m1) % 2 ^ p)).value = DELETED_VALUE then
        int_htbl_get_loop2 C fuel t o (mask_of (2 ^ p)) o.hash ((o.hash + m1) % 2 ^ p) fuel
          ((o.hash + m1) % 2 ^ p)
      else some ((t.records ((o.hash + m1) % 2 ^ p)).value, t, 0)) := by
    unfold int_htbl_get_obj
    rw [get_loop1_eq_probe, hs, and_mask_of_pow p hp, hpr1]
    rfl
  have hsame : ∀ m, m = mf →
      int_htbl_find_obj fuel t o = some (t.records ((o.hash + m) % 2 ^ p)).value := by
    intro m e; rw [e]; exact hfind
  by_cases h1 : (t.records ((o.hash + m1) % 2 ^ p)).value = NULL_VALUE
  · have hfs : find_stop t o o.hash ((o.hash + m1) % 2 ^ p) = true := by
      unfold find_stop; exact decide_eq_true (Or.inr h1)
    have hmeq : m1 = mf := by
      by_contra hc
      have := hminf m1 (by omega)
      rw [hfs] at this
      cases this
    refine ⟨_, hsame m1 hmeq, Or.inr ⟨h1, ?_, _, t.ndeleted, by rw [hs]; exact hs1, Or.inl h1, ?_,
      hpath, ?_⟩⟩
    · have e : r1 = NULL_VALUE := by
        have := hsame m1 hmeq
        rw [hfind1, h1] at this
        exact Option.some.inj this
      rcases hsem with h | h
      · rw [e] at h; exact absurd h.1 NULL_VALUE_neg
      · exact h.2
    · rw [h1, if_neg (by decide)]; rfl
    · rw [hget, if_pos h1]
  · by_cases h2 : (t.records ((o.hash + m1) % 2 ^ p)).value = DELETED_VALUE
    · have hfs : find_stop t o o.hash ((o.hash + m1) % 2 ^ p) = false := by
        unfold find_stop
        apply decide_eq_false
        rintro (h | h)
        · rw [h2] at h; exact DELETED_VALUE_neg h.1
        · exact h1 h
      have hlt : m1 < mf := by
        rcases Nat.lt_or_ge m1 mf with h | h
        · exact h
        · have e : m1 = mf := by omega
          rw [e, hstf] at hfs
          cases hfs
      have hshift : ∀ i, (((o.hash + m1) % 2 ^ p + 1) % 2 ^ p + i) % 2 ^ p =
          (o.hash + (m1 + 1 + i)) % 2 ^ p := by
        intro i
        rw [probe_shift]
        congr 1
        omega
      have hloop2 : int_htbl_get_loop2 C fuel t o (mask_of (2 ^ p)) o.hash
          ((o.hash + m1) % 2 ^ p) fuel ((o.hash + m1) % 2 ^ p) =
          (if (t.records ((o.hash + mf) % 2 ^ p)).value = NULL_VALUE then
            (int_htbl_store_new_obj C fuel
              { t with ndeleted := (t.ndeleted + 2 ^ 32 - 1) % 2 ^ 32 }
              ((o.hash + m1) % 2 ^ p) o.hash o).map (fun p => (p.1, p.2, 1))
          else some ((t.records ((o.hash + mf) % 2 ^ p)).value, t, 0)) := by
        rw [get_loop2_eq_probe, next_slot_pow p hp _ hs1,
          probe_loop_first (find_stop t o o.hash) p hp (mf - m1 - 1) fuel
            (((o.hash + m1) % 2 ^ p + 1) % 2 ^ p) (Nat.mod_lt _ hpos) (by omega)
            (by rw [hshift, show m1 + 1 + (mf - m1 - 1) = mf by omega]; exact hstf)
            (fun i hi => by rw [hshift]; exact hminf _ (by omega)),
          hshift, show m1 + 1 + (mf - m1 - 1) = mf by omega]
        rfl
      have hdpos := deleted_count_pos t _ (by rw [hs]; exact hs1) h2
      have hnd := inv.base.ndeleted_eq
      have hroom := inv.room
      have hsize := size_le_pow31 t inv.base
      have h32 : (2 : Nat) ^ 32 = 4294967296 := by norm_num
      have end1 : (t.ndeleted + 2 ^ 32 - 1) % 2 ^ 32 = t.ndeleted - 1 := by
        rw [h32]
        have : t.ndeleted + 4294967296 - 1 = (t.ndeleted - 1) + 4294967296 := by omega
        rw [this, Nat.add_mod_right]
        exact Nat.mod_eq_of_lt (by omega)
      by_cases h3 : (t.records ((o.hash + mf) % 2 ^ p)).value = NULL_VALUE
      · refine ⟨_, hfind, Or.inr ⟨h3, ?_, _, t.ndeleted - 1, by rw [hs]; exact hs1, Or.inr h2, ?_,
          hpath, ?_⟩⟩
        · have e : r1 = NULL_VALUE := by
            have := hfind
            rw [hfind1, h3] at this
            exact Option.some.inj this
          rcases hsem with h | h
          · rw [e] at h; exact absurd h.1 NULL_VALUE_neg
          · exact h.2
        · rw [if_pos h2]; omega
        · rw [hget, if_neg h1, if_pos h2, hloop2, if_pos h3, end1]
      · have hm := of_decide_eq_true hstf
        rcases hm with hm | hm
        · refine ⟨_, hfind, Or.inl ⟨hm.1, ⟨_, by rw [hs]; exact hsf, hm.1, hm.2.1, rfl⟩, hm.2.2,
            ?_⟩⟩
          rw [hget, if_neg h1, if_pos h2, hloop2, if_neg h3]
        · exact absurd hm h3
    · have hg := of_decide_eq_true hst1
      have hke : (t.records ((o.hash + m1) % 2 ^ p)).key = o.hash ∧
          o.eq (t.records ((o.hash + m1) % 2 ^ p)).value = true := by
        rcases hg with h | h | h
        · exact absurd h h1
        · exact absurd h h2
        · exact h
      have hv : 0 ≤ (t.records ((o.hash + m1) % 2 ^ p)).value := by
        rcases inv.base.vals _ (by rw [hs]; exact hs1) with h | h | h
        · exact h
        · exact absurd h h1
        · exact absurd h h2
      have hfs : find_stop t o o.hash ((o.hash + m1) % 2 ^ p) = true := by
        unfold find_stop; exact decide_eq_true (Or.inl ⟨hv, hke⟩)
      have hmeq : m1 = mf := by
        by_contra hc
        have := hminf m1 (by omega)
        rw [hfs] at this
        cases this
      refine ⟨_, hsame m1 hmeq, Or.inl ⟨hv, ⟨_, by rw [hs]; exact hs1, hv, hke.1, rfl⟩, hke.2,
        ?_⟩⟩
      rw [hget, if_neg h1, if_neg h2]

theorem erase_loop_eq_probe (t : int_htbl_t) (v : Int) (mask : Nat) :
    ∀ fuel j, int_htbl_erase_loop t v mask fuel j =
      (probe_loop (fun s => decide ((t.records s).value = v ∨
          (t.records s).value = NULL_VALUE)) mask fuel j).map
        (fun s => if (t.records s).value = v then some s else none) := by
  intro fuel
  induction fuel with
  | zero => intro j; rfl
  | succ f ih =>
    intro j
    rw [int_htbl_erase_loop, probe_loop]
    by_cases h1 : (t.records j).value = v
    · rw [if_pos h1, if_pos (decide_eq_true (Or.inl h1))]
      simp only [Option.map_some', if_pos h1]
    · rw [if_neg h1]
      by_cases h2 : (t.records j).value = NULL_VALUE
      · rw [if_pos h2, if_pos (decide_eq_true (Or.inr h2))]
        simp only [Option.map_some', if_neg h1]
      · rw [if_neg h2, if_neg (by
          intro hd
          rcases of_decide_eq_true hd with h | h
          · exact h1 h
          · exact h2 h)]
        exact ih _

theorem live_count_updN_delete (t : int_htbl_t) (r k : Nat) (ne nd rt ct : Nat)
    (hr : r < t.size) (hl : 0 ≤ (t.records r).value) :
    live_count
      { records := updN t.records r { key := k, value := DELETED_VALUE }, size := t.size,
        nelems := ne, ndeleted := nd, resize_threshold := rt, cleanup_threshold := ct } + 1
      = live_count t := by
  have := countP_range_update (fun j => decide (0 ≤ (t.records j).value))
    (fun j => decide (0 ≤ (updN t.records r { key := k, value := DELETED_VALUE } j).value))
    r t.size hr (by intro j _ hne; unfold updN; simp only [if_neg hne])
  beta_reduce at this
  have e2 : decide (0 ≤ (updN t.records r { key := k, value := DELETED_VALUE } r).value)
      = false := by
    unfold updN; rw [if_pos rfl]
    exact decide_eq_false DELETED_VALUE_neg
  rw [e2, decide_eq_true hl] at this
  simp only [if_true, Bool.false_eq_true, if_false] at this
  unfold live_count
  dsimp only
  omega

theorem deleted_count_updN_delete (t : int_htbl_t) (r k : Nat) (ne nd rt ct : Nat)
    (hr : r < t.size) (hl : 0 ≤ (t.records r).value) :
    deleted_count
      { records := updN t.records r { key := k, value := DELETED_VALUE }, size := t.size,
        nelems := ne, ndeleted := nd, resize_threshold := rt, cleanup_threshold := ct }
      = deleted_count t + 1 := by
  have := countP_range_update (fun j => decide ((t.records j).value = DELETED_VALUE))
    (fun j => decide ((updN t.records r { key := k, value := DELETED_VALUE } j).value
      = DELETED_VALUE))
    r t.size hr (by intro j _ hne; unfold updN; simp only [if_neg hne])
  beta_reduce at this
  have e2 : decide ((updN t.records r { key := k, value := DELETED_VALUE } r).value
      = DELETED_VALUE) = true := by
    unfold updN; rw [if_pos rfl]
    exact decide_eq_true rfl
  have e1 : decide ((t.records r).value = DELETED_VALUE) = false := by
    apply decide_eq_false
    intro e
    rw [e] at hl
    exact DELETED_VALUE_neg hl
  rw [e2, e1] at this
  simp only [if_true, Bool.false_eq_true, if_false] at this
  unfold deleted_count
  dsimp only
  omega

theorem erase_record_spec (t : int_htbl_t) (inv : HtblInv t) (j fuel : Nat) (hj : j < t.size)
    (hl : 0 ≤ (t.records j).value) (hf : t.size ≤ fuel) :
    ∃ t2, int_htbl_erase_record fuel t (t.records j).key (t.records j).value = some t2 ∧
      HtblInv t2 ∧ t2.size = t.size ∧
      ∀ k v, Live t2 k v ↔ (Live t k v ∧ v ≠ (t.records j).value) := by
  obtain ⟨p, hp, hs⟩ := inv.base.size_pow
  have hpos : 0 < 2 ^ p := Nat.two_pow_pos p
  obtain ⟨d, hd, hpath⟩ := inv.base.chain j hj hl
  have hj2 : j < 2 ^ p := by rw [← hs]; exact hj
  rw [hs] at hd hpath
  obtain ⟨m, hm, hpr, hst, hmin⟩ := probe_loop_exists
    (fun s => decide ((t.records s).value = (t.records j).value ∨
      (t.records s).value = NULL_VALUE)) p hp fuel ((t.records j).key % 2 ^ p)
    (Nat.mod_lt _ hpos) (by rw [← hs]; exact hf) ⟨j, hj2, decide_eq_true (Or.inl rfl)⟩
  rw [mod_add_mod_pow] at hpr hst
  have hslot : ((t.records j).key + m) % 2 ^ p = j := by
    have hmd : m ≤ d := by
      by_contra hc
      have := hmin d (by omega)
      rw [mod_add_mod_pow, hd] at this
      simp at this
    rcases of_decide_eq_true hst with h | h
    · exact (inv.base.distinct j _ hj (by rw [hs]; exact Nat.mod_lt _ hpos) hl h.symm).symm
    · rcases Nat.lt_or_ge m d with h2 | h2
      · exact absurd h (hpath m h2)
      · have e : m = d := by omega
        rw [e]; exact hd
  have hloop : int_htbl_erase_loop t (t.records j).value (mask_of t.size) fuel
      ((t.records j).key &&& mask_of t.size) = some (some j) := by
    rw [erase_loop_eq_probe, hs, and_mask_of_pow p hp, hpr, hslot]
    simp
  have hsize := size_le_pow31 t inv.base
  have hroom := inv.room
  have hne := inv.base.nelems_eq
  have hlp := live_count_pos t j hj hl
  have h32 : (2 : Nat) ^ 32 = 4294967296 := by norm_num
  have e1 : (t.nelems + 2 ^ 32 - 1) % 2 ^ 32 = t.nelems - 1 := by
    rw [h32]
    have : t.nelems + 4294967296 - 1 = (t.nelems - 1) + 4294967296 := by omega
    rw [this, Nat.add_mod_right]
    exact Nat.mod_eq_of_lt (by omega)
  have e2 : (t.ndeleted + 1) % 2 ^ 32 = t.ndeleted + 1 := by
    rw [h32]; exact Nat.mod_eq_of_lt (by omega)
  have hup_r : updN t.records j { key := (t.records j).key, value := DELETED_VALUE } j =
      { key := (t.records j).key, value := DELETED_VALUE } := by
    unfold updN; rw [if_pos rfl]
  have hup_ne : ∀ s, s ≠ j →
      updN t.records j { key := (t.records j).key, value := DELETED_VALUE } s = t.records s := by
    intro s hs; unfold updN; rw [if_neg hs]
  have hbase : HtblBase
      { records := updN t.records j { key := (t.records j).key, value := DELETED_VALUE },
        size := t.size, nelems := t.nelems - 1, ndeleted := t.ndeleted + 1,
        resize_threshold := t.resize_threshold, cleanup_threshold := t.cleanup_threshold } := by
    refine ⟨inv.base.size_pow, ?_, ?_, ?_, ?_, ?_⟩
    · intro s hs
      dsimp only
      by_cases e : s = j
      · rw [e, hup_r]; exact Or.inr (Or.inr rfl)
      · rw [hup_ne s e]; exact inv.base.vals s hs
    · have := live_count_updN_delete t j (t.records j).key (t.nelems - 1) (t.ndeleted + 1)
        t.resize_threshold t.cleanup_threshold hj hl
      show t.nelems - 1 = _
      omega
    · have := deleted_count_updN_delete t j (t.records j).key (t.nelems - 1) (t.ndeleted + 1)
        t.resize_threshold t.cleanup_threshold hj hl
      show t.ndeleted + 1 = _
      rw [this, inv.base.ndeleted_eq]
    · intro i1 i2 hi1 hi2
      dsimp only
      intro hl1 he
      by_cases c1 : i1 = j
      · rw [c1, hup_r] at hl1
        exact absurd hl1 DELETED_VALUE_neg
      · rw [hup_ne i1 c1] at hl1 he
        by_cases c2 : i2 = j
        · rw [c2, hup_r] at he
          have he2 : (t.records i1).value = DELETED_VALUE := he
          rw [he2] at hl1
          exact absurd hl1 DELETED_VALUE_neg
        · rw [hup_ne i2 c2] at he
          exact inv.base.distinct i1 i2 hi1 hi2 hl1 he
    · exact chain_delete t.records t.size j _ inv.base.chain
  have hlive : ∀ k v, Live
      { records := updN t.records j { key := (t.records j).key, value := DELETED_VALUE },
        size := t.size, nelems := t.nelems - 1, ndeleted := t.ndeleted + 1,
        resize_threshold := t.resize_threshold, cleanup_threshold := t.cleanup_threshold } k v ↔
      (Live t k v ∧ v ≠ (t.records j).value) := by
    intro k v
    constructor
    · rintro ⟨s, hs1, hv, hk, hvv⟩
      have hk2 : (updN t.records j { key := (t.records j).key, value := DELETED_VALUE } s).key
        = k := hk
      have hvv2 : (updN t.records j { key := (t.records j).key, value := DELETED_VALUE } s).value
        = v := hvv
      by_cases e : s = j
      · rw [e, hup_r] at hvv2
        have hvv3 : DELETED_VALUE = v := hvv2
        rw [← hvv3] at hv
        exact absurd hv DELETED_VALUE_neg
      · rw [hup_ne s e] at hk2 hvv2
        refine ⟨⟨s, hs1, hv, hk2, hvv2⟩, ?_⟩
        intro ev
        rw [← hvv2] at ev hv
        exact e (inv.base.distinct s j hs1 hj hv ev)
    · rintro ⟨⟨s, hs1, hv, hk, hvv⟩, hnv⟩
      have e : s ≠ j := by
        intro e
        rw [e] at hvv
        exact hnv hvv.symm
      refine ⟨s, hs1, hv, ?_, ?_⟩
      · show (updN t.records j { key := (t.records j).key, value := DELETED_VALUE } s).key = k
        rw [hup_ne s e]; exact hk
      · show (updN t.records j { key := (t.records j).key, value := DELETED_VALUE } s).value = v
        rw [hup_ne s e]; exact hvv
  unfold int_htbl_erase_record
  dsimp only
  rw [hloop]
  dsimp only
  rw [e1, e2]
  by_cases hc : t.ndeleted + 1 > t.cleanup_threshold
  · rw [if_pos hc]
    obtain ⟨t2, hx, hinv2, hs2, hl2⟩ := cleanup_spec _ hbase
      (show t.nelems - 1 < t.size by omega) inv.resize_lt fuel hf
    rw [hx]
    exact ⟨t2, rfl, hinv2, hs2, fun k v => (hl2 k v).trans (hlive k v)⟩
  · rw [if_neg hc]
    refine ⟨_, rfl, ⟨hbase, ?_, inv.resize_lt⟩, rfl, hlive⟩
    show t.nelems - 1 + (t.ndeleted + 1) < t.size
    omega

theorem get_obj_new_spec (C : int_htbl_consts) (t : int_htbl_t) (o : int_hobj_t) (fuel : Nat)
    (inv : HtblInv t)
    (hC1 : ∀ n, 0 < n → C.resize n < n) (hC2 : C.MAX_HTBL_SIZE ≤ 2 ^ 32)
    (hsz : 2 * t.size < C.MAX_HTBL_SIZE) (hf : 2 * t.size ≤ fuel)
    (hnone : int_htbl_find_obj fuel t o = some NULL_VALUE)
    (hfresh : 0 ≤ o.build → ∀ j, j < t.size → (t.records j).value ≠ o.build) :
    (∀ v, Live t o.hash v → o.eq v = false) ∧
    ∃ t1, int_htbl_get_obj C fuel t o = some (o.build, t1, 1) ∧
      (0 ≤ o.build → HtblInv t1 ∧ t1.size ≤ 2 * t.size ∧
        ∀ k1 v1, Live t1 k1 v1 ↔ (Live t k1 v1 ∨ (k1 = o.hash ∧ v1 = o.build))) := by
  obtain ⟨r, hfind, hcases⟩ := get_obj_cases C t o fuel inv (by omega)
  rw [hnone] at hfind
  have hr : r = NULL_VALUE := (Option.some.inj hfind).symm
  rcases hcases with h | h
  · rw [hr] at h
    exact absurd h.1 NULL_VALUE_neg
  · obtain ⟨_, hno, slot, nd, hslot, hsv, hnd, hpath, hget⟩ := h
    refine ⟨hno, ?_⟩
    by_cases hb : 0 ≤ o.build
    · obtain ⟨t1, hst, hrest⟩ := store_new_obj_spec C t inv o slot o.hash nd fuel hC1 hC2 hsz hf
        hslot hsv hnd hpath hb (hfresh hb)
      refine ⟨t1, ?_, fun _ => hrest⟩
      rw [hget, hst]
      rfl
    · refine ⟨{ t with ndeleted := nd }, ?_, fun h => absurd h hb⟩
      rw [hget]
      unfold int_htbl_store_new_obj
      rw [if_neg hb]
      rfl

theorem get_obj_found_spec (C : int_htbl_consts) (t : int_htbl_t) (o : int_hobj_t) (fuel : Nat)
    (inv : HtblInv t) (hf : t.size ≤ fuel) (r : Int) (hr : 0 ≤ r)
    (hfind : int_htbl_find_obj fuel t o = some r) :
    int_htbl_get_obj C fuel t o = some (r, t, 0) := by
  obtain ⟨r1, hfind1, hcases⟩ := get_obj_cases C t o fuel inv hf
  rw [hfind] at hfind1
  have e : r1 = r := (Option.some.inj hfind1).symm
  rcases hcases with h | h
  · rw [← e]; exact h.2.2.2
  · rw [e] at h
    rw [h.1] at hr
    exact absurd hr NULL_VALUE_neg

theorem null_table_counts (m rt ct : Nat) :
    live_count
      { records := null_records, size := m, nelems := 0, ndeleted := 0,
        resize_threshold := rt, cleanup_threshold := ct } = 0 ∧
    deleted_count
      { records := null_records, size := m, nelems := 0, ndeleted := 0,
        resize_threshold := rt, cleanup_threshold := ct } = 0 := by
  refine ⟨live_in_null m, ?_⟩
  unfold deleted_count
  rw [List.countP_eq_zero]
  intro j _
  simp [null_records, NULL_VALUE, DELETED_VALUE]

theorem init_int_htbl_inv (C : int_htbl_consts) (n : Nat) (t : int_htbl_t)
    (h : init_int_htbl C n = some t)
    (hpow : ∃ p, p ≤ 31 ∧ (if n = 0 then C.INT_HTBL_DEFAULT_SIZE else n) = 2 ^ p)
    (hC1 : ∀ n, 0 < n → C.resize n < n) : HtblInv t := by
  unfold init_int_htbl at h
  dsimp only at h
  generalize (if n = 0 then C.INT_HTBL_DEFAULT_SIZE else n) = n1 at h hpow
  by_cases hm : C.MAX_HTBL_SIZE ≤ n1
  · rw [if_pos hm] at h
    cases h
  · rw [if_neg hm] at h
    have e := Option.some.inj h
    subst e
    obtain ⟨p, hp, he⟩ := hpow
    have hpos : 0 < 2 ^ p := Nat.two_pow_pos p
    refine ⟨⟨⟨p, hp, he⟩, fun _ _ => Or.inr (Or.inl rfl), (null_table_counts _ _ _).1.symm,
      (null_table_counts _ _ _).2.symm,
      fun _ _ _ _ hl _ => absurd hl NULL_VALUE_neg, fun _ _ hl => absurd hl NULL_VALUE_neg⟩, ?_, ?_⟩
    · show 0 + 0 < n1
      rw [he]; omega
    · show C.resize n1 < n1
      exact hC1 _ (by rw [he]; exact hpos)

theorem sample_htbl_consts_resize : ∀ n, 0 < n → sample_htbl_consts.resize n < n := by
  intro n hn
  show 6 * n / 10 < n
  omega

theorem sample_htbl0_inv : HtblInv sample_htbl0 :=
  init_int_htbl_inv sample_htbl_consts 0 sample_htbl0 rfl ⟨6, by decide, rfl⟩
    sample_htbl_consts_resize

theorem sample_htbl1_inv : HtblInv sample_htbl1 := by
  obtain ⟨_, t1, hget, hrest⟩ := get_obj_new_spec sample_htbl_consts sample_htbl0 sample_hobj 128
    sample_htbl0_inv sample_htbl_consts_resize (by decide) (by decide) (by decide) rfl
    (fun _ j _ e => absurd (show (0 : Int) ≤ NULL_VALUE from by rw [show NULL_VALUE = 7 from e]; decide)
      NULL_VALUE_neg)
  have e : int_htbl_get_obj sample_htbl_consts 128 sample_htbl0 sample_hobj
      = some (7, sample_htbl1, 1) := rfl
  rw [e] at hget
  have e2 : sample_htbl1 = t1 := by
    have := Option.some.inj hget
    exact congrArg (fun p => p.2.1) this
  rw [e2]
  exact (hrest (by decide)).1

theorem sample_htbl1_live (j : Nat) (h : 0 ≤ (sample_htbl1.records j).value) : j = 5 := by
  by_contra e
  have hrec : sample_htbl1.records j = updN null_records 5 { key := 5, value := 7 } j := rfl
  rw [hrec] at h
  unfold updN at h
  rw [if_neg e] at h
  exact NULL_VALUE_neg h

/-- C35: for a well-formed table `t` (`HtblInv`), constants whose resize
threshold is below the size, a size whose double is below `MAX_HTBL_SIZE`,
enough fuel, and an object `o` whose `eq` is compatible with the hash codes of
the live records, holds for at most one live record, and holds for the index
that `build` returns: `int_htbl_find_obj` returns the value of the live record
equal to `o` if there is one and `NULL_VALUE` (-1) if there is none;
`int_htbl_get_obj` returns the same index, the same table and calls `build` no
time when the index is not -1; otherwise it calls `build` once and returns its
result, and when this result is non-negative the new table is well formed, not
full, `find` and `get` on every object with the same hash code and the same
`eq` return the new index, and every record that was live is live and findable;
`int_htbl_erase_record` of a live record gives a well-formed table where
`find` of `o` returns -1 when `o` is equal to the erased index, and where every
other live record is live and findable. -/
theorem int_htbl_find_get_erase_spec (C : int_htbl_consts) (t : int_htbl_t) (o : int_hobj_t)
    (fuel : Nat) (inv : HtblInv t)
    (hC1 : ∀ n, 0 < n → C.resize n < n) (hC2 : C.MAX_HTBL_SIZE ≤ 2 ^ 32)
    (hsz : 2 * t.size < C.MAX_HTBL_SIZE) (hf : 2 * t.size ≤ fuel)
    (hcompat : ∀ j, j < t.size → 0 ≤ (t.records j).value → o.eq (t.records j).value = true →
      (t.records j).key = o.hash)
    (huniq : ∀ i j, i < t.size → j < t.size → 0 ≤ (t.records i).value →
      0 ≤ (t.records j).value → o.eq (t.records i).value = true →
      o.eq (t.records j).value = true → i = j)
    (hbuild : 0 ≤ o.build → o.eq o.build = true) :
    ∃ r, int_htbl_find_obj fuel t o = some r ∧
      (∀ j, j < t.size → 0 ≤ (t.records j).value → o.eq (t.records j).value = true →
        r = (t.records j).value) ∧
      ((∀ j, j < t.size → 0 ≤ (t.records j).value → o.eq (t.records j).value = false) →
        r = NULL_VALUE) ∧
      (r ≠ NULL_VALUE → int_htbl_get_obj C fuel t o = some (r, t, 0)) ∧
      (r = NULL_VALUE → ∃ t1, int_htbl_get_obj C fuel t o = some (o.build, t1, 1) ∧
        (0 ≤ o.build → HtblInv t1 ∧ t1.nelems + t1.ndeleted < t1.size ∧
          (∀ o1 : int_hobj_t, o1.hash = o.hash → (∀ v, o1.eq v = o.eq v) →
            int_htbl_find_obj fuel t1 o1 = some o.build ∧
            int_htbl_get_obj C fuel t1 o1 = some (o.build, t1, 0)) ∧
          ∀ k v, Live t k v → Live t1 k v ∧ Findable fuel t1 k v)) ∧
      ∀ j, j < t.size → 0 ≤ (t.records j).value →
        ∃ t2, int_htbl_erase_record fuel t (t.records j).key (t.records j).value = some t2 ∧
          HtblInv t2 ∧
          (o.eq (t.records j).value = true → int_htbl_find_obj fuel t2 o = some NULL_VALUE) ∧
          ∀ k v, Live t k v → v ≠ (t.records j).value → Live t2 k v ∧ Findable fuel t2 k v := by
  obtain ⟨r, hfind, hsem⟩ := find_obj_spec t o inv fuel (by omega)
  refine ⟨r, hfind, ?_, ?_, ?_, ?_, ?_⟩
  · intro j hj hl he
    rcases hsem with ⟨h0, ⟨i, hi, _, _, hv⟩, her⟩ | ⟨_, hno⟩
    · have := huniq i j hi hj (by rw [hv]; exact h0) hl (by rw [hv]; exact her) he
      rw [← hv, this]
    · have := hno _ ⟨j, hj, hl, hcompat j hj hl he, rfl⟩
      rw [he] at this
      cases this
  · intro hall
    rcases hsem with ⟨h0, ⟨i, hi, _, _, hv⟩, her⟩ | ⟨hn, _⟩
    · have := hall i hi (by rw [hv]; exact h0)
      rw [hv, her] at this
      cases this
    · exact hn
  · intro hne
    rcases hsem with ⟨h0, _, _⟩ | ⟨hn, _⟩
    · exact get_obj_found_spec C t o fuel inv (by omega) r h0 hfind
    · exact absurd hn hne
  · intro hr
    rw [hr] at hfind
    have hno : ∀ v, Live t o.hash v → o.eq v = false := by
      rcases hsem with ⟨h0, _, _⟩ | ⟨_, hno⟩
      · rw [hr] at h0; exact absurd h0 NULL_VALUE_neg
      · exact hno
    have hfresh : 0 ≤ o.build → ∀ j, j < t.size → (t.records j).value ≠ o.build := by
      intro hb j hj e
      have he : o.eq (t.records j).value = true := by rw [e]; exact hbuild hb
      have := hno _ ⟨j, hj, by rw [e]; exact hb, hcompat j hj (by rw [e]; exact hb) he, rfl⟩
      rw [he] at this
      cases this
    obtain ⟨_, t1, hget, hrest⟩ := get_obj_new_spec C t o fuel inv hC1 hC2 hsz hf hfind hfresh
    refine ⟨t1, hget, fun hb => ?_⟩
    obtain ⟨hinv1, hs1, hl1⟩ := hrest hb
    have hf1 : t1.size ≤ fuel := by omega
    refine ⟨hinv1, hinv1.room, ?_, ?_⟩
    · intro o1 hh heq
      obtain ⟨r1, hfind1, hc⟩ := get_obj_cases C t1 o1 fuel hinv1 hf1
      rcases hc with ⟨_, hlive, her, hg⟩ | ⟨_, hno1, _⟩
      · rw [hh] at hlive
        rcases (hl1 _ _).mp hlive with h | ⟨_, h⟩
        · have := hno r1 h
          rw [← heq r1, her] at this
          cases this
        · rw [h] at hfind1 hg
          exact ⟨hfind1, hg⟩
      · have := hno1 o.build (by rw [hh]; exact (hl1 _ _).mpr (Or.inr ⟨rfl, rfl⟩))
        rw [heq, hbuild hb] at this
        cases this
    · intro k v hl
      have := (hl1 k v).mpr (Or.inl hl)
      exact ⟨this, live_findable t1 hinv1 fuel hf1 k v this⟩
  · intro j hj hl
    obtain ⟨t2, he, hinv2, hs2, hl2⟩ := erase_record_spec t inv j fuel hj hl (by omega)
    have hf2 : t2.size ≤ fuel := by omega
    refine ⟨t2, he, hinv2, ?_, ?_⟩
    · intro heq
      obtain ⟨r2, hfind2, hsem2⟩ := find_obj_spec t2 o hinv2 fuel hf2
      rcases hsem2 with ⟨h0, hlive, her⟩ | ⟨hn, _⟩
      · obtain ⟨⟨i, hi, _, _, hv⟩, hne⟩ := (hl2 _ _).mp hlive
        have := huniq i j hi hj (by rw [hv]; exact h0) hl (by rw [hv]; exact her) heq
        rw [this] at hv
        exact absurd hv.symm hne
      · rw [hfind2, hn]
    · intro k v hlv hne
      have := (hl2 k v).mpr ⟨hlv, hne⟩
      exact ⟨this, live_findable t2 hinv2 fuel hf2 k v this⟩

/-- Witness of `int_htbl_find_get_erase_spec`: on the table of 64 records with
the record (5, 7) in slot 5, `find` and `get` on `sample_hobj` return 7 without
a call of `build`, and erasing the record (5, 7) gives a well-formed table on
which `find` returns -1. -/
theorem int_htbl_find_get_erase_spec_witness :
    int_htbl_find_obj 128 sample_htbl1 sample_hobj = some 7 ∧
    int_htbl_get_obj sample_htbl_consts 128 sample_htbl1 sample_hobj
      = some (7, sample_htbl1, 0) ∧
    ∃ t2, int_htbl_erase_record 128 sample_htbl1 5 7 = some t2 ∧ HtblInv t2 ∧
      int_htbl_find_obj 128 t2 sample_hobj = some NULL_VALUE := by
  obtain ⟨r, hfind, _, _, hget, _, herase⟩ := int_htbl_find_get_erase_spec sample_htbl_consts
    sample_htbl1 sample_hobj 128 sample_htbl1_inv sample_htbl_consts_resize (by decide)
    (by decide) (by decide)
    (fun j _ hl _ => by rw [sample_htbl1_live j hl]; rfl)
    (fun i j _ _ hi hj _ _ => by rw [sample_htbl1_live i hi, sample_htbl1_live j hj])
    (fun _ => rfl)
  have e : int_htbl_find_obj 128 sample_htbl1 sample_hobj = some 7 := rfl
  have hr : r = 7 := by
    rw [e] at hfind
    exact (Option.some.inj hfind).symm
  subst hr
  refine ⟨e, hget (by decide), ?_⟩
  obtain ⟨t2, h1, h2, h3, _⟩ := herase 5 (by decide) (by decide)
  exact ⟨t2, h1, h2, h3 rfl⟩

/-- C39: on a table with one deleted record in slot 5 and all other slots
empty, `int_htbl_get_obj` for an object of hash code 5 whose `build` fails
returns the negative value and leaves the record array and `nelems` as they
were, but `ndeleted` goes from 1 to 0 while slot 5 still holds `DELETED_VALUE`. -/
theorem get_obj_failed_build_changes_ndeleted :
    sample_htbl.size = 64 ∧ sample_htbl.nelems = 0 ∧ sample_htbl.ndeleted = 1 ∧
    deleted_count sample_htbl = 1 ∧
    (int_htbl_get_obj sample_htbl_consts 64 sample_htbl sample_failing_hobj).map
      (fun p => (p.1, p.2.2, p.2.1.nelems, p.2.1.ndeleted, deleted_count p.2.1,
        (p.2.1.records 5).value)) = some (-1, 1, 0, 0, 1, DELETED_VALUE) := by
  refine ⟨by decide, by decide, by decide, by decide, by decide⟩

/-! ## Substitution in a product of bit-vector variables (src/src/context.c) -/

/-- C40: for the product `x_1 * x_2^2`, where `x_1` has a one-term substitution
`q` and so the product is accepted, `context_apply_bvprod_subst` multiplies the
buffer by `q` and by the variable for `x_1^2`, not by the variable for
`x_2^2`; with `q = 5`, `x_1 = 2`, `x_2 = 3` the value of the result is 20 and
not 45. -/
theorem apply_bvprod_subst_uses_stale_variable :
    context_acceptable_bvprod_subst sample_bvsubst sample_nterms sample_varprod = true ∧
    context_apply_bvprod_subst sample_bvsubst sample_nterms sample_product_varexps 0
        sample_varprod [] =
      [bvbuffer_op_t.mul_expr 7, bvbuffer_op_t.mul_var (sample_product_varexps 1 2)] ∧
    bvprod_subst_factors sample_bvsubst sample_nterms sample_product_varexps sample_varprod =
      [bvbuffer_op_t.mul_expr 7, bvbuffer_op_t.mul_var (sample_product_varexps 2 2)] ∧
    bvbuffer_value sample_bvval sample_bvqval 1
      (context_apply_bvprod_subst sample_bvsubst sample_nterms sample_product_varexps 0
        sample_varprod []) = 20 ∧
    bvbuffer_value sample_bvval sample_bvqval 1
      (bvprod_subst_factors sample_bvsubst sample_nterms sample_product_varexps
        sample_varprod) = 45 := by
  refine ⟨by decide, by decide, by decide, by decide, by decide⟩

/-! ## Bounds of the accesses of quick_split -/

theorem scan_down_in_eq {α : Type} [LinearOrder α] (act : Nat → α) (a : Nat → Nat) (p : α)
    (lo hi low : Nat) (hlo : lo ≤ low) (hp : ¬ (act (a low) < p)) :
    ∀ j, low < j → j ≤ hi → scan_down_in act a p lo hi j = scan_down act a p j := by
  intro j
  induction j with
  | zero => intro h; omega
  | succ j ih =>
    intro h1 h2
    unfold scan_down_in scan_down
    rw [if_pos (by omega)]
    by_cases hc : act (a j) < p
    · rw [if_pos hc, if_pos hc]
      have : j ≠ low := by
        intro e; subst e; exact hp hc
      exact ih (by omega) (by omega)
    · rw [if_neg hc, if_neg hc]

theorem scan_down_lt {α : Type} [LinearOrder α] (act : Nat → α) (a : Nat → Nat) (p : α) :
    ∀ j j1, scan_down act a p j = some j1 → j1 < j := by
  intro j
  induction j with
  | zero => intro j1 h; unfold scan_down at h; cases h
  | succ j ih =>
    intro j1 h
    unfold scan_down at h
    by_cases hc : act (a j) < p
    · rw [if_pos hc] at h
      have := ih j1 h
      omega
    · rw [if_neg hc] at h
      cases h; omega

theorem scan_up_to_in_eq {α : Type} [LinearOrder α] (act : Nat → α) (a : Nat → Nat) (p : α)
    (lo hi j : Nat) (hj : j < hi) :
    ∀ fuel i, lo ≤ i → scan_up_to_in act a p lo hi j fuel i = some (scan_up_to act a p j fuel i) := by
  intro fuel
  induction fuel with
  | zero => intro i _; rfl
  | succ fuel ih =>
    intro i hi1
    unfold scan_up_to_in scan_up_to
    by_cases h1 : i + 1 ≤ j
    · rw [if_pos h1, if_pos (by omega)]
      by_cases h2 : act (a (i + 1)) > p
      · rw [if_pos h2, if_pos ⟨h1, h2⟩]
        exact ih (i + 1) (by omega)
      · rw [if_neg h2, if_neg (fun h => h2 h.2)]
    · rw [if_neg h1, if_neg (fun h => h1 h.1)]

theorem scan_up_in_eq {α : Type} [LinearOrder α] (act : Nat → α) (a : Nat → Nat) (p : α)
    (lo hi : Nat) :
    ∀ fuel i, lo ≤ i → scan_up_in act a p lo hi fuel i = scan_up act a p hi fuel i := by
  intro fuel
  induction fuel with
  | zero => intro i _; rfl
  | succ fuel ih =>
    intro i hi1
    unfold scan_up_in scan_up
    by_cases h1 : i + 1 < hi
    · rw [if_pos ⟨by omega, h1⟩, if_pos h1]
      by_cases h2 : act (a (i + 1)) > p
      · rw [if_pos h2, if_pos h2]
        exact ih (i + 1) (by omega)
      · rw [if_neg h2, if_neg h2]
    · rw [if_neg (fun h => h1 h.2), if_neg h1]

theorem scan_up_gt {α : Type} [LinearOrder α] (act : Nat → α) (a : Nat → Nat) (p : α)
    (n : Nat) : ∀ fuel i i1, scan_up act a p n fuel i = some i1 → i < i1 := by
  intro fuel
  induction fuel with
  | zero => intro i i1 h; unfold scan_up at h; cases h
  | succ fuel ih =>
    intro i i1 h
    unfold scan_up at h
    by_cases h1 : i + 1 < n
    · rw [if_pos h1] at h
      by_cases h2 : act (a (i + 1)) > p
      · rw [if_pos h2] at h
        have := ih (i + 1) i1 h
        omega
      · rw [if_neg h2] at h
        cases h; omega
    · rw [if_neg h1] at h; cases h

theorem split_loop_in_eq {α : Type} [LinearOrder α] (act : Nat → α) (p : α)
    (lo hi low : Nat) (hlo : lo ≤ low) :
    ∀ fuel (a : Nat → Nat) i j, ¬ (act (a low) < p) → low < i → j < hi →
      split_loop_in act p lo hi fuel a i j = split_loop act p hi fuel a i j := by
  intro fuel
  induction fuel with
  | zero => intro a i j _ _ _; rfl
  | succ fuel ih =>
    intro a i j hp hi1 hj
    unfold split_loop_in split_loop
    by_cases hij : i < j
    · rw [if_pos hij, if_pos hij]
      have es : swap_entries_in lo hi a i j = some (swap_entries a i j) := by
        unfold swap_entries_in
        rw [if_pos (by omega)]
      rw [es]
      dsimp only
      have hp1 : ¬ (act (swap_entries a i j low) < p) := by
        rw [swap_entries_other a (by omega) (by omega)]; exact hp
      rw [scan_down_in_eq act _ p lo hi low hlo hp1 j (by omega) (by omega),
        scan_up_in_eq act _ p lo hi (hi - i) i (by omega)]
      cases e1 : scan_down act (swap_entries a i j) p j with
      | none => rfl
      | some j1 =>
        dsimp only
        cases e2 : scan_up act (swap_entries a i j) p hi (hi - i) i with
        | none => rfl
        | some i1 =>
          dsimp only
          have := scan_down_lt act _ p j j1 e1
          have := scan_up_gt act _ p hi _ i i1 e2
          exact ih _ i1 j1 hp1 (by omega) (by omega)
    · rw [if_neg hij, if_neg hij]

theorem split_pass_in_eq {α : Type} [LinearOrder α] (act : Nat → α) (lo hi : Nat)
    (a : Nat → Nat) {low high : Nat} (hlo : lo ≤ low) (hlh : low < high) (hhi : high ≤ hi) :
    split_pass_in act lo hi a low high = split_pass act hi a low high := by
  obtain ⟨b, j, e, _, r1, r2, _⟩ := split_pass_spec act hi a hlh hhi
  rw [e]
  unfold split_pass at e
  unfold split_pass_in
  rw [if_pos (by omega),
    scan_down_in_eq act a (act (a low)) lo hi low hlo (lt_irrefl _) high hlh hhi]
  dsimp only at e
  cases e0 : scan_down act a (act (a low)) high with
  | none => rw [e0] at e; cases e
  | some j0 =>
    rw [e0] at e
    dsimp only at e ⊢
    have hj0 := scan_down_lt act a (act (a low)) high j0 e0
    rw [scan_up_to_in_eq act a (act (a low)) lo hi j0 (by omega) (j0 - low) low hlo]
    dsimp only
    have hi0 := (scan_up_to_spec act a (act (a low)) j0 (j0 - low) low (le_refl _)).1
    rw [split_loop_in_eq act (act (a low)) lo hi low hlo (j0 - _) a _ j0 (lt_irrefl _) hi0
      (by omega)]
    cases e1 : split_loop act (act (a low)) hi
        (j0 - scan_up_to act a (act (a low)) j0 (j0 - low) low) a
        (scan_up_to act a (act (a low)) j0 (j0 - low) low) j0 with
    | none => rw [e1] at e; cases e
    | some r =>
      obtain ⟨a1, j2⟩ := r
      rw [e1] at e
      dsimp only at e ⊢
      cases e
      unfold swap_entries_in
      rw [if_pos (by omega)]
      rfl

theorem quick_split_loop_in_eq {α : Type} [LinearOrder α] (act : Nat → α) (lo hi half : Nat) :
    ∀ fuel (a : Nat → Nat) low high, lo ≤ low → low ≤ half → half < high → high ≤ hi →
      quick_split_loop_in act lo hi half fuel a low high =
        quick_split_loop act hi half fuel a low high := by
  intro fuel
  induction fuel with
  | zero => intro a low high _ _ _ _; rfl
  | succ fuel ih =>
    intro a low high h1 h2 h3 h4
    unfold quick_split_loop_in quick_split_loop
    rw [split_pass_in_eq act lo hi a h1 (by omega) h4]
    obtain ⟨b, j, e, _, r1, r2, _⟩ := split_pass_spec act hi a (by omega : low < high) h4
    rw [e]
    dsimp only
    by_cases hj : j = half
    · rw [if_pos hj, if_pos hj]
    · rw [if_neg hj, if_neg hj]
      by_cases hlt : j < half
      · rw [if_pos hlt, if_pos hlt]
        exact ih b (j + 1) high (by omega) (by omega) h3 h4
      · rw [if_neg hlt, if_neg hlt]
        exact ih b low j h1 h2 (by omega) (by omega)

theorem quick_split_in_eq {α : Type} [LinearOrder α] (act : Nat → α) (a : Nat → Nat)
    (low high : Nat) : quick_split_in act low high a low high = quick_split act high a low high := by
  unfold quick_split_in quick_split
  by_cases h : high ≤ low + 1
  · rw [if_pos h, if_pos h]
  · rw [if_neg h, if_neg h]
    exact quick_split_loop_in_eq act low high _ _ a low high (le_refl _) (by omega) (by omega)
      (le_refl _)

/-- C34, the part that fails: in the state of the first conflict of the Horn
chain (conflict `{x3, not x2}` at decision level 0, the base level),
`resolve_conflict` returns with the buffer of the learned clause empty, so the
learned clause `{not x1}` is not derived. -/
theorem horn_chain_derives_no_learned_clause :
    sample_horn_conflict.inconsistent = true ∧
    sample_horn_conflict.conflict = [6, 5, end_clause] ∧
    ¬ (∃ t, resolve_conflict 20 sample_horn_conflict = some t ∧ t.buffer = [neg_lit 1]) := by
  refine ⟨by decide, by decide, ?_⟩
  rintro ⟨t, e, hb⟩
  have h : (resolve_conflict 20 sample_horn_conflict).map (fun u => u.buffer) = some [] := by
    decide
  rw [e] at h
  simp only [Option.map_some', Option.some.injEq] at h
  rw [hb] at h
  revert h
  decide

/-- C34 amended: after the four clauses of the Horn chain are added with
`add_clause` to an idle core with the variables 1 to 3, `base_propagate` returns
false with status Unsat, and `start_search` followed by `smt_process` ends with
status Unsat (also when `start_search` pushes a base level); the conflict
`{x3, not x2}` is found at the base level, `resolve_conflict` returns at once,
and no learned clause is derived or added. -/
theorem horn_chain_unsat_at_base :
    (base_propagate sample_idle_theory 20 5 sample_horn).map
        (fun r => (r.1, horn_view r.2.core)) =
      some (false, smt_status_t.STATUS_UNSAT, true, [6, 5, end_clause], [], [], [2, 7, 4], 0, 0) ∧
    (smt_process sample_idle_theory true 20 5 10 sample_horn_search sample_heap0).map
        (fun r => horn_view r.1.core) =
      some (smt_status_t.STATUS_UNSAT, true, [6, 5, end_clause], [], [], [2, 7, 4], 0, 0) ∧
    (smt_process sample_idle_theory true 20 5 10
        { sample_horn_clean with core := start_search sample_horn_clean.core } sample_heap0).map
        (fun r => horn_view r.1.core) =
      some (smt_status_t.STATUS_UNSAT, true, [6, 5, end_clause], [], [], [2, 7, 4], 1, 1) ∧
    (resolve_conflict 20 sample_horn_conflict).map horn_view =
      some (smt_status_t.STATUS_SEARCHING, true, [6, 5, end_clause], [], [], [2, 7, 4], 0, 0) := by
  refine ⟨by rfl, by rfl, by rfl, by rfl⟩

/-! ## Substitution from an arithmetic equality (src/src/context.c) -/

theorem poly_subst_loop_eq (x : Int) (a : ℚ) : ∀ (p q : List monomial_t),
    poly_subst_loop x a p q = q ++ poly_subst_spec p x a := by
  intro p
  induction p with
  | nil => intro q; simp [poly_subst_loop, poly_subst_spec]
  | cons m ms ih =>
    intro q
    unfold poly_subst_loop
    by_cases h : m.var ≠ x
    · rw [if_pos h, ih]
      simp [poly_subst_spec, List.filter_cons, h]
    · rw [if_neg h, ih]
      simp [poly_subst_spec, List.filter_cons, h]

theorem poly_coeff_loop_absent (x : Int) : ∀ (p : List monomial_t) (a : Option ℚ),
    x ∉ p.map (fun m => m.var) → poly_coeff_loop x p a = a := by
  intro p
  induction p with
  | nil => intro a _; rfl
  | cons m ms ih =>
    intro a h
    simp only [List.map_cons, List.mem_cons, not_or] at h
    unfold poly_coeff_loop
    rw [if_neg (fun e => h.1 e.symm)]
    exact ih a h.2

theorem poly_coeff_loop_eq (x : Int) (a : ℚ) : ∀ (p : List monomial_t) (b : Option ℚ),
    (p.map (fun m => m.var)).Nodup → ({ var := x, coeff := a } : monomial_t) ∈ p →
    poly_coeff_loop x p b = some a := by
  intro p
  induction p with
  | nil => intro b _ h; cases h
  | cons m ms ih =>
    intro b hnd hm
    simp only [List.map_cons, List.nodup_cons] at hnd
    unfold poly_coeff_loop
    rcases List.mem_cons.1 hm with e | e
    · subst e
      dsimp only
      rw [if_pos rfl]
      exact poly_coeff_loop_absent x ms _ hnd.1
    · have hx : m.var ≠ x := by
        intro e2
        apply hnd.1
        rw [e2]
        exact List.mem_map.2 ⟨_, e, rfl⟩
      rw [if_neg hx]
      exact ih b hnd.2 e

theorem poly_eval_upd_absent (v : Int → ℚ) (x : Int) (E : ℚ) : ∀ p : List monomial_t,
    x ∉ p.map (fun m => m.var) → poly_eval (upd v x E) p = poly_eval v p := by
  intro p
  induction p with
  | nil => intro _; rfl
  | cons m ms ih =>
    intro h
    simp only [List.map_cons, List.mem_cons, not_or] at h
    have e := ih h.2
    unfold poly_eval at e ⊢
    simp only [List.map_cons, List.sum_cons, e]
    rw [upd_ne _ _ (fun e => h.1 e.symm)]

theorem filter_absent (x : Int) : ∀ p : List monomial_t,
    x ∉ p.map (fun m => m.var) → p.filter (fun m => decide (m.var ≠ x)) = p := by
  intro p h
  apply List.filter_eq_self.2
  intro m hm
  simp only [decide_eq_true_eq]
  intro e
  exact h (List.mem_map.2 ⟨m, hm, e⟩)

theorem poly_eval_upd_split (v : Int → ℚ) (x : Int) (a E : ℚ) : ∀ p : List monomial_t,
    (p.map (fun m => m.var)).Nodup → ({ var := x, coeff := a } : monomial_t) ∈ p →
    poly_eval (upd v x E) p =
      a * E + poly_eval v (p.filter (fun m => decide (m.var ≠ x))) := by
  intro p
  induction p with
  | nil => intro _ h; cases h
  | cons m ms ih =>
    intro hnd hm
    simp only [List.map_cons, List.nodup_cons] at hnd
    rcases List.mem_cons.1 hm with e | e
    · subst e
      have h1 := poly_eval_upd_absent v x E ms hnd.1
      have h2 := filter_absent x ms hnd.1
      unfold poly_eval at h1 ⊢
      simp only [List.map_cons, List.sum_cons, List.filter_cons, ne_eq, not_true_eq_false,
        decide_False, Bool.false_eq_true, if_false, h1, h2, upd_same]
    · have hx : m.var ≠ x := by
        intro e2
        apply hnd.1
        rw [e2]
        exact List.mem_map.2 ⟨_, e, rfl⟩
      have h1 := ih hnd.2 e
      unfold poly_eval at h1 ⊢
      simp only [List.map_cons, List.sum_cons, List.filter_cons, ne_eq, hx, not_false_eq_true,
        decide_True, if_true, h1]
      rw [upd_ne _ _ hx]
      ring

theorem poly_eval_subst_spec (v : Int → ℚ) (a : ℚ) : ∀ l : List monomial_t,
    poly_eval v (l.map (fun m => ({ var := m.var, coeff := -m.coeff / a } : monomial_t))) =
      -(poly_eval v l) / a := by
  intro l
  induction l with
  | nil => simp [poly_eval]
  | cons m ms ih =>
    unfold poly_eval at ih ⊢
    simp only [List.map_cons, List.sum_cons, ih]
    ring

theorem build_poly_substitution_eq (p : List monomial_t) (x : Int) (a : ℚ)
    (hnd : (p.map (fun m => m.var)).Nodup) (hm : ({ var := x, coeff := a } : monomial_t) ∈ p) :
    build_poly_substitution p x = some (poly_subst_spec p x a) := by
  unfold build_poly_substitution
  rw [poly_coeff_loop_eq x a p none hnd hm]
  dsimp only
  rw [poly_subst_loop_eq]
  rfl

theorem poly_subst_zero (p : List monomial_t) (x : Int) (a : ℚ) (ha : a ≠ 0)
    (hnd : (p.map (fun m => m.var)).Nodup) (hm : ({ var := x, coeff := a } : monomial_t) ∈ p)
    (v : Int → ℚ) :
    poly_eval (upd v x (poly_eval v (poly_subst_spec p x a))) p = 0 := by
  rw [poly_eval_upd_split v x a _ p hnd hm]
  unfold poly_subst_spec
  rw [poly_eval_subst_spec]
  field_simp
  ring

theorem q_is_integer_neg (r : ℚ) : q_is_integer (-r) = q_is_integer r := by
  unfold q_is_integer
  simp

theorem integralpoly_loop_spec (a : ℚ) : ∀ p : List monomial_t,
    integralpoly_loop a p = true → ∀ m ∈ p, q_divides a m.coeff = true := by
  intro p
  induction p with
  | nil => intro _ m hm; cases hm
  | cons m ms ih =>
    intro h m2 hm2
    unfold integralpoly_loop at h
    by_cases hq : q_divides a m.coeff = false
    · rw [if_pos hq] at h; cases h
    · rw [if_neg hq] at h
      rcases List.mem_cons.1 hm2 with e | e
      · subst e; simpa using hq
      · exact ih h m2 e

theorem q_divides_spec (a c : ℚ) (ha : a ≠ 0) (h : q_divides a c = true) :
    ∃ k : ℤ, c = (k : ℚ) * a := by
  unfold q_divides q_is_integer at h
  simp only [decide_eq_true_eq] at h
  refine ⟨(c / a).num, ?_⟩
  have e : ((c / a).num : ℚ) = c / a := by
    have := Rat.num_div_den (c / a)
    rw [h] at this
    simpa using this
  rw [e]
  field_simp

theorem try_poly_substitution_loop_spec {τ : Type} (NULL_TERM : Int) (pf : Nat)
    (tt : term_table_t) (var_is_primitive : Int → Bool) (term_of_var : Int → Int)
    (is_real_term : Int → Bool) (all_int : Bool) (p : List monomial_t) (d : Int → Nat)
    (hpf : ∀ t, d t < pf) (hterm : ∀ x, 0 ≤ term_of_var x) :
    ∀ (ms : List monomial_t) (c : subst_ctx_t τ), PartOk NULL_TERM c.partition d →
      ∃ t c1, try_poly_substitution_loop NULL_TERM pf tt var_is_primitive term_of_var
          is_real_term all_int p ms c = some (t, c1) ∧
        (t = NULL_TERM ∨ ∃ m ∈ ms, t = term_of_var m.var ∧ var_is_primitive m.var = true ∧
          (is_real_term t = true ∨
            (all_int = true ∧ integralpoly_after_div p m.coeff = true))) := by
  intro ms
  induction ms with
  | nil => intro c _; exact ⟨NULL_TERM, c, rfl, Or.inl rfl⟩
  | cons m ms ih =>
    intro c ok
    unfold try_poly_substitution_loop
    by_cases hp : var_is_primitive m.var = true
    · rw [if_pos hp]
      obtain ⟨r, c2, e, _, _, _, _, ok2, _⟩ :=
        find_term_root_spec ok (hterm m.var) pf (hpf _)
      unfold is_elimination_candidate
      rw [e]
      dsimp only
      by_cases hb : (is_unassigned_var tt c2 r &&
          decide (subst_candidate NULL_TERM c2 r = NULL_TERM)) = true
      · rw [if_pos hb]
        by_cases hc : is_real_term (term_of_var m.var) = true ∨
            (all_int = true ∧ integralpoly_after_div p m.coeff = true)
        · rw [if_pos hc]
          exact ⟨_, c2, rfl, Or.inr ⟨m, List.mem_cons_self _ _, rfl, hp, hc⟩⟩
        · rw [if_neg hc]
          obtain ⟨t, c1, e1, h1⟩ := ih c2 ok2
          refine ⟨t, c1, e1, ?_⟩
          rcases h1 with h1 | ⟨m1, hm1, h1⟩
          · exact Or.inl h1
          · exact Or.inr ⟨m1, List.mem_cons_of_mem _ hm1, h1⟩
      · rw [if_neg hb]
        obtain ⟨t, c1, e1, h1⟩ := ih c2 ok2
        refine ⟨t, c1, e1, ?_⟩
        rcases h1 with h1 | ⟨m1, hm1, h1⟩
        · exact Or.inl h1
        · exact Or.inr ⟨m1, List.mem_cons_of_mem _ hm1, h1⟩
    · rw [if_neg hp]
      obtain ⟨t, c1, e1, h1⟩ := ih c ok
      refine ⟨t, c1, e1, ?_⟩
      rcases h1 with h1 | ⟨m1, hm1, h1⟩
      · exact Or.inl h1
      · exact Or.inr ⟨m1, List.mem_cons_of_mem _ hm1, h1⟩

theorem polynomial_is_int_spec (const_idx : Int) (var_is_int : Int → Bool)
    (p : List monomial_t) (h : polynomial_is_int const_idx var_is_int p = true) :
    ∀ m ∈ p, q_is_integer m.coeff = true ∧ (m.var = const_idx ∨ var_is_int m.var = true) := by
  intro m hm
  unfold polynomial_is_int at h
  have := List.all_eq_true.1 h m hm
  simpa using this

theorem poly_subst_spec_integer (p : List monomial_t) (x : Int) (a : ℚ)
    (hint : ∀ m ∈ p, q_is_integer m.coeff = true)
    (hdiv : integralpoly_after_div p a = true) :
    ∀ n ∈ poly_subst_spec p x a, q_is_integer n.coeff = true := by
  intro n hn
  unfold poly_subst_spec at hn
  obtain ⟨m, hm, e⟩ := List.mem_map.1 hn
  have hmp : m ∈ p := (List.mem_filter.1 hm).1
  subst e
  dsimp only
  unfold integralpoly_after_div at hdiv
  by_cases h1 : a = 1 ∨ a = -1
  · rcases h1 with h1 | h1
    · subst h1
      rw [div_one, q_is_integer_neg]
      exact hint m hmp
    · subst h1
      rw [neg_div_neg_eq, div_one]
      exact hint m hmp
  · rw [if_neg h1] at hdiv
    have := integralpoly_loop_spec a p hdiv m hmp
    unfold q_divides at this
    rw [neg_div, q_is_integer_neg]
    exact this

/-- C31: for a polynomial `p` with distinct variables and non-zero
coefficients, (1) if `x` has the coefficient `a` in `p` then
`build_poly_substitution(p, x)` returns the polynomial `q` with exactly the
monomials `(-c_y / a) * y` for the variables `y != x` of `p`, and the value of
`p` is zero when `x` is given the value of `q`; (2) `try_poly_substitution`
returns, and when it returns a term that is not real, `p` is an integral
polynomial, the term is the term of a primitive variable `x` of `p` whose
coefficient is 1, -1 or divides every coefficient of `p`, and the polynomial
built for `x` has integer coefficients. -/
theorem poly_substitution_spec {τ : Type} (NULL_TERM : Int) (pf : Nat) (tt : term_table_t)
    (var_is_primitive : Int → Bool) (term_of_var : Int → Int) (is_real_term : Int → Bool)
    (const_idx : Int) (var_is_int : Int → Bool) (d : Int → Nat) (p : List monomial_t)
    (c : subst_ctx_t τ) (ok : PartOk NULL_TERM c.partition d) (hpf : ∀ t, d t < pf)
    (hterm : ∀ x, 0 ≤ term_of_var x) (hnd : (p.map (fun m => m.var)).Nodup)
    (hnz : ∀ m ∈ p, m.coeff ≠ 0) :
    (∀ x a, ({ var := x, coeff := a } : monomial_t) ∈ p →
      build_poly_substitution p x = some (poly_subst_spec p x a) ∧
      ∀ v, poly_eval (upd v x (poly_eval v (poly_subst_spec p x a))) p = 0) ∧
    ∃ t c1, try_poly_substitution NULL_TERM pf tt var_is_primitive term_of_var is_real_term
        const_idx var_is_int p c = some (t, c1) ∧
      (t ≠ NULL_TERM → is_real_term t = false →
        (∀ m ∈ p, q_is_integer m.coeff = true ∧ (m.var = const_idx ∨ var_is_int m.var = true)) ∧
        ∃ m ∈ p, var_is_primitive m.var = true ∧ t = term_of_var m.var ∧
          (m.coeff = 1 ∨ m.coeff = -1 ∨ ∀ m1 ∈ p, ∃ k : ℤ, m1.coeff = (k : ℚ) * m.coeff) ∧
          build_poly_substitution p m.var = some (poly_subst_spec p m.var m.coeff) ∧
          ∀ n ∈ poly_subst_spec p m.var m.coeff, q_is_integer n.coeff = true) := by
  refine ⟨fun x a hm => ⟨build_poly_substitution_eq p x a hnd hm,
    fun v => poly_subst_zero p x a (hnz _ hm) hnd hm v⟩, ?_⟩
  obtain ⟨t, c1, e, h⟩ := try_poly_substitution_loop_spec NULL_TERM pf tt var_is_primitive
    term_of_var is_real_term (polynomial_is_int const_idx var_is_int p) p d hpf hterm p c ok
  refine ⟨t, c1, e, fun hne hreal => ?_⟩
  rcases h with h | ⟨m, hm, ht, hprim, hc⟩
  · exact absurd h hne
  · rcases hc with hc | ⟨hall, hdiv⟩
    · rw [hc] at hreal; cases hreal
    · have hint := polynomial_is_int_spec const_idx var_is_int p hall
      refine ⟨hint, m, hm, hprim, ht, ?_, ?_, ?_⟩
      · by_cases h1 : m.coeff = 1 ∨ m.coeff = -1
        · rcases h1 with h1 | h1
          · exact Or.inl h1
          · exact Or.inr (Or.inl h1)
        · refine Or.inr (Or.inr fun m1 hm1 => ?_)
          have hd := hdiv
          unfold integralpoly_after_div at hd
          rw [if_neg h1] at hd
          exact q_divides_spec _ _ (hnz m hm) (integralpoly_loop_spec _ p hd m1 hm1)
      · exact build_poly_substitution_eq p m.var m.coeff hnd hm
      · exact poly_subst_spec_integer p m.var m.coeff (fun m1 hm1 => (hint m1 hm1).1) hdiv

/-- Witness for C31: the polynomial `2*x1 + 4*x4 + 6` in the sample context without
substitution candidates,
where the variable `x` has the term `x`, every variable is primitive and an
integer, and no term is real. -/
theorem poly_substitution_spec_witness :
    (∀ x a, ({ var := x, coeff := a } : monomial_t) ∈ sample_poly →
      build_poly_substitution sample_poly x = some (poly_subst_spec sample_poly x a) ∧
      ∀ v, poly_eval (upd v x (poly_eval v (poly_subst_spec sample_poly x a))) sample_poly = 0) ∧
    ∃ t c1, try_poly_substitution sample_null 2 sample_term_table (fun x => decide (x ≠ 0))
        (fun x => x.natAbs) (fun _ => false) 0 (fun _ => true) sample_poly sample_poly_ctx =
          some (t, c1) ∧
      (t ≠ sample_null → (fun _ => false) t = false →
        (∀ m ∈ sample_poly, q_is_integer m.coeff = true ∧
          (m.var = 0 ∨ (fun _ => true) m.var = true)) ∧
        ∃ m ∈ sample_poly, (fun x => decide (x ≠ 0)) m.var = true ∧
          t = (fun x : Int => (x.natAbs : Int)) m.var ∧
          (m.coeff = 1 ∨ m.coeff = -1 ∨
            ∀ m1 ∈ sample_poly, ∃ k : ℤ, m1.coeff = (k : ℚ) * m.coeff) ∧
          build_poly_substitution sample_poly m.var =
            some (poly_subst_spec sample_poly m.var m.coeff) ∧
          ∀ n ∈ poly_subst_spec sample_poly m.var m.coeff, q_is_integer n.coeff = true) :=
  poly_substitution_spec sample_null 2 sample_term_table (fun x => decide (x ≠ 0))
    (fun x => x.natAbs) (fun _ => false) 0 (fun _ => true) sample_class_height sample_poly
    sample_poly_ctx partOk_sample_subst (by intro t; unfold sample_class_height; split <;> decide)
    (by intro x; exact Int.natCast_nonneg _) (by decide) (by simp [sample_poly])

/-! ## Flattening of the assertions (src/src/context.c) -/

theorem flatten_loop_run {τ : Type} (NULL_TERM : Int) (pf : Nat) (is_subtype : τ → τ → Bool)
    (inf_type : τ → τ → τ) (ft : flat_terms_t τ) {n : Nat} {c c1 : flat_ctx_t τ}
    {s s1 : List tree_record_t} {p p1 : Bool}
    (h : FlatRun NULL_TERM pf is_subtype inf_type ft n c s p c1 s1 p1) (k : Nat) :
    flatten_loop NULL_TERM pf is_subtype inf_type ft (n + k) c s p =
      flatten_loop NULL_TERM pf is_subtype inf_type ft k c1 s1 p1 := by
  induction h with
  | refl c s p => rw [Nat.zero_add]
  | @step m c c1 c2 top rest s1 s2 p p1 p2 e _ ih =>
    have : m + 1 + k = (m + k) + 1 := by omega
    rw [this, flatten_loop, e]
    exact ih

theorem stack_polarity_zero (top : tree_record_t) (rest : List tree_record_t)
    (h : top.counter = 0) : stack_polarity (top :: rest) = stack_polarity rest := by
  rw [stack_polarity, if_neg (fun hh => hh.2 h)]

theorem stack_polarity_other (top : tree_record_t) (rest : List tree_record_t)
    (h : top.kind ≠ term_kind_t.NOT_TERM) :
    stack_polarity (top :: rest) = stack_polarity rest := by
  rw [stack_polarity, if_neg (fun hh => h hh.1)]

theorem stack_polarity_not (top : tree_record_t) (rest : List tree_record_t)
    (h : top.kind = term_kind_t.NOT_TERM) (hc : top.counter ≠ 0) :
    stack_polarity (top :: rest) = !(stack_polarity rest) := by
  rw [stack_polarity, if_pos ⟨h, hc⟩]

theorem flatInv_init (stack : List tree_record_t) (h : ∀ r ∈ stack, r.counter = 0) :
    FlatInv stack true := by
  constructor
  · induction stack with
    | nil => rfl
    | cons r rest ih =>
      rw [stack_polarity_zero r rest (h r (List.mem_cons_self _ _))]
      exact ih (fun x hx => h x (List.mem_cons_of_mem _ hx))
  · intro r below hs _ hc
    exact absurd (h r (hs.subset (List.mem_cons_self _ _))) hc

theorem flatInv_pop {top : tree_record_t} {rest : List tree_record_t} {pol : Bool}
    (I : FlatInv (top :: rest) pol) : FlatInv rest (stack_polarity rest) := by
  refine ⟨rfl, fun r below hs hk hc => ?_⟩
  exact I.2 r below (hs.trans (List.suffix_cons _ _)) hk hc

theorem suffix_cons_cases {α : Type} {a b : α} {l m : List α} (h : (a :: l) <:+ (b :: m)) :
    (a = b ∧ l = m) ∨ (a :: l) <:+ m := by
  rcases List.suffix_cons_iff.1 h with e | e
  · injection e with e1 e2
    exact Or.inl ⟨e1, e2⟩
  · exact Or.inr e

theorem flatInv_push {τ : Type} (ft : flat_terms_t τ) {top : tree_record_t}
    {rest : List tree_record_t} {pol : Bool} (I : FlatInv (top :: rest) pol) (child : Int)
    (hor : top.kind = term_kind_t.OR_TERM → top.counter = 0 → pol = false) :
    FlatInv (tree_stack_push_term ft ({ top with counter := top.counter + 1 } :: rest) child)
      (if top.kind = term_kind_t.NOT_TERM then !(stack_polarity rest) else stack_polarity rest) := by
  have hrest : FlatInv rest (stack_polarity rest) := flatInv_pop I
  have e1 : stack_polarity ({ top with counter := top.counter + 1 } :: rest) =
      (if top.kind = term_kind_t.NOT_TERM then !(stack_polarity rest) else stack_polarity rest) := by
    by_cases hk : top.kind = term_kind_t.NOT_TERM
    · rw [if_pos hk]
      exact stack_polarity_not { top with counter := top.counter + 1 } rest hk (by simp)
    · rw [if_neg hk]
      exact stack_polarity_other { top with counter := top.counter + 1 } rest hk
  constructor
  · unfold tree_stack_push_term
    rw [stack_polarity_zero _ _ rfl]
    exact e1.symm
  · intro r below hs hk hc
    unfold tree_stack_push_term at hs
    rcases suffix_cons_cases hs with ⟨e, _⟩ | hs1
    · subst e; exact absurd rfl hc
    · rcases suffix_cons_cases hs1 with ⟨e, e2⟩ | hs2
      · subst e; subst e2
        dsimp only at hk
        by_cases h0 : top.counter = 0
        · have hp := hor hk h0
          rw [← hp, I.1, stack_polarity_zero top _ h0]
        · exact I.2 top _ (List.suffix_refl _) hk h0
      · exact hrest.2 r below hs2 hk hc

theorem flatInv_step {τ : Type} (NULL_TERM : Int) (pf : Nat) (is_subtype : τ → τ → Bool)
    (inf_type : τ → τ → τ) (ft : flat_terms_t τ) {c c1 : flat_ctx_t τ} {top : tree_record_t}
    {rest s1 : List tree_record_t} {pol p1 : Bool} (I : FlatInv (top :: rest) pol)
    (h : flatten_step NULL_TERM pf is_subtype inf_type ft c top rest pol =
      some (flat_step_t.next c1 s1 p1)) : FlatInv s1 p1 := by
  have hpop : ∀ {q}, q = stack_polarity rest → FlatInv rest q := fun e => e ▸ flatInv_pop I
  have hother : top.kind ≠ term_kind_t.NOT_TERM → pol = stack_polarity rest := fun hk => by
    rw [I.1, stack_polarity_other _ _ hk]
  have hzero : top.counter = 0 → pol = stack_polarity rest := fun hk => by
    rw [I.1, stack_polarity_zero _ _ hk]
  have hpush : ∀ child, top.kind ≠ term_kind_t.NOT_TERM →
      (top.kind = term_kind_t.OR_TERM → top.counter = 0 → pol = false) →
      FlatInv (tree_stack_push_term ft ({ top with counter := top.counter + 1 } :: rest) child)
        pol := by
    intro child hk hor
    have := flatInv_push ft I child hor
    rw [if_neg hk, ← hother hk] at this
    exact this
  unfold flatten_step at h
  split at h
  · rename_i hv
    split at h
    · cases h; exact hpop (hzero hv.1)
    · cases h
  · unfold flatten_switch at h
    split at h
    all_goals (try dsimp only at h)
    case h_5 hk =>
      split at h
      · rename_i h0
        cases h
        have := flatInv_push ft I (top.desc.getD 0 0) (fun e => by rw [hk] at e; cases e)
        rw [if_pos hk, ← hzero h0] at this
        exact this
      · rename_i h0
        cases h
        exact hpop (by rw [I.1, stack_polarity_not _ _ hk h0]; simp)
    case h_6 hk =>
      have hn : top.kind ≠ term_kind_t.NOT_TERM := by rw [hk]; decide
      split at h
      · cases h; exact hpop (hother hn)
      · rename_i h0
        split at h
        · cases h
          refine hpush _ hn (fun _ hc => ?_)
          cases pol
          · rfl
          · exact absurd ⟨hc, rfl⟩ h0
        · cases h; exact hpop (hother hn)
    case h_7 hk =>
      have hn : top.kind ≠ term_kind_t.NOT_TERM := by rw [hk]; decide
      have hor : top.kind = term_kind_t.OR_TERM → top.counter = 0 → pol = false :=
        fun e => by rw [hk] at e; cases e
      split at h
      · split at h
        · split at h
          · cases h; exact hpush _ hn hor
          · cases h; exact hpush _ hn hor
        · cases h; exact hpop (hother hn)
      · cases h; exact hpop (hother hn)
    case h_2 hk =>
      have hn : top.kind ≠ term_kind_t.NOT_TERM := by rw [hk]; decide
      split at h
      · cases h
      · cases h; exact hpop (hother hn)
    case h_3 hk =>
      have hn : top.kind ≠ term_kind_t.NOT_TERM := by rw [hk]; decide
      split at h
      · cases h
      · split at h
        · split at h
          · cases h; exact hpop (hother hn)
          · cases h
        · cases h; exact hpop (hother hn)
    case h_8 hk =>
      have hn : top.kind ≠ term_kind_t.NOT_TERM := by rw [hk]; decide
      split at h
      · split at h
        · cases h
        · cases h; exact hpop (hother hn)
      · cases h; exact hpop (hother hn)
    case h_9 hk =>
      have hn : top.kind ≠ term_kind_t.NOT_TERM := by rw [hk]; decide
      split at h
      · split at h
        · cases h
        · cases h; exact hpop (hother hn)
      · cases h; exact hpop (hother hn)
    case h_10 hk =>
      have hn : top.kind ≠ term_kind_t.NOT_TERM := by rw [hk]; decide
      split at h
      · split at h
        · cases h
        · cases h; exact hpop (hother hn)
      · cases h; exact hpop (hother hn)
    case h_11 hk =>
      have hn : top.kind ≠ term_kind_t.NOT_TERM := by rw [hk]; decide
      split at h
      · cases h; exact hpop (hother hn)
      · cases h; exact hpop (hother hn)
    all_goals (rename_i hk)
    all_goals (have hn : top.kind ≠ term_kind_t.NOT_TERM := by rw [hk]; decide)
    all_goals (first | (cases h; done) | (cases h; exact hpop (hother hn)))

theorem flatFrame_refl {τ : Type} (c : flat_ctx_t τ) : FlatFrame c c := ⟨rfl, rfl, rfl, rfl⟩

theorem flatFrame_trans {τ : Type} {a b c : flat_ctx_t τ} (h1 : FlatFrame a b)
    (h2 : FlatFrame b c) : FlatFrame a c :=
  ⟨h2.1.trans h1.1, h2.2.1.trans h1.2.1, h2.2.2.1.trans h1.2.2.1, h2.2.2.2.trans h1.2.2.2⟩

theorem flatFrame_set_partition {τ : Type} (c : flat_ctx_t τ) (p : partition_t τ) :
    FlatFrame c (set_partition c p) := ⟨rfl, rfl, rfl, rfl⟩

theorem flatFrame_push_top_eq {τ : Type} (c : flat_ctx_t τ) (e : Int) :
    FlatFrame c (push_top_eq c e) := ⟨rfl, rfl, rfl, rfl⟩

theorem get_term_root_spec {τ : Type} {NULL_TERM : Int} {pf : Nat} (ft : flat_terms_t τ)
    {d : Int → Nat} {c : flat_ctx_t τ} (ok : PartOk NULL_TERM c.sub.partition d)
    (hpf : ∀ t, d t < pf) {t : Int} (ht : 0 ≤ t) :
    ∃ r c1, get_term_root NULL_TERM pf ft c t = some (r, c1) ∧
      PartOk NULL_TERM c1.sub.partition d ∧ FlatFrame c c1 := by
  obtain ⟨r, p1, e, hn, hr, ok1, _, _, _, hadd, _⟩ := partition_find_spec ok ht pf (hpf t)
  unfold get_term_root
  rw [e]
  dsimp only
  by_cases h : r < 0
  · rw [if_pos h]
    have hna : ¬ Added NULL_TERM c.sub.partition t := by
      intro ha
      have hro := (hr ha).1
      have := rootOf_added ok hro ha
      have := this.1
      omega
    have hna1 : ¬ Added NULL_TERM p1 t := fun ha => hna ((hadd t).1 ha)
    obtain ⟨ok2, _⟩ := partition_add_spec ok1 ht hna1 (ft.type t) (Nat.zero_le 255)
    exact ⟨t, _, rfl, ok2, flatFrame_set_partition _ _⟩
  · rw [if_neg h]
    exact ⟨r, _, rfl, ok1, flatFrame_set_partition _ _⟩

theorem process_var_term_eq_frame {τ : Type} (NULL_TERM : Int) (is_subtype : τ → τ → Bool)
    (inf_type : τ → τ → τ) (ft : flat_terms_t τ) (c : flat_ctx_t τ) (x1 y e : Int)
    (b : Bool) :
    FlatFrame c (process_var_term_eq NULL_TERM is_subtype inf_type ft c x1 y e b) := by
  unfold process_var_term_eq
  split
  · exact flatFrame_push_top_eq _ _
  · split
    · split
      · have h1 : FlatFrame c (make_term_root NULL_TERM ft c y) := by
          unfold make_term_root
          split
          · exact flatFrame_refl _
          · exact flatFrame_set_partition _ _
        dsimp only
        split
        · exact flatFrame_trans h1 (flatFrame_set_partition _ _)
        · exact flatFrame_trans h1 (flatFrame_set_partition _ _)
      · exact flatFrame_push_top_eq _ _
    · exact ⟨rfl, rfl, rfl, rfl⟩

theorem process_toplevel_eq_main_spec {τ : Type} {NULL_TERM : Int} {pf : Nat}
    (is_subtype : τ → τ → Bool) (inf_type : τ → τ → τ) (ft : flat_terms_t τ)
    {d : Int → Nat} {c : flat_ctx_t τ} (ok : PartOk NULL_TERM c.sub.partition d)
    (hpf : ∀ t, d t < pf) {x y : Int} (hx : 0 ≤ x) (hy : 0 ≤ y) (e : Int) :
    ∃ c1, process_toplevel_eq_main NULL_TERM pf is_subtype inf_type ft c x y e = some c1 ∧
      FlatFrame c c1 := by
  unfold process_toplevel_eq_main
  dsimp only
  split
  · obtain ⟨x1, c1, e1, ok1, f1⟩ := get_term_root_spec ft ok hpf hx
    rw [e1]
    dsimp only
    obtain ⟨y1, c2, e2, _, f2⟩ := get_term_root_spec ft ok1 hpf hy
    rw [e2]
    dsimp only
    have f12 := flatFrame_trans f1 f2
    split
    · exact ⟨_, rfl, f12⟩
    · split
      · exact ⟨_, rfl, flatFrame_trans f12 (flatFrame_set_partition _ _)⟩
      · exact ⟨_, rfl, flatFrame_trans f12 (flatFrame_push_top_eq _ _)⟩
  · split
    · obtain ⟨x1, c1, e1, _, f1⟩ := get_term_root_spec ft ok hpf hx
      rw [e1]
      exact ⟨_, rfl, flatFrame_trans f1 (process_var_term_eq_frame _ _ _ _ _ _ _ _ _)⟩
    · split
      · obtain ⟨y1, c1, e1, _, f1⟩ := get_term_root_spec ft ok hpf hy
        rw [e1]
        exact ⟨_, rfl, flatFrame_trans f1 (process_var_term_eq_frame _ _ _ _ _ _ _ _ _)⟩
      · exact ⟨_, rfl, flatFrame_push_top_eq _ _⟩

theorem process_toplevel_eq_spec {τ : Type} {NULL_TERM : Int} {pf : Nat}
    (is_subtype : τ → τ → Bool) (inf_type : τ → τ → τ) (ft : flat_terms_t τ)
    {d : Int → Nat} {c : flat_ctx_t τ} (ok : PartOk NULL_TERM c.sub.partition d)
    (hpf : ∀ t, d t < pf) (e : Int) (hdesc : ∀ x ∈ ft.desc e, 0 ≤ x) :
    ∃ c1, process_toplevel_eq NULL_TERM pf is_subtype inf_type ft c e = some c1 ∧
      FlatFrame c c1 := by
  have hget : ∀ i, 0 ≤ (ft.desc e).getD i 0 := by
    intro i
    by_cases hi : i < (ft.desc e).length
    · rw [List.getD_eq_getElem _ _ hi]
      exact hdesc _ (List.getElem_mem _)
    · rw [List.getD_eq_default _ _ (by omega)]
  unfold process_toplevel_eq
  split
  · exact process_toplevel_eq_main_spec is_subtype inf_type ft ok hpf (hget 0) (hget 1) e
  · exact ⟨_, rfl, flatFrame_push_top_eq _ _⟩

theorem term_code_is_map {τ : Type} (c : flat_ctx_t τ) (t : Int) (b : Bool) :
    term_code_is (map_term_to_bool c t b) t b = true := by
  unfold term_code_is map_term_to_bool set_term_color
  simp

theorem flatInv_run {τ : Type} (NULL_TERM : Int) (pf : Nat) (is_subtype : τ → τ → Bool)
    (inf_type : τ → τ → τ) (ft : flat_terms_t τ) {n : Nat} {c c1 : flat_ctx_t τ}
    {s s1 : List tree_record_t} {p p1 : Bool}
    (h : FlatRun NULL_TERM pf is_subtype inf_type ft n c s p c1 s1 p1) (I : FlatInv s p) :
    FlatInv s1 p1 := by
  induction h with
  | refl c s p => exact I
  | step e _ ih => exact ih (flatInv_step NULL_TERM pf is_subtype inf_type ft I e)

theorem flatten_assertions_abort {τ : Type} (NULL_TERM : Int) (pf : Nat)
    (is_subtype : τ → τ → Bool) (inf_type : τ → τ → τ) (ft : flat_terms_t τ)
    {n : Nat} {cin c c1 : flat_ctx_t τ} {stack0 rest : List tree_record_t} {top : tree_record_t}
    {pol : Bool} {code : Int}
    (hrun : FlatRun NULL_TERM pf is_subtype inf_type ft n (flat_reset cin) stack0 true c
      (top :: rest) pol)
    (hstep : flatten_step NULL_TERM pf is_subtype inf_type ft c top rest pol =
      some (flat_step_t.abort code c1)) (fuel : Nat) (hf : n < fuel) :
    flatten_assertions NULL_TERM pf is_subtype inf_type ft fuel cin stack0 = some (code, c1) := by
  obtain ⟨k, rfl⟩ : ∃ k, fuel = n + (k + 1) := ⟨fuel - n - 1, by omega⟩
  have e := flatten_loop_run NULL_TERM pf is_subtype inf_type ft hrun (k + 1)
  rw [flatten_loop, hstep] at e
  unfold flatten_assertions
  unfold flat_reset at e
  dsimp only at e ⊢
  rw [e]

theorem step_visited_abort {τ : Type} (NULL_TERM : Int) (pf : Nat)
    (is_subtype : τ → τ → Bool) (inf_type : τ → τ → τ) (ft : flat_terms_t τ)
    (c : flat_ctx_t τ) (top : tree_record_t) (rest : List tree_record_t) (pol : Bool)
    (h0 : top.counter = 0) (h : term_code_is c top.term (!pol) = true) :
    flatten_step NULL_TERM pf is_subtype inf_type ft c top rest pol =
      some (flat_step_t.abort TRIVIALLY_UNSAT c) := by
  unfold term_code_is at h
  simp only [Bool.and_eq_true, decide_eq_true_eq] at h
  have hne : term_code_is c top.term pol = false := by
    unfold term_code_is
    rw [h.2]
    cases pol <;> simp
  unfold flatten_step
  rw [if_pos ⟨h0, by rw [h.1]; decide⟩, hne]
  simp

theorem step_constant_abort {τ : Type} (NULL_TERM : Int) (pf : Nat)
    (is_subtype : τ → τ → Bool) (inf_type : τ → τ → τ) (ft : flat_terms_t τ)
    (c : flat_ctx_t τ) (top : tree_record_t) (rest : List tree_record_t) (pol : Bool)
    (hk : top.kind = term_kind_t.CONSTANT_TERM)
    (hw : c.sub.color top.term = term_color_t.white)
    (h : (pol = true ∧ top.term = ft.false_term) ∨ (pol = false ∧ top.term = ft.true_term)) :
    flatten_step NULL_TERM pf is_subtype inf_type ft c top rest pol =
      some (flat_step_t.abort TRIVIALLY_UNSAT c) := by
  unfold flatten_step
  rw [if_neg (fun hh => hh.2 hw)]
  simp only [flatten_switch, hk]
  rw [if_pos h]

theorem step_atom {τ : Type} (NULL_TERM : Int) (pf : Nat)
    (is_subtype : τ → τ → Bool) (inf_type : τ → τ → τ) (ft : flat_terms_t τ)
    (c : flat_ctx_t τ) (top : tree_record_t) (rest : List tree_record_t) (pol : Bool)
    (hw : c.sub.color top.term = term_color_t.white)
    (h : (is_eq_kind top.kind = true ∧ pol = false) ∨ is_atom_kind top.kind = true) :
    flatten_step NULL_TERM pf is_subtype inf_type ft c top rest pol =
      some (flat_step_t.next
        (map_term_to_bool { c with top_atoms := c.top_atoms ++ [top.term] } top.term pol)
        rest pol) := by
  unfold flatten_step
  rw [if_neg (fun hh => hh.2 hw)]
  rcases h with ⟨h, hp⟩ | h
  · unfold is_eq_kind at h
    simp only [Bool.or_eq_true, decide_eq_true_eq] at h
    subst hp
    rcases h with ((hk | hk) | hk) | hk <;> simp [flatten_switch, hk]
  · unfold is_atom_kind at h
    simp only [Bool.or_eq_true, decide_eq_true_eq] at h
    rcases h with (((((hk | hk) | hk) | hk) | hk) | hk) | hk <;> simp [flatten_switch, hk]

theorem step_formula {τ : Type} (NULL_TERM : Int) (pf : Nat)
    (is_subtype : τ → τ → Bool) (inf_type : τ → τ → τ) (ft : flat_terms_t τ)
    (c : flat_ctx_t τ) (top : tree_record_t) (rest : List tree_record_t) (pol : Bool)
    (h0 : top.counter = 0) (hw : c.sub.color top.term = term_color_t.white)
    (h : (top.kind = term_kind_t.OR_TERM ∧ pol = true) ∨
      (top.kind = term_kind_t.ITE_TERM ∧
        c.sub.color (top.desc.getD 0 0) = term_color_t.white)) :
    flatten_step NULL_TERM pf is_subtype inf_type ft c top rest pol =
      some (flat_step_t.next
        (map_term_to_bool { c with top_formulas := c.top_formulas ++ [top.term] } top.term pol)
        rest pol) := by
  unfold flatten_step
  rw [if_neg (fun hh => hh.2 hw)]
  rcases h with ⟨hk, hp⟩ | ⟨hk, hc⟩
  · subst hp
    simp [flatten_switch, hk, h0]
  · simp only [flatten_switch, hk]
    rw [if_pos h0, if_neg (fun hh => hh hc)]

theorem step_eq_true {τ : Type} {NULL_TERM : Int} {pf : Nat}
    (is_subtype : τ → τ → Bool) (inf_type : τ → τ → τ) (ft : flat_terms_t τ)
    {d : Int → Nat} {c : flat_ctx_t τ} (ok : PartOk NULL_TERM c.sub.partition d)
    (hpf : ∀ t, d t < pf) (top : tree_record_t) (rest : List tree_record_t)
    (hdesc : ∀ x ∈ ft.desc top.term, 0 ≤ x)
    (hw : c.sub.color top.term = term_color_t.white) (h : is_eq_kind top.kind = true) :
    ∃ c1, flatten_step NULL_TERM pf is_subtype inf_type ft c top rest true =
        some (flat_step_t.next (map_term_to_bool c1 top.term true) rest true) ∧
      FlatFrame c c1 := by
  unfold flatten_step
  rw [if_neg (fun hh => hh.2 hw)]
  unfold is_eq_kind at h
  simp only [Bool.or_eq_true, decide_eq_true_eq] at h
  obtain ⟨c1, e, f⟩ := process_toplevel_eq_spec is_subtype inf_type ft ok hpf top.term hdesc
  rcases h with ((hk | hk) | hk) | hk
  · exact ⟨c1, by simp [flatten_switch, hk, e], f⟩
  · exact ⟨c1, by simp [flatten_switch, hk, e], f⟩
  · exact ⟨c1, by simp [flatten_switch, hk, e], f⟩
  · exact ⟨push_top_eq c top.term, by simp [flatten_switch, hk], flatFrame_push_top_eq _ _⟩

theorem step_traversed {τ : Type} (NULL_TERM : Int) (pf : Nat)
    (is_subtype : τ → τ → Bool) (inf_type : τ → τ → τ) (ft : flat_terms_t τ)
    (c : flat_ctx_t τ) (top : tree_record_t) (rest : List tree_record_t) (pol : Bool)
    (I : FlatInv (top :: rest) pol) (h0 : top.counter ≠ 0)
    (h : top.kind = term_kind_t.NOT_TERM ∨
      (top.kind = term_kind_t.OR_TERM ∧ top.desc.length ≤ top.counter) ∨
      top.kind = term_kind_t.ITE_TERM) :
    flatten_step NULL_TERM pf is_subtype inf_type ft c top rest pol =
      some (flat_step_t.next (map_term_to_bool c top.term (stack_polarity rest)) rest
        (stack_polarity rest)) := by
  unfold flatten_step
  rw [if_neg (fun hh => h0 hh.1)]
  rcases h with hk | ⟨hk, hl⟩ | hk
  · have e : (!pol) = stack_polarity rest := by
      rw [I.1, stack_polarity_not _ _ hk h0]; simp
    simp [flatten_switch, hk, h0, e]
  · have e2 : stack_polarity rest = false := I.2 top rest (List.suffix_refl _) hk h0
    have e : pol = false := by
      rw [I.1, stack_polarity_other _ _ (by rw [hk]; decide), e2]
    subst e
    simp [flatten_switch, hk, h0, e2, Nat.not_lt.2 hl]
  · have e : pol = stack_polarity rest := by
      rw [I.1, stack_polarity_other _ _ (by rw [hk]; decide)]
    simp [flatten_switch, hk, h0, ← e]

theorem step_explore {τ : Type} (NULL_TERM : Int) (pf : Nat)
    (is_subtype : τ → τ → Bool) (inf_type : τ → τ → τ) (ft : flat_terms_t τ)
    (c : flat_ctx_t τ) (top : tree_record_t) (rest : List tree_record_t) (pol : Bool)
    (hw : c.sub.color top.term = term_color_t.white) :
    (top.kind = term_kind_t.NOT_TERM → top.counter = 0 →
      flatten_step NULL_TERM pf is_subtype inf_type ft c top rest pol =
        some (flat_step_t.next c
          (tree_stack_push_term ft ({ top with counter := top.counter + 1 } :: rest)
            (top.desc.getD 0 0)) (!pol))) ∧
    (top.kind = term_kind_t.OR_TERM → pol = false → top.counter < top.desc.length →
      flatten_step NULL_TERM pf is_subtype inf_type ft c top rest pol =
        some (flat_step_t.next c
          (tree_stack_push_term ft ({ top with counter := top.counter + 1 } :: rest)
            (top.desc.getD top.counter 0)) pol)) := by
  unfold flatten_step
  rw [if_neg (fun hh => hh.2 hw)]
  refine ⟨fun hk h0 => ?_, fun hk hp hl => ?_⟩
  · simp [flatten_switch, hk, h0]
  · subst hp
    simp [flatten_switch, hk, hl]

/-- C32: in every state that the loop of `flatten_assertions` reaches from the
stack of the assertions (all counters 0, polarity true), with the record `top`
of the term `t` above the stack `rest` and the polarity `pol`: `pol` is the
polarity in force above the stack (every negation being explored flips it).
(1) If `t` is reached (counter 0) with a code of the opposite Boolean value, or
is the constant false (true) reached with polarity true (false), the function
returns `TRIVIALLY_UNSAT`.  For a term without code: (2) an equality reached
with polarity false and a non-equality atom are pushed onto `top_atoms`;
(3) a disjunction reached with polarity true and a conditional whose condition
has no code are pushed onto `top_formulas`; (4) an equality reached with
polarity true is processed and leaves both vectors as they are; in each case
the term is mapped to the polarity and popped.  (5) A negation, a disjunction
or a conditional whose arguments have been explored is popped and mapped to
the polarity under which it was reached, which is the polarity in force above
`rest`.  (6) A negation reached first pushes its argument and flips the
polarity, a disjunction reached with polarity false pushes its next
argument. -/
theorem flatten_assertions_classifies {τ : Type} (NULL_TERM : Int) (pf : Nat)
    (is_subtype : τ → τ → Bool) (inf_type : τ → τ → τ) (ft : flat_terms_t τ)
    (d : Int → Nat) (cin c : flat_ctx_t τ) (stack0 rest : List tree_record_t)
    (top : tree_record_t) (n : Nat) (pol : Bool)
    (hinit : ∀ r ∈ stack0, r.counter = 0)
    (hrun : FlatRun NULL_TERM pf is_subtype inf_type ft n (flat_reset cin) stack0 true c
      (top :: rest) pol)
    (ok : PartOk NULL_TERM c.sub.partition d) (hpf : ∀ t, d t < pf)
    (hdesc : ∀ x ∈ ft.desc top.term, 0 ≤ x) :
    pol = stack_polarity (top :: rest) ∧
    (top.counter = 0 → term_code_is c top.term (!pol) = true →
      ∀ fuel, n < fuel →
        flatten_assertions NULL_TERM pf is_subtype inf_type ft fuel cin stack0 =
          some (TRIVIALLY_UNSAT, c)) ∧
    (top.kind = term_kind_t.CONSTANT_TERM → c.sub.color top.term = term_color_t.white →
      ((pol = true ∧ top.term = ft.false_term) ∨ (pol = false ∧ top.term = ft.true_term)) →
      ∀ fuel, n < fuel →
        flatten_assertions NULL_TERM pf is_subtype inf_type ft fuel cin stack0 =
          some (TRIVIALLY_UNSAT, c)) ∧
    (c.sub.color top.term = term_color_t.white →
      ((is_eq_kind top.kind = true ∧ pol = false) ∨ is_atom_kind top.kind = true) →
      ∃ c1, flatten_step NULL_TERM pf is_subtype inf_type ft c top rest pol =
          some (flat_step_t.next c1 rest pol) ∧
        c1.top_atoms = c.top_atoms ++ [top.term] ∧ c1.top_formulas = c.top_formulas ∧
        c1.sub.top_eqs = c.sub.top_eqs ∧ term_code_is c1 top.term pol = true) ∧
    (top.counter = 0 → c.sub.color top.term = term_color_t.white →
      ((top.kind = term_kind_t.OR_TERM ∧ pol = true) ∨
        (top.kind = term_kind_t.ITE_TERM ∧
          c.sub.color (top.desc.getD 0 0) = term_color_t.white)) →
      ∃ c1, flatten_step NULL_TERM pf is_subtype inf_type ft c top rest pol =
          some (flat_step_t.next c1 rest pol) ∧
        c1.top_formulas = c.top_formulas ++ [top.term] ∧ c1.top_atoms = c.top_atoms ∧
        c1.sub.top_eqs = c.sub.top_eqs ∧ term_code_is c1 top.term pol = true) ∧
    (c.sub.color top.term = term_color_t.white → is_eq_kind top.kind = true → pol = true →
      ∃ c1, flatten_step NULL_TERM pf is_subtype inf_type ft c top rest pol =
          some (flat_step_t.next c1 rest pol) ∧
        c1.top_atoms = c.top_atoms ∧ c1.top_formulas = c.top_formulas ∧
        term_code_is c1 top.term pol = true) ∧
    (top.counter ≠ 0 →
      (top.kind = term_kind_t.NOT_TERM ∨
        (top.kind = term_kind_t.OR_TERM ∧ top.desc.length ≤ top.counter) ∨
        top.kind = term_kind_t.ITE_TERM) →
      ∃ c1, flatten_step NULL_TERM pf is_subtype inf_type ft c top rest pol =
          some (flat_step_t.next c1 rest (stack_polarity rest)) ∧
        c1.top_atoms = c.top_atoms ∧ c1.top_formulas = c.top_formulas ∧
        term_code_is c1 top.term (stack_polarity rest) = true) ∧
    (c.sub.color top.term = term_color_t.white →
      (top.kind = term_kind_t.NOT_TERM → top.counter = 0 →
        flatten_step NULL_TERM pf is_subtype inf_type ft c top rest pol =
          some (flat_step_t.next c
            (tree_stack_push_term ft ({ top with counter := top.counter + 1 } :: rest)
              (top.desc.getD 0 0)) (!pol))) ∧
      (top.kind = term_kind_t.OR_TERM → pol = false → top.counter < top.desc.length →
        flatten_step NULL_TERM pf is_subtype inf_type ft c top rest pol =
          some (flat_step_t.next c
            (tree_stack_push_term ft ({ top with counter := top.counter + 1 } :: rest)
              (top.desc.getD top.counter 0)) pol))) := by
  have I : FlatInv (top :: rest) pol :=
    flatInv_run NULL_TERM pf is_subtype inf_type ft hrun (flatInv_init stack0 hinit)
  refine ⟨I.1, ?_, ?_, ?_, ?_, ?_, ?_, ?_⟩
  · intro h0 h fuel hf
    exact flatten_assertions_abort NULL_TERM pf is_subtype inf_type ft hrun
      (step_visited_abort NULL_TERM pf is_subtype inf_type ft c top rest pol h0 h) fuel hf
  · intro hk hw h fuel hf
    exact flatten_assertions_abort NULL_TERM pf is_subtype inf_type ft hrun
      (step_constant_abort NULL_TERM pf is_subtype inf_type ft c top rest pol hk hw h) fuel hf
  · intro hw h
    exact ⟨_, step_atom NULL_TERM pf is_subtype inf_type ft c top rest pol hw h, rfl, rfl, rfl,
      term_code_is_map _ _ _⟩
  · intro h0 hw h
    exact ⟨_, step_formula NULL_TERM pf is_subtype inf_type ft c top rest pol h0 hw h, rfl, rfl,
      rfl, term_code_is_map _ _ _⟩
  · intro hw h hp
    subst hp
    obtain ⟨c1, e, f⟩ := step_eq_true is_subtype inf_type ft ok hpf top rest hdesc hw h
    exact ⟨_, e, f.2.2.1, f.2.2.2, term_code_is_map _ _ _⟩
  · intro h0 h
    exact ⟨_, step_traversed NULL_TERM pf is_subtype inf_type ft c top rest pol I h0 h, rfl, rfl,
      term_code_is_map _ _ _⟩
  · intro hw
    exact step_explore NULL_TERM pf is_subtype inf_type ft c top rest pol hw

theorem sample_flat_run :
    FlatRun sample_null 2 sample_subtype min sample_flat_terms 2 (flat_reset sample_flat_ctx)
      sample_flat_stack true (flat_reset sample_flat_ctx)
      ({ term := 22, kind := term_kind_t.APP_TERM, counter := 0, desc := [] } :: sample_flat_rest)
      false :=
  @FlatRun.step Nat sample_null 2 sample_subtype min sample_flat_terms 1
    (flat_reset sample_flat_ctx) (flat_reset sample_flat_ctx) (flat_reset sample_flat_ctx)
    { term := 20, kind := term_kind_t.NOT_TERM, counter := 0, desc := [21] } []
    [{ term := 21, kind := term_kind_t.OR_TERM, counter := 0, desc := [22, 23] },
      { term := 20, kind := term_kind_t.NOT_TERM, counter := 1, desc := [21] }]
    ({ term := 22, kind := term_kind_t.APP_TERM, counter := 0, desc := [] } :: sample_flat_rest)
    true false false rfl
    (@FlatRun.step Nat sample_null 2 sample_subtype min sample_flat_terms 0
      (flat_reset sample_flat_ctx) (flat_reset sample_flat_ctx) (flat_reset sample_flat_ctx)
      { term := 21, kind := term_kind_t.OR_TERM, counter := 0, desc := [22, 23] }
      [{ term := 20, kind := term_kind_t.NOT_TERM, counter := 1, desc := [21] }]
      ({ term := 22, kind := term_kind_t.APP_TERM, counter := 0, desc := [] } ::
        sample_flat_rest)
      ({ term := 22, kind := term_kind_t.APP_TERM, counter := 0, desc := [] } ::
        sample_flat_rest)
      false false false rfl (FlatRun.refl _ _ _))

/-- Witness for C32: the assertion `(not (or 22 23))` where 22 is an
application; after two iterations the term 22 is reached with polarity false,
pushed onto `top_atoms` and mapped to false. -/
theorem flatten_assertions_classifies_witness :
    ∃ c1, flatten_step sample_null 2 sample_subtype min sample_flat_terms
        (flat_reset sample_flat_ctx)
        { term := 22, kind := term_kind_t.APP_TERM, counter := 0, desc := [] }
        sample_flat_rest false = some (flat_step_t.next c1 sample_flat_rest false) ∧
      c1.top_atoms = (flat_reset sample_flat_ctx).top_atoms ++ [22] ∧
      c1.top_formulas = (flat_reset sample_flat_ctx).top_formulas ∧
      c1.sub.top_eqs = (flat_reset sample_flat_ctx).sub.top_eqs ∧
      term_code_is c1 22 false = true :=
  (flatten_assertions_classifies sample_null 2 sample_subtype min sample_flat_terms
    sample_class_height sample_flat_ctx (flat_reset sample_flat_ctx) sample_flat_stack
    sample_flat_rest { term := 22, kind := term_kind_t.APP_TERM, counter := 0, desc := [] } 2
    false (by decide) sample_flat_run partOk_sample_subst
    (by intro t; unfold sample_class_height; split <;> decide)
    (by decide)).2.2.2.1 rfl (Or.inr (by decide))

/-! ## Assertion of formulas: return codes and the status of the core -/

theorem implied_literal_status (s : smt_core_t) (l : Int) (a : antecedent_t) :
    (implied_literal s l a).status = s.status := by
  unfold implied_literal
  split <;> rfl

theorem bin_vector_status (l0 : Int) : ∀ (v : List Int) (s : smt_core_t),
    (propagation_via_bin_vector s l0 v).2.status = s.status := by
  intro v
  induction v with
  | nil => intro s; rfl
  | cons l1 v ih =>
    intro s
    unfold propagation_via_bin_vector
    split
    · exact ih s
    · split
      · rfl
      · split
        · rw [ih, implied_literal_status]
        · rfl

theorem watched_list_loop_status (l0 : Int) : ∀ (links : List link_t) (s : smt_core_t)
    (kept : List link_t),
    (propagation_via_watched_list_loop l0 links s kept).2.status = s.status := by
  intro links
  induction links with
  | nil => intro s kept; rfl
  | cons lk rest ih =>
    intro s kept
    obtain ⟨c, i⟩ := lk
    unfold propagation_via_watched_list_loop
    dsimp only
    split
    · exact ih s _
    · split
      · rw [ih]; rfl
      · split
        · rw [ih, implied_literal_status]
        · rfl

theorem boolean_propagation_step_status (s : smt_core_t) (l : Int) :
    (boolean_propagation_step s l).2.status = s.status := by
  unfold boolean_propagation_step
  split
  · exact watched_list_loop_status _ _ _ _
  · dsimp only
    split
    · unfold propagation_via_watched_list
      rw [watched_list_loop_status, bin_vector_status]
    · exact bin_vector_status _ _ _

theorem boolean_propagation_loop_status : ∀ (fuel i : Nat) (s : smt_core_t) (b : Bool)
    (t : smt_core_t), boolean_propagation_loop fuel i s = some (b, t) → t.status = s.status := by
  intro fuel
  induction fuel with
  | zero => intro i s b t h; unfold boolean_propagation_loop at h; cases h
  | succ fuel ih =>
    intro i s b t h
    unfold boolean_propagation_loop at h
    split at h
    · dsimp only at h
      split at h
      · rw [ih _ _ _ _ h, boolean_propagation_step_status]
      · cases h
        exact boolean_propagation_step_status _ _
    · cases h; rfl

theorem boolean_propagation_status (fuel : Nat) (s : smt_core_t) (b : Bool) (t : smt_core_t)
    (h : boolean_propagation fuel s = some (b, t)) : t.status = s.status :=
  boolean_propagation_loop_status fuel _ s b t h

theorem theory_propagation_loop_status {θ : Type} (th : th_solver_t θ) (hth : StatusKept th)
    (tbl : atom_table_t) : ∀ (fuel i : Nat) (st : smt_state_t θ) (b : Bool) (j : Nat)
    (st1 : smt_state_t θ), theory_propagation_loop th tbl fuel i st = some (b, j, st1) →
      st1.core.status = st.core.status := by
  intro fuel
  induction fuel with
  | zero => intro i st b j st1 h; unfold theory_propagation_loop at h; cases h
  | succ fuel ih =>
    intro i st b j st1 h
    unfold theory_propagation_loop at h
    split at h
    · dsimp only at h
      split at h
      · split at h
        · rw [ih _ _ _ _ _ h, hth.1]; rfl
        · cases h
          rw [hth.1]; rfl
      · exact ih _ _ _ _ _ h
    · cases h; rfl

theorem theory_propagation_status {θ : Type} (th : th_solver_t θ) (hth : StatusKept th)
    (fuel : Nat) (st : smt_state_t θ) (b : Bool) (st1 : smt_state_t θ)
    (h : theory_propagation th fuel st = some (b, st1)) : st1.core.status = st.core.status := by
  unfold theory_propagation at h
  split at h
  · cases h
  · rename_i x st2 e
    cases h
    exact theory_propagation_loop_status th hth _ _ _ _ _ _ _ e
  · rename_i x i st2 e
    have e1 := theory_propagation_loop_status th hth _ _ _ _ _ _ _ e
    have e2 : th.propagate
        (record_th_call { st2 with core := { st2.core with stack :=
          { st2.core.stack with theory_ptr := i } } } th_call_t.propagate) = (b, st1) := by
      simpa using h
    have e3 := hth.2 (record_th_call { st2 with core := { st2.core with stack :=
          { st2.core.stack with theory_ptr := i } } } th_call_t.propagate)
    rw [e2] at e3
    rw [e3]
    exact e1

theorem smt_propagation_loop_status {θ : Type} (th : th_solver_t θ) (hth : StatusKept th)
    (fuel : Nat) : ∀ (rounds : Nat) (st : smt_state_t θ) (b : Bool) (st1 : smt_state_t θ),
    smt_propagation_loop th fuel rounds st = some (b, st1) →
      st1.core.status = st.core.status := by
  intro rounds
  induction rounds with
  | zero => intro st b st1 h; unfold smt_propagation_loop at h; cases h
  | succ rounds ih =>
    intro st b st1 h
    unfold smt_propagation_loop at h
    split at h
    · cases h
    · rename_i c e
      cases h
      exact boolean_propagation_status _ _ _ _ e
    · rename_i c e
      have e1 := boolean_propagation_status _ _ _ _ e
      split at h
      · cases h
      · rename_i code st2 e2
        have e3 := theory_propagation_status th hth _ _ _ _ e2
        split at h
        · rw [ih _ _ _ h, e3]; exact e1
        · cases h
          rw [e3]; exact e1

theorem smt_propagation_status {θ : Type} (th : th_solver_t θ) (hth : StatusKept th)
    (fuel rounds : Nat) (st : smt_state_t θ) (b : Bool) (st1 : smt_state_t θ)
    (h : smt_propagation th fuel rounds st = some (b, st1)) :
    st1.core.status = st.core.status := by
  unfold smt_propagation at h
  split at h
  · cases e : boolean_propagation fuel st.core with
    | none => rw [e] at h; cases h
    | some r =>
      rw [e] at h
      obtain ⟨b1, c⟩ := r
      cases h
      exact boolean_propagation_status _ _ _ _ e
  · exact smt_propagation_loop_status th hth fuel rounds st b st1 h

theorem base_propagate_status {θ : Type} (th : th_solver_t θ) (hth : StatusKept th)
    (fuel rounds : Nat) (st : smt_state_t θ) (b : Bool) (st1 : smt_state_t θ)
    (h : base_propagate th fuel rounds st = some (b, st1)) :
    (b = true → st1.core.status = st.core.status) ∧
    (b = false → st1.core.status = smt_status_t.STATUS_UNSAT) := by
  unfold base_propagate at h
  split at h
  · cases h; exact ⟨fun e => (by cases e), fun _ => rfl⟩
  · split at h
    · cases h
    · cases h; exact ⟨fun e => (by cases e), fun _ => rfl⟩
    · rename_i x st2 e
      have e1 := theory_propagation_status th hth _ _ _ _ e
      split at h
      · cases h
      · cases h; exact ⟨fun e => (by cases e), fun _ => rfl⟩
      · rename_i y st3 e2
        cases h
        have e3 := smt_propagation_status th hth _ _ _ _ _ e2
        exact ⟨fun _ => by rw [e3, e1], fun e => by cases e⟩

theorem flatten_step_abort_code {τ : Type} (NULL_TERM : Int) (pf : Nat)
    (is_subtype : τ → τ → Bool) (inf_type : τ → τ → τ) (ft : flat_terms_t τ)
    (c c1 : flat_ctx_t τ) (top : tree_record_t) (rest : List tree_record_t) (pol : Bool)
    (code : Int)
    (h : flatten_step NULL_TERM pf is_subtype inf_type ft c top rest pol =
      some (flat_step_t.abort code c1)) : code = TRIVIALLY_UNSAT ∨ code < 0 := by
  unfold flatten_step at h
  split at h
  · split at h
    · cases h
    · cases h; exact Or.inl rfl
  · unfold flatten_switch at h
    split at h
    all_goals (try dsimp only at h)
    all_goals (repeat' (split at h))
    all_goals (first
      | (cases h; done)
      | (cases h; first | exact Or.inl rfl | exact Or.inr (by decide)))

theorem flatten_loop_abort_code {τ : Type} (NULL_TERM : Int) (pf : Nat)
    (is_subtype : τ → τ → Bool) (inf_type : τ → τ → τ) (ft : flat_terms_t τ) :
    ∀ (fuel : Nat) (c : flat_ctx_t τ) (stack : List tree_record_t) (pol : Bool) (code : Int)
      (c1 : flat_ctx_t τ),
      flatten_loop NULL_TERM pf is_subtype inf_type ft fuel c stack pol =
        some (flat_step_t.abort code c1) → code = TRIVIALLY_UNSAT ∨ code < 0 := by
  intro fuel
  induction fuel with
  | zero => intro c stack pol code c1 h; unfold flatten_loop at h; cases h
  | succ fuel ih =>
    intro c stack pol code c1 h
    cases stack with
    | nil => unfold flatten_loop at h; cases h
    | cons top rest =>
      rw [flatten_loop] at h
      split at h
      · cases h
      · rename_i code2 c2 e
        cases h
        exact flatten_step_abort_code NULL_TERM pf is_subtype inf_type ft _ _ _ _ _ _ e
      · exact ih _ _ _ _ _ h

theorem flatten_assertions_code {τ : Type} (NULL_TERM : Int) (pf : Nat)
    (is_subtype : τ → τ → Bool) (inf_type : τ → τ → τ) (ft : flat_terms_t τ)
    (fuel : Nat) (c c1 : flat_ctx_t τ) (stack : List tree_record_t) (code : Int)
    (h : flatten_assertions NULL_TERM pf is_subtype inf_type ft fuel c stack = some (code, c1)) :
    code = CTX_NO_ERROR ∨ code = TRIVIALLY_UNSAT ∨ code < 0 := by
  unfold flatten_assertions at h
  dsimp only at h
  split at h
  · cases h
  · rename_i code2 c2 e
    cases h
    exact Or.inr (flatten_loop_abort_code NULL_TERM pf is_subtype inf_type ft _ _ _ _ _ _ e)
  · split at h
    · cases h
    · split at h
      · cases h
      · cases h; exact Or.inl rfl

theorem add_aux_eq_spec {τ θ : Type} (ops : context_ops τ θ) (ctx : context_t τ θ) (x y : Int) :
    ((add_aux_eq ops ctx x y).1 = CTX_NO_ERROR ∨ (add_aux_eq ops ctx x y).1 = TRIVIALLY_UNSAT) ∧
    (add_aux_eq ops ctx x y).2.smt = ctx.smt := by
  unfold add_aux_eq
  dsimp only
  generalize (if x > y then ops.eq_term y x else ops.eq_term x y) = eq
  by_cases h1 : ctx.flat.sub.color eq = term_color_t.assigned
  · rw [if_pos h1]
    by_cases h2 : term_code_is ctx.flat eq false = true
    · rw [if_pos h2]; exact ⟨Or.inr rfl, rfl⟩
    · rw [if_neg h2]; exact ⟨Or.inl rfl, rfl⟩
  · rw [if_neg h1]; exact ⟨Or.inl rfl, rfl⟩

theorem add_class_equalities_spec {τ θ : Type} (ops : context_ops τ θ) (x : Int) :
    ∀ (ys : List Int) (ctx : context_t τ θ),
      ((add_class_equalities ops x ys ctx).1 = CTX_NO_ERROR ∨
        (add_class_equalities ops x ys ctx).1 = TRIVIALLY_UNSAT) ∧
      (add_class_equalities ops x ys ctx).2.smt = ctx.smt := by
  intro ys
  induction ys with
  | nil => intro ctx; exact ⟨Or.inl rfl, rfl⟩
  | cons y ys ih =>
    intro ctx
    unfold add_class_equalities
    dsimp only
    have h := add_aux_eq_spec ops ctx x y
    split
    · exact h
    · exact ⟨(ih _).1, (ih _).2.trans h.2⟩

theorem add_implied_equalities_spec {τ θ : Type} (ops : context_ops τ θ) :
    ∀ (p : List (Int × List Int)) (ctx : context_t τ θ),
      ((add_implied_equalities ops p ctx).1 = CTX_NO_ERROR ∨
        (add_implied_equalities ops p ctx).1 = TRIVIALLY_UNSAT) ∧
      (add_implied_equalities ops p ctx).2.smt = ctx.smt := by
  intro p
  induction p with
  | nil => intro ctx; exact ⟨Or.inl rfl, rfl⟩
  | cons a rest ih =>
    intro ctx
    obtain ⟨x, ys⟩ := a
    unfold add_implied_equalities
    dsimp only
    have h := add_class_equalities_spec ops x ys ctx
    split
    · exact h
    · exact ⟨(ih _).1, (ih _).2.trans h.2⟩

theorem analyze_uf_loop_spec {τ θ : Type} (ops : context_ops τ θ) :
    ∀ (v : List Int) (k : Int) (ctx : context_t τ θ),
      (k = CTX_NO_ERROR ∨ k = TRIVIALLY_UNSAT) →
      ((analyze_uf_loop ops v k ctx).1 = CTX_NO_ERROR ∨
        (analyze_uf_loop ops v k ctx).1 = TRIVIALLY_UNSAT) ∧
      (analyze_uf_loop ops v k ctx).2.smt = ctx.smt := by
  intro v
  induction v with
  | nil => intro k ctx hk; exact ⟨hk, rfl⟩
  | cons t ts ih =>
    intro k ctx hk
    unfold analyze_uf_loop
    dsimp only
    split
    · have h := add_implied_equalities_spec ops (ops.eq_learner_process ctx t) ctx
      split
      · exact h
      · exact ⟨(ih _ _ h.1).1, (ih _ _ h.1).2.trans h.2⟩
    · exact ih k ctx hk

theorem attach_solver_status {τ θ : Type} (ops : context_ops τ θ) (ctx : context_t τ θ)
    (arch : context_arch_t) :
    (attach_solver ops ctx arch).smt.core.status = smt_status_t.STATUS_IDLE := rfl

theorem context_analyze_spec {τ θ : Type} (ops : context_ops τ θ) (hops : OpsOk ops)
    (ctx : context_t τ θ)
    (hpre : ctx.arch = context_arch_t.CTX_ARCH_AUTO_IDL ∨
      ctx.arch = context_arch_t.CTX_ARCH_AUTO_RDL ∨
      ctx.smt.core.status = smt_status_t.STATUS_IDLE) :
    ((context_analyze ops ctx).1 = CTX_NO_ERROR ∨
      (context_analyze ops ctx).1 = TRIVIALLY_UNSAT ∨ (context_analyze ops ctx).1 < 0) ∧
    ((context_analyze ops ctx).1 = CTX_NO_ERROR →
      (context_analyze ops ctx).2.smt.core.status = smt_status_t.STATUS_IDLE) := by
  have hdl : ∀ idl, ((analyze_diff_logic ops ctx idl).1 = CTX_NO_ERROR ∨
      (analyze_diff_logic ops ctx idl).1 < 0) ∧
      ((analyze_diff_logic ops ctx idl).1 = CTX_NO_ERROR →
        (analyze_diff_logic ops ctx idl).2.smt.core.status = ctx.smt.core.status) := by
    intro idl
    unfold analyze_diff_logic
    cases e : ops.analyze_diff_logic_vectors ctx idl with
    | done ctx1 => exact ⟨Or.inl rfl, fun _ => hops.2.2 ctx idl ctx1 e⟩
    | jump code ctx1 =>
      dsimp only
      cases idl
      · exact ⟨Or.inr (by decide), fun h => absurd h (by decide)⟩
      · exact ⟨Or.inr (by decide), fun h => absurd h (by decide)⟩
  have hauto : ∀ c2 : context_t τ θ,
      (create_auto_idl_solver ops c2).smt.core.status = smt_status_t.STATUS_IDLE ∧
      (create_auto_rdl_solver ops c2).smt.core.status = smt_status_t.STATUS_IDLE := by
    intro c2
    unfold create_auto_idl_solver create_auto_rdl_solver
    constructor <;> split <;> rfl
  unfold context_analyze
  split
  · rename_i ha
    have hst : ctx.smt.core.status = smt_status_t.STATUS_IDLE := by
      rcases hpre with h | h | h
      · rw [ha] at h; cases h
      · rw [ha] at h; cases h
      · exact h
    split
    · have h := analyze_uf_loop_spec ops ctx.flat.top_formulas CTX_NO_ERROR ctx (Or.inl rfl)
      unfold analyze_uf
      refine ⟨?_, fun _ => by rw [h.2]; exact hst⟩
      rcases h.1 with h1 | h1
      · exact Or.inl h1
      · exact Or.inr (Or.inl h1)
    · exact ⟨Or.inl rfl, fun _ => hst⟩
  · dsimp only
    split
    · rename_i hne
      rcases (hdl true).1 with h | h
      · exact absurd h hne
      · exact ⟨Or.inr (Or.inr h), fun h2 => absurd h2 hne⟩
    · exact ⟨Or.inl rfl, fun _ => (hauto _).1⟩
  · rename_i ha
    have hst : ctx.smt.core.status = smt_status_t.STATUS_IDLE := by
      rcases hpre with h | h | h
      · rw [ha] at h; cases h
      · rw [ha] at h; cases h
      · exact h
    refine ⟨?_, fun h => by rw [(hdl true).2 h]; exact hst⟩
    rcases (hdl true).1 with h | h
    · exact Or.inl h
    · exact Or.inr (Or.inr h)
  · dsimp only
    split
    · rename_i hne
      rcases (hdl false).1 with h | h
      · exact absurd h hne
      · exact ⟨Or.inr (Or.inr h), fun h2 => absurd h2 hne⟩
    · exact ⟨Or.inl rfl, fun _ => (hauto _).2⟩
  · rename_i ha
    have hst : ctx.smt.core.status = smt_status_t.STATUS_IDLE := by
      rcases hpre with h | h | h
      · rw [ha] at h; cases h
      · rw [ha] at h; cases h
      · exact h
    refine ⟨?_, fun h => by rw [(hdl false).2 h]; exact hst⟩
    rcases (hdl false).1 with h | h
    · exact Or.inl h
    · exact Or.inr (Or.inr h)
  · rename_i h1 h2 h3 h4 h5
    have hst : ctx.smt.core.status = smt_status_t.STATUS_IDLE := by
      rcases hpre with h | h | h
      · exact absurd h h2
      · exact absurd h h4
      · exact h
    exact ⟨Or.inl rfl, fun _ => hst⟩

theorem setjmp_value_of_jump {τ θ : Type} (code : Int) (ctx1 : context_t τ θ)
    (h : code < 0 ∨ (code = TRIVIALLY_UNSAT ∧
      ctx1.smt.core.status = smt_status_t.STATUS_UNSAT)) :
    setjmp_value code < 0 ∨ (setjmp_value code = TRIVIALLY_UNSAT ∧
      ctx1.smt.core.status = smt_status_t.STATUS_UNSAT) := by
  have : setjmp_value code = code := by
    unfold setjmp_value
    rw [if_neg]
    rcases h with h | h
    · omega
    · rw [h.1]; decide
  rw [this]; exact h

theorem assert_atoms_loop_spec {τ θ : Type} (ops : context_ops τ θ) (hops : OpsOk ops)
    (th : th_solver_t θ) (hth : StatusKept th) (fuel rounds : Nat) :
    ∀ (ts : List Int) (ctx : context_t τ θ) (r : exit_t (context_t τ θ)),
      assert_atoms_loop ops th fuel rounds ts ctx = some r → ExitOk ctx.smt.core.status r := by
  intro ts
  induction ts with
  | nil =>
    intro ctx r h
    unfold assert_atoms_loop at h
    cases h
    exact rfl
  | cons t ts ih =>
    intro ctx r h
    unfold assert_atoms_loop at h
    have hj := hops.1 ctx t
    cases e : ops.assert_toplevel_atom ctx t with
    | jump code ctx1 =>
      rw [e] at h hj
      dsimp only at h
      cases h
      exact setjmp_value_of_jump code ctx1 hj
    | done ctx1 =>
      rw [e] at h hj
      dsimp only at h
      have hj1 : ctx1.smt.core.status = ctx.smt.core.status := hj
      cases e2 : base_propagate th fuel rounds ctx1.smt with
      | none => rw [e2] at h; cases h
      | some p =>
        obtain ⟨b, st⟩ := p
        rw [e2] at h
        have hb := base_propagate_status th hth fuel rounds ctx1.smt b st e2
        cases b
        · dsimp only at h
          cases h
          exact Or.inr ⟨rfl, hb.2 rfl⟩
        · dsimp only at h
          have := ih _ r h
          have hs : st.core.status = ctx.smt.core.status := (hb.1 rfl).trans hj1
          rw [← hs]
          exact this

theorem assert_formulas_loop_spec {τ θ : Type} (ops : context_ops τ θ) (hops : OpsOk ops) :
    ∀ (ts : List Int) (ctx : context_t τ θ),
      ExitOk ctx.smt.core.status (assert_formulas_loop ops ts ctx) := by
  intro ts
  induction ts with
  | nil => intro ctx; exact rfl
  | cons t ts ih =>
    intro ctx
    unfold assert_formulas_loop
    have hj := hops.2.1 ctx t
    cases e : ops.assert_toplevel_formula ctx t with
    | jump code ctx1 =>
      rw [e] at hj
      exact setjmp_value_of_jump code ctx1 hj
    | done ctx1 =>
      rw [e] at hj
      dsimp only
      have hj1 : ctx1.smt.core.status = ctx.smt.core.status := hj
      rw [← hj1]
      exact ih ctx1

theorem internalize_spec {τ θ : Type} (ops : context_ops τ θ) (hops : OpsOk ops)
    (th : th_solver_t θ) (hth : StatusKept th) (fuel rounds : Nat) (ctx ctx1 : context_t τ θ)
    (code : Int) (h : internalize ops th fuel rounds ctx = some (code, ctx1)) :
    (code = CTX_NO_ERROR ∧ ctx1.smt.core.status = ctx.smt.core.status) ∨ code < 0 ∨
      (code = TRIVIALLY_UNSAT ∧ ctx1.smt.core.status = smt_status_t.STATUS_UNSAT) := by
  unfold internalize at h
  dsimp only at h
  cases e1 : assert_atoms_loop ops th fuel rounds ctx.flat.sub.top_eqs
      { ctx with smt := internalization_start ctx.smt } with
  | none => rw [e1] at h; cases h
  | some r1 =>
    have h1 := assert_atoms_loop_spec ops hops th hth fuel rounds _ _ r1 e1
    rw [e1] at h
    cases r1 with
    | ret c1 x1 =>
      dsimp only at h
      cases h
      exact Or.inr h1
    | done x1 =>
      dsimp only at h
      have s1 : x1.smt.core.status = ctx.smt.core.status := h1
      cases e2 : assert_atoms_loop ops th fuel rounds x1.flat.top_atoms x1 with
      | none => rw [e2] at h; cases h
      | some r2 =>
        have h2 := assert_atoms_loop_spec ops hops th hth fuel rounds _ _ r2 e2
        rw [e2] at h
        cases r2 with
        | ret c2 x2 =>
          dsimp only at h
          cases h
          exact Or.inr h2
        | done x2 =>
          dsimp only at h
          have s2 : x2.smt.core.status = x1.smt.core.status := h2
          have h3 := assert_formulas_loop_spec ops hops x2.flat.top_formulas x2
          cases e3 : assert_formulas_loop ops x2.flat.top_formulas x2 with
          | ret c3 x3 =>
            rw [e3] at h h3
            dsimp only at h
            cases h
            exact Or.inr h3
          | done x3 =>
            rw [e3] at h h3
            dsimp only at h
            have s3 : x3.smt.core.status = x2.smt.core.status := h3
            cases e4 : base_propagate th fuel rounds x3.smt with
            | none => rw [e4] at h; cases h
            | some p =>
              obtain ⟨b, st⟩ := p
              rw [e4] at h
              have hb := base_propagate_status th hth fuel rounds x3.smt b st e4
              cases b
              · dsimp only at h
                cases h
                exact Or.inr (Or.inr ⟨rfl, hb.2 rfl⟩)
              · dsimp only at h
                cases h
                exact Or.inl ⟨rfl, (hb.1 rfl).trans (s3.trans (s2.trans s1))⟩

theorem context_process_formulas_spec {τ θ : Type} (NULL_TERM : Int) (pf : Nat)
    (is_subtype : τ → τ → Bool) (inf_type : τ → τ → τ) (ft : flat_terms_t τ)
    (ops : context_ops τ θ) (hops : OpsOk ops) (th : th_solver_t θ) (hth : StatusKept th)
    (fuel rounds : Nat) (ctx ctx1 : context_t τ θ) (f : List Int) (code : Int)
    (hpre : ctx.arch = context_arch_t.CTX_ARCH_AUTO_IDL ∨
      ctx.arch = context_arch_t.CTX_ARCH_AUTO_RDL ∨
      ctx.smt.core.status = smt_status_t.STATUS_IDLE)
    (h : context_process_formulas NULL_TERM pf is_subtype inf_type ft ops th fuel rounds ctx f
      = some (code, ctx1)) :
    (code = CTX_NO_ERROR ∧ ctx1.smt.core.status = smt_status_t.STATUS_IDLE) ∨ code < 0 ∨
      code = TRIVIALLY_UNSAT := by
  unfold context_process_formulas at h
  cases e : flatten_assertions NULL_TERM pf is_subtype inf_type ft fuel ctx.flat
      (f.foldl (tree_stack_push_term ft) []) with
  | none => rw [e] at h; cases h
  | some p =>
    obtain ⟨c0, fl⟩ := p
    rw [e] at h
    dsimp only at h
    have hc := flatten_assertions_code NULL_TERM pf is_subtype inf_type ft fuel _ _ _ _ e
    by_cases h0 : c0 = CTX_NO_ERROR
    · rw [if_neg (fun hh => hh h0)] at h
      have ha := context_analyze_spec ops hops { ctx with flat := fl } hpre
      by_cases h1 : (context_analyze ops { ctx with flat := fl }).1 = CTX_NO_ERROR
      · rw [if_neg (fun hh => hh h1)] at h
        rcases internalize_spec ops hops th hth fuel rounds _ _ _ h with hi | hi | hi
        · exact Or.inl ⟨hi.1, hi.2.trans (ha.2 h1)⟩
        · exact Or.inr (Or.inl hi)
        · exact Or.inr (Or.inr hi.1)
      · rw [if_pos h1] at h
        have hc1 : (context_analyze ops { ctx with flat := fl }).1 = code := by
          rw [Option.some.inj h]
        rw [hc1] at ha h1
        rcases ha.1 with hh | hh | hh
        · exact absurd hh h1
        · exact Or.inr (Or.inr hh)
        · exact Or.inr (Or.inl hh)
    · rw [if_pos h0] at h
      cases h
      rcases hc with hh | hh | hh
      · exact absurd hh h0
      · exact Or.inr (Or.inr hh)
      · exact Or.inr (Or.inl hh)

theorem sample_context_ops_ok : OpsOk sample_context_ops :=
  ⟨fun _ _ => rfl, fun _ _ => rfl, fun _ _ _ h => by cases h; rfl⟩

theorem sample_idle_theory_kept : StatusKept sample_idle_theory :=
  ⟨fun _ _ _ => rfl, fun _ => rfl⟩

/-- C33: the code fails the contract documented for `assert_formula` in
context.h ("TRIVIALLY_UNSAT means that an inconsistency is detected (in that
case the context status is set to UNSAT)").  On a context of architecture
`CTX_ARCH_AUTO_IDL` whose core is Idle, `assert_formulas` of the constant
false returns `TRIVIALLY_UNSAT`, the architecture on return is still
`CTX_ARCH_AUTO_IDL`, and the status of the core is `STATUS_IDLE`, not
`STATUS_UNSAT`: the guard of `assert_formulas` skips `add_empty_clause` and
the assignment of the status in the two automatic architectures. -/
theorem assert_formulas_auto_idl_status_not_unsat :
    (assert_formulas sample_null 2 sample_subtype min sample_assert_terms sample_context_ops
        sample_idle_theory 20 5 (sample_context context_arch_t.CTX_ARCH_AUTO_IDL) [2]).map
      (fun r => (r.1, r.2.arch, r.2.smt.core.status)) =
    some (TRIVIALLY_UNSAT, context_arch_t.CTX_ARCH_AUTO_IDL, smt_status_t.STATUS_IDLE) := by
  rfl

/-- The part of the contract of `assert_formulas` that the code keeps: when
`assert_formulas` is called on a context whose
architecture is `CTX_ARCH_AUTO_IDL` or `CTX_ARCH_AUTO_RDL` or whose status is
`STATUS_IDLE`, with a theory solver and internalization functions that leave
the status of the core as it is, and returns `code`: if `code` is
`TRIVIALLY_UNSAT` and the architecture on return is neither `CTX_ARCH_AUTO_IDL`
nor `CTX_ARCH_AUTO_RDL` then the status on return is `STATUS_UNSAT`; if `code`
is `CTX_NO_ERROR` the status is not `STATUS_UNSAT`; any other code is
negative. -/
theorem assert_formulas_status_spec {τ θ : Type} (NULL_TERM : Int) (pf : Nat)
    (is_subtype : τ → τ → Bool) (inf_type : τ → τ → τ) (ft : flat_terms_t τ)
    (ops : context_ops τ θ) (hops : OpsOk ops) (th : th_solver_t θ) (hth : StatusKept th)
    (fuel rounds : Nat) (ctx ctx1 : context_t τ θ) (f : List Int) (code : Int)
    (hpre : ctx.arch = context_arch_t.CTX_ARCH_AUTO_IDL ∨
      ctx.arch = context_arch_t.CTX_ARCH_AUTO_RDL ∨
      ctx.smt.core.status = smt_status_t.STATUS_IDLE)
    (hret : assert_formulas NULL_TERM pf is_subtype inf_type ft ops th fuel rounds ctx f
      = some (code, ctx1)) :
    (code = TRIVIALLY_UNSAT → ctx1.arch ≠ context_arch_t.CTX_ARCH_AUTO_IDL →
      ctx1.arch ≠ context_arch_t.CTX_ARCH_AUTO_RDL →
      ctx1.smt.core.status = smt_status_t.STATUS_UNSAT) ∧
    (code = CTX_NO_ERROR → ctx1.smt.core.status ≠ smt_status_t.STATUS_UNSAT) ∧
    (code ≠ TRIVIALLY_UNSAT → code ≠ CTX_NO_ERROR → code < 0) := by
  unfold assert_formulas at hret
  cases e : context_process_formulas NULL_TERM pf is_subtype inf_type ft ops th fuel rounds
      ctx f with
  | none => rw [e] at hret; cases hret
  | some p =>
    obtain ⟨c0, x⟩ := p
    rw [e] at hret
    dsimp only at hret
    have hp := context_process_formulas_spec NULL_TERM pf is_subtype inf_type ft ops hops th hth
      fuel rounds ctx x f c0 hpre e
    split at hret
    · rename_i hg
      cases hret
      refine ⟨fun _ _ _ => rfl, fun h0 => ?_, fun h1 => absurd hg.1 h1⟩
      rw [hg.1] at h0
      exact absurd h0 (by decide)
    · rename_i hg
      cases hret
      refine ⟨fun h1 h2 h3 => ?_, fun h0 => ?_, fun h1 h0 => ?_⟩
      · by_contra hs
        exact hg ⟨h1, h2, h3, hs⟩
      · rcases hp with hh | hh | hh
        · rw [hh.2]; decide
        · rw [h0] at hh; exact absurd hh (by decide)
        · rw [h0] at hh; exact absurd hh (by decide)
      · rcases hp with hh | hh | hh
        · exact absurd hh.1 h0
        · exact hh
        · exact absurd hh h1

/-- Witness of `assert_formulas_status_spec`: on the sample context of
architecture `CTX_ARCH_EG`, `assert_formulas` of the constant false returns
`TRIVIALLY_UNSAT` and the status is `STATUS_UNSAT`. -/
theorem assert_formulas_status_spec_witness :
    assert_formulas sample_null 2 sample_subtype min sample_assert_terms sample_context_ops
        sample_idle_theory 20 5 (sample_context context_arch_t.CTX_ARCH_EG) [2]
      = some (TRIVIALLY_UNSAT, sample_assert_result) ∧
    sample_assert_result.arch = context_arch_t.CTX_ARCH_EG ∧
    sample_assert_result.smt.core.status = smt_status_t.STATUS_UNSAT :=
  ⟨rfl, rfl, (assert_formulas_status_spec sample_null 2 sample_subtype min sample_assert_terms
    sample_context_ops sample_context_ops_ok sample_idle_theory sample_idle_theory_kept 20 5
    (sample_context context_arch_t.CTX_ARCH_EG) sample_assert_result [2] TRIVIALLY_UNSAT
    (Or.inr (Or.inr rfl)) rfl).1 rfl
    (by rw [show sample_assert_result.arch = context_arch_t.CTX_ARCH_EG from rfl]; decide)
    (by rw [show sample_assert_result.arch = context_arch_t.CTX_ARCH_EG from rfl]; decide)⟩

/-! ## The round trip of smt_push and smt_pop -/

theorem lit_ok_not {s : smt_core_t} (hn : s.nlits = 2 * s.nvars) {l : Int} (h : lit_ok s l) :
    lit_ok s (not_lit l) := by
  refine ⟨not_lit_nonneg h.1, ?_⟩
  have h2 := h.2
  rw [hn] at h2 ⊢
  push_cast at h2 ⊢
  exact not_lit_lt_two_mul _ h2

theorem lit_ok_mono {s t : smt_core_t} (h : s.nlits ≤ t.nlits) {l : Int} (hl : lit_ok s l) :
    lit_ok t l :=
  ⟨hl.1, lt_of_lt_of_le hl.2 (by exact_mod_cast h)⟩

theorem flat_pairs_append (a b : List (Int × Int)) :
    flat_pairs (a ++ b) = flat_pairs a ++ flat_pairs b := by
  induction a with
  | nil => rfl
  | cons x r ih =>
    obtain ⟨p, q⟩ := x
    show p :: q :: flat_pairs (r ++ b) = p :: q :: flat_pairs r ++ flat_pairs b
    rw [ih]
    rfl

theorem bin_ext_append (a b : List (Int × Int)) (l : Int) :
    bin_ext (a ++ b) l = bin_ext a l ++ bin_ext b l := by
  induction a with
  | nil => rfl
  | cons x r ih =>
    obtain ⟨p, q⟩ := x
    show _ ++ _ ++ bin_ext (r ++ b) l = (_ ++ _ ++ bin_ext r l) ++ bin_ext b l
    rw [ih]
    simp only [List.append_assoc]

theorem ext_refl (s : smt_core_t) : Ext s s :=
  ⟨rfl, rfl, rfl, le_refl _,
    ⟨[], (List.append_nil _).symm, fun _ h => absurd h (List.not_mem_nil _), fun _ _ _ _ => rfl⟩,
    ⟨[], (List.append_nil _).symm, rfl, fun _ _ => (List.append_nil _).symm⟩,
    ⟨[], (List.append_nil _).symm⟩, le_refl _, fun _ _ => List.Perm.refl _⟩

theorem ext_trans {s t u : smt_core_t} (hs : s.nlits = 2 * s.nvars) (h1 : Ext s t)
    (h2 : Ext t u) : Ext s u := by
  obtain ⟨n1, e1, i1, v1⟩ := h1.stack
  obtain ⟨n2, e2, i2, v2⟩ := h2.stack
  obtain ⟨x1, b1, c1, d1⟩ := h1.binary
  obtain ⟨x2, b2, c2, d2⟩ := h2.binary
  obtain ⟨p1, q1⟩ := h1.problem
  obtain ⟨p2, q2⟩ := h2.problem
  refine ⟨h2.base.trans h1.base, h2.trail_stack.trans h1.trail_stack,
    h2.level_index.trans h1.level_index, le_trans h1.nlits h2.nlits, ?_, ?_, ?_,
    le_trans h1.alloc h2.alloc, ?_⟩
  · refine ⟨n1 ++ n2, by rw [e2, e1, List.append_assoc], ?_, ?_⟩
    · intro l hl hok
      rcases List.mem_append.mp hl with h | h
      · exact i1 l h hok
      · have hokt := lit_ok_mono h1.nlits hok
        obtain ⟨a1, a2⟩ := i2 l h hokt
        by_cases m1 : l ∈ n1
        · exact i1 l m1 hok
        · by_cases m2 : not_lit l ∈ n1
          · have := i1 _ m2 (lit_ok_not hs hok)
            rw [not_lit_not_lit] at this
            exact ⟨this.2, this.1⟩
          · have hokn := lit_ok_not hs hok
            refine ⟨by rw [← v1 l hok m1 m2]; exact a1, ?_⟩
            rw [← v1 _ hokn m2 (by rw [not_lit_not_lit]; exact m1)]
            exact a2
    · intro l hok m1 m2
      have m1a : l ∉ n1 := fun h => m1 (List.mem_append_left _ h)
      have m1b : l ∉ n2 := fun h => m1 (List.mem_append_right _ h)
      have m2a : not_lit l ∉ n1 := fun h => m2 (List.mem_append_left _ h)
      have m2b : not_lit l ∉ n2 := fun h => m2 (List.mem_append_right _ h)
      rw [v2 l (lit_ok_mono h1.nlits hok) m1b m2b, v1 l hok m1a m2a]
  · refine ⟨x1 ++ x2, by rw [b2, b1, flat_pairs_append, List.append_assoc], ?_, ?_⟩
    · rw [c2, c1, List.length_append]; omega
    · intro l hok
      rw [d2 l (lit_ok_mono h1.nlits hok), d1 l hok, bin_ext_append, List.append_assoc]
  · exact ⟨p1 ++ p2, by rw [q2, q1, List.append_assoc]⟩
  · intro c hc
    exact (h2.clauses c (by rw [q1]; exact List.mem_append_left _ hc)).trans (h1.clauses c hc)

theorem lit_ok_congr {s t : smt_core_t} (h : t.nlits = s.nlits) (l : Int) :
    lit_ok t l ↔ lit_ok s l := by
  unfold lit_ok
  rw [h]

theorem restored_clause_of_nonneg (c : clause_t) (h0 : 0 ≤ c.get 0) (h1 : 0 ≤ c.get 1) :
    restored_clause c = c := by
  unfold restored_clause is_clause_to_be_removed
  rw [if_neg]
  simp only [Bool.or_eq_true, decide_eq_true_eq, not_or, not_lt]
  exact ⟨h0, h1⟩

theorem clause_get_nonneg_of_all (c : clause_t) (hlen : 2 ≤ c.cl.length)
    (h : ∀ x ∈ c.cl, 0 ≤ x) (k : Nat) (hk : k < c.cl.length) : 0 ≤ c.get k := by
  rw [clause_get_lt c hk]
  exact h _ (List.getElem_mem _)

theorem restored_clause_of_all_nonneg (c : clause_t) (hlen : 2 ≤ c.cl.length)
    (h : ∀ x ∈ c.cl, 0 ≤ x) : restored_clause c = c :=
  restored_clause_of_nonneg c (clause_get_nonneg_of_all c hlen h 0 (by omega))
    (clause_get_nonneg_of_all c hlen h 1 (by omega))

/-- A step that assigns at most one literal, Undef before, at the base level,
and leaves the vectors of clauses and the binary clauses as they are. -/
theorem mk_frame {s t : smt_core_t} (h : PushInv s)
    (e_nlits : t.nlits = s.nlits) (e_nvars : t.nvars = s.nvars)
    (e_dl : t.decision_level = s.decision_level) (e_bl : t.base_level = s.base_level)
    (e_li : t.stack.level_index = s.stack.level_index) (e_bin : t.bin = s.bin)
    (e_pc : t.problem_clauses = s.problem_clauses)
    (e_lc : t.learned_clauses = s.learned_clauses)
    (e_alloc : t.nclauses_alloc = s.nclauses_alloc)
    (e_bc : t.binary_clauses = s.binary_clauses) (e_nb : t.nb_bin_clauses = s.nb_bin_clauses)
    (e_ts : t.trail_stack = s.trail_stack)
    (hstack : (t.stack.lit = s.stack.lit ∧ t.value = s.value ∧ t.level = s.level) ∨
      ∃ l, lit_ok s l ∧ s.value l = VAL_UNDEF ∧ t.stack.lit = s.stack.lit ++ [l] ∧
        t.value = upd (upd s.value l VAL_TRUE) (not_lit l) VAL_FALSE ∧
        t.level = upd s.level (var_of l) s.base_level)
    (hcl : ∀ c, (restored_clause (t.clauses c)).cl.Perm (restored_clause (s.clauses c)).cl)
    (hlinks : ∀ l, lit_ok t l → ∀ lnk ∈ t.watch l, link_ok t lnk) :
    PushInv t ∧ Ext s t := by
  have hok : ∀ l, lit_ok t l ↔ lit_ok s l := lit_ok_congr e_nlits
  rcases hstack with ⟨e1, e2, e3⟩ | ⟨l, hl, hu, e1, e2, e3⟩
  · refine ⟨⟨by rw [e_nlits, e_nvars]; exact h.nlits_eq, by rw [e_dl, e_bl]; exact h.level_eq,
      by rw [e2]; exact h.end1, by rw [e2]; exact h.end2, ?_, ?_, ?_, hlinks, ?_, ?_, ?_⟩, ?_⟩
    · intro q hq
      rw [e1] at hq
      exact (hok q).2 (h.trail q hq)
    · intro l hl hv
      rw [e2] at hv ⊢
      exact h.pair l ((hok l).1 hl) hv
    · intro l hl hv
      rw [e2] at hv
      rw [e3, e_bl]
      exact h.levels l ((hok l).1 hl) hv
    · intro l hl v hv m hm
      rw [e_bin] at hv
      exact (hok m).2 (h.bins l ((hok l).1 hl) v hv m hm)
    · rw [e_pc, e_lc, e_alloc]; exact h.handles
    · rw [e_pc, e_lc]; exact h.nodup
    · exact ⟨e_bl, e_ts, e_li, le_of_eq e_nlits.symm,
        ⟨[], by rw [e1, List.append_nil], fun _ hm => absurd hm (List.not_mem_nil _),
          fun _ _ _ _ => by rw [e2]⟩,
        ⟨[], by rw [e_bc]; exact (List.append_nil _).symm, by rw [e_nb]; rfl,
          fun _ _ => by rw [e_bin]; exact (List.append_nil _).symm⟩,
        ⟨[], by rw [e_pc, List.append_nil]⟩, le_of_eq e_alloc.symm, fun c _ => hcl c⟩
  · have hnl := lit_ok_not h.nlits_eq hl
    have hval : ∀ x, x ≠ l → x ≠ not_lit l → t.value x = s.value x := by
      intro x h1 h2
      rw [e2, upd_ne _ _ h2, upd_ne _ _ h1]
    have hvl : t.value l = VAL_TRUE := by
      rw [e2, upd_ne _ _ (fun e => not_lit_ne l e.symm), upd_same]
    have hvn : t.value (not_lit l) = VAL_FALSE := by rw [e2, upd_same]
    refine ⟨⟨by rw [e_nlits, e_nvars]; exact h.nlits_eq, by rw [e_dl, e_bl]; exact h.level_eq,
      ?_, ?_, ?_, ?_, ?_, hlinks, ?_, ?_, ?_⟩, ?_⟩
    · rw [hval (-1) (fun e => by have := hl.1; omega) (fun e => by have := hnl.1; omega)]
      exact h.end1
    · rw [hval (-2) (fun e => by have := hl.1; omega) (fun e => by have := hnl.1; omega)]
      exact h.end2
    · intro q hq
      rw [e1] at hq
      rcases List.mem_append.mp hq with hq | hq
      · exact (hok q).2 (h.trail q hq)
      · rw [List.mem_singleton.mp hq]; exact (hok l).2 hl
    · intro x hx hv
      have hx1 : x ≠ l := fun e => by rw [e, hvl] at hv; cases hv
      have hx2 : x ≠ not_lit l := fun e => by rw [e, hvn] at hv; cases hv
      rw [hval x hx1 hx2] at hv
      have := h.pair x ((hok x).1 hx) hv
      rw [hval (not_lit x) (fun e => hx2 (by rw [← e, not_lit_not_lit]))
        (fun e => hx1 (not_lit_inj e))]
      exact this
    · intro x hx hv
      rw [e3, e_bl]
      by_cases hvar : var_of x = var_of l
      · rw [hvar, upd_same]
      · rw [upd_ne _ _ hvar]
        have hx1 : x ≠ l := fun e => hvar (by rw [e])
        have hx2 : x ≠ not_lit l := fun e => hvar (by rw [e, var_of_not_lit])
        rw [hval x hx1 hx2] at hv
        exact h.levels x ((hok x).1 hx) hv
    · intro x hx v hv m hm
      rw [e_bin] at hv
      exact (hok m).2 (h.bins x ((hok x).1 hx) v hv m hm)
    · rw [e_pc, e_lc, e_alloc]; exact h.handles
    · rw [e_pc, e_lc]; exact h.nodup
    · refine ⟨e_bl, e_ts, e_li, le_of_eq e_nlits.symm, ⟨[l], e1, ?_, ?_⟩,
        ⟨[], by rw [e_bc]; exact (List.append_nil _).symm, by rw [e_nb]; rfl,
          fun _ _ => by rw [e_bin]; exact (List.append_nil _).symm⟩,
        ⟨[], by rw [e_pc, List.append_nil]⟩, le_of_eq e_alloc.symm, fun c _ => hcl c⟩
      · intro x hx _
        rw [List.mem_singleton.mp hx]
        exact ⟨hu, h.pair l hl hu⟩
      · intro x _ h1 h2
        have hx1 : x ≠ l := fun e => h1 (by rw [e]; exact List.mem_singleton.mpr rfl)
        have hx2 : x ≠ not_lit l := fun e => h2 (by
          rw [e, not_lit_not_lit]; exact List.mem_singleton.mpr rfl)
        exact hval x hx1 hx2

theorem link_ok_congr {s t : smt_core_t} (e_nlits : t.nlits = s.nlits)
    (e_cl : t.clauses = s.clauses) (lnk : link_t) : link_ok t lnk ↔ link_ok s lnk := by
  unfold link_ok
  rw [e_cl]
  constructor
  · rintro ⟨a, b, c⟩
    exact ⟨a, b, fun x hx => (lit_ok_congr e_nlits x).1 (c x hx)⟩
  · rintro ⟨a, b, c⟩
    exact ⟨a, b, fun x hx => (lit_ok_congr e_nlits x).2 (c x hx)⟩

theorem links_same {s t : smt_core_t} (h : PushInv s) (e_nlits : t.nlits = s.nlits)
    (e_cl : t.clauses = s.clauses) (e_w : t.watch = s.watch) :
    ∀ l, lit_ok t l → ∀ lnk ∈ t.watch l, link_ok t lnk := by
  intro l hl lnk hlnk
  rw [e_w] at hlnk
  exact (link_ok_congr e_nlits e_cl lnk).2 (h.links l ((lit_ok_congr e_nlits l).1 hl) lnk hlnk)

theorem frame_implied {s : smt_core_t} (h : PushInv s) {l : Int} (hl : lit_ok s l)
    (hu : s.value l = VAL_UNDEF) (a : antecedent_t) :
    PushInv (implied_literal s l a) ∧ Ext s (implied_literal s l a) :=
  mk_frame h rfl rfl rfl rfl rfl rfl rfl rfl rfl rfl rfl rfl
    (Or.inr ⟨l, hl, hu, rfl, rfl, by
      show upd s.level (var_of l) s.decision_level = _
      rw [h.level_eq]⟩)
    (fun _ => List.Perm.refl _) (links_same h rfl rfl rfl)

theorem frame_propagate_literal {s : smt_core_t} (h : PushInv s) {l : Int} (hl : lit_ok s l)
    (hu : s.value l = VAL_UNDEF) (e : Nat) :
    PushInv (propagate_literal s l e) ∧ Ext s (propagate_literal s l e) :=
  mk_frame h rfl rfl rfl rfl rfl rfl rfl rfl rfl rfl rfl rfl
    (Or.inr ⟨l, hl, hu, rfl, rfl, by
      show upd s.level (var_of l) s.decision_level = _
      rw [h.level_eq]⟩)
    (fun _ => List.Perm.refl _) (links_same h rfl rfl rfl)

theorem frame_assign_literal {s : smt_core_t} (h : PushInv s) {l : Int} (hl : lit_ok s l)
    (hu : s.value l = VAL_UNDEF) :
    PushInv (assign_literal s l) ∧ Ext s (assign_literal s l) :=
  mk_frame h rfl rfl rfl rfl rfl rfl rfl rfl rfl rfl rfl rfl
    (Or.inr ⟨l, hl, hu, rfl, rfl, rfl⟩)
    (fun _ => List.Perm.refl _) (links_same h rfl rfl rfl)

theorem frame_bin_vector (l0 : Int) : ∀ (v : List Int) (s : smt_core_t), PushInv s →
    (∀ m ∈ v, 0 ≤ m → lit_ok s m) →
    PushInv (propagation_via_bin_vector s l0 v).2 ∧
      Ext s (propagation_via_bin_vector s l0 v).2 := by
  intro v
  induction v with
  | nil => intro s h _; exact ⟨h, ext_refl s⟩
  | cons l1 v ih =>
    intro s h hv
    unfold propagation_via_bin_vector
    split
    · exact ih s h (fun m hm => hv m (List.mem_cons_of_mem _ hm))
    · split
      · exact ⟨h, ext_refl s⟩
      · rename_i hneg
        split
        · rename_i hu
          have hl1 : lit_ok s l1 := hv l1 (List.mem_cons_self _ _) (by omega)
          obtain ⟨a1, a2⟩ := frame_implied h hl1 hu (mk_literal_antecedent l0)
          obtain ⟨b1, b2⟩ := ih _ a1 (fun m hm hm0 =>
            (lit_ok_congr (show (implied_literal s l1 (mk_literal_antecedent l0)).nlits = s.nlits
              from rfl) m).2 (hv m (List.mem_cons_of_mem _ hm) hm0))
          exact ⟨b1, ext_trans h.nlits_eq a2 b2⟩
        · exact mk_frame h rfl rfl rfl rfl rfl rfl rfl rfl rfl rfl rfl rfl
            (Or.inl ⟨rfl, rfl, rfl⟩) (fun _ => List.Perm.refl _) (links_same h rfl rfl rfl)

/-- The two writes of `swap_watch` exchange two literals of the clause. -/
theorem swap_watch_perm (c : clause_t) {i k : Nat} (hi : i < c.cl.length)
    (hk : k < c.cl.length) : (swap_watch c i k (c.get k)).cl.Perm c.cl := by
  apply perm_of_occ
  intro b
  have e1 := occ_set_int (c.cl.set k (c.get i)) i (c.get k) b (by simp; exact hi)
  have e2 := occ_set_int c.cl k (c.get i) b hk
  have g1 : (c.cl.set k (c.get i)).getD i 0 = c.get i := by
    rw [getD_set_int]
    split
    · rfl
    · rw [clause_get_lt c hi]
      simp [List.getD_eq_getElem?_getD, List.getElem?_eq_getElem hi]
  have g2 : c.cl.getD k 0 = c.get k := by
    rw [clause_get_lt c hk]
    simp [List.getD_eq_getElem?_getD, List.getElem?_eq_getElem hk]
  rw [g1] at e1
  rw [g2] at e2
  show occ ((c.cl.set k (c.get i)).set i (c.get k)) b = occ c.cl b
  omega

theorem link_ok_of_perm {s t : smt_core_t} (e_nlits : t.nlits = s.nlits)
    (hcl : ∀ d, (t.clauses d).cl.Perm (s.clauses d).cl) {lnk : link_t} (h : link_ok s lnk) :
    link_ok t lnk := by
  obtain ⟨a, b, c⟩ := h
  refine ⟨a, by rw [(hcl lnk.1).length_eq]; exact b, fun x hx => ?_⟩
  exact (lit_ok_congr e_nlits x).2 (c x ((hcl lnk.1).mem_iff.1 hx))

theorem link_ok_same {s t : smt_core_t} (e_nlits : t.nlits = s.nlits)
    (e_cl : t.clauses = s.clauses) {lnk : link_t} (h : link_ok s lnk) : link_ok t lnk :=
  (link_ok_congr e_nlits e_cl lnk).2 h

theorem restored_perm_of_ok {c1 c2 : clause_t} (hp : c1.cl.Perm c2.cl) (hlen : 2 ≤ c2.cl.length)
    (hnn : ∀ x ∈ c2.cl, 0 ≤ x) : (restored_clause c1).cl.Perm (restored_clause c2).cl := by
  rw [restored_clause_of_all_nonneg c2 hlen hnn,
    restored_clause_of_all_nonneg c1 (by rw [hp.length_eq]; exact hlen)
      (fun x hx => hnn x (hp.mem_iff.1 hx))]
  exact hp

theorem link_ok_swap (s : smt_core_t) (c i k : Nat) (l : Int) (lnk : link_t)
    (hperm : ∀ d, (updN s.clauses c
      (swap_watch (s.clauses c) i k ((s.clauses c).get k)) d).cl.Perm (s.clauses d).cl)
    (h : link_ok s lnk) :
    link_ok (watch_add
      { s with clauses := updN s.clauses c (swap_watch (s.clauses c) i k ((s.clauses c).get k)) }
      l (c, i)) lnk :=
  @link_ok_of_perm s (watch_add
      { s with clauses := updN s.clauses c (swap_watch (s.clauses c) i k ((s.clauses c).get k)) }
      l (c, i)) rfl hperm lnk h

theorem link_ok_implied (s : smt_core_t) (l : Int) (a : antecedent_t) (lnk : link_t)
    (h : link_ok s lnk) : link_ok (implied_literal s l a) lnk :=
  @link_ok_same s (implied_literal s l a) rfl rfl lnk h

theorem frame_watched_walk (l0 : Int) (rest : List link_t) :
    ∀ (s : smt_core_t) (kept : List link_t), PushInv s →
    (∀ lnk ∈ kept, link_ok s lnk) → (∀ lnk ∈ rest, link_ok s lnk) →
    PushInv (propagation_via_watched_list_loop l0 rest s kept).2 ∧
      Ext s (propagation_via_watched_list_loop l0 rest s kept).2 := by
  induction rest with
  | nil =>
    intro s kept h hk _
    show PushInv { s with watch := upd s.watch l0 kept.reverse } ∧ _
    refine mk_frame h rfl rfl rfl rfl rfl rfl rfl rfl rfl rfl rfl rfl (Or.inl ⟨rfl, rfl, rfl⟩)
      (fun _ => List.Perm.refl _) ?_
    intro l hl lnk hlnk
    have hlnk2 : lnk ∈ upd s.watch l0 kept.reverse l := hlnk
    by_cases e : l = l0
    · rw [e, upd_same] at hlnk2
      exact @link_ok_same s _ rfl rfl _ (hk lnk (List.mem_reverse.mp hlnk2))
    · rw [upd_ne _ _ e] at hlnk2
      exact @link_ok_same s _ rfl rfl _ (h.links l hl lnk hlnk2)
  | cons lnk0 rest ih =>
    intro s kept h hk hr
    obtain ⟨c, i⟩ := lnk0
    obtain ⟨hi2, hlen, hval⟩ := hr (c, i) (List.mem_cons_self _ _)
    have hi2 : i < 2 := hi2
    have hlen : 2 ≤ (s.clauses c).cl.length := hlen
    have hval : ∀ x ∈ (s.clauses c).cl, lit_ok s x := hval
    have hnn : ∀ k, k < (s.clauses c).cl.length → 0 ≤ (s.clauses c).get k :=
      fun k hk => clause_get_nonneg_of_all _ hlen (fun x hx => (hval x hx).1) k hk
    have hrest : ∀ lnk ∈ rest, link_ok s lnk := fun lnk hl => hr lnk (List.mem_cons_of_mem _ hl)
    have hkept2 : ∀ lnk ∈ (c, i) :: kept, link_ok s lnk := by
      intro lnk hl
      rcases List.mem_cons.mp hl with e | e
      · rw [e]; exact hr (c, i) (List.mem_cons_self _ _)
      · exact hk lnk e
    obtain ⟨b1, b2, b3, b4, -⟩ := watched_loop_cases s l0 c i rest kept h.end1 h.end2 hlen hnn
    by_cases hv : s.value (get_other_watch (s.clauses c) i) = VAL_TRUE
    · rw [b1 hv]
      exact ih s ((c, i) :: kept) h hkept2 hrest
    · rcases scan_false_clause_cases s.value (s.clauses c) hlen hnn h.end1 h.end2 with
        ⟨-, c2, c3, c4, c5, c6⟩ | ⟨-, hall⟩
      · generalize (scan_false s.value ((s.clauses c).array.drop 2) 2).1 = k at c2 c3 c4 c5 c6
        rw [c4] at c5
        rw [b2 k c2 c3 hv c5 c6]
        have hperm : ∀ d, (updN s.clauses c
            (swap_watch (s.clauses c) i k ((s.clauses c).get k)) d).cl.Perm (s.clauses d).cl := by
          intro d
          unfold updN
          by_cases e : d = c
          · rw [if_pos e, e]
            exact swap_watch_perm _ (by omega) c3
          · rw [if_neg e]
        obtain ⟨a1, a2⟩ : PushInv (watch_add
            { s with
              clauses := updN s.clauses c (swap_watch (s.clauses c) i k ((s.clauses c).get k)) }
            ((s.clauses c).get k) (c, i)) ∧ Ext s (watch_add
            { s with
              clauses := updN s.clauses c (swap_watch (s.clauses c) i k ((s.clauses c).get k)) }
            ((s.clauses c).get k) (c, i)) := by
          refine mk_frame h rfl rfl rfl rfl rfl rfl rfl rfl rfl rfl rfl rfl
            (Or.inl ⟨rfl, rfl, rfl⟩) ?_ ?_
          · intro d
            show (restored_clause (updN s.clauses c
              (swap_watch (s.clauses c) i k ((s.clauses c).get k)) d)).cl.Perm _
            by_cases e : d = c
            · rw [e]
              exact restored_perm_of_ok (hperm c) hlen (fun x hx => (hval x hx).1)
            · have : updN s.clauses c (swap_watch (s.clauses c) i k ((s.clauses c).get k)) d
                  = s.clauses d := by
                unfold updN; rw [if_neg e]
              rw [this]
          · intro l hl lnk hlnk
            have hlnk2 : lnk ∈ upd s.watch ((s.clauses c).get k)
                (if s.USE_END_WATCH then s.watch ((s.clauses c).get k) ++ [(c, i)]
                  else (c, i) :: s.watch ((s.clauses c).get k)) l := hlnk
            have hold : lnk = (c, i) ∨ lnk ∈ s.watch l := by
              by_cases e : l = (s.clauses c).get k
              · rw [e, upd_same] at hlnk2
                rw [e]
                split at hlnk2
                · rcases List.mem_append.mp hlnk2 with h1 | h1
                  · exact Or.inr h1
                  · exact Or.inl (List.mem_singleton.mp h1)
                · rcases List.mem_cons.mp hlnk2 with h1 | h1
                  · exact Or.inl h1
                  · exact Or.inr h1
              · rw [upd_ne _ _ e] at hlnk2
                exact Or.inr hlnk2
            rcases hold with e | e
            · rw [e]
              exact link_ok_swap s c i k _ _ hperm (hr (c, i) (List.mem_cons_self _ _))
            · exact link_ok_swap s c i k _ _ hperm (h.links l hl lnk e)
        obtain ⟨d1, d2⟩ := ih _ kept a1
          (fun lnk hl => link_ok_swap s c i k _ _ hperm (hk lnk hl))
          (fun lnk hl => link_ok_swap s c i k _ _ hperm (hrest lnk hl))
        exact ⟨d1, ext_trans h.nlits_eq a2 d2⟩
      · have hl1 : lit_ok s (get_other_watch (s.clauses c) i) := by
          unfold get_other_watch
          exact hval _ (clause_get_mem (by omega))
        cases hv1 : s.value (get_other_watch (s.clauses c) i) with
        | VAL_TRUE => exact absurd hv1 hv
        | VAL_UNDEF =>
          rw [b3 hall hv1]
          obtain ⟨a1, a2⟩ := frame_implied h hl1 hv1 (mk_clause_antecedent c (1 - i))
          obtain ⟨d1, d2⟩ := ih _ ((c, i) :: kept) a1
            (fun lnk hl => link_ok_implied s _ _ lnk (hkept2 lnk hl))
            (fun lnk hl => link_ok_implied s _ _ lnk (hrest lnk hl))
          exact ⟨d1, ext_trans h.nlits_eq a2 d2⟩
        | VAL_FALSE =>
          rw [b4 hall hv1]
          refine mk_frame h rfl rfl rfl rfl rfl rfl rfl rfl rfl rfl rfl rfl
            (Or.inl ⟨rfl, rfl, rfl⟩) (fun _ => List.Perm.refl _) ?_
          intro l hl lnk hlnk
          have hlnk2 : lnk ∈ upd s.watch l0 (kept.reverse ++ (c, i) :: rest) l := hlnk
          by_cases e : l = l0
          · rw [e, upd_same] at hlnk2
            rcases List.mem_append.mp hlnk2 with h1 | h1
            · exact @link_ok_same s _ rfl rfl _ (hk lnk (List.mem_reverse.mp h1))
            · exact @link_ok_same s _ rfl rfl _ (hr lnk h1)
          · rw [upd_ne _ _ e] at hlnk2
            exact @link_ok_same s _ rfl rfl _ (h.links l hl lnk hlnk2)

theorem frame_bp_step {s : smt_core_t} (h : PushInv s) {l0 : Int} (hl0 : lit_ok s l0) :
    PushInv (boolean_propagation_step s l0).2 ∧ Ext s (boolean_propagation_step s l0).2 := by
  have hwalk : ∀ s1 : smt_core_t, PushInv s1 → lit_ok s1 l0 →
      PushInv (propagation_via_watched_list s1 l0).2 ∧
        Ext s1 (propagation_via_watched_list s1 l0).2 := by
    intro s1 h1 e
    unfold propagation_via_watched_list
    exact frame_watched_walk l0 (s1.watch l0) s1 [] h1 (fun _ hm => absurd hm (List.not_mem_nil _))
      (fun lnk hl => h1.links l0 e lnk hl)
  unfold boolean_propagation_step
  cases hb : s.bin l0 with
  | none =>
    simp only []
    exact hwalk s h hl0
  | some v =>
    simp only []
    obtain ⟨a1, a2⟩ := frame_bin_vector l0 (v ++ [null_literal]) s h (by
      intro m hm hm0
      rcases List.mem_append.mp hm with h1 | h1
      · exact h.bins l0 hl0 v hb m h1
      · rw [List.mem_singleton.mp h1] at hm0
        exact absurd hm0 (by decide))
    split
    · obtain ⟨d1, d2⟩ := hwalk _ a1 (lit_ok_mono a2.nlits hl0)
      exact ⟨d1, ext_trans h.nlits_eq a2 d2⟩
    · exact ⟨a1, a2⟩

theorem frame_bp_loop (fuel : Nat) :
    ∀ (i : Nat) (s : smt_core_t), PushInv s →
    ∀ r, boolean_propagation_loop fuel i s = some r → PushInv r.2 ∧ Ext s r.2 := by
  induction fuel with
  | zero => intro i s _ r hr; cases hr
  | succ fuel ih =>
    intro i s h r hr
    unfold boolean_propagation_loop at hr
    by_cases hlt : i < s.stack.top
    · rw [if_pos hlt] at hr
      have hmem : s.stack.lit.getD i 0 ∈ s.stack.lit := getD_mem hlt
      have hf := frame_bp_step h (lit_ok_not h.nlits_eq (h.trail _ hmem))
      dsimp only at hr
      generalize boolean_propagation_step s (not_lit (s.stack.lit.getD i 0)) = r1 at hf hr
      cases hb : r1.1 with
      | true =>
        rw [hb] at hr
        simp only [if_true] at hr
        obtain ⟨d1, d2⟩ := ih (i + 1) r1.2 hf.1 r hr
        exact ⟨d1, ext_trans h.nlits_eq hf.2 d2⟩
      | false =>
        rw [hb] at hr
        simp only [Bool.false_eq_true, if_false, Option.some.injEq] at hr
        subst hr
        exact hf
    · rw [if_neg hlt] at hr
      simp only [Option.some.injEq] at hr
      subst hr
      exact mk_frame h rfl rfl rfl rfl rfl rfl rfl rfl rfl rfl rfl rfl
        (Or.inl ⟨rfl, rfl, rfl⟩) (fun _ => List.Perm.refl _) (links_same h rfl rfl rfl)

theorem frame_boolean_propagation {s : smt_core_t} (h : PushInv s) (fuel : Nat)
    (r : Bool × smt_core_t) (hr : boolean_propagation fuel s = some r) :
    PushInv r.2 ∧ Ext s r.2 :=
  frame_bp_loop fuel s.stack.prop_ptr s h r hr

theorem link_ok_mono {s t : smt_core_t} (h : s.nlits ≤ t.nlits) (e : t.clauses = s.clauses)
    {lnk : link_t} (hl : link_ok s lnk) : link_ok t lnk := by
  obtain ⟨a, b, c⟩ := hl
  unfold link_ok
  rw [e]
  exact ⟨a, b, fun x hx => lit_ok_mono h (c x hx)⟩

theorem frame_create_boolean_variable {s : smt_core_t} (h : PushInv s) :
    PushInv (create_boolean_variable s) ∧ Ext s (create_boolean_variable s) := by
  have hn := h.nlits_eq
  have e_nlits : (create_boolean_variable s).nlits = s.nlits + 2 := rfl
  have hle : s.nlits ≤ (create_boolean_variable s).nlits := by rw [e_nlits]; omega
  have e_val : (create_boolean_variable s).value =
      upd (upd s.value (pos_lit s.nvars) VAL_UNDEF) (neg_lit s.nvars) VAL_UNDEF := rfl
  have e_lev : (create_boolean_variable s).level = upd s.level s.nvars UINT32_MAX := rfl
  have e_bin : (create_boolean_variable s).bin =
      upd (upd s.bin (pos_lit s.nvars) none) (neg_lit s.nvars) none := rfl
  have e_w : (create_boolean_variable s).watch =
      upd (upd s.watch (pos_lit s.nvars) []) (neg_lit s.nvars) [] := rfl
  have hold : ∀ l, lit_ok s l → l ≠ pos_lit s.nvars ∧ l ≠ neg_lit s.nvars := by
    intro l hl
    have := hl.2
    rw [hn] at this
    push_cast at this
    unfold pos_lit neg_lit
    constructor <;> omega
  have hnew : ∀ l, lit_ok (create_boolean_variable s) l →
      lit_ok s l ∨ l = pos_lit s.nvars ∨ l = neg_lit s.nvars := by
    intro l hl
    have h2 := hl.2
    rw [e_nlits, hn] at h2
    push_cast at h2
    unfold lit_ok pos_lit neg_lit
    rw [hn]
    push_cast
    have := hl.1
    omega
  have hnp : not_lit (pos_lit s.nvars) = neg_lit s.nvars := by
    unfold not_lit pos_lit neg_lit; split <;> omega
  have hnn : not_lit (neg_lit s.nvars) = pos_lit s.nvars := by
    unfold not_lit pos_lit neg_lit; split <;> omega
  have hpn : pos_lit (s.nvars : Int) ≠ neg_lit s.nvars := by
    unfold pos_lit neg_lit; omega
  have hvold : ∀ l, l ≠ pos_lit s.nvars → l ≠ neg_lit s.nvars →
      (create_boolean_variable s).value l = s.value l := by
    intro l h1 h2
    rw [e_val, upd_ne _ _ h2, upd_ne _ _ h1]
  have hvp : (create_boolean_variable s).value (pos_lit s.nvars) = VAL_UNDEF := by
    rw [e_val, upd_ne _ _ hpn, upd_same]
  have hvn : (create_boolean_variable s).value (neg_lit s.nvars) = VAL_UNDEF := by
    rw [e_val, upd_same]
  have hp0 : (0 : Int) ≤ pos_lit s.nvars := by unfold pos_lit; omega
  have hn0 : (0 : Int) ≤ neg_lit s.nvars := by unfold neg_lit; omega
  refine ⟨⟨?_, h.level_eq, ?_, ?_, ?_, ?_, ?_, ?_, ?_, h.handles, h.nodup⟩, ?_⟩
  · show s.nlits + 2 = 2 * (s.nvars + 1)
    omega
  · rw [hvold (-1) (by omega) (by omega)]; exact h.end1
  · rw [hvold (-2) (by omega) (by omega)]; exact h.end2
  · intro q hq
    exact lit_ok_mono hle (h.trail q hq)
  · intro l hl hv
    rcases hnew l hl with h1 | h1 | h1
    · obtain ⟨a, b⟩ := hold l h1
      obtain ⟨a2, b2⟩ := hold _ (lit_ok_not hn h1)
      rw [hvold l a b] at hv
      rw [hvold _ a2 b2]
      exact h.pair l h1 hv
    · rw [h1, hnp]; exact hvn
    · rw [h1, hnn]; exact hvp
  · intro l hl hv
    rcases hnew l hl with h1 | h1 | h1
    · obtain ⟨a, b⟩ := hold l h1
      rw [hvold l a b] at hv
      have hvar : var_of l ≠ (s.nvars : Int) := by
        intro e
        have h2 := h1.2
        rw [hn] at h2
        push_cast at h2
        unfold var_of at e
        omega
      rw [e_lev, upd_ne _ _ hvar]
      exact h.levels l h1 hv
    · rw [h1, hvp] at hv; exact absurd rfl hv
    · rw [h1, hvn] at hv; exact absurd rfl hv
  · intro l hl lnk hlnk
    rw [e_w] at hlnk
    rcases hnew l hl with h1 | h1 | h1
    · obtain ⟨a, b⟩ := hold l h1
      rw [upd_ne _ _ b, upd_ne _ _ a] at hlnk
      exact link_ok_mono hle rfl (h.links l h1 lnk hlnk)
    · rw [h1, upd_ne _ _ hpn, upd_same] at hlnk
      cases hlnk
    · rw [h1, upd_same] at hlnk
      cases hlnk
  · intro l hl v hv m hm
    rw [e_bin] at hv
    rcases hnew l hl with h1 | h1 | h1
    · obtain ⟨a, b⟩ := hold l h1
      rw [upd_ne _ _ b, upd_ne _ _ a] at hv
      exact lit_ok_mono hle (h.bins l h1 v hv m hm)
    · rw [h1, upd_ne _ _ hpn, upd_same] at hv
      cases hv
    · rw [h1, upd_same] at hv
      cases hv
  · refine ⟨rfl, rfl, rfl, hle, ⟨[], (List.append_nil _).symm,
        fun _ hm => absurd hm (List.not_mem_nil _), ?_⟩,
      ⟨[], (List.append_nil _).symm, rfl, ?_⟩, ⟨[], (List.append_nil _).symm⟩, le_refl _,
      fun _ _ => List.Perm.refl _⟩
    · intro l hl _ _
      obtain ⟨a, b⟩ := hold l hl
      exact hvold l a b
    · intro l hl
      obtain ⟨a, b⟩ := hold l hl
      rw [e_bin, upd_ne _ _ b, upd_ne _ _ a]
      exact (List.append_nil _).symm

theorem frame_fields {s t : smt_core_t} (h : PushInv s)
    (e_nlits : t.nlits = s.nlits) (e_nvars : t.nvars = s.nvars)
    (e_dl : t.decision_level = s.decision_level) (e_bl : t.base_level = s.base_level)
    (e_li : t.stack.level_index = s.stack.level_index) (e_bin : t.bin = s.bin)
    (e_pc : t.problem_clauses = s.problem_clauses)
    (e_lc : t.learned_clauses = s.learned_clauses)
    (e_alloc : t.nclauses_alloc = s.nclauses_alloc)
    (e_bc : t.binary_clauses = s.binary_clauses) (e_nb : t.nb_bin_clauses = s.nb_bin_clauses)
    (e_ts : t.trail_stack = s.trail_stack) (e_lit : t.stack.lit = s.stack.lit)
    (e_val : t.value = s.value) (e_lev : t.level = s.level) (e_cl : t.clauses = s.clauses)
    (e_w : t.watch = s.watch) : PushInv t ∧ Ext s t :=
  mk_frame h e_nlits e_nvars e_dl e_bl e_li e_bin e_pc e_lc e_alloc e_bc e_nb e_ts
    (Or.inl ⟨e_lit, e_val, e_lev⟩) (fun c => by rw [e_cl]) (links_same h e_nlits e_cl e_w)

theorem frame_add_simplified_unit_clause {s : smt_core_t} (h : PushInv s) {l : Int}
    (hl : lit_ok s l) (hu : s.value l = VAL_UNDEF) :
    PushInv (add_simplified_unit_clause s l) ∧ Ext s (add_simplified_unit_clause s l) := by
  have e : add_simplified_unit_clause s l =
      { assign_literal s l with nb_unit_clauses := (assign_literal s l).nb_unit_clauses + 1 } := by
    unfold add_simplified_unit_clause
    dsimp only
    rw [if_neg (by rw [h.level_eq]; intro hh; exact absurd hh.2 (lt_irrefl _))]
    unfold backtrack_to_base_level
    rw [backtrack_to_level_ge (le_of_eq h.level_eq)]
  rw [e]
  obtain ⟨a1, a2⟩ := frame_assign_literal h hl hu
  obtain ⟨b1, b2⟩ := @frame_fields (assign_literal s l)
    { assign_literal s l with nb_unit_clauses := (assign_literal s l).nb_unit_clauses + 1 } a1
    rfl rfl rfl rfl rfl rfl rfl rfl rfl rfl rfl rfl rfl rfl rfl rfl rfl
  exact ⟨b1, ext_trans h.nlits_eq a2 b2⟩

theorem add_literal_to_vector_getD (v : Option (List Int)) (l : Int) :
    (add_literal_to_vector v l).getD [] = v.getD [] ++ [l] := by
  unfold add_literal_to_vector
  cases v <;> rfl

theorem frame_direct_binary_clause {s : smt_core_t} (h : PushInv s) (hb : 0 < s.base_level)
    {l1 l2 : Int} (h1 : lit_ok s l1) (h2 : lit_ok s l2) :
    PushInv (direct_binary_clause s l1 l2) ∧ Ext s (direct_binary_clause s l1 l2) := by
  have e_bin : (direct_binary_clause s l1 l2).bin =
      upd (upd s.bin l1 (add_literal_to_vector (s.bin l1) l2)) l2
        (add_literal_to_vector (upd s.bin l1 (add_literal_to_vector (s.bin l1) l2) l2) l1) := rfl
  have hget : ∀ l, ((direct_binary_clause s l1 l2).bin l).getD [] =
      (s.bin l).getD [] ++ bin_ext [(l1, l2)] l := by
    intro l
    rw [e_bin]
    show _ = (s.bin l).getD [] ++ ((if l = l1 then [l2] else []) ++ (if l = l2 then [l1] else [])
      ++ [])
    rw [List.append_nil]
    by_cases a : l = l2
    · rw [a, upd_same, add_literal_to_vector_getD, if_pos rfl]
      by_cases b : l2 = l1
      · rw [b, upd_same, add_literal_to_vector_getD, if_pos rfl, List.append_assoc]
      · rw [upd_ne _ _ b, if_neg b, List.nil_append]
    · rw [upd_ne _ _ a, if_neg a, List.append_nil]
      by_cases b : l = l1
      · rw [b, upd_same, add_literal_to_vector_getD, if_pos rfl]
      · rw [upd_ne _ _ b, if_neg b, List.append_nil]
  refine ⟨⟨h.nlits_eq, h.level_eq, h.end1, h.end2, h.trail, h.pair, h.levels, h.links, ?_,
    h.handles, h.nodup⟩, ?_⟩
  · intro l hl v hv m hm
    have hg := hget l
    rw [hv] at hg
    have hm2 : m ∈ (s.bin l).getD [] ++ bin_ext [(l1, l2)] l := by
      rw [← hg]; exact hm
    rcases List.mem_append.mp hm2 with a | a
    · cases hsb : s.bin l with
      | none => rw [hsb] at a; cases a
      | some w =>
        rw [hsb] at a
        exact h.bins l hl w hsb m a
    · have a2 : m ∈ (if l = l1 then [l2] else []) ++ (if l = l2 then [l1] else []) ++ [] := a
      rw [List.append_nil] at a2
      rcases List.mem_append.mp a2 with b | b
      · split at b
        · rw [List.mem_singleton.mp b]; exact h2
        · cases b
      · split at b
        · rw [List.mem_singleton.mp b]; exact h1
        · cases b
  · refine ⟨rfl, rfl, rfl, le_refl _, ⟨[], (List.append_nil _).symm,
        fun _ hm => absurd hm (List.not_mem_nil _), fun _ _ _ _ => rfl⟩,
      ⟨[(l1, l2)], ?_, rfl, fun l _ => hget l⟩, ⟨[], (List.append_nil _).symm⟩, le_refl _,
      fun _ _ => List.Perm.refl _⟩
    show (if s.base_level > 0 then s.binary_clauses ++ [l1, l2] else s.binary_clauses) = _
    rw [if_pos hb]
    rfl

theorem watch_add_mem (s : smt_core_t) (l l1 : Int) (x lnk : link_t)
    (h : lnk ∈ (watch_add s l x).watch l1) : lnk = x ∨ lnk ∈ s.watch l1 := by
  have hw : lnk ∈ upd s.watch l (if s.USE_END_WATCH then s.watch l ++ [x] else x :: s.watch l) l1 :=
    h
  by_cases e : l1 = l
  · rw [e, upd_same] at hw
    rw [e]
    split at hw
    · rcases List.mem_append.mp hw with a | a
      · exact Or.inr a
      · exact Or.inl (List.mem_singleton.mp a)
    · rcases List.mem_cons.mp hw with a | a
      · exact Or.inl a
      · exact Or.inr a
  · rw [upd_ne _ _ e] at hw
    exact Or.inr hw

/-- A step that installs the clause `b` under the next free handle. -/
theorem frame_install {s t : smt_core_t} (h : PushInv s) {b : List Int}
    (hlen : 2 < b.length) (hb : ∀ x ∈ b, lit_ok s x)
    (e_nlits : t.nlits = s.nlits) (e_nvars : t.nvars = s.nvars)
    (e_dl : t.decision_level = s.decision_level) (e_bl : t.base_level = s.base_level)
    (e_li : t.stack.level_index = s.stack.level_index) (e_bin : t.bin = s.bin)
    (e_lc : t.learned_clauses = s.learned_clauses)
    (e_bc : t.binary_clauses = s.binary_clauses) (e_nb : t.nb_bin_clauses = s.nb_bin_clauses)
    (e_ts : t.trail_stack = s.trail_stack) (e_lit : t.stack.lit = s.stack.lit)
    (e_val : t.value = s.value) (e_lev : t.level = s.level)
    (e_cl : t.clauses = updN s.clauses s.nclauses_alloc (new_clause b))
    (e_alloc : t.nclauses_alloc = s.nclauses_alloc + 1)
    (e_pc : t.problem_clauses = s.problem_clauses ++ [s.nclauses_alloc])
    (hw : ∀ l lnk, lnk ∈ t.watch l →
      lnk = (s.nclauses_alloc, 0) ∨ lnk = (s.nclauses_alloc, 1) ∨ lnk ∈ s.watch l) :
    PushInv t ∧ Ext s t := by
  have hok : ∀ l, lit_ok t l ↔ lit_ok s l := lit_ok_congr e_nlits
  have hnew : t.clauses s.nclauses_alloc = new_clause b := by
    rw [e_cl]; unfold updN; rw [if_pos rfl]
  have hold : ∀ c, c ≠ s.nclauses_alloc → t.clauses c = s.clauses c := by
    intro c hc
    rw [e_cl]; unfold updN; rw [if_neg hc]
  have hbt : ∀ x ∈ (new_clause b).cl, lit_ok t x := fun x hx => (hok x).2 (hb x hx)
  have hl2 : 2 ≤ (new_clause b).cl.length := by
    show 2 ≤ b.length
    omega
  have hlk : ∀ lnk, link_ok s lnk → link_ok t lnk := by
    intro lnk hl
    by_cases e : lnk.1 = s.nclauses_alloc
    · refine ⟨hl.1, ?_, ?_⟩
      · rw [e, hnew]; exact hl2
      · rw [e, hnew]; exact hbt
    · obtain ⟨a1, a2, a3⟩ := hl
      refine ⟨a1, ?_, ?_⟩
      · rw [hold _ e]; exact a2
      · rw [hold _ e]; exact fun x hx => (hok x).2 (a3 x hx)
  have hlk_new : ∀ i, i < 2 → link_ok t (s.nclauses_alloc, i) := by
    intro i hi
    refine ⟨hi, ?_, ?_⟩
    · show 2 ≤ (t.clauses s.nclauses_alloc).cl.length
      rw [hnew]; exact hl2
    · show ∀ x ∈ (t.clauses s.nclauses_alloc).cl, lit_ok t x
      rw [hnew]; exact hbt
  have hfresh : s.nclauses_alloc ∉ s.problem_clauses ++ s.learned_clauses :=
    fun hm => absurd (h.handles _ hm) (lt_irrefl _)
  refine ⟨⟨by rw [e_nlits, e_nvars]; exact h.nlits_eq, by rw [e_dl, e_bl]; exact h.level_eq,
    by rw [e_val]; exact h.end1, by rw [e_val]; exact h.end2, ?_, ?_, ?_, ?_, ?_, ?_, ?_⟩, ?_⟩
  · intro q hq
    rw [e_lit] at hq
    exact (hok q).2 (h.trail q hq)
  · intro l hl hv
    rw [e_val] at hv ⊢
    exact h.pair l ((hok l).1 hl) hv
  · intro l hl hv
    rw [e_val] at hv
    rw [e_lev, e_bl]
    exact h.levels l ((hok l).1 hl) hv
  · intro l hl lnk hlnk
    rcases hw l lnk hlnk with a | a | a
    · rw [a]; exact hlk_new 0 (by omega)
    · rw [a]; exact hlk_new 1 (by omega)
    · exact hlk lnk (h.links l ((hok l).1 hl) lnk a)
  · intro l hl v hv m hm
    rw [e_bin] at hv
    exact (hok m).2 (h.bins l ((hok l).1 hl) v hv m hm)
  · intro c hc
    rw [e_pc, e_lc] at hc
    rw [e_alloc]
    rcases List.mem_append.mp hc with a | a
    · rcases List.mem_append.mp a with a | a
      · exact Nat.lt_succ_of_lt (h.handles c (List.mem_append_left _ a))
      · rw [List.mem_singleton.mp a]; exact Nat.lt_succ_self _
    · exact Nat.lt_succ_of_lt (h.handles c (List.mem_append_right _ a))
  · rw [e_pc, e_lc]
    have hp : ((s.problem_clauses ++ [s.nclauses_alloc]) ++ s.learned_clauses).Perm
        (s.nclauses_alloc :: (s.problem_clauses ++ s.learned_clauses)) := by
      rw [List.append_assoc]
      exact List.perm_middle
    rw [hp.nodup_iff]
    exact List.nodup_cons.mpr ⟨hfresh, h.nodup⟩
  · refine ⟨e_bl, e_ts, e_li, le_of_eq e_nlits.symm, ⟨[], by rw [e_lit, List.append_nil],
        fun _ hm => absurd hm (List.not_mem_nil _), fun _ _ _ _ => by rw [e_val]⟩,
      ⟨[], by rw [e_bc]; exact (List.append_nil _).symm, by rw [e_nb]; rfl,
        fun _ _ => by rw [e_bin]; exact (List.append_nil _).symm⟩,
      ⟨[s.nclauses_alloc], e_pc⟩, by rw [e_alloc]; exact Nat.le_succ _, ?_⟩
    intro c hc
    have hne : c ≠ s.nclauses_alloc := fun e => hfresh (by
      rw [← e]; exact List.mem_append_left _ hc)
    rw [hold c hne]

theorem new_problem_clause_fields (s : smt_core_t) (b : List Int) :
    (new_problem_clause s b).nlits = s.nlits ∧ (new_problem_clause s b).nvars = s.nvars ∧
    (new_problem_clause s b).decision_level = s.decision_level ∧
    (new_problem_clause s b).base_level = s.base_level ∧
    (new_problem_clause s b).stack = s.stack ∧ (new_problem_clause s b).bin = s.bin ∧
    (new_problem_clause s b).learned_clauses = s.learned_clauses ∧
    (new_problem_clause s b).binary_clauses = s.binary_clauses ∧
    (new_problem_clause s b).nb_bin_clauses = s.nb_bin_clauses ∧
    (new_problem_clause s b).trail_stack = s.trail_stack ∧
    (new_problem_clause s b).value = s.value ∧ (new_problem_clause s b).level = s.level ∧
    (new_problem_clause s b).clauses = updN s.clauses s.nclauses_alloc (new_clause b) ∧
    (new_problem_clause s b).nclauses_alloc = s.nclauses_alloc + 1 ∧
    (new_problem_clause s b).problem_clauses = s.problem_clauses ++ [s.nclauses_alloc] ∧
    (new_problem_clause s b).watch =
      (watch_add (watch_add s (b.getD 0 0) (s.nclauses_alloc, 0)) (b.getD 1 0)
        (s.nclauses_alloc, 1)).watch := by
  unfold new_problem_clause watch_add alloc_clause
  exact ⟨rfl, rfl, rfl, rfl, rfl, rfl, rfl, rfl, rfl, rfl, rfl, rfl, rfl, rfl, rfl, rfl⟩

theorem frame_new_problem_clause {s : smt_core_t} (h : PushInv s) {b : List Int}
    (hlen : 2 < b.length) (hb : ∀ x ∈ b, lit_ok s x) :
    PushInv (new_problem_clause s b) ∧ Ext s (new_problem_clause s b) := by
  obtain ⟨f1, f2, f3, f4, f5, f6, f7, f8, f9, f10, f11, f12, f13, f14, f15, f16⟩ :=
    new_problem_clause_fields s b
  refine frame_install h hlen hb f1 f2 f3 f4 (by rw [f5]) f6 f7 f8 f9 f10 (by rw [f5]) f11 f12
    f13 f14 f15 ?_
  intro l lnk hlnk
  rw [f16] at hlnk
  rcases watch_add_mem _ _ _ _ _ hlnk with a | a
  · exact Or.inr (Or.inl a)
  · rcases watch_add_mem _ _ _ _ _ a with a | a
    · exact Or.inl a
    · exact Or.inr (Or.inr a)

theorem unmarked_facts (x : clause_t) (h : is_clause_to_be_removed x = false) :
    0 ≤ x.get 0 ∧ 0 ≤ x.get 1 ∧ 2 ≤ x.cl.length := by
  unfold is_clause_to_be_removed at h
  simp only [Bool.or_eq_false_iff, decide_eq_false_iff_not, not_lt] at h
  refine ⟨h.1, h.2, ?_⟩
  by_contra hc
  have := clause_get_ge x (show x.cl.length ≤ 1 by omega)
  have hn := end_marker_neg x
  omega

theorem restored_mark_of_unmarked (x : clause_t) (h : is_clause_to_be_removed x = false) :
    restored_clause (mark_for_removal x) = x := by
  obtain ⟨h0, h1, hlen⟩ := unmarked_facts x h
  obtain ⟨cl, lr⟩ := x
  match cl, hlen with
  | a :: b :: r, _ =>
    have ha : 0 ≤ a := h0
    have hb : 0 ≤ b := h1
    unfold restored_clause mark_for_removal is_clause_to_be_removed restore_removed_clause
    simp only [clause_t.get, List.getD_cons_zero, List.getD_cons_succ, List.set_cons_zero,
      List.set_cons_succ, Bool.or_eq_true, decide_eq_true_eq, neg_neg]
    split
    · rfl
    · rename_i hh
      have e1 : a = 0 := by omega
      have e2 : b = 0 := by omega
      subst e1 e2
      rfl

theorem mark_eq_self_of_unmarked (x : clause_t) (h : is_clause_to_be_removed x = false)
    (hm : is_clause_to_be_removed (mark_for_removal x) = false) : mark_for_removal x = x := by
  have := restored_mark_of_unmarked x h
  unfold restored_clause at this
  rw [hm] at this
  simpa using this

theorem restored_of_unmarked (x : clause_t) (h : is_clause_to_be_removed x = false) :
    restored_clause x = x := by
  unfold restored_clause
  rw [h]
  rfl

/-- The state after `simplify_clause_set` at a base level above 0. -/
theorem simplify_clause_set_pos {s : smt_core_t} (hb : s.base_level ≠ 0)
    (nd : (s.problem_clauses ++ s.learned_clauses).Nodup) :
    ∃ (cl : Nat → clause_t) (a b n n1 : Nat),
      simplify_clause_set s
        = { s with
            clauses := cl,
            watch := fun l => if 0 ≤ l ∧ l < s.nlits then
              (s.watch l).filter (fun lnk => ! is_clause_to_be_removed (cl lnk.1))
              else s.watch l,
            aux_literals := a, aux_clauses := b,
            nb_prob_clauses := n1, nb_clauses := n,
            learned_clauses :=
              s.learned_clauses.filter (fun c => ! is_clause_to_be_removed (cl c)) } ∧
      ∀ d, cl d =
        if d ∈ s.problem_clauses then
          clause_step_result true s.value s.antecedent s.base_level d (s.clauses d)
        else if d ∈ s.learned_clauses then
          clause_step_result false s.value s.antecedent s.base_level d (s.clauses d)
        else s.clauses d := by
  have ndP : s.problem_clauses.Nodup := (List.nodup_append.1 nd).1
  have ndL : s.learned_clauses.Nodup := (List.nodup_append.1 nd).2.1
  have dis : ∀ d, d ∈ s.problem_clauses → d ∉ s.learned_clauses := fun d h1 h2 =>
    (List.nodup_append.1 nd).2.2 h1 h2
  obtain ⟨F1a, F1b⟩ := foldl_clause_steps simplify_problem_step (clause_step_result true)
    simplify_problem_step_clauses s.problem_clauses { s with aux_literals := 0, aux_clauses := 0 } ndP
  unfold simplify_clause_set
  dsimp only at F1a F1b ⊢
  generalize List.foldl simplify_problem_step { s with aux_literals := 0, aux_clauses := 0 }
    s.problem_clauses = s1 at F1a F1b ⊢
  obtain ⟨cl1, a1, b1, e1⟩ := sameButClauses_exists F1a
  subst e1
  dsimp only at F1b ⊢
  obtain ⟨F2a, F2b⟩ := foldl_clause_steps simplify_learned_step (clause_step_result false)
    simplify_learned_step_clauses s.learned_clauses
    { s with clauses := cl1, aux_literals := 0, aux_clauses := if s.base_level = 0 then 0 else b1,
             nb_prob_clauses := b1 } ndL
  dsimp only at F2a F2b
  generalize List.foldl simplify_learned_step
    { s with clauses := cl1, aux_literals := 0, aux_clauses := if s.base_level = 0 then 0 else b1,
             nb_prob_clauses := b1 } s.learned_clauses = s3 at F2a F2b ⊢
  obtain ⟨cl3, a3, b3, e3⟩ := sameButClauses_exists F2a
  subst e3
  dsimp only at F2b ⊢
  rw [cleanup_watch_lists_eq]
  dsimp only
  rw [if_neg hb]
  refine ⟨cl3, a3, b3, _, b1, rfl, ?_⟩
  intro d
  rw [F2b d]
  by_cases hP : d ∈ s.problem_clauses
  · rw [if_pos hP, if_neg (dis d hP), F1b d, if_pos hP]
  · rw [if_neg hP, F1b d, if_neg hP]

theorem clause_step_result_pos (g : Bool) (value : Int → bval_t)
    (antecedent : Int → antecedent_t) (k d : Nat) (hk : k ≠ 0) (x : clause_t) :
    clause_step_result g value antecedent k d x = x ∨
    (clause_step_result g value antecedent k d x = mark_for_removal x ∧
      (g = true → is_clause_to_be_removed x = false)) := by
  unfold clause_step_result
  rw [if_neg hk]
  by_cases hc : ((! g || ! is_clause_to_be_removed x) && ! locked_by value antecedent d x) = true
  · rw [if_pos hc]
    unfold mark_true_result
    split
    · right
      refine ⟨rfl, fun hg => ?_⟩
      rw [hg] at hc
      simp only [Bool.not_true, Bool.false_or, Bool.and_eq_true, Bool.not_eq_true'] at hc
      exact hc.1
    · exact Or.inl rfl
  · rw [if_neg hc]
    exact Or.inl rfl

theorem frame_simplify_clause_database {s : smt_core_t} (h : PushInv s)
    (hb : 0 < s.base_level) :
    PushInv (simplify_clause_database s) ∧ Ext s (simplify_clause_database s) := by
  have hb0 : s.base_level ≠ 0 := by omega
  obtain ⟨cl, a, b, n, n1, e, hcl⟩ := simplify_clause_set_pos hb0 h.nodup
  unfold simplify_clause_database
  dsimp only
  rw [e]
  dsimp only
  rw [if_neg hb0]
  have hcl1 : ∀ d, cl d = s.clauses d ∨ cl d = mark_for_removal (s.clauses d) := by
    intro d
    rw [hcl d]
    split
    · rcases clause_step_result_pos true s.value s.antecedent s.base_level d hb0 (s.clauses d)
        with h1 | h1
      · exact Or.inl h1
      · exact Or.inr h1.1
    · split
      · rcases clause_step_result_pos false s.value s.antecedent s.base_level d hb0 (s.clauses d)
          with h1 | h1
        · exact Or.inl h1
        · exact Or.inr h1.1
      · exact Or.inl rfl
  have hcl2 : ∀ d ∈ s.problem_clauses,
      (restored_clause (cl d)).cl.Perm (restored_clause (s.clauses d)).cl := by
    intro d hd
    rw [hcl d, if_pos hd]
    rcases clause_step_result_pos true s.value s.antecedent s.base_level d hb0 (s.clauses d)
      with h1 | h1
    · rw [h1]
    · rw [h1.1, restored_mark_of_unmarked _ (h1.2 rfl), restored_of_unmarked _ (h1.2 rfl)]
  have hsub : (s.problem_clauses ++
      s.learned_clauses.filter (fun c => ! is_clause_to_be_removed (cl c))).Sublist
      (s.problem_clauses ++ s.learned_clauses) :=
    List.Sublist.append (List.Sublist.refl _) (List.filter_sublist _)
  refine ⟨⟨h.nlits_eq, h.level_eq, h.end1, h.end2, h.trail, h.pair, h.levels, ?_, h.bins, ?_, ?_⟩,
    ?_⟩
  · intro l hl lnk hlnk
    have hl2 : 0 ≤ l ∧ l < (s.nlits : Int) := hl
    have hw : lnk ∈ (if 0 ≤ l ∧ l < (s.nlits : Int) then
        (s.watch l).filter (fun lnk => ! is_clause_to_be_removed (cl lnk.1))
        else s.watch l) := hlnk
    rw [if_pos hl2] at hw
    obtain ⟨hin, hun⟩ := List.mem_filter.mp hw
    have hun2 : is_clause_to_be_removed (cl lnk.1) = false := by simpa using hun
    obtain ⟨a1, a2, a3⟩ := h.links l hl lnk hin
    have hsame : cl lnk.1 = s.clauses lnk.1 := by
      rcases hcl1 lnk.1 with e1 | e1
      · exact e1
      · have hu : is_clause_to_be_removed (s.clauses lnk.1) = false := by
          unfold is_clause_to_be_removed
          have g0 := clause_get_nonneg_of_all _ a2 (fun x hx => (a3 x hx).1) 0 (by omega)
          have g1 := clause_get_nonneg_of_all _ a2 (fun x hx => (a3 x hx).1) 1 (by omega)
          simp only [Bool.or_eq_false_iff, decide_eq_false_iff_not, not_lt]
          exact ⟨g0, g1⟩
        rw [e1] at hun2 ⊢
        exact mark_eq_self_of_unmarked _ hu hun2
    refine ⟨a1, ?_, ?_⟩
    · show 2 ≤ (cl lnk.1).cl.length
      rw [hsame]; exact a2
    · show ∀ x ∈ (cl lnk.1).cl, lit_ok s x
      rw [hsame]; exact a3
  · intro c hc
    exact h.handles c (hsub.subset hc)
  · exact h.nodup.sublist hsub
  · exact ⟨rfl, rfl, rfl, le_refl _, ⟨[], (List.append_nil _).symm,
        fun _ hm => absurd hm (List.not_mem_nil _), fun _ _ _ _ => rfl⟩,
      ⟨[], (List.append_nil _).symm, rfl, fun _ _ => (List.append_nil _).symm⟩,
      ⟨[], (List.append_nil _).symm⟩, le_refl _, hcl2⟩

theorem base_undef_of_inv {s : smt_core_t} (h : PushInv s) {l : Int} (hl : lit_ok s l)
    (h1 : literal_base_value s l ≠ VAL_FALSE) (h2 : literal_base_value s l ≠ VAL_TRUE) :
    s.value l = VAL_UNDEF := by
  by_contra hv
  have hlev := h.levels l hl hv
  unfold literal_base_value at h1 h2
  rw [if_pos hlev] at h1 h2
  cases e : s.value l
  · exact h1 e
  · exact hv e
  · exact h2 e

theorem frame_add_preprocessed_clause {s : smt_core_t} (h : PushInv s) (hb : 0 < s.base_level)
    {a : List Int} (ha : ∀ l ∈ a, lit_ok s l) :
    PushInv (add_preprocessed_clause s a) ∧ Ext s (add_preprocessed_clause s a) := by
  obtain ⟨hnone, hsome, _⟩ := preprocess_clause_spec s a
  unfold add_preprocessed_clause
  cases e : preprocess_clause s a with
  | none => exact ⟨h, ext_refl s⟩
  | some b =>
    dsimp only
    obtain ⟨_, hmem, _⟩ := hsome b e
    have hnn : ¬ ((∃ l ∈ a, not_lit l ∈ a) ∨ (∃ l ∈ a, literal_base_value s l = VAL_TRUE)) := by
      intro hh
      have := hnone.2 hh
      rw [e] at this
      exact absurd this (by simp)
    have hok : ∀ x ∈ b, lit_ok s x := fun x hx => ha x ((hmem x).1 hx).1
    have hun : ∀ x ∈ b, s.value x = VAL_UNDEF := fun x hx =>
      base_undef_of_inv h (hok x hx) ((hmem x).1 hx).2
        (fun ht => hnn (Or.inr ⟨x, ((hmem x).1 hx).1, ht⟩))
    by_cases h2 : b.length > 2
    · rw [if_pos h2]
      exact frame_new_problem_clause h h2 hok
    · rw [if_neg h2]
      by_cases h3 : b.length = 2
      · rw [if_pos h3]
        match b, h3, hok with
        | [x, y], _, hok =>
          exact frame_direct_binary_clause h hb (hok x (by simp)) (hok y (by simp))
      · rw [if_neg h3]
        by_cases h4 : b.length = 1
        · rw [if_pos h4]
          match b, h4, hok, hun with
          | [x], _, hok, hun =>
            exact frame_add_simplified_unit_clause h (hok x (by simp)) (hun x (by simp))
        · rw [if_neg h4]
          exact frame_fields h rfl rfl rfl rfl rfl rfl rfl rfl rfl rfl rfl rfl rfl rfl rfl rfl rfl

theorem frame_add_clause {s : smt_core_t} (h : PushInv s) (hb : 0 < s.base_level)
    {a : List Int} (ha : ∀ l ∈ a, lit_ok s l) :
    PushInv (add_clause s a) ∧ Ext s (add_clause s a) := by
  unfold add_clause
  by_cases hf : on_the_fly s = true
  · rw [if_pos hf]
    exact frame_fields h rfl rfl rfl rfl rfl rfl rfl rfl rfl rfl rfl rfl rfl rfl rfl rfl rfl
  · rw [if_neg hf]
    obtain ⟨a1, a2⟩ := @frame_fields s { s with buffer2 := a } h
      rfl rfl rfl rfl rfl rfl rfl rfl rfl rfl rfl rfl rfl rfl rfl rfl rfl
    obtain ⟨b1, b2⟩ := @frame_add_preprocessed_clause { s with buffer2 := a } a1 hb a ha
    obtain ⟨c1, c2⟩ := @frame_fields (add_preprocessed_clause { s with buffer2 := a } a)
      { add_preprocessed_clause { s with buffer2 := a } a with buffer2 := [] } b1
      rfl rfl rfl rfl rfl rfl rfl rfl rfl rfl rfl rfl rfl rfl rfl rfl rfl
    exact ⟨c1, ext_trans h.nlits_eq (ext_trans h.nlits_eq a2 b2) c2⟩

theorem frame_level_step {s t : smt_core_t} (h : PushInv s) (hb : 0 < s.base_level)
    (st : LevelStep s t) : PushInv t ∧ Ext s t := by
  cases st with
  | new_var => exact frame_create_boolean_variable h
  | add_clause a ha => exact frame_add_clause h hb ha
  | propagate fuel r hr => exact frame_boolean_propagation h fuel r hr
  | theory_literal l e hl hu => exact frame_propagate_literal h hl hu e
  | theory_conflict a =>
    exact frame_fields h rfl rfl rfl rfl rfl rfl rfl rfl rfl rfl rfl rfl rfl rfl rfl rfl rfl
  | unsat =>
    exact frame_fields h rfl rfl rfl rfl rfl rfl rfl rfl rfl rfl rfl rfl rfl rfl rfl rfl rfl
  | simplify => exact frame_simplify_clause_database h hb

theorem frame_level_run {s t : smt_core_t} (h : PushInv s) (hb : 0 < s.base_level)
    (r : LevelRun s t) : PushInv t ∧ Ext s t := by
  induction r with
  | refl => exact ⟨h, ext_refl s⟩
  | step h1 h2 ih =>
    obtain ⟨a1, a2⟩ := ih
    obtain ⟨b1, b2⟩ := frame_level_step a1 (by rw [a2.base]; exact hb) h2
    exact ⟨b1, ext_trans h.nlits_eq a2 b2⟩

theorem watch_add_perm (s : smt_core_t) (l : Int) (x : link_t) (l1 : Int) :
    ((watch_add s l x).watch l1).Perm ((if l1 = l then [x] else []) ++ s.watch l1) := by
  show (upd s.watch l (if s.USE_END_WATCH then s.watch l ++ [x] else x :: s.watch l) l1).Perm _
  by_cases e : l1 = l
  · rw [e, upd_same, if_pos rfl]
    split
    · exact List.perm_append_comm
    · exact List.Perm.refl _
  · rw [upd_ne _ _ e, if_neg e]
    exact List.Perm.refl _

theorem watch_add_fields (s : smt_core_t) (l : Int) (x : link_t) :
    watch_add s l x = { s with watch := (watch_add s l x).watch } := rfl

theorem two_watch_add_perm (s : smt_core_t) (a b : Int) (c : Nat) (l : Int) :
    ((watch_add (watch_add s a (c, 0)) b (c, 1)).watch l).Perm
      ((if l = b then [((c, 1) : link_t)] else []) ++
        ((if l = a then [((c, 0) : link_t)] else []) ++ s.watch l)) :=
  (watch_add_perm _ _ _ l).trans (List.Perm.append_left _ (watch_add_perm _ _ _ l))

theorem restore_clauses_step_unfold (s : smt_core_t) (c : Nat) :
    restore_clauses_step s c =
      watch_add (watch_add { s with clauses := updN s.clauses c (restored_clause (s.clauses c)) }
        ((restored_clause (s.clauses c)).get 0) (c, 0))
        ((restored_clause (s.clauses c)).get 1) (c, 1) := by
  have e1 : ∀ x : clause_t, (updN s.clauses c x) c = x := fun x => by simp [updN]
  unfold restore_clauses_step restored_clause
  by_cases hm : is_clause_to_be_removed (s.clauses c) = true
  · simp only [if_pos hm]
    show watch_add (watch_add _ (((updN s.clauses c _) c).get 0) (c, 0))
      (((updN s.clauses c _) c).get 1) (c, 1) = _
    rw [e1]
  · simp only [if_neg hm]
    rw [updN_same_self]
    rfl

theorem restore_clauses_step_eq (s : smt_core_t) (c : Nat) :
    restore_clauses_step s c =
      { s with clauses := updN s.clauses c (restored_clause (s.clauses c)),
               watch := (restore_clauses_step s c).watch } ∧
    ∀ l, ((restore_clauses_step s c).watch l).Perm
      ((if l = (restored_clause (s.clauses c)).get 1 then [((c, 1) : link_t)] else []) ++
        ((if l = (restored_clause (s.clauses c)).get 0 then [((c, 0) : link_t)] else []) ++
          s.watch l)) := by
  rw [restore_clauses_step_unfold]
  exact ⟨rfl, fun l => two_watch_add_perm _ _ _ c l⟩

theorem restore_fold (v : List Nat) : ∀ s : smt_core_t, v.Nodup →
    ∃ cl w, v.foldl restore_clauses_step s = { s with clauses := cl, watch := w } ∧
      (∀ c, cl c = if c ∈ v then restored_clause (s.clauses c) else s.clauses c) ∧
      ∀ l, (s.watch l).Nodup → (∀ lnk ∈ s.watch l, lnk.1 ∉ v) →
        (w l).Nodup ∧ ∀ lnk : link_t, lnk ∈ w l ↔
          lnk ∈ s.watch l ∨
            (lnk.1 ∈ v ∧ lnk.2 < 2 ∧ (restored_clause (s.clauses lnk.1)).get lnk.2 = l) := by
  induction v with
  | nil =>
    intro s _
    exact ⟨s.clauses, s.watch, rfl, fun c => by simp, fun l hn _ => ⟨hn, fun lnk => by simp⟩⟩
  | cons c v ih =>
    intro s nd
    obtain ⟨hc, ndv⟩ := List.nodup_cons.mp nd
    obtain ⟨e1, e2⟩ := restore_clauses_step_eq s c
    obtain ⟨cl, w, e3, e4, e5⟩ := ih (restore_clauses_step s c) ndv
    have ecl : (restore_clauses_step s c).clauses =
        updN s.clauses c (restored_clause (s.clauses c)) := by rw [e1]
    refine ⟨cl, w, ?_, ?_, ?_⟩
    · rw [List.foldl_cons, e3, e1]
    · intro d
      rw [e4 d, ecl]
      by_cases hd : d = c
      · subst hd
        rw [if_neg hc, if_pos (List.mem_cons_self _ _)]
        simp [updN]
      · have : (d ∈ c :: v) ↔ d ∈ v := by simp [hd]
        simp only [this, updN, if_neg hd]
    · intro l hn hno
      have hmem : ∀ lnk : link_t, lnk ∈ (restore_clauses_step s c).watch l ↔
          (lnk = (c, 1) ∧ l = (restored_clause (s.clauses c)).get 1) ∨
          (lnk = (c, 0) ∧ l = (restored_clause (s.clauses c)).get 0) ∨ lnk ∈ s.watch l := by
        intro lnk
        rw [(e2 l).mem_iff]
        simp only [List.mem_append]
        constructor
        · rintro (h | h | h)
          · split at h
            · exact Or.inl ⟨List.mem_singleton.mp h, by assumption⟩
            · exact absurd h (List.not_mem_nil _)
          · split at h
            · exact Or.inr (Or.inl ⟨List.mem_singleton.mp h, by assumption⟩)
            · exact absurd h (List.not_mem_nil _)
          · exact Or.inr (Or.inr h)
        · rintro (⟨h1, h2⟩ | ⟨h1, h2⟩ | h)
          · exact Or.inl (by rw [if_pos h2, h1]; exact List.mem_singleton_self _)
          · exact Or.inr (Or.inl (by rw [if_pos h2, h1]; exact List.mem_singleton_self _))
          · exact Or.inr (Or.inr h)
      have hnd : ((restore_clauses_step s c).watch l).Nodup := by
        rw [(e2 l).nodup_iff]
        have n0 : ((c, 0) : link_t) ∉ s.watch l := fun hh =>
          hno _ hh (List.mem_cons_self _ _)
        have n1 : ((c, 1) : link_t) ∉ s.watch l := fun hh =>
          hno _ hh (List.mem_cons_self _ _)
        have n01 : ((c, 1) : link_t) ≠ (c, 0) := fun hh =>
          absurd (congrArg Prod.snd hh) (show ¬ ((1 : Nat) = 0) by decide)
        by_cases g1 : l = (restored_clause (s.clauses c)).get 1
        · by_cases g0 : l = (restored_clause (s.clauses c)).get 0
          · rw [if_pos g1, if_pos g0]
            exact List.nodup_cons.mpr ⟨fun hh => by
              rcases List.mem_cons.mp hh with h | h
              · exact n01 h
              · exact n1 h, List.nodup_cons.mpr ⟨n0, hn⟩⟩
          · rw [if_pos g1, if_neg g0]
            exact List.nodup_cons.mpr ⟨n1, hn⟩
        · by_cases g0 : l = (restored_clause (s.clauses c)).get 0
          · rw [if_neg g1, if_pos g0]
            exact List.nodup_cons.mpr ⟨n0, hn⟩
          · rw [if_neg g1, if_neg g0]
            exact hn
      have hno2 : ∀ lnk ∈ (restore_clauses_step s c).watch l, lnk.1 ∉ v := by
        intro lnk hl
        rcases (hmem lnk).mp hl with ⟨h, _⟩ | ⟨h, _⟩ | h
        · rw [h]; exact hc
        · rw [h]; exact hc
        · exact fun hh => hno lnk h (List.mem_cons_of_mem _ hh)
      obtain ⟨r1, r2⟩ := e5 l hnd hno2
      refine ⟨r1, fun lnk => ?_⟩
      rw [r2 lnk, hmem lnk, ecl]
      constructor
      · rintro ((⟨h1, h2⟩ | ⟨h1, h2⟩ | h) | ⟨h1, h2, h3⟩)
        · exact Or.inr ⟨by rw [h1]; exact List.mem_cons_self _ _,
            by rw [h1]; exact Nat.lt_succ_self 1, by rw [h1]; exact h2.symm⟩
        · exact Or.inr ⟨by rw [h1]; exact List.mem_cons_self _ _,
            by rw [h1]; exact Nat.zero_lt_two, by rw [h1]; exact h2.symm⟩
        · exact Or.inl h
        · have hne : lnk.1 ≠ c := fun e => hc (e ▸ h1)
          refine Or.inr ⟨List.mem_cons_of_mem _ h1, h2, ?_⟩
          simpa [updN, hne] using h3
      · rintro (h | ⟨h1, h2, h3⟩)
        · exact Or.inl (Or.inr (Or.inr h))
        · rcases List.mem_cons.mp h1 with e | e
          · obtain ⟨a, b⟩ := lnk
            have e' : a = c := e
            subst e'
            have hb : b = 0 ∨ b = 1 := by
              have : b < 2 := h2
              omega
            rcases hb with hb | hb
            · subst hb; exact Or.inl (Or.inr (Or.inl ⟨rfl, h3.symm⟩))
            · subst hb; exact Or.inl (Or.inl ⟨rfl, h3.symm⟩)
          · have hne : lnk.1 ≠ c := fun e2 => hc (e2 ▸ e)
            refine Or.inr ⟨e, h2, ?_⟩
            simpa [updN, hne] using h3

theorem foldl_mark_notin (L : List Nat) : ∀ (m : Nat → clause_t) (c : Nat), c ∉ L →
    (L.foldl (fun m c => updN m c (mark_for_removal (m c))) m) c = m c := by
  induction L with
  | nil => intro m c _; rfl
  | cons d L ih =>
    intro m c hc
    rw [List.foldl_cons, ih _ c (fun h => hc (List.mem_cons_of_mem _ h))]
    have : c ≠ d := fun e => hc (e ▸ List.mem_cons_self _ _)
    simp [updN, this]

theorem foldl_mark_if_notin (L : List Nat) : ∀ (m : Nat → clause_t) (c : Nat), c ∉ L →
    (L.foldl (fun m c => if is_clause_to_be_removed (m c) then m
      else updN m c (mark_for_removal (m c))) m) c = m c := by
  induction L with
  | nil => intro m c _; rfl
  | cons d L ih =>
    intro m c hc
    rw [List.foldl_cons, ih _ c (fun h => hc (List.mem_cons_of_mem _ h))]
    have : c ≠ d := fun e => hc (e ▸ List.mem_cons_self _ _)
    split
    · rfl
    · simp [updN, this]

/-- The state after `restore_clauses(s, n)`. -/
theorem restore_clauses_spec (s : smt_core_t) (n : Nat)
    (nd : (s.problem_clauses ++ s.learned_clauses).Nodup) :
    ∃ cl w, restore_clauses s n =
        { s with clauses := cl, watch := w, learned_clauses := [],
                 problem_clauses := s.problem_clauses.take n,
                 nb_clauses := n, nb_prob_clauses := n } ∧
      (∀ c ∈ s.problem_clauses.take n, cl c = restored_clause (s.clauses c)) ∧
      ∀ l, 0 ≤ l → l < (s.nlits : Int) →
        (w l).Nodup ∧ ∀ lnk : link_t, lnk ∈ w l ↔
          (lnk.1 ∈ s.problem_clauses.take n ∧ lnk.2 < 2 ∧ (cl lnk.1).get lnk.2 = l) := by
  have ndP : s.problem_clauses.Nodup := (List.nodup_append.1 nd).1
  have dis : ∀ d, d ∈ s.problem_clauses → d ∉ s.learned_clauses := fun d h1 h2 =>
    (List.nodup_append.1 nd).2.2 h1 h2
  have ndT : (s.problem_clauses.take n).Nodup := ndP.sublist (List.take_sublist _ _)
  have hsplit : ∀ c ∈ s.problem_clauses.take n, c ∉ s.problem_clauses.drop n := by
    intro c h1 h2
    have := ndP
    rw [← List.take_append_drop n s.problem_clauses] at this
    exact (List.nodup_append.1 this).2.2 h1 h2
  obtain ⟨cl, w, e3, e4, e5⟩ := restore_fold (s.problem_clauses.take n)
    { s with
      clauses := (s.problem_clauses.drop n).foldl
        (fun m c => if is_clause_to_be_removed (m c) then m else updN m c (mark_for_removal (m c)))
        (s.learned_clauses.foldl (fun m c => updN m c (mark_for_removal (m c))) s.clauses),
      watch := fun l => if 0 ≤ l ∧ l < (s.nlits : Int) then [] else s.watch l,
      learned_clauses := [],
      problem_clauses := s.problem_clauses.take n } ndT
  have h0 : restore_clauses s n =
      { (s.problem_clauses.take n).foldl restore_clauses_step
        { s with
          clauses := (s.problem_clauses.drop n).foldl
            (fun m c => if is_clause_to_be_removed (m c) then m
              else updN m c (mark_for_removal (m c)))
            (s.learned_clauses.foldl (fun m c => updN m c (mark_for_removal (m c))) s.clauses),
          watch := fun l => if 0 ≤ l ∧ l < (s.nlits : Int) then [] else s.watch l,
          learned_clauses := [],
          problem_clauses := s.problem_clauses.take n }
        with nb_clauses := n, nb_prob_clauses := n } := by
    unfold restore_clauses reset_watch_lists remove_problem_clauses remove_all_learned_clauses
    rfl
  have hcl : ∀ c ∈ s.problem_clauses.take n, cl c = restored_clause (s.clauses c) := by
    intro c hc
    rw [e4 c, if_pos hc]
    refine congrArg restored_clause ?_
    exact (foldl_mark_if_notin _ _ c (hsplit c hc)).trans
      (foldl_mark_notin _ _ c (dis c (List.mem_of_mem_take hc)))
  refine ⟨cl, w, ?_, hcl, ?_⟩
  · exact h0.trans (congrArg
      (fun t : smt_core_t => { t with nb_clauses := n, nb_prob_clauses := n }) e3)
  · intro l hl0 hl1
    have hw : (if 0 ≤ l ∧ l < (s.nlits : Int) then ([] : List link_t) else s.watch l) = [] :=
      if_pos ⟨hl0, hl1⟩
    obtain ⟨r1, r2⟩ := e5 l (by show List.Nodup (if _ then _ else _); rw [hw]; exact List.nodup_nil)
      (by
        intro lnk hlnk
        have : lnk ∈ (if 0 ≤ l ∧ l < (s.nlits : Int) then ([] : List link_t) else s.watch l) :=
          hlnk
        rw [hw] at this
        exact absurd this (List.not_mem_nil _))
    refine ⟨r1, fun lnk => ?_⟩
    rw [r2 lnk]
    constructor
    · rintro (h | ⟨h1, h2, h3⟩)
      · have : lnk ∈ (if 0 ≤ l ∧ l < (s.nlits : Int) then ([] : List link_t) else s.watch l) := h
        rw [hw] at this
        exact absurd this (List.not_mem_nil _)
      · refine ⟨h1, h2, ?_⟩
        rw [e4 lnk.1, if_pos h1]
        exact h3
    · rintro ⟨h1, h2, h3⟩
      refine Or.inr ⟨h1, h2, ?_⟩
      rw [e4 lnk.1, if_pos h1] at h3
      exact h3

theorem literal_vector_pop_getD (v : Option (List Int)) :
    (literal_vector_pop v).getD [] = (v.getD []).dropLast := by
  cases v <;> rfl

theorem flat_pairs_reverse_snoc (ext : List (Int × Int)) (a b : Int) :
    (flat_pairs (ext ++ [(a, b)])).reverse = b :: a :: (flat_pairs ext).reverse := by
  rw [flat_pairs_append]
  simp [flat_pairs]

/-- The loop of `restore_binary_clauses` removes from every binary vector the
literals that the clauses of `ext` added. -/
theorem restore_binary_loop_spec (ext : List (Int × Int)) :
    ∀ (bin : Int → Option (List Int)) (l : Int) (base : List Int),
      (bin l).getD [] = base ++ bin_ext ext l →
      (restore_binary_loop bin (flat_pairs ext).reverse l).getD [] = base := by
  induction ext using List.reverseRecOn with
  | nil =>
    intro bin l base h
    have : bin_ext [] l = [] := rfl
    rw [this, List.append_nil] at h
    exact h
  | append_singleton ext p ih =>
    obtain ⟨a, b⟩ := p
    intro bin l base h
    rw [flat_pairs_reverse_snoc]
    show (restore_binary_loop _ (flat_pairs ext).reverse l).getD [] = base
    apply ih
    rw [bin_ext_append] at h
    have hb : bin_ext [(a, b)] l = (if l = a then [b] else []) ++ (if l = b then [a] else []) := by
      simp [bin_ext]
    rw [hb, ← List.append_assoc, ← List.append_assoc] at h
    -- first pop: bin[b]
    have h1 : ((upd bin b (literal_vector_pop (bin b))) l).getD [] =
        (base ++ bin_ext ext l) ++ (if l = a then [b] else []) := by
      by_cases e : l = b
      · rw [e, upd_same, literal_vector_pop_getD]
        rw [e] at h
        rw [h, if_pos rfl]
        simp
      · rw [upd_ne _ _ e, h, if_neg e]
        simp
    by_cases e : l = a
    · rw [e, upd_same, literal_vector_pop_getD]
      rw [e] at h1
      rw [h1, if_pos rfl]
      simp
    · rw [upd_ne _ _ e, h1, if_neg e]
      simp

/-- The fields of the state after `smt_pop`, for a state at its base level
with a non-empty trail stack. -/
theorem smt_pop_fields (t : smt_core_t) (hl : t.decision_level = t.base_level)
    (top : trail_t) (rest : List trail_t) (hts : t.trail_stack = top :: rest)
    (nd : (t.problem_clauses ++ t.learned_clauses).Nodup) :
    ∃ (cl : Nat → clause_t) (w : Int → List link_t),
      ((∀ c ∈ t.problem_clauses.take top.nclauses, cl c = restored_clause (t.clauses c)) ∧
        ∀ l, 0 ≤ l → l < (t.nlits : Int) →
          (w l).Nodup ∧ ∀ lnk : link_t, lnk ∈ w l ↔
            (lnk.1 ∈ t.problem_clauses.take top.nclauses ∧ lnk.2 < 2 ∧
              (cl lnk.1).get lnk.2 = l)) ∧
      (smt_pop t).nvars = top.nvars ∧
      (smt_pop t).nlits = 2 * top.nvars ∧
      (smt_pop t).nb_unit_clauses = top.nunits ∧
      (smt_pop t).nb_bin_clauses =
        t.nb_bin_clauses - (t.binary_clauses.length - top.nbins) / 2 ∧
      (smt_pop t).binary_clauses = t.binary_clauses.take top.nbins ∧
      (smt_pop t).problem_clauses = t.problem_clauses.take top.nclauses ∧
      (smt_pop t).nb_prob_clauses = top.nclauses ∧
      (smt_pop t).learned_clauses = [] ∧
      (smt_pop t).clauses = cl ∧
      (smt_pop t).bin = (fun l => if 2 * (top.nvars : Int) ≤ l ∧ l < 2 * (t.nvars : Int) then none
        else restore_binary_loop t.bin (t.binary_clauses.drop top.nbins).reverse l) ∧
      (smt_pop t).watch = (fun l => if 2 * (top.nvars : Int) ≤ l ∧ l < 2 * (t.nvars : Int) then []
        else w l) ∧
      (smt_pop t).stack.lit = t.stack.lit.take (t.stack.level_index (t.base_level - 1 + 1)) ∧
      (smt_pop t).value =
        undo_value t.value (t.stack.lit.drop (t.stack.level_index (t.base_level - 1 + 1))).reverse ∧
      (smt_pop t).stack.prop_ptr = top.prop_ptr ∧
      (smt_pop t).stack.theory_ptr = top.theory_ptr ∧
      (smt_pop t).base_level = t.base_level - 1 ∧
      (smt_pop t).decision_level = t.base_level - 1 ∧
      (smt_pop t).trail_stack = rest ∧
      (smt_pop t).status = smt_status_t.STATUS_IDLE := by
  obtain ⟨cl, w, e, hcl, hw⟩ := restore_clauses_spec
    (clear_base_level_marks { t with th_calls := t.th_calls ++ [th_call_t.pop] }) top.nclauses nd
  have e0 : smt_pop t = smt_pop_restore
      (clear_base_level_marks { t with th_calls := t.th_calls ++ [th_call_t.pop] }) top rest := by
    unfold smt_pop backtrack_to_base_level
    rw [backtrack_to_level_ge (le_of_eq hl)]
    show (match t.trail_stack with
      | [] => t
      | top :: rest => smt_pop_restore _ top rest) = _
    rw [hts]
  refine ⟨cl, w, ⟨hcl, hw⟩, ?_⟩
  rw [e0]
  unfold smt_pop_restore
  rw [e]
  unfold restore_variables restore_binary_clauses
  dsimp only
  rw [backtrack_eq]
  exact ⟨rfl, rfl, rfl, rfl, rfl, rfl, rfl, rfl, rfl, rfl, rfl, rfl, rfl, rfl, rfl, rfl, rfl,
    rfl, rfl⟩

theorem flat_pairs_length (ext : List (Int × Int)) : (flat_pairs ext).length = 2 * ext.length := by
  induction ext with
  | nil => rfl
  | cons p r ih =>
    obtain ⟨a, b⟩ := p
    show (a :: b :: flat_pairs r).length = _
    simp only [List.length_cons, ih]
    omega

theorem smt_push_idle {s : smt_core_t} (hi : s.status = smt_status_t.STATUS_IDLE) :
    smt_push s =
      { s with
        trail_stack := saved_record s :: s.trail_stack
        th_calls := s.th_calls ++ [th_call_t.push]
        base_level := s.base_level + 1
        decision_level := s.base_level + 1
        stack := { s.stack with
          level_index := fun j =>
            if j = s.base_level + 1 then s.stack.top else s.stack.level_index j } } := by
  unfold smt_push
  rw [if_neg (by rw [hi]; intro h; rcases h with h | h <;> exact absurd h (by decide))]
  rfl

theorem frame_smt_push {s : smt_core_t} (h : PushInv s)
    (hi : s.status = smt_status_t.STATUS_IDLE) : PushInv (smt_push s) := by
  rw [smt_push_idle hi]
  exact ⟨h.nlits_eq, rfl, h.end1, h.end2, h.trail, h.pair,
    fun l hl hv => Nat.le_succ_of_le (h.levels l hl hv), h.links, h.bins, h.handles, h.nodup⟩

theorem smt_push_fields {s : smt_core_t} (hi : s.status = smt_status_t.STATUS_IDLE) :
    (smt_push s).nlits = s.nlits ∧ (smt_push s).base_level = s.base_level + 1 ∧
    (smt_push s).trail_stack = saved_record s :: s.trail_stack ∧
    (smt_push s).stack.level_index (s.base_level + 1) = s.stack.lit.length ∧
    (smt_push s).stack.lit = s.stack.lit ∧ (smt_push s).value = s.value ∧
    (smt_push s).bin = s.bin ∧ (smt_push s).binary_clauses = s.binary_clauses ∧
    (smt_push s).nb_bin_clauses = s.nb_bin_clauses ∧
    (smt_push s).problem_clauses = s.problem_clauses ∧
    (smt_push s).clauses = s.clauses := by
  rw [smt_push_idle hi]
  refine ⟨rfl, rfl, rfl, ?_, rfl, rfl, rfl, rfl, rfl, rfl, rfl⟩
  show (if s.base_level + 1 = s.base_level + 1 then s.stack.top else _) = _
  rw [if_pos rfl]
  rfl

/-- The state after `smt_pop`, for a state `t` reached from `smt_push s0` by
operations at the base level. -/
theorem smt_pop_after_run {s0 t : smt_core_t} (inv : PushInv s0)
    (hi : s0.status = smt_status_t.STATUS_IDLE) (run : LevelRun (smt_push s0) t) :
    (smt_pop t).nvars = s0.nvars ∧
    (smt_pop t).nlits = s0.nlits ∧
    (smt_pop t).nb_unit_clauses = s0.nb_unit_clauses ∧
    (smt_pop t).nb_bin_clauses = s0.nb_bin_clauses ∧
    (smt_pop t).binary_clauses = s0.binary_clauses ∧
    (smt_pop t).problem_clauses = s0.problem_clauses ∧
    (smt_pop t).nb_prob_clauses = s0.problem_clauses.length ∧
    (∀ c ∈ s0.problem_clauses,
      ((smt_pop t).clauses c).cl.Perm (restored_clause (s0.clauses c)).cl) ∧
    (∀ l, lit_ok s0 l → ((smt_pop t).bin l).getD [] = (s0.bin l).getD []) ∧
    (smt_pop t).stack.lit = s0.stack.lit ∧
    (∀ l, lit_ok s0 l → (smt_pop t).value l = s0.value l) ∧
    (smt_pop t).stack.prop_ptr = s0.stack.prop_ptr ∧
    (smt_pop t).stack.theory_ptr = s0.stack.theory_ptr ∧
    (smt_pop t).base_level = s0.base_level ∧
    (smt_pop t).decision_level = s0.decision_level ∧
    (smt_pop t).trail_stack = s0.trail_stack ∧
    (smt_pop t).learned_clauses = [] ∧
    (∀ l, lit_ok s0 l → ((smt_pop t).watch l).Nodup ∧
      ∀ lnk : link_t, lnk ∈ (smt_pop t).watch l ↔
        (lnk.1 ∈ (smt_pop t).problem_clauses ∧ lnk.2 < 2 ∧
          ((smt_pop t).clauses lnk.1).get lnk.2 = l)) ∧
    (smt_pop t).status = smt_status_t.STATUS_IDLE := by
  obtain ⟨p1, p2, p3, p4, p5, p6, p7, p8, p9, p10, p11⟩ := smt_push_fields hi
  have invp := frame_smt_push inv hi
  obtain ⟨invt, ext⟩ := frame_level_run invp (by rw [p2]; exact Nat.succ_pos _) run
  have hok : ∀ l, lit_ok s0 l → lit_ok (smt_push s0) l := fun l hl =>
    (lit_ok_congr p1 l).mpr hl
  have hts : t.trail_stack = saved_record s0 :: s0.trail_stack := by rw [ext.trail_stack, p3]
  have hbase : t.base_level = s0.base_level + 1 := by rw [ext.base, p2]
  obtain ⟨cl, w, ⟨hcl, hw⟩, f1, f2, f3, f4, f5, f6, f7, f8, f9, f10, f11, f12, f13, f14, f15, f16,
    f17, f18, f19⟩ := smt_pop_fields t invt.level_eq (saved_record s0) s0.trail_stack hts invt.nodup
  obtain ⟨new, hnew, hnew1, hnew2⟩ := ext.stack
  obtain ⟨bx, hbx1, hbx2, hbx3⟩ := ext.binary
  obtain ⟨extra, hextra⟩ := ext.problem
  rw [p5] at hnew
  rw [p8] at hbx1
  rw [p9] at hbx2
  rw [p10] at hextra
  have hidx : t.stack.level_index (t.base_level - 1 + 1) = s0.stack.lit.length := by
    rw [hbase, ext.level_index]
    exact p4
  have htake : t.problem_clauses.take (saved_record s0).nclauses = s0.problem_clauses := by
    rw [hextra]
    exact List.take_left' rfl
  have hrange : ∀ l, lit_ok s0 l →
      ¬ (2 * ((saved_record s0).nvars : Int) ≤ l ∧ l < 2 * (t.nvars : Int)) := by
    intro l hl hc
    have h2 := hl.2
    rw [inv.nlits_eq] at h2
    push_cast at h2
    have h3 : 2 * (s0.nvars : Int) ≤ l := hc.1
    omega
  refine ⟨f1, ?_, f3, ?_, ?_, ?_, f7, ?_, ?_, ?_, ?_, f14, f15, ?_, ?_, f18, f8, ?_, f19⟩
  · rw [f2, inv.nlits_eq]; rfl
  · rw [f4, hbx2, hbx1, List.length_append, flat_pairs_length]
    show s0.nb_bin_clauses + bx.length -
      (s0.binary_clauses.length + 2 * bx.length - s0.binary_clauses.length) / 2 = _
    omega
  · rw [f5, hbx1]
    exact List.take_left' rfl
  · rw [f6, htake]
  · intro c hc
    rw [f9, hcl c (by rw [htake]; exact hc)]
    have := ext.clauses c (by rw [p10]; exact hc)
    rw [p11] at this
    exact this
  · intro l hl
    rw [f10]
    beta_reduce
    rw [if_neg (hrange l hl)]
    have hd : t.binary_clauses.drop (saved_record s0).nbins = flat_pairs bx := by
      rw [hbx1]
      exact List.drop_left' rfl
    rw [hd]
    apply restore_binary_loop_spec
    have := hbx3 l (hok l hl)
    rw [p7] at this
    exact this
  · rw [f12, hidx, hnew]
    exact List.take_left' rfl
  · intro l hl
    rw [f13, hidx, hnew, List.drop_left' rfl, undo_value_apply]
    by_cases hex : ∃ d ∈ new.reverse, l = d ∨ l = not_lit d
    · rw [if_pos hex]
      obtain ⟨d, hd, hd2⟩ := hex
      have hd' : d ∈ new := List.mem_reverse.mp hd
      rcases hd2 with e | e
      · have := (hnew1 d hd' (by rw [← e]; exact hok l hl)).1
        rw [p6, ← e] at this
        exact this.symm
      · have hdl : d = not_lit l := by rw [e, not_lit_not_lit]
        have hokd : lit_ok s0 d := by rw [hdl]; exact lit_ok_not inv.nlits_eq hl
        have := (hnew1 d hd' (hok d hokd)).2
        rw [p6, ← e] at this
        exact this.symm
    · rw [if_neg hex]
      have h1 : l ∉ new := fun hh => hex ⟨l, List.mem_reverse.mpr hh, Or.inl rfl⟩
      have h2 : not_lit l ∉ new := fun hh =>
        hex ⟨not_lit l, List.mem_reverse.mpr hh, Or.inr (not_lit_not_lit l).symm⟩
      have := hnew2 l (hok l hl) h1 h2
      rw [p6] at this
      exact this
  · rw [f16, hbase]; rfl
  · rw [f17, hbase, inv.level_eq]; rfl
  · intro l hl
    rw [f11, f6, f9, htake]
    beta_reduce
    rw [if_neg (hrange l hl)]
    have hlt : l < (t.nlits : Int) :=
      (lit_ok_mono ext.nlits (hok l hl)).2
    obtain ⟨r1, r2⟩ := hw l hl.1 hlt
    refine ⟨r1, fun lnk => ?_⟩
    rw [r2 lnk, htake]

theorem pushInv_init : PushInv (init_smt_core blank_core smt_mode_t.SMT_MODE_PUSHPOP) := by
  have hcase : ∀ l, lit_ok (init_smt_core blank_core smt_mode_t.SMT_MODE_PUSHPOP) l →
      l = 0 ∨ l = 1 := by
    intro l hl
    have h1 : 0 ≤ l := hl.1
    have h2 : l < ((2 : Nat) : Int) := hl.2
    omega
  refine ⟨by decide, by decide, by decide, by decide, ?_, ?_, ?_, ?_, ?_, ?_, ?_⟩
  · intro q hq
    exact absurd hq (List.not_mem_nil _)
  · intro l hl hu
    revert hu
    rcases hcase l hl with e | e <;> subst e <;> decide
  · intro l hl _
    rcases hcase l hl with e | e <;> subst e <;> decide
  · intro l hl lnk hlnk
    rcases hcase l hl with e | e <;> subst e <;> exact absurd hlnk (List.not_mem_nil _)
  · intro l hl v hv
    revert hv v
    rcases hcase l hl with e | e <;> subst e <;> intro v hv <;>
      exact absurd (show (none : Option (List Int)) = some v from hv) (fun h => Option.noConfusion h)
  · intro c hc
    exact absurd hc (List.not_mem_nil _)
  · exact List.nodup_nil

theorem pushInv_core4 : PushInv core4 :=
  (frame_create_boolean_variable
    (frame_create_boolean_variable (frame_create_boolean_variable pushInv_init).1).1).1

theorem lit_ok_sample (s : smt_core_t) (a : List Int) (h : a.all (fun l => decide (0 ≤ l) &&
    decide (l < (s.nlits : Int))) = true) : ∀ l ∈ a, lit_ok s l := by
  intro l hl
  have := List.all_eq_true.mp h l hl
  simp only [Bool.and_eq_true, decide_eq_true_eq] at this
  exact this

theorem pushInv_sample_push0 : PushInv sample_push0 :=
  (frame_add_clause (frame_smt_push pushInv_core4 (by decide)) (by decide)
    (lit_ok_sample _ [2, 4, 6] (by decide))).1

theorem run_sample_push : LevelRun (smt_push sample_push0) sample_push3 := by
  have h1 : LevelRun (smt_push sample_push0) sample_push1 :=
    LevelRun.step (LevelRun.step (LevelRun.refl _)
      (LevelStep.add_clause _ [3, 5] (lit_ok_sample _ [3, 5] (by decide))))
      (LevelStep.add_clause _ [2] (lit_ok_sample _ [2] (by decide)))
  have hs : (boolean_propagation 10 sample_push1).isSome = true := by decide
  obtain ⟨r, hr⟩ := Option.isSome_iff_exists.mp hs
  have e2 : sample_push2 = r.2 := by
    unfold sample_push2
    rw [hr]
  have h2 : LevelRun (smt_push sample_push0) sample_push2 := by
    rw [e2]
    exact LevelRun.step h1 (LevelStep.propagate _ 10 r hr)
  exact LevelRun.step h2 (LevelStep.simplify _)

/-- C26, amended: let `s0` be a core state with status Idle in which no problem
clause is marked for removal and `nb_prob_clauses` is the size of the vector of
problem clauses, and let `t` be reached from `smt_push s0` by variable
creations, clause additions, Boolean propagations, theory propagations and
conflicts, and simplifications of the clause database, all at the base level
(attaching an atom does not change the core).  Then `smt_pop t` has the values
of `s0` for `nvars`, `nlits`, `nb_unit_clauses`, `nb_bin_clauses`, the vector of
problem clauses and `nb_prob_clauses`, the literals of every problem clause,
the contents of `bin[l]` for `l < nlits`, the trail, the value of every
literal, `prop_ptr`, `theory_ptr`, `base_level`, `decision_level` and the trail
stack; it has no learned clause, every watch list `watch[l]` holds the links
`(c, i)` with `c` a problem clause and `l = c[i]`, `i < 2`, each once, and the
status is Idle. -/
theorem smt_push_pop_round_trip {s0 t : smt_core_t} (inv : PushInv s0)
    (hi : s0.status = smt_status_t.STATUS_IDLE)
    (hclean : ∀ c ∈ s0.problem_clauses, is_clause_to_be_removed (s0.clauses c) = false)
    (hcount : s0.nb_prob_clauses = s0.problem_clauses.length)
    (run : LevelRun (smt_push s0) t) : RoundTrip s0 (smt_pop t) := by
  obtain ⟨a1, a2, a3, a4, _, a6, a7, a8, a9, a10, a11, a12, a13, a14, a15, a16, a17, a18, a19⟩ :=
    smt_pop_after_run inv hi run
  refine ⟨a1, a2, a3, a4, a6, by rw [a7, hcount], ?_, a9, a10, a11, a12, a13, a14, a15, a16, a17,
    a18, a19⟩
  intro c hc
  have := a8 c hc
  rw [restored_of_unmarked _ (hclean c hc)] at this
  exact this

theorem smt_push_pop_round_trip_witness :
    PushInv sample_push0 ∧ sample_push0.status = smt_status_t.STATUS_IDLE ∧
    (∀ c ∈ sample_push0.problem_clauses,
      is_clause_to_be_removed (sample_push0.clauses c) = false) ∧
    sample_push0.nb_prob_clauses = sample_push0.problem_clauses.length ∧
    LevelRun (smt_push sample_push0) sample_push3 ∧
    RoundTrip sample_push0 (smt_pop sample_push3) :=
  ⟨pushInv_sample_push0, by decide, by decide, by decide, run_sample_push,
    smt_push_pop_round_trip pushInv_sample_push0 (by decide) (by decide) (by decide)
      run_sample_push⟩

/-- C26 as stated fails: in `sample_push3`, a state with status Idle at base
level 2, the problem clause `{2, 4, 6}` is marked for removal (its first two
literals are stored negated, and `nb_prob_clauses` is 0).  After `smt_push`
followed at once by `smt_pop` the mark is undone: the clause is stored as
`2, 4, 6`, it is back in the watch list of the literal 2, and
`nb_prob_clauses` is 1. -/
theorem smt_push_pop_restores_marked_clause :
    PushInv sample_push3 ∧ sample_push3.status = smt_status_t.STATUS_IDLE ∧
    LevelRun (smt_push sample_push3) (smt_push sample_push3) ∧
    sample_push3.problem_clauses = [0] ∧
    sample_push3.nb_prob_clauses = 0 ∧
    (smt_pop (smt_push sample_push3)).nb_prob_clauses = 1 ∧
    (sample_push3.clauses 0).cl = [-2, -4, 6] ∧
    ((smt_pop (smt_push sample_push3)).clauses 0).cl = [2, 4, 6] ∧
    sample_push3.watch 2 = [] ∧
    (smt_pop (smt_push sample_push3)).watch 2 = [(0, 0)] ∧
    ¬ RoundTrip sample_push3 (smt_pop (smt_push sample_push3)) :=
  ⟨(frame_level_run (frame_smt_push pushInv_sample_push0 (by decide)) (by decide)
      run_sample_push).1,
    by decide, LevelRun.refl _, by decide, by decide, by decide, by decide, by decide, by decide,
    by decide, fun h => absurd h.nb_prob_clauses (by decide)⟩

end SmtCore
